import Mathlib

/-!
# jscript property store and cycle collector (dlls/jscript/dispex.c)

A shallow embedding of the property slot table, the property resolver, the
accessor protocol and the cycle collector of `dlls/jscript/dispex.c`.

Conventions of the embedding

* A `WCHAR` string is the list of its code units (the terminating NUL is not
  part of the list).
* `unsigned` values are natural numbers; where the C arithmetic wraps, the
  reduction modulo `2^32` is written out.  The `~0` sentinel of the bucket
  links is `NIL = 2^32 - 1`.
* A `jsdisp_t *` is the index of the object in the heap of the store.
* Memory allocation can fail: `avail` is the number of allocations the
  allocator will still grant.
* A result `none` of a store operation means that the C code has no defined
  result there: a loop that does not end, a use of freed memory, or a call
  that leaves this file (the external proxy, a class callback).
-/

namespace Dispex

/-! ## Data model -/

/-- A wide string: the code units of a NUL-terminated `WCHAR *`. -/
abbrev WSTR := List Nat

/-- The sentinel `~0` that ends a bucket chain. -/
def NIL : Nat := 4294967295

def GOLDEN_RATIO : Nat := 0x9E3779B9

def PROPF_METHOD : Nat := 0x0100
def PROPF_ENUMERABLE : Nat := 0x0400
def PROPF_WRITABLE : Nat := 0x0800
def PROPF_CONFIGURABLE : Nat := 0x1000
def PROPF_ALL : Nat := PROPF_ENUMERABLE ||| PROPF_WRITABLE ||| PROPF_CONFIGURABLE
def PROPF_VERSION_MASK : Nat := 0x01ff0000
def PROPF_VERSION_SHIFT : Nat := 16
def PROPF_HTML : Nat := 0x04000000

inductive HRESULT where
  | S_OK
  | S_FALSE
  | E_OUTOFMEMORY
  | E_FAIL
  | E_UNEXPECTED
  | E_NOTIMPL
  | DISP_E_UNKNOWNNAME
  | DISP_E_MEMBERNOTFOUND
  | JS_E_INVALID_ACTION
  | JS_E_FUNCTION_EXPECTED
  | JS_E_OBJECT_NONEXTENSIBLE
  | JS_E_NONCONFIGURABLE_REDEFINED
  | JS_E_NONWRITABLE_MODIFIED
  | JS_E_CYCLIC_PROTO_VALUE
  | JS_E_CANNOT_CREATE_FOR_NONEXTENSIBLE
  deriving DecidableEq, Repr

/-- The `FAILED` test of an `HRESULT`: every status but `S_OK` and `S_FALSE`. -/
def FAILED (hres : HRESULT) : Bool :=
  match hres with
  | HRESULT.S_OK => false
  | HRESULT.S_FALSE => false
  | _ => true

inductive prop_type_t where
  | PROP_JSVAL
  | PROP_BUILTIN
  | PROP_PROTREF
  | PROP_ACCESSOR
  | PROP_PROXY
  | PROP_DELETED
  | PROP_IDX
  deriving DecidableEq, Repr

/-- A script value.  `obj p` is an object instance whose dispatch object is the
`jsdisp_t` at heap index `p` (`to_jsdisp` is non-NULL); `disp d` is an object
instance held through a foreign `IDispatch`. -/
inductive jsval_t where
  | undefined
  | number (n : Int)
  | obj (p : Nat)
  | disp (d : Nat)
  deriving DecidableEq, Repr

/-- An entry of a static builtin table.  Function pointers are kept as the
identifier of the function, `none` for NULL. -/
structure builtin_prop_t where
  name : WSTR
  invoke : Option Nat
  flags : Nat
  getter : Option Nat
  setter : Option Nat
  deriving DecidableEq, Repr

/-- The union `u` of a slot.  `unset` stands for bytes no code has written. -/
inductive prop_u where
  | unset
  | val (v : jsval_t)
  | p (b : builtin_prop_t)
  | ref (r : Nat)
  | idx (i : Nat)
  | accessor (getter setter : Option Nat)
  | proxy_id (d : Int)
  deriving DecidableEq, Repr

structure dispex_prop_t where
  name : WSTR
  hash : Nat
  type : prop_type_t
  flags : Nat
  u : prop_u
  bucket_head : Nat
  bucket_next : Nat
  deriving DecidableEq, Repr

/-- The slot as `init_dispex` leaves it: zeroed memory with both bucket links
set to `~0`. -/
def dispex_prop_t.zero : dispex_prop_t :=
  { name := [], hash := 0, type := prop_type_t.PROP_JSVAL, flags := 0, u := prop_u.unset,
    bucket_head := NIL, bucket_next := NIL }

instance : Inhabited dispex_prop_t := ⟨dispex_prop_t.zero⟩

/-- The static class description of an object.  `idx_length` is the callback
represented by the element count it reports for this object (`none` for a
NULL pointer); of the other callbacks only their presence is recorded. -/
structure builtin_info_t where
  jsclass : Nat
  props : List builtin_prop_t
  idx_length : Option Nat
  idx_put : Bool
  on_put : Bool
  gc_traverse : Bool
  deriving DecidableEq, Repr

structure jsdisp_t where
  ref : Int
  buf_size : Nat
  prop_cnt : Nat
  props : List dispex_prop_t
  prototype : Option Nat
  extensible : Bool
  gc_marked : Bool
  has_weak_refs : Bool
  proxy : Option Nat
  ctx : Nat
  builtin_info : builtin_info_t
  deriving DecidableEq, Repr

/-! ## C library functions -/

/-- Modelled from the spec: `towlower` of the C library, which is not part of
this file; the lower-casing of the C locale (`A`..`Z` to `a`..`z`). -/
def towlower (c : Nat) : Nat :=
  if 65 ≤ c ∧ c ≤ 90 then c + 32 else c

/-- Modelled from the spec: `wcscmp` of the C library by its standard
contract, the sign of the first differing code unit. -/
def wcscmp : WSTR → WSTR → Int
  | [], [] => 0
  | [], _ :: _ => -1
  | _ :: _, [] => 1
  | a :: s, b :: t => if a < b then -1 else if b < a then 1 else wcscmp s t

/-- Modelled from the spec: `wcsicmp`, the comparison of the two strings after
lower-casing every character. -/
def wcsicmp (s t : WSTR) : Int :=
  wcscmp (s.map towlower) (t.map towlower)

/-- Modelled from the spec: the allocator.  An allocation succeeds while the
budget is not used up. -/
def malloc (avail : Nat) : Option Nat :=
  if avail = 0 then none else some (avail - 1)

/-! ## The slot table -/

def string_hash_step (h c : Nat) : Nat :=
  ((h >>> 28) ^^^ ((h <<< 4) % 4294967296)) ^^^ towlower c

def string_hash (name : WSTR) : Nat :=
  name.foldl string_hash_step 0

def get_props_idx (This : jsdisp_t) (hash : Nat) : Nat :=
  ((hash * GOLDEN_RATIO) % 4294967296) &&& (This.buf_size - 1)

/-- The slot `This->props[i]`. -/
def slot (This : jsdisp_t) (i : Nat) : dispex_prop_t :=
  This.props.getD i dispex_prop_t.zero

/-- A store into `This->props[i]`. -/
def set_slot (This : jsdisp_t) (i : Nat) (f : dispex_prop_t → dispex_prop_t) : jsdisp_t :=
  { This with props := This.props.set i (f (slot This i)) }

/-- The first loop of `resize_props`: both links of every slot become `~0`. -/
def clear_links (props : List dispex_prop_t) : List dispex_prop_t :=
  props.map (fun p => { p with bucket_head := NIL, bucket_next := NIL })

/-- One round of the second loop of `resize_props`. -/
def rehash_step (This : jsdisp_t) (i : Nat) : jsdisp_t :=
  let bucket := get_props_idx This (slot This i).hash
  let This1 := set_slot This i (fun p => { p with bucket_next := (slot This bucket).bucket_head })
  set_slot This1 bucket (fun p => { p with bucket_head := i })

def resize_props (This : jsdisp_t) (avail : Nat) : HRESULT × jsdisp_t × Nat :=
  if This.buf_size ≠ This.prop_cnt then (HRESULT.S_FALSE, This, avail)
  else
    match malloc avail with
    | none => (HRESULT.E_OUTOFMEMORY, This, avail)
    | some avail1 =>
      let size := This.buf_size * 2
      let props := (This.props ++ List.replicate size dispex_prop_t.zero).take size
      let This1 := { This with buf_size := size, props := clear_links props }
      ((List.range This1.prop_cnt).foldl rehash_step This1 |> fun r => (HRESULT.S_OK, r, avail1))

def alloc_prop (This : jsdisp_t) (name : WSTR) (type : prop_type_t) (flags : Nat) (avail : Nat) :
    Option Nat × jsdisp_t × Nat :=
  match resize_props This avail with
  | (hres, This1, avail1) =>
    if FAILED hres then (none, This1, avail1)
    else
      match malloc avail1 with
      | none => (none, set_slot This1 This1.prop_cnt (fun p => { p with name := [] }), avail1)
      | some avail2 =>
        let i := This1.prop_cnt
        let hash := string_hash name
        let This2 := set_slot This1 i
          (fun p => { p with name := name, type := type, flags := flags, hash := hash })
        let bucket := get_props_idx This2 hash
        let This3 := set_slot This2 i (fun p => { p with bucket_next := (slot This2 bucket).bucket_head })
        let This4 := set_slot This3 bucket (fun p => { p with bucket_head := i })
        (some i, { This4 with prop_cnt := i + 1 }, avail2)

/-- The test of `find_prop_name_raw` on one slot name. -/
def name_match (case_insens : Bool) (name slot_name : WSTR) : Bool :=
  if case_insens then wcsicmp name slot_name == 0 else wcscmp name slot_name == 0

/-- The loop of `find_prop_name_raw`; `fuel` bounds the number of rounds. -/
def find_prop_name_raw_loop (name : WSTR) (case_insens : Bool) (bucket : Nat) :
    Nat → jsdisp_t → Nat → Nat → Option (jsdisp_t × Option Nat)
  | 0, _, _, _ => none
  | fuel + 1, This, pos, prev =>
    if pos = NIL then some (This, none)
    else if name_match case_insens name (slot This pos).name then
      if prev ≠ NIL then
        let This1 := set_slot This prev (fun p => { p with bucket_next := (slot This pos).bucket_next })
        let This2 := set_slot This1 pos (fun p => { p with bucket_next := (slot This1 bucket).bucket_head })
        let This3 := set_slot This2 bucket (fun p => { p with bucket_head := pos })
        some (This3, some pos)
      else some (This, some pos)
    else find_prop_name_raw_loop name case_insens bucket fuel This (slot This pos).bucket_next pos

/-- The own-table lookup.  The walk of a chain that never reaches `~0` does not
end; a chain without a cycle ends within `props.length + 1` rounds. -/
def find_prop_name_raw (This : jsdisp_t) (hash : Nat) (name : WSTR) (case_insens : Bool) :
    Option (jsdisp_t × Option Nat) :=
  let bucket := get_props_idx This hash
  find_prop_name_raw_loop name case_insens bucket (This.props.length + 1) This
    (slot This bucket).bucket_head NIL

/-! ## The store: heap of objects, context, allocator -/

structure script_ctx_t where
  self : Nat
  objects : List Nat
  gc_is_unlinking : Bool
  html_mode : Bool
  site : Option Nat
  version : Nat
  deriving DecidableEq, Repr

/-- The memory seen by this file: the heap of dispatch objects (`none` is a
freed object), the script context with its list of live objects, and the
number of allocations the allocator will still grant. -/
structure Store where
  heap : List (Option jsdisp_t)
  ctx : script_ctx_t
  avail : Nat
  deriving DecidableEq, Repr

/-- The object a `jsdisp_t *` points to; `none` when it is not allocated. -/
def Store.obj (s : Store) (p : Nat) : Option jsdisp_t :=
  s.heap.getD p none

def Store.set_obj (s : Store) (p : Nat) (o : jsdisp_t) : Store :=
  { s with heap := s.heap.set p (some o) }

/-- The `free` of the object at `p`. -/
def Store.free_obj (s : Store) (p : Nat) : Store :=
  { s with heap := s.heap.set p none }

def Store.list_remove (s : Store) (p : Nat) : Store :=
  { s with ctx := { s.ctx with objects := s.ctx.objects.erase p } }

def Store.list_add_tail (s : Store) (p : Nat) : Store :=
  { s with ctx := { s.ctx with objects := s.ctx.objects ++ [p] } }

def u_val (u : prop_u) : jsval_t :=
  match u with
  | prop_u.val v => v
  | _ => jsval_t.undefined

def u_ref (u : prop_u) : Nat :=
  match u with
  | prop_u.ref r => r
  | _ => 0

def u_getter (u : prop_u) : Option Nat :=
  match u with
  | prop_u.accessor g _ => g
  | _ => none

def u_setter (u : prop_u) : Option Nat :=
  match u with
  | prop_u.accessor _ g => g
  | _ => none

/-- The object a value holds a reference on: `to_jsdisp(get_object(val))` of an
object instance, `none` otherwise. -/
def val_link (v : jsval_t) : Option Nat :=
  match v with
  | jsval_t.obj p => some p
  | _ => none

/-- The objects one slot holds references on, in the order `jsdisp_free` and
`unlink_jsdisp` release them: the object of a value slot, then getter and
setter of an accessor slot. -/
def slot_edges (prop : dispex_prop_t) : List Nat :=
  match prop.type with
  | prop_type_t.PROP_JSVAL => (val_link (u_val prop.u)).toList
  | prop_type_t.PROP_ACCESSOR => (u_getter prop.u).toList ++ (u_setter prop.u).toList
  | _ => []

/-- The slots in use, `props[0 .. prop_cnt)`. -/
def live_props (o : jsdisp_t) : List dispex_prop_t :=
  o.props.take o.prop_cnt

def jsdisp_reacquire (s : Store) (p : Nat) (o : jsdisp_t) : Store :=
  if o.ctx = s.ctx.self then s.list_add_tail p else s

def jsdisp_addref (s : Store) (p : Nat) : Option Store :=
  match s.obj p with
  | none => none
  | some o =>
    let s1 := s.set_obj p { o with ref := o.ref + 1 }
    if o.ref + 1 = 1 then some (jsdisp_reacquire s1 p o) else some s1

/-- A run of releases, each by `rel`, in list order. -/
def release_all (rel : Store → Nat → Option Store) : List Nat → Store → Option Store
  | [], s => some s
  | p :: ps, s => (rel s p).bind (release_all rel ps)

/-- The body of `jsdisp_free`; `rel` is `jsdisp_release` for the nested
releases.  An object bound to a proxy leaves the list and stays allocated.
The weak-reference table is outside this file.  The class destructor, when
there is one, frees the object as `free` does. -/
def jsdisp_free (rel : Store → Nat → Option Store) (s : Store) (p : Nat) : Option Store :=
  match s.obj p with
  | none => none
  | some o =>
    let s1 := s.list_remove p
    if o.proxy.isSome then some s1
    else if o.has_weak_refs then none
    else
      (release_all rel ((live_props o).flatMap slot_edges) s1).bind fun s2 =>
      (match o.prototype with
        | none => some s2
        | some q => rel s2 q).bind fun s3 =>
      some (s3.free_obj p)

/-- The release of one reference, `fuel` bounding the depth of the cascade. -/
def jsdisp_release_fuel : Nat → Store → Nat → Option Store
  | 0, _, _ => none
  | fuel + 1, s, p =>
    match s.obj p with
    | none => none
    | some o =>
      let s1 := s.set_obj p { o with ref := o.ref - 1 }
      if o.ref - 1 = 0 then jsdisp_free (jsdisp_release_fuel fuel) s1 p else some s1

/-- The release of one reference.  A cascade frees each object at most once,
so its depth is at most the number of objects. -/
def jsdisp_release (s : Store) (p : Nat) : Option Store :=
  jsdisp_release_fuel (s.heap.length + 1) s p

def jsval_release (s : Store) (v : jsval_t) : Option Store :=
  match val_link v with
  | some p => jsdisp_release s p
  | none => some s

/-- The reference `jsval_copy` takes on the object of the copied value. -/
def jsval_copy (s : Store) (v : jsval_t) : Option Store :=
  match val_link v with
  | some p => jsdisp_addref s p
  | none => some s

def dispex_info : builtin_info_t :=
  { jsclass := 0, props := [], idx_length := none, idx_put := false, on_put := false,
    gc_traverse := false }

/-- The object `init_dispex` sets up, before it is linked to its prototype and
entered in the list. -/
def init_object (ctx : Nat) (builtin_info : builtin_info_t) (prototype : Option Nat) : jsdisp_t :=
  { ref := 1, buf_size := 4, prop_cnt := 0,
    props := List.replicate 4 dispex_prop_t.zero,
    prototype := prototype, extensible := true, gc_marked := false, has_weak_refs := false,
    proxy := none, ctx := ctx, builtin_info := builtin_info }

/-- The functions `create_dispex` and `init_dispex`: two allocations (the
object, its slot array), the new object at the next free heap address.  The
timed start of a collection in `init_dispex` is left out. -/
def create_dispex (s : Store) (builtin_info : Option builtin_info_t) (prototype : Option Nat) :
    Option (Store × HRESULT × Option Nat) :=
  match malloc s.avail with
  | none => some (s, HRESULT.E_OUTOFMEMORY, none)
  | some a1 =>
    match malloc a1 with
    | none => some ({ s with avail := a1 }, HRESULT.E_OUTOFMEMORY, none)
    | some a2 =>
      let p := s.heap.length
      let o := init_object s.ctx.self (builtin_info.getD dispex_info) prototype
      let s1 : Store := { s with heap := s.heap ++ [some o], avail := a2 }
      (match prototype with
        | none => some s1
        | some q => jsdisp_addref s1 q).bind fun s2 =>
      some (s2.list_add_tail p, HRESULT.S_OK, some p)

/-! ## The property resolver -/

def SCRIPTLANGUAGEVERSION_ES5 : Nat := 0x102

def FIRST_TYPEDARRAY_JSCLASS : Nat := 18

def LAST_TYPEDARRAY_JSCLASS : Nat := 26

def JSCLASS_FUNCTION : Nat := 6

def is_digit (c : Nat) : Bool :=
  decide (48 ≤ c ∧ c ≤ 57)

/-- The first loop of `override_idx`.  Its bound `idx <= (UINT_MAX-9 / 10)` is
`idx <= UINT_MAX`, true of every `unsigned`; the sum wraps. -/
def override_idx_scan : WSTR → Nat → WSTR × Nat
  | [], idx => ([], idx)
  | c :: rest, idx =>
    if is_digit c && decide (idx ≤ 4294967295 - 9 / 10) then
      override_idx_scan rest ((idx * 10 + (c - 48)) % 4294967296)
    else (c :: rest, idx)

def override_idx (This : jsdisp_t) (name : WSTR) : Option Nat :=
  if FIRST_TYPEDARRAY_JSCLASS ≤ This.builtin_info.jsclass ∧
      This.builtin_info.jsclass ≤ LAST_TYPEDARRAY_JSCLASS then
    match override_idx_scan name 0 with
    | ([], idx) => some idx
    | (rest, _) => if (rest.dropWhile is_digit).isEmpty then some 4294967295 else none
  else none

/-- The version and mode gate at the label `found` of `find_builtin_prop`. -/
def builtin_gate (ctx : script_ctx_t) (b : builtin_prop_t) : Bool :=
  let version := (b.flags &&& PROPF_VERSION_MASK) >>> PROPF_VERSION_SHIFT
  if version ≠ 0 ∧ version > ctx.version then false
  else if (b.flags &&& PROPF_HTML) ≠ 0 ∧ ¬ ctx.html_mode then false
  else true

def builtin_at (props : List builtin_prop_t) (i : Nat) : builtin_prop_t :=
  props.getD i { name := [], invoke := none, flags := 0, getter := none, setter := none }

/-- The binary search of `find_builtin_prop`. -/
def builtin_bsearch (props : List builtin_prop_t) (name : WSTR) : Nat → Int → Int → Option Nat
  | 0, _, _ => none
  | fuel + 1, min, max =>
    if min ≤ max then
      let i := (min + max) / 2
      let r := wcscmp name (builtin_at props i.toNat).name
      if r = 0 then some i.toNat
      else if r < 0 then builtin_bsearch props name fuel min (i - 1)
      else builtin_bsearch props name fuel (i + 1) max
    else none

def find_builtin_prop (ctx : script_ctx_t) (This : jsdisp_t) (name : WSTR) (case_insens : Bool) :
    Option builtin_prop_t :=
  let props := This.builtin_info.props
  let found :=
    if case_insens then
      (List.range props.length).find? (fun i => wcsicmp name (builtin_at props i).name == 0)
    else builtin_bsearch props name (props.length + 1) 0 ((props.length : Int) - 1)
  match found with
  | none => none
  | some i => if builtin_gate ctx (builtin_at props i) then some (builtin_at props i) else none

/-- The function `alloc_prop` on the object at `p` of the store. -/
def store_alloc_prop (s : Store) (p : Nat) (name : WSTR) (type : prop_type_t) (flags : Nat) :
    Option (Store × Option Nat) :=
  match s.obj p with
  | none => none
  | some This =>
    match alloc_prop This name type flags s.avail with
    | (r, This1, avail1) => some ({ s.set_obj p This1 with avail := avail1 }, r)

/-- A store into slot `i` of the object at `p`. -/
def store_set_slot (s : Store) (p i : Nat) (f : dispex_prop_t → dispex_prop_t) : Option Store :=
  match s.obj p with
  | none => none
  | some This => some (s.set_obj p (set_slot This i f))

def function_info : builtin_info_t :=
  { jsclass := JSCLASS_FUNCTION, props := [], idx_length := none, idx_put := false,
    on_put := false, gc_traverse := false }

/-- Modelled from the spec: `create_builtin_function` is not part of this file.
It makes "a real function object": a new object of the function class with one
reference, held by the caller. -/
def create_builtin_function (s : Store) (_invoke : Option Nat) (_name : WSTR) (_flags : Nat) :
    Option (Store × HRESULT × Option Nat) :=
  create_dispex s (some function_info) none

/-- The scan of `find_prop_name` for an element index, `idx < 0x10000` while
digits follow. -/
def idx_scan : WSTR → Nat → WSTR × Nat
  | [], idx => ([], idx)
  | c :: rest, idx =>
    if is_digit c && decide (idx < 0x10000) then idx_scan rest (idx * 10 + (c - 48))
    else (c :: rest, idx)

/-- The resolver of one object.  The result is the status and `*ret`, the index
of the slot; `*ret` is `none` for NULL and also where the C code returns
without a store to it. -/
def find_prop_name (s : Store) (p : Nat) (hash : Nat) (name : WSTR) (case_insens : Bool) :
    Option (Store × HRESULT × Option Nat) :=
  match s.obj p with
  | none => none
  | some This =>
    match find_prop_name_raw This hash name case_insens with
    | none => none
    | some (This1, some i) =>
      if This.proxy.isSome then none else some (s.set_obj p This1, HRESULT.S_OK, some i)
    | some (This1, none) =>
      if This.proxy.isSome then none
      else
        let s1 := s.set_obj p This1
        match find_builtin_prop s.ctx This1 name case_insens with
        | some builtin =>
          let flags := builtin.flags
          if flags &&& PROPF_METHOD ≠ 0 then
            match create_builtin_function s1 builtin.invoke builtin.name flags with
            | none => none
            | some (s2, hres, none) => if FAILED hres then some (s2, hres, none) else none
            | some (s2, hres, some obj) =>
              if FAILED hres then some (s2, hres, none)
              else
                match store_alloc_prop s2 p builtin.name prop_type_t.PROP_JSVAL
                    ((flags &&& PROPF_ALL) ||| PROPF_WRITABLE ||| PROPF_CONFIGURABLE) with
                | none => none
                | some (s3, none) =>
                  (jsdisp_release s3 obj).map fun s4 => (s4, HRESULT.E_OUTOFMEMORY, none)
                | some (s3, some i) =>
                  (store_set_slot s3 p i (fun q =>
                    { q with type := prop_type_t.PROP_JSVAL, u := prop_u.val (jsval_t.obj obj) })).map
                    fun s4 => (s4, HRESULT.S_OK, some i)
          else
            let flags1 := if builtin.setter.isSome then flags ||| PROPF_WRITABLE else flags
            let flags2 := flags1 &&& (PROPF_ENUMERABLE ||| PROPF_WRITABLE ||| PROPF_CONFIGURABLE)
            match store_alloc_prop s1 p builtin.name prop_type_t.PROP_BUILTIN flags2 with
            | none => none
            | some (s2, none) => some (s2, HRESULT.E_OUTOFMEMORY, none)
            | some (s2, some i) =>
              (store_set_slot s2 p i (fun q => { q with u := prop_u.p builtin })).map
                fun s3 => (s3, HRESULT.S_OK, some i)
        | none =>
          match This1.builtin_info.idx_length with
          | some len =>
            match idx_scan name 0 with
            | ([], idx) =>
              if idx < len then
                let flags := if This1.builtin_info.idx_put then PROPF_ENUMERABLE ||| PROPF_WRITABLE
                  else PROPF_ENUMERABLE
                match store_alloc_prop s1 p name prop_type_t.PROP_IDX flags with
                | none => none
                | some (s2, none) => some (s2, HRESULT.E_OUTOFMEMORY, none)
                | some (s2, some i) =>
                  (store_set_slot s2 p i (fun q => { q with u := prop_u.idx idx })).map
                    fun s3 => (s3, HRESULT.S_OK, some i)
              else some (s1, HRESULT.S_OK, none)
            | _ => some (s1, HRESULT.S_OK, none)
          | none => some (s1, HRESULT.S_OK, none)

/-- The walk of `fix_protref_prop` up the prototype chain: `true` when it
returns with the slot left as it is, `false` when it leaves the loop and the
slot becomes a tombstone. -/
def fix_protref_walk (s : Store) : Nat → Option Nat → Nat → Option Bool
  | 0, _, _ => none
  | _ + 1, none, _ => some false
  | fuel + 1, some q, ref =>
    match s.obj q with
    | none => none
    | some o =>
      if ref ≥ o.prop_cnt ∨ (slot o ref).type = prop_type_t.PROP_DELETED then some false
      else if (slot o ref).type ≠ prop_type_t.PROP_PROTREF then some true
      else fix_protref_walk s fuel o.prototype (u_ref (slot o ref).u)

def fix_protref_prop (s : Store) (p i : Nat) : Option Store :=
  match s.obj p with
  | none => none
  | some This =>
    if (slot This i).type ≠ prop_type_t.PROP_PROTREF then some s
    else
      match fix_protref_walk s (s.heap.length + 1) This.prototype (u_ref (slot This i).u) with
      | none => none
      | some true => some s
      | some false =>
        some (s.set_obj p (set_slot This i (fun q => { q with type := prop_type_t.PROP_DELETED })))

def alloc_protref (s : Store) (p : Nat) (name : WSTR) (ref : Nat) : Option (Store × Option Nat) :=
  match store_alloc_prop s p name prop_type_t.PROP_PROTREF 0 with
  | none => none
  | some (s1, none) => some (s1, none)
  | some (s1, some i) =>
    (store_set_slot s1 p i (fun q => { q with u := prop_u.ref ref })).map fun s2 => (s2, some i)

/-- The type of slot `i` of the object at `p`. -/
def slot_type (s : Store) (p i : Nat) : Option prop_type_t :=
  (s.obj p).map fun o => (slot o i).type

/-- The resolver with prototype fallback; `fuel` bounds the depth of the
recursion into the prototypes. -/
def find_prop_name_prot_fuel : Nat → Store → Nat → Nat → WSTR → Bool →
    Option (Store × HRESULT × Option Nat)
  | 0, _, _, _, _, _ => none
  | fuel + 1, s, p, hash, name, case_insens =>
    match find_prop_name s p hash name case_insens with
    | none => none
    | some (s1, hres, prop) =>
      if FAILED hres then some (s1, hres, none)
      else
        match s1.obj p with
        | none => none
        | some This =>
          let live := match prop with
            | some i => decide ((slot This i).type ≠ prop_type_t.PROP_DELETED)
            | none => false
          if live then
            match prop with
            | some i => (fix_protref_prop s1 p i).map fun s2 => (s2, HRESULT.S_OK, some i)
            | none => none
          else
            let del := prop
            match This.prototype with
            | none => some (s1, HRESULT.S_OK, del)
            | some q =>
              match find_prop_name_prot_fuel fuel s1 q hash name case_insens with
              | none => none
              | some (s2, hres2, prop2) =>
                if FAILED hres2 then some (s2, hres2, none)
                else
                  match prop2, s2.obj q with
                  | some j, some proto =>
                    if (slot proto j).type ≠ prop_type_t.PROP_DELETED then
                      match del with
                      | some i =>
                        (store_set_slot s2 p i (fun r =>
                          { r with type := prop_type_t.PROP_PROTREF, u := prop_u.ref j })).map
                          fun s3 => (s3, HRESULT.S_OK, some i)
                      | none =>
                        match alloc_protref s2 p (slot proto j).name j with
                        | none => none
                        | some (s3, none) => some (s3, HRESULT.E_OUTOFMEMORY, none)
                        | some (s3, some k) => some (s3, HRESULT.S_OK, some k)
                    else some (s2, HRESULT.S_OK, del)
                  | some _, none => none
                  | none, _ => some (s2, HRESULT.S_OK, del)

/-- The resolver with prototype fallback.  A prototype chain without a cycle
is shorter than the heap. -/
def find_prop_name_prot (s : Store) (p : Nat) (hash : Nat) (name : WSTR) (case_insens : Bool) :
    Option (Store × HRESULT × Option Nat) :=
  find_prop_name_prot_fuel (s.heap.length + 1) s p hash name case_insens

def ensure_prop_name (s : Store) (p : Nat) (name : WSTR) (create_flags : Nat) (case_insens : Bool) :
    Option (Store × HRESULT × Option Nat) :=
  match find_prop_name_prot s p (string_hash name) name case_insens with
  | none => none
  | some (s1, hres, prop) =>
    if FAILED hres then some (s1, hres, none)
    else
      match s1.obj p with
      | none => none
      | some This =>
        let absent := match prop with
          | some i => decide ((slot This i).type = prop_type_t.PROP_DELETED)
          | none => true
        if absent then
          let made : Option (Store × Option Nat) := match prop with
            | some i =>
              some (s1.set_obj p (set_slot This i (fun q =>
                { q with type := prop_type_t.PROP_JSVAL, flags := create_flags,
                         u := prop_u.val jsval_t.undefined })), some i)
            | none => store_alloc_prop s1 p name prop_type_t.PROP_JSVAL create_flags
          match made with
          | none => none
          | some (s2, none) => some (s2, HRESULT.E_OUTOFMEMORY, none)
          | some (s2, some i) =>
            if This.proxy.isSome then none
            else
              (store_set_slot s2 p i (fun q => { q with u := prop_u.val jsval_t.undefined })).map
                fun s3 => (s3, hres, some i)
        else some (s1, hres, prop)

/-! ## The accessor protocol -/

/-- The loop that follows prototype references, in `prop_get` and `prop_put`:
from slot `i` of the object at `p` to the slot referred to. -/
def protref_target (s : Store) : Nat → Nat → Nat → Option (Nat × Nat)
  | 0, _, _ => none
  | fuel + 1, p, i =>
    match s.obj p with
    | none => none
    | some o =>
      if o.props.length ≤ i then none
      else if (slot o i).type = prop_type_t.PROP_PROTREF then
        match o.prototype with
        | none => none
        | some q => protref_target s fuel q (u_ref (slot o i).u)
      else some (p, i)

/-- The function `convert_to_proxy` on a value just read: nothing to do below
ES5, for a value that is no object and for an object of this engine; the
binding of a foreign object leaves this file. -/
def convert_to_proxy (s : Store) (v : jsval_t) : Option Store :=
  if s.ctx.version < SCRIPTLANGUAGEVERSION_ES5 then some s
  else
    match v with
    | jsval_t.disp _ => none
    | _ => some s

def prop_get (s : Store) (p i : Nat) : Option (Store × HRESULT × jsval_t) :=
  match protref_target s (s.heap.length + 1) p i with
  | none => none
  | some (prop_obj, j) =>
    match s.obj prop_obj with
    | none => none
    | some o =>
      if o.proxy.isSome then none
      else
        match (slot o j).type with
        | prop_type_t.PROP_BUILTIN => none
        | prop_type_t.PROP_JSVAL =>
          let v := u_val (slot o j).u
          (jsval_copy s v).bind fun s1 =>
          (convert_to_proxy s1 v).map fun s2 => (s2, HRESULT.S_OK, v)
        | prop_type_t.PROP_ACCESSOR =>
          match u_getter (slot o j).u with
          | some _ => none
          | none => some (s, HRESULT.S_OK, jsval_t.undefined)
        | prop_type_t.PROP_PROXY => none
        | prop_type_t.PROP_IDX => none
        | _ => some (s, HRESULT.E_FAIL, jsval_t.undefined)

/-- The tail of `prop_put` after the `switch`: the copy of the value into the
slot and the `on_put` notification of the class. -/
def prop_put_store (s : Store) (p i : Nat) (val : jsval_t) : Option (Store × HRESULT) :=
  (jsval_copy s val).bind fun s1 =>
  (store_set_slot s1 p i (fun q => { q with u := prop_u.val val })).bind fun s2 =>
  match s2.obj p with
  | none => none
  | some This => if This.builtin_info.on_put then none else some (s2, HRESULT.S_OK)

def prop_put (s : Store) (p i : Nat) (val : jsval_t) : Option (Store × HRESULT) :=
  match s.obj p with
  | none => none
  | some This =>
    let target : Option (Nat × Nat) :=
      if (slot This i).type = prop_type_t.PROP_PROTREF then
        match protref_target s (s.heap.length + 1) p i with
        | none => none
        | some (q, j) =>
          match s.obj q with
          | none => none
          | some o => if (slot o j).type = prop_type_t.PROP_ACCESSOR then some (q, j) else some (p, i)
      else some (p, i)
    match target with
    | none => none
    | some (prop_obj, j) =>
      match s.obj prop_obj with
      | none => none
      | some o =>
        let prop := slot o j
        match prop.type with
        | prop_type_t.PROP_BUILTIN =>
          match prop.u with
          | prop_u.p b => if b.setter.isSome then none else some (s, HRESULT.S_OK)
          | _ => none
        | prop_type_t.PROP_PROTREF | prop_type_t.PROP_DELETED =>
          if ¬ This.extensible then some (s, HRESULT.S_OK)
          else
            (store_set_slot s prop_obj j (fun q =>
              { q with type := prop_type_t.PROP_JSVAL,
                       flags := PROPF_ENUMERABLE ||| PROPF_CONFIGURABLE ||| PROPF_WRITABLE,
                       u := prop_u.val jsval_t.undefined })).bind fun s1 =>
            prop_put_store s1 prop_obj j val
        | prop_type_t.PROP_JSVAL =>
          if prop.flags &&& PROPF_WRITABLE = 0 then some (s, HRESULT.S_OK)
          else (jsval_release s (u_val prop.u)).bind fun s1 => prop_put_store s1 prop_obj j val
        | prop_type_t.PROP_ACCESSOR =>
          match u_setter prop.u with
          | some _ => none
          | none => some (s, HRESULT.S_OK)
        | prop_type_t.PROP_PROXY =>
          if prop.flags &&& PROPF_WRITABLE = 0 then some (s, HRESULT.S_OK) else none
        | prop_type_t.PROP_IDX =>
          if ¬ This.builtin_info.idx_put then some (s, HRESULT.S_OK) else none

/-- The function `delete_prop`: the status and `*ret`. -/
def delete_prop (s : Store) (p i : Nat) : Option (Store × HRESULT × Bool) :=
  match s.obj p with
  | none => none
  | some prop_obj =>
    let prop := slot prop_obj i
    if prop.type = prop_type_t.PROP_PROTREF then some (s, HRESULT.S_OK, true)
    else if prop_obj.proxy.isSome then none
    else if prop.flags &&& PROPF_CONFIGURABLE = 0 then some (s, HRESULT.S_OK, false)
    else if prop.type = prop_type_t.PROP_PROXY then none
    else
      (release_all jsdisp_release (slot_edges prop) s).bind fun s1 =>
      (store_set_slot s1 p i (fun q => { q with type := prop_type_t.PROP_DELETED })).map
        fun s2 => (s2, HRESULT.S_OK, true)

/-- The loop of `unlink_jsdisp` over the slot indices. -/
def unlink_props (p : Nat) : List Nat → Store → Option Store
  | [], s => some s
  | i :: rest, s =>
    match s.obj p with
    | none => none
    | some o =>
      if (slot o i).type = prop_type_t.PROP_DELETED then unlink_props p rest s
      else
        (release_all jsdisp_release (slot_edges (slot o i)) s).bind fun s1 =>
        (store_set_slot s1 p i (fun q => { q with type := prop_type_t.PROP_DELETED })).bind
          (unlink_props p rest)

def unlink_jsdisp (s : Store) (p : Nat) : Option Store :=
  match s.obj p with
  | none => none
  | some o =>
    (unlink_props p (List.range o.prop_cnt) s).bind fun s1 =>
    (match o.prototype with
      | none => some s1
      | some q =>
        (jsdisp_release s1 q).bind fun s2 =>
        match s2.obj p with
        | none => none
        | some o2 => some (s2.set_obj p { o2 with prototype := none })).bind fun s3 =>
    if o.builtin_info.gc_traverse then none else some s3

/-! ## Operations by name -/

def jsdisp_propget_name (s : Store) (p : Nat) (name : WSTR) : Option (Store × HRESULT × jsval_t) :=
  match s.obj p with
  | none => none
  | some obj =>
    if (override_idx obj name).isSome then none
    else
      match find_prop_name_prot s p (string_hash name) name false with
      | none => none
      | some (s1, hres, prop) =>
        if FAILED hres then some (s1, hres, jsval_t.undefined)
        else
          match prop, s1.obj p with
          | _, none => none
          | none, some _ => some (s1, HRESULT.S_OK, jsval_t.undefined)
          | some i, some o =>
            if (slot o i).type = prop_type_t.PROP_DELETED then some (s1, HRESULT.S_OK, jsval_t.undefined)
            else
              match prop_get s1 p i with
              | none => none
              | some (s2, hres2, v) =>
                if hres2 = HRESULT.DISP_E_MEMBERNOTFOUND then some (s2, HRESULT.S_OK, jsval_t.undefined)
                else some (s2, hres2, v)

def jsdisp_propput (s : Store) (p : Nat) (name : WSTR) (flags : Nat) (throw : Bool) (val : jsval_t) :
    Option (Store × HRESULT) :=
  match s.obj p with
  | none => none
  | some obj =>
    if (override_idx obj name).isSome then none
    else
      let found :=
        if obj.extensible then ensure_prop_name s p name flags false
        else find_prop_name s p (string_hash name) name false
      match found with
      | none => none
      | some (s1, hres, prop) =>
        if FAILED hres then some (s1, hres)
        else
          match prop, s1.obj p with
          | _, none => none
          | none, some _ => some (s1, if throw then HRESULT.JS_E_INVALID_ACTION else HRESULT.S_OK)
          | some i, some o =>
            if (slot o i).type = prop_type_t.PROP_DELETED ∧ ¬ o.extensible then
              some (s1, if throw then HRESULT.JS_E_INVALID_ACTION else HRESULT.S_OK)
            else prop_put s1 p i val

def jsdisp_propput_name (s : Store) (p : Nat) (name : WSTR) (val : jsval_t) :
    Option (Store × HRESULT) :=
  jsdisp_propput s p name (PROPF_ENUMERABLE ||| PROPF_CONFIGURABLE ||| PROPF_WRITABLE) false val

/-- The `if(override_idx(...)) ... else ...` statement of `disp_delete_name`,
between the `jsdisp_addref` of `iface_to_jsdisp` and the final
`jsdisp_release`: the status and `*ret`.  After a failed `find_prop_name` the C
code tests a pointer that was never set. -/
def disp_delete_name_body (s0 : Store) (p : Nat) (jsdisp : jsdisp_t) (name : WSTR) :
    Option (Store × HRESULT × Bool) :=
  if (override_idx jsdisp name).isSome then some (s0, HRESULT.S_OK, false)
  else
    match find_prop_name s0 p (string_hash name) name false with
    | none => none
    | some (s1, hres, prop) =>
      if FAILED hres then none
      else
        match prop with
        | some i => delete_prop s1 p i
        | none => some (s1, HRESULT.S_OK, true)

/-- The branch of `disp_delete_name` for an object of this engine: the status
and `*ret`. -/
def disp_delete_name (s : Store) (p : Nat) (name : WSTR) : Option (Store × HRESULT × Bool) :=
  (jsdisp_addref s p).bind fun s0 =>
  match s0.obj p with
  | none => none
  | some jsdisp =>
    match disp_delete_name_body s0 p jsdisp name with
    | none => none
    | some (s2, hres, ret) => (jsdisp_release s2 p).map fun s3 => (s3, hres, ret)

def DispatchEx_DeleteMemberByName (s : Store) (p : Nat) (bstrName : WSTR) (case_insens : Bool) :
    Option (Store × HRESULT) :=
  match s.obj p with
  | none => none
  | some This =>
    if (override_idx This bstrName).isSome then some (s, HRESULT.S_OK)
    else
      match find_prop_name s p (string_hash bstrName) bstrName case_insens with
      | none => none
      | some (s1, hres, prop) =>
        if FAILED hres then some (s1, hres)
        else
          match prop with
          | none => some (s1, HRESULT.S_OK)
          | some i => (delete_prop s1 p i).map fun r => (r.1, r.2.1)

/-! ## The cycle collector -/

/-- The number of entries of one chunk, of the traversal stack and of the saved
reference counts alike. -/
def GC_CHUNK : Nat := 1020

/-- The traversal stack.  `chunks` is the chain `chunk, chunk->prev, ...`, each
chunk given by its entries in use, `objects[idx ..]` for the first one, the
entry `NULL` being `none`; `next` tells whether a spare chunk is kept. -/
structure gc_ctx where
  chunks : List (List (Option Nat))
  next : Bool
  idx : Nat
  deriving DecidableEq, Repr

def gc_ctx.init : gc_ctx :=
  { chunks := [], next := false, idx := 0 }

def gc_stack_size (g : gc_ctx) : Nat :=
  (g.chunks.map List.length).sum

/-- The push; `none` is `E_OUTOFMEMORY`.  The second component is the
allocation budget left. -/
def gc_stack_push (g : gc_ctx) (avail : Nat) (obj : Option Nat) : Option (gc_ctx × Nat) :=
  let top : Option (gc_ctx × Nat) :=
    if g.idx = 0 then
      if g.next then some ({ chunks := [] :: g.chunks, next := false, idx := GC_CHUNK }, avail)
      else (malloc avail).map fun a => ({ chunks := [] :: g.chunks, next := false, idx := GC_CHUNK }, a)
    else some (g, avail)
  match top with
  | none => none
  | some (g1, a) =>
    match g1.chunks with
    | [] => some ({ g1 with idx := g1.idx - 1 }, a)
    | c :: prev => some ({ g1 with chunks := (obj :: c) :: prev, idx := g1.idx - 1 }, a)

/-- The pop; `none` where the C code reads a chunk that is not there. -/
def gc_stack_pop (g : gc_ctx) : Option (gc_ctx × Option Nat) :=
  match g.chunks with
  | [] => none
  | [] :: _ => none
  | (obj :: c) :: prev =>
    if g.idx + 1 = GC_CHUNK then some ({ chunks := prev, next := true, idx := 0 }, obj)
    else some ({ g with chunks := c :: prev, idx := g.idx + 1 }, obj)

/-- The first loop of pass 1: the reference counts of the listed objects, saved
in chunks of `GC_CHUNK`.  The inner `none` is `E_OUTOFMEMORY`. -/
def gc_save_refs (s : Store) : List Nat → Nat → Nat → Option (Option (List Int × Nat))
  | [], _, avail => some (some ([], avail))
  | p :: rest, chunk_idx, avail =>
    match s.obj p with
    | none => none
    | some o =>
      if chunk_idx = GC_CHUNK then
        match malloc avail with
        | none => some none
        | some a1 =>
          (gc_save_refs s rest 1 a1).map (Option.map fun r => (o.ref :: r.1, r.2))
      else (gc_save_refs s rest (chunk_idx + 1) avail).map (Option.map fun r => (o.ref :: r.1, r.2))

/-- The speculative decrement `link->ref--` of a link of the same context. -/
def gc_dec (s : Store) (q : Nat) : Option Store :=
  match s.obj q with
  | none => none
  | some o => if o.ctx = s.ctx.self then some (s.set_obj q { o with ref := o.ref - 1 }) else some s

/-- The links of an object in the order the collector visits them: the edges of
its slots, then its prototype. -/
def obj_edges (o : jsdisp_t) : List Nat :=
  (live_props o).flatMap slot_edges ++ o.prototype.toList

/-- One round of the second loop of pass 1. -/
def gc_pass1_obj (s : Store) (p : Nat) : Option Store :=
  match s.obj p with
  | none => none
  | some obj =>
    (release_all gc_dec (obj_edges obj) s).bind fun s1 =>
    if obj.builtin_info.gc_traverse then none
    else
      match s1.obj p with
      | none => none
      | some o1 => some (s1.set_obj p { o1 with gc_marked := true })

def gc_pass1 (s : Store) : Option Store :=
  release_all gc_pass1_obj s.ctx.objects s

/-- The pushes of one round of the traversal: every link that is marked and of
the same context.  The flag is `false` when a push failed. -/
def gc_push_links : List Nat → Store → gc_ctx → Option (Store × gc_ctx × Bool)
  | [], s, g => some (s, g, true)
  | q :: rest, s, g =>
    match s.obj q with
    | none => none
    | some link =>
      if link.gc_marked ∧ link.ctx = s.ctx.self then
        match gc_stack_push g s.avail (some q) with
        | none => some (s, g, false)
        | some (g1, a) => gc_push_links rest { s with avail := a } g1
      else gc_push_links rest s g

/-- The loop `do obj2 = gc_stack_pop(); while(obj2 && !obj2->gc_marked)`. -/
def gc_pop_marked (s : Store) : Nat → gc_ctx → Option (gc_ctx × Option Nat)
  | 0, _ => none
  | fuel + 1, g =>
    match gc_stack_pop g with
    | none => none
    | some (g1, none) => some (g1, none)
    | some (g1, some q) =>
      match s.obj q with
      | none => none
      | some o => if o.gc_marked then some (g1, some q) else gc_pop_marked s fuel g1

/-- The loop `do obj2 = gc_stack_pop(); while(obj2)` after a failed push. -/
def gc_drain : Nat → gc_ctx → Option gc_ctx
  | 0, _ => none
  | fuel + 1, g =>
    match gc_stack_pop g with
    | none => none
    | some (g1, none) => some g1
    | some (g1, some _) => gc_drain fuel g1

/-- The traversal from one object of pass 2, the `do ... while(obj2)` loop. -/
def gc_traverse_loop : Nat → Store → gc_ctx → Nat → Option (Store × gc_ctx × Bool)
  | 0, _, _, _ => none
  | fuel + 1, s, g, obj2 =>
    match s.obj obj2 with
    | none => none
    | some o =>
      let s1 := s.set_obj obj2 { o with gc_marked := false }
      match gc_push_links (obj_edges o) s1 g with
      | none => none
      | some (s2, g2, false) => some (s2, g2, false)
      | some (s2, g2, true) =>
        if o.builtin_info.gc_traverse ∨ o.has_weak_refs then none
        else
          match gc_pop_marked s2 (gc_stack_size g2 + 1) g2 with
          | none => none
          | some (g3, none) => some (s2, g3, true)
          | some (g3, some q) => gc_traverse_loop fuel s2 g3 q

/-- Pass 2 over the list of objects.  The flag is `false` when a push failed. -/
def gc_pass2 : List Nat → Store → gc_ctx → Option (Store × gc_ctx × Bool)
  | [], s, g => some (s, g, true)
  | p :: rest, s, g =>
    match s.obj p with
    | none => none
    | some obj =>
      if ¬ obj.gc_marked ∨ (obj.ref = 0 ∧ obj.proxy.isNone) then gc_pass2 rest s g
      else
        match gc_stack_push g s.avail none with
        | none => some (s, g, false)
        | some (g1, a) =>
          match gc_traverse_loop (s.heap.length + 1) { s with avail := a } g1 p with
          | none => none
          | some (s2, g2, false) => (gc_drain (gc_stack_size g2 + 1) g2).map fun g3 => (s2, g3, false)
          | some (s2, g2, true) => gc_pass2 rest s2 g2

/-- The restore loop: every listed object gets its saved reference count. -/
def gc_restore : List Nat → List Int → Store → Option Store
  | [], _, s => some s
  | _ :: _, [], _ => none
  | p :: rest, r :: refs, s =>
    match s.obj p with
    | none => none
    | some o => gc_restore rest refs (s.set_obj p { o with ref := r })

/-- The entry that follows `p` in the list, `list_next`. -/
def list_next (l : List Nat) (p : Nat) : Option Nat :=
  (l.dropWhile (fun q => q ≠ p)).tail.head?

/-- Pass 3, the walk of the list with the cursor `iter`. -/
def gc_pass3 : Nat → Store → Option Nat → Option Store
  | 0, _, _ => none
  | _ + 1, s, none => some s
  | fuel + 1, s, some p =>
    match s.obj p with
    | none => none
    | some obj =>
      if ¬ obj.gc_marked then gc_pass3 fuel s (list_next s.ctx.objects p)
      else
        (jsdisp_addref s p).bind fun s1 =>
        (unlink_jsdisp s1 p).bind fun s2 =>
        (jsdisp_release s2 p).bind fun s3 =>
        gc_pass3 fuel s3 (list_next s2.ctx.objects p)

def set_gc_is_unlinking (s : Store) (b : Bool) : Store :=
  { s with ctx := { s.ctx with gc_is_unlinking := b } }

/-- The part of `gc_run` from the first allocation to the restore of the
reference counts: the state in which pass 3 would start, and the status. -/
def gc_mark_phase (s : Store) : Option (Store × HRESULT) :=
  match malloc s.avail with
  | none => some (s, HRESULT.E_OUTOFMEMORY)
  | some a0 =>
    match gc_save_refs s s.ctx.objects 0 a0 with
    | none => none
    | some none => some ({ s with avail := a0 }, HRESULT.E_OUTOFMEMORY)
    | some (some (refs, a1)) =>
      (gc_pass1 { s with avail := a1 }).bind fun s1 =>
      (gc_pass2 s1.ctx.objects s1 gc_ctx.init).bind fun r =>
      (gc_restore r.1.ctx.objects refs r.1).map fun s3 =>
      (s3, if r.2.2 then HRESULT.S_OK else HRESULT.E_OUTOFMEMORY)

/-- The function `gc_run`.  The collection of the host (`cc_api.collect`, in
HTML mode with a site) leaves this file. -/
def gc_run (s : Store) : Option (Store × HRESULT) :=
  if s.ctx.gc_is_unlinking then some (s, HRESULT.S_OK)
  else if s.ctx.html_mode ∧ s.ctx.site.isSome then none
  else
    match gc_mark_phase s with
    | none => none
    | some (s1, hres) =>
      if FAILED hres then some (s1, hres)
      else
        (gc_pass3 (s1.ctx.objects.length + 1) (set_gc_is_unlinking s1 true)
          s1.ctx.objects.head?).map fun s2 => (set_gc_is_unlinking s2 false, HRESULT.S_OK)

/-! ## Well-formed slot tables -/

/-- The walk of a bucket chain from `pos` to the `~0` sentinel: the indices met,
`none` when the sentinel is not reached within `fuel` links. -/
def chain_from (props : List dispex_prop_t) : Nat → Nat → Option (List Nat)
  | 0, _ => none
  | fuel + 1, pos =>
    if pos = NIL then some []
    else (chain_from props fuel (props.getD pos dispex_prop_t.zero).bucket_next).map (fun l => pos :: l)

/-- The chain of bucket `b`: `bucket_head` of slot `b`, then the `bucket_next`
links. -/
def bucket_chain (This : jsdisp_t) (b : Nat) : Option (List Nat) :=
  chain_from This.props (This.props.length + 1) (slot This b).bucket_head

/-- The chain of bucket `b` ends in the sentinel, has no index twice, and holds
exactly the slots in use whose hash selects `b`. -/
def chain_ok (This : jsdisp_t) (b : Nat) : Prop :=
  match bucket_chain This b with
  | none => False
  | some l =>
    l.Nodup ∧ (∀ i ∈ l, i < This.prop_cnt ∧ get_props_idx This (slot This i).hash = b) ∧
    (∀ i, i < This.prop_cnt → get_props_idx This (slot This i).hash = b → i ∈ l)

instance (This : jsdisp_t) (b : Nat) : Decidable (chain_ok This b) := by
  unfold chain_ok
  split <;> infer_instance

/-- A well-formed slot table: the array has `buf_size` slots, a power of two
that is at least 4, `prop_cnt` of them in use, each of these with the hash of
its name and on the chain of the bucket of that hash and on no other. -/
def props_wf (This : jsdisp_t) : Prop :=
  This.props.length = This.buf_size ∧ 4 ≤ This.buf_size ∧
  (∃ k, k < This.buf_size ∧ This.buf_size = 2 ^ k) ∧ This.prop_cnt ≤ This.buf_size ∧
  (∀ i, i < This.prop_cnt → (slot This i).hash = string_hash (slot This i).name) ∧
  (∀ b, b < This.buf_size → chain_ok This b)

instance (This : jsdisp_t) : Decidable (props_wf This) := by
  unfold props_wf
  infer_instance

/-- The relation behind `chain_from`. -/
def is_chain (props : List dispex_prop_t) : Nat → List Nat → Prop
  | pos, [] => pos = NIL
  | pos, x :: l => pos ≠ NIL ∧ x = pos ∧ is_chain props (props.getD pos dispex_prop_t.zero).bucket_next l


/-- A table with the one slot `Foo`, as `alloc_prop` builds it. -/
def table_Foo : jsdisp_t :=
  (alloc_prop (init_object 0 dispex_info none) [70, 111, 111] prop_type_t.PROP_JSVAL 0 8).2.1

/-- The two slots agree in name, hash, kind, flags and payload (all fields but
the bucket links). -/
def same_core (a b : dispex_prop_t) : Prop :=
  a.name = b.name ∧ a.hash = b.hash ∧ a.type = b.type ∧ a.flags = b.flags ∧ a.u = b.u

instance (a b : dispex_prop_t) : Decidable (same_core a b) := by
  unfold same_core
  infer_instance

/-- The object `o1` is the object `o` up to its reference count. -/
def obj_frame (o o1 : jsdisp_t) : Prop :=
  o1 = { o with ref := o1.ref }

/-- Every object of `s1` is an object of `s` up to its reference count: between
`s` and `s1` objects were freed and reference counts changed, nothing else. -/
def store_frame (s s1 : Store) : Prop :=
  ∀ q o1, s1.obj q = some o1 → ∃ o, s.obj q = some o ∧ obj_frame o o1

/-! ## Stores used as examples -/

def ctx_empty : script_ctx_t :=
  { self := 0, objects := [], gc_is_unlinking := false, html_mode := false, site := none,
    version := 0 }

/-- The store with no object and an allocator that grants `avail` requests. -/
def store_empty (avail : Nat) : Store :=
  { heap := [], ctx := ctx_empty, avail := avail }

/-- The result of a run of store operations, the empty store where the run has
no result. -/
def store_of (r : Option Store) : Store :=
  r.getD (store_empty 0)

/-- The name `x`. -/
def name_x : WSTR := [120]

/-- Two objects: object 0, held from outside, with the one slot `x` that holds
object 1; object 1 has no other reference. -/
def store_holder : Store :=
  store_of <|
    (create_dispex (store_empty 16) none none).bind fun r0 =>
    (create_dispex r0.1 none none).bind fun r1 =>
    (jsdisp_propput_name r1.1 0 name_x (jsval_t.obj 1)).bind fun r2 =>
    jsdisp_release r2.1 1

/-- The store `store_holder` after `delete_prop` on the slot `x` of object 0. -/
def store_holder_deleted : Store :=
  store_of ((delete_prop store_holder 0 0).map fun r => r.1)

/-- A full table: the four slots `a`, `b`, `c`, `d` in a buffer of four. -/
def table_abcd : jsdisp_t :=
  [[97], [98], [99], [100]].foldl
    (fun This name => (alloc_prop This name prop_type_t.PROP_JSVAL 0 8).2.1)
    (init_object 0 dispex_info none)

/-- The table `table_abcd` after `alloc_prop` of the name `e`, which resizes. -/
def table_abcde : jsdisp_t :=
  (alloc_prop table_abcd [101] prop_type_t.PROP_JSVAL 0 8).2.1

/-- Object 0 of `store_holder`. -/
def holder_obj : jsdisp_t :=
  (store_holder.obj 0).getD (init_object 0 dispex_info none)

/-- The table `b` is the table `a` up to its bucket links: the same object
fields, the same number of slots, every slot with its name, hash, kind, flags
and payload. -/
def table_frame (a b : jsdisp_t) : Prop :=
  b = { a with props := b.props } ∧ b.props.length = a.props.length ∧
  ∀ j, same_core (slot b j) (slot a j)

/-- Slot `i` heads the chain of the bucket of `hash` and its name matches
`name`: the lookup of `name` ends at its first step. -/
def head_hit (This : jsdisp_t) (hash : Nat) (name : WSTR) (case_insens : Bool) (i : Nat) : Prop :=
  (slot This (get_props_idx This hash)).bucket_head = i ∧ i ≠ NIL ∧
  name_match case_insens name (slot This i).name = true

/-- The object `b` is the object `a` up to its slot table (`props`, `buf_size`,
`prop_cnt`). -/
def same_fields (a b : jsdisp_t) : Prop :=
  b = { a with props := b.props, buf_size := b.buf_size, prop_cnt := b.prop_cnt }

/-- Three objects in a prototype chain, `O` (2) over `P` (1) over `Q` (0), with
the own value slots `Q.x = 1` and `P.x = 2`. -/
def store_chain : Store :=
  store_of <|
    (create_dispex (store_empty 32) none none).bind fun r0 =>
    (create_dispex r0.1 none (some 0)).bind fun r1 =>
    (create_dispex r1.1 none (some 1)).bind fun r2 =>
    (jsdisp_propput_name r2.1 0 name_x (jsval_t.number 1)).bind fun r3 =>
    (jsdisp_propput_name r3.1 1 name_x (jsval_t.number 2)).map fun r4 => r4.1

/-- The store `store_chain` after `O.x` was read once: `O` has cached the slot
of `P` in a prototype reference. -/
def store_chain_cached : Store :=
  store_of ((jsdisp_propget_name store_chain 2 name_x).map fun r => r.1)

/-- The store `store_chain_cached` after `x` was deleted from `P`: `Q` still
provides `x`. -/
def store_chain_stale : Store :=
  store_of ((disp_delete_name store_chain_cached 1 name_x).map fun r => r.1)

/-- The test of `find_prop_name` for an indexed element: the object supports
indexed elements and the scan of the name ends at its end with an index below
the element count. -/
def is_element_name (o : jsdisp_t) (name : WSTR) : Bool :=
  match o.builtin_info.idx_length with
  | some len =>
    match idx_scan name 0 with
    | ([], idx) => decide (idx < len)
    | _ => false
  | none => false

/-- One object with the own value slot `x` that has no flag set, so not the
configurable one: `jsdisp_propput` with flags 0 on a new object. -/
def store_fixed : Store :=
  store_of <|
    (create_dispex (store_empty 16) none none).bind fun r0 =>
    (jsdisp_propput r0.1 0 name_x 0 false (jsval_t.number 1)).map fun r => r.1

/-- The store `store_holder` after `disp_delete_name` of `x` on object 0. -/
def store_holder_gone : Store :=
  store_of ((disp_delete_name store_holder 0 name_x).map fun r => r.1)

/-- A class with the builtin table `a` (a getter) and `m` (a method). -/
def info_am : builtin_info_t :=
  { jsclass := 2,
    props := [{ name := [97], invoke := none, flags := 0, getter := some 1, setter := none },
              { name := [109], invoke := some 2, flags := PROPF_METHOD ||| 1, getter := none,
                setter := none }],
    idx_length := none, idx_put := false, on_put := false, gc_traverse := false }

/-- One new object of the class `info_am`. -/
def store_am : Store :=
  store_of ((create_dispex (store_empty 16) (some info_am) none).map fun r => r.1)

/-- The object of `store_am`. -/
def obj_am : jsdisp_t :=
  (store_am.obj 0).getD (init_object 0 dispex_info none)

/-- The value can be copied out of a slot of this store: if it is an object of
this engine the object is allocated, and a foreign object is met only below
ES5 (from ES5 on `convert_to_proxy` asks the host to bind it). -/
def val_ok (s : Store) (v : jsval_t) : Prop :=
  match v with
  | jsval_t.obj q => (s.obj q).isSome = true
  | jsval_t.disp _ => s.ctx.version < SCRIPTLANGUAGEVERSION_ES5
  | _ => True

/-- Between `s` and `s1` only reference counts and the list of objects changed:
every object of `s` is in `s1` the same up to its reference count. -/
def ref_step (s s1 : Store) : Prop :=
  s1.heap.length = s.heap.length ∧ s1.ctx.version = s.ctx.version ∧
  s1.ctx.html_mode = s.ctx.html_mode ∧ s1.avail = s.avail ∧
  ∀ p o, s.obj p = some o → ∃ r, s1.obj p = some { o with ref := r }

/-- The object provides `x` as its own value slot `i` holding `v`: it has no
proxy, `x` is no overridden index of it, and slot `i`, which the lookup of `x`
meets at its first step, is a value slot with payload `v`. -/
def own_value (o : jsdisp_t) (x : WSTR) (i : Nat) (v : jsval_t) : Prop :=
  o.proxy = none ∧ override_idx o x = none ∧ head_hit o (string_hash x) x false i ∧
  i < o.props.length ∧ (slot o i).type = prop_type_t.PROP_JSVAL ∧
  (slot o i).u = prop_u.val v

/-- Two objects: the prototype `P` (0) with the own value slot `x = 1`,
enumerable, configurable and writable, and the child `C` (1) with prototype
`P` and no slot. -/
def store_shadow : Store :=
  store_of <|
    (create_dispex (store_empty 32) none none).bind fun r0 =>
    (create_dispex r0.1 none (some 0)).bind fun r1 =>
    (jsdisp_propput_name r1.1 0 name_x (jsval_t.number 1)).map fun r2 => r2.1

/-- Object `p` of `store_shadow`. -/
def shadow_obj (p : Nat) : jsdisp_t :=
  (store_shadow.obj p).getD (init_object 0 dispex_info none)

/-- An object with its collectible mark blanked out. -/
def mark_core (o : jsdisp_t) : jsdisp_t :=
  { o with gc_marked := false }

/-- An object with its reference count and its collectible mark blanked out:
what the first two passes of the collector never change. -/
def gc_core (o : jsdisp_t) : jsdisp_t :=
  { o with ref := 0, gc_marked := false }

/-- The store `s1` is the store `s` up to the collectible marks of its objects
and the allocation budget. -/
def mark_frame (s s1 : Store) : Prop :=
  s1.ctx = s.ctx ∧ s1.heap.length = s.heap.length ∧
  ∀ p, (s1.obj p).map mark_core = (s.obj p).map mark_core

/-- The store `s1` is the store `s` up to the reference counts and collectible
marks of its objects and the allocation budget. -/
def gc_frame (s s1 : Store) : Prop :=
  s1.ctx = s.ctx ∧ s1.heap.length = s.heap.length ∧
  ∀ p, (s1.obj p).map gc_core = (s.obj p).map gc_core

/-- The links of the object at `p`, none when it is not allocated. -/
def edges_of (s : Store) (p : Nat) : List Nat :=
  ((s.obj p).map obj_edges).getD []

/-- The object at `q`, when it is allocated and of this context, is in the
list of objects of the context. -/
def listed_or_foreign (s : Store) (q : Nat) : Bool :=
  match s.obj q with
  | some oq => decide (oq.ctx = s.ctx.self → q ∈ s.ctx.objects)
  | none => true

/-- Every object of this context that a listed object links to is listed: a
reference held by a slot or a prototype link keeps its target in the list. -/
def links_listed (s : Store) : Prop :=
  ∀ p ∈ s.ctx.objects, ∀ q ∈ edges_of s p, listed_or_foreign s q = true

instance (s : Store) : Decidable (links_listed s) := by
  unfold links_listed
  infer_instance

/-- The store `s1` is `s` up to reference counts, marks and budget, and agrees
with `s` on every object that is not listed. -/
def pass1_step (s s1 : Store) : Prop :=
  gc_frame s s1 ∧ ∀ p, p ∉ s.ctx.objects → s1.obj p = s.obj p

/-- The reference count of the object at `p`, 0 when it is not allocated. -/
def ref_of (s : Store) (p : Nat) : Int :=
  ((s.obj p).map jsdisp_t.ref).getD 0

/-- Two objects with no reference from outside that hold each other: object 0
with the slot `x` holding object 1, object 1 with the slot `x` holding
object 0. -/
def store_cycle : Store :=
  store_of <|
    (create_dispex (store_empty 32) none none).bind fun r0 =>
    (create_dispex r0.1 none none).bind fun r1 =>
    (jsdisp_propput_name r1.1 0 name_x (jsval_t.obj 1)).bind fun r2 =>
    (jsdisp_propput_name r2.1 1 name_x (jsval_t.obj 0)).bind fun r3 =>
    (jsdisp_release r3.1 0).bind fun s4 => jsdisp_release s4 1

/-- The store `store_holder` with one allocation left: enough for the chunk of
saved reference counts, not for the traversal stack. -/
def store_holder_low : Store :=
  { store_holder with avail := 1 }

/-- The store in which `gc_run` leaves `store_holder_low`. -/
def store_holder_failed : Store :=
  store_of ((gc_run store_holder_low).map fun r => r.1)

/-- The store in which `gc_run` leaves `store_cycle`. -/
def store_cycle_collected : Store :=
  store_of ((gc_run store_cycle).map fun r => r.1)

/-- The number of links to `p` held by the allocated objects outside `Z`. -/
def indeg (s : Store) (Z : List Nat) (p : Nat) : Nat :=
  ((List.range s.heap.length).map fun q => if q ∈ Z then 0 else (edges_of s q).count p).sum

/-- The state of a cascade of releases.  `ext p` is the number of references
held on `p` from outside the objects, `H` the references a running
`jsdisp_free` or `unlink_jsdisp` has still to release, `Z` the objects whose
links are being released (they are in `H`, not counted as links any more),
`V` a set of objects that support each other and are therefore never freed.
Every reference count is the sum of the three kinds of reference (`acc`);
the list holds allocated objects once each (`nodup`, `listed`), and every
allocated object except those bound to a proxy with no reference left
(`home`); an object without proxy has a reference (`pos`). -/
structure cascade_inv (ext : Nat → Nat) (V : Nat → Prop) (s : Store) (H Z : List Nat) : Prop where
  acc : ∀ p o, s.obj p = some o → o.ref = ((ext p + indeg s Z p + H.count p : Nat) : Int)
  zomb : ∀ z ∈ Z, ∃ o, s.obj z = some o ∧ (o.ref = 0 ∨ 1 ≤ ext z)
  prot : ∀ v, V v → v ∉ Z ∧ ∃ o, s.obj v = some o ∧
    (o.proxy.isSome = true ∨ 1 ≤ ext v ∨ ∃ u, V u ∧ v ∈ edges_of s u)
  nodup : s.ctx.objects.Nodup
  listed : ∀ x ∈ s.ctx.objects, (s.obj x).isSome = true
  home : ∀ x o, s.obj x = some o → x ∉ Z →
    x ∈ s.ctx.objects ∨ (o.proxy.isSome = true ∧ o.ref = 0)
  pos : ∀ x o, s.obj x = some o → x ∉ Z → o.proxy = none → 1 ≤ o.ref

/-- Between `s` and `s1` the list of objects lost entries and kept the order of
the others, and kept every object with a reference from outside. -/
def list_shrinks (ext : Nat → Nat) (s s1 : Store) : Prop :=
  s1.ctx.objects.Sublist s.ctx.objects ∧
  ∀ x ∈ s.ctx.objects, 1 ≤ ext x → x ∈ s1.ctx.objects

/-- The object `o1` is the object `o` after the loop of `unlink_jsdisp` over the
slots `idxs`: the same object up to its reference count and its slots, the
slots in `idxs` tombstones that hold no link, the other slots as they were. -/
def slots_unlinked (idxs : List Nat) (o o1 : jsdisp_t) : Prop :=
  ({ o1 with props := o.props, ref := o.ref } : jsdisp_t) = o ∧
  o1.props.length = o.props.length ∧
  ∀ i, (i ∈ idxs → slot_edges (slot o1 i) = [] ∧
      (i < o1.props.length → (slot o1 i).type = prop_type_t.PROP_DELETED)) ∧
    (i ∉ idxs → slot o1 i = slot o i)

/-- The count of outside references with one more on `p`: the reference pass 3
takes on the object it unlinks. -/
def bump (ext : Nat → Nat) (p : Nat) : Nat → Nat :=
  fun x => if x = p then ext x + 1 else ext x

/-- Every object of `s1` but the one at `p` is an object of `s` up to its
reference count. -/
def store_frame_but (p : Nat) (s s1 : Store) : Prop :=
  ∀ q o1, q ≠ p → s1.obj q = some o1 → ∃ o, s.obj q = some o ∧ obj_frame o o1

/-- Every object of `s1` is an object of `s` with the collectible mark and the
proxy it had, and a different object than `p` is the object of `s` up to its
reference count: what one round of pass 3 on the object at `p` leaves of the
other objects. -/
def round_frame (p : Nat) (s s1 : Store) : Prop :=
  ∀ x o1, s1.obj x = some o1 → ∃ o, s.obj x = some o ∧ o1.gc_marked = o.gc_marked ∧
    o1.proxy = o.proxy ∧ (x ≠ p → obj_frame o o1)

/-- Every object of `s1` is an object of `s` with the collectible mark and the
proxy it had, and an object of `V` is the object of `s` up to its reference
count. -/
def pass3_frame (V : Nat → Prop) (s s1 : Store) : Prop :=
  ∀ x o1, s1.obj x = some o1 → ∃ o, s.obj x = some o ∧ o1.gc_marked = o.gc_marked ∧
    o1.proxy = o.proxy ∧ (V x → obj_frame o o1)

/-- The number of links to `x` held by the listed objects. -/
def listed_links (s : Store) (L : List Nat) (x : Nat) : Nat :=
  (L.map fun q => (edges_of s q).count x).sum

/-- The store `s1` is the store `s` with `c x` taken off the reference count of
every object `x`, and the collectible mark set on the objects that `m`
selects. -/
def dec_by (s s1 : Store) (c : Nat → Nat) (m : Nat → Bool) : Prop :=
  s1.ctx = s.ctx ∧ s1.heap.length = s.heap.length ∧
  ∀ x, s1.obj x = (s.obj x).map fun o =>
    { o with ref := o.ref - (c x : Int), gc_marked := o.gc_marked || m x }

/-- Every allocated object is of the context of the store. -/
def single_ctx (s : Store) : Prop :=
  ∀ x o, s.obj x = some o → o.ctx = s.ctx.self

/-- The entries of the traversal stack, the top first. -/
def stack_list (g : gc_ctx) : List (Option Nat) :=
  g.chunks.flatten

/-- The traversal stack is well formed: with no chunk `idx` is 0; otherwise the
first chunk holds its entries in `objects[idx ..]` and the chunks below it are
full. -/
def stack_wf (g : gc_ctx) : Prop :=
  match g.chunks with
  | [] => g.idx = 0
  | c :: prev => g.idx + c.length = GC_CHUNK ∧ ∀ c1 ∈ prev, c1.length = GC_CHUNK

/-- The collectible mark of the object at `x`, clear when it is not
allocated. -/
def mark_of (s : Store) (x : Nat) : Bool :=
  ((s.obj x).map fun o => o.gc_marked).getD false

/-- Between `s` and `s1` collectible marks were cleared, and nothing else
changed but the allocation budget. -/
def marks_cleared (s s1 : Store) : Prop :=
  mark_frame s s1 ∧ ∀ x, mark_of s x = false → mark_of s1 x = false

/-- The references held on the object at `x` from outside the objects: its
reference count less the links that allocated objects hold on it. -/
def ext_refs (s : Store) (x : Nat) : Int :=
  ref_of s x - (indeg s [] x : Int)

/-- The object at `r` is held from outside the graph: it is allocated, and
bound to a proxy or with a reference from outside the objects. -/
def is_root (s : Store) (r : Nat) : Bool :=
  match s.obj r with
  | none => false
  | some o => o.proxy.isSome || decide (ext_refs s r ≠ 0)

/-- Reachability along the links `E` from the objects `root`. -/
inductive reach (E : Nat → List Nat) (root : Nat → Prop) : Nat → Prop
  | base (r : Nat) : root r → reach E root r
  | step (u t : Nat) : reach E root u → t ∈ E u → reach E root t

/-- The object at `x` is reachable, along value, getter, setter and prototype
links, from an object held from outside the graph. -/
def live (s : Store) (x : Nat) : Prop :=
  reach (edges_of s) (fun r => is_root s r = true) x

/-- The object at `x`, when allocated, is in order: it is listed, unless it is
bound to a proxy, has no reference and no mark; it is of the context of the
store; without proxy it has a reference; its reference count covers the links
held on it; and its links go to allocated objects. -/
def obj_ok (s : Store) (x : Nat) : Bool :=
  match s.obj x with
  | none => true
  | some o =>
    decide ((x ∈ s.ctx.objects ∨ (o.proxy.isSome = true ∧ o.ref = 0 ∧ o.gc_marked = false)) ∧
      o.ctx = s.ctx.self ∧ (o.proxy = none → 1 ≤ o.ref) ∧ (indeg s [] x : Int) ≤ o.ref ∧
      ∀ t ∈ obj_edges o, (s.obj t).isSome = true)

/-- A context with accurate reference counts: the list holds allocated
objects, once each, and every allocated object is in order. -/
def ctx_wf (s : Store) : Prop :=
  s.ctx.objects.Nodup ∧ (∀ x ∈ s.ctx.objects, (s.obj x).isSome = true) ∧
  ∀ x, x < s.heap.length → obj_ok s x = true

instance (s : Store) : Decidable (ctx_wf s) := by
  unfold ctx_wf
  infer_instance

/-- The context of `s1` is the context of `s` up to its list of objects. -/
def ctx_frame (s s1 : Store) : Prop :=
  s1.ctx = { s.ctx with objects := s1.ctx.objects }

/-- The number of references held on the object at `x` from outside the
objects. -/
def ext_count (s : Store) (x : Nat) : Nat :=
  (ext_refs s x).toNat

/-- The listed objects on which passes 1 and 2 left the collectible mark: `sM`
is the store in which pass 3 starts. -/
def marked_listed (s sM : Store) (x : Nat) : Prop :=
  x ∈ s.ctx.objects ∧ mark_of sM x = true

/-- The allocated objects that pass 3 leaves alone. -/
def unmarked_alloc (s sM : Store) (x : Nat) : Prop :=
  (s.obj x).isSome = true ∧ ¬ marked_listed s sM x

/-- Repeated runs of the collector, each of them returning `S_OK`. -/
def gc_runs : Nat → Store → Option Store
  | 0, s => some s
  | n + 1, s =>
    match gc_run s with
    | none => none
    | some (s1, hres) => if hres = HRESULT.S_OK then gc_runs n s1 else none

/-- The store in which pass 3 starts on `store_cycle`. -/
def store_cycle_marked : Store :=
  set_gc_is_unlinking (store_of ((gc_mark_phase store_cycle).map fun r => r.1)) true

/-- The store `store_cycle_marked` after the first `unlink_jsdisp` of pass 3,
the one of object 0. -/
def store_cycle_unlinked : Store :=
  store_of ((jsdisp_addref store_cycle_marked 0).bind fun s => unlink_jsdisp s 0)

/-- The name `y`. -/
def name_y : WSTR := [121]

/-- Three objects: object 0, held from outside, and the objects 1 and 2 with no
reference from outside that hold each other in their slot `x`; object 1 also
holds object 0, in its slot `y`. -/
def store_leak : Store :=
  store_of <|
    (create_dispex (store_empty 32) none none).bind fun r0 =>
    (create_dispex r0.1 none none).bind fun r1 =>
    (create_dispex r1.1 none none).bind fun r2 =>
    (jsdisp_propput_name r2.1 1 name_x (jsval_t.obj 2)).bind fun r3 =>
    (jsdisp_propput_name r3.1 2 name_x (jsval_t.obj 1)).bind fun r4 =>
    (jsdisp_propput_name r4.1 1 name_y (jsval_t.obj 0)).bind fun r5 =>
    (jsdisp_release r5.1 1).bind fun s6 => jsdisp_release s6 2

/-- The store in which one `gc_run` leaves `store_leak`. -/
def store_leak_collected : Store :=
  store_of ((gc_run store_leak).map fun r => r.1)

/-- The store in which two runs of the collector leave `store_leak`. -/
def store_leak_twice : Store :=
  store_of (gc_runs 2 store_leak)

/-- The loop of `jsdisp_change_prototype` over `proto`, `proto->prototype`, ...:
`true` when it meets `obj`, `false` when it reaches the NULL prototype.  A
chain without a cycle is shorter than the heap. -/
def proto_cycle_walk (s : Store) (obj : Nat) : Nat → Option Nat → Option Bool
  | 0, _ => none
  | _ + 1, none => some false
  | fuel + 1, some iter =>
    if iter = obj then some true
    else
      match s.obj iter with
      | none => none
      | some o => proto_cycle_walk s obj fuel o.prototype

/-- The loop of `jsdisp_change_prototype` over the slots in use: every
prototype reference becomes a tombstone. -/
def drop_protrefs (obj : jsdisp_t) : jsdisp_t :=
  (List.range obj.prop_cnt).foldl (fun This i =>
    if (slot This i).type = prop_type_t.PROP_PROTREF then
      set_slot This i (fun q => { q with type := prop_type_t.PROP_DELETED })
    else This) obj

def jsdisp_change_prototype (s : Store) (p : Nat) (proto : Option Nat) : Option (Store × HRESULT) :=
  match s.obj p with
  | none => none
  | some obj =>
    if obj.prototype = proto then some (s, HRESULT.S_OK)
    else if ¬ obj.extensible then some (s, HRESULT.JS_E_CANNOT_CREATE_FOR_NONEXTENSIBLE)
    else
      match proto_cycle_walk s p (s.heap.length + 1) proto with
      | none => none
      | some true => some (s, HRESULT.JS_E_CYCLIC_PROTO_VALUE)
      | some false =>
        (match obj.prototype with
          | none => some s
          | some q => jsdisp_release (s.set_obj p (drop_protrefs obj)) q).bind fun s1 =>
        match s1.obj p with
        | none => none
        | some obj1 =>
          let s2 := s1.set_obj p { obj1 with prototype := proto }
          match proto with
          | none => some (s2, HRESULT.S_OK)
          | some q => (jsdisp_addref s2 q).map fun s3 => (s3, HRESULT.S_OK)

/-- The prototype chain from `iter`: the objects met on the way to the NULL
prototype, `none` when that is not reached within `fuel` links. -/
def proto_chain (s : Store) : Nat → Option Nat → Option (List Nat)
  | 0, _ => none
  | _ + 1, none => some []
  | fuel + 1, some q =>
    match s.obj q with
    | none => none
    | some o => (proto_chain s fuel o.prototype).map fun l => q :: l

/-- The function `jsdisp_freeze` on the object at `p`; `seal1` is its argument
`seal`. -/
def jsdisp_freeze (s : Store) (p : Nat) (seal1 : Bool) : Option Store :=
  match s.obj p with
  | none => none
  | some obj =>
    let obj1 := (List.range obj.prop_cnt).foldl (fun This i =>
      let This1 :=
        if seal1 = false ∧ (slot This i).type = prop_type_t.PROP_JSVAL then
          set_slot This i (fun q => { q with flags := q.flags &&& (4294967295 ^^^ PROPF_WRITABLE) })
        else This
      set_slot This1 i (fun q => { q with flags := q.flags &&& (4294967295 ^^^ PROPF_CONFIGURABLE) })) obj
    some (s.set_obj p { obj1 with extensible := false })

/-- Two objects, both held from outside: the prototype (0) and its child (1),
which was frozen and so is not extensible. -/
def store_frozen : Store :=
  store_of <|
    (create_dispex (store_empty 16) none none).bind fun r0 =>
    (create_dispex r0.1 none (some 0)).bind fun r1 =>
    jsdisp_freeze r1.1 1 false

/-- The object at `p` of the store, a new object where there is none. -/
def obj_at (s : Store) (p : Nat) : jsdisp_t :=
  (s.obj p).getD (init_object 0 dispex_info none)

/-- The property descriptor `property_desc_t` of `jscript.h`. -/
structure property_desc_t where
  flags : Nat
  mask : Nat
  explicit_value : Bool
  value : jsval_t
  explicit_getter : Bool
  getter : Option Nat
  explicit_setter : Bool
  setter : Option Nat
  deriving DecidableEq, Repr

/-- Modelled from the spec: `throw_error` is not part of this file.  It reports
the violation "as a script-visible exception" of the context, and the status of
the call that throws is the error thrown. -/
def throw_error (_ctx : script_ctx_t) (error : HRESULT) (_str : WSTR) : HRESULT :=
  error

/-- Modelled from the spec: `jsval_strict_equal` is not part of this file.  It
is the "strict comparison" of two values: values of different types are not
equal, the undefined value equals itself, numbers are compared by value and
objects of this engine by identity; the comparison with a foreign object asks
that object and leaves this file. -/
def jsval_strict_equal (lval rval : jsval_t) : Option (HRESULT × Bool) :=
  match lval, rval with
  | jsval_t.undefined, jsval_t.undefined => some (HRESULT.S_OK, true)
  | jsval_t.number a, jsval_t.number b => some (HRESULT.S_OK, decide (a = b))
  | jsval_t.obj a, jsval_t.obj b => some (HRESULT.S_OK, decide (a = b))
  | jsval_t.disp _, jsval_t.disp _ => none
  | jsval_t.disp _, jsval_t.obj _ => none
  | jsval_t.obj _, jsval_t.disp _ => none
  | _, _ => some (HRESULT.S_OK, false)

/-- The flags `(prop->flags & ~desc->mask) | (desc->flags & desc->mask)`, with
the complement of a 32-bit `unsigned`. -/
def merge_flags (flags : Nat) (desc : property_desc_t) : Nat :=
  (flags &&& (4294967295 ^^^ desc.mask)) ||| (desc.flags &&& desc.mask)

/-- The statement `f ? jsdisp_addref(f) : NULL` for a function of a descriptor. -/
def addref_opt (s : Store) (f : Option Nat) : Option Store :=
  match f with
  | none => some s
  | some g => jsdisp_addref s g

/-- The branch of `jsdisp_define_property` for a slot that is a tombstone or a
prototype reference, the slot just allocated included: the descriptor makes
the slot. -/
def define_new_prop (s : Store) (p i : Nat) (desc : property_desc_t) : Option (Store × HRESULT) :=
  (store_set_slot s p i (fun q => { q with flags := desc.flags })).bind fun s1 =>
  if desc.explicit_getter || desc.explicit_setter then
    (store_set_slot s1 p i (fun q => { q with type := prop_type_t.PROP_ACCESSOR })).bind fun s2 =>
    (addref_opt s2 desc.getter).bind fun s2a =>
    (addref_opt s2a desc.setter).bind fun s3 =>
    (store_set_slot s3 p i (fun q => { q with u := prop_u.accessor desc.getter desc.setter })).map
      fun s4 => (s4, HRESULT.S_OK)
  else
    (store_set_slot s1 p i (fun q => { q with type := prop_type_t.PROP_JSVAL })).bind fun s2 =>
    if desc.explicit_value then
      (jsval_copy s2 desc.value).bind fun s3 =>
      (store_set_slot s3 p i (fun q => { q with u := prop_u.val desc.value })).map
        fun s4 => (s4, HRESULT.S_OK)
    else
      (store_set_slot s2 p i (fun q => { q with u := prop_u.val jsval_t.undefined })).map
        fun s3 => (s3, HRESULT.S_OK)

/-- The branch `desc->explicit_value || (desc->mask & PROPF_WRITABLE)` of
`jsdisp_define_property` on the existing slot `i`: `some hres` in the result is
a `return hres`, `none` the way on to the final store of the flags. -/
def define_data_prop (s : Store) (p i : Nat) (name : WSTR) (desc : property_desc_t) :
    Option (Store × Option HRESULT) :=
  match s.obj p with
  | none => none
  | some obj =>
    let prop := slot obj i
    if prop.type = prop_type_t.PROP_ACCESSOR then
      if prop.flags &&& PROPF_CONFIGURABLE = 0 then
        some (s, some (throw_error s.ctx HRESULT.JS_E_NONCONFIGURABLE_REDEFINED name))
      else
        (release_all jsdisp_release ((u_getter prop.u).toList ++ (u_setter prop.u).toList) s).bind
          fun s1 =>
        (store_set_slot s1 p i (fun q => { q with type := prop_type_t.PROP_JSVAL })).bind fun s2 =>
        (jsval_copy s2 desc.value).bind fun s3 =>
        (store_set_slot s3 p i (fun q => { q with u := prop_u.val desc.value })).map
          fun s4 => (s4, none)
    else
      let check : Option (Option HRESULT) :=
        if prop.flags &&& PROPF_CONFIGURABLE = 0 ∧ prop.flags &&& PROPF_WRITABLE = 0 then
          if desc.mask &&& PROPF_WRITABLE ≠ 0 ∧ desc.flags &&& PROPF_WRITABLE ≠ 0 then
            some (some (throw_error s.ctx HRESULT.JS_E_NONWRITABLE_MODIFIED name))
          else if desc.explicit_value ∧ prop.type = prop_type_t.PROP_JSVAL then
            match jsval_strict_equal desc.value (u_val prop.u) with
            | none => none
            | some (hres, eq) =>
              if FAILED hres then some (some hres)
              else if eq then some none
              else some (some (throw_error s.ctx HRESULT.JS_E_NONWRITABLE_MODIFIED name))
          else some none
        else some none
      match check with
      | none => none
      | some (some hres) => some (s, some hres)
      | some none =>
        if desc.explicit_value then
          (if prop.type = prop_type_t.PROP_JSVAL then jsval_release s (u_val prop.u)
            else store_set_slot s p i (fun q => { q with type := prop_type_t.PROP_JSVAL })).bind
            fun s1 =>
          (jsval_copy s1 desc.value).bind fun s2 =>
          (store_set_slot s2 p i (fun q => { q with u := prop_u.val desc.value })).map
            fun s3 => (s3, none)
        else some (s, none)

/-- The statement `if(desc->explicit_getter) ...` of `jsdisp_define_property`:
the getter of the accessor slot `i` is released and replaced by the one of the
descriptor. -/
def set_getter (s : Store) (p i : Nat) (desc : property_desc_t) : Option Store :=
  match s.obj p with
  | none => none
  | some o =>
    (release_all jsdisp_release (u_getter (slot o i).u).toList s).bind fun s1 =>
    (store_set_slot s1 p i (fun q => { q with u := prop_u.accessor none (u_setter q.u) })).bind
      fun s2 =>
    (addref_opt s2 desc.getter).bind fun s3 =>
    store_set_slot s3 p i (fun q => { q with u := prop_u.accessor desc.getter (u_setter q.u) })

/-- The statement `if(desc->explicit_setter) ...` of `jsdisp_define_property`. -/
def set_setter (s : Store) (p i : Nat) (desc : property_desc_t) : Option Store :=
  match s.obj p with
  | none => none
  | some o =>
    (release_all jsdisp_release (u_setter (slot o i).u).toList s).bind fun s1 =>
    (store_set_slot s1 p i (fun q => { q with u := prop_u.accessor (u_getter q.u) none })).bind
      fun s2 =>
    (addref_opt s2 desc.setter).bind fun s3 =>
    store_set_slot s3 p i (fun q => { q with u := prop_u.accessor (u_getter q.u) desc.setter })

/-- The branch `desc->explicit_getter || desc->explicit_setter` of
`jsdisp_define_property` on the existing slot `i`, with the result as in
`define_data_prop`. -/
def define_accessor_prop (s : Store) (p i : Nat) (name : WSTR) (desc : property_desc_t) :
    Option (Store × Option HRESULT) :=
  match s.obj p with
  | none => none
  | some obj =>
    let prop := slot obj i
    let shaped : Option (Store × Option HRESULT) :=
      if prop.type ≠ prop_type_t.PROP_ACCESSOR then
        if prop.flags &&& PROPF_CONFIGURABLE = 0 then
          some (s, some (throw_error s.ctx HRESULT.JS_E_NONCONFIGURABLE_REDEFINED name))
        else
          (if prop.type = prop_type_t.PROP_JSVAL then jsval_release s (u_val prop.u)
            else some s).bind fun s1 =>
          (store_set_slot s1 p i (fun q =>
            { q with type := prop_type_t.PROP_ACCESSOR, u := prop_u.accessor none none })).map
            fun s2 => (s2, none)
      else if prop.flags &&& PROPF_CONFIGURABLE = 0 ∧
          ((desc.explicit_getter = true ∧ desc.getter ≠ u_getter prop.u) ∨
           (desc.explicit_setter = true ∧ desc.setter ≠ u_setter prop.u)) then
        some (s, some (throw_error s.ctx HRESULT.JS_E_NONCONFIGURABLE_REDEFINED name))
      else some (s, none)
    match shaped with
    | none => none
    | some (s1, some hres) => some (s1, some hres)
    | some (s1, none) =>
      (if desc.explicit_getter then set_getter s1 p i desc else some s1).bind fun s2 =>
      (if desc.explicit_setter then set_setter s2 p i desc else some s2).map fun s3 => (s3, none)

/-- The part of `jsdisp_define_property` for the existing slot `i`, one that is
neither a tombstone nor a prototype reference. -/
def define_existing_prop (s : Store) (p i : Nat) (name : WSTR) (desc : property_desc_t) :
    Option (Store × HRESULT) :=
  match s.obj p with
  | none => none
  | some obj =>
    let prop := slot obj i
    if prop.flags &&& PROPF_CONFIGURABLE = 0 ∧
        ((desc.mask &&& PROPF_CONFIGURABLE ≠ 0 ∧ desc.flags &&& PROPF_CONFIGURABLE ≠ 0) ∨
         (desc.mask &&& PROPF_ENUMERABLE ≠ 0 ∧
           desc.flags &&& PROPF_ENUMERABLE ≠ prop.flags &&& PROPF_ENUMERABLE)) then
      some (s, throw_error s.ctx HRESULT.JS_E_NONCONFIGURABLE_REDEFINED name)
    else
      let body : Option (Store × Option HRESULT) :=
        if desc.explicit_value = true ∨ desc.mask &&& PROPF_WRITABLE ≠ 0 then
          define_data_prop s p i name desc
        else if desc.explicit_getter = true ∨ desc.explicit_setter = true then
          define_accessor_prop s p i name desc
        else some (s, none)
      match body with
      | none => none
      | some (s1, some hres) => some (s1, hres)
      | some (s1, none) =>
        (store_set_slot s1 p i (fun q => { q with flags := merge_flags q.flags desc })).map
          fun s2 => (s2, HRESULT.S_OK)

/-- The function `jsdisp_define_property`.  The element store `idx_put` of a
typed array and the `PropDefineOverride` of a proxy leave this file. -/
def jsdisp_define_property (s : Store) (p : Nat) (name : WSTR) (desc : property_desc_t) :
    Option (Store × HRESULT) :=
  match s.obj p with
  | none => none
  | some obj =>
    match override_idx obj name with
    | some _ =>
      if desc.flags &&& desc.mask ≠ desc.mask &&& (PROPF_WRITABLE ||| PROPF_ENUMERABLE) then
        some (s, throw_error s.ctx HRESULT.JS_E_NONCONFIGURABLE_REDEFINED name)
      else if desc.explicit_value then none
      else if desc.explicit_getter || desc.explicit_setter then
        some (s, throw_error s.ctx HRESULT.JS_E_NONCONFIGURABLE_REDEFINED name)
      else none
    | none =>
      match find_prop_name s p (string_hash name) name false with
      | none => none
      | some (s1, hres, prop) =>
        if FAILED hres then some (s1, hres)
        else
          match s1.obj p with
          | none => none
          | some obj1 =>
            let absent := match prop with
              | none => true
              | some i => decide ((slot obj1 i).type = prop_type_t.PROP_DELETED ∨
                  (slot obj1 i).type = prop_type_t.PROP_PROTREF)
            if absent = true ∧ obj1.extensible = false then
              some (s1, throw_error s1.ctx HRESULT.JS_E_OBJECT_NONEXTENSIBLE name)
            else
              let made : Option (Store × Option Nat) := match prop with
                | some i => some (s1, some i)
                | none => store_alloc_prop s1 p name prop_type_t.PROP_DELETED 0
              match made with
              | none => none
              | some (s2, none) => some (s2, HRESULT.E_OUTOFMEMORY)
              | some (s2, some i) =>
                match s2.obj p with
                | none => none
                | some obj2 =>
                  if obj2.proxy.isSome ∧ desc.explicit_value = true then none
                  else if (slot obj2 i).type = prop_type_t.PROP_DELETED ∨
                      (slot obj2 i).type = prop_type_t.PROP_PROTREF then
                    define_new_prop s2 p i desc
                  else define_existing_prop s2 p i name desc

/-- Between `s0` and `s` reference counts changed and slot `i` of the object at
`p` was rewritten by `F`; every object is allocated as before. -/
def upd_step (p i : Nat) (F : dispex_prop_t → dispex_prop_t) (s0 s : Store) : Prop :=
  ∀ q o, s0.obj q = some o →
    ∃ r, s.obj q = some (if q = p then set_slot { o with ref := r } i F else { o with ref := r })

/-- The objects a descriptor names: the object of its value, its getter and its
setter. -/
def desc_links (desc : property_desc_t) : List Nat :=
  (val_link desc.value).toList ++ desc.getter.toList ++ desc.setter.toList

/-- Every reference the slot holds is one of several on its object: the
releases of the references of the slot free nothing. -/
def links_held (s : Store) (prop : dispex_prop_t) : Prop :=
  ∀ q ∈ slot_edges prop, ∃ oq, s.obj q = some oq ∧ ((slot_edges prop).count q : Int) < oq.ref

/-- Two objects: object 0 with the own value slot `x` that has no flag set and
holds the undefined value (the put of 1 to the slot just made finds it not
writable), and object 1, a function. -/
def store_getter : Store :=
  store_of <|
    (create_dispex (store_empty 16) none none).bind fun r0 =>
    (create_dispex r0.1 (some function_info) none).bind fun r1 =>
    (jsdisp_propput r1.1 0 name_x 0 false (jsval_t.number 1)).map fun r => r.1

/-- A descriptor that names nothing. -/
def desc_empty : property_desc_t :=
  { flags := 0, mask := 0, explicit_value := false, value := jsval_t.undefined,
    explicit_getter := false, getter := none, explicit_setter := false, setter := none }

/-- The descriptor `{ configurable: true }`. -/
def desc_configurable : property_desc_t :=
  { desc_empty with flags := PROPF_CONFIGURABLE, mask := PROPF_CONFIGURABLE }

/-- The descriptor `{ value: undefined }`. -/
def desc_undefined : property_desc_t :=
  { desc_empty with explicit_value := true }

/-- The descriptor `{ get: f }` with object 1 as `f`. -/
def desc_get : property_desc_t :=
  { desc_empty with explicit_getter := true, getter := some 1 }

/-- A descriptor with both `writable: false` and the getter object 1. -/
def desc_mixed : property_desc_t :=
  { desc_empty with mask := PROPF_WRITABLE, explicit_getter := true, getter := some 1 }

/-- The object at `x` is allocated and has a well-formed table of fewer than
`~0` slots. -/
def obj_wf (s : Store) (x : Nat) : Prop :=
  match s.obj x with
  | none => False
  | some o => props_wf o ∧ o.prop_cnt < NIL

instance (s : Store) (x : Nat) : Decidable (obj_wf s x) := by
  unfold obj_wf
  split <;> infer_instance

/-- Every object of the list has a well-formed table. -/
def chain_wf (s : Store) (l : List Nat) : Prop :=
  ∀ x ∈ l, obj_wf s x

instance (s : Store) (l : List Nat) : Decidable (chain_wf s l) := by
  unfold chain_wf
  infer_instance

def fdexNameEnsure : Nat := 0x00000002

def fdexNameCaseInsensitive : Nat := 0x00000008

def DISPID_UNKNOWN : Int := -1

def DISPID_STARTENUM : Int := -1

/-- The function `prop_to_id`: the index of the slot plus one. -/
def prop_to_id (i : Nat) : Int :=
  (i : Int) + 1

/-- The function `get_prop`: the slot of a `DISPID`, NULL for an id out of range
and for a slot that is, or by `fix_protref_prop` becomes, a tombstone.  For an
object with a proxy `fix_overridden_prop` asks the proxy about a proxy slot, a
prototype reference and a tombstone. -/
def get_prop (s : Store) (p : Nat) (id : Int) : Option (Store × Option Nat) :=
  match s.obj p with
  | none => none
  | some This =>
    let idx := ((id - 1) % 4294967296).toNat
    if idx ≥ This.prop_cnt then some (s, none)
    else if This.proxy.isSome ∧ ((slot This idx).type = prop_type_t.PROP_PROXY ∨
        (slot This idx).type = prop_type_t.PROP_PROTREF ∨
        (slot This idx).type = prop_type_t.PROP_DELETED) then none
    else
      (fix_protref_prop s p idx).bind fun s1 =>
      match s1.obj p with
      | none => none
      | some This1 =>
        some (s1, if (slot This1 idx).type = prop_type_t.PROP_DELETED then none else some idx)

/-- The end of `jsdisp_get_id`, after the lookup: the status and `*id`, which is
`none` where the function returns without a store to it. -/
def get_id_result (p : Nat) (found : Option (Store × HRESULT × Option Nat)) :
    Option (Store × HRESULT × Option Int) :=
  match found with
  | none => none
  | some (s1, hres, prop) =>
    if FAILED hres then some (s1, hres, none)
    else
      match prop, s1.obj p with
      | some _, none => none
      | some i, some o1 =>
        if (slot o1 i).type ≠ prop_type_t.PROP_DELETED then
          some (s1, HRESULT.S_OK, some (prop_to_id i))
        else some (s1, HRESULT.DISP_E_UNKNOWNNAME, some DISPID_UNKNOWN)
      | none, _ => some (s1, HRESULT.DISP_E_UNKNOWNNAME, some DISPID_UNKNOWN)

/-- The function `jsdisp_get_id`.  The element count of an overridden index is
the `idx_length` callback of the class. -/
def jsdisp_get_id (s : Store) (p : Nat) (name : WSTR) (flags : Nat) :
    Option (Store × HRESULT × Option Int) :=
  match s.obj p with
  | none => none
  | some jsdisp =>
    match override_idx jsdisp name with
    | some idx =>
      match jsdisp.builtin_info.idx_length with
      | none => none
      | some len =>
        if idx ≥ len then some (s, HRESULT.DISP_E_UNKNOWNNAME, some DISPID_UNKNOWN)
        else get_id_result p (find_prop_name s p (string_hash name) name false)
    | none =>
      if jsdisp.extensible = true ∧ flags &&& fdexNameEnsure ≠ 0 then
        get_id_result p (ensure_prop_name s p name
          (PROPF_ENUMERABLE ||| PROPF_CONFIGURABLE ||| PROPF_WRITABLE)
          (decide (flags &&& fdexNameCaseInsensitive ≠ 0)))
      else
        get_id_result p (find_prop_name_prot s p (string_hash name) name
          (decide (flags &&& fdexNameCaseInsensitive ≠ 0)))

/-- The descriptor after `memset(desc, 0, sizeof(*desc))`; the zeroed value is
shown as the undefined value. -/
def desc_zero : property_desc_t :=
  { flags := 0, mask := 0, explicit_value := false, value := jsval_t.undefined,
    explicit_getter := false, getter := none, explicit_setter := false, setter := none }

/-- The function `jsdisp_get_own_property`: the status and the descriptor it
fills.  The read of an element, `idx_get`, leaves this file. -/
def jsdisp_get_own_property (s : Store) (p : Nat) (name : WSTR) (flags_only : Bool) :
    Option (Store × HRESULT × Option property_desc_t) :=
  match s.obj p with
  | none => none
  | some obj =>
    match override_idx obj name with
    | some idx =>
      match obj.builtin_info.idx_length with
      | none => none
      | some len =>
        if idx ≥ len then some (s, HRESULT.DISP_E_UNKNOWNNAME, none)
        else if ¬ flags_only then none
        else
          some (s, HRESULT.S_OK, some
            { flags := PROPF_ENUMERABLE ||| PROPF_WRITABLE,
              mask := PROPF_ENUMERABLE ||| PROPF_WRITABLE ||| PROPF_CONFIGURABLE,
              explicit_value := true, value := desc_zero.value,
              explicit_getter := false, getter := none, explicit_setter := false,
              setter := none })
    | none =>
      match find_prop_name s p (string_hash name) name false with
      | none => none
      | some (s1, hres, prop) =>
        if FAILED hres then some (s1, hres, none)
        else
          match prop, s1.obj p with
          | none, _ => some (s1, HRESULT.DISP_E_UNKNOWNNAME, none)
          | some _, none => none
          | some i, some o1 =>
            let prop := slot o1 i
            let finish (s2 : Store) (d : property_desc_t) :
                Option (Store × HRESULT × Option property_desc_t) :=
              some (s2, HRESULT.S_OK, some
                { flags := prop.flags &&&
                    (PROPF_ENUMERABLE ||| PROPF_WRITABLE ||| PROPF_CONFIGURABLE),
                  mask := d.mask ||| PROPF_ENUMERABLE ||| PROPF_CONFIGURABLE,
                  explicit_value := d.explicit_value, value := d.value,
                  explicit_getter := d.explicit_getter, getter := d.getter,
                  explicit_setter := d.explicit_setter, setter := d.setter })
            match prop.type with
            | prop_type_t.PROP_DELETED => some (s1, HRESULT.DISP_E_UNKNOWNNAME, none)
            | prop_type_t.PROP_PROTREF => some (s1, HRESULT.DISP_E_UNKNOWNNAME, none)
            | prop_type_t.PROP_ACCESSOR =>
              if flags_only then
                finish s1 { desc_zero with explicit_getter := true, explicit_setter := true }
              else
                (addref_opt s1 (u_getter prop.u)).bind fun s2 =>
                (addref_opt s2 (u_setter prop.u)).bind fun s3 =>
                finish s3
                  { desc_zero with explicit_getter := true, explicit_setter := true,
                                   getter := u_getter prop.u, setter := u_setter prop.u }
            | _ =>
              if flags_only then
                finish s1 { desc_zero with mask := PROPF_WRITABLE, explicit_value := true }
              else
                match prop_get s1 p i with
                | none => none
                | some (s2, hres2, v) =>
                  if FAILED hres2 then
                    some (s2, if hres2 = HRESULT.DISP_E_MEMBERNOTFOUND then
                      HRESULT.DISP_E_UNKNOWNNAME else hres2, none)
                  else
                    finish s2
                      { desc_zero with mask := PROPF_WRITABLE, explicit_value := true, value := v }

/-- The numeric value of a name made of decimal digits. -/
def digits_value (name : WSTR) : Nat :=
  name.foldl (fun v c => v * 10 + (c - 48)) 0

/-- A typed-array class whose objects have one element. -/
def info_typed_array : builtin_info_t :=
  { jsclass := FIRST_TYPEDARRAY_JSCLASS, props := [], idx_length := some 1, idx_put := true,
    on_put := false, gc_traverse := false }

/-- One new object of the class `info_typed_array`. -/
def store_typed_array : Store :=
  store_of ((create_dispex (store_empty 16) (some info_typed_array) none).map fun r => r.1)

/-- The name `4294967296`, the decimal digits of `2^32`. -/
def name_2_32 : WSTR := [52, 50, 57, 52, 57, 54, 55, 50, 57, 54]

/-- How a call of `prop_put` ends: with a status of its own, or with what a call
that leaves this file returns. -/
inductive put_end where
  /-- The statement `return hres;`. -/
  | ret (hres : HRESULT)
  /-- The statement
  `return jsdisp_call_value(func, jsval_obj(jsthis), DISPATCH_METHOD, 1, &val, NULL, caller);`. -/
  | call_value (func : Nat) (jsthis : Nat) (val : jsval_t)
  /-- The statements `This->builtin_info->on_put(This, prop->name); return S_OK;`. -/
  | on_put (jsthis : Nat) (name : WSTR)
  /-- The setter of a builtin, `PropInvoke` of a proxy, `idx_put` of the class. -/
  | leaves
  deriving DecidableEq, Repr

/-- The tail of `prop_put` after the `switch`, with the notification of the
class shown. -/
def prop_put_store_call (s : Store) (p i : Nat) (val : jsval_t) : Option (Store × put_end) :=
  (jsval_copy s val).bind fun s1 =>
  (store_set_slot s1 p i (fun q => { q with u := prop_u.val val })).bind fun s2 =>
  match s2.obj p with
  | none => none
  | some This =>
    if This.builtin_info.on_put then some (s2, put_end.on_put p (slot This i).name)
    else some (s2, put_end.ret HRESULT.S_OK)

/-- The function `prop_put` with the calls that leave this file shown: the store
at the call and the call. -/
def prop_put_call (s : Store) (p i : Nat) (val : jsval_t) : Option (Store × put_end) :=
  match s.obj p with
  | none => none
  | some This =>
    let target : Option (Nat × Nat) :=
      if (slot This i).type = prop_type_t.PROP_PROTREF then
        match protref_target s (s.heap.length + 1) p i with
        | none => none
        | some (q, j) =>
          match s.obj q with
          | none => none
          | some o => if (slot o j).type = prop_type_t.PROP_ACCESSOR then some (q, j) else some (p, i)
      else some (p, i)
    match target with
    | none => none
    | some (prop_obj, j) =>
      match s.obj prop_obj with
      | none => none
      | some o =>
        let prop := slot o j
        match prop.type with
        | prop_type_t.PROP_BUILTIN =>
          match prop.u with
          | prop_u.p b =>
            if b.setter.isSome then some (s, put_end.leaves) else some (s, put_end.ret HRESULT.S_OK)
          | _ => none
        | prop_type_t.PROP_PROTREF | prop_type_t.PROP_DELETED =>
          if ¬ This.extensible then some (s, put_end.ret HRESULT.S_OK)
          else
            (store_set_slot s prop_obj j (fun q =>
              { q with type := prop_type_t.PROP_JSVAL,
                       flags := PROPF_ENUMERABLE ||| PROPF_CONFIGURABLE ||| PROPF_WRITABLE,
                       u := prop_u.val jsval_t.undefined })).bind fun s1 =>
            prop_put_store_call s1 prop_obj j val
        | prop_type_t.PROP_JSVAL =>
          if prop.flags &&& PROPF_WRITABLE = 0 then some (s, put_end.ret HRESULT.S_OK)
          else (jsval_release s (u_val prop.u)).bind fun s1 => prop_put_store_call s1 prop_obj j val
        | prop_type_t.PROP_ACCESSOR =>
          match u_setter prop.u with
          | some f => some (s, put_end.call_value f p val)
          | none => some (s, put_end.ret HRESULT.S_OK)
        | prop_type_t.PROP_PROXY =>
          if prop.flags &&& PROPF_WRITABLE = 0 then some (s, put_end.ret HRESULT.S_OK)
          else some (s, put_end.leaves)
        | prop_type_t.PROP_IDX =>
          if ¬ This.builtin_info.idx_put then some (s, put_end.ret HRESULT.S_OK)
          else some (s, put_end.leaves)

/-- The result of a call that ended with a status of its own. -/
def put_returned (r : Store × put_end) : Option (Store × HRESULT) :=
  match r.2 with
  | put_end.ret hres => some (r.1, hres)
  | _ => none

/-- The descriptor with the setter object 2 and nothing else. -/
def desc_set : property_desc_t :=
  { desc_empty with explicit_setter := true, setter := some 2 }

/-- Three objects: the prototype `P` (0) with the accessor slot `x` whose setter
is the function object 2, and the child `C` (1) with the prototype `P`; slot 0
of `C` is the prototype reference a lookup of `x` has made. -/
def store_setter : Store :=
  store_of <|
    (create_dispex (store_empty 32) none none).bind fun r0 =>
    (create_dispex r0.1 none (some 0)).bind fun r1 =>
    (create_dispex r1.1 (some function_info) none).bind fun r2 =>
    (jsdisp_define_property r2.1 0 name_x desc_set).bind fun r3 =>
    (find_prop_name_prot r3.1 1 (string_hash name_x) name_x false).map fun r4 => r4.1

/-- Modelled from the spec: the enumeration modes, declared in a header that is
not part of this file.  `JSDISP_ENUM_ALL` is "all inherited enumerable",
`JSDISP_ENUM_OWN_ENUMERABLE` is "own enumerable only" and `JSDISP_ENUM_OWN` is
"own all kinds". -/
inductive jsdisp_enum_type where
  | JSDISP_ENUM_ALL
  | JSDISP_ENUM_OWN_ENUMERABLE
  | JSDISP_ENUM_OWN
  deriving DecidableEq, Repr

/-- The function `get_flags`: the flags and the store, in which a prototype
reference whose slot in the prototype is out of range or a tombstone has become
a tombstone.  `fuel` bounds the depth of the recursion into the prototypes. -/
def get_flags_fuel : Nat → Store → Nat → Nat → Option (Store × Nat)
  | 0, _, _, _ => none
  | fuel + 1, s, p, i =>
    match s.obj p with
    | none => none
    | some This =>
      if (slot This i).type = prop_type_t.PROP_PROTREF then
        match This.prototype with
        | none => none
        | some q =>
          match s.obj q with
          | none => none
          | some proto =>
            if u_ref (slot This i).u < proto.prop_cnt ∧
                (slot proto (u_ref (slot This i).u)).type ≠ prop_type_t.PROP_DELETED then
              get_flags_fuel fuel s q (u_ref (slot This i).u)
            else
              some (s.set_obj p
                (set_slot This i (fun r => { r with type := prop_type_t.PROP_DELETED })), 0)
      else some (s, (slot This i).flags)

/-- The function `get_flags`.  A prototype chain without a cycle is shorter
than the heap. -/
def get_flags (s : Store) (p i : Nat) : Option (Store × Nat) :=
  get_flags_fuel (s.heap.length + 1) s p i

/-- The function `fix_overridden_prop`: nothing to do without a proxy and for
a slot that is no proxy slot, prototype reference or tombstone; the question
to the proxy, `PropFixOverride`, leaves this file. -/
def fix_overridden_prop (s : Store) (p i : Nat) : Option (Store × HRESULT) :=
  match s.obj p with
  | none => none
  | some This =>
    if This.proxy.isSome then
      match (slot This i).type with
      | prop_type_t.PROP_PROXY | prop_type_t.PROP_PROTREF | prop_type_t.PROP_DELETED => none
      | _ => some (s, HRESULT.S_OK)
    else some (s, HRESULT.S_OK)

/-- The name `swprintf` makes of an index with the format `%u`. -/
def decimal_name (i : Nat) : WSTR :=
  (Nat.toDigits 10 i).map Char.toNat

/-- The loop of `fill_props` over the element indices. -/
def fill_props_loop (p : Nat) : List Nat → Store → Option (Store × HRESULT)
  | [], s => some (s, HRESULT.S_OK)
  | i :: rest, s =>
    match find_prop_name s p (string_hash (decimal_name i)) (decimal_name i) false with
    | none => none
    | some (s1, hres, _) => if FAILED hres then some (s1, hres) else fill_props_loop p rest s1

/-- The function `fill_props`.  `PropEnum` of a proxy leaves this file. -/
def fill_props (s : Store) (p : Nat) : Option (Store × HRESULT) :=
  match s.obj p with
  | none => none
  | some obj =>
    if obj.proxy.isSome then none
    else
      match obj.builtin_info.idx_length with
      | none => some (s, HRESULT.S_OK)
      | some len => fill_props_loop p (List.range len) s

/-- The loop of `fill_protrefs` over the slots of the prototype at `q`, from
slot `k` on; `fuel` bounds the number of rounds. -/
def fill_protrefs_loop (p q : Nat) : Nat → Store → Nat → Option (Store × HRESULT)
  | 0, _, _ => none
  | fuel + 1, s, k =>
    match s.obj p, s.obj q with
    | some This, some proto =>
      if k < proto.prop_cnt then
        if (override_idx This (slot proto k).name).isSome then fill_protrefs_loop p q fuel s (k + 1)
        else
          match find_prop_name s p (slot proto k).hash (slot proto k).name false with
          | none => none
          | some (s1, hres, prop) =>
            if FAILED hres then some (s1, hres)
            else
              match prop, s1.obj p with
              | _, none => none
              | some i, some This1 =>
                if (slot This1 i).type = prop_type_t.PROP_DELETED then
                  (store_set_slot s1 p i (fun r =>
                    { r with type := prop_type_t.PROP_PROTREF, flags := 0, u := prop_u.ref k })).bind
                    fun s2 => fill_protrefs_loop p q fuel s2 (k + 1)
                else fill_protrefs_loop p q fuel s1 (k + 1)
              | none, some _ =>
                match alloc_protref s1 p (slot proto k).name k with
                | none => none
                | some (s2, none) => some (s2, HRESULT.E_OUTOFMEMORY)
                | some (s2, some _) => fill_protrefs_loop p q fuel s2 (k + 1)
      else some (s, HRESULT.S_OK)
    | _, _ => none

/-- The function `fill_protrefs`; `fuel` bounds the depth of the recursion into
the prototypes. -/
def fill_protrefs_fuel : Nat → Store → Nat → Option (Store × HRESULT)
  | 0, _, _ => none
  | fuel + 1, s, p =>
    match fill_props s p with
    | none => none
    | some (s1, hres) =>
      if FAILED hres then some (s1, hres)
      else
        match s1.obj p with
        | none => none
        | some This =>
          match This.prototype with
          | none => some (s1, HRESULT.S_OK)
          | some q =>
            match fill_protrefs_fuel fuel s1 q with
            | none => none
            | some (s2, hres2) =>
              if FAILED hres2 then some (s2, hres2)
              else
                match s2.obj q with
                | none => none
                | some proto => fill_protrefs_loop p q (proto.prop_cnt + 1) s2 0

/-- The function `fill_protrefs`.  A prototype chain without a cycle is shorter
than the heap. -/
def fill_protrefs (s : Store) (p : Nat) : Option (Store × HRESULT) :=
  fill_protrefs_fuel (s.heap.length + 1) s p

/-- The first block of `jsdisp_next_prop`: the status and the index the scan
starts at, `none` where the function returns before the scan. -/
def next_prop_start (s : Store) (p : Nat) (id : Int) (enum_type : jsdisp_enum_type) :
    Option (Store × HRESULT × Option Nat) :=
  match s.obj p with
  | none => none
  | some obj =>
    if id = DISPID_STARTENUM ∨ (id % 4294967296).toNat ≥ obj.prop_cnt then
      match (if enum_type = jsdisp_enum_type.JSDISP_ENUM_ALL then fill_protrefs s p
        else fill_props s p) with
      | none => none
      | some (s1, hres) =>
        if FAILED hres then some (s1, hres, none)
        else
          match s1.obj p with
          | none => none
          | some obj1 =>
            if (if id = DISPID_STARTENUM then 0 else (id % 4294967296).toNat) ≥ obj1.prop_cnt then
              some (s1, HRESULT.S_FALSE, none)
            else some (s1, HRESULT.S_OK,
              some (if id = DISPID_STARTENUM then 0 else (id % 4294967296).toNat))
    else some (s, HRESULT.S_OK, some (id % 4294967296).toNat)

/-- The loop of `jsdisp_next_prop` from slot `idx` on: the status and the slot
it returns at, `none` where it runs to the end of the table.  `fuel` bounds the
number of rounds. -/
def next_prop_scan (enum_type : jsdisp_enum_type) (p : Nat) :
    Nat → Store → Nat → Option (Store × HRESULT × Option Nat)
  | 0, _, _ => none
  | fuel + 1, s, idx =>
    match s.obj p with
    | none => none
    | some obj =>
      if idx < obj.prop_cnt then
        match fix_overridden_prop s p idx with
        | none => none
        | some (s1, hres) =>
          if FAILED hres then some (s1, hres, none)
          else
            match s1.obj p with
            | none => none
            | some obj1 =>
              if (slot obj1 idx).type = prop_type_t.PROP_DELETED then
                next_prop_scan enum_type p fuel s1 (idx + 1)
              else if enum_type ≠ jsdisp_enum_type.JSDISP_ENUM_ALL ∧
                  (slot obj1 idx).type = prop_type_t.PROP_PROTREF then
                next_prop_scan enum_type p fuel s1 (idx + 1)
              else if enum_type ≠ jsdisp_enum_type.JSDISP_ENUM_OWN then
                match get_flags s1 p idx with
                | none => none
                | some (s2, flags) =>
                  if flags &&& PROPF_ENUMERABLE = 0 then next_prop_scan enum_type p fuel s2 (idx + 1)
                  else some (s2, HRESULT.S_OK, some idx)
              else some (s1, HRESULT.S_OK, some idx)
      else some (s, HRESULT.S_OK, none)

/-- The function `jsdisp_next_prop`: the status and `*ret`.  In HTML mode the
function calls itself at the end of the table; `fuel` bounds the depth. -/
def jsdisp_next_prop_fuel : Nat → Store → Nat → Int → jsdisp_enum_type →
    Option (Store × HRESULT × Option Int)
  | 0, _, _, _, _ => none
  | fuel + 1, s, p, id, enum_type =>
    match next_prop_start s p id enum_type with
    | none => none
    | some (s1, hres, none) => some (s1, hres, none)
    | some (s1, _, some idx) =>
      match s1.obj p with
      | none => none
      | some obj1 =>
        match next_prop_scan enum_type p (obj1.prop_cnt - idx + 1) s1 idx with
        | none => none
        | some (s2, hres2, some i) => some (s2, hres2, some (prop_to_id i))
        | some (s2, hres2, none) =>
          if FAILED hres2 then some (s2, hres2, none)
          else if s2.ctx.html_mode then
            match s2.obj p with
            | none => none
            | some obj2 =>
              jsdisp_next_prop_fuel fuel s2 p (prop_to_id (obj2.prop_cnt - 1)) enum_type
          else some (s2, HRESULT.S_FALSE, none)

/-- The function `jsdisp_next_prop`.  In HTML mode every further round needs a
slot that the fill of the round before has allocated. -/
def jsdisp_next_prop (s : Store) (p : Nat) (id : Int) (enum_type : jsdisp_enum_type) :
    Option (Store × HRESULT × Option Int) :=
  jsdisp_next_prop_fuel (s.avail + 2) s p id enum_type

/-- The flags of a slot with the prototype references followed: what
`get_flags` returns, as a function of the store. -/
def eff_flags_fuel : Nat → Store → Nat → Nat → Nat
  | 0, _, _, _ => 0
  | fuel + 1, s, p, i =>
    match s.obj p with
    | none => 0
    | some This =>
      if (slot This i).type = prop_type_t.PROP_PROTREF then
        match This.prototype with
        | none => 0
        | some q =>
          match s.obj q with
          | none => 0
          | some proto =>
            if u_ref (slot This i).u < proto.prop_cnt ∧
                (slot proto (u_ref (slot This i).u)).type ≠ prop_type_t.PROP_DELETED then
              eff_flags_fuel fuel s q (u_ref (slot This i).u)
            else 0
      else (slot This i).flags

def eff_flags (s : Store) (p i : Nat) : Nat :=
  eff_flags_fuel (s.heap.length + 1) s p i

/-- The filter of the loop of `jsdisp_next_prop` on slot `k` of the object at
`p`: the slot is in use and no tombstone, in the modes other than
`JSDISP_ENUM_ALL` no prototype reference, and in the modes other than
`JSDISP_ENUM_OWN` its effective flags have the enumerable flag. -/
def enum_passes (enum_type : jsdisp_enum_type) (s : Store) (p k : Nat) : Prop :=
  match s.obj p with
  | none => False
  | some o =>
    k < o.prop_cnt ∧ (slot o k).type ≠ prop_type_t.PROP_DELETED ∧
    (enum_type ≠ jsdisp_enum_type.JSDISP_ENUM_ALL → (slot o k).type ≠ prop_type_t.PROP_PROTREF) ∧
    (enum_type ≠ jsdisp_enum_type.JSDISP_ENUM_OWN → eff_flags s p k &&& PROPF_ENUMERABLE ≠ 0)

instance (enum_type : jsdisp_enum_type) (s : Store) (p k : Nat) :
    Decidable (enum_passes enum_type s p k) := by
  unfold enum_passes
  split <;> infer_instance

/-- Between `s` and `s1` nothing changed but that prototype references whose
effective flags are 0 became tombstones. -/
def tomb (s s1 : Store) : Prop :=
  s1.heap.length = s.heap.length ∧ s1.ctx = s.ctx ∧ s1.avail = s.avail ∧
  (∀ x, s.obj x = none → s1.obj x = none) ∧
  ∀ x o, s.obj x = some o →
    ∃ o1, s1.obj x = some o1 ∧ o1 = { o with props := o1.props } ∧
      o1.props.length = o.props.length ∧
      ∀ k, slot o1 k = slot o k ∨
        ((slot o k).type = prop_type_t.PROP_PROTREF ∧ (∀ fuel, eff_flags_fuel fuel s x k = 0) ∧
          slot o1 k = { slot o k with type := prop_type_t.PROP_DELETED })

/-- The object at `x` is allocated, and it has a prototype when there is a
prototype reference among its slots in use. -/
def protref_wf (s : Store) (x : Nat) : Prop :=
  match s.obj x with
  | none => False
  | some o => ∀ k, k < o.prop_cnt → (slot o k).type = prop_type_t.PROP_PROTREF →
      o.prototype.isSome = true

instance (s : Store) (x : Nat) : Decidable (protref_wf s x) := by
  unfold protref_wf
  split <;> infer_instance

def protrefs_wf (s : Store) (l : List Nat) : Prop :=
  ∀ x ∈ l, protref_wf s x

instance (s : Store) (l : List Nat) : Decidable (protrefs_wf s l) := by
  unfold protrefs_wf
  infer_instance

/-- The iteration of an enumeration: the ids that the calls of
`jsdisp_next_prop` return, each call with the id of the call before, from `id`
up to the first call that does not return `S_OK`.  `fuel` bounds the number of
calls. -/
def enum_from (enum_type : jsdisp_enum_type) (p : Nat) : Nat → Store → Int → Option (List Int)
  | 0, _, _ => none
  | fuel + 1, s, id =>
    match jsdisp_next_prop s p id enum_type with
    | none => none
    | some (s1, hres, r) =>
      if hres = HRESULT.S_OK then
        match r with
        | some id1 => (enum_from enum_type p fuel s1 id1).map fun ids => id1 :: ids
        | none => none
      else some []

/-- The slots from `idx` up to `cnt` that pass the filter, in storage order. -/
def passing_from (enum_type : jsdisp_enum_type) (s : Store) (p cnt idx : Nat) : List Nat :=
  (List.range' idx (cnt - idx)).filter fun k => decide (enum_passes enum_type s p k)

/-- The store `store_chain` after the fill of an enumeration of `O` in the mode
`JSDISP_ENUM_ALL`. -/
def store_chain_filled : Store :=
  store_of ((fill_protrefs store_chain 2).map fun r => r.1)

/-- A piece of a bucket chain: the indices met from `pos` up to, and not
including, `stop`. -/
def is_seg (props : List dispex_prop_t) : Nat → List Nat → Nat → Prop
  | pos, [], stop => pos = stop
  | pos, x :: l, stop =>
    pos ≠ NIL ∧ x = pos ∧ is_seg props (props.getD pos dispex_prop_t.zero).bucket_next l stop

/-- The three stores of `find_prop_name_raw` that move the slot found at `pos`,
after `prev`, to the head of the chain of `bucket`. -/
def move_front (This : jsdisp_t) (bucket prev pos : Nat) : jsdisp_t :=
  let This1 := set_slot This prev (fun p => { p with bucket_next := (slot This pos).bucket_next })
  let This2 := set_slot This1 pos (fun p => { p with bucket_next := (slot This1 bucket).bucket_head })
  set_slot This2 bucket (fun p => { p with bucket_head := pos })

/-- The slot before `x` on the walk of the list, `prev` before its first
slot. -/
def pred_in : Nat → List Nat → Nat → Nat
  | prev, [], _ => prev
  | prev, y :: rest, x => if y = x then prev else pred_in y rest x

/-- The object `b` is the object `a` with every slot under its name and hash:
between the two, slots changed their kind, flags, payload and links. -/
def names_kept (a b : jsdisp_t) : Prop :=
  b = { a with props := b.props } ∧ b.props.length = a.props.length ∧
  ∀ i, (slot b i).name = (slot a i).name ∧ (slot b i).hash = (slot a i).hash

/-- Every object of `s` is in `s1` with every slot under its name and hash, and
with a well-formed table when it had one. -/
def kept (s s1 : Store) : Prop :=
  s1.heap.length = s.heap.length ∧
  ∀ y o, s.obj y = some o →
    ∃ o1, s1.obj y = some o1 ∧ names_kept o o1 ∧ (props_wf o → props_wf o1)

/-- A slot in use has the name. -/
def has_name (o : jsdisp_t) (name : WSTR) : Prop :=
  ∃ i, i < o.prop_cnt ∧ (slot o i).name = name

instance (o : jsdisp_t) (name : WSTR) : Decidable (has_name o name) := by
  unfold has_name
  infer_instance

/-- The names of the indexed elements, which `fill_props` looks up, are in the
table. -/
def idx_names_in (o : jsdisp_t) : Prop :=
  match o.builtin_info.idx_length with
  | none => True
  | some len => ∀ i, i < len → has_name o (decimal_name i)

instance (o : jsdisp_t) : Decidable (idx_names_in o) := by
  unfold idx_names_in
  split <;> infer_instance

/-- The names of the slots of the prototype, which the loop of `fill_protrefs`
looks up, are in the table, but for the overridden indices. -/
def proto_names_in (s : Store) (o : jsdisp_t) : Prop :=
  match o.prototype with
  | none => True
  | some q =>
    match s.obj q with
    | none => False
    | some oq => ∀ k, k < oq.prop_cnt →
        (override_idx o (slot oq k).name).isSome = true ∨ has_name o (slot oq k).name

instance (s : Store) (o : jsdisp_t) : Decidable (proto_names_in s o) := by
  unfold proto_names_in
  split
  · infer_instance
  · split <;> infer_instance

/-- The object at `x` is as a fill leaves it: without proxy, with a well-formed
table that has the names a fill looks up. -/
def obj_filled (s : Store) (x : Nat) : Prop :=
  match s.obj x with
  | none => False
  | some o => o.proxy = none ∧ props_wf o ∧ idx_names_in o ∧ proto_names_in s o

instance (s : Store) (x : Nat) : Decidable (obj_filled s x) := by
  unfold obj_filled
  split <;> infer_instance

def filled (s : Store) (l : List Nat) : Prop :=
  ∀ x ∈ l, obj_filled s x

instance (s : Store) (l : List Nat) : Decidable (filled s l) := by
  unfold filled
  infer_instance

/-- The object at `p` is as `fill_props` leaves it: without proxy, with a
well-formed table that has the names of the indexed elements. -/
def own_filled (s : Store) (p : Nat) : Prop :=
  match s.obj p with
  | none => False
  | some o => o.proxy = none ∧ props_wf o ∧ idx_names_in o

instance (s : Store) (p : Nat) : Decidable (own_filled s p) := by
  unfold own_filled
  split <;> infer_instance

/-- The objects are as the fill of the mode leaves them: `fill_protrefs` in the
mode `JSDISP_ENUM_ALL` the objects of the prototype chain `l`, `fill_props` in
the other modes the object at `p`. -/
def fill_done (enum_type : jsdisp_enum_type) (s : Store) (p : Nat) (l : List Nat) : Prop :=
  if enum_type = jsdisp_enum_type.JSDISP_ENUM_ALL then filled s l else own_filled s p

instance (enum_type : jsdisp_enum_type) (s : Store) (p : Nat) (l : List Nat) :
    Decidable (fill_done enum_type s p l) := by
  unfold fill_done
  infer_instance

/-- The store `store_typed_array` after the fill of an enumeration of its
object in a mode other than `JSDISP_ENUM_ALL`. -/
def store_typed_filled : Store :=
  store_of ((fill_props store_typed_array 0).map fun r => r.1)

/-- The two stores of `alloc_prop`, and of one round of the second loop of
`resize_props`, that put slot `i` at the head of the chain of `bucket`. -/
def push_front (This : jsdisp_t) (bucket i : Nat) : jsdisp_t :=
  let This1 := set_slot This i (fun p => { p with bucket_next := (slot This bucket).bucket_head })
  set_slot This1 bucket (fun p => { p with bucket_head := i })

/-- The chain of bucket `c` that the second loop of `resize_props` builds from
the slots below `k`, whose buckets are `bk`: the slots of the bucket, the last
one entered first. -/
def rehash_chain (bk : Nat → Nat) (k c : Nat) : List Nat :=
  ((List.range k).filter (fun i => decide (bk i = c))).reverse

/-- The slot tables reachable from the table `init_dispex` sets up by
`alloc_prop`, `resize_props` and `find_prop_name_raw`.  A table is resized
while twice its `buf_size` is an `unsigned`, that is below `2^31` slots. -/
inductive table_reach : jsdisp_t → Prop
  | init (ctx : Nat) (builtin_info : builtin_info_t) (prototype : Option Nat) :
      table_reach (init_object ctx builtin_info prototype)
  | alloc (o : jsdisp_t) (name : WSTR) (type : prop_type_t) (flags avail : Nat) :
      table_reach o → o.buf_size < 2 ^ 31 →
      table_reach (alloc_prop o name type flags avail).2.1
  | resize (o : jsdisp_t) (avail : Nat) :
      table_reach o → o.buf_size < 2 ^ 31 → table_reach (resize_props o avail).2.1
  | raw (o : jsdisp_t) (hash : Nat) (name : WSTR) (case_insens : Bool) (o1 : jsdisp_t)
      (r : Option Nat) :
      table_reach o → find_prop_name_raw o hash name case_insens = some (o1, r) →
      table_reach o1

/-- Slot `i` is the slot the lookup of the name `n` finds: it is in use and
named `n`, no slot named `n` has a higher index, and no slot named `n` is
before it on the chain of the bucket of `n`. -/
def first_named (o : jsdisp_t) (n : WSTR) (i : Nat) : Prop :=
  i < o.prop_cnt ∧ (slot o i).name = n ∧
  (∀ j, j < o.prop_cnt → (slot o j).name = n → j ≤ i) ∧
  ∃ A R, is_chain o.props (slot o (get_props_idx o (string_hash n))).bucket_head (A ++ i :: R) ∧
    ∀ x ∈ A, (slot o x).name ≠ n

/-- The table `o1` is the table `o` after later operations on the table that
add no slot named `n`: `alloc_prop` of other names, `resize_props`, and
lookups by `find_prop_name_raw`.  A table is resized while it has fewer than
`2^31` slots. -/
inductive table_later (n : WSTR) : jsdisp_t → jsdisp_t → Prop
  | refl (o : jsdisp_t) : table_later n o o
  | alloc (o o1 : jsdisp_t) (name : WSTR) (type : prop_type_t) (flags avail : Nat) :
      table_later n o o1 → name ≠ n → o1.buf_size < 2 ^ 31 →
      table_later n o (alloc_prop o1 name type flags avail).2.1
  | resize (o o1 : jsdisp_t) (avail : Nat) :
      table_later n o o1 → o1.buf_size < 2 ^ 31 → table_later n o (resize_props o1 avail).2.1
  | raw (o o1 : jsdisp_t) (hash : Nat) (name : WSTR) (case_insens : Bool) (o2 : jsdisp_t)
      (r : Option Nat) :
      table_later n o o1 → find_prop_name_raw o1 hash name case_insens = some (o2, r) →
      table_later n o o2

/-- The object at `x` is allocated and of the context of the store: the test
`link->ctx == ctx` of pass 1. -/
def own_ctx (s : Store) (x : Nat) : Bool :=
  match s.obj x with
  | some o => decide (o.ctx = s.ctx.self)
  | none => false

/-- The object at `p` is allocated, its class has no `gc_traverse` hook, and
its links go to allocated objects. -/
def obj_ready (s : Store) (p : Nat) : Bool :=
  match s.obj p with
  | none => false
  | some o => !o.builtin_info.gc_traverse && (obj_edges o).all (fun q => (s.obj q).isSome)

/-- The condition of the specification for a prototype reference to stay:
following the references upward from the object `q` with the index `ref`
reaches, with every index in bounds, a slot that is neither a tombstone nor a
prototype reference. -/
inductive reaches_live_spec (s : Store) : Option Nat → Nat → Prop
  | here (q ref : Nat) (o : jsdisp_t) :
      s.obj q = some o → ref < o.prop_cnt →
      (slot o ref).type ≠ prop_type_t.PROP_DELETED →
      (slot o ref).type ≠ prop_type_t.PROP_PROTREF → reaches_live_spec s (some q) ref
  | up (q ref : Nat) (o : jsdisp_t) :
      s.obj q = some o → ref < o.prop_cnt →
      (slot o ref).type = prop_type_t.PROP_PROTREF →
      reaches_live_spec s o.prototype (u_ref (slot o ref).u) → reaches_live_spec s (some q) ref

/-- The store `store_shadow` after the child `C` (1) got an own `x` and deleted
it again: `C` holds a tombstone named `x`, its prototype `P` (0) the live
`x = 1`. -/
def store_reinherit : Store :=
  store_of <|
    (jsdisp_propput_name store_shadow 1 name_x (jsval_t.number 5)).bind fun r1 =>
    (disp_delete_name r1.1 1 name_x).map fun r2 => r2.1

/-- A class with indexed elements and nothing else: its objects have a million
elements, no builtin table and no `idx_put` routine. -/
def info_indexed : builtin_info_t :=
  { jsclass := 0, props := [], idx_length := some 1000000, idx_put := false,
    on_put := false, gc_traverse := false }

/-- One new object of the class `info_indexed`. -/
def store_indexed : Store :=
  store_of ((create_dispex (store_empty 16) (some info_indexed) none).map fun r => r.1)

/-- The name `01`. -/
def name_01 : WSTR := [48, 49]

/-- The name `700000`. -/
def name_700000 : WSTR := [55, 48, 48, 48, 48, 48]

/-- What a call of `find_prop_name` returned: the status, and for the slot it
returned the name, the kind, the flags and the payload. -/
def found_slot (s : Store) (p : Nat) (name : WSTR) :
    Option (HRESULT × Option (WSTR × prop_type_t × Nat × prop_u)) :=
  (find_prop_name s p (string_hash name) name false).map fun r =>
    (r.2.1, r.2.2.map fun i =>
      ((slot (obj_at r.1 p) i).name, (slot (obj_at r.1 p) i).type, (slot (obj_at r.1 p) i).flags,
        (slot (obj_at r.1 p) i).u))

/-- Modelled from the spec: the record `struct proxy_prop_info` of `jscript.h`,
which is not part of this file, by which the proxy answers "does property X
exist, and how is it realized": the identifier of the member, its flags, its
name, and `func[0].invoke`, NULL (`none`) for a member that is no function. -/
structure proxy_prop_info where
  dispid : Int
  flags : Nat
  name : WSTR
  invoke : Option Nat
  deriving DecidableEq, Repr

/-- Modelled from the spec: the external proxy by its callback contract, as far
as the resolver uses it.  `PropGetInfo name case_insens` is the status and the
record the proxy fills in; `PropFixOverride name dispid` is the status and the
record after the call, for a record that enters with that name and that
identifier.  The proxy answers without a call back into this file. -/
structure proxy_t where
  PropGetInfo : WSTR → Bool → HRESULT × proxy_prop_info
  PropFixOverride : WSTR → Int → HRESULT × proxy_prop_info

def u_proxy_id (u : prop_u) : Int :=
  match u with
  | prop_u.proxy_id d => d
  | _ => 0

/-- The function `alloc_proxy_prop`; `ret` is `*ret` at entry.  The result is
the status and `*ret`.  For a member that is a function
`create_proxy_functions` leaves this file. -/
def alloc_proxy_prop (s : Store) (p : Nat) (info : proxy_prop_info) (ret : Option Nat) :
    Option (Store × HRESULT × Option Nat) :=
  if info.invoke.isSome then none
  else
    match ret with
    | some i =>
      (store_set_slot s p i (fun q =>
        { q with type := prop_type_t.PROP_PROXY, flags := info.flags &&& PROPF_ALL,
                 u := prop_u.proxy_id info.dispid })).map fun s1 => (s1, HRESULT.S_OK, some i)
    | none =>
      match store_alloc_prop s p info.name prop_type_t.PROP_PROXY (info.flags &&& PROPF_ALL) with
      | none => none
      | some (s1, none) => some (s1, HRESULT.E_OUTOFMEMORY, none)
      | some (s1, some i) =>
        (store_set_slot s1 p i (fun q => { q with u := prop_u.proxy_id info.dispid })).map
          fun s2 => (s2, HRESULT.S_OK, some i)

/-- The function `fix_overridden_prop` on slot `i` of the object at `p`, with
the answers of the proxy of the object given by `px`. -/
def fix_overridden_prop_px (px : proxy_t) (s : Store) (p i : Nat) : Option (Store × HRESULT) :=
  match s.obj p with
  | none => none
  | some This =>
    if This.proxy.isNone then some (s, HRESULT.S_OK)
    else
      let prop := slot This i
      let asked : Option Int :=
        match prop.type with
        | prop_type_t.PROP_PROXY => some (u_proxy_id prop.u)
        | prop_type_t.PROP_PROTREF => some DISPID_UNKNOWN
        | prop_type_t.PROP_DELETED => some DISPID_UNKNOWN
        | _ => none
      match asked with
      | none => some (s, HRESULT.S_OK)
      | some dispid =>
        match px.PropFixOverride prop.name dispid with
        | (hres, info) =>
          if hres ≠ HRESULT.S_OK then some (s, if FAILED hres then hres else HRESULT.S_OK)
          else if info.dispid = DISPID_UNKNOWN then
            match This.prototype with
            | some q =>
              match find_prop_name_prot s q prop.hash prop.name false with
              | none => none
              | some (s1, hres1, prot_prop) =>
                if FAILED hres1 then some (s1, hres1)
                else
                  match prot_prop, s1.obj q with
                  | some j, some proto =>
                    if (slot proto j).type ≠ prop_type_t.PROP_DELETED then
                      (store_set_slot s1 p i (fun r =>
                        { r with type := prop_type_t.PROP_PROTREF, u := prop_u.ref j })).map
                        fun s2 => (s2, hres1)
                    else
                      (store_set_slot s1 p i (fun r =>
                        { r with type := prop_type_t.PROP_DELETED })).map fun s2 => (s2, hres1)
                  | some _, none => none
                  | none, _ =>
                    (store_set_slot s1 p i (fun r =>
                      { r with type := prop_type_t.PROP_DELETED })).map fun s2 => (s2, hres1)
            | none =>
              (store_set_slot s p i (fun r => { r with type := prop_type_t.PROP_DELETED })).map
                fun s2 => (s2, hres)
          else
            (alloc_proxy_prop s p { info with invoke := none } (some i)).map fun r => (r.1, r.2.1)

/-- The part of `find_prop_name` after the question to the proxy: the builtin
table, then the indexed elements.  `s1` is the store and `This1` the object
after the own-table lookup. -/
def find_prop_name_local (s1 : Store) (p : Nat) (This1 : jsdisp_t) (name : WSTR)
    (case_insens : Bool) : Option (Store × HRESULT × Option Nat) :=
  match find_builtin_prop s1.ctx This1 name case_insens with
  | some builtin =>
    let flags := builtin.flags
    if flags &&& PROPF_METHOD ≠ 0 then
      match create_builtin_function s1 builtin.invoke builtin.name flags with
      | none => none
      | some (s2, hres, none) => if FAILED hres then some (s2, hres, none) else none
      | some (s2, hres, some obj) =>
        if FAILED hres then some (s2, hres, none)
        else
          match store_alloc_prop s2 p builtin.name prop_type_t.PROP_JSVAL
              ((flags &&& PROPF_ALL) ||| PROPF_WRITABLE ||| PROPF_CONFIGURABLE) with
          | none => none
          | some (s3, none) =>
            (jsdisp_release s3 obj).map fun s4 => (s4, HRESULT.E_OUTOFMEMORY, none)
          | some (s3, some i) =>
            (store_set_slot s3 p i (fun q =>
              { q with type := prop_type_t.PROP_JSVAL, u := prop_u.val (jsval_t.obj obj) })).map
              fun s4 => (s4, HRESULT.S_OK, some i)
    else
      let flags1 := if builtin.setter.isSome then flags ||| PROPF_WRITABLE else flags
      let flags2 := flags1 &&& (PROPF_ENUMERABLE ||| PROPF_WRITABLE ||| PROPF_CONFIGURABLE)
      match store_alloc_prop s1 p builtin.name prop_type_t.PROP_BUILTIN flags2 with
      | none => none
      | some (s2, none) => some (s2, HRESULT.E_OUTOFMEMORY, none)
      | some (s2, some i) =>
        (store_set_slot s2 p i (fun q => { q with u := prop_u.p builtin })).map
          fun s3 => (s3, HRESULT.S_OK, some i)
  | none =>
    match This1.builtin_info.idx_length with
    | some len =>
      match idx_scan name 0 with
      | ([], idx) =>
        if idx < len then
          let flags := if This1.builtin_info.idx_put then PROPF_ENUMERABLE ||| PROPF_WRITABLE
            else PROPF_ENUMERABLE
          match store_alloc_prop s1 p name prop_type_t.PROP_IDX flags with
          | none => none
          | some (s2, none) => some (s2, HRESULT.E_OUTOFMEMORY, none)
          | some (s2, some i) =>
            (store_set_slot s2 p i (fun q => { q with u := prop_u.idx idx })).map
              fun s3 => (s3, HRESULT.S_OK, some i)
        else some (s1, HRESULT.S_OK, none)
      | _ => some (s1, HRESULT.S_OK, none)
    | none => some (s1, HRESULT.S_OK, none)

/-- The function `find_prop_name` with the answers of the proxy of the object
given by `px`.  The result is the status and `*ret`; `*ret` is `none` for NULL
and also where the C code returns without a store to it. -/
def find_prop_name_px (px : proxy_t) (s : Store) (p : Nat) (hash : Nat) (name : WSTR)
    (case_insens : Bool) : Option (Store × HRESULT × Option Nat) :=
  match s.obj p with
  | none => none
  | some This =>
    match find_prop_name_raw This hash name case_insens with
    | none => none
    | some (This1, some i) =>
      (fix_overridden_prop_px px (s.set_obj p This1) p i).map fun r => (r.1, r.2, some i)
    | some (This1, none) =>
      let s1 := s.set_obj p This1
      if This1.proxy.isSome then
        match px.PropGetInfo name case_insens with
        | (hres, info) =>
          if hres = HRESULT.S_OK then alloc_proxy_prop s1 p info none
          else if hres ≠ HRESULT.DISP_E_UNKNOWNNAME then some (s1, hres, none)
          else find_prop_name_local s1 p This1 name case_insens
      else find_prop_name_local s1 p This1 name case_insens

/-- A proxy that owns every name, as the member 7 that is no function, and
that reports every slot it is asked about as removed. -/
def px_owns : proxy_t :=
  { PropGetInfo := fun name _ =>
      (HRESULT.S_OK, { dispid := 7, flags := PROPF_ENUMERABLE, name := name, invoke := none }),
    PropFixOverride := fun name _ =>
      (HRESULT.S_OK, { dispid := DISPID_UNKNOWN, flags := 0, name := name, invoke := none }) }

/-- The store `store_shadow` with the object `P` (0) bound to the proxy 1: a
proxy object with the own value slot `x = 1`. -/
def store_proxied : Store :=
  store_shadow.set_obj 0 { obj_at store_shadow 0 with proxy := some 1 }

/-- The store `store_reinherit` with the child `C` (1) bound to the proxy 1: a
proxy object with a tombstone named `x` over a prototype with a live `x`. -/
def store_proxied_tomb : Store :=
  store_reinherit.set_obj 1 { obj_at store_reinherit 1 with proxy := some 1 }

/-- The store `store_proxied_tomb` after the resolver looked up `x` on the
prototype `P` (0). -/
def store_proxied_found : Store :=
  store_of ((find_prop_name_prot store_proxied_tomb 0 (string_hash name_x) name_x false).map
    fun r => r.1)

/-- Slot `i` of the object `o`, a prototype reference, can be followed in `s`:
the object has a prototype, and the reference is an index below the `prop_cnt`
of the prototype. -/
def protref_valid (s : Store) (o : jsdisp_t) (i : Nat) : Prop :=
  ∃ q, o.prototype = some q ∧ q < s.heap.length ∧
    ∀ oq, s.obj q = some oq → u_ref (slot o i).u < oq.prop_cnt

/-- The invariant of the prototype references: the allocations still granted
are fewer than `2^31`, every object has a well-formed slot table, its slots and
the allocations still granted together stay below `2^31`, and every slot in use
that is a prototype reference can be followed. -/
def protref_inv (s : Store) : Prop :=
  s.avail < 2 ^ 31 ∧ ∀ x o, s.obj x = some o →
    props_wf o ∧ o.prop_cnt + s.avail < 2 ^ 31 ∧
    ∀ i, i < o.prop_cnt → (slot o i).type = prop_type_t.PROP_PROTREF → protref_valid s o i

/-- Between `s` and `s1` the heap grew at its end by objects without a
prototype, allocations were used up, and every object kept its prototype and
its slots in use. -/
def grow (s s1 : Store) : Prop :=
  s.heap.length ≤ s1.heap.length ∧ s1.avail ≤ s.avail ∧
  ∀ x o1, s1.obj x = some o1 →
    (x < s.heap.length →
      ∃ o, s.obj x = some o ∧ o1.prototype = o.prototype ∧ o.prop_cnt ≤ o1.prop_cnt) ∧
    (s.heap.length ≤ x → o1.prototype = none)

/-- Between `s` and `s1` objects were freed and reference counts changed;
the heap has the same size and the allocator the same budget. -/
def soft (s s1 : Store) : Prop :=
  s1.heap.length = s.heap.length ∧ s1.avail = s.avail ∧ store_frame s s1

/-- The object `o1` is the object `o` up to its reference count and the kind,
flags and payload of its slots, and no slot of `o1` is a prototype reference
that was not one, with the same reference, in `o`. -/
def tame_obj (o o1 : jsdisp_t) : Prop :=
  o1 = { o with props := o1.props, ref := o1.ref } ∧ o1.props.length = o.props.length ∧
  ∀ i, (slot o1 i).name = (slot o i).name ∧ (slot o1 i).hash = (slot o i).hash ∧
    (slot o1 i).bucket_head = (slot o i).bucket_head ∧
    (slot o1 i).bucket_next = (slot o i).bucket_next ∧
    ((slot o1 i).type = prop_type_t.PROP_PROTREF →
      (slot o i).type = prop_type_t.PROP_PROTREF ∧ (slot o1 i).u = (slot o i).u)

/-- Between `s` and `s1` objects were freed, reference counts changed and slots
were rewritten, none into a prototype reference. -/
def tame (s s1 : Store) : Prop :=
  s1.heap.length = s.heap.length ∧ s1.avail = s.avail ∧
  ∀ x o1, s1.obj x = some o1 → ∃ o, s.obj x = some o ∧ tame_obj o o1

/-- Slot `i` of the object at `p`, when allocated, is no prototype reference. -/
def no_protref (s : Store) (p i : Nat) : Prop :=
  ∀ o, s.obj p = some o → (slot o i).type ≠ prop_type_t.PROP_PROTREF

/-- The function `f` on slots keeps name, hash and both links. -/
def keeps_links (f : dispex_prop_t → dispex_prop_t) : Prop :=
  ∀ r, (f r).name = r.name ∧ (f r).hash = r.hash ∧ (f r).bucket_head = r.bucket_head ∧
    (f r).bucket_next = r.bucket_next

/-- The prototype links lead to addresses of the heap and go down in `rank`:
no prototype chain has a cycle. -/
def proto_ranked (rank : Nat → Nat) (s : Store) : Prop :=
  ∀ x o q, s.obj x = some o → o.prototype = some q → q < s.heap.length ∧ rank q < rank x

/-- Every slot in use of `s` that is no tombstone is in `s1` a slot in use of
the same kind and payload, of an object with the same prototype. -/
def keeps_live (s s1 : Store) : Prop :=
  ∀ x o i, s.obj x = some o → i < o.prop_cnt → (slot o i).type ≠ prop_type_t.PROP_DELETED →
    ∃ o1, s1.obj x = some o1 ∧ o1.prototype = o.prototype ∧ i < o1.prop_cnt ∧
      (slot o1 i).type = (slot o i).type ∧ (slot o1 i).u = (slot o i).u

/-- The prototype link of the store: `b` is the prototype of the object at `a`. -/
def proto_link (s : Store) (a b : Nat) : Prop :=
  ∃ o, s.obj a = some o ∧ o.prototype = some b

/-- The reference `j` is below the `prop_cnt` of the object at `q`, when that is
allocated. -/
def ref_in_range (s : Store) (q j : Nat) : Prop :=
  match s.obj q with
  | none => True
  | some oq => j < oq.prop_cnt

instance (s : Store) (q j : Nat) : Decidable (ref_in_range s q j) := by
  unfold ref_in_range
  split <;> infer_instance

/-- Slot `i` of `o`, when a prototype reference, can be followed; the form of
`protref_valid` that can be evaluated. -/
def slot_valid (s : Store) (o : jsdisp_t) (i : Nat) : Prop :=
  (slot o i).type = prop_type_t.PROP_PROTREF →
    match o.prototype with
    | none => False
    | some q => q < s.heap.length ∧ ref_in_range s q (u_ref (slot o i).u)

instance (s : Store) (o : jsdisp_t) (i : Nat) : Decidable (slot_valid s o i) := by
  unfold slot_valid
  split <;> infer_instance

/-- The invariant on the object at `x`, with the prototype at a lower address;
the form that can be evaluated. -/
def obj_valid (s : Store) (x : Nat) : Prop :=
  match s.obj x with
  | none => True
  | some o =>
    props_wf o ∧ o.prop_cnt + s.avail < 2 ^ 31 ∧ (∀ i, i < o.prop_cnt → slot_valid s o i) ∧
      ∀ q, q < s.heap.length → o.prototype = some q → q < x

instance (s : Store) (x : Nat) : Decidable (obj_valid s x) := by
  unfold obj_valid
  split <;> infer_instance

/-- The store `store_chain` after the resolver looked up `x` from `O`: `O` has
a prototype reference to the slot of `P`. -/
def store_chain_resolved : Store :=
  store_of ((find_prop_name_prot store_chain 2 (string_hash name_x) name_x false).map
    fun r => r.1)

/-- One call of an operation of this file on the objects of the store, with the
store it leaves: the resolver of one object, the resolver with prototype
fallback, the lookup that creates the slot, the slot of an id, put by slot and
by name, delete, define, `jsdisp_change_prototype`, `unlink_jsdisp`, the
creation of an object below an allocated prototype, and a reference taken or
released. -/
inductive protref_step : Store → Store → Prop
  | own (s s1 : Store) (p hash : Nat) (name : WSTR) (ci : Bool) (hres : HRESULT)
      (r : Option Nat) :
      find_prop_name s p hash name ci = some (s1, hres, r) → protref_step s s1
  | resolve (s s1 : Store) (p hash : Nat) (name : WSTR) (ci : Bool) (hres : HRESULT)
      (r : Option Nat) :
      find_prop_name_prot s p hash name ci = some (s1, hres, r) → protref_step s s1
  | ensure (s s1 : Store) (p cf : Nat) (name : WSTR) (ci : Bool) (hres : HRESULT)
      (r : Option Nat) :
      ensure_prop_name s p name cf ci = some (s1, hres, r) → protref_step s s1
  | get (s s1 : Store) (p : Nat) (id : Int) (r : Option Nat) :
      get_prop s p id = some (s1, r) → protref_step s s1
  | put (s s1 : Store) (p i : Nat) (val : jsval_t) (hres : HRESULT) :
      prop_put s p i val = some (s1, hres) → protref_step s s1
  | put_name (s s1 : Store) (p flags : Nat) (name : WSTR) (throw : Bool) (val : jsval_t)
      (hres : HRESULT) :
      jsdisp_propput s p name flags throw val = some (s1, hres) → protref_step s s1
  | delete (s s1 : Store) (p i : Nat) (hres : HRESULT) (ret : Bool) :
      delete_prop s p i = some (s1, hres, ret) → protref_step s s1
  | define (s s1 : Store) (p : Nat) (name : WSTR) (desc : property_desc_t) (hres : HRESULT) :
      jsdisp_define_property s p name desc = some (s1, hres) → protref_step s s1
  | change_prototype (s s1 : Store) (p : Nat) (proto : Option Nat) (hres : HRESULT) :
      jsdisp_change_prototype s p proto = some (s1, hres) → protref_step s s1
  | unlink (s s1 : Store) (p : Nat) :
      unlink_jsdisp s p = some s1 → protref_step s s1
  | create (s s1 : Store) (bi : Option builtin_info_t) (proto : Option Nat) (hres : HRESULT)
      (r : Option Nat) :
      (∀ q, proto = some q → (s.obj q).isSome = true) →
      create_dispex s bi proto = some (s1, hres, r) → protref_step s s1
  | addref (s s1 : Store) (p : Nat) :
      jsdisp_addref s p = some s1 → protref_step s s1
  | release (s s1 : Store) (p : Nat) :
      jsdisp_release s p = some s1 → protref_step s s1

/-- Modelled from the claim: the linear case-sensitive scan of the builtin
table, from its first entry on, followed by the version and mode gate. -/
def find_builtin_linear (ctx : script_ctx_t) (This : jsdisp_t) (name : WSTR) :
    Option builtin_prop_t :=
  match This.builtin_info.props.find? (fun b => wcscmp name b.name == 0) with
  | none => none
  | some b => if builtin_gate ctx b then some b else none

/-- A table with the three slots `a`, `e`, `i`, whose hashes select the same
bucket of the four. -/
def table_aei : jsdisp_t :=
  [[97], [101], [105]].foldl
    (fun This name => (alloc_prop This name prop_type_t.PROP_JSVAL 0 8).2.1)
    (init_object 0 dispex_info none)

/-- A call on the traversal stack: `gc_stack_push` of an object, or
`gc_stack_pop`. -/
inductive stack_op where
  | push (obj : Option Nat)
  | pop
  deriving DecidableEq, Repr

/-- A sequence of calls of `gc_stack_push` and `gc_stack_pop` from the state `g`
with the allocation budget `avail`: the state and the budget left, and the
objects the pops returned, in the order of the calls.  `none` when a push
fails for lack of memory or a pop reads a chunk that is not there. -/
def run_stack : List stack_op → gc_ctx → Nat → Option (gc_ctx × Nat × List (Option Nat))
  | [], g, avail => some (g, avail, [])
  | stack_op.push obj :: ops, g, avail =>
    (gc_stack_push g avail obj).bind fun r => run_stack ops r.1 r.2
  | stack_op.pop :: ops, g, avail =>
    (gc_stack_pop g).bind fun r =>
    (run_stack ops r.1 avail).map fun t => (t.1, t.2.1, r.2 :: t.2.2)

/-- Modelled from the claim: the same calls on a LIFO stack, a list with the
most recently pushed object first: the stack left and the objects popped.
`none` when a pop is made on the empty stack. -/
def run_lifo : List stack_op → List (Option Nat) → Option (List (Option Nat) × List (Option Nat))
  | [], st => some (st, [])
  | stack_op.push obj :: ops, st => run_lifo ops (obj :: st)
  | stack_op.pop :: _, [] => none
  | stack_op.pop :: ops, x :: st => (run_lifo ops st).map fun t => (t.1, x :: t.2)

/-- The calls of the example: 1021 pushes, which fill one chunk and start a
second, a pop back into the first chunk, a push that takes the spare chunk,
and two pops. -/
def stack_calls : List stack_op :=
  (List.range 1021).map (fun i => stack_op.push (some i)) ++
    [stack_op.pop, stack_op.push (some 5000), stack_op.pop, stack_op.pop]

/-- The loop of `jsdisp_is_frozen` over the slot indices: `false` is the
`return FALSE` inside the loop, `true` the end of the loop. -/
def is_frozen_loop (obj : jsdisp_t) (sealed : Bool) : List Nat → Bool
  | [] => true
  | i :: rest =>
    if (slot obj i).type = prop_type_t.PROP_JSVAL then
      if sealed = false ∧ (slot obj i).flags &&& PROPF_WRITABLE ≠ 0 then false
      else if (slot obj i).flags &&& PROPF_CONFIGURABLE ≠ 0 then false
      else is_frozen_loop obj sealed rest
    else if (slot obj i).type ≠ prop_type_t.PROP_ACCESSOR then is_frozen_loop obj sealed rest
    else if (slot obj i).flags &&& PROPF_CONFIGURABLE ≠ 0 then false
    else is_frozen_loop obj sealed rest

/-- The function `jsdisp_is_frozen` on the object at `p`. -/
def jsdisp_is_frozen (s : Store) (p : Nat) (sealed : Bool) : Option Bool :=
  match s.obj p with
  | none => none
  | some obj =>
    if obj.extensible then some false
    else some (is_frozen_loop obj sealed (List.range obj.prop_cnt))

/-- What one round of the loop of `jsdisp_freeze` does to a slot. -/
def freeze_slot (seal1 : Bool) (q : dispex_prop_t) : dispex_prop_t :=
  { q with flags :=
      (if seal1 = false ∧ q.type = prop_type_t.PROP_JSVAL then
        q.flags &&& (4294967295 ^^^ PROPF_WRITABLE) else q.flags) &&&
      (4294967295 ^^^ PROPF_CONFIGURABLE) }

/-- The object at `x` is on its own prototype chain: one or more prototype
links lead from `x` back to `x`. -/
def on_own_chain (s : Store) (x : Nat) : Prop :=
  Relation.TransGen (proto_link s) x x

/-- No object is on its own prototype chain. -/
def proto_acyclic (s : Store) : Prop :=
  ∀ x, ¬ on_own_chain s x

/-- Every prototype pointer of an allocated object points to an allocated
object. -/
def proto_closed (s : Store) : Prop :=
  ∀ x o q, s.obj x = some o → o.prototype = some q → (s.obj q).isSome = true

/-- No object on the prototype chain of `p`, `p` included, is bound to a
proxy. -/
def chain_plain (s : Store) (p : Nat) : Prop :=
  ∀ x o, Relation.ReflTransGen (proto_link s) p x → s.obj x = some o → o.proxy = none

/-- Slot `i` of `o` is a prototype reference with a reference `j` that `R`
accepts for the name of the slot. -/
def slot_is_ref (R : Nat → WSTR → Prop) (o : jsdisp_t) (i : Nat) : Prop :=
  (slot o i).type = prop_type_t.PROP_PROTREF ∧
    ∃ j, (slot o i).u = prop_u.ref j ∧ R j (slot o i).name

/-- Slot `i` of `o` is of a kind that `find_prop_name` makes for a builtin or
an indexed element of the object. -/
def slot_is_mat (o : jsdisp_t) (i : Nat) : Prop :=
  (slot o i).type = prop_type_t.PROP_BUILTIN ∨ (slot o i).type = prop_type_t.PROP_JSVAL ∨
    (slot o i).type = prop_type_t.PROP_IDX

/-- What a fill makes of the table of an object, `a` before and `b` after: the
slots of `a` keep their names, and either kind, flags and payload or, a
tombstone, become a prototype reference; the slots added are prototype
references or slots of builtins and indexed elements. -/
def fill_rel (R : Nat → WSTR → Prop) (a b : jsdisp_t) : Prop :=
  same_fields a b ∧ a.prop_cnt ≤ b.prop_cnt ∧
  (∀ i, i < a.prop_cnt → (slot b i).name = (slot a i).name ∧
    (((slot b i).type = (slot a i).type ∧ (slot b i).flags = (slot a i).flags ∧
        (slot b i).u = (slot a i).u) ∨
      ((slot a i).type = prop_type_t.PROP_DELETED ∧ slot_is_ref R b i))) ∧
  (∀ i, a.prop_cnt ≤ i → i < b.prop_cnt → slot_is_ref R b i ∨ slot_is_mat b i)

/-- The reference `j` is the index of a slot in use of `oq` with the name. -/
def names_slot (oq : jsdisp_t) (j : Nat) (name : WSTR) : Prop :=
  j < oq.prop_cnt ∧ (slot oq j).name = name

/-- A slot in use of `o` that is no tombstone has the name. -/
def live_name (o : jsdisp_t) (name : WSTR) : Prop :=
  ∃ i, i < o.prop_cnt ∧ (slot o i).name = name ∧ (slot o i).type ≠ prop_type_t.PROP_DELETED

/-- The name of slot `k` of the prototype `oq`, unless the index-override
policy of `o` claims it, has a slot in `o`. -/
def name_covered (o oq : jsdisp_t) (k : Nat) : Prop :=
  override_idx o (slot oq k).name = none → live_name o (slot oq k).name

/-- Two objects: the prototype `P` (0) with the own value slot `a = 1`, and the
child `C` (1) of the class `info_am`, whose builtin `a` has no slot yet. -/
def store_am_child : Store :=
  store_of <|
    (create_dispex (store_empty 32) none none).bind fun r0 =>
    (create_dispex r0.1 (some info_am) (some 0)).bind fun r1 =>
    (jsdisp_propput_name r1.1 0 [97] (jsval_t.number 1)).map fun r2 => r2.1

/-- The store `store_am_child` after `fill_protrefs` on the child. -/
def store_am_child_filled : Store :=
  store_of ((fill_protrefs store_am_child 1).map fun r => r.1)

/-- What a run of pass 2 did: the objects whose mark the inner loop cleared, in
order, each with the mark it had before the store of `FALSE`; the number of
calls of `gc_stack_push`; and the objects from which a traversal was started. -/
structure gc_trace where
  cleared : List (Nat × Bool)
  pushes : Nat
  roots : List Nat
  deriving DecidableEq, Repr

/-- The trace of a run followed by another. -/
def gc_trace.add (a b : gc_trace) : gc_trace :=
  { cleared := a.cleared ++ b.cleared, pushes := a.pushes + b.pushes, roots := a.roots ++ b.roots }

/-- The function `gc_push_links` that also counts the calls of
`gc_stack_push`. -/
def gc_push_links_count : List Nat → Store → gc_ctx → Option (Store × gc_ctx × Bool × Nat)
  | [], s, g => some (s, g, true, 0)
  | q :: rest, s, g =>
    match s.obj q with
    | none => none
    | some link =>
      if link.gc_marked ∧ link.ctx = s.ctx.self then
        match gc_stack_push g s.avail (some q) with
        | none => some (s, g, false, 1)
        | some (g1, a) =>
          (gc_push_links_count rest { s with avail := a } g1).map fun r =>
            (r.1, r.2.1, r.2.2.1, r.2.2.2 + 1)
      else gc_push_links_count rest s g

/-- The function `gc_traverse_loop` that also records its trace. -/
def gc_traverse_loop_trace : Nat → Store → gc_ctx → Nat →
    Option ((Store × gc_ctx × Bool) × gc_trace)
  | 0, _, _, _ => none
  | fuel + 1, s, g, obj2 =>
    match s.obj obj2 with
    | none => none
    | some o =>
      let s1 := s.set_obj obj2 { o with gc_marked := false }
      match gc_push_links_count (obj_edges o) s1 g with
      | none => none
      | some (s2, g2, false, n) =>
        some ((s2, g2, false), { cleared := [(obj2, o.gc_marked)], pushes := n, roots := [] })
      | some (s2, g2, true, n) =>
        if o.builtin_info.gc_traverse ∨ o.has_weak_refs then none
        else
          match gc_pop_marked s2 (gc_stack_size g2 + 1) g2 with
          | none => none
          | some (g3, none) =>
            some ((s2, g3, true), { cleared := [(obj2, o.gc_marked)], pushes := n, roots := [] })
          | some (g3, some q) =>
            (gc_traverse_loop_trace fuel s2 g3 q).map fun r =>
              (r.1, gc_trace.add { cleared := [(obj2, o.gc_marked)], pushes := n, roots := [] } r.2)

/-- The function `gc_pass2` that also records its trace. -/
def gc_pass2_trace : List Nat → Store → gc_ctx → Option ((Store × gc_ctx × Bool) × gc_trace)
  | [], s, g => some ((s, g, true), { cleared := [], pushes := 0, roots := [] })
  | p :: rest, s, g =>
    match s.obj p with
    | none => none
    | some obj =>
      if ¬ obj.gc_marked ∨ (obj.ref = 0 ∧ obj.proxy.isNone) then gc_pass2_trace rest s g
      else
        match gc_stack_push g s.avail none with
        | none => some ((s, g, false), { cleared := [], pushes := 1, roots := [p] })
        | some (g1, a) =>
          match gc_traverse_loop_trace (s.heap.length + 1) { s with avail := a } g1 p with
          | none => none
          | some ((s2, g2, false), t) =>
            (gc_drain (gc_stack_size g2 + 1) g2).map fun g3 =>
              ((s2, g3, false), gc_trace.add { cleared := [], pushes := 1, roots := [p] } t)
          | some ((s2, g2, true), t) =>
            (gc_pass2_trace rest s2 g2).map fun r =>
              (r.1, gc_trace.add (gc_trace.add { cleared := [], pushes := 1, roots := [p] } t) r.2)

/-- The number of allocated objects with the collectible mark set. -/
def marked_count (s : Store) : Nat :=
  ((Finset.range s.heap.length).filter fun x => mark_of s x = true).card

/-- Every link of an allocated object leads to an allocated object. -/
def links_allocated (s : Store) : Prop :=
  ∀ x o, s.obj x = some o → ∀ q ∈ obj_edges o, (s.obj q).isSome = true

/-- No object has a `gc_traverse` callback of its class or weak references:
the traversal of the object stays in this file. -/
def traverse_plain (s : Store) : Prop :=
  ∀ x o, s.obj x = some o → o.builtin_info.gc_traverse = false ∧ o.has_weak_refs = false

/-- The number of links of all objects of the store. -/
def edge_count (s : Store) : Nat :=
  ((List.range s.heap.length).map fun x => (edges_of s x).length).sum

/-- Two objects that hold each other, the second also itself: object 0, held
from outside, with the slot `x` holding object 1; object 1 with the slot `x`
holding object 0 and the slot `y` holding object 1. -/
def store_ring : Store :=
  store_of <|
    (create_dispex (store_empty 32) none none).bind fun r0 =>
    (create_dispex r0.1 none none).bind fun r1 =>
    (jsdisp_propput_name r1.1 0 name_x (jsval_t.obj 1)).bind fun r2 =>
    (jsdisp_propput_name r2.1 1 name_x (jsval_t.obj 0)).bind fun r3 =>
    (jsdisp_propput_name r3.1 1 name_y (jsval_t.obj 1)).bind fun r4 =>
    jsdisp_release r4.1 1

/-- The store `store_ring` after pass 1 of the collector. -/
def store_ring_marked : Store :=
  store_of (gc_pass1 store_ring)

/-- The function `jsdisp_define_data_property`: the descriptor
`{ flags, flags, TRUE }` with the value, passed to `jsdisp_define_property`. -/
def jsdisp_define_data_property (s : Store) (p : Nat) (name : WSTR) (flags : Nat)
    (value : jsval_t) : Option (Store × HRESULT) :=
  jsdisp_define_property s p name
    { flags := flags, mask := flags, explicit_value := true, value := value,
      explicit_getter := false, getter := none, explicit_setter := false, setter := none }

/-- The descriptor of a data property with the flags and the value. -/
def data_desc (flags : Nat) (value : jsval_t) : property_desc_t :=
  { flags := flags &&& (PROPF_ENUMERABLE ||| PROPF_WRITABLE ||| PROPF_CONFIGURABLE),
    mask := PROPF_WRITABLE ||| PROPF_ENUMERABLE ||| PROPF_CONFIGURABLE,
    explicit_value := true, value := value,
    explicit_getter := false, getter := none, explicit_setter := false, setter := none }

/-- Four objects in a prototype chain, `N` (3) over `O` (2) over `P` (1) over
`Q` (0): the store `store_chain` with a new object `N` under `O` that got the
own value slot `x = 3`.  The put on `N` has looked `x` up along the chain, so
`O` has cached the slot of `P` in a prototype reference. -/
def store_chain4 : Store :=
  store_of <|
    (create_dispex store_chain none (some 2)).bind fun r0 =>
    (jsdisp_propput_name r0.1 3 name_x (jsval_t.number 3)).map fun r1 => r1.1

/-- The store `store_chain4` after `x` was deleted from `P` and from `N`: `N`
and `P` hold a tombstone named `x`, the prototype reference of `O` is stale,
and `Q` still provides `x = 1`. -/
def store_chain4_stale : Store :=
  store_of <|
    (disp_delete_name store_chain4 1 name_x).bind fun r0 =>
    (disp_delete_name r0.1 3 name_x).map fun r1 => r1.1

/-- The store `store_chain4_stale` with the object `N` (3) bound to the proxy
1. -/
def store_chain4_proxied : Store :=
  store_chain4_stale.set_obj 3 { obj_at store_chain4_stale 3 with proxy := some 1 }

/-- Prototype, `prop_cnt`, and name, kind and payload of slot 0 of the object
at `p`. -/
def slot0_view (s : Store) (p : Nat) : Option (Option Nat × Nat × WSTR × prop_type_t × prop_u) :=
  (s.obj p).map fun o => (o.prototype, o.prop_cnt, (slot o 0).name, (slot o 0).type, (slot o 0).u)

/-! ## Theorems -/

/-! ### The hash and the own-table lookup -/

theorem wcscmp_eq_zero_iff (s t : WSTR) : wcscmp s t = 0 ↔ s = t := by
  induction s generalizing t with
  | nil => cases t <;> simp [wcscmp]
  | cons a s ih =>
    cases t with
    | nil => simp [wcscmp]
    | cons b t =>
      simp only [wcscmp]
      by_cases h1 : a < b
      · simp [h1]; omega
      · by_cases h2 : b < a
        · simp [h1, h2]; omega
        · have : a = b := by omega
          simp [h1, h2, ih, this]

theorem wcsicmp_eq_zero_iff (s t : WSTR) : wcsicmp s t = 0 ↔ s.map towlower = t.map towlower := by
  unfold wcsicmp; exact wcscmp_eq_zero_iff _ _

theorem string_hash_eq_foldl_map (a : WSTR) :
    string_hash a = (a.map towlower).foldl (fun h c => ((h >>> 28) ^^^ ((h <<< 4) % 4294967296)) ^^^ c) 0 := by
  unfold string_hash
  rw [List.foldl_map]
  rfl

theorem string_hash_lower (a b : WSTR) (h : a.map towlower = b.map towlower) :
    string_hash a = string_hash b := by
  rw [string_hash_eq_foldl_map, string_hash_eq_foldl_map, h]

theorem chain_from_is_chain (props : List dispex_prop_t) :
    ∀ fuel pos l, chain_from props fuel pos = some l → is_chain props pos l ∧ l.length < fuel := by
  intro fuel
  induction fuel with
  | zero => intro pos l h; simp [chain_from] at h
  | succ n ih =>
    intro pos l h
    simp only [chain_from] at h
    by_cases hp : pos = NIL
    · simp [hp] at h; subst h; simp [is_chain, hp]
    · simp only [hp, if_false, Option.map_eq_some'] at h
      obtain ⟨l', hl', rfl⟩ := h
      have := ih _ _ hl'
      refine ⟨⟨hp, rfl, this.1⟩, ?_⟩
      have h2 := this.2
      simp only [List.length_cons]; omega

theorem raw_loop_spec (name : WSTR) (ci : Bool) (bucket : Nat) (This : jsdisp_t) :
    ∀ (l : List Nat) (fuel pos prev : Nat), is_chain This.props pos l → l.length < fuel →
      (find_prop_name_raw_loop name ci bucket fuel This pos prev).map Prod.snd =
        some (l.find? (fun p => name_match ci name (slot This p).name)) := by
  intro l
  induction l with
  | nil =>
    intro fuel pos prev hc hf
    cases fuel with
    | zero => omega
    | succ n => simp [is_chain] at hc; simp [find_prop_name_raw_loop, hc]
  | cons x l ih =>
    intro fuel pos prev hc hf
    cases fuel with
    | zero => simp at hf
    | succ n =>
      obtain ⟨hp, rfl, hc'⟩ := hc
      simp only [find_prop_name_raw_loop, hp, if_false, List.find?_cons]
      by_cases hm : name_match ci name (slot This x).name = true
      · simp only [hm, if_true]
        split <;> rfl
      · simp only [hm]
        simp only [Bool.false_eq_true, if_false]
        have := ih n (slot This x).bucket_next x hc' (by simpa using hf)
        simpa [slot] using this

theorem find?_unique {l : List Nat} {P : Nat → Bool} {i : Nat} (hi : i ∈ l) (hP : P i = true)
    (hu : ∀ j ∈ l, P j = true → j = i) : l.find? P = some i := by
  induction l with
  | nil => simp at hi
  | cons x l ih =>
    rw [List.find?_cons]
    by_cases hx : P x = true
    · have := hu x (List.mem_cons_self _ _) hx
      subst this
      simp [hx]
    · simp only [hx]
      have hi' : i ∈ l := by
        rcases List.mem_cons.1 hi with h | h
        · subst h; exact absurd hP hx
        · exact h
      exact ih hi' (fun j hj => hu j (List.mem_cons_of_mem _ hj))

theorem get_props_idx_lt (This : jsdisp_t) (hash : Nat) (h : 0 < This.buf_size) :
    get_props_idx This hash < This.buf_size := by
  unfold get_props_idx
  have := @Nat.and_le_right (hash * GOLDEN_RATIO % 4294967296) (This.buf_size - 1)
  omega

theorem raw_lookup_unique (This : jsdisp_t) (hash : Nat) (name : WSTR) (ci : Bool) (i : Nat)
    (hwf : props_wf This) (hi : i < This.prop_cnt)
    (hb : get_props_idx This (slot This i).hash = get_props_idx This hash)
    (hP : name_match ci name (slot This i).name = true)
    (hu : ∀ j, j < This.prop_cnt → name_match ci name (slot This j).name = true → j = i) :
    (find_prop_name_raw This hash name ci).map Prod.snd = some (some i) := by
  obtain ⟨hlen, h4, _, hcnt, _, hch⟩ := hwf
  have hlt := get_props_idx_lt This hash (by omega)
  have hc := hch _ hlt
  unfold chain_ok at hc
  cases hbc : bucket_chain This (get_props_idx This hash) with
  | none => simp [hbc] at hc
  | some l =>
    simp only [hbc] at hc
    obtain ⟨_, hin, hall⟩ := hc
    have hcf := chain_from_is_chain _ _ _ _ hbc
    unfold find_prop_name_raw
    simp only []
    rw [raw_loop_spec name ci _ This l _ _ NIL hcf.1 hcf.2]
    rw [find?_unique (hall i hi hb) hP (fun j hj hPj => hu j (hin j hj).1 hPj)]

/-- C4. Names that are equal after lower-casing have the same hash and so the
same bucket; in a well-formed table where slot `i`, named `b`, is the only slot
whose name equals `a` ignoring case, the case-insensitive lookup of `a` and the
case-sensitive lookup of `b` both return slot `i`. -/
theorem case_insensitive_collision (a b : WSTR) (h : a.map towlower = b.map towlower) :
    string_hash a = string_hash b ∧
    (∀ This : jsdisp_t, get_props_idx This (string_hash a) = get_props_idx This (string_hash b)) ∧
    ∀ (This : jsdisp_t) (i : Nat), props_wf This → i < This.prop_cnt → (slot This i).name = b →
      (∀ j, j < This.prop_cnt → wcsicmp a (slot This j).name = 0 → j = i) →
      (find_prop_name_raw This (string_hash a) a true).map Prod.snd = some (some i) ∧
      (find_prop_name_raw This (string_hash b) b false).map Prod.snd = some (some i) := by
  have hh := string_hash_lower a b h
  refine ⟨hh, fun This => by rw [hh], ?_⟩
  intro This i hwf hi hn hu
  have hhash : (slot This i).hash = string_hash b := by
    rw [hwf.2.2.2.2.1 i hi, hn]
  constructor
  · apply raw_lookup_unique This _ a true i hwf hi (by rw [hhash, hh])
    · simp [name_match, hn, wcsicmp_eq_zero_iff, h]
    · intro j hj hm
      apply hu j hj
      simpa [name_match] using hm
  · apply raw_lookup_unique This _ b false i hwf hi (by rw [hhash])
    · simp [name_match, hn, wcscmp_eq_zero_iff]
    · intro j hj hm
      apply hu j hj
      have : (slot This j).name = b := by
        have := (wcscmp_eq_zero_iff b (slot This j).name).1 (by simpa [name_match] using hm)
        exact this.symm
      rw [this, wcsicmp_eq_zero_iff, h]

theorem case_insensitive_collision_witness :
    string_hash [102, 111, 111] = string_hash [70, 111, 111] ∧
    (find_prop_name_raw table_Foo (string_hash [102, 111, 111]) [102, 111, 111] true).map Prod.snd
      = some (some 0) ∧
    (find_prop_name_raw table_Foo (string_hash [70, 111, 111]) [70, 111, 111] false).map Prod.snd
      = some (some 0) :=
  have h := case_insensitive_collision [102, 111, 111] [70, 111, 111] (by decide)
  ⟨h.1, h.2.2 table_Foo 0 (by decide) (by decide) (by decide) (by decide)⟩

/-! ### Stable indices -/

theorem same_core_refl (a : dispex_prop_t) : same_core a a :=
  ⟨rfl, rfl, rfl, rfl, rfl⟩

theorem same_core_trans {a b c : dispex_prop_t} (h1 : same_core a b) (h2 : same_core b c) :
    same_core a c :=
  ⟨h1.1.trans h2.1, h1.2.1.trans h2.2.1, h1.2.2.1.trans h2.2.2.1, h1.2.2.2.1.trans h2.2.2.2.1,
    h1.2.2.2.2.trans h2.2.2.2.2⟩

theorem slot_set_slot (This : jsdisp_t) (i j : Nat) (f : dispex_prop_t → dispex_prop_t) :
    slot (set_slot This i f) j =
      if j = i ∧ i < This.props.length then f (slot This i) else slot This j := by
  simp only [slot, set_slot, List.getD_eq_getElem?_getD, List.getElem?_set]
  by_cases h : i = j
  · subst h
    by_cases h2 : i < This.props.length
    · simp [h2]
    · simp [h2, List.getElem?_eq_none (Nat.le_of_not_lt h2)]
  · have h' : ¬ j = i := fun e => h e.symm
    simp [h, h']

theorem set_slot_prop_cnt (This : jsdisp_t) (i : Nat) (f : dispex_prop_t → dispex_prop_t) :
    (set_slot This i f).prop_cnt = This.prop_cnt := rfl

theorem set_slot_buf_size (This : jsdisp_t) (i : Nat) (f : dispex_prop_t → dispex_prop_t) :
    (set_slot This i f).buf_size = This.buf_size := rfl

theorem set_slot_length (This : jsdisp_t) (i : Nat) (f : dispex_prop_t → dispex_prop_t) :
    (set_slot This i f).props.length = This.props.length := by
  simp [set_slot]

theorem same_core_set_slot (This : jsdisp_t) (i j : Nat) (f : dispex_prop_t → dispex_prop_t)
    (hf : ∀ q, same_core (f q) q) : same_core (slot (set_slot This i f) j) (slot This j) := by
  rw [slot_set_slot]
  split
  · next h => rw [h.1]; exact hf _
  · exact same_core_refl _

theorem rehash_step_core (This : jsdisp_t) (i j : Nat) :
    same_core (slot (rehash_step This i) j) (slot This j) ∧
      (rehash_step This i).prop_cnt = This.prop_cnt := by
  unfold rehash_step
  refine ⟨?_, rfl⟩
  exact same_core_trans (same_core_set_slot _ _ _ _ (fun q => same_core_refl q))
    (same_core_set_slot _ _ _ _ (fun q => same_core_refl q))

theorem rehash_foldl_core (l : List Nat) (This : jsdisp_t) (j : Nat) :
    same_core (slot (l.foldl rehash_step This) j) (slot This j) ∧
      (l.foldl rehash_step This).prop_cnt = This.prop_cnt := by
  induction l generalizing This with
  | nil => exact ⟨same_core_refl _, rfl⟩
  | cons x l ih =>
    simp only [List.foldl_cons]
    have h1 := ih (rehash_step This x)
    have h2 := rehash_step_core This x j
    exact ⟨same_core_trans h1.1 h2.1, h1.2.trans h2.2⟩

theorem resize_props_core (This : jsdisp_t) (avail : Nat) (j : Nat) (hj : j < This.prop_cnt) :
    same_core (slot (resize_props This avail).2.1 j) (slot This j) ∧
      (resize_props This avail).2.1.prop_cnt = This.prop_cnt := by
  unfold resize_props
  by_cases h : This.buf_size ≠ This.prop_cnt
  · rw [if_pos h]; exact ⟨same_core_refl _, rfl⟩
  · rw [if_neg h]
    cases hm : malloc avail with
    | none => exact ⟨same_core_refl _, rfl⟩
    | some a =>
      simp only []
      have hb : This.buf_size = This.prop_cnt := by simpa using h
      refine ⟨same_core_trans (rehash_foldl_core _ _ j).1 ?_, (rehash_foldl_core _ _ j).2⟩
      unfold slot clear_links
      simp only [List.getD_eq_getElem?_getD, List.getElem?_map, List.getElem?_take]
      have hj2 : j < This.buf_size * 2 := by omega
      simp only [hj2, if_true]
      by_cases hl : j < This.props.length
      · rw [List.getElem?_append_left hl, List.getElem?_eq_getElem hl]
        exact ⟨rfl, rfl, rfl, rfl, rfl⟩
      · rw [List.getElem?_append_right (by omega), List.getElem?_eq_none (by omega : This.props.length ≤ j)]
        rw [List.getElem?_replicate]
        split <;> exact ⟨rfl, rfl, rfl, rfl, rfl⟩

theorem alloc_prop_stable (This : jsdisp_t) (name : WSTR) (type : prop_type_t) (flags avail : Nat)
    (i : Nat) (This1 : jsdisp_t) (avail1 : Nat)
    (h : alloc_prop This name type flags avail = (some i, This1, avail1)) :
    i = This.prop_cnt ∧ This1.prop_cnt = This.prop_cnt + 1 ∧
      ∀ j, j < This.prop_cnt → same_core (slot This1 j) (slot This j) := by
  unfold alloc_prop at h
  have hr := fun j hj => resize_props_core This avail j hj
  have hcnt : (resize_props This avail).2.1.prop_cnt = This.prop_cnt := by
    unfold resize_props
    by_cases h : This.buf_size ≠ This.prop_cnt
    · rw [if_pos h]
    · rw [if_neg h]
      cases hm : malloc avail with
      | none => rfl
      | some a => exact (rehash_foldl_core _ _ 0).2
  generalize resize_props This avail = r at h hr hcnt
  obtain ⟨hres, R, a1⟩ := r
  simp only at h hr hcnt
  by_cases hf : FAILED hres = true
  · simp [hf] at h
  · simp only [hf] at h
    cases hm : malloc a1 with
    | none => simp [hm] at h
    | some a2 =>
      simp only [hm, Bool.false_eq_true, if_false, Prod.mk.injEq, Option.some.injEq] at h
      obtain ⟨hi, hT, _⟩ := h
      subst hT
      refine ⟨by rw [← hi, hcnt], by simp [hcnt], ?_⟩
      intro j hj
      refine same_core_trans ?_ (hr j hj).1
      have hne : j ≠ R.prop_cnt := by omega
      have e : ∀ (X : jsdisp_t) (n : Nat), slot { X with prop_cnt := n } j = slot X j :=
        fun _ _ => rfl
      rw [e]
      refine same_core_trans (same_core_set_slot _ _ _ _ (fun q => same_core_refl q)) ?_
      refine same_core_trans (same_core_set_slot _ _ _ _ (fun q => same_core_refl q)) ?_
      rw [slot_set_slot]
      simp [hne, same_core_refl]

/-! ### Objects of the store -/

theorem obj_lt {s : Store} {p : Nat} {o : jsdisp_t} (h : s.obj p = some o) : p < s.heap.length := by
  unfold Store.obj at h
  by_contra hn
  rw [List.getD_eq_getElem?_getD, List.getElem?_eq_none (Nat.le_of_not_lt hn)] at h
  simp at h

theorem obj_set_obj (s : Store) (p q : Nat) (o : jsdisp_t) :
    (s.set_obj p o).obj q = if q = p ∧ p < s.heap.length then some o else s.obj q := by
  simp only [Store.obj, Store.set_obj, List.getD_eq_getElem?_getD, List.getElem?_set]
  by_cases h : p = q
  · subst h
    by_cases h2 : p < s.heap.length
    · simp [h2]
    · simp [h2, List.getElem?_eq_none (Nat.le_of_not_lt h2)]
  · have h' : ¬ q = p := fun e => h e.symm
    simp [h, h']

theorem obj_free_obj (s : Store) (p q : Nat) :
    (s.free_obj p).obj q = if q = p then none else s.obj q := by
  simp only [Store.obj, Store.free_obj, List.getD_eq_getElem?_getD, List.getElem?_set]
  by_cases h : p = q
  · subst h
    by_cases h2 : p < s.heap.length
    · simp [h2]
    · simp [h2, List.getElem?_eq_none (Nat.le_of_not_lt h2)]
  · have h' : ¬ q = p := fun e => h e.symm
    simp [h, h']

theorem obj_set_obj_self {s : Store} {p : Nat} {o0 : jsdisp_t} (h : s.obj p = some o0)
    (o : jsdisp_t) : (s.set_obj p o).obj p = some o := by
  rw [obj_set_obj]; simp [obj_lt h]

theorem obj_set_obj_ne (s : Store) {p q : Nat} (h : q ≠ p) (o : jsdisp_t) :
    (s.set_obj p o).obj q = s.obj q := by
  rw [obj_set_obj]; simp [h]

theorem obj_list_remove (s : Store) (p q : Nat) : (s.list_remove p).obj q = s.obj q := rfl

theorem obj_list_add_tail (s : Store) (p q : Nat) : (s.list_add_tail p).obj q = s.obj q := rfl

/-! ### The frame of a release -/

theorem obj_frame_refl (o : jsdisp_t) : obj_frame o o := rfl

theorem obj_frame_trans {a b c : jsdisp_t} (h1 : obj_frame a b) (h2 : obj_frame b c) :
    obj_frame a c := by
  unfold obj_frame at *
  rw [h2, h1]

theorem store_frame_refl (s : Store) : store_frame s s :=
  fun _ o1 h => ⟨o1, h, rfl⟩

theorem store_frame_trans {a b c : Store} (h1 : store_frame a b) (h2 : store_frame b c) :
    store_frame a c := by
  intro q o1 h
  obtain ⟨o, ho, hf⟩ := h2 q o1 h
  obtain ⟨o0, ho0, hf0⟩ := h1 q o ho
  exact ⟨o0, ho0, obj_frame_trans hf0 hf⟩

theorem store_frame_set_ref {s : Store} {p : Nat} {o : jsdisp_t} (h : s.obj p = some o) (r : Int) :
    store_frame s (s.set_obj p { o with ref := r }) := by
  intro q o1 hq
  rw [obj_set_obj] at hq
  split at hq
  · next hc =>
    rw [hc.1]
    refine ⟨o, h, ?_⟩
    cases hq
    rfl
  · exact ⟨o1, hq, rfl⟩

theorem store_frame_free_obj (s : Store) (p : Nat) : store_frame s (s.free_obj p) := by
  intro q o1 hq
  rw [obj_free_obj] at hq
  split at hq
  · cases hq
  · exact ⟨o1, hq, rfl⟩

theorem release_all_frame (rel : Store → Nat → Option Store)
    (hrel : ∀ s p s1, rel s p = some s1 → store_frame s s1) :
    ∀ (l : List Nat) (s s1 : Store), release_all rel l s = some s1 → store_frame s s1 := by
  intro l
  induction l with
  | nil => intro s s1 h; simp [release_all] at h; subst h; exact store_frame_refl _
  | cons x l ih =>
    intro s s1 h
    simp only [release_all, Option.bind_eq_some] at h
    obtain ⟨s2, h2, h3⟩ := h
    exact store_frame_trans (hrel _ _ _ h2) (ih _ _ h3)

theorem jsdisp_free_frame (rel : Store → Nat → Option Store)
    (hrel : ∀ s p s1, rel s p = some s1 → store_frame s s1) (s : Store) (p : Nat) (s1 : Store)
    (h : jsdisp_free rel s p = some s1) : store_frame s s1 := by
  unfold jsdisp_free at h
  cases ho : s.obj p with
  | none => simp [ho] at h
  | some o =>
    simp only [ho] at h
    by_cases hp : o.proxy.isSome = true
    · simp only [hp, if_true, Option.some.injEq] at h
      subst h
      exact fun q o1 hq => ⟨o1, hq, rfl⟩
    · simp only [hp] at h
      by_cases hw : o.has_weak_refs = true
      · simp [hw] at h
      · simp only [hw, Bool.false_eq_true, if_false, Option.bind_eq_some] at h
        obtain ⟨s2, h2, s3, h3, h4⟩ := h
        have f2 := release_all_frame rel hrel _ _ _ h2
        have f3 : store_frame s2 s3 := by
          cases hpr : o.prototype with
          | none => simp [hpr] at h3; subst h3; exact store_frame_refl _
          | some q => simp only [hpr] at h3; exact hrel _ _ _ h3
        simp only [Option.some.injEq] at h4
        subst h4
        have f1 : store_frame s (s.list_remove p) := fun q o1 hq => ⟨o1, hq, rfl⟩
        exact store_frame_trans (store_frame_trans (store_frame_trans f1 f2) f3)
          (store_frame_free_obj _ _)

theorem jsdisp_release_fuel_frame :
    ∀ (fuel : Nat) (s : Store) (p : Nat) (s1 : Store),
      jsdisp_release_fuel fuel s p = some s1 → store_frame s s1 := by
  intro fuel
  induction fuel with
  | zero => intro s p s1 h; simp [jsdisp_release_fuel] at h
  | succ n ih =>
    intro s p s1 h
    simp only [jsdisp_release_fuel] at h
    cases ho : s.obj p with
    | none => simp [ho] at h
    | some o =>
      simp only [ho] at h
      have f1 := store_frame_set_ref ho (o.ref - 1)
      split at h
      · exact store_frame_trans f1 (jsdisp_free_frame _ ih _ _ _ h)
      · simp only [Option.some.injEq] at h
        subst h
        exact f1

theorem jsdisp_release_frame (s : Store) (p : Nat) (s1 : Store)
    (h : jsdisp_release s p = some s1) : store_frame s s1 :=
  jsdisp_release_fuel_frame _ _ _ _ h

theorem store_set_slot_eq {s : Store} {p i : Nat} {f : dispex_prop_t → dispex_prop_t} {s1 : Store}
    (h : store_set_slot s p i f = some s1) :
    ∃ o, s.obj p = some o ∧ s1 = s.set_obj p (set_slot o i f) := by
  unfold store_set_slot at h
  cases ho : s.obj p with
  | none => simp [ho] at h
  | some o => simp only [ho, Option.some.injEq] at h; exact ⟨o, rfl, h.symm⟩

theorem delete_prop_stable (s : Store) (p i : Nat) (s1 : Store) (hres : HRESULT) (ret : Bool)
    (o : jsdisp_t) (h : delete_prop s p i = some (s1, hres, ret)) (ho : s.obj p = some o) :
    ∃ o1, s1.obj p = some o1 ∧ o1.prop_cnt = o.prop_cnt ∧ o1.props.length = o.props.length ∧
      (∀ j, j ≠ i → slot o1 j = slot o j) ∧
      (slot o1 i = slot o i ∨
        slot o1 i = { slot o i with type := prop_type_t.PROP_DELETED }) := by
  unfold delete_prop at h
  simp only [ho] at h
  have same : ∀ x : Store × HRESULT × Bool, some (s, x.2) = some (s1, hres, ret) →
      ∃ o1, s1.obj p = some o1 ∧ o1.prop_cnt = o.prop_cnt ∧ o1.props.length = o.props.length ∧
      (∀ j, j ≠ i → slot o1 j = slot o j) ∧
      (slot o1 i = slot o i ∨
        slot o1 i = { slot o i with type := prop_type_t.PROP_DELETED }) := by
    intro x hx
    simp only [Option.some.injEq, Prod.mk.injEq] at hx
    rw [← hx.1]
    exact ⟨o, ho, rfl, rfl, fun _ _ => rfl, Or.inl rfl⟩
  split at h
  · exact same (s, HRESULT.S_OK, true) h
  · split at h
    · cases h
    · split at h
      · exact same (s, HRESULT.S_OK, false) h
      · split at h
        · cases h
        · simp only [Option.bind_eq_some, Option.map_eq_some', Prod.mk.injEq] at h
          obtain ⟨s2, h2, s3, h3, h4, _, _⟩ := h
          subst h4
          obtain ⟨o2, ho2, rfl⟩ := store_set_slot_eq h3
          have fr := release_all_frame jsdisp_release jsdisp_release_frame _ _ _ h2
          obtain ⟨o', ho', hfr⟩ := fr p o2 ho2
          rw [ho] at ho'
          cases ho'
          refine ⟨_, obj_set_obj_self ho2 _, ?_⟩
          have hp : o2.props = o.props := by rw [hfr]
          have hs : ∀ j, slot o2 j = slot o j := fun j => by unfold slot; rw [hp]
          refine ⟨by rw [set_slot_prop_cnt, hfr], by rw [set_slot_length, hp], ?_, ?_⟩
          · intro j hj
            rw [slot_set_slot]
            simp [hj, hs]
          · rw [slot_set_slot]
            split
            · right; rw [hs]
            · left; rw [hs]

/-- C3. A successful `alloc_prop` returns the old `prop_cnt` as the index of the
new slot, raises `prop_cnt` by one and leaves every earlier slot at its index
with its name, hash, kind, flags and payload, also when it resizes the table;
`delete_prop` leaves `prop_cnt` and every other slot as they are and at most
turns the kind of its one slot into the tombstone. -/
theorem stable_indices (This : jsdisp_t) (name : WSTR) (type : prop_type_t) (flags avail : Nat)
    (s : Store) (p i : Nat) :
    (∀ k This1 avail1, alloc_prop This name type flags avail = (some k, This1, avail1) →
      k = This.prop_cnt ∧ This1.prop_cnt = This.prop_cnt + 1 ∧
      ∀ j, j < This.prop_cnt → same_core (slot This1 j) (slot This j)) ∧
    (∀ s1 hres ret o, delete_prop s p i = some (s1, hres, ret) → s.obj p = some o →
      ∃ o1, s1.obj p = some o1 ∧ o1.prop_cnt = o.prop_cnt ∧ o1.props.length = o.props.length ∧
        (∀ j, j ≠ i → slot o1 j = slot o j) ∧
        (slot o1 i = slot o i ∨
          slot o1 i = { slot o i with type := prop_type_t.PROP_DELETED })) :=
  ⟨fun k This1 avail1 h => alloc_prop_stable This name type flags avail k This1 avail1 h,
   fun s1 hres ret o h ho => delete_prop_stable s p i s1 hres ret o h ho⟩


theorem stable_indices_witness :
    (4 = table_abcd.prop_cnt ∧ table_abcde.prop_cnt = table_abcd.prop_cnt + 1 ∧
      ∀ j, j < table_abcd.prop_cnt → same_core (slot table_abcde j) (slot table_abcd j)) ∧
    (∃ o1, store_holder_deleted.obj 0 = some o1 ∧ o1.prop_cnt = holder_obj.prop_cnt ∧
      o1.props.length = holder_obj.props.length ∧
      (∀ j, j ≠ 0 → slot o1 j = slot holder_obj j) ∧
      (slot o1 0 = slot holder_obj 0 ∨
        slot o1 0 = { slot holder_obj 0 with type := prop_type_t.PROP_DELETED })) :=
  have h := stable_indices table_abcd [101] prop_type_t.PROP_JSVAL 0 8 store_holder 0 0
  ⟨h.1 4 table_abcde 6 (by rfl), h.2 store_holder_deleted HRESULT.S_OK true holder_obj (by rfl) (by rfl)⟩

/-! ### The own-table lookup: what it changes -/

theorem table_frame_refl (a : jsdisp_t) : table_frame a a :=
  ⟨rfl, rfl, fun _ => same_core_refl _⟩

theorem table_frame_trans {a b c : jsdisp_t} (h1 : table_frame a b) (h2 : table_frame b c) :
    table_frame a c := by
  obtain ⟨e1, l1, c1⟩ := h1
  obtain ⟨e2, l2, c2⟩ := h2
  refine ⟨?_, l2.trans l1, fun j => same_core_trans (c2 j) (c1 j)⟩
  rw [e2, e1]

theorem table_frame_set_slot (This : jsdisp_t) (i : Nat) (f : dispex_prop_t → dispex_prop_t)
    (hf : ∀ q, same_core (f q) q) : table_frame This (set_slot This i f) :=
  ⟨rfl, set_slot_length _ _ _, fun j => same_core_set_slot This i j f hf⟩

theorem table_frame_set_slot_of {a b : jsdisp_t} (h : table_frame a b) (i : Nat)
    (f : dispex_prop_t → dispex_prop_t) (hf : ∀ q, same_core (f q) q) :
    table_frame a (set_slot b i f) :=
  table_frame_trans h (table_frame_set_slot b i f hf)

theorem raw_loop_frame (name : WSTR) (ci : Bool) (bucket : Nat) :
    ∀ (fuel : Nat) (This : jsdisp_t) (pos prev : Nat) (This1 : jsdisp_t) (r : Option Nat),
      find_prop_name_raw_loop name ci bucket fuel This pos prev = some (This1, r) →
      table_frame This This1 ∧ (r = none → This1 = This) ∧
      (∀ i, r = some i → i ≠ NIL ∧ name_match ci name (slot This i).name = true ∧
        (bucket < This.props.length → (prev = NIL → pos = (slot This bucket).bucket_head) →
          (slot This1 bucket).bucket_head = i)) := by
  intro fuel
  induction fuel with
  | zero => intro This pos prev This1 r h; simp [find_prop_name_raw_loop] at h
  | succ n ih =>
    intro This pos prev This1 r h
    simp only [find_prop_name_raw_loop] at h
    by_cases hp : pos = NIL
    · simp only [hp, if_true, Option.some.injEq, Prod.mk.injEq] at h
      obtain ⟨rfl, rfl⟩ := h
      exact ⟨table_frame_refl _, fun _ => rfl, fun i hi => by cases hi⟩
    · simp only [hp, if_false] at h
      by_cases hm : name_match ci name (slot This pos).name = true
      · simp only [hm, if_true] at h
        by_cases hpr : prev ≠ NIL
        · rw [if_pos hpr] at h
          simp only [Option.some.injEq, Prod.mk.injEq] at h
          obtain ⟨rfl, rfl⟩ := h
          refine ⟨?_, (fun hn => nomatch hn), ?_⟩
          · refine table_frame_set_slot_of (table_frame_set_slot_of (table_frame_set_slot_of
              (table_frame_refl _) _ _ ?_) _ _ ?_) _ _ ?_
            all_goals exact fun q => same_core_refl q
          · intro i hi
            cases hi
            refine ⟨hp, hm, fun hb _ => ?_⟩
            rw [slot_set_slot]
            simp [set_slot_length, hb]
        · rw [if_neg hpr] at h
          simp only [Option.some.injEq, Prod.mk.injEq] at h
          obtain ⟨rfl, rfl⟩ := h
          refine ⟨table_frame_refl _, (fun hn => nomatch hn), ?_⟩
          intro i hi
          cases hi
          refine ⟨hp, hm, fun _ hh => ?_⟩
          exact (hh (by simpa using hpr)).symm
      · simp only [hm, Bool.false_eq_true, if_false] at h
        obtain ⟨h1, h2, h3⟩ := ih _ _ _ _ _ h
        refine ⟨h1, h2, fun i hi => ?_⟩
        obtain ⟨a, b, c⟩ := h3 i hi
        exact ⟨a, b, fun hb _ => c hb (fun e => absurd e hp)⟩

theorem raw_frame (This : jsdisp_t) (hash : Nat) (name : WSTR) (ci : Bool) (This1 : jsdisp_t)
    (r : Option Nat) (h : find_prop_name_raw This hash name ci = some (This1, r)) :
    table_frame This This1 ∧ (r = none → This1 = This) ∧
    (∀ i, r = some i → i ≠ NIL ∧ name_match ci name (slot This i).name = true ∧
      (get_props_idx This hash < This.props.length → head_hit This1 hash name ci i)) := by
  unfold find_prop_name_raw at h
  obtain ⟨h1, h2, h3⟩ := raw_loop_frame _ _ _ _ _ _ _ _ _ h
  refine ⟨h1, h2, fun i hi => ?_⟩
  obtain ⟨a, b, c⟩ := h3 i hi
  refine ⟨a, b, fun hb => ?_⟩
  have hbs : This1.buf_size = This.buf_size := by rw [h1.1]
  have hidx : get_props_idx This1 hash = get_props_idx This hash := by
    unfold get_props_idx; rw [hbs]
  refine ⟨?_, a, ?_⟩
  · rw [hidx]; exact c hb (fun _ => rfl)
  · rw [(h1.2.2 i).1]; exact b

theorem raw_head_hit (This : jsdisp_t) (hash : Nat) (name : WSTR) (ci : Bool) (i : Nat)
    (h : head_hit This hash name ci i) :
    find_prop_name_raw This hash name ci = some (This, some i) := by
  obtain ⟨h1, h2, h3⟩ := h
  unfold find_prop_name_raw
  simp only [find_prop_name_raw_loop, h1, h2, h3, if_false, if_true]
  simp

theorem head_hit_frame {a b : jsdisp_t} (hash : Nat) (name : WSTR) (ci : Bool) (i : Nat)
    (hp : b.props = a.props) (hb : b.buf_size = a.buf_size) (h : head_hit a hash name ci i) :
    head_hit b hash name ci i := by
  unfold head_hit slot get_props_idx at *
  rw [hp, hb]
  exact h

/-! ### What `alloc_prop` builds -/

theorem wcscmp_self (a : WSTR) : wcscmp a a = 0 :=
  (wcscmp_eq_zero_iff a a).2 rfl

theorem name_match_self (ci : Bool) (a : WSTR) : name_match ci a a = true := by
  cases ci <;> simp [name_match, wcsicmp, wcscmp_self]

theorem malloc_pos {avail : Nat} (h : 0 < avail) : malloc avail = some (avail - 1) := by
  unfold malloc
  rw [if_neg (by omega)]

theorem rehash_foldl_frame (l : List Nat) (This : jsdisp_t) :
    table_frame This (l.foldl rehash_step This) := by
  induction l generalizing This with
  | nil => exact table_frame_refl _
  | cons x l ih =>
    simp only [List.foldl_cons]
    refine table_frame_trans ?_ (ih _)
    unfold rehash_step
    refine table_frame_set_slot_of (table_frame_set_slot_of (table_frame_refl _) _ _ ?_) _ _ ?_
    all_goals exact fun q => same_core_refl q

theorem table_frame_fields {a b : jsdisp_t} (h : table_frame a b) :
    b.prop_cnt = a.prop_cnt ∧ b.buf_size = a.buf_size ∧ same_fields a b := by
  refine ⟨by rw [h.1], by rw [h.1], ?_⟩
  unfold same_fields
  rw [h.1]

theorem resize_props_ok (This : jsdisp_t) (avail : Nat) (hlen : This.props.length = This.buf_size)
    (hcnt : This.prop_cnt ≤ This.buf_size) (hpos : 0 < This.buf_size) (hav : 0 < avail) :
    ∃ hres R a1, resize_props This avail = (hres, R, a1) ∧ FAILED hres = false ∧
      avail - 1 ≤ a1 ∧ a1 ≤ avail ∧ R.prop_cnt = This.prop_cnt ∧ R.props.length = R.buf_size ∧
      This.prop_cnt < R.buf_size ∧ same_fields This R ∧
      ∀ j, j < This.prop_cnt → same_core (slot R j) (slot This j) := by
  by_cases h : This.buf_size ≠ This.prop_cnt
  · refine ⟨HRESULT.S_FALSE, This, avail, ?_, rfl, by omega, le_refl _, rfl, hlen, by omega, rfl,
      fun _ _ => same_core_refl _⟩
    unfold resize_props
    rw [if_pos h]
  · have hb : This.buf_size = This.prop_cnt := by simpa using h
    have hcore := fun j hj => (resize_props_core This avail j hj).1
    unfold resize_props at hcore ⊢
    rw [if_neg h] at hcore ⊢
    rw [malloc_pos hav] at hcore ⊢
    simp only at hcore ⊢
    have fr := rehash_foldl_frame (List.range This.prop_cnt)
      { This with buf_size := This.buf_size * 2,
                  props := clear_links ((This.props ++
                    List.replicate (This.buf_size * 2) dispex_prop_t.zero).take (This.buf_size * 2)) }
    obtain ⟨f1, f2, f3⟩ := table_frame_fields fr
    refine ⟨_, _, _, rfl, rfl, le_refl _, by omega, f1, ?_, ?_, ?_, hcore⟩
    · rw [fr.2.1, f2]
      simp [clear_links]
    · rw [f2]
      simp only
      omega
    · unfold same_fields at f3 ⊢
      rw [f3]

theorem alloc_prop_ok (This : jsdisp_t) (name : WSTR) (type : prop_type_t) (flags avail : Nat)
    (hlen : This.props.length = This.buf_size) (hcnt : This.prop_cnt ≤ This.buf_size)
    (hpos : 0 < This.buf_size) (hnil : This.prop_cnt < NIL) (hav : 2 ≤ avail) :
    ∃ This1 avail1, alloc_prop This name type flags avail = (some This.prop_cnt, This1, avail1) ∧
      avail - 2 ≤ avail1 ∧ avail1 ≤ avail ∧
      This1.prop_cnt = This.prop_cnt + 1 ∧ This1.props.length = This1.buf_size ∧
      This1.prop_cnt ≤ This1.buf_size ∧ 0 < This1.buf_size ∧ same_fields This This1 ∧
      (∀ j, j < This.prop_cnt → same_core (slot This1 j) (slot This j)) ∧
      (slot This1 This.prop_cnt).name = name ∧ (slot This1 This.prop_cnt).type = type ∧
      (slot This1 This.prop_cnt).flags = flags ∧
      (slot This1 This.prop_cnt).hash = string_hash name ∧
      head_hit This1 (string_hash name) name false This.prop_cnt := by
  obtain ⟨hres, R, a1, hr, hf, ha1, ha1', hRc, hRl, hRlt, hRs, hRcore⟩ :=
    resize_props_ok This avail hlen hcnt hpos (by omega)
  unfold alloc_prop
  rw [hr]
  simp only [hf, Bool.false_eq_true, if_false]
  rw [malloc_pos (by omega : 0 < a1)]
  simp only
  rw [hRc]
  have hin : This.prop_cnt < R.props.length := by omega
  have hbl : ∀ (X : jsdisp_t) (h : Nat), X.props.length = R.props.length → X.buf_size = R.buf_size →
      get_props_idx X h < X.props.length := by
    intro X h hl hb
    have := get_props_idx_lt X h (by omega)
    omega
  refine ⟨_, _, rfl, by omega, by omega, rfl, ?_, ?_, ?_, ?_, ?_, ?_, ?_, ?_, ?_, ?_⟩
  · simp [set_slot_length, set_slot_buf_size, hRl]
  · simp only [set_slot_buf_size]; omega
  · simp only [set_slot_buf_size]; omega
  · unfold same_fields at hRs ⊢
    simp only [set_slot]
    rw [hRs]
  · intro j hj
    have e : ∀ (X : jsdisp_t) (n : Nat), slot { X with prop_cnt := n } j = slot X j :=
      fun _ _ => rfl
    rw [e]
    refine same_core_trans ?_ (hRcore j hj)
    refine same_core_trans (same_core_set_slot _ _ _ _ (fun q => same_core_refl q)) ?_
    refine same_core_trans (same_core_set_slot _ _ _ _ (fun q => same_core_refl q)) ?_
    rw [slot_set_slot]
    simp [show j ≠ This.prop_cnt by omega, same_core_refl]
  · have e : ∀ (X : jsdisp_t) (m j : Nat), slot { X with prop_cnt := m } j = slot X j :=
      fun _ _ _ => rfl
    rw [e]
    refine Eq.trans (same_core_set_slot _ _ _ _ ?_).1 ?_
    · exact fun q => same_core_refl q
    refine Eq.trans (same_core_set_slot _ _ _ _ ?_).1 ?_
    · exact fun q => same_core_refl q
    rw [slot_set_slot, if_pos ⟨rfl, hin⟩]
  · have e : ∀ (X : jsdisp_t) (m j : Nat), slot { X with prop_cnt := m } j = slot X j :=
      fun _ _ _ => rfl
    rw [e]
    refine Eq.trans (same_core_set_slot _ _ _ _ ?_).2.2.1 ?_
    · exact fun q => same_core_refl q
    refine Eq.trans (same_core_set_slot _ _ _ _ ?_).2.2.1 ?_
    · exact fun q => same_core_refl q
    rw [slot_set_slot, if_pos ⟨rfl, hin⟩]
  · have e : ∀ (X : jsdisp_t) (m j : Nat), slot { X with prop_cnt := m } j = slot X j :=
      fun _ _ _ => rfl
    rw [e]
    refine Eq.trans (same_core_set_slot _ _ _ _ ?_).2.2.2.1 ?_
    · exact fun q => same_core_refl q
    refine Eq.trans (same_core_set_slot _ _ _ _ ?_).2.2.2.1 ?_
    · exact fun q => same_core_refl q
    rw [slot_set_slot, if_pos ⟨rfl, hin⟩]
  · have e : ∀ (X : jsdisp_t) (m j : Nat), slot { X with prop_cnt := m } j = slot X j :=
      fun _ _ _ => rfl
    rw [e]
    refine Eq.trans (same_core_set_slot _ _ _ _ ?_).2.1 ?_
    · exact fun q => same_core_refl q
    refine Eq.trans (same_core_set_slot _ _ _ _ ?_).2.1 ?_
    · exact fun q => same_core_refl q
    rw [slot_set_slot, if_pos ⟨rfl, hin⟩]
  · have e : ∀ (X : jsdisp_t) (m j : Nat), slot { X with prop_cnt := m } j = slot X j :=
      fun _ _ _ => rfl
    have eg : ∀ (X : jsdisp_t) (m h : Nat),
        get_props_idx { X with prop_cnt := m } h = get_props_idx X h := fun _ _ _ => rfl
    unfold head_hit
    rw [e, e, eg]
    refine ⟨?_, by unfold NIL at *; omega, ?_⟩
    · have hb := hbl (set_slot R This.prop_cnt fun p =>
        { p with name := name, type := type, flags := flags, hash := string_hash name })
        (string_hash name) (set_slot_length _ _ _) rfl
      have eg2 : ∀ (X : jsdisp_t) (i h : Nat) (f : dispex_prop_t → dispex_prop_t),
          get_props_idx (set_slot X i f) h = get_props_idx X h := fun _ _ _ _ => rfl
      simp only [eg2, set_slot_length] at hb
      rw [slot_set_slot]
      simp only [eg, eg2, set_slot_length, hb, and_self, if_true]
    · refine Eq.trans (congrArg (name_match false name) ?_) (name_match_self false name)
      simp only [e]
      refine Eq.trans (same_core_set_slot _ _ _ _ ?_).1 ?_
      · exact fun q => same_core_refl q
      refine Eq.trans (same_core_set_slot _ _ _ _ ?_).1 ?_
      · exact fun q => same_core_refl q
      rw [slot_set_slot, if_pos ⟨rfl, hin⟩]

/-! ### Resolution along the prototype chain -/

/-- C1. On the chain `O` over `P` over `Q` with `Q.x = 1` and `P.x = 2`, after
`O.x` was read (value 2) and `x` was deleted from `P` (removed), `Q` still has
the live own value slot `x = 1`, its nearest provider for `O`; yet the first
`find_prop_name_prot(O, x)` returns the slot of `O`, now a tombstone, and
`jsdisp_propget_name(O, x)` yields undefined.  The lookup after that yields 1. -/
theorem stale_protref_lookup_misses :
    (jsdisp_propget_name store_chain 2 name_x).map (fun r => r.2)
      = some (HRESULT.S_OK, jsval_t.number 2) ∧
    (disp_delete_name store_chain_cached 1 name_x).map (fun r => r.2)
      = some (HRESULT.S_OK, true) ∧
    (store_chain_stale.obj 2).map (fun o => o.prototype) = some (some 1) ∧
    (store_chain_stale.obj 1).map (fun o => o.prototype) = some (some 0) ∧
    (store_chain_stale.obj 1).map (fun o => ((slot o 0).name, (slot o 0).type))
      = some (name_x, prop_type_t.PROP_DELETED) ∧
    (store_chain_stale.obj 0).map (fun o => ((slot o 0).name, (slot o 0).type, (slot o 0).u))
      = some (name_x, prop_type_t.PROP_JSVAL, prop_u.val (jsval_t.number 1)) ∧
    (find_prop_name_prot store_chain_stale 2 (string_hash name_x) name_x false).map
      (fun r => (r.2.1, r.2.2, slot_type r.1 2 0))
      = some (HRESULT.S_OK, some 0, some prop_type_t.PROP_DELETED) ∧
    (jsdisp_propget_name store_chain_stale 2 name_x).map (fun r => r.2)
      = some (HRESULT.S_OK, jsval_t.undefined) ∧
    ((jsdisp_propget_name store_chain_stale 2 name_x).bind fun r =>
      (jsdisp_propget_name r.1 2 name_x).map fun r1 => r1.2)
      = some (HRESULT.S_OK, jsval_t.number 1) := by
  refine ⟨?_, ?_, ?_, ?_, ?_, ?_, ?_, ?_, ?_⟩ <;> rfl

/-! ### The resolver of one object -/

theorem set_obj_same {s : Store} {p : Nat} {o : jsdisp_t} (h : s.obj p = some o) :
    s.set_obj p o = s := by
  have hl := obj_lt h
  unfold Store.obj at h
  rw [List.getD_eq_getElem?_getD, List.getElem?_eq_getElem hl] at h
  simp only [Option.getD_some] at h
  unfold Store.set_obj
  have : s.heap.set p (some o) = s.heap := by
    apply List.ext_getElem?
    intro n
    rw [List.getElem?_set]
    by_cases hn : p = n
    · subst hn
      simp [hl, h]
    · simp [hn]
  rw [this]

theorem find_prop_name_hit (s : Store) (p hash : Nat) (name : WSTR) (ci : Bool) (o : jsdisp_t)
    (i : Nat) (ho : s.obj p = some o) (hpx : o.proxy = none) (hh : head_hit o hash name ci i) :
    find_prop_name s p hash name ci = some (s, HRESULT.S_OK, some i) := by
  unfold find_prop_name
  simp only [ho, raw_head_hit o hash name ci i hh, hpx, Option.isSome_none, Bool.false_eq_true,
    if_false, set_obj_same ho]

theorem raw_miss (o : jsdisp_t) (hash : Nat) (name : WSTR) (ci : Bool) (hwf : props_wf o)
    (hno : ∀ j, j < o.prop_cnt → name_match ci name (slot o j).name = false) :
    find_prop_name_raw o hash name ci = some (o, none) := by
  obtain ⟨hlen, h4, _, hcnt, _, hch⟩ := hwf
  have hlt := get_props_idx_lt o hash (by omega)
  have hc := hch _ hlt
  unfold chain_ok at hc
  cases hbc : bucket_chain o (get_props_idx o hash) with
  | none => simp [hbc] at hc
  | some l =>
    simp only [hbc] at hc
    obtain ⟨_, hin, _⟩ := hc
    have hcf := chain_from_is_chain _ _ _ _ hbc
    have hs := raw_loop_spec name ci (get_props_idx o hash) o l _ _ NIL hcf.1 hcf.2
    have hnone : l.find? (fun q => name_match ci name (slot o q).name) = none := by
      rw [List.find?_eq_none]
      intro q hq
      simp [hno q (hin q hq).1]
    rw [hnone] at hs
    cases hr : find_prop_name_raw o hash name ci with
    | none => unfold find_prop_name_raw at hr; rw [hr] at hs; simp at hs
    | some r =>
      obtain ⟨o1, r1⟩ := r
      unfold find_prop_name_raw at hr
      rw [hr] at hs
      simp only [Option.map_some', Option.some.injEq] at hs
      subst hs
      have := (raw_loop_frame _ _ _ _ _ _ _ _ _ hr).2.1 rfl
      rw [this]

theorem find_prop_name_miss (s : Store) (p hash : Nat) (name : WSTR) (ci : Bool) (o : jsdisp_t)
    (ho : s.obj p = some o) (hpx : o.proxy = none)
    (hraw : find_prop_name_raw o hash name ci = some (o, none))
    (hb : find_builtin_prop s.ctx o name ci = none) (hidx : is_element_name o name = false) :
    find_prop_name s p hash name ci = some (s, HRESULT.S_OK, none) := by
  unfold find_prop_name
  simp only [ho, hraw, hpx, Option.isSome_none, Bool.false_eq_true, if_false, hb, set_obj_same ho]
  unfold is_element_name at hidx
  cases hl : o.builtin_info.idx_length with
  | none => rfl
  | some len =>
    simp only [hl] at hidx ⊢
    split
    · next idx hsc =>
      simp only [hsc, decide_eq_false_iff_not] at hidx
      rw [if_neg hidx]
    · rfl

theorem find_prop_name_found (s : Store) (p : Nat) (name : WSTR) (o : jsdisp_t) (i : Nat)
    (ho : s.obj p = some o) (hpx : o.proxy = none) (hwf : props_wf o) (hi : i < o.prop_cnt)
    (hn : (slot o i).name = name)
    (hu : ∀ j, j < o.prop_cnt → (slot o j).name = name → j = i) :
    ∃ o1, find_prop_name s p (string_hash name) name false = some (s.set_obj p o1, HRESULT.S_OK, some i) ∧
      table_frame o o1 ∧ head_hit o1 (string_hash name) name false i := by
  have hhash : (slot o i).hash = string_hash name := by rw [hwf.2.2.2.2.1 i hi, hn]
  have hl := raw_lookup_unique o (string_hash name) name false i hwf hi (by rw [hhash])
    (by rw [hn]; exact name_match_self _ _)
    (fun j hj hm => hu j hj (by
      have := (wcscmp_eq_zero_iff name (slot o j).name).1 (by simpa [name_match] using hm)
      exact this.symm))
  cases hr : find_prop_name_raw o (string_hash name) name false with
  | none => rw [hr] at hl; simp at hl
  | some r =>
    obtain ⟨o1, r1⟩ := r
    rw [hr] at hl
    simp only [Option.map_some', Option.some.injEq] at hl
    subst hl
    obtain ⟨f1, _, f3⟩ := raw_frame _ _ _ _ _ _ hr
    have hbl : get_props_idx o (string_hash name) < o.props.length := by
      have := get_props_idx_lt o (string_hash name) (by have := hwf.2.1; omega)
      rw [hwf.1]; exact this
    refine ⟨o1, ?_, f1, (f3 i rfl).2.2 hbl⟩
    unfold find_prop_name
    simp only [ho, hr, hpx, Option.isSome_none, Bool.false_eq_true, if_false]

theorem resize_props_indep (This : jsdisp_t) (a : Nat) (h : FAILED (resize_props This a).1 = false) :
    (resize_props This (a + 2)).1 = (resize_props This a).1 ∧
    (resize_props This (a + 2)).2.1 = (resize_props This a).2.1 ∧
    (resize_props This (a + 2)).2.2 = (resize_props This a).2.2 + 2 := by
  unfold resize_props at h ⊢
  by_cases hb : This.buf_size ≠ This.prop_cnt
  · simp only [if_pos hb, and_self]
  · rw [if_neg hb] at h ⊢
    rw [if_neg hb]
    cases a with
    | zero => simp [malloc, FAILED] at h
    | succ n => simp [malloc]

theorem alloc_prop_indep (This : jsdisp_t) (name : WSTR) (type : prop_type_t) (flags a i : Nat)
    (T : jsdisp_t) (a1 : Nat) (h : alloc_prop This name type flags a = (some i, T, a1)) :
    alloc_prop This name type flags (a + 2) = (some i, T, a1 + 2) := by
  unfold alloc_prop at h ⊢
  have hr : FAILED (resize_props This a).1 = false := by
    cases hf : FAILED (resize_props This a).1 with
    | false => rfl
    | true => simp [hf] at h
  obtain ⟨e1, e2, e3⟩ := resize_props_indep This a hr
  generalize resize_props This (a + 2) = r2 at e1 e2 e3
  generalize resize_props This a = r1 at h hr e1 e2 e3
  obtain ⟨h1, R1, b1⟩ := r1
  obtain ⟨h2, R2, b2⟩ := r2
  simp only at e1 e2 e3 h hr ⊢
  subst e1 e2 e3
  simp only [hr, Bool.false_eq_true, if_false] at h ⊢
  cases b1 with
  | zero => simp [malloc] at h
  | succ n =>
    rw [malloc_pos (by omega)] at h ⊢
    simp only [Prod.mk.injEq] at h ⊢
    obtain ⟨hi, hT, ha⟩ := h
    refine ⟨hi, hT, ?_⟩
    omega

theorem alloc_prop_some (This : jsdisp_t) (name : WSTR) (type : prop_type_t) (flags avail : Nat)
    (i : Nat) (This1 : jsdisp_t) (avail1 : Nat)
    (h : alloc_prop This name type flags avail = (some i, This1, avail1))
    (hlen : This.props.length = This.buf_size) (hcnt : This.prop_cnt ≤ This.buf_size)
    (hpos : 0 < This.buf_size) (hnil : This.prop_cnt < NIL) :
    i = This.prop_cnt ∧ avail1 ≤ avail ∧
      This1.prop_cnt = This.prop_cnt + 1 ∧ This1.props.length = This1.buf_size ∧
      This1.prop_cnt ≤ This1.buf_size ∧ 0 < This1.buf_size ∧ same_fields This This1 ∧
      (∀ j, j < This.prop_cnt → same_core (slot This1 j) (slot This j)) ∧
      (slot This1 This.prop_cnt).name = name ∧ (slot This1 This.prop_cnt).type = type ∧
      (slot This1 This.prop_cnt).flags = flags ∧
      (slot This1 This.prop_cnt).hash = string_hash name ∧
      head_hit This1 (string_hash name) name false This.prop_cnt := by
  have h2 := alloc_prop_indep _ _ _ _ _ _ _ _ h
  obtain ⟨T, a1, hT, _, ha, rest⟩ :=
    alloc_prop_ok This name type flags (avail + 2) hlen hcnt hpos hnil (by omega)
  rw [h2] at hT
  simp only [Prod.mk.injEq, Option.some.injEq] at hT
  obtain ⟨hi, hTT, haa⟩ := hT
  subst hTT
  exact ⟨hi, by omega, rest⟩

/-! ### The builtin table -/

theorem builtin_bsearch_some (props : List builtin_prop_t) (name : WSTR) :
    ∀ (fuel : Nat) (min max : Int) (i : Nat), builtin_bsearch props name fuel min max = some i →
      wcscmp name (builtin_at props i).name = 0 := by
  intro fuel
  induction fuel with
  | zero => intro min max i h; simp [builtin_bsearch] at h
  | succ n ih =>
    intro min max i h
    simp only [builtin_bsearch] at h
    split at h
    · split at h
      · next hr => simp only [Option.some.injEq] at h; rw [← h]; exact hr
      · split at h
        · exact ih _ _ _ h
        · exact ih _ _ _ h
    · cases h

theorem find_builtin_prop_some (ctx : script_ctx_t) (o : jsdisp_t) (name : WSTR) (ci : Bool)
    (b : builtin_prop_t) (h : find_builtin_prop ctx o name ci = some b) :
    name_match ci name b.name = true := by
  unfold find_builtin_prop at h
  simp only at h
  split at h
  · cases h
  · next i hi =>
    split at h
    · simp only [Option.some.injEq] at h
      subst h
      cases ci with
      | true =>
        simp only [if_true] at hi
        have := List.find?_some hi
        simpa [name_match] using this
      | false =>
        simp only [Bool.false_eq_true, if_false] at hi
        have := builtin_bsearch_some _ _ _ _ _ _ hi
        simp [name_match, this]
    · cases h

theorem name_match_hash (ci : Bool) (a b : WSTR) (h : name_match ci a b = true) :
    string_hash a = string_hash b := by
  cases ci with
  | true =>
    apply string_hash_lower
    have : wcsicmp a b = 0 := by simpa [name_match] using h
    exact (wcsicmp_eq_zero_iff a b).1 this
  | false =>
    have : wcscmp a b = 0 := by simpa [name_match] using h
    rw [(wcscmp_eq_zero_iff a b).1 this]

/-! ### New objects -/

theorem obj_append (s : Store) (x : Option jsdisp_t) (a : Nat) (q : Nat) (o : jsdisp_t)
    (h : s.obj q = some o) :
    Store.obj { s with heap := s.heap ++ [x], avail := a } q = some o := by
  have hl := obj_lt h
  unfold Store.obj at h ⊢
  simp only [List.getD_eq_getElem?_getD] at h ⊢
  rw [List.getElem?_append_left hl]
  exact h

theorem create_dispex_none (s : Store) (bi : Option builtin_info_t) (s2 : Store) (hres : HRESULT)
    (r : Option Nat) (h : create_dispex s bi none = some (s2, hres, r)) :
    (r = none ∧ FAILED hres = true) ∨
    (r = some s.heap.length ∧ hres = HRESULT.S_OK ∧ s2.avail ≤ s.avail ∧
      s2.heap = s.heap ++ [some (init_object s.ctx.self (bi.getD dispex_info) none)] ∧
      s2.ctx = { s.ctx with objects := s.ctx.objects ++ [s.heap.length] }) := by
  unfold create_dispex at h
  cases h1 : malloc s.avail with
  | none => simp only [h1, Option.some.injEq, Prod.mk.injEq] at h; left; simp [← h.2.1, ← h.2.2, FAILED]
  | some a1 =>
    simp only [h1] at h
    cases h2 : malloc a1 with
    | none => simp only [h2, Option.some.injEq, Prod.mk.injEq] at h; left; simp [← h.2.1, ← h.2.2, FAILED]
    | some a2 =>
      simp only [h2, Option.bind_eq_bind, Option.some_bind, Option.some.injEq, Prod.mk.injEq] at h
      right
      obtain ⟨hs, hh, hr⟩ := h
      subst hs
      refine ⟨hr.symm, hh.symm, ?_, rfl, rfl⟩
      simp only [Store.list_add_tail]
      unfold malloc at h1 h2
      split at h1
      · cases h1
      · split at h2
        · cases h2
        · simp only [Option.some.injEq] at h1 h2; omega

/-! ### Allocation of a slot in the store -/

theorem obj_with_avail (s : Store) (a : Nat) (q : Nat) :
    Store.obj { s with avail := a } q = s.obj q := rfl

theorem head_hit_set_slot {T : jsdisp_t} {hash : Nat} {name : WSTR} {ci : Bool} {i : Nat}
    (h : head_hit T hash name ci i) (j : Nat) (f : dispex_prop_t → dispex_prop_t)
    (hf : ∀ q, (f q).name = q.name ∧ (f q).bucket_head = q.bucket_head) :
    head_hit (set_slot T j f) hash name ci i := by
  obtain ⟨h1, h2, h3⟩ := h
  have eg : get_props_idx (set_slot T j f) hash = get_props_idx T hash := rfl
  refine ⟨?_, h2, ?_⟩
  · rw [eg, slot_set_slot]
    split
    · next hc => rw [(hf _).2, ← hc.1]; exact h1
    · exact h1
  · rw [slot_set_slot]
    split
    · next hc => rw [(hf _).1, ← hc.1]; exact h3
    · exact h3

theorem store_alloc_then_set (s : Store) (p : Nat) (name : WSTR) (type : prop_type_t) (flags : Nat)
    (s3 s4 : Store) (i : Nat) (f : dispex_prop_t → dispex_prop_t) (o : jsdisp_t)
    (ho : s.obj p = some o)
    (ha : store_alloc_prop s p name type flags = some (s3, some i))
    (hs : store_set_slot s3 p i f = some s4) :
    ∃ T, alloc_prop o name type flags s.avail = (some i, T, s4.avail) ∧
      s4.obj p = some (set_slot T i f) ∧ (∀ q, q ≠ p → s4.obj q = s.obj q) ∧ s4.ctx = s.ctx ∧
      s4.heap.length = s.heap.length := by
  unfold store_alloc_prop at ha
  simp only [ho] at ha
  generalize hal : alloc_prop o name type flags s.avail = r at ha
  obtain ⟨r1, T, a1⟩ := r
  simp only [Option.some.injEq, Prod.mk.injEq] at ha
  obtain ⟨hs3, hr1⟩ := ha
  subst hr1 hs3
  unfold store_set_slot at hs
  have h3 : Store.obj { s.set_obj p T with avail := a1 } p = some T := by
    rw [obj_with_avail]; exact obj_set_obj_self ho T
  simp only [h3, Option.some.injEq] at hs
  subst hs
  refine ⟨T, rfl, ?_, ?_, rfl, ?_⟩
  · exact obj_set_obj_self h3 _
  · intro q hq
    rw [obj_set_obj_ne _ hq, obj_with_avail, obj_set_obj_ne _ hq]
  · simp [Store.set_obj]

theorem head_hit_of_alloc (o T : jsdisp_t) (name bname : WSTR) (ci : Bool) (type : prop_type_t)
    (flags avail i a1 : Nat) (f : dispex_prop_t → dispex_prop_t)
    (hlen : o.props.length = o.buf_size) (hcnt : o.prop_cnt ≤ o.buf_size)
    (hpos : 0 < o.buf_size) (hnil : o.prop_cnt < NIL)
    (hal : alloc_prop o bname type flags avail = (some i, T, a1))
    (hm : name_match ci name bname = true)
    (hf : ∀ q, (f q).name = q.name ∧ (f q).bucket_head = q.bucket_head) :
    head_hit (set_slot T i f) (string_hash name) name ci i ∧ same_fields o (set_slot T i f) := by
  obtain ⟨hi, _, _, _, _, _, hsf, _, hn, _, _, _, hh⟩ :=
    alloc_prop_some o bname type flags avail i T a1 hal hlen hcnt hpos hnil
  subst hi
  constructor
  · apply head_hit_set_slot _ _ _ hf
    rw [name_match_hash ci name bname hm]
    exact ⟨hh.1, hh.2.1, by rw [hn]; exact hm⟩
  · unfold same_fields at hsf ⊢
    simp only [set_slot]
    rw [hsf]

theorem find_prop_name_some (s : Store) (p : Nat) (name : WSTR) (ci : Bool) (o : jsdisp_t)
    (s1 : Store) (hres : HRESULT) (i : Nat) (ho : s.obj p = some o)
    (hlen : o.props.length = o.buf_size) (hcnt : o.prop_cnt ≤ o.buf_size)
    (hpos : 0 < o.buf_size) (hnil : o.prop_cnt < NIL)
    (h : find_prop_name s p (string_hash name) name ci = some (s1, hres, some i)) :
    hres = HRESULT.S_OK ∧ o.proxy = none ∧
    ∃ o1, s1.obj p = some o1 ∧ head_hit o1 (string_hash name) name ci i ∧ same_fields o o1 := by
  unfold find_prop_name at h
  simp only [ho] at h
  cases hr : find_prop_name_raw o (string_hash name) name ci with
  | none => simp [hr] at h
  | some r =>
    obtain ⟨This1, r1⟩ := r
    obtain ⟨fr, hnone, hsome⟩ := raw_frame _ _ _ _ _ _ hr
    have hbl : get_props_idx o (string_hash name) < o.props.length := by
      have := get_props_idx_lt o (string_hash name) hpos
      omega
    cases r1 with
    | some k =>
      simp only [hr] at h
      split at h
      · cases h
      · next hpx =>
        simp only [Option.some.injEq, Prod.mk.injEq] at h
        obtain ⟨rfl, rfl, rfl⟩ := h
        refine ⟨rfl, by simpa using hpx, This1, obj_set_obj_self ho _, (hsome k rfl).2.2 hbl,
          (table_frame_fields fr).2.2⟩
    | none =>
      have hT := hnone rfl
      subst hT
      simp only [hr] at h
      split at h
      · cases h
      · next hpx =>
        have hpx' : This1.proxy = none := by simpa using hpx
        refine ⟨?_, hpx', ?_⟩ <;> rw [set_obj_same ho] at h
        all_goals
          cases hb : find_builtin_prop s.ctx This1 name ci with
          | some builtin =>
            have hm := find_builtin_prop_some _ _ _ _ _ hb
            simp only [hb] at h
            split at h
            · -- a method entry
              cases hc : create_builtin_function s builtin.invoke builtin.name builtin.flags with
              | none => simp [hc] at h
              | some c =>
                obtain ⟨s2, hres2, fobj⟩ := c
                cases fobj with
                | none =>
                  simp only [hc] at h
                  split at h <;> simp at h
                | some fo =>
                  simp only [hc] at h
                  split at h
                  · simp at h
                  · have hcd := create_dispex_none s _ s2 hres2 (some fo) hc
                    rcases hcd with hcd | hcd
                    · simp at hcd
                    · obtain ⟨_, _, _, hheap, _⟩ := hcd
                      have ho2 : s2.obj p = some This1 := by
                        have := obj_append s (some (init_object s.ctx.self
                          ((some function_info).getD dispex_info) none)) s.avail p This1 ho
                        unfold Store.obj at this ⊢
                        rw [hheap]
                        exact this
                      cases ha : store_alloc_prop s2 p builtin.name prop_type_t.PROP_JSVAL
                          (builtin.flags &&& PROPF_ALL ||| PROPF_WRITABLE ||| PROPF_CONFIGURABLE) with
                      | none => simp [ha] at h
                      | some a =>
                        obtain ⟨s3, ri⟩ := a
                        cases ri with
                        | none =>
                          simp only [ha, Option.map_eq_some'] at h
                          obtain ⟨_, _, h⟩ := h
                          simp at h
                        | some k =>
                          simp only [ha, Option.map_eq_some', Prod.mk.injEq] at h
                          obtain ⟨s4, hs4, rfl, rfl, hk⟩ := h
                          simp only [Option.some.injEq] at hk
                          subst hk
                          obtain ⟨T, hal, hobj, _⟩ := store_alloc_then_set _ _ _ _ _ _ _ _ _ _ ho2 ha hs4
                          first
                            | rfl
                            | (refine ⟨_, hobj, ?_⟩
                               exact head_hit_of_alloc This1 T name builtin.name ci _ _ _ _ _ _
                                 hlen hcnt hpos hnil hal hm (fun q => ⟨rfl, rfl⟩))
            · -- a getter and setter entry
              cases ha : store_alloc_prop s p builtin.name prop_type_t.PROP_BUILTIN
                  ((if builtin.setter.isSome = true then builtin.flags ||| PROPF_WRITABLE
                    else builtin.flags) &&&
                    (PROPF_ENUMERABLE ||| PROPF_WRITABLE ||| PROPF_CONFIGURABLE)) with
              | none => simp [ha] at h
              | some a =>
                obtain ⟨s3, ri⟩ := a
                cases ri with
                | none => simp [ha] at h
                | some k =>
                  simp only [ha, Option.map_eq_some', Prod.mk.injEq] at h
                  obtain ⟨s4, hs4, rfl, rfl, hk⟩ := h
                  simp only [Option.some.injEq] at hk
                  subst hk
                  obtain ⟨T, hal, hobj, _⟩ := store_alloc_then_set _ _ _ _ _ _ _ _ _ _ ho ha hs4
                  first
                    | rfl
                    | (refine ⟨_, hobj, ?_⟩
                       exact head_hit_of_alloc This1 T name builtin.name ci _ _ _ _ _ _
                         hlen hcnt hpos hnil hal hm (fun q => ⟨rfl, rfl⟩))
          | none =>
            simp only [hb] at h
            split at h
            · next len hl =>
              split at h
              · next idx hsc =>
                split at h
                · cases ha : store_alloc_prop s p name prop_type_t.PROP_IDX
                      (if This1.builtin_info.idx_put = true then PROPF_ENUMERABLE ||| PROPF_WRITABLE
                        else PROPF_ENUMERABLE) with
                  | none => simp [ha] at h
                  | some a =>
                    obtain ⟨s3, ri⟩ := a
                    cases ri with
                    | none => simp [ha] at h
                    | some k =>
                      simp only [ha, Option.map_eq_some', Prod.mk.injEq] at h
                      obtain ⟨s4, hs4, rfl, rfl, hk⟩ := h
                      simp only [Option.some.injEq] at hk
                      subst hk
                      obtain ⟨T, hal, hobj, _⟩ := store_alloc_then_set _ _ _ _ _ _ _ _ _ _ ho ha hs4
                      first
                        | rfl
                        | (refine ⟨_, hobj, ?_⟩
                           exact head_hit_of_alloc This1 T name name ci _ _ _ _ _ _
                             hlen hcnt hpos hnil hal (name_match_self _ _) (fun q => ⟨rfl, rfl⟩))
                · simp at h
              · simp at h
            · simp at h

/-! ### Deletion by name, twice -/

theorem set_obj_set_obj (s : Store) (p : Nat) (a b : jsdisp_t) :
    (s.set_obj p a).set_obj p b = s.set_obj p b := by
  simp [Store.set_obj, List.set_set]

theorem set_slot_same (O : jsdisp_t) (i : Nat) (f : dispex_prop_t → dispex_prop_t)
    (h : f (slot O i) = slot O i) : set_slot O i f = O := by
  unfold set_slot
  rw [h]
  have : O.props.set i (slot O i) = O.props := by
    apply List.ext_getElem?
    intro n
    rw [List.getElem?_set]
    by_cases hn : i = n
    · subst hn
      by_cases hl : i < O.props.length
      · simp [hl, slot, List.getD_eq_getElem?_getD, List.getElem?_eq_getElem hl]
      · simp [hl, List.getElem?_eq_none (Nat.le_of_not_lt hl)]
    · simp [hn]
  rw [this]

theorem jsdisp_release_alive (s : Store) (p : Nat) (s1 : Store) (o : jsdisp_t)
    (h : jsdisp_release s p = some s1) (ho : s.obj p = some o) (hpx : o.proxy = none)
    (hal : (s1.obj p).isSome = true) :
    o.ref - 1 ≠ 0 ∧ s1 = s.set_obj p { o with ref := o.ref - 1 } := by
  unfold jsdisp_release at h
  simp only [jsdisp_release_fuel, ho] at h
  split at h
  · exfalso
    unfold jsdisp_free at h
    have ho1 : (s.set_obj p { o with ref := o.ref - 1 }).obj p = some { o with ref := o.ref - 1 } :=
      obj_set_obj_self ho _
    simp only [ho1] at h
    simp only [hpx, Option.isSome_none, Bool.false_eq_true, if_false] at h
    by_cases hw : o.has_weak_refs = true
    · simp [hw] at h
    · simp only [hw, Bool.false_eq_true, if_false] at h
      simp only [Option.bind_eq_some, Option.some.injEq] at h
      obtain ⟨_, _, s3, _, h4⟩ := h
      subst h4
      rw [obj_free_obj] at hal
      simp at hal
  · next hne =>
    simp only [Option.some.injEq] at h
    exact ⟨hne, h.symm⟩

theorem jsdisp_release_eq (s : Store) (p : Nat) (o : jsdisp_t) (ho : s.obj p = some o)
    (hne : o.ref - 1 ≠ 0) : jsdisp_release s p = some (s.set_obj p { o with ref := o.ref - 1 }) := by
  unfold jsdisp_release
  simp only [jsdisp_release_fuel, ho, hne, if_false]

theorem delete_prop_result (s : Store) (p i : Nat) (s1 : Store) (hres : HRESULT) (ret : Bool)
    (o : jsdisp_t) (h : delete_prop s p i = some (s1, hres, ret)) (ho : s.obj p = some o) :
    hres = HRESULT.S_OK ∧
    (((slot o i).type = prop_type_t.PROP_PROTREF ∧ ret = true ∧ s1 = s) ∨
     ((slot o i).type ≠ prop_type_t.PROP_PROTREF ∧ (slot o i).flags &&& PROPF_CONFIGURABLE = 0 ∧
        ret = false ∧ s1 = s) ∨
     ((slot o i).type ≠ prop_type_t.PROP_PROTREF ∧ (slot o i).flags &&& PROPF_CONFIGURABLE ≠ 0 ∧
        ret = true ∧ ∃ o1, obj_frame o o1 ∧
        s1.obj p = some (set_slot o1 i (fun q => { q with type := prop_type_t.PROP_DELETED })))) := by
  unfold delete_prop at h
  simp only [ho] at h
  split at h
  · next h1 =>
    simp only [Option.some.injEq, Prod.mk.injEq] at h
    exact ⟨h.2.1.symm, Or.inl ⟨h1, h.2.2.symm, h.1.symm⟩⟩
  · next h1 =>
    split at h
    · cases h
    · split at h
      · next h3 =>
        simp only [Option.some.injEq, Prod.mk.injEq] at h
        exact ⟨h.2.1.symm, Or.inr (Or.inl ⟨h1, h3, h.2.2.symm, h.1.symm⟩)⟩
      · next h3 =>
        split at h
        · cases h
        · simp only [Option.bind_eq_some, Option.map_eq_some', Prod.mk.injEq] at h
          obtain ⟨s2, h2, s3, hs3, h4, h5, h6⟩ := h
          subst h4
          obtain ⟨o2, ho2, rfl⟩ := store_set_slot_eq hs3
          have fr := release_all_frame jsdisp_release jsdisp_release_frame _ _ _ h2
          obtain ⟨o', ho', hfr⟩ := fr p o2 ho2
          rw [ho] at ho'
          cases ho'
          exact ⟨h5.symm, Or.inr (Or.inr ⟨h1, h3, h6.symm, o2, hfr, obj_set_obj_self ho2 _⟩)⟩

theorem delete_prop_again (s : Store) (p i : Nat) (O : jsdisp_t) (ho : s.obj p = some O)
    (hpx : O.proxy = none) (ht : (slot O i).type = prop_type_t.PROP_DELETED)
    (hc : (slot O i).flags &&& PROPF_CONFIGURABLE ≠ 0) :
    delete_prop s p i = some (s, HRESULT.S_OK, true) := by
  unfold delete_prop
  simp only [ho, ht, hpx, hc, Option.isSome_none, Bool.false_eq_true, if_false]
  have he : slot_edges (slot O i) = [] := by unfold slot_edges; rw [ht]
  simp only [he, release_all, Option.some_bind, store_set_slot, ho, Option.map_some',
    reduceCtorEq, if_false]
  rw [set_slot_same O i _ (by
    have : (slot O i).type = prop_type_t.PROP_DELETED := ht
    cases hs : slot O i
    rw [hs] at this
    simp only at this
    subst this
    rfl), set_obj_same ho]

theorem find_prop_name_none (s : Store) (p hash : Nat) (name : WSTR) (ci : Bool) (o : jsdisp_t)
    (s1 : Store) (hres : HRESULT) (ho : s.obj p = some o)
    (h : find_prop_name s p hash name ci = some (s1, hres, none)) (hf : FAILED hres = false) :
    s1 = s ∧ hres = HRESULT.S_OK := by
  unfold find_prop_name at h
  simp only [ho] at h
  cases hr : find_prop_name_raw o hash name ci with
  | none => simp [hr] at h
  | some r =>
    obtain ⟨This1, r1⟩ := r
    obtain ⟨_, hnone, _⟩ := raw_frame _ _ _ _ _ _ hr
    cases r1 with
    | some k =>
      simp only [hr] at h
      split at h <;> simp at h
    | none =>
      have hT := hnone rfl
      subst hT
      simp only [hr] at h
      split at h
      · cases h
      · rw [set_obj_same ho] at h
        cases hb : find_builtin_prop s.ctx This1 name ci with
        | some builtin =>
          simp only [hb] at h
          split at h
          · cases hc : create_builtin_function s builtin.invoke builtin.name builtin.flags with
            | none => simp [hc] at h
            | some c =>
              obtain ⟨s2, hres2, fobj⟩ := c
              cases fobj with
              | none =>
                simp only [hc] at h
                split at h
                · next hff =>
                  simp only [Option.some.injEq, Prod.mk.injEq] at h
                  rw [← h.2.1, hff] at hf
                  cases hf
                · cases h
              | some fo =>
                simp only [hc] at h
                split at h
                · next hff =>
                  simp only [Option.some.injEq, Prod.mk.injEq] at h
                  rw [← h.2.1, hff] at hf
                  cases hf
                · split at h
                  · cases h
                  · simp only [Option.map_eq_some', Prod.mk.injEq] at h
                    obtain ⟨_, _, _, h2, _⟩ := h
                    rw [← h2] at hf
                    cases hf
                  · simp at h
          · split at h
            · cases h
            · simp only [Option.some.injEq, Prod.mk.injEq] at h
              rw [← h.2.1] at hf
              cases hf
            · simp at h
        | none =>
          simp only [hb] at h
          split at h
          · split at h
            · split at h
              · split at h
                · cases h
                · simp only [Option.some.injEq, Prod.mk.injEq] at h
                  rw [← h.2.1] at hf
                  cases hf
                · simp at h
              · simp only [Option.some.injEq, Prod.mk.injEq] at h
                exact ⟨h.1.symm, h.2.1.symm⟩
            · simp only [Option.some.injEq, Prod.mk.injEq] at h
              exact ⟨h.1.symm, h.2.1.symm⟩
          · simp only [Option.some.injEq, Prod.mk.injEq] at h
            exact ⟨h.1.symm, h.2.1.symm⟩

theorem same_fields_proxy {a b : jsdisp_t} (h : same_fields a b) :
    b.proxy = a.proxy ∧ b.builtin_info = a.builtin_info ∧ b.ref = a.ref := by
  unfold same_fields at h
  refine ⟨by rw [h], by rw [h], by rw [h]⟩

theorem slot_flags_lt (O : jsdisp_t) (i : Nat) (h : (slot O i).flags &&& PROPF_CONFIGURABLE ≠ 0) :
    i < O.props.length := by
  by_contra hn
  apply h
  unfold slot
  rw [List.getD_eq_getElem?_getD, List.getElem?_eq_none (Nat.le_of_not_lt hn)]
  rfl

theorem find_delete_again (s0 : Store) (p : Nat) (name : WSTR) (ci : Bool) (O0 : jsdisp_t)
    (sf s2 : Store) (hresf hresd : HRESULT) (ret : Bool) (i : Nat) (ho : s0.obj p = some O0)
    (hlen : O0.props.length = O0.buf_size) (hcnt : O0.prop_cnt ≤ O0.buf_size)
    (hpos : 0 < O0.buf_size) (hnil : O0.prop_cnt < NIL)
    (hfind : find_prop_name s0 p (string_hash name) name ci = some (sf, hresf, some i))
    (hdel : delete_prop sf p i = some (s2, hresd, ret)) :
    hresf = HRESULT.S_OK ∧ hresd = HRESULT.S_OK ∧
    ∃ O2, s2.obj p = some O2 ∧ O2.proxy = none ∧ O2.builtin_info = O0.builtin_info ∧
      head_hit O2 (string_hash name) name ci i ∧
      find_prop_name s2 p (string_hash name) name ci = some (s2, HRESULT.S_OK, some i) ∧
      delete_prop s2 p i = some (s2, HRESULT.S_OK, ret) ∧
      (ret = false → (slot O2 i).flags &&& PROPF_CONFIGURABLE = 0) := by
  obtain ⟨hf1, hpx, o1, ho1, hh, hsf⟩ :=
    find_prop_name_some s0 p name ci O0 sf hresf i ho hlen hcnt hpos hnil hfind
  obtain ⟨e1, e2, _⟩ := same_fields_proxy hsf
  rw [hpx] at e1
  obtain ⟨hd1, hcase⟩ := delete_prop_result sf p i s2 hresd ret o1 hdel ho1
  subst hf1 hd1
  refine ⟨rfl, rfl, ?_⟩
  rcases hcase with ⟨_, hret, hs⟩ | ⟨_, hfl, hret, hs⟩ | ⟨_, hfl, hret, o1', hfr, hobj⟩
  · subst hs hret
    exact ⟨o1, ho1, e1, e2, hh, find_prop_name_hit _ _ _ _ _ _ _ ho1 e1 hh, hdel,
      fun h => by cases h⟩
  · subst hs hret
    exact ⟨o1, ho1, e1, e2, hh, find_prop_name_hit _ _ _ _ _ _ _ ho1 e1 hh, hdel, fun _ => hfl⟩
  · subst hret
    obtain ⟨r, hr⟩ : ∃ r, o1' = { o1 with ref := r } := ⟨_, hfr⟩
    have hh' : head_hit o1' (string_hash name) name ci i :=
      head_hit_frame _ _ _ _ (by rw [hr]) (by rw [hr]) hh
    have hh2 := head_hit_set_slot hh' i
      (fun q => { q with type := prop_type_t.PROP_DELETED }) (fun q => ⟨rfl, rfl⟩)
    have hpx2 : (set_slot o1' i fun q => { q with type := prop_type_t.PROP_DELETED }).proxy = none := by
      show o1'.proxy = none
      rw [hr]; exact e1
    have hil : i < o1'.props.length := by
      have := slot_flags_lt o1 i hfl
      rw [hr]; exact this
    have hsl : slot (set_slot o1' i fun q => { q with type := prop_type_t.PROP_DELETED }) i
        = { slot o1 i with type := prop_type_t.PROP_DELETED } := by
      rw [slot_set_slot, if_pos ⟨rfl, hil⟩]
      have : slot o1' i = slot o1 i := by unfold slot; rw [hr]
      rw [this]
    refine ⟨_, hobj, hpx2, ?_, hh2, find_prop_name_hit _ _ _ _ _ _ _ hobj hpx2 hh2, ?_,
      fun h => by cases h⟩
    · show o1'.builtin_info = O0.builtin_info
      rw [hr]; exact e2
    · apply delete_prop_again _ _ _ _ hobj hpx2
      · rw [hsl]
      · rw [hsl]; exact hfl

theorem jsdisp_addref_some (s : Store) (p : Nat) (o : jsdisp_t) (ho : s.obj p = some o) :
    ∃ s0, jsdisp_addref s p = some s0 ∧ s0.obj p = some { o with ref := o.ref + 1 } ∧
      (o.ref + 1 ≠ 1 → s0 = s.set_obj p { o with ref := o.ref + 1 }) := by
  unfold jsdisp_addref
  simp only [ho]
  split
  · next h1 =>
    refine ⟨_, rfl, ?_, fun h => absurd h1 h⟩
    unfold jsdisp_reacquire
    split
    · rw [obj_list_add_tail]; exact obj_set_obj_self ho _
    · exact obj_set_obj_self ho _
  · exact ⟨_, rfl, obj_set_obj_self ho _, fun _ => rfl⟩

theorem addref_after_release (s2 : Store) (p : Nat) (O2 : jsdisp_t) (ho : s2.obj p = some O2)
    (hne : O2.ref - 1 ≠ 0) :
    jsdisp_addref (s2.set_obj p { O2 with ref := O2.ref - 1 }) p = some s2 := by
  have ho3 : (s2.set_obj p { O2 with ref := O2.ref - 1 }).obj p = some { O2 with ref := O2.ref - 1 } :=
    obj_set_obj_self ho _
  unfold jsdisp_addref
  simp only [ho3]
  have h1 : ¬ (O2.ref - 1 + 1 = 1) := by omega
  rw [if_neg h1, set_obj_set_obj]
  have : ({ O2 with ref := O2.ref - 1 + 1 } : jsdisp_t) = O2 := by
    have e : O2.ref - 1 + 1 = O2.ref := by omega
    rw [e]
  simp only [this, set_obj_same ho]

theorem disp_delete_name_body_again (s0 : Store) (p : Nat) (name : WSTR) (O0 : jsdisp_t)
    (s2 : Store) (hres : HRESULT) (ret : Bool) (ho : s0.obj p = some O0)
    (hlen : O0.props.length = O0.buf_size) (hcnt : O0.prop_cnt ≤ O0.buf_size)
    (hpos : 0 < O0.buf_size) (hnil : O0.prop_cnt < NIL) (hpx : O0.proxy = none)
    (h : disp_delete_name_body s0 p O0 name = some (s2, hres, ret)) :
    hres = HRESULT.S_OK ∧
    ∃ O2, s2.obj p = some O2 ∧ O2.proxy = none ∧
      disp_delete_name_body s2 p O2 name = some (s2, HRESULT.S_OK, ret) ∧
      (ret = false → (override_idx O0 name).isSome = true ∨
        ∃ i, head_hit O2 (string_hash name) name false i ∧
          (slot O2 i).flags &&& PROPF_CONFIGURABLE = 0) := by
  unfold disp_delete_name_body at h
  by_cases hov : (override_idx O0 name).isSome = true
  · rw [if_pos hov] at h
    simp only [Option.some.injEq, Prod.mk.injEq] at h
    obtain ⟨rfl, rfl, rfl⟩ := h
    refine ⟨rfl, O0, ho, hpx, ?_, fun _ => Or.inl hov⟩
    unfold disp_delete_name_body
    rw [if_pos hov]
  · rw [if_neg hov] at h
    cases hf : find_prop_name s0 p (string_hash name) name false with
    | none => simp [hf] at h
    | some r =>
      obtain ⟨sf, hresf, prop⟩ := r
      simp only [hf] at h
      by_cases hfail : FAILED hresf = true
      · simp [hfail] at h
      · have hfail' : FAILED hresf = false := by simpa using hfail
        simp only [hfail', Bool.false_eq_true, if_false] at h
        cases prop with
        | none =>
          simp only [Option.some.injEq, Prod.mk.injEq] at h
          obtain ⟨rfl, rfl, rfl⟩ := h
          obtain ⟨rfl, rfl⟩ := find_prop_name_none _ _ _ _ _ _ _ _ ho hf hfail'
          refine ⟨rfl, O0, ho, hpx, ?_, fun h => by cases h⟩
          unfold disp_delete_name_body
          rw [if_neg hov]
          simp only [hf, FAILED, Bool.false_eq_true, if_false]
        | some i =>
          simp only at h
          obtain ⟨_, hd, O2, hO2, hpx2, hbi, hh, hfind2, hdel2, hret⟩ :=
            find_delete_again s0 p name false O0 sf s2 hresf hres ret i ho hlen hcnt hpos hnil hf h
          refine ⟨hd, O2, hO2, hpx2, ?_, fun hr => Or.inr ⟨i, hh, hret hr⟩⟩
          unfold disp_delete_name_body
          have hov2 : ¬ (override_idx O2 name).isSome = true := by
            unfold override_idx at hov ⊢
            rw [hbi]
            exact hov
          rw [if_neg hov2]
          simp only [hfind2, FAILED, Bool.false_eq_true, if_false, hdel2]

theorem disp_delete_name_twice (s : Store) (p : Nat) (name : WSTR) (o : jsdisp_t)
    (ho : s.obj p = some o) (hpx : o.proxy = none) (hlen : o.props.length = o.buf_size)
    (hcnt : o.prop_cnt ≤ o.buf_size) (hpos : 0 < o.buf_size) (hnil : o.prop_cnt < NIL)
    (s1 : Store) (hres : HRESULT) (ret : Bool)
    (h1 : disp_delete_name s p name = some (s1, hres, ret)) (hal : (s1.obj p).isSome = true) :
    hres = HRESULT.S_OK ∧ disp_delete_name s1 p name = some (s1, HRESULT.S_OK, ret) ∧
    (ret = false → (override_idx o name).isSome = true ∨
      ∃ o1 i, s1.obj p = some o1 ∧ head_hit o1 (string_hash name) name false i ∧
        (slot o1 i).flags &&& PROPF_CONFIGURABLE = 0) := by
  obtain ⟨s0, ha, ho0, _⟩ := jsdisp_addref_some s p o ho
  unfold disp_delete_name at h1
  simp only [ha, Option.some_bind, ho0] at h1
  cases hb : disp_delete_name_body s0 p { o with ref := o.ref + 1 } name with
  | none => simp [hb] at h1
  | some r =>
    obtain ⟨s2, hr, rt⟩ := r
    simp only [hb, Option.map_eq_some', Prod.mk.injEq] at h1
    obtain ⟨s3, hrel, rfl, rfl, rfl⟩ := h1
    obtain ⟨hS, O2, hO2, hpx2, hbody2, hret⟩ :=
      disp_delete_name_body_again s0 p name _ s2 hr rt ho0 hlen hcnt hpos hnil hpx hb
    obtain ⟨hne, hs3⟩ := jsdisp_release_alive s2 p s3 O2 hrel hO2 hpx2 hal
    have hadd := addref_after_release s2 p O2 hO2 hne
    rw [← hs3] at hadd
    refine ⟨hS, ?_, ?_⟩
    · unfold disp_delete_name
      simp only [hadd, Option.some_bind, hO2, hbody2, hrel, Option.map_some']
    · intro hr0
      rcases hret hr0 with h | ⟨i, hh, hfl⟩
      · exact Or.inl h
      · right
        refine ⟨{ O2 with ref := O2.ref - 1 }, i, ?_, ?_, hfl⟩
        · rw [hs3]; exact obj_set_obj_self hO2 _
        · exact head_hit_frame _ _ _ _ rfl rfl hh

theorem DeleteMemberByName_twice (s : Store) (p : Nat) (name : WSTR) (ci : Bool) (o : jsdisp_t)
    (ho : s.obj p = some o) (hlen : o.props.length = o.buf_size)
    (hcnt : o.prop_cnt ≤ o.buf_size) (hpos : 0 < o.buf_size) (hnil : o.prop_cnt < NIL)
    (s1 : Store) (hres : HRESULT)
    (h1 : DispatchEx_DeleteMemberByName s p name ci = some (s1, hres))
    (hok : FAILED hres = false) :
    hres = HRESULT.S_OK ∧
      DispatchEx_DeleteMemberByName s1 p name ci = some (s1, HRESULT.S_OK) := by
  unfold DispatchEx_DeleteMemberByName at h1
  simp only [ho] at h1
  by_cases hov : (override_idx o name).isSome = true
  · rw [if_pos hov] at h1
    simp only [Option.some.injEq, Prod.mk.injEq] at h1
    obtain ⟨rfl, rfl⟩ := h1
    refine ⟨rfl, ?_⟩
    unfold DispatchEx_DeleteMemberByName
    simp only [ho]
    rw [if_pos hov]
  · rw [if_neg hov] at h1
    cases hf : find_prop_name s p (string_hash name) name ci with
    | none => simp [hf] at h1
    | some r =>
      obtain ⟨sf, hresf, prop⟩ := r
      simp only [hf] at h1
      by_cases hfail : FAILED hresf = true
      · simp only [hfail, if_true, Option.some.injEq, Prod.mk.injEq] at h1
        rw [← h1.2, hfail] at hok
        cases hok
      · have hfail' : FAILED hresf = false := by simpa using hfail
        simp only [hfail', Bool.false_eq_true, if_false] at h1
        cases prop with
        | none =>
          simp only [Option.some.injEq, Prod.mk.injEq] at h1
          obtain ⟨rfl, rfl⟩ := h1
          obtain ⟨rfl, rfl⟩ := find_prop_name_none _ _ _ _ _ _ _ _ ho hf hfail'
          refine ⟨rfl, ?_⟩
          unfold DispatchEx_DeleteMemberByName
          simp only [ho]
          rw [if_neg hov]
          simp only [hf, FAILED, Bool.false_eq_true, if_false]
        | some i =>
          simp only [Option.map_eq_some'] at h1
          obtain ⟨⟨s2, hresd, ret⟩, hdel, h2⟩ := h1
          simp only [Prod.mk.injEq] at h2
          obtain ⟨rfl, rfl⟩ := h2
          obtain ⟨_, hd, O2, hO2, hpx2, hbi, hh, hfind2, hdel2, hret⟩ :=
            find_delete_again s p name ci o sf s2 hresf hresd ret i ho hlen hcnt hpos hnil hf hdel
          refine ⟨hd, ?_⟩
          unfold DispatchEx_DeleteMemberByName
          simp only [hO2]
          have hov2 : ¬ (override_idx O2 name).isSome = true := by
            unfold override_idx at hov ⊢
            rw [hbi]
            exact hov
          rw [if_neg hov2]
          simp only [hfind2, FAILED, Bool.false_eq_true, if_false, hdel2, Option.map_some']

/-- C9, as stated, fails: the object of `store_fixed` has no proxy and its slot
`x` lacks the configurable flag; both deletions of `x` by name return success,
and the second reports `removed = false`. -/
theorem second_delete_reports_not_removed :
    (store_fixed.obj 0).map (fun o => (o.proxy, (slot o 0).name, (slot o 0).flags))
      = some (none, name_x, 0) ∧
    (disp_delete_name store_fixed 0 name_x).map (fun r => r.2) = some (HRESULT.S_OK, false) ∧
    ((disp_delete_name store_fixed 0 name_x).bind fun r =>
      (disp_delete_name r.1 0 name_x).map fun r1 => r1.2) = some (HRESULT.S_OK, false) := by
  refine ⟨?_, ?_, ?_⟩ <;> rfl

/-- C9, amended. For an object without a proxy and with a well-formed table and
every name: when the first `disp_delete_name` has a result and leaves the object
allocated, it returned `S_OK`, and the second call returns `S_OK`, reports the
same `removed` as the first and leaves the whole store as the first left it;
`removed` is false only for an overridden index or when the slot of the name
lacks the configurable flag.  When the first `DispatchEx_DeleteMemberByName`
did not fail, it returned `S_OK` and the second call returns `S_OK` and leaves
the store as the first left it. -/
theorem idempotent_deletion (s : Store) (p : Nat) (name : WSTR) (o : jsdisp_t)
    (ho : s.obj p = some o) (hpx : o.proxy = none) (hwf : props_wf o) (hnil : o.prop_cnt < NIL) :
    (∀ s1 hres ret, disp_delete_name s p name = some (s1, hres, ret) →
      (s1.obj p).isSome = true →
      hres = HRESULT.S_OK ∧ disp_delete_name s1 p name = some (s1, HRESULT.S_OK, ret) ∧
      (ret = false → (override_idx o name).isSome = true ∨
        ∃ o1 i, s1.obj p = some o1 ∧ head_hit o1 (string_hash name) name false i ∧
          (slot o1 i).flags &&& PROPF_CONFIGURABLE = 0)) ∧
    (∀ ci s1 hres, DispatchEx_DeleteMemberByName s p name ci = some (s1, hres) →
      FAILED hres = false →
      hres = HRESULT.S_OK ∧
        DispatchEx_DeleteMemberByName s1 p name ci = some (s1, HRESULT.S_OK)) := by
  obtain ⟨hlen, h4, _, hcnt, _, _⟩ := hwf
  exact ⟨fun s1 hres ret h1 hal =>
      disp_delete_name_twice s p name o ho hpx hlen hcnt (by omega) hnil s1 hres ret h1 hal,
    fun ci s1 hres h1 hok =>
      DeleteMemberByName_twice s p name ci o ho hlen hcnt (by omega) hnil s1 hres h1 hok⟩

theorem idempotent_deletion_witness :
    disp_delete_name store_holder 0 name_x = some (store_holder_gone, HRESULT.S_OK, true) ∧
    disp_delete_name store_holder_gone 0 name_x = some (store_holder_gone, HRESULT.S_OK, true) ∧
    DispatchEx_DeleteMemberByName store_holder_deleted 0 name_x false
      = some (store_holder_deleted, HRESULT.S_OK) :=
  have h := idempotent_deletion store_holder 0 name_x holder_obj (by rfl) (by rfl) (by decide)
    (by decide)
  ⟨by rfl, ((h.1 store_holder_gone HRESULT.S_OK true (by rfl) (by rfl)).2).1,
    ((h.2 false store_holder_deleted HRESULT.S_OK (by rfl) (by rfl)).2)⟩


/-! ### Builtin materialisation -/

theorem wcscmp_antisymm (a b : WSTR) (h : wcscmp a b < 0) : 0 < wcscmp b a := by
  induction a generalizing b with
  | nil => cases b <;> simp [wcscmp] at h ⊢
  | cons x a ih =>
    cases b with
    | nil => simp [wcscmp] at h
    | cons y b =>
      simp only [wcscmp] at h ⊢
      by_cases h1 : x < y
      · have h2 : ¬ y < x := by omega
        simp [h1, h2]
      · by_cases h2 : y < x
        · simp [h1, h2] at h
        · simp only [h1, h2, if_false] at h ⊢
          exact ih b h

theorem builtin_bsearch_finds (props : List builtin_prop_t) (name : WSTR) (e : Nat)
    (hs : ∀ i j, i < j → j < props.length →
      wcscmp (builtin_at props i).name (builtin_at props j).name < 0)
    (he : e < props.length) (hn : (builtin_at props e).name = name) :
    ∀ (fuel : Nat) (min max : Int), 0 ≤ min → min ≤ e → (e : Int) ≤ max → max < props.length →
      max - min + 1 < fuel → builtin_bsearch props name fuel min max = some e := by
  intro fuel
  induction fuel with
  | zero => intro min max h0 h1 h2 h3 h4; omega
  | succ n ih =>
    intro min max h0 h1 h2 h3 h4
    simp only [builtin_bsearch]
    rw [if_pos (by omega)]
    have hi0 : 0 ≤ (min + max) / 2 := by omega
    have hi1 : min ≤ (min + max) / 2 := by omega
    have hi2 : (min + max) / 2 ≤ max := by omega
    obtain ⟨i, hi⟩ : ∃ i : Nat, (min + max) / 2 = (i : Int) := ⟨((min + max) / 2).toNat, by omega⟩
    rw [hi]
    simp only [Int.toNat_ofNat]
    have hil : i < props.length := by omega
    by_cases hr : wcscmp name (builtin_at props i).name = 0
    · rw [if_pos hr]
      have hname : (builtin_at props i).name = name := ((wcscmp_eq_zero_iff _ _).1 hr).symm
      by_cases hlt : i < e
      · have := hs i e hlt he
        rw [hname, hn, wcscmp_self] at this
        omega
      · by_cases hgt : e < i
        · have := hs e i hgt hil
          rw [hname, hn, wcscmp_self] at this
          omega
        · have : i = e := by omega
          rw [this]
    · rw [if_neg hr]
      by_cases hneg : wcscmp name (builtin_at props i).name < 0
      · rw [if_pos hneg]
        have hei : e < i := by
          by_contra hc
          have hc' : i < e ∨ i = e := by omega
          rcases hc' with hc' | hc'
          · have h1 := hs i e hc' he
            rw [hn] at h1
            have := wcscmp_antisymm _ _ h1
            omega
          · rw [hc', hn, wcscmp_self] at hr
            exact hr rfl
        exact ih min (i - 1) h0 h1 (by omega) (by omega) (by omega)
      · rw [if_neg hneg]
        have hei : i < e := by
          by_contra hc
          have hc' : e < i ∨ i = e := by omega
          rcases hc' with hc' | hc'
          · have h1 := hs e i hc' hil
            rw [hn] at h1
            omega
          · rw [hc', hn, wcscmp_self] at hr
            exact hr rfl
        exact ih (i + 1) max (by omega) (by omega) h2 h3 (by omega)

theorem find_builtin_prop_sorted (ctx : script_ctx_t) (o : jsdisp_t) (name : WSTR) (e : Nat)
    (hs : ∀ i j, i < j → j < o.builtin_info.props.length →
      wcscmp (builtin_at o.builtin_info.props i).name (builtin_at o.builtin_info.props j).name < 0)
    (he : e < o.builtin_info.props.length) (hn : (builtin_at o.builtin_info.props e).name = name)
    (hg : builtin_gate ctx (builtin_at o.builtin_info.props e) = true) :
    find_builtin_prop ctx o name false = some (builtin_at o.builtin_info.props e) := by
  unfold find_builtin_prop
  simp only [Bool.false_eq_true, if_false]
  rw [builtin_bsearch_finds _ name e hs he hn _ 0 _ (le_refl _) (by omega) (by omega) (by omega)
    (by omega)]
  simp only [hg, if_true]

theorem create_dispex_ok (s : Store) (bi : Option builtin_info_t) (hav : 2 ≤ s.avail) :
    ∃ s2, create_dispex s bi none = some (s2, HRESULT.S_OK, some s.heap.length) ∧
      s2.heap = s.heap ++ [some (init_object s.ctx.self (bi.getD dispex_info) none)] ∧
      s2.ctx = { s.ctx with objects := s.ctx.objects ++ [s.heap.length] } ∧
      s2.avail = s.avail - 2 := by
  unfold create_dispex
  rw [malloc_pos (by omega : 0 < s.avail)]
  simp only
  rw [malloc_pos (by omega : 0 < s.avail - 1)]
  simp only [Option.bind_eq_bind, Option.some_bind, Store.list_add_tail]
  refine ⟨_, rfl, rfl, rfl, ?_⟩
  simp only
  omega

theorem obj_heap_append_old {s s2 : Store} {x : Option jsdisp_t} (h : s2.heap = s.heap ++ [x])
    {q : Nat} (hq : q < s.heap.length) : s2.obj q = s.obj q := by
  simp only [Store.obj, List.getD_eq_getElem?_getD, h]
  rw [List.getElem?_append_left hq]

theorem obj_heap_append_new {s s2 : Store} {x : jsdisp_t} (h : s2.heap = s.heap ++ [some x]) :
    s2.obj s.heap.length = some x := by
  simp [Store.obj, List.getD_eq_getElem?_getD, h]

theorem find_prop_name_method (s : Store) (p : Nat) (o : jsdisp_t) (n : WSTR) (e : Nat)
    (ho : s.obj p = some o) (hpx : o.proxy = none) (hwf : props_wf o) (hnil : o.prop_cnt < NIL)
    (hs : ∀ i j, i < j → j < o.builtin_info.props.length →
      wcscmp (builtin_at o.builtin_info.props i).name (builtin_at o.builtin_info.props j).name < 0)
    (he : e < o.builtin_info.props.length) (hn : (builtin_at o.builtin_info.props e).name = n)
    (hm : (builtin_at o.builtin_info.props e).flags &&& PROPF_METHOD ≠ 0)
    (hg : builtin_gate s.ctx (builtin_at o.builtin_info.props e) = true)
    (hno : ∀ j, j < o.prop_cnt → (slot o j).name ≠ n) (hav : 4 ≤ s.avail) :
    ∃ s1 o1, find_prop_name s p (string_hash n) n false = some (s1, HRESULT.S_OK, some o.prop_cnt) ∧
      s1.heap.length = s.heap.length + 1 ∧ s1.avail + 4 ≥ s.avail ∧
      s1.ctx = { s.ctx with objects := s.ctx.objects ++ [s.heap.length] } ∧
      s1.obj s.heap.length = some (init_object s.ctx.self function_info none) ∧
      (∀ q, q ≠ p → q < s.heap.length → s1.obj q = s.obj q) ∧
      s1.obj p = some o1 ∧ same_fields o o1 ∧ o1.prop_cnt = o.prop_cnt + 1 ∧
      o.prop_cnt < o1.props.length ∧
      (∀ j, j < o.prop_cnt → same_core (slot o1 j) (slot o j)) ∧
      (slot o1 o.prop_cnt).name = n ∧
      (slot o1 o.prop_cnt).type = prop_type_t.PROP_JSVAL ∧
      (slot o1 o.prop_cnt).u = prop_u.val (jsval_t.obj s.heap.length) ∧
      (slot o1 o.prop_cnt).flags = ((builtin_at o.builtin_info.props e).flags &&& PROPF_ALL)
        ||| PROPF_WRITABLE ||| PROPF_CONFIGURABLE ∧
      head_hit o1 (string_hash n) n false o.prop_cnt := by
  have hraw : find_prop_name_raw o (string_hash n) n false = some (o, none) := by
    apply raw_miss o _ _ _ hwf
    intro j hj
    have := hno j hj
    simp only [name_match, Bool.false_eq_true, if_false, beq_eq_false_iff_ne, ne_eq,
      wcscmp_eq_zero_iff]
    exact fun h => this h.symm
  have hb := find_builtin_prop_sorted s.ctx o n e hs he hn hg
  obtain ⟨hlen, h4, _, hcnt, _, _⟩ := hwf
  have hpl := obj_lt ho
  -- the function object
  obtain ⟨s2, hc, hheap2, hctx2, hav2⟩ := create_dispex_ok s (some function_info) (by omega)
  have ho2 : s2.obj p = some o := by
    rw [obj_heap_append_old hheap2 hpl]; exact ho
  -- the slot
  obtain ⟨T, a1, hal, ha1, _, hTc, hTl, _, _, hTs, hTcore, hTn, hTt, hTf, _, hTh⟩ :=
    alloc_prop_ok o (builtin_at o.builtin_info.props e).name prop_type_t.PROP_JSVAL
      (((builtin_at o.builtin_info.props e).flags &&& PROPF_ALL) ||| PROPF_WRITABLE |||
        PROPF_CONFIGURABLE) s2.avail hlen hcnt (by omega) hnil (by omega)
  have hsa : store_alloc_prop s2 p (builtin_at o.builtin_info.props e).name prop_type_t.PROP_JSVAL
      (((builtin_at o.builtin_info.props e).flags &&& PROPF_ALL) ||| PROPF_WRITABLE |||
        PROPF_CONFIGURABLE) = some ({ s2.set_obj p T with avail := a1 }, some o.prop_cnt) := by
    unfold store_alloc_prop
    simp only [ho2, hal]
  have ho3 : Store.obj { s2.set_obj p T with avail := a1 } p = some T := by
    rw [obj_with_avail]; exact obj_set_obj_self ho2 T
  have hin : o.prop_cnt < T.props.length := by omega
  refine ⟨({ s2.set_obj p T with avail := a1 } : Store).set_obj p
      (set_slot T o.prop_cnt (fun q =>
        { q with type := prop_type_t.PROP_JSVAL, u := prop_u.val (jsval_t.obj s.heap.length) })),
    _, ?_, ?_, ?_, ?_, ?_, ?_, obj_set_obj_self ho3 _, ?_, ?_, ?_, ?_, ?_, ?_, ?_, ?_, ?_⟩
  · unfold find_prop_name
    simp only [ho, hraw, hpx, Option.isSome_none, Bool.false_eq_true, if_false, set_obj_same ho,
      hb, hm, ne_eq, not_false_eq_true, if_true]
    unfold create_builtin_function
    rw [hc]
    simp only [FAILED, Bool.false_eq_true, if_false, hsa, store_set_slot, ho3, Option.map_some']
  · simp [Store.set_obj, hheap2]
  · simp only [Store.set_obj]; omega
  · exact hctx2
  · rw [obj_set_obj_ne _ (by omega), obj_with_avail, obj_set_obj_ne _ (by omega)]
    exact obj_heap_append_new hheap2
  · intro q hq hql
    rw [obj_set_obj_ne _ hq, obj_with_avail, obj_set_obj_ne _ hq, obj_heap_append_old hheap2 hql]
  · unfold same_fields at hTs ⊢
    simp only [set_slot]
    rw [hTs]
  · rw [set_slot_prop_cnt]; exact hTc
  · rw [set_slot_length]; exact hin
  · intro j hj
    refine same_core_trans ?_ (hTcore j hj)
    rw [slot_set_slot, if_neg (by omega)]
    exact same_core_refl _
  · rw [slot_set_slot, if_pos ⟨rfl, hin⟩]; simp only; rw [hTn, hn]
  · rw [slot_set_slot, if_pos ⟨rfl, hin⟩]
  · rw [slot_set_slot, if_pos ⟨rfl, hin⟩]
  · rw [slot_set_slot, if_pos ⟨rfl, hin⟩]; exact hTf
  · rw [← hn]
    exact head_hit_set_slot hTh _ _ (fun q => ⟨rfl, rfl⟩)

/-! ### Reading a value slot found in the own table -/

theorem find_prop_name_prot_own (s : Store) (p hash : Nat) (name : WSTR) (ci : Bool) (s1 : Store)
    (i : Nat) (o1 : jsdisp_t)
    (hf : find_prop_name s p hash name ci = some (s1, HRESULT.S_OK, some i))
    (ho1 : s1.obj p = some o1) (ht : (slot o1 i).type ≠ prop_type_t.PROP_DELETED)
    (ht2 : (slot o1 i).type ≠ prop_type_t.PROP_PROTREF) (fuel : Nat) :
    find_prop_name_prot_fuel (fuel + 1) s p hash name ci = some (s1, HRESULT.S_OK, some i) := by
  simp only [find_prop_name_prot_fuel, hf, FAILED, Bool.false_eq_true, if_false, ho1, ne_eq, ht,
    not_false_eq_true, decide_True, if_true, fix_protref_prop, ht2, Option.map_some']

theorem protref_target_own (s : Store) (p i : Nat) (o : jsdisp_t) (ho : s.obj p = some o)
    (hi : i < o.props.length) (ht : (slot o i).type ≠ prop_type_t.PROP_PROTREF) (fuel : Nat) :
    protref_target s (fuel + 1) p i = some (p, i) := by
  simp only [protref_target, ho, ht, if_false]
  rw [if_neg (by omega)]

theorem prop_get_value (s : Store) (p i : Nat) (o : jsdisp_t) (ho : s.obj p = some o)
    (hpx : o.proxy = none) (hi : i < o.props.length)
    (ht : (slot o i).type = prop_type_t.PROP_JSVAL) :
    prop_get s p i =
      (jsval_copy s (u_val (slot o i).u)).bind fun s1 =>
        (convert_to_proxy s1 (u_val (slot o i).u)).map fun s2 =>
          (s2, HRESULT.S_OK, u_val (slot o i).u) := by
  unfold prop_get
  rw [protref_target_own s p i o ho hi (by rw [ht]; simp)]
  simp only [ho, hpx, Option.isSome_none, Bool.false_eq_true, if_false, ht]

theorem propget_own_value (s : Store) (p : Nat) (name : WSTR) (o : jsdisp_t) (i : Nat)
    (ho : s.obj p = some o) (hpx : o.proxy = none) (hov : override_idx o name = none)
    (hh : head_hit o (string_hash name) name false i) (hi : i < o.props.length)
    (ht : (slot o i).type = prop_type_t.PROP_JSVAL) (s2 : Store)
    (hcopy : (jsval_copy s (u_val (slot o i).u)).bind
      (fun s1 => convert_to_proxy s1 (u_val (slot o i).u)) = some s2) :
    jsdisp_propget_name s p name = some (s2, HRESULT.S_OK, u_val (slot o i).u) := by
  have hf := find_prop_name_hit s p _ name false o i ho hpx hh
  have hp := find_prop_name_prot_own s p _ name false s i o hf ho (by rw [ht]; simp)
    (by rw [ht]; simp) s.heap.length
  unfold jsdisp_propget_name
  simp only [ho, hov, Option.isSome_none, Bool.false_eq_true, if_false, find_prop_name_prot, hp,
    FAILED, ht, reduceCtorEq]
  rw [prop_get_value s p i o ho hpx hi ht]
  simp only [Option.bind_eq_some] at hcopy
  obtain ⟨s1, h1, h2⟩ := hcopy
  simp only [h1, Option.some_bind, h2, Option.map_some', reduceCtorEq, if_false]

theorem copy_obj (s : Store) (f : Nat) (fo : jsdisp_t) (hf : s.obj f = some fo)
    (hr : fo.ref + 1 ≠ 1) :
    (jsval_copy s (jsval_t.obj f)).bind (fun s1 => convert_to_proxy s1 (jsval_t.obj f))
      = some (s.set_obj f { fo with ref := fo.ref + 1 }) := by
  simp only [jsval_copy, val_link, jsdisp_addref, hf, hr, if_false, Option.some_bind,
    convert_to_proxy]
  split <;> rfl

/-- C10. For an object without a proxy whose builtin table, sorted by name, has
the method entry `n` that passes the gate, and which has no slot `n` yet: the
first `find_prop_name(n)` succeeds with the slot at the old `prop_cnt`, creates
one object (the function, one reference) at the end of the heap and adds one
slot, a value slot holding that function, leaving every other slot and object
as it was; the next `find_prop_name(n)` returns the same slot and the store
unchanged, so no slot and no function is made again; `jsdisp_propget_name(n)`
yields that function, first from the state before the materialisation and then
again from the state it leaves, the heap no longer growing. -/
theorem builtin_materialisation_idempotent (s : Store) (p : Nat) (o : jsdisp_t) (n : WSTR)
    (e : Nat) (ho : s.obj p = some o) (hpx : o.proxy = none) (hwf : props_wf o)
    (hnil : o.prop_cnt < NIL)
    (hs : ∀ i j, i < j → j < o.builtin_info.props.length →
      wcscmp (builtin_at o.builtin_info.props i).name (builtin_at o.builtin_info.props j).name < 0)
    (he : e < o.builtin_info.props.length) (hn : (builtin_at o.builtin_info.props e).name = n)
    (hm : (builtin_at o.builtin_info.props e).flags &&& PROPF_METHOD ≠ 0)
    (hg : builtin_gate s.ctx (builtin_at o.builtin_info.props e) = true)
    (hno : ∀ j, j < o.prop_cnt → (slot o j).name ≠ n) (hov : override_idx o n = none)
    (hav : 4 ≤ s.avail) :
    ∃ s1 o1 s2 s3,
      find_prop_name s p (string_hash n) n false = some (s1, HRESULT.S_OK, some o.prop_cnt) ∧
      s1.heap.length = s.heap.length + 1 ∧
      s1.obj s.heap.length = some (init_object s.ctx.self function_info none) ∧
      (∀ q, q ≠ p → q < s.heap.length → s1.obj q = s.obj q) ∧
      s1.obj p = some o1 ∧ o1.prop_cnt = o.prop_cnt + 1 ∧
      (∀ j, j < o.prop_cnt → same_core (slot o1 j) (slot o j)) ∧
      (slot o1 o.prop_cnt).name = n ∧
      (slot o1 o.prop_cnt).type = prop_type_t.PROP_JSVAL ∧
      (slot o1 o.prop_cnt).u = prop_u.val (jsval_t.obj s.heap.length) ∧
      find_prop_name s1 p (string_hash n) n false = some (s1, HRESULT.S_OK, some o.prop_cnt) ∧
      jsdisp_propget_name s p n = some (s2, HRESULT.S_OK, jsval_t.obj s.heap.length) ∧
      jsdisp_propget_name s2 p n = some (s3, HRESULT.S_OK, jsval_t.obj s.heap.length) ∧
      s3.heap.length = s1.heap.length ∧ s3.obj p = some o1 := by
  obtain ⟨s1, o1, hfind, hlen1, _, _, hfo, hother, ho1, hsf, hcnt1, hin, hcore, hname, htype, hu, _,
    hh⟩ := find_prop_name_method s p o n e ho hpx hwf hnil hs he hn hm hg hno hav
  obtain ⟨e1, e2, _⟩ := same_fields_proxy hsf
  have hpx1 : o1.proxy = none := by rw [e1]; exact hpx
  have hov1 : override_idx o1 n = none := by
    unfold override_idx at hov ⊢; rw [e2]; exact hov
  have hpf : p ≠ s.heap.length := by have := obj_lt ho; omega
  -- the first read
  have hval : u_val (slot o1 o.prop_cnt).u = jsval_t.obj s.heap.length := by rw [hu]; rfl
  have hc1 := copy_obj s1 s.heap.length _ hfo (by simp [init_object])
  obtain ⟨F2, hF2⟩ : ∃ F2 : jsdisp_t, F2 = { init_object s.ctx.self function_info none with
      ref := (init_object s.ctx.self function_info none).ref + 1 } := ⟨_, rfl⟩
  rw [← hF2] at hc1
  have hget1 : jsdisp_propget_name s1 p n
      = some (s1.set_obj s.heap.length F2, HRESULT.S_OK, jsval_t.obj s.heap.length) := by
    have := propget_own_value s1 p n o1 o.prop_cnt ho1 hpx1 hov1 hh hin htype _
      (by rw [hval]; exact hc1)
    rw [hval] at this
    exact this
  have hget0 : jsdisp_propget_name s p n = jsdisp_propget_name s1 p n := by
    have hp0 := find_prop_name_prot_own s p _ n false s1 o.prop_cnt o1 hfind ho1
      (by rw [htype]; simp) (by rw [htype]; simp) s.heap.length
    have hp1 := find_prop_name_prot_own s1 p _ n false s1 o.prop_cnt o1
      (find_prop_name_hit s1 p _ n false o1 _ ho1 hpx1 hh) ho1
      (by rw [htype]; simp) (by rw [htype]; simp) s1.heap.length
    unfold jsdisp_propget_name
    simp only [ho, ho1, hov, hov1, find_prop_name_prot, hp0, hp1]
  -- the second read
  have hfo2 : (s1.set_obj s.heap.length F2).obj s.heap.length = some F2 := obj_set_obj_self hfo F2
  have ho2 : (s1.set_obj s.heap.length F2).obj p = some o1 := by
    rw [obj_set_obj_ne _ hpf]; exact ho1
  have hc2 := copy_obj _ s.heap.length _ hfo2 (by rw [hF2]; simp [init_object])
  have hget2 := propget_own_value _ p n o1 o.prop_cnt ho2 hpx1 hov1 hh hin htype _
    (by rw [hval]; exact hc2)
  rw [hval] at hget2
  refine ⟨s1, o1, _, _, hfind, hlen1, hfo, hother, ho1, hcnt1, hcore, hname, htype, hu,
    find_prop_name_hit s1 p _ n false o1 _ ho1 hpx1 hh, hget0.trans hget1, hget2, ?_, ?_⟩
  · simp [Store.set_obj]
  · rw [obj_set_obj_ne _ hpf, obj_set_obj_ne _ hpf]; exact ho1

theorem builtin_materialisation_idempotent_witness :
    ∃ s1 o1 s2 s3,
      find_prop_name store_am 0 (string_hash [109]) [109] false
        = some (s1, HRESULT.S_OK, some obj_am.prop_cnt) ∧
      s1.heap.length = store_am.heap.length + 1 ∧
      s1.obj store_am.heap.length = some (init_object store_am.ctx.self function_info none) ∧
      (∀ q, q ≠ 0 → q < store_am.heap.length → s1.obj q = store_am.obj q) ∧
      s1.obj 0 = some o1 ∧ o1.prop_cnt = obj_am.prop_cnt + 1 ∧
      (∀ j, j < obj_am.prop_cnt → same_core (slot o1 j) (slot obj_am j)) ∧
      (slot o1 obj_am.prop_cnt).name = [109] ∧
      (slot o1 obj_am.prop_cnt).type = prop_type_t.PROP_JSVAL ∧
      (slot o1 obj_am.prop_cnt).u = prop_u.val (jsval_t.obj store_am.heap.length) ∧
      find_prop_name s1 0 (string_hash [109]) [109] false
        = some (s1, HRESULT.S_OK, some obj_am.prop_cnt) ∧
      jsdisp_propget_name store_am 0 [109]
        = some (s2, HRESULT.S_OK, jsval_t.obj store_am.heap.length) ∧
      jsdisp_propget_name s2 0 [109] = some (s3, HRESULT.S_OK, jsval_t.obj store_am.heap.length) ∧
      s3.heap.length = s1.heap.length ∧ s3.obj 0 = some o1 :=
  builtin_materialisation_idempotent store_am 0 obj_am [109] 1 (by rfl) (by rfl) (by decide)
    (by decide)
    (fun i j hij hj => by
      have hj2 : j < 2 := hj
      have h1 : j = 1 := by omega
      have h0 : i = 0 := by omega
      subst h1 h0
      decide)
    (by decide) (by rfl) (by decide) (by decide) (by decide) (by decide) (by decide)

/-! ### Copies of values -/

theorem ref_step_refl (s : Store) : ref_step s s :=
  ⟨rfl, rfl, rfl, rfl, fun _ o h => ⟨o.ref, h⟩⟩

theorem ref_step_set_ref (s : Store) (q : Nat) (o : jsdisp_t) (ho : s.obj q = some o) (r : Int) :
    ref_step s (s.set_obj q { o with ref := r }) := by
  refine ⟨by simp [Store.set_obj], rfl, rfl, rfl, ?_⟩
  intro p o' hp
  by_cases hpq : p = q
  · subst hpq
    rw [ho] at hp
    cases hp
    exact ⟨r, obj_set_obj_self ho _⟩
  · exact ⟨o'.ref, by rw [obj_set_obj_ne _ hpq]; exact hp⟩

theorem val_ok_step {s s1 : Store} (h : ref_step s s1) (v : jsval_t) (hv : val_ok s v) :
    val_ok s1 v := by
  unfold val_ok at hv ⊢
  cases v with
  | undefined => trivial
  | number n => trivial
  | obj q =>
    simp only at hv ⊢
    cases hq : s.obj q with
    | none => rw [hq] at hv; cases hv
    | some o =>
      obtain ⟨r, hr⟩ := h.2.2.2.2 q o hq
      rw [hr]; rfl
  | disp d =>
    simp only at hv ⊢
    rw [h.2.1]; exact hv

theorem copy_ok (s : Store) (v : jsval_t) (hv : val_ok s v) :
    ∃ s1, jsval_copy s v = some s1 ∧ convert_to_proxy s1 v = some s1 ∧ ref_step s s1 := by
  cases v with
  | undefined =>
    refine ⟨s, rfl, ?_, ref_step_refl s⟩
    unfold convert_to_proxy; split <;> rfl
  | number n =>
    refine ⟨s, rfl, ?_, ref_step_refl s⟩
    unfold convert_to_proxy; split <;> rfl
  | disp d =>
    refine ⟨s, rfl, ?_, ref_step_refl s⟩
    unfold convert_to_proxy
    have hv' : s.ctx.version < SCRIPTLANGUAGEVERSION_ES5 := hv
    rw [if_pos hv']
  | obj q =>
    unfold val_ok at hv
    simp only at hv
    cases hq : s.obj q with
    | none => rw [hq] at hv; cases hv
    | some o =>
      have hst := ref_step_set_ref s q o hq (o.ref + 1)
      simp only [jsval_copy, val_link, jsdisp_addref, hq]
      split
      · refine ⟨_, rfl, ?_, ?_⟩
        · unfold convert_to_proxy; split <;> rfl
        · unfold jsdisp_reacquire
          split
          · exact ⟨hst.1, hst.2.1, hst.2.2.1, hst.2.2.2.1, hst.2.2.2.2⟩
          · exact hst
      · refine ⟨_, rfl, ?_, hst⟩
        unfold convert_to_proxy; split <;> rfl

theorem copy_bind_ok (s : Store) (v : jsval_t) (hv : val_ok s v) :
    ∃ s1, (jsval_copy s v).bind (fun t => convert_to_proxy t v) = some s1 ∧ ref_step s s1 := by
  obtain ⟨s1, h1, h2, h3⟩ := copy_ok s v hv
  exact ⟨s1, by rw [h1]; exact h2, h3⟩

/-! ### Inheritance through a prototype reference -/

theorem name_match_ne (a b : WSTR) (h : b ≠ a) : name_match false a b = false := by
  simp only [name_match, Bool.false_eq_true, if_false, beq_eq_false_iff_ne, ne_eq,
    wcscmp_eq_zero_iff]
  exact fun e => h e.symm

theorem find_prop_name_prot_inherit (s : Store) (C P k : Nat) (oC oP : jsdisp_t) (x : WSTR)
    (hC : s.obj C = some oC) (hP : s.obj P = some oP) (hne : C ≠ P)
    (hproto : oC.prototype = some P) (hPpx : oP.proxy = none) (hCpx : oC.proxy = none)
    (hPwf : props_wf oP) (hCwf : props_wf oC) (hCnil : oC.prop_cnt < NIL)
    (hk : k < oP.prop_cnt) (hkn : (slot oP k).name = x)
    (hkt : (slot oP k).type ≠ prop_type_t.PROP_DELETED)
    (hkt2 : (slot oP k).type ≠ prop_type_t.PROP_PROTREF)
    (hku : ∀ j, j < oP.prop_cnt → (slot oP j).name = x → j = k)
    (hCno : ∀ j, j < oC.prop_cnt → (slot oC j).name ≠ x)
    (hCb : find_builtin_prop s.ctx oC x false = none) (hCi : is_element_name oC x = false)
    (hav : 2 ≤ s.avail) :
    ∃ s1 oC1 oP1,
      find_prop_name_prot s C (string_hash x) x false = some (s1, HRESULT.S_OK, some oC.prop_cnt) ∧
      s1.obj C = some oC1 ∧ s1.obj P = some oP1 ∧ table_frame oP oP1 ∧
      head_hit oP1 (string_hash x) x false k ∧ same_fields oC oC1 ∧
      oC.prop_cnt < oC1.props.length ∧ head_hit oC1 (string_hash x) x false oC.prop_cnt ∧
      (slot oC1 oC.prop_cnt).type = prop_type_t.PROP_PROTREF ∧
      (slot oC1 oC.prop_cnt).u = prop_u.ref k ∧
      s1.heap.length = s.heap.length ∧ s1.ctx = s.ctx ∧
      (∀ q, q ≠ C → q ≠ P → s1.obj q = s.obj q) := by
  have hmissC : find_prop_name s C (string_hash x) x false = some (s, HRESULT.S_OK, none) :=
    find_prop_name_miss s C _ x false oC hC hCpx
      (raw_miss oC _ x false hCwf (fun j hj => name_match_ne _ _ (hCno j hj))) hCb hCi
  obtain ⟨oP1, hfindP, hfr, hhP⟩ := find_prop_name_found s P x oP k hP hPpx hPwf hk hkn hku
  have hP1 : (s.set_obj P oP1).obj P = some oP1 := obj_set_obj_self hP _
  have hC1 : (s.set_obj P oP1).obj C = some oC := by rw [obj_set_obj_ne _ hne]; exact hC
  have hcore := hfr.2.2 k
  have hkt' : (slot oP1 k).type ≠ prop_type_t.PROP_DELETED := by rw [hcore.2.2.1]; exact hkt
  have hkt2' : (slot oP1 k).type ≠ prop_type_t.PROP_PROTREF := by rw [hcore.2.2.1]; exact hkt2
  obtain ⟨m, hm⟩ : ∃ m, s.heap.length = m + 1 := ⟨s.heap.length - 1, by have := obj_lt hC; omega⟩
  have hprotP := find_prop_name_prot_own s P _ x false _ k oP1 hfindP hP1 hkt' hkt2' m
  obtain ⟨hlen, h4, _, hcnt, _, _⟩ := hCwf
  obtain ⟨T, a1, hal, _, _, hTc, hTl, _, _, hTs, _, hTn, hTt, _, _, hTh⟩ :=
    alloc_prop_ok oC (slot oP1 k).name prop_type_t.PROP_PROTREF 0 s.avail hlen hcnt (by omega)
      hCnil hav
  have hname1 : (slot oP1 k).name = x := by rw [hcore.1]; exact hkn
  have hin : oC.prop_cnt < T.props.length := by omega
  have hC3 : Store.obj { (s.set_obj P oP1).set_obj C T with avail := a1 } C = some T := by
    rw [obj_with_avail]; exact obj_set_obj_self hC1 T
  refine ⟨({ (s.set_obj P oP1).set_obj C T with avail := a1 } : Store).set_obj C
      (set_slot T oC.prop_cnt (fun q => { q with u := prop_u.ref k })), _, oP1, ?_,
      obj_set_obj_self hC3 _, ?_, hfr, hhP, ?_, ?_, ?_, ?_, ?_, ?_, ?_, ?_⟩
  · unfold find_prop_name_prot
    rw [hm, find_prop_name_prot_fuel]
    have hav1 : (s.set_obj P oP1).avail = s.avail := rfl
    simp only [hmissC, FAILED, Bool.false_eq_true, if_false, hC, hproto,
      hprotP, hP1, hkt', ne_eq, not_false_eq_true, if_true, alloc_protref, store_alloc_prop, hC1,
      hav1, hal, store_set_slot, hC3, Option.map_some']
  · rw [obj_set_obj_ne _ (Ne.symm hne), obj_with_avail, obj_set_obj_ne _ (Ne.symm hne)]
    exact hP1
  · unfold same_fields at hTs ⊢
    simp only [set_slot]
    rw [hTs]
  · rw [set_slot_length]; exact hin
  · rw [← hname1]
    exact head_hit_set_slot hTh _ _ (fun q => ⟨rfl, rfl⟩)
  · rw [slot_set_slot, if_pos ⟨rfl, hin⟩]; exact hTt
  · rw [slot_set_slot, if_pos ⟨rfl, hin⟩]
  · simp [Store.set_obj]
  · rfl
  · intro q hqC hqP
    rw [obj_set_obj_ne _ hqC, obj_with_avail, obj_set_obj_ne _ hqC, obj_set_obj_ne _ hqP]

theorem own_value_ref {o : jsdisp_t} {x : WSTR} {i : Nat} {v : jsval_t} (h : own_value o x i v)
    (r : Int) : own_value { o with ref := r } x i v := h

theorem own_value_step {s s1 : Store} (hst : ref_step s s1) {p : Nat} {o : jsdisp_t} {x : WSTR}
    {i : Nat} {v : jsval_t} (ho : s.obj p = some o) (h : own_value o x i v) :
    ∃ o1, s1.obj p = some o1 ∧ own_value o1 x i v ∧ o1.props = o.props := by
  obtain ⟨r, hr⟩ := hst.2.2.2.2 p o ho
  exact ⟨_, hr, own_value_ref h r, rfl⟩

theorem propget_own (s : Store) (p : Nat) (o : jsdisp_t) (x : WSTR) (i : Nat) (v : jsval_t)
    (ho : s.obj p = some o) (h : own_value o x i v) (hv : val_ok s v) :
    ∃ s1, jsdisp_propget_name s p x = some (s1, HRESULT.S_OK, v) ∧ ref_step s s1 := by
  obtain ⟨hpx, hov, hh, hi, ht, hu⟩ := h
  have huv : u_val (slot o i).u = v := by rw [hu]; rfl
  obtain ⟨s1, hc, hst⟩ := copy_bind_ok s v hv
  refine ⟨s1, ?_, hst⟩
  have := propget_own_value s p x o i ho hpx hov hh hi ht s1 (by rw [huv]; exact hc)
  rw [huv] at this
  exact this

theorem prop_get_inherited (s : Store) (C n P k : Nat) (oC oP : jsdisp_t)
    (hC : s.obj C = some oC) (hn : n < oC.props.length)
    (ht : (slot oC n).type = prop_type_t.PROP_PROTREF) (hu : (slot oC n).u = prop_u.ref k)
    (hproto : oC.prototype = some P) (hP : s.obj P = some oP) (hk : k < oP.props.length)
    (hkt : (slot oP k).type = prop_type_t.PROP_JSVAL) (hPpx : oP.proxy = none) :
    prop_get s C n =
      (jsval_copy s (u_val (slot oP k).u)).bind fun s1 =>
        (convert_to_proxy s1 (u_val (slot oP k).u)).map fun s2 =>
          (s2, HRESULT.S_OK, u_val (slot oP k).u) := by
  obtain ⟨m, hm⟩ : ∃ m, s.heap.length = m + 1 := ⟨s.heap.length - 1, by have := obj_lt hC; omega⟩
  have ht1 : protref_target s (m + 1 + 1) C n = some (P, k) := by
    rw [protref_target]
    simp only [hC, ht, if_true, hproto, hu, u_ref]
    rw [if_neg (by omega)]
    exact protref_target_own s P k oP hP hk (by rw [hkt]; simp) m
  unfold prop_get
  rw [hm, ht1]
  simp only [hP, hPpx, Option.isSome_none, Bool.false_eq_true, if_false, hkt]

theorem fix_protref_prop_ok (s : Store) (C n P k : Nat) (oC oP : jsdisp_t)
    (hC : s.obj C = some oC) (hu : (slot oC n).u = prop_u.ref k)
    (hproto : oC.prototype = some P) (hP : s.obj P = some oP) (hk : k < oP.prop_cnt)
    (hkt : (slot oP k).type = prop_type_t.PROP_JSVAL) :
    fix_protref_prop s C n = some s := by
  unfold fix_protref_prop
  simp only [hC]
  split
  · rfl
  · have : fix_protref_walk s (s.heap.length + 1) (some P) k = some true := by
      simp only [fix_protref_walk, hP, hkt, reduceCtorEq, or_false, ne_eq, not_false_eq_true,
        if_true]
      rw [if_neg (by omega)]
    simp only [hproto, hu, u_ref, this]

theorem val_ok_mono {s s1 : Store} (hver : s1.ctx.version = s.ctx.version)
    (hal : ∀ q, (s.obj q).isSome = true → (s1.obj q).isSome = true) (v : jsval_t)
    (hv : val_ok s v) : val_ok s1 v := by
  cases v with
  | undefined => trivial
  | number n => trivial
  | obj q => exact hal q hv
  | disp d =>
    have hv' : s.ctx.version < SCRIPTLANGUAGEVERSION_ES5 := hv
    show s1.ctx.version < SCRIPTLANGUAGEVERSION_ES5
    rw [hver]; exact hv'

theorem alive_set_obj {s : Store} {p : Nat} {o0 : jsdisp_t} (_ : s.obj p = some o0) (o : jsdisp_t)
    (q : Nat) (hq : (s.obj q).isSome = true) : ((s.set_obj p o).obj q).isSome = true := by
  rw [obj_set_obj]
  split
  · rfl
  · exact hq

theorem alive_step {s s1 : Store} (hst : ref_step s s1) (q : Nat)
    (hq : (s.obj q).isSome = true) : (s1.obj q).isSome = true := by
  cases ho : s.obj q with
  | none => rw [ho] at hq; cases hq
  | some o =>
    obtain ⟨r, hr⟩ := hst.2.2.2.2 q o ho
    rw [hr]; rfl

theorem propput_over_protref (s : Store) (C n P k : Nat) (oC oP : jsdisp_t) (x : WSTR)
    (w : jsval_t) (hC : s.obj C = some oC) (hCpx : oC.proxy = none)
    (hCov : override_idx oC x = none) (hh : head_hit oC (string_hash x) x false n)
    (hn : n < oC.props.length) (ht : (slot oC n).type = prop_type_t.PROP_PROTREF)
    (hu : (slot oC n).u = prop_u.ref k) (hproto : oC.prototype = some P)
    (hext : oC.extensible = true) (hput : oC.builtin_info.on_put = false) (hne : C ≠ P)
    (hP : s.obj P = some oP) (hk : k < oP.prop_cnt) (hk2 : k < oP.props.length)
    (hkt : (slot oP k).type = prop_type_t.PROP_JSVAL) (hw : val_ok s w) :
    ∃ s2 oC2, jsdisp_propput_name s C x w = some (s2, HRESULT.S_OK) ∧ s2.obj C = some oC2 ∧
      own_value oC2 x n w ∧ (∃ r, s2.obj P = some { oP with ref := r }) ∧
      s2.ctx.version = s.ctx.version ∧
      (∀ q, (s.obj q).isSome = true → (s2.obj q).isSome = true) := by
  have hfind := find_prop_name_hit s C _ x false oC n hC hCpx hh
  have hfix := fix_protref_prop_ok s C n P k oC oP hC hu hproto hP hk hkt
  have hprot : find_prop_name_prot s C (string_hash x) x false =
      some (s, HRESULT.S_OK, some n) := by
    simp only [find_prop_name_prot, find_prop_name_prot_fuel, hfind, FAILED, Bool.false_eq_true,
      if_false, hC, ht, ne_eq, reduceCtorEq, not_false_eq_true, decide_True, if_true, hfix,
      Option.map_some']
  have hens : ∀ fl, ensure_prop_name s C x fl false = some (s, HRESULT.S_OK, some n) := by
    intro fl
    simp only [ensure_prop_name, hprot, FAILED, Bool.false_eq_true, if_false, hC, ht,
      reduceCtorEq, decide_False]
  obtain ⟨m, hm⟩ : ∃ m, s.heap.length = m + 1 := ⟨s.heap.length - 1, by have := obj_lt hC; omega⟩
  have hpt : protref_target s (s.heap.length + 1) C n = some (P, k) := by
    rw [hm, protref_target]
    simp only [hC, ht, if_true, hproto, hu, u_ref]
    rw [if_neg (by omega)]
    exact protref_target_own s P k oP hP hk2 (by rw [hkt]; simp) m
  obtain ⟨X, hX⟩ : ∃ X, X = set_slot oC n (fun q =>
      { q with type := prop_type_t.PROP_JSVAL,
               flags := PROPF_ENUMERABLE ||| PROPF_CONFIGURABLE ||| PROPF_WRITABLE,
               u := prop_u.val jsval_t.undefined }) := ⟨_, rfl⟩
  have hC1 : (s.set_obj C X).obj C = some X := obj_set_obj_self hC X
  have hP1 : (s.set_obj C X).obj P = some oP := by rw [obj_set_obj_ne _ hne.symm]; exact hP
  have hw1 : val_ok (s.set_obj C X) w :=
    val_ok_mono (s := s) (show (s.set_obj C X).ctx.version = s.ctx.version from rfl)
      (alive_set_obj hC X) w hw
  obtain ⟨s2, hcopy, _, hst⟩ := copy_ok _ w hw1
  obtain ⟨r, hr⟩ := hst.2.2.2.2 C X hC1
  obtain ⟨rP, hrP⟩ := hst.2.2.2.2 P oP hP1
  obtain ⟨Y, hY⟩ : ∃ Y, Y = set_slot { X with ref := r } n (fun q =>
      { q with u := prop_u.val w }) := ⟨_, rfl⟩
  have hC3 : (s2.set_obj C Y).obj C = some Y := obj_set_obj_self hr Y
  have hYput : Y.builtin_info.on_put = false := by rw [hY, hX]; exact hput
  refine ⟨s2.set_obj C Y, Y, ?_, hC3, ?_, ⟨rP, ?_⟩, ?_, ?_⟩
  · unfold jsdisp_propput_name jsdisp_propput
    simp only [hC, hCov, Option.isSome_none, Bool.false_eq_true, if_false, hext, if_true, hens,
      FAILED, ht, reduceCtorEq, false_and]
    unfold prop_put
    simp only [hC, ht, if_true, hpt, hP, hkt, reduceCtorEq, if_false, hext, not_true_eq_false,
      store_set_slot, Option.bind_eq_bind, Option.some_bind, ← hX]
    unfold prop_put_store
    simp only [hcopy, Option.bind_eq_bind, Option.some_bind, store_set_slot, hr, ← hY, hC3, hYput,
      Bool.false_eq_true, if_false]
  · have hhX : head_hit X (string_hash x) x false n := by
      rw [hX]; exact head_hit_set_slot hh n _ (fun q => ⟨rfl, rfl⟩)
    have hhX2 : head_hit { X with ref := r } (string_hash x) x false n := hhX
    have hnX : n < X.props.length := by rw [hX, set_slot_length]; exact hn
    have hnX2 : n < ({ X with ref := r } : jsdisp_t).props.length := hnX
    refine ⟨?_, ?_, ?_, ?_, ?_, ?_⟩
    · rw [hY, hX]; exact hCpx
    · rw [hY, hX]; exact hCov
    · rw [hY]; exact head_hit_set_slot hhX2 n _ (fun q => ⟨rfl, rfl⟩)
    · rw [hY, set_slot_length]; exact hnX2
    · rw [hY, slot_set_slot, if_pos ⟨rfl, hnX2⟩]
      show (slot X n).type = _
      rw [hX, slot_set_slot, if_pos ⟨rfl, hn⟩]
    · rw [hY, slot_set_slot, if_pos ⟨rfl, hnX2⟩]
  · rw [obj_set_obj_ne _ hne.symm]; exact hrP
  · show s2.ctx.version = s.ctx.version
    rw [hst.2.1]; rfl
  · intro q hq
    exact alive_set_obj hr Y q (alive_step hst q (alive_set_obj hC X q hq))

/-- C2. Prototype shadowing.  Let `P` be a well-formed, proxy-free prototype
whose only slot named `x` is the value slot `k` holding `v` (whatever its
flags), and `C` a different, well-formed, extensible, proxy-free object with
prototype `P`, no slot, builtin or indexed element named `x` and no `on_put`
callback; let neither be a typed array for which `x` is an index, let `v` and
`w` be values that can be copied in this store, and let two allocations be
possible.  Then `jsdisp_propget_name(C, x)` yields `v`,
`jsdisp_propput_name(C, x, w)` succeeds, after it `jsdisp_propget_name(C, x)`
yields `w` and `jsdisp_propget_name(P, x)` yields `v`, and slot `k` of `P` has
the kind, flags and payload it had, after the store and at the end. -/
theorem prototype_shadowing (s : Store) (C P k : Nat) (oC oP : jsdisp_t) (x : WSTR) (v w : jsval_t)
    (hC : s.obj C = some oC) (hP : s.obj P = some oP) (hne : C ≠ P)
    (hproto : oC.prototype = some P) (hPpx : oP.proxy = none) (hCpx : oC.proxy = none)
    (hext : oC.extensible = true) (hPwf : props_wf oP) (hCwf : props_wf oC)
    (hCnil : oC.prop_cnt < NIL) (hk : k < oP.prop_cnt) (hkn : (slot oP k).name = x)
    (hkt : (slot oP k).type = prop_type_t.PROP_JSVAL) (hkv : (slot oP k).u = prop_u.val v)
    (hku : ∀ j, j < oP.prop_cnt → (slot oP j).name = x → j = k)
    (hCno : ∀ j, j < oC.prop_cnt → (slot oC j).name ≠ x)
    (hCb : find_builtin_prop s.ctx oC x false = none) (hCi : is_element_name oC x = false)
    (hCov : override_idx oC x = none) (hPov : override_idx oP x = none)
    (hput : oC.builtin_info.on_put = false) (hv : val_ok s v) (hw : val_ok s w)
    (hav : 2 ≤ s.avail) :
    ∃ s1 s2 s3 s4 oP2 oP4,
      jsdisp_propget_name s C x = some (s1, HRESULT.S_OK, v) ∧
      jsdisp_propput_name s1 C x w = some (s2, HRESULT.S_OK) ∧
      jsdisp_propget_name s2 C x = some (s3, HRESULT.S_OK, w) ∧
      jsdisp_propget_name s3 P x = some (s4, HRESULT.S_OK, v) ∧
      s2.obj P = some oP2 ∧ same_core (slot oP2 k) (slot oP k) ∧
      s4.obj P = some oP4 ∧ same_core (slot oP4 k) (slot oP k) := by
  obtain ⟨sA, oC1, oP1, hfind, hC1, hP1, hfr, hhP, hsf, hlen, hhC, htC, huC, _, hctx, hoth⟩ :=
    find_prop_name_prot_inherit s C P k oC oP x hC hP hne hproto hPpx hCpx hPwf hCwf hCnil hk hkn
      (by rw [hkt]; simp) (by rw [hkt]; simp) hku hCno hCb hCi hav
  have hcore := hfr.2.2 k
  have hkt1 : (slot oP1 k).type = prop_type_t.PROP_JSVAL := by rw [hcore.2.2.1]; exact hkt
  have hkv1 : (slot oP1 k).u = prop_u.val v := by rw [hcore.2.2.2.2]; exact hkv
  have hk1 : k < oP1.props.length := by
    rw [hfr.2.1, hPwf.1]; exact Nat.lt_of_lt_of_le hk hPwf.2.2.2.1
  have hkc1 : k < oP1.prop_cnt := by rw [(table_frame_fields hfr).1]; exact hk
  have hPpx1 : oP1.proxy = none := by rw [hfr.1]; exact hPpx
  have hPov1 : override_idx oP1 x = none := by rw [hfr.1]; exact hPov
  have hCpx1 : oC1.proxy = none := by unfold same_fields at hsf; rw [hsf]; exact hCpx
  have hCov1 : override_idx oC1 x = none := by unfold same_fields at hsf; rw [hsf]; exact hCov
  have hproto1 : oC1.prototype = some P := by unfold same_fields at hsf; rw [hsf]; exact hproto
  have hext1 : oC1.extensible = true := by unfold same_fields at hsf; rw [hsf]; exact hext
  have hput1 : oC1.builtin_info.on_put = false := by
    unfold same_fields at hsf; rw [hsf]; exact hput
  have halA : ∀ q, (s.obj q).isSome = true → (sA.obj q).isSome = true := by
    intro q hq
    by_cases h1 : q = C
    · rw [h1, hC1]; rfl
    · by_cases h2 : q = P
      · rw [h2, hP1]; rfl
      · rw [hoth q h1 h2]; exact hq
  have hverA : sA.ctx.version = s.ctx.version := by rw [hctx]
  have hvA := val_ok_mono hverA halA v hv
  have hwA := val_ok_mono hverA halA w hw
  have huv : u_val (slot oP1 k).u = v := by rw [hkv1]; rfl
  have hget := prop_get_inherited sA C oC.prop_cnt P k oC1 oP1 hC1 hlen htC huC hproto1 hP1 hk1
    hkt1 hPpx1
  rw [huv] at hget
  obtain ⟨s1, hcopy, hconv, hst1⟩ := copy_ok sA v hvA
  obtain ⟨rC, hC1s⟩ := hst1.2.2.2.2 C oC1 hC1
  obtain ⟨rP, hP1s⟩ := hst1.2.2.2.2 P oP1 hP1
  have hw1 := val_ok_step hst1 w hwA
  have hv1 := val_ok_step hst1 v hvA
  obtain ⟨s2, oC2, hputr, hC2, hown, ⟨r2, hP2⟩, hver2, hal2⟩ :=
    propput_over_protref s1 C oC.prop_cnt P k { oC1 with ref := rC } { oP1 with ref := rP } x w
      hC1s hCpx1 hCov1 hhC hlen htC huC hproto1 hext1 hput1 hne hP1s hkc1 hk1 hkt1 hw1
  have hw2 := val_ok_mono hver2 hal2 w hw1
  have hv2 := val_ok_mono hver2 hal2 v hv1
  obtain ⟨s3, hget2, hst3⟩ := propget_own s2 C oC2 x oC.prop_cnt w hC2 hown hw2
  have hownP : own_value ({ { oP1 with ref := rP } with ref := r2 } : jsdisp_t) x k v :=
    ⟨hPpx1, hPov1, hhP, hk1, hkt1, hkv1⟩
  obtain ⟨oP3, hP3, hownP3, hprops3⟩ := own_value_step hst3 hP2 hownP
  obtain ⟨s4, hget4, hst4⟩ := propget_own s3 P oP3 x k v hP3 hownP3 (val_ok_step hst3 v hv2)
  obtain ⟨oP4, hP4, _, hprops4⟩ := own_value_step hst4 hP3 hownP3
  have hs4 : slot oP4 k = slot oP1 k := by
    unfold slot; rw [hprops4, hprops3]
  refine ⟨s1, s2, s3, s4, _, oP4, ?_, hputr, hget2, hget4, hP2, hcore, hP4, ?_⟩
  · unfold jsdisp_propget_name
    simp only [hC, hCov, Option.isSome_none, Bool.false_eq_true, if_false, hfind, FAILED, hC1,
      htC, reduceCtorEq, hget, hcopy, hconv, Option.some_bind, Option.map_some']
  · rw [hs4]; exact hcore

theorem prototype_shadowing_witness :
    ∃ s1 s2 s3 s4 oP2 oP4,
      jsdisp_propget_name store_shadow 1 name_x = some (s1, HRESULT.S_OK, jsval_t.number 1) ∧
      jsdisp_propput_name s1 1 name_x (jsval_t.number 2) = some (s2, HRESULT.S_OK) ∧
      jsdisp_propget_name s2 1 name_x = some (s3, HRESULT.S_OK, jsval_t.number 2) ∧
      jsdisp_propget_name s3 0 name_x = some (s4, HRESULT.S_OK, jsval_t.number 1) ∧
      s2.obj 0 = some oP2 ∧ same_core (slot oP2 0) (slot (shadow_obj 0) 0) ∧
      s4.obj 0 = some oP4 ∧ same_core (slot oP4 0) (slot (shadow_obj 0) 0) :=
  prototype_shadowing store_shadow 1 0 0 (shadow_obj 1) (shadow_obj 0) name_x (jsval_t.number 1)
    (jsval_t.number 2) (by rfl) (by rfl) (by decide) (by rfl) (by rfl) (by rfl) (by rfl)
    (by decide) (by decide) (by decide) (by decide) (by rfl) (by rfl) (by rfl) (by decide)
    (by decide) (by rfl) (by rfl) (by rfl) (by rfl) (by rfl) trivial trivial (by decide)

/-! ### The mark phase keeps objects up to their marks -/

theorem map_some_of_eq {f : jsdisp_t → jsdisp_t} {a b : Option jsdisp_t}
    (h : a.map f = b.map f) {o : jsdisp_t} (hb : b = some o) :
    ∃ o1, a = some o1 ∧ f o1 = f o := by
  subst hb
  cases a with
  | none => simp at h
  | some o1 => exact ⟨o1, rfl, by simpa using h⟩

theorem map_none_of_eq {f : jsdisp_t → jsdisp_t} {a b : Option jsdisp_t}
    (h : a.map f = b.map f) (hb : b = none) : a = none := by
  subst hb
  cases a with
  | none => rfl
  | some o1 => simp at h

theorem gc_core_of_mark_core {a b : jsdisp_t} (h : mark_core a = mark_core b) :
    gc_core a = gc_core b :=
  congrArg (fun o : jsdisp_t => { o with ref := 0 }) h

theorem mark_frame_refl (s : Store) : mark_frame s s := ⟨rfl, rfl, fun _ => rfl⟩

theorem mark_frame_trans {a b c : Store} (h1 : mark_frame a b) (h2 : mark_frame b c) :
    mark_frame a c :=
  ⟨h2.1.trans h1.1, h2.2.1.trans h1.2.1, fun p => (h2.2.2 p).trans (h1.2.2 p)⟩

theorem gc_frame_refl (s : Store) : gc_frame s s := ⟨rfl, rfl, fun _ => rfl⟩

theorem gc_frame_trans {a b c : Store} (h1 : gc_frame a b) (h2 : gc_frame b c) :
    gc_frame a c :=
  ⟨h2.1.trans h1.1, h2.2.1.trans h1.2.1, fun p => (h2.2.2 p).trans (h1.2.2 p)⟩

theorem gc_frame_of_mark_frame {a b : Store} (h : mark_frame a b) : gc_frame a b := by
  refine ⟨h.1, h.2.1, fun p => ?_⟩
  have := h.2.2 p
  cases ha : a.obj p with
  | none => rw [map_none_of_eq this ha]
  | some o =>
    obtain ⟨o1, h1, h2⟩ := map_some_of_eq this ha
    rw [h1]
    exact congrArg some (gc_core_of_mark_core h2)

theorem mark_frame_set_obj {s : Store} {p : Nat} {o : jsdisp_t} (ho : s.obj p = some o)
    (o1 : jsdisp_t) (h : mark_core o1 = mark_core o) : mark_frame s (s.set_obj p o1) := by
  refine ⟨rfl, by simp [Store.set_obj], fun q => ?_⟩
  rw [obj_set_obj]
  split
  · next hq => rw [hq.1, ho]; exact congrArg some h
  · rfl

theorem gc_frame_set_obj {s : Store} {p : Nat} {o : jsdisp_t} (ho : s.obj p = some o)
    (o1 : jsdisp_t) (h : gc_core o1 = gc_core o) : gc_frame s (s.set_obj p o1) := by
  refine ⟨rfl, by simp [Store.set_obj], fun q => ?_⟩
  rw [obj_set_obj]
  split
  · next hq => rw [hq.1, ho]; exact congrArg some h
  · rfl

theorem pass1_step_refl (s : Store) : pass1_step s s := ⟨gc_frame_refl s, fun _ _ => rfl⟩

theorem pass1_step_trans {a b c : Store} (h1 : pass1_step a b) (h2 : pass1_step b c) :
    pass1_step a c :=
  ⟨gc_frame_trans h1.1 h2.1, fun p hp =>
    (h2.2 p (by rw [h1.1.1]; exact hp)).trans (h1.2 p hp)⟩

theorem edges_of_frame {s s1 : Store} (h : gc_frame s s1) (p : Nat) :
    edges_of s1 p = edges_of s p := by
  unfold edges_of
  have := h.2.2 p
  cases ha : s.obj p with
  | none => rw [map_none_of_eq this ha]
  | some o =>
    obtain ⟨o1, h1, h2⟩ := map_some_of_eq this ha
    rw [h1]
    show obj_edges (gc_core o1) = obj_edges (gc_core o)
    rw [h2]

theorem listed_or_foreign_frame {s s1 : Store} (h : gc_frame s s1) (q : Nat) :
    listed_or_foreign s1 q = listed_or_foreign s q := by
  unfold listed_or_foreign
  have := h.2.2 q
  cases ha : s.obj q with
  | none => rw [map_none_of_eq this ha]
  | some o =>
    obtain ⟨o1, h1, h2⟩ := map_some_of_eq this ha
    have hc : o1.ctx = o.ctx := by
      show (gc_core o1).ctx = (gc_core o).ctx
      rw [h2]
    rw [h1]
    simp only [hc, h.1]

theorem links_listed_frame {s s1 : Store} (h : gc_frame s s1) (hl : links_listed s) :
    links_listed s1 := by
  intro p hp q hq
  rw [listed_or_foreign_frame h]
  rw [h.1] at hp
  rw [edges_of_frame h] at hq
  exact hl p hp q hq

theorem gc_dec_step (s : Store) (q : Nat) (s1 : Store) (h : gc_dec s q = some s1)
    (hq : listed_or_foreign s q = true) : pass1_step s s1 := by
  unfold gc_dec at h
  cases ho : s.obj q with
  | none => simp [ho] at h
  | some o =>
    simp only [ho] at h
    split at h
    · next hc =>
      cases h
      have hin : q ∈ s.ctx.objects := by
        unfold listed_or_foreign at hq
        simp only [ho, decide_eq_true_eq] at hq
        exact hq hc
      refine ⟨gc_frame_set_obj ho _ rfl, fun p hp => ?_⟩
      have hne : p ≠ q := fun e => hp (e ▸ hin)
      exact obj_set_obj_ne s hne _
    · cases h
      exact pass1_step_refl s

theorem release_all_gc_dec_step (E : List Nat) : ∀ (s s1 : Store),
    release_all gc_dec E s = some s1 → (∀ q ∈ E, listed_or_foreign s q = true) →
    pass1_step s s1 := by
  induction E with
  | nil =>
    intro s s1 h _
    simp only [release_all, Option.some.injEq] at h
    subst h
    exact pass1_step_refl s
  | cons q E ih =>
    intro s s1 h hE
    simp only [release_all] at h
    cases hd : gc_dec s q with
    | none => simp [hd] at h
    | some s0 =>
      simp only [hd, Option.some_bind] at h
      have h0 := gc_dec_step s q s0 hd (hE q (List.mem_cons_self _ _))
      refine pass1_step_trans h0 (ih s0 s1 h (fun r hr => ?_))
      rw [listed_or_foreign_frame h0.1]
      exact hE r (List.mem_cons_of_mem _ hr)

theorem gc_pass1_obj_step (s : Store) (p : Nat) (s1 : Store) (h : gc_pass1_obj s p = some s1)
    (hp : p ∈ s.ctx.objects) (hE : ∀ q ∈ edges_of s p, listed_or_foreign s q = true) : pass1_step s s1 := by
  unfold gc_pass1_obj at h
  cases ho : s.obj p with
  | none => simp [ho] at h
  | some o =>
    simp only [ho] at h
    have hE2 : ∀ q ∈ obj_edges o, listed_or_foreign s q = true := by
      intro q hq
      refine hE q ?_
      unfold edges_of
      rw [ho]
      exact hq
    cases hr : release_all gc_dec (obj_edges o) s with
    | none => simp [hr] at h
    | some s0 =>
      simp only [hr, Option.some_bind] at h
      have h0 := release_all_gc_dec_step _ s s0 hr hE2
      split at h
      · cases h
      · cases ho1 : s0.obj p with
        | none => simp [ho1] at h
        | some o1 =>
          simp only [ho1, Option.some.injEq] at h
          subst h
          refine pass1_step_trans h0 ⟨gc_frame_set_obj ho1 _ rfl, fun r hr2 => ?_⟩
          by_cases e : r = p
          · subst e
            exact absurd (by rw [h0.1.1]; exact hp) hr2
          · exact obj_set_obj_ne s0 e _

theorem gc_pass1_list_step (L : List Nat) : ∀ (s s1 : Store),
    release_all gc_pass1_obj L s = some s1 → (∀ p ∈ L, p ∈ s.ctx.objects) → links_listed s →
    pass1_step s s1 := by
  induction L with
  | nil =>
    intro s s1 h _ _
    simp only [release_all, Option.some.injEq] at h
    subst h
    exact pass1_step_refl s
  | cons p L ih =>
    intro s s1 h hL hl
    simp only [release_all] at h
    cases hd : gc_pass1_obj s p with
    | none => simp [hd] at h
    | some s0 =>
      simp only [hd, Option.some_bind] at h
      have hp := hL p (List.mem_cons_self _ _)
      have h0 := gc_pass1_obj_step s p s0 hd hp (hl p hp)
      refine pass1_step_trans h0 (ih s0 s1 h (fun r hr => ?_) (links_listed_frame h0.1 hl))
      rw [h0.1.1]
      exact hL r (List.mem_cons_of_mem _ hr)

theorem gc_pass1_step (s s1 : Store) (h : gc_pass1 s = some s1) (hl : links_listed s) :
    pass1_step s s1 :=
  gc_pass1_list_step _ s s1 h (fun _ hp => hp) hl

theorem mark_frame_of_heap {s s1 : Store} (h1 : s1.heap = s.heap) (h2 : s1.ctx = s.ctx) :
    mark_frame s s1 :=
  ⟨h2, by rw [h1], fun p => by unfold Store.obj; rw [h1]⟩

theorem gc_push_links_same (E : List Nat) : ∀ (s : Store) (g : gc_ctx) (s1 : Store) (g1 : gc_ctx)
    (b : Bool), gc_push_links E s g = some (s1, g1, b) → s1.heap = s.heap ∧ s1.ctx = s.ctx := by
  induction E with
  | nil =>
    intro s g s1 g1 b h
    simp only [gc_push_links, Option.some.injEq, Prod.mk.injEq] at h
    rw [← h.1]; exact ⟨rfl, rfl⟩
  | cons q E ih =>
    intro s g s1 g1 b h
    simp only [gc_push_links] at h
    cases ho : s.obj q with
    | none => simp [ho] at h
    | some link =>
      simp only [ho] at h
      split at h
      · cases hp : gc_stack_push g s.avail (some q) with
        | none =>
          simp only [hp, Option.some.injEq, Prod.mk.injEq] at h
          rw [← h.1]; exact ⟨rfl, rfl⟩
        | some r =>
          obtain ⟨g2, a⟩ := r
          simp only [hp] at h
          exact ih { s with avail := a } _ _ _ _ h
      · exact ih _ _ _ _ _ h

theorem gc_traverse_loop_frame (fuel : Nat) : ∀ (s : Store) (g : gc_ctx) (q : Nat)
    (r : Store × gc_ctx × Bool), gc_traverse_loop fuel s g q = some r → mark_frame s r.1 := by
  induction fuel with
  | zero => intro s g q r h; simp [gc_traverse_loop] at h
  | succ fuel ih =>
    intro s g q r h
    simp only [gc_traverse_loop] at h
    cases ho : s.obj q with
    | none => simp [ho] at h
    | some o =>
      simp only [ho] at h
      have h1 : mark_frame s (s.set_obj q { o with gc_marked := false }) :=
        mark_frame_set_obj ho _ rfl
      cases hp : gc_push_links (obj_edges o) (s.set_obj q { o with gc_marked := false }) g with
      | none => simp [hp] at h
      | some t =>
        obtain ⟨s2, g2, b⟩ := t
        have h2 := gc_push_links_same _ _ _ _ _ _ hp
        have h12 := mark_frame_trans h1 (mark_frame_of_heap h2.1 h2.2)
        simp only [hp] at h
        cases b with
        | false =>
          simp only [Option.some.injEq] at h
          subst h; exact h12
        | true =>
          simp only at h
          split at h
          · cases h
          · cases hpm : gc_pop_marked s2 (gc_stack_size g2 + 1) g2 with
            | none => simp [hpm] at h
            | some u =>
              obtain ⟨g3, nx⟩ := u
              simp only [hpm] at h
              cases nx with
              | none =>
                simp only [Option.some.injEq] at h
                subst h; exact h12
              | some q2 => exact mark_frame_trans h12 (ih _ _ _ _ h)

theorem gc_pass2_frame (L : List Nat) : ∀ (s : Store) (g : gc_ctx) (r : Store × gc_ctx × Bool),
    gc_pass2 L s g = some r → mark_frame s r.1 := by
  induction L with
  | nil =>
    intro s g r h
    simp only [gc_pass2, Option.some.injEq] at h
    subst h; exact mark_frame_refl s
  | cons p L ih =>
    intro s g r h
    simp only [gc_pass2] at h
    cases ho : s.obj p with
    | none => simp [ho] at h
    | some o =>
      simp only [ho] at h
      split at h
      · exact ih _ _ _ h
      · cases hp : gc_stack_push g s.avail none with
        | none =>
          simp only [hp, Option.some.injEq] at h
          subst h; exact mark_frame_refl s
        | some t =>
          obtain ⟨g1, a⟩ := t
          simp only [hp] at h
          cases ht : gc_traverse_loop (s.heap.length + 1) { s with avail := a } g1 p with
          | none => simp [ht] at h
          | some u =>
            obtain ⟨s2, g2, b⟩ := u
            have h1 : mark_frame s { s with avail := a } := mark_frame_of_heap rfl rfl
            have h2 := mark_frame_trans h1 (gc_traverse_loop_frame _ _ _ _ _ ht)
            simp only [ht] at h
            cases b with
            | false =>
              simp only [Option.map_eq_some'] at h
              obtain ⟨g3, _, h3⟩ := h
              subst h3; exact h2
            | true => exact mark_frame_trans h2 (ih _ _ _ h)

theorem gc_save_refs_eq (s : Store) (L : List Nat) : ∀ (i a : Nat) (refs : List Int) (a1 : Nat),
    gc_save_refs s L i a = some (some (refs, a1)) → refs = L.map (ref_of s) := by
  induction L with
  | nil =>
    intro i a refs a1 h
    simp only [gc_save_refs, Option.some.injEq, Prod.mk.injEq] at h
    rw [← h.1]; rfl
  | cons p L ih =>
    intro i a refs a1 h
    simp only [gc_save_refs] at h
    cases ho : s.obj p with
    | none => simp [ho] at h
    | some o =>
      have hr : ref_of s p = o.ref := by unfold ref_of; rw [ho]; rfl
      simp only [ho] at h
      split at h
      · cases hm : malloc a with
        | none => simp [hm] at h
        | some a2 =>
          simp only [hm, Option.map_eq_some'] at h
          obtain ⟨x, hx, hx2⟩ := h
          obtain ⟨y, hy, hy2⟩ := hx2
          subst hy
          obtain ⟨r, a3⟩ := y
          simp only [Prod.mk.injEq] at hy2
          rw [← hy2.1, List.map_cons, hr, ← ih _ _ _ _ hx]
      · simp only [Option.map_eq_some'] at h
        obtain ⟨x, hx, hx2⟩ := h
        obtain ⟨y, hy, hy2⟩ := hx2
        subst hy
        obtain ⟨r, a3⟩ := y
        simp only [Prod.mk.injEq] at hy2
        rw [← hy2.1, List.map_cons, hr, ← ih _ _ _ _ hx]

theorem gc_restore_spec (f : Nat → Int) (L : List Nat) : ∀ (s s3 : Store),
    gc_restore L (L.map f) s = some s3 →
    s3.ctx = s.ctx ∧ s3.heap.length = s.heap.length ∧ (∀ p, p ∉ L → s3.obj p = s.obj p) ∧
    ∀ p ∈ L, ∃ o2, s.obj p = some o2 ∧ s3.obj p = some { o2 with ref := f p } := by
  induction L with
  | nil =>
    intro s s3 h
    simp only [List.map_nil, gc_restore, Option.some.injEq] at h
    subst h
    exact ⟨rfl, rfl, fun _ _ => rfl, fun p hp => absurd hp (List.not_mem_nil p)⟩
  | cons p0 L ih =>
    intro s s3 h
    simp only [List.map_cons, gc_restore] at h
    cases ho : s.obj p0 with
    | none => simp [ho] at h
    | some o0 =>
      simp only [ho] at h
      obtain ⟨hc, hlen, hun, hin⟩ := ih _ _ h
      have hself : (s.set_obj p0 { o0 with ref := f p0 }).obj p0 = some { o0 with ref := f p0 } :=
        obj_set_obj_self ho _
      refine ⟨hc, ?_, ?_, ?_⟩
      · rw [hlen]; simp [Store.set_obj]
      · intro p hp
        have h1 : p ≠ p0 := fun e => hp (e ▸ List.mem_cons_self _ _)
        have h2 : p ∉ L := fun e => hp (List.mem_cons_of_mem _ e)
        rw [hun p h2, obj_set_obj_ne s h1]
      · intro p hp
        by_cases hpL : p ∈ L
        · obtain ⟨o2, h1, h2⟩ := hin p hpL
          by_cases e : p = p0
          · subst e
            rw [hself] at h1
            cases h1
            exact ⟨o0, ho, h2⟩
          · rw [obj_set_obj_ne s e] at h1
            exact ⟨o2, h1, h2⟩
        · have e : p = p0 := by
            cases hp with
            | head => rfl
            | tail _ h' => exact absurd h' hpL
          subst e
          exact ⟨o0, ho, by rw [hun p hpL, hself]⟩

theorem mark_core_restore {a b : jsdisp_t} (h : gc_core a = gc_core b) :
    mark_core { a with ref := b.ref } = mark_core b := by
  cases a; cases b
  simp only [gc_core, mark_core, jsdisp_t.mk.injEq] at h ⊢
  simp only [h, and_self]

theorem gc_mark_phase_frame (s s1 : Store) (hres : HRESULT) (hl : links_listed s)
    (h : gc_mark_phase s = some (s1, hres)) : mark_frame s s1 := by
  unfold gc_mark_phase at h
  cases hm : malloc s.avail with
  | none =>
    simp only [hm, Option.some.injEq, Prod.mk.injEq] at h
    rw [← h.1]; exact mark_frame_refl s
  | some a0 =>
    simp only [hm] at h
    cases hs : gc_save_refs s s.ctx.objects 0 a0 with
    | none => simp [hs] at h
    | some x =>
      cases x with
      | none =>
        simp only [hs, Option.some.injEq, Prod.mk.injEq] at h
        rw [← h.1]; exact mark_frame_of_heap rfl rfl
      | some y =>
        obtain ⟨refs, a1⟩ := y
        simp only [hs] at h
        have hrefs := gc_save_refs_eq s _ _ _ _ _ hs
        have h0 : mark_frame s { s with avail := a1 } := mark_frame_of_heap rfl rfl
        cases h1 : gc_pass1 { s with avail := a1 } with
        | none => simp [h1] at h
        | some sA =>
          simp only [h1, Option.some_bind] at h
          have hA := gc_pass1_step _ sA h1 (links_listed_frame (gc_frame_of_mark_frame h0) hl)
          cases h2 : gc_pass2 sA.ctx.objects sA gc_ctx.init with
          | none => simp [h2] at h
          | some r =>
            simp only [h2, Option.some_bind, Option.map_eq_some', Prod.mk.injEq] at h
            obtain ⟨s3, h3, h4, _⟩ := h
            subst h4
            have hB := gc_pass2_frame _ _ _ _ h2
            have hctx : r.1.ctx.objects = s.ctx.objects := by rw [hB.1, hA.1.1]
            rw [hctx, hrefs] at h3
            obtain ⟨hc, hlen, hun, hin⟩ := gc_restore_spec _ _ _ _ h3
            have hfr : gc_frame s r.1 :=
              gc_frame_trans (gc_frame_of_mark_frame h0)
                (gc_frame_trans hA.1 (gc_frame_of_mark_frame hB))
            refine ⟨by rw [hc, hB.1, hA.1.1], by rw [hlen, hB.2.1, hA.1.2.1], fun p => ?_⟩
            by_cases hp : p ∈ s.ctx.objects
            · obtain ⟨o2, ho2, ho3⟩ := hin p hp
              obtain ⟨o, ho, hco⟩ := map_some_of_eq (hfr.2.2 p).symm ho2
              have hr : ref_of s p = o.ref := by unfold ref_of; rw [ho]; rfl
              rw [ho3, ho, hr]
              exact congrArg some (mark_core_restore hco.symm)
            · rw [hun p hp, hB.2.2 p, hA.2 p hp]
              rfl

theorem mark_frame_obj {s s1 : Store} (h : mark_frame s s1) (p : Nat) (o : jsdisp_t)
    (ho : s.obj p = some o) : ∃ m, s1.obj p = some { o with gc_marked := m } := by
  obtain ⟨o1, h1, h2⟩ := map_some_of_eq (h.2.2 p) ho
  refine ⟨o1.gc_marked, ?_⟩
  rw [h1]
  cases o1; cases o
  simp only [mark_core, jsdisp_t.mk.injEq] at h2
  simp only [Option.some.injEq, jsdisp_t.mk.injEq, h2, and_self]

/-- C7. Speculative decrements are never permanent.  In a context where every
object of the context that a listed object links to is itself listed, let a
call of `gc_run` that is not re-entrant return.  Then its part up to the
restore loop returned a store `s1` in which every object is the object it was
at entry up to its collectible mark, so with the reference count it had at
entry; when that part failed (no chunk for the saved counts, no chunk for the
traversal stack) `gc_run` returns `s1` and the failure, and otherwise pass 3
starts from `s1`.  So after a failed `gc_run` every object has the reference
count, slots and prototype it had at entry. -/
theorem speculative_decrements_restored (s s2 : Store) (hres : HRESULT) (hl : links_listed s)
    (hflag : s.ctx.gc_is_unlinking = false) (h : gc_run s = some (s2, hres)) :
    ∃ s1 hres1, gc_mark_phase s = some (s1, hres1) ∧
      (∀ p o, s.obj p = some o → ∃ m, s1.obj p = some { o with gc_marked := m }) ∧
      (FAILED hres1 = true → s2 = s1 ∧ hres = hres1) ∧
      (FAILED hres1 = false →
        ∃ s3, gc_pass3 (s1.ctx.objects.length + 1) (set_gc_is_unlinking s1 true)
            s1.ctx.objects.head? = some s3 ∧
          s2 = set_gc_is_unlinking s3 false ∧ hres = HRESULT.S_OK) ∧
      (FAILED hres = true →
        ∀ p o, s.obj p = some o → ∃ m, s2.obj p = some { o with gc_marked := m }) := by
  unfold gc_run at h
  rw [hflag] at h
  simp only [Bool.false_eq_true, if_false] at h
  split at h
  · cases h
  · cases hm : gc_mark_phase s with
    | none => simp [hm] at h
    | some r =>
      obtain ⟨s1, hres1⟩ := r
      have hfr := gc_mark_phase_frame s s1 hres1 hl hm
      simp only [hm] at h
      refine ⟨s1, hres1, rfl, mark_frame_obj hfr, ?_⟩
      cases hf : FAILED hres1 with
      | true =>
        simp only [hf, if_true, Option.some.injEq, Prod.mk.injEq] at h
        refine ⟨fun _ => ⟨h.1.symm, h.2.symm⟩, (fun hc => Bool.noConfusion hc), fun _ => ?_⟩
        rw [← h.1]; exact mark_frame_obj hfr
      | false =>
        simp only [hf, Bool.false_eq_true, if_false, Option.map_eq_some', Prod.mk.injEq] at h
        obtain ⟨s3, h3, h4, h5⟩ := h
        refine ⟨(fun hc => Bool.noConfusion hc), fun _ => ⟨s3, h3, h4.symm, h5.symm⟩, fun hc => ?_⟩
        rw [← h5] at hc
        cases hc

theorem speculative_decrements_restored_witness :
    links_listed store_holder_low ∧ store_holder_low.ctx.gc_is_unlinking = false ∧
    gc_run store_holder_low = some (store_holder_failed, HRESULT.E_OUTOFMEMORY) ∧
    ∃ s1 hres1, gc_mark_phase store_holder_low = some (s1, hres1) ∧
      (∀ p o, store_holder_low.obj p = some o → ∃ m, s1.obj p = some { o with gc_marked := m }) ∧
      (FAILED hres1 = true → store_holder_failed = s1 ∧ HRESULT.E_OUTOFMEMORY = hres1) ∧
      (FAILED hres1 = false →
        ∃ s3, gc_pass3 (s1.ctx.objects.length + 1) (set_gc_is_unlinking s1 true)
            s1.ctx.objects.head? = some s3 ∧
          store_holder_failed = set_gc_is_unlinking s3 false ∧
          HRESULT.E_OUTOFMEMORY = HRESULT.S_OK) ∧
      (FAILED HRESULT.E_OUTOFMEMORY = true →
        ∀ p o, store_holder_low.obj p = some o →
          ∃ m, store_holder_failed.obj p = some { o with gc_marked := m }) :=
  ⟨by decide, by rfl, by rfl,
    speculative_decrements_restored store_holder_low store_holder_failed HRESULT.E_OUTOFMEMORY
      (by decide) (by rfl) (by rfl)⟩

/-- C8. Re-entrant collection is a no-op.  With `gc_is_unlinking` set,
`gc_run` returns `S_OK` and the store it was given, so every reference count,
mark, slot, prototype link and the flag itself as they were; and a `gc_run`
that starts with the flag clear and returns after pass 3, that is without a
failure, returns with the flag clear. -/
theorem reentrant_collection_noop (s : Store) :
    (s.ctx.gc_is_unlinking = true → gc_run s = some (s, HRESULT.S_OK)) ∧
    (∀ s2 hres, s.ctx.gc_is_unlinking = false → gc_run s = some (s2, hres) →
      FAILED hres = false → s2.ctx.gc_is_unlinking = false) := by
  refine ⟨fun hf => ?_, fun s2 hres hf h hok => ?_⟩
  · unfold gc_run
    rw [hf]
    rfl
  · unfold gc_run at h
    rw [hf] at h
    simp only [Bool.false_eq_true, if_false] at h
    split at h
    · cases h
    · cases hm : gc_mark_phase s with
      | none => simp [hm] at h
      | some r =>
        obtain ⟨s1, hres1⟩ := r
        simp only [hm] at h
        split at h
        · next hc =>
          simp only [Option.some.injEq, Prod.mk.injEq] at h
          rw [h.2, hok] at hc
          cases hc
        · simp only [Option.map_eq_some', Prod.mk.injEq] at h
          obtain ⟨s3, _, h4, _⟩ := h
          rw [← h4]
          rfl

theorem reentrant_collection_noop_witness :
    ((set_gc_is_unlinking store_cycle true).ctx.gc_is_unlinking = true ∧
      gc_run (set_gc_is_unlinking store_cycle true) =
        some (set_gc_is_unlinking store_cycle true, HRESULT.S_OK)) ∧
    (store_cycle.ctx.gc_is_unlinking = false ∧
      gc_run store_cycle = some (store_cycle_collected, HRESULT.S_OK) ∧
      store_cycle_collected.ctx.gc_is_unlinking = false) :=
  ⟨⟨by rfl, (reentrant_collection_noop (set_gc_is_unlinking store_cycle true)).1 (by rfl)⟩,
    by rfl, by rfl,
    (reentrant_collection_noop store_cycle).2 store_cycle_collected HRESULT.S_OK (by rfl)
      (by rfl) (by rfl)⟩

/-! ### Counting links -/

theorem range_sum_congr (n : Nat) (f g : Nat → Nat) (h : ∀ x, x < n → f x = g x) :
    ((List.range n).map f).sum = ((List.range n).map g).sum := by
  induction n with
  | zero => rfl
  | succ n ih =>
    rw [List.sum_range_succ, List.sum_range_succ, ih (fun x hx => h x (Nat.lt_succ_of_lt hx)),
      h n (Nat.lt_succ_self n)]

theorem range_sum_split (n : Nat) (f g : Nat → Nat) (q c : Nat) (hq : q < n)
    (hfq : f q = g q + c) (h : ∀ x, x < n → x ≠ q → f x = g x) :
    ((List.range n).map f).sum = ((List.range n).map g).sum + c := by
  induction n with
  | zero => exact absurd hq (Nat.not_lt_zero q)
  | succ n ih =>
    rw [List.sum_range_succ, List.sum_range_succ]
    by_cases e : q = n
    · subst e
      rw [range_sum_congr q f g (fun x hx => h x (Nat.lt_succ_of_lt hx) (Nat.ne_of_lt hx)), hfq]
      omega
    · have hq' : q < n := by omega
      rw [ih hq' (fun x hx hne => h x (Nat.lt_succ_of_lt hx) hne),
        h n (Nat.lt_succ_self n) (fun e2 => e e2.symm)]
      omega

theorem range_sum_term_le (n : Nat) (f : Nat → Nat) (q : Nat) (hq : q < n) :
    f q ≤ ((List.range n).map f).sum := by
  induction n with
  | zero => exact absurd hq (Nat.not_lt_zero q)
  | succ n ih =>
    rw [List.sum_range_succ]
    by_cases e : q = n
    · subst e; omega
    · have := ih (by omega); omega

theorem edges_of_none {s : Store} {q : Nat} (h : s.obj q = none) : edges_of s q = [] := by
  unfold edges_of; rw [h]; rfl

theorem edges_of_some {s : Store} {q : Nat} {o : jsdisp_t} (h : s.obj q = some o) :
    edges_of s q = obj_edges o := by
  unfold edges_of; rw [h]; rfl

theorem indeg_congr {s s1 : Store} (hlen : s1.heap.length = s.heap.length)
    (he : ∀ x, edges_of s1 x = edges_of s x) (Z : List Nat) (p : Nat) :
    indeg s1 Z p = indeg s Z p := by
  unfold indeg
  rw [hlen]
  exact range_sum_congr _ _ _ (fun x _ => by rw [he x])

theorem indeg_move {s : Store} {q : Nat} {Z : List Nat} (hq : q < s.heap.length) (hZ : q ∉ Z)
    (p : Nat) : indeg s Z p = indeg s (q :: Z) p + (edges_of s q).count p := by
  unfold indeg
  refine range_sum_split _ _ _ q _ hq ?_ ?_
  · simp [hZ]
  · intro x _ hne
    simp [hne]

theorem indeg_free (s : Store) (q : Nat) (Z : List Nat) (p : Nat) :
    indeg (s.free_obj q) Z p = indeg s (q :: Z) p := by
  unfold indeg
  have hlen : (s.free_obj q).heap.length = s.heap.length := by simp [Store.free_obj]
  rw [hlen]
  refine range_sum_congr _ _ _ (fun x _ => ?_)
  by_cases e : x = q
  · subst e
    have : edges_of (s.free_obj x) x = [] := edges_of_none (by rw [obj_free_obj]; simp)
    simp [this]
  · have : edges_of (s.free_obj q) x = edges_of s x := by
      unfold edges_of; rw [obj_free_obj, if_neg e]
    simp [e, this]

theorem indeg_term_le {s : Store} {u : Nat} {Z : List Nat} (hu : u < s.heap.length) (hZ : u ∉ Z)
    (p : Nat) : (edges_of s u).count p ≤ indeg s Z p := by
  have := range_sum_term_le s.heap.length
    (fun q => if q ∈ Z then 0 else (edges_of s q).count p) u hu
  simpa [hZ, indeg] using this

theorem edges_of_lt {s : Store} {u p : Nat} (h : p ∈ edges_of s u) : u < s.heap.length := by
  cases ho : s.obj u with
  | none => rw [edges_of_none ho] at h; cases h
  | some o => exact obj_lt ho

theorem edges_of_set_obj {s : Store} {q : Nat} {o : jsdisp_t} (ho : s.obj q = some o)
    (o1 : jsdisp_t) (he : obj_edges o1 = obj_edges o) (x : Nat) :
    edges_of (s.set_obj q o1) x = edges_of s x := by
  unfold edges_of
  rw [obj_set_obj]
  split
  · next hc => rw [hc.1, ho]; exact he
  · rfl

/-! ### The cascade of releases keeps the accounts -/

theorem count_cons_ne {p q : Nat} (h : p ≠ q) (H : List Nat) : (q :: H).count p = H.count p := by
  rw [List.count_cons]
  have : (q == p) = false := by simpa using (fun e : q = p => h e.symm)
  simp [this]


theorem cascade_acc_target {ext : Nat → Nat} {V : Nat → Prop} {s : Store} {q : Nat}
    {H Z : List Nat} {o : jsdisp_t} (h : cascade_inv ext V s (q :: H) Z)
    (ho : s.obj q = some o) :
    o.ref - 1 = ((ext q + indeg s Z q + H.count q : Nat) : Int) := by
  have := h.acc q o ho
  rw [List.count_cons_self] at this
  rw [this]; push_cast; ring

theorem set_ref_facts {s : Store} {q : Nat} {o : jsdisp_t} (ho : s.obj q = some o) (r : Int) :
    (s.set_obj q { o with ref := r }).heap.length = s.heap.length ∧
    (∀ x, edges_of (s.set_obj q { o with ref := r }) x = edges_of s x) ∧
    (∀ Z p, indeg (s.set_obj q { o with ref := r }) Z p = indeg s Z p) := by
  have hlen : (s.set_obj q { o with ref := r }).heap.length = s.heap.length := by
    simp [Store.set_obj]
  have he := edges_of_set_obj ho { o with ref := r } rfl
  exact ⟨hlen, he, fun Z p => indeg_congr hlen he Z p⟩

theorem cascade_dec {ext : Nat → Nat} {V : Nat → Prop} {s : Store} {q : Nat} {H Z : List Nat}
    {o : jsdisp_t} (h : cascade_inv ext V s (q :: H) Z) (ho : s.obj q = some o)
    (hne : o.proxy = none → o.ref - 1 ≠ 0) :
    cascade_inv ext V (s.set_obj q { o with ref := o.ref - 1 }) H Z := by
  obtain ⟨_, he, hi⟩ := set_ref_facts ho (o.ref - 1)
  have hq := cascade_acc_target h ho
  have hself := obj_set_obj_self ho { o with ref := o.ref - 1 }
  refine ⟨?_, ?_, ?_, h.nodup, ?_, ?_, ?_⟩
  · intro p o1 hp
    rw [hi]
    by_cases e : p = q
    · subst e
      rw [hself] at hp; cases hp
      exact hq
    · rw [obj_set_obj_ne s e] at hp
      have := h.acc p o1 hp
      rwa [count_cons_ne e] at this
  · intro z hz
    obtain ⟨oz, hoz, hz2⟩ := h.zomb z hz
    by_cases e : z = q
    · subst e
      rw [ho] at hoz; cases hoz
      refine ⟨_, hself, ?_⟩
      rcases hz2 with h0 | h1
      · exfalso; rw [h0] at hq; omega
      · exact Or.inr h1
    · exact ⟨oz, by rw [obj_set_obj_ne s e]; exact hoz, hz2⟩
  · intro v hv
    obtain ⟨hvZ, ov, hov, hsup⟩ := h.prot v hv
    refine ⟨hvZ, ?_⟩
    by_cases e : v = q
    · subst e
      rw [ho] at hov; cases hov
      refine ⟨_, hself, ?_⟩
      rcases hsup with a | a | ⟨u, hu, hmem⟩
      · exact Or.inl a
      · exact Or.inr (Or.inl a)
      · exact Or.inr (Or.inr ⟨u, hu, by rw [he]; exact hmem⟩)
    · refine ⟨ov, by rw [obj_set_obj_ne s e]; exact hov, ?_⟩
      rcases hsup with a | a | ⟨u, hu, hmem⟩
      · exact Or.inl a
      · exact Or.inr (Or.inl a)
      · exact Or.inr (Or.inr ⟨u, hu, by rw [he]; exact hmem⟩)
  · intro x hx
    have := h.listed x hx
    rw [obj_set_obj]
    split
    · rfl
    · exact this
  · intro x ox hx hxZ
    by_cases e : x = q
    · subst e
      rw [hself] at hx; cases hx
      rcases h.home x o ho hxZ with a | ⟨_, a⟩
      · exact Or.inl a
      · exfalso; rw [a] at hq; omega
    · rw [obj_set_obj_ne s e] at hx
      exact h.home x ox hx hxZ
  · intro x ox hx hxZ hpx
    by_cases e : x = q
    · subst e
      rw [hself] at hx; cases hx
      have := hne hpx
      show 1 ≤ o.ref - 1
      omega
    · rw [obj_set_obj_ne s e] at hx
      exact h.pos x ox hx hxZ hpx

theorem obj_list_remove_eq (s : Store) (q x : Nat) : (s.list_remove q).obj x = s.obj x := rfl

theorem indeg_list_remove (s : Store) (q : Nat) (Z : List Nat) (p : Nat) :
    indeg (s.list_remove q) Z p = indeg s Z p := rfl

theorem edges_of_list_remove (s : Store) (q x : Nat) :
    edges_of (s.list_remove q) x = edges_of s x := rfl

theorem cascade_delist {ext : Nat → Nat} {V : Nat → Prop} {s : Store} {q : Nat} {H Z : List Nat}
    {o : jsdisp_t} (h : cascade_inv ext V s H Z) (ho : s.obj q = some o)
    (hpx : o.proxy.isSome = true) (href : o.ref = 0) :
    cascade_inv ext V (s.list_remove q) H Z := by
  refine ⟨h.acc, h.zomb, h.prot, h.nodup.erase q, ?_, ?_, h.pos⟩
  · intro x hx
    exact h.listed x (List.mem_of_mem_erase hx)
  · intro x ox hx hxZ
    by_cases e : x = q
    · subst e
      rw [obj_list_remove_eq, ho] at hx; cases hx
      exact Or.inr ⟨hpx, href⟩
    · rcases h.home x ox hx hxZ with a | a
      · exact Or.inl ((List.mem_erase_of_ne e).mpr a)
      · exact Or.inr a

theorem cascade_zombie {ext : Nat → Nat} {V : Nat → Prop} {s : Store} {q : Nat} {H Z : List Nat}
    {o : jsdisp_t} (h : cascade_inv ext V s (q :: H) Z) (ho : s.obj q = some o)
    (href : o.ref - 1 = 0) (hpx : o.proxy = none) :
    q ∉ Z ∧ ¬ V q ∧
    cascade_inv ext V ((s.set_obj q { o with ref := o.ref - 1 }).list_remove q)
      (obj_edges o ++ H) (q :: Z) := by
  obtain ⟨hlen, he, hi⟩ := set_ref_facts ho (o.ref - 1)
  have hq := cascade_acc_target h ho
  have hself := obj_set_obj_self ho { o with ref := o.ref - 1 }
  have hqlt := obj_lt ho
  rw [href] at hq
  have hext : ext q = 0 := by omega
  have hin : indeg s Z q = 0 := by omega
  have hcnt : H.count q = 0 := by omega
  have hqZ : q ∉ Z := by
    intro hz
    obtain ⟨oz, hoz, hz2⟩ := h.zomb q hz
    rw [ho] at hoz; cases hoz
    rcases hz2 with a | a
    · omega
    · omega
  have hqV : ¬ V q := by
    intro hv
    obtain ⟨_, ov, hov, hsup⟩ := h.prot q hv
    rw [ho] at hov; cases hov
    rcases hsup with a | a | ⟨u, hu, hmem⟩
    · rw [hpx] at a; cases a
    · omega
    · have huZ := (h.prot u hu).1
      have := indeg_term_le (edges_of_lt hmem) huZ q
      have := List.count_pos_iff.mpr hmem
      omega
  have hmove : ∀ p, indeg s Z p = indeg s (q :: Z) p + (obj_edges o).count p := by
    intro p
    rw [indeg_move hqlt hqZ p, edges_of_some ho]
  refine ⟨hqZ, hqV, ?_, ?_, ?_, h.nodup.erase q, ?_, ?_, ?_⟩
  · intro p o1 hp
    rw [obj_list_remove_eq] at hp
    rw [indeg_list_remove, hi, List.count_append]
    by_cases e : p = q
    · subst e
      rw [hself] at hp; cases hp
      show o.ref - 1 = _
      have := hmove p
      rw [href]
      have h1 : indeg s (p :: Z) p = 0 := by omega
      have h2 : (obj_edges o).count p = 0 := by omega
      rw [hext, h1, h2, hcnt]
      rfl
    · rw [obj_set_obj_ne s e] at hp
      have := h.acc p o1 hp
      rw [count_cons_ne e, hmove p] at this
      rw [this]; push_cast; ring
  · intro z hz
    rcases List.mem_cons.mp hz with e | hz'
    · subst e
      exact ⟨_, hself, Or.inl href⟩
    · obtain ⟨oz, hoz, hz2⟩ := h.zomb z hz'
      have e : z ≠ q := fun e => hqZ (e ▸ hz')
      exact ⟨oz, by rw [obj_list_remove_eq, obj_set_obj_ne s e]; exact hoz, hz2⟩
  · intro v hv
    obtain ⟨hvZ, ov, hov, hsup⟩ := h.prot v hv
    have e : v ≠ q := fun e => hqV (e ▸ hv)
    refine ⟨fun hm => ?_, ov, by rw [obj_list_remove_eq, obj_set_obj_ne s e]; exact hov, ?_⟩
    · rcases List.mem_cons.mp hm with a | a
      · exact e a
      · exact hvZ a
    · rcases hsup with a | a | ⟨u, hu, hmem⟩
      · exact Or.inl a
      · exact Or.inr (Or.inl a)
      · exact Or.inr (Or.inr ⟨u, hu, by rw [edges_of_list_remove, he]; exact hmem⟩)
  · intro x hx
    have := h.listed x (List.mem_of_mem_erase hx)
    rw [obj_list_remove_eq, obj_set_obj]
    split
    · rfl
    · exact this
  · intro x ox hx hxZ
    have e : x ≠ q := fun e => hxZ (e ▸ List.mem_cons_self _ _)
    have hxZ' : x ∉ Z := fun a => hxZ (List.mem_cons_of_mem _ a)
    rw [obj_list_remove_eq, obj_set_obj_ne s e] at hx
    rcases h.home x ox hx hxZ' with a | a
    · exact Or.inl ((List.mem_erase_of_ne e).mpr a)
    · exact Or.inr a
  · intro x ox hx hxZ hp
    have e : x ≠ q := fun e => hxZ (e ▸ List.mem_cons_self _ _)
    have hxZ' : x ∉ Z := fun a => hxZ (List.mem_cons_of_mem _ a)
    rw [obj_list_remove_eq, obj_set_obj_ne s e] at hx
    exact h.pos x ox hx hxZ' hp

theorem cascade_free {ext : Nat → Nat} {V : Nat → Prop} {s : Store} {q : Nat} {H Z : List Nat}
    (h : cascade_inv ext V s H (q :: Z)) (hqZ : q ∉ Z) (hqL : q ∉ s.ctx.objects) :
    cascade_inv ext V (s.free_obj q) H Z := by
  have hobj : ∀ x, x ≠ q → (s.free_obj q).obj x = s.obj x := by
    intro x e; rw [obj_free_obj, if_neg e]
  have hne : ∀ x o, (s.free_obj q).obj x = some o → x ≠ q := by
    intro x o hx e
    rw [e, obj_free_obj, if_pos rfl] at hx; cases hx
  have hedge : ∀ x, x ≠ q → edges_of (s.free_obj q) x = edges_of s x := by
    intro x e; unfold edges_of; rw [hobj x e]
  refine ⟨?_, ?_, ?_, h.nodup, ?_, ?_, ?_⟩
  · intro p o hp
    have e := hne p o hp
    rw [hobj p e] at hp
    rw [indeg_free]
    exact h.acc p o hp
  · intro z hz
    have e : z ≠ q := fun e => hqZ (e ▸ hz)
    obtain ⟨oz, hoz, hz2⟩ := h.zomb z (List.mem_cons_of_mem _ hz)
    exact ⟨oz, by rw [hobj z e]; exact hoz, hz2⟩
  · intro v hv
    obtain ⟨hvZ, ov, hov, hsup⟩ := h.prot v hv
    have e : v ≠ q := fun e => hvZ (e ▸ List.mem_cons_self _ _)
    refine ⟨fun a => hvZ (List.mem_cons_of_mem _ a), ov, by rw [hobj v e]; exact hov, ?_⟩
    rcases hsup with a | a | ⟨u, hu, hmem⟩
    · exact Or.inl a
    · exact Or.inr (Or.inl a)
    · have eu : u ≠ q := fun e => (h.prot u hu).1 (e ▸ List.mem_cons_self _ _)
      exact Or.inr (Or.inr ⟨u, hu, by rw [hedge u eu]; exact hmem⟩)
  · intro x hx
    have e : x ≠ q := fun e => hqL (e ▸ hx)
    rw [hobj x e]
    exact h.listed x hx
  · intro x ox hx hxZ
    have e := hne x ox hx
    rw [hobj x e] at hx
    exact h.home x ox hx (fun a => by
      rcases List.mem_cons.mp a with b | b
      · exact e b
      · exact hxZ b)
  · intro x ox hx hxZ hp
    have e := hne x ox hx
    rw [hobj x e] at hx
    exact h.pos x ox hx (fun a => by
      rcases List.mem_cons.mp a with b | b
      · exact e b
      · exact hxZ b) hp

theorem list_shrinks_refl (ext : Nat → Nat) (s : Store) : list_shrinks ext s s :=
  ⟨List.Sublist.refl _, fun _ hx _ => hx⟩

theorem list_shrinks_trans {ext : Nat → Nat} {a b c : Store} (h1 : list_shrinks ext a b)
    (h2 : list_shrinks ext b c) : list_shrinks ext a c :=
  ⟨h2.1.trans h1.1, fun x hx he => h2.2 x (h1.2 x hx he) he⟩

theorem list_shrinks_erase {ext : Nat → Nat} {s s1 : Store} {q : Nat}
    (hl : s1.ctx.objects = s.ctx.objects.erase q) (hq : ext q = 0) : list_shrinks ext s s1 := by
  refine ⟨by rw [hl]; exact List.erase_sublist _ _, fun x hx he => ?_⟩
  rw [hl]
  exact (List.mem_erase_of_ne (fun e => by rw [e, hq] at he; omega)).mpr hx

theorem list_shrinks_same {ext : Nat → Nat} {s s1 : Store}
    (hl : s1.ctx.objects = s.ctx.objects) : list_shrinks ext s s1 := by
  refine ⟨by rw [hl], fun x hx _ => by rw [hl]; exact hx⟩

theorem release_all_cascade (ext : Nat → Nat) (V : Nat → Prop) (rel : Store → Nat → Option Store)
    (hrel : ∀ s q s1 H Z, cascade_inv ext V s (q :: H) Z → rel s q = some s1 →
      cascade_inv ext V s1 H Z ∧ list_shrinks ext s s1) :
    ∀ (E : List Nat) (s s1 : Store) (H Z : List Nat), cascade_inv ext V s (E ++ H) Z →
      release_all rel E s = some s1 →
      cascade_inv ext V s1 H Z ∧ list_shrinks ext s s1 := by
  intro E
  induction E with
  | nil =>
    intro s s1 H Z h hr
    simp only [release_all, Option.some.injEq] at hr
    subst hr
    exact ⟨h, list_shrinks_refl ext s⟩
  | cons q E ih =>
    intro s s1 H Z h hr
    simp only [release_all] at hr
    cases hq : rel s q with
    | none => simp [hq] at hr
    | some s0 =>
      simp only [hq, Option.some_bind] at hr
      obtain ⟨h0, hs0⟩ := hrel s q s0 (E ++ H) Z h hq
      obtain ⟨h1, hs1⟩ := ih s0 s1 H Z h0 hr
      exact ⟨h1, list_shrinks_trans hs0 hs1⟩

theorem jsdisp_release_fuel_cascade (ext : Nat → Nat) (V : Nat → Prop) :
    ∀ (fuel : Nat) (s : Store) (q : Nat) (s1 : Store) (H Z : List Nat),
      cascade_inv ext V s (q :: H) Z → jsdisp_release_fuel fuel s q = some s1 →
      cascade_inv ext V s1 H Z ∧ list_shrinks ext s s1 := by
  intro fuel
  induction fuel with
  | zero => intro s q s1 H Z _ hr; simp [jsdisp_release_fuel] at hr
  | succ fuel ih =>
    intro s q s1 H Z h hr
    simp only [jsdisp_release_fuel] at hr
    cases ho : s.obj q with
    | none => simp [ho] at hr
    | some o =>
      simp only [ho] at hr
      have hself := obj_set_obj_self ho { o with ref := o.ref - 1 }
      by_cases href : o.ref - 1 = 0
      · rw [if_pos href] at hr
        have hq := cascade_acc_target h ho
        rw [href] at hq
        have hext : ext q = 0 := by omega
        unfold jsdisp_free at hr
        simp only [hself] at hr
        by_cases hpx : o.proxy.isSome = true
        · simp only [hpx, if_true, Option.some.injEq] at hr
          subst hr
          have hd := cascade_dec h ho (fun hn => by rw [hn] at hpx; cases hpx)
          exact ⟨cascade_delist hd hself hpx href, list_shrinks_erase rfl hext⟩
        · have hpn : o.proxy = none := by
            cases hp : o.proxy with
            | none => rfl
            | some x => rw [hp] at hpx; exact absurd rfl hpx
          simp only [hpx, Bool.false_eq_true, if_false] at hr
          split at hr
          · cases hr
          · obtain ⟨hqZ, _, hz⟩ := cascade_zombie h ho href hpn
            have hedges : obj_edges o =
                (live_props o).flatMap slot_edges ++ o.prototype.toList := rfl
            rw [hedges, List.append_assoc] at hz
            obtain ⟨s3, hr1, hr⟩ := Option.bind_eq_some.mp hr
            obtain ⟨s4, hr2, hr⟩ := Option.bind_eq_some.mp hr
            simp only [Option.some.injEq] at hr
            subst hr
            have hr1 : release_all (jsdisp_release_fuel fuel)
                ((live_props o).flatMap slot_edges)
                ((s.set_obj q { o with ref := o.ref - 1 }).list_remove q) = some s3 := hr1
            have hr2 : (match o.prototype with
                | none => some s3
                | some t => jsdisp_release_fuel fuel s3 t) = some s4 := hr2
            obtain ⟨h3, hs3⟩ := release_all_cascade ext V _ ih _ _ _ _ _ hz hr1
            have hs2 : list_shrinks ext s
                ((s.set_obj q { o with ref := o.ref - 1 }).list_remove q) :=
              list_shrinks_erase rfl hext
            have hfin : ∀ s5, cascade_inv ext V s5 H (q :: Z) →
                list_shrinks ext ((s.set_obj q { o with ref := o.ref - 1 }).list_remove q) s5 →
                cascade_inv ext V (s5.free_obj q) H Z ∧ list_shrinks ext s (s5.free_obj q) := by
              intro s5 h5 hs5
              have hq5 : q ∉ s5.ctx.objects := by
                intro hm
                have hm2 : q ∈ s.ctx.objects.erase q := hs5.1.subset hm
                exact ((List.Nodup.mem_erase_iff h.nodup).mp hm2).1 rfl
              exact ⟨cascade_free h5 hqZ hq5, list_shrinks_trans hs2 hs5⟩
            cases hpr : o.prototype with
            | none =>
              simp only [hpr, Option.some.injEq] at hr2
              subst hr2
              rw [hpr] at h3
              exact hfin s3 h3 hs3
            | some t =>
              simp only [hpr] at hr2
              rw [hpr] at h3
              obtain ⟨h4, hs4⟩ := ih s3 t s4 H (q :: Z) h3 hr2
              exact hfin s4 h4 (list_shrinks_trans hs3 hs4)
      · rw [if_neg href] at hr
        simp only [Option.some.injEq] at hr
        subst hr
        exact ⟨cascade_dec h ho (fun _ => href), list_shrinks_same rfl⟩

theorem jsdisp_release_cascade {ext : Nat → Nat} {V : Nat → Prop} {s : Store} {q : Nat}
    {s1 : Store} {H Z : List Nat} (h : cascade_inv ext V s (q :: H) Z)
    (hr : jsdisp_release s q = some s1) :
    cascade_inv ext V s1 H Z ∧ list_shrinks ext s s1 :=
  jsdisp_release_fuel_cascade ext V _ s q s1 H Z h hr

/-! ### Unlinking keeps the accounts -/

theorem indeg_zombie_update {s : Store} {p : Nat} {Z : List Nat} (hp : p ∈ Z) (o1 : jsdisp_t)
    (x : Nat) : indeg (s.set_obj p o1) Z x = indeg s Z x := by
  unfold indeg
  have hlen : (s.set_obj p o1).heap.length = s.heap.length := by simp [Store.set_obj]
  rw [hlen]
  refine range_sum_congr _ _ _ (fun q _ => ?_)
  by_cases e : q = p
  · subst e; simp [hp]
  · have : edges_of (s.set_obj p o1) q = edges_of s q := by
      unfold edges_of; rw [obj_set_obj_ne s e]
    rw [this]

theorem cascade_zombie_update {ext : Nat → Nat} {V : Nat → Prop} {s : Store} {p : Nat}
    {H Z : List Nat} {o : jsdisp_t} (h : cascade_inv ext V s H Z) (hp : p ∈ Z)
    (ho : s.obj p = some o) (o1 : jsdisp_t) (href : o1.ref = o.ref) :
    cascade_inv ext V (s.set_obj p o1) H Z := by
  have hself := obj_set_obj_self ho o1
  have hedge : ∀ u, u ∉ Z → edges_of (s.set_obj p o1) u = edges_of s u := by
    intro u hu
    have e : u ≠ p := fun e => hu (e ▸ hp)
    unfold edges_of; rw [obj_set_obj_ne s e]
  refine ⟨?_, ?_, ?_, h.nodup, ?_, ?_, ?_⟩
  · intro x ox hx
    rw [indeg_zombie_update hp]
    by_cases e : x = p
    · subst e
      rw [hself] at hx; cases hx
      rw [href]; exact h.acc x o ho
    · rw [obj_set_obj_ne s e] at hx
      exact h.acc x ox hx
  · intro z hz
    obtain ⟨oz, hoz, hz2⟩ := h.zomb z hz
    by_cases e : z = p
    · subst e
      rw [ho] at hoz; cases hoz
      exact ⟨o1, hself, by rw [href]; exact hz2⟩
    · exact ⟨oz, by rw [obj_set_obj_ne s e]; exact hoz, hz2⟩
  · intro v hv
    obtain ⟨hvZ, ov, hov, hsup⟩ := h.prot v hv
    have e : v ≠ p := fun e => hvZ (e ▸ hp)
    refine ⟨hvZ, ov, by rw [obj_set_obj_ne s e]; exact hov, ?_⟩
    rcases hsup with a | a | ⟨u, hu, hmem⟩
    · exact Or.inl a
    · exact Or.inr (Or.inl a)
    · exact Or.inr (Or.inr ⟨u, hu, by rw [hedge u (h.prot u hu).1]; exact hmem⟩)
  · intro x hx
    rw [obj_set_obj]
    split
    · rfl
    · exact h.listed x hx
  · intro x ox hx hxZ
    have e : x ≠ p := fun e => hxZ (e ▸ hp)
    rw [obj_set_obj_ne s e] at hx
    exact h.home x ox hx hxZ
  · intro x ox hx hxZ hpx
    have e : x ≠ p := fun e => hxZ (e ▸ hp)
    rw [obj_set_obj_ne s e] at hx
    exact h.pos x ox hx hxZ hpx

theorem cascade_enter {ext : Nat → Nat} {V : Nat → Prop} {s : Store} {p : Nat}
    {H Z : List Nat} {o : jsdisp_t} (h : cascade_inv ext V s H Z) (ho : s.obj p = some o)
    (hpZ : p ∉ Z) (hpV : ¬ V p) (hext : 1 ≤ ext p) :
    cascade_inv ext V s (obj_edges o ++ H) (p :: Z) := by
  have hmove : ∀ x, indeg s Z x = indeg s (p :: Z) x + (obj_edges o).count x := by
    intro x
    rw [indeg_move (obj_lt ho) hpZ x, edges_of_some ho]
  refine ⟨?_, ?_, ?_, h.nodup, h.listed, ?_, ?_⟩
  · intro x ox hx
    have := h.acc x ox hx
    rw [hmove x] at this
    rw [this, List.count_append]; push_cast; ring
  · intro z hz
    rcases List.mem_cons.mp hz with e | hz'
    · subst e
      exact ⟨o, ho, Or.inr hext⟩
    · exact h.zomb z hz'
  · intro v hv
    obtain ⟨hvZ, rest⟩ := h.prot v hv
    have e : v ≠ p := fun e => hpV (e ▸ hv)
    refine ⟨fun hm => ?_, rest⟩
    rcases List.mem_cons.mp hm with a | a
    · exact e a
    · exact hvZ a
  · intro x ox hx hxZ
    exact h.home x ox hx (fun a => hxZ (List.mem_cons_of_mem _ a))
  · intro x ox hx hxZ hpx
    exact h.pos x ox hx (fun a => hxZ (List.mem_cons_of_mem _ a)) hpx

theorem cascade_leave {ext : Nat → Nat} {V : Nat → Prop} {s : Store} {p : Nat}
    {H Z : List Nat} {o : jsdisp_t} (h : cascade_inv ext V s H (p :: Z))
    (ho : s.obj p = some o) (hE : obj_edges o = []) (hpZ : p ∉ Z) (hext : 1 ≤ ext p)
    (hL : p ∈ s.ctx.objects) : cascade_inv ext V s H Z := by
  have hmove : ∀ x, indeg s Z x = indeg s (p :: Z) x := by
    intro x
    rw [indeg_move (obj_lt ho) hpZ x, edges_of_some ho, hE]
    rfl
  refine ⟨?_, ?_, ?_, h.nodup, h.listed, ?_, ?_⟩
  · intro x ox hx
    rw [hmove x]
    exact h.acc x ox hx
  · intro z hz
    exact h.zomb z (List.mem_cons_of_mem _ hz)
  · intro v hv
    obtain ⟨hvZ, rest⟩ := h.prot v hv
    exact ⟨fun a => hvZ (List.mem_cons_of_mem _ a), rest⟩
  · intro x ox hx hxZ
    by_cases e : x = p
    · subst e; exact Or.inl hL
    · exact h.home x ox hx (fun a => by
        rcases List.mem_cons.mp a with b | b
        · exact e b
        · exact hxZ b)
  · intro x ox hx hxZ hpx
    by_cases e : x = p
    · subst e
      rw [ho] at hx; cases hx
      have := h.acc x o ho
      omega
    · exact h.pos x ox hx (fun a => by
        rcases List.mem_cons.mp a with b | b
        · exact e b
        · exact hxZ b) hpx

theorem flatMap_congr_mem {α β : Type} (l : List α) (f g : α → List β)
    (h : ∀ x ∈ l, f x = g x) : l.flatMap f = l.flatMap g := by
  induction l with
  | nil => rfl
  | cons a l ih =>
    rw [List.flatMap_cons, List.flatMap_cons, h a (List.mem_cons_self _ _),
      ih (fun x hx => h x (List.mem_cons_of_mem _ hx))]

theorem slot_edges_deleted {q : dispex_prop_t} (h : q.type = prop_type_t.PROP_DELETED) :
    slot_edges q = [] := by
  unfold slot_edges; rw [h]

theorem release_all_release_cascade {ext : Nat → Nat} {V : Nat → Prop} {E : List Nat}
    {s s1 : Store} {H Z : List Nat} (h : cascade_inv ext V s (E ++ H) Z)
    (hr : release_all jsdisp_release E s = some s1) :
    cascade_inv ext V s1 H Z ∧ list_shrinks ext s s1 :=
  release_all_cascade ext V jsdisp_release
    (fun _ _ _ _ _ h1 h2 => jsdisp_release_cascade h1 h2) E s s1 H Z h hr

theorem zombie_after {ext : Nat → Nat} {V : Nat → Prop} {s s1 : Store} {p : Nat}
    {H Z : List Nat} {o : jsdisp_t} (h1 : cascade_inv ext V s1 H Z) (hp : p ∈ Z)
    (hf : store_frame s s1) (ho : s.obj p = some o) :
    ∃ o1, s1.obj p = some o1 ∧ o1 = { o with ref := o1.ref } := by
  obtain ⟨o1, ho1, _⟩ := h1.zomb p hp
  obtain ⟨o', ho', hfr⟩ := hf p o1 ho1
  rw [ho] at ho'; cases ho'
  exact ⟨o1, ho1, hfr⟩

theorem unlink_props_cascade (ext : Nat → Nat) (V : Nat → Prop) (p : Nat) :
    ∀ (idxs : List Nat) (s s1 : Store) (o : jsdisp_t) (H Z : List Nat),
      idxs.Nodup → s.obj p = some o → p ∈ Z →
      cascade_inv ext V s (idxs.flatMap (fun i => slot_edges (slot o i)) ++ H) Z →
      unlink_props p idxs s = some s1 →
      ∃ o1, s1.obj p = some o1 ∧ cascade_inv ext V s1 H Z ∧ list_shrinks ext s s1 ∧
        slots_unlinked idxs o o1 := by
  intro idxs
  induction idxs with
  | nil =>
    intro s s1 o H Z _ ho _ h hr
    simp only [unlink_props, Option.some.injEq] at hr
    subst hr
    refine ⟨o, ho, by simpa using h, list_shrinks_refl ext s, ?_, rfl, fun i => ?_⟩
    · cases o; rfl
    · exact ⟨fun hi => absurd hi (List.not_mem_nil i), fun _ => rfl⟩
  | cons i rest ih =>
    intro s s1 o H Z hnd ho hp h hr
    have hi_rest : i ∉ rest := (List.nodup_cons.mp hnd).1
    have hnd' : rest.Nodup := (List.nodup_cons.mp hnd).2
    simp only [unlink_props, ho] at hr
    rw [List.flatMap_cons, List.append_assoc] at h
    by_cases hdel : (slot o i).type = prop_type_t.PROP_DELETED
    · rw [if_pos hdel] at hr
      rw [slot_edges_deleted hdel, List.nil_append] at h
      obtain ⟨o1, ho1, h1, hs1, hu1, hu2, hu3⟩ := ih s s1 o H Z hnd' ho hp h hr
      refine ⟨o1, ho1, h1, hs1, hu1, hu2, fun j => ⟨fun hj => ?_, fun hj => ?_⟩⟩
      · rcases List.mem_cons.mp hj with e | e
        · subst e
          have := (hu3 j).2 hi_rest
          rw [this]
          exact ⟨slot_edges_deleted hdel, fun _ => hdel⟩
        · exact (hu3 j).1 e
      · exact (hu3 j).2 (fun a => hj (List.mem_cons_of_mem _ a))
    · rw [if_neg hdel] at hr
      obtain ⟨sA, hrA, hr⟩ := Option.bind_eq_some.mp hr
      obtain ⟨sB, hrB, hr⟩ := Option.bind_eq_some.mp hr
      obtain ⟨hA, hsA⟩ := release_all_release_cascade h hrA
      have hfA : store_frame s sA := release_all_frame jsdisp_release jsdisp_release_frame _ _ _ hrA
      obtain ⟨oA, hoA, hoA2⟩ := zombie_after hA hp hfA ho
      obtain ⟨oA', hoA', hsB⟩ := store_set_slot_eq hrB
      rw [hoA] at hoA'; cases hoA'
      obtain ⟨oB, hoB⟩ : ∃ oB, oB = set_slot oA i
          (fun q => { q with type := prop_type_t.PROP_DELETED }) := ⟨_, rfl⟩
      rw [← hoB] at hsB
      have hB : cascade_inv ext V sB
          (rest.flatMap (fun j => slot_edges (slot oB j)) ++ H) Z := by
        have hc : rest.flatMap (fun j => slot_edges (slot oB j)) =
            rest.flatMap (fun j => slot_edges (slot o j)) := by
          refine flatMap_congr_mem _ _ _ (fun j hj => ?_)
          have e : j ≠ i := fun e => hi_rest (e ▸ hj)
          have h1 : slot oB j = slot oA j := by
            rw [hoB, slot_set_slot]; simp [e]
          have h2 : slot oA j = slot o j := by rw [hoA2]; rfl
          rw [h1, h2]
        rw [hc, hsB]
        exact cascade_zombie_update hA hp hoA oB (by rw [hoB]; rfl)
      have hoBs : sB.obj p = some oB := by rw [hsB]; exact obj_set_obj_self hoA oB
      obtain ⟨o1, ho1, h1, hs1, hu1, hu2, hu3⟩ := ih sB s1 oB H Z hnd' hoBs hp hB hr
      have hsAB : list_shrinks ext sA sB := list_shrinks_same (by rw [hsB]; rfl)
      have hlenB : oB.props.length = o.props.length := by
        rw [hoB, set_slot_length, hoA2]
      refine ⟨o1, ho1, h1, list_shrinks_trans hsA (list_shrinks_trans hsAB hs1), ?_,
        by rw [hu2, hlenB], fun j => ⟨fun hj => ?_, fun hj => ?_⟩⟩
      · have e1 : ({ o1 with props := oB.props, ref := oB.ref } : jsdisp_t) = oB := hu1
        have e2 : oB = { oA with props := oB.props } := by rw [hoB]; rfl
        have e3 : oA = { o with ref := oA.ref } := hoA2
        rw [e2] at e1
        rw [e3] at e1
        cases o1; cases o
        simp only [jsdisp_t.mk.injEq] at e1 ⊢
        simp only [e1, and_self, true_and]
      · rcases List.mem_cons.mp hj with e | e
        · subst e
          have h3 := (hu3 j).2 hi_rest
          rw [h3]
          have h4 : slot oB j = if j = j ∧ j < oA.props.length then
              { slot oA j with type := prop_type_t.PROP_DELETED } else slot oA j := by
            rw [hoB, slot_set_slot]
          by_cases hlt : j < oA.props.length
          · rw [h4, if_pos ⟨rfl, hlt⟩]
            exact ⟨slot_edges_deleted rfl, fun _ => rfl⟩
          · rw [h4, if_neg (fun a => hlt a.2)]
            have hz : slot oA j = dispex_prop_t.zero := by
              unfold slot
              rw [List.getD_eq_getElem?_getD, List.getElem?_eq_none (Nat.le_of_not_lt hlt)]
              rfl
            rw [hz]
            refine ⟨rfl, fun hlt2 => ?_⟩
            rw [hu2] at hlt2
            rw [hoB, set_slot_length] at hlt2
            exact absurd hlt2 hlt
        · exact (hu3 j).1 e
      · have e : j ≠ i := fun e => hj (e ▸ List.mem_cons_self _ _)
        have h3 := (hu3 j).2 (fun a => hj (List.mem_cons_of_mem _ a))
        rw [h3, hoB, slot_set_slot]
        simp only [e, false_and, if_false]
        rw [hoA2]; rfl

theorem take_flatMap_range {β : Type} (l : List dispex_prop_t) (f : dispex_prop_t → List β)
    (hz : f dispex_prop_t.zero = []) (n : Nat) :
    (l.take n).flatMap f = (List.range n).flatMap (fun i => f (l.getD i dispex_prop_t.zero)) := by
  induction n with
  | zero => rfl
  | succ n ih =>
    rw [List.take_succ, List.range_succ, List.flatMap_append, List.flatMap_append, ih]
    congr 1
    by_cases hlt : n < l.length
    · simp [List.getD_eq_getElem?_getD, List.getElem?_eq_getElem hlt]
    · simp [List.getD_eq_getElem?_getD, List.getElem?_eq_none (Nat.le_of_not_lt hlt), hz]

theorem live_edges_range (o : jsdisp_t) :
    (live_props o).flatMap slot_edges =
      (List.range o.prop_cnt).flatMap (fun i => slot_edges (slot o i)) :=
  take_flatMap_range o.props slot_edges rfl o.prop_cnt

theorem flatMap_nil_of {α β : Type} (l : List α) (f : α → List β) (h : ∀ x ∈ l, f x = []) :
    l.flatMap f = [] := by
  induction l with
  | nil => rfl
  | cons a l ih =>
    rw [List.flatMap_cons, h a (List.mem_cons_self _ _),
      ih (fun x hx => h x (List.mem_cons_of_mem _ hx))]
    rfl

theorem unlink_jsdisp_cascade {ext : Nat → Nat} {V : Nat → Prop} {s s1 : Store} {p : Nat}
    {o : jsdisp_t} {H Z : List Nat} (h : cascade_inv ext V s H Z) (ho : s.obj p = some o)
    (hpZ : p ∉ Z) (hpV : ¬ V p) (hext : 1 ≤ ext p) (hL : p ∈ s.ctx.objects)
    (hr : unlink_jsdisp s p = some s1) :
    ∃ o1, s1.obj p = some o1 ∧ obj_edges o1 = [] ∧ o1.prototype = none ∧
      (∀ i, i < o1.prop_cnt → i < o1.props.length →
        (slot o1 i).type = prop_type_t.PROP_DELETED) ∧
      ({ o1 with props := o.props, ref := o.ref, prototype := o.prototype } : jsdisp_t) = o ∧
      cascade_inv ext V s1 H Z ∧ list_shrinks ext s s1 := by
  unfold unlink_jsdisp at hr
  simp only [ho] at hr
  obtain ⟨sA, hrA, hr⟩ := Option.bind_eq_some.mp hr
  obtain ⟨sB, hrB, hr⟩ := Option.bind_eq_some.mp hr
  have hE := cascade_enter h ho hpZ hpV hext
  have hedges : obj_edges o = (List.range o.prop_cnt).flatMap (fun i => slot_edges (slot o i))
      ++ o.prototype.toList := by
    rw [← live_edges_range]; rfl
  rw [hedges, List.append_assoc] at hE
  have hpZ' : p ∈ p :: Z := List.mem_cons_self _ _
  obtain ⟨oA, hoA, hA, hsA, hu1, hu2, hu3⟩ :=
    unlink_props_cascade ext V p _ s sA o _ _ (List.nodup_range _) ho hpZ' hE hrA
  have hcntA : oA.prop_cnt = o.prop_cnt := by rw [← hu1]
  have hprotoA : oA.prototype = o.prototype := by rw [← hu1]
  -- the object after the prototype link was released
  have hstep : ∃ oB, sB.obj p = some oB ∧ oB = { oA with ref := oB.ref, prototype := none } ∧
      cascade_inv ext V sB H (p :: Z) ∧ list_shrinks ext sA sB := by
    cases hpr : o.prototype with
    | none =>
      simp only [hpr, Option.some.injEq] at hrB
      subst hrB
      rw [hpr] at hA hprotoA
      refine ⟨oA, hoA, ?_, by simpa using hA, list_shrinks_refl ext sA⟩
      cases oA
      simp only [jsdisp_t.mk.injEq, true_and, and_true] at hprotoA ⊢
      exact hprotoA
    | some t =>
      simp only [hpr] at hrB
      obtain ⟨s2, hr2, hrB⟩ := Option.bind_eq_some.mp hrB
      rw [hpr] at hA
      obtain ⟨h2, hs2⟩ := jsdisp_release_cascade (by simpa using hA) hr2
      obtain ⟨o2, ho2, ho2e⟩ := zombie_after h2 hpZ' (jsdisp_release_frame _ _ _ hr2) hoA
      simp only [ho2, Option.some.injEq] at hrB
      subst hrB
      refine ⟨{ o2 with prototype := none }, obj_set_obj_self ho2 _, ?_,
        cascade_zombie_update h2 hpZ' ho2 _ rfl,
        list_shrinks_trans hs2 (list_shrinks_same rfl)⟩
      rw [ho2e]
  obtain ⟨oB, hoB, hoBe, hB, hsB⟩ := hstep
  split at hr
  · cases hr
  · simp only [Option.some.injEq] at hr
    subst hr
    have hslotB : ∀ i, slot oB i = slot oA i := by intro i; rw [hoBe]; rfl
    have hlenB : oB.props.length = oA.props.length := by rw [hoBe]
    have hcntB : oB.prop_cnt = o.prop_cnt := by rw [hoBe]; exact hcntA
    have hedgeB : obj_edges oB = [] := by
      have h1 : (live_props oB).flatMap slot_edges = [] := by
        rw [live_edges_range]
        refine flatMap_nil_of _ _ (fun i hi => ?_)
        rw [hslotB i]
        rw [hcntB] at hi
        exact ((hu3 i).1 hi).1
      have h2 : oB.prototype = none := by rw [hoBe]
      show (live_props oB).flatMap slot_edges ++ oB.prototype.toList = []
      rw [h1, h2]; rfl
    have hs : list_shrinks ext s sB := list_shrinks_trans hsA hsB
    refine ⟨oB, hoB, hedgeB, by rw [hoBe], ?_, ?_,
      cascade_leave hB hoB hedgeB hpZ hext (hs.2 p hL hext), hs⟩
    · intro i hi hi2
      rw [hslotB i]
      rw [hcntB] at hi
      rw [hlenB] at hi2
      exact ((hu3 i).1 (List.mem_range.mpr hi)).2 hi2
    · have e1 : ({ oA with props := o.props, ref := o.ref } : jsdisp_t) = o := hu1
      rw [hoBe]
      cases oA; cases o
      simp only [jsdisp_t.mk.injEq] at e1 ⊢
      simp only [e1, and_self, true_and]

theorem cascade_grab {ext : Nat → Nat} {V : Nat → Prop} {s : Store} {p : Nat} {H Z : List Nat}
    {o : jsdisp_t} (h : cascade_inv ext V s H Z) (ho : s.obj p = some o)
    (hL : p ∈ s.ctx.objects) :
    cascade_inv (bump ext p) V (s.set_obj p { o with ref := o.ref + 1 }) H Z := by
  obtain ⟨_, he, hi⟩ := set_ref_facts ho (o.ref + 1)
  have hself := obj_set_obj_self ho { o with ref := o.ref + 1 }
  have hb : bump ext p p = ext p + 1 := by simp [bump]
  have hbn : ∀ x, x ≠ p → bump ext p x = ext x := by intro x e; simp [bump, e]
  have hle : ∀ x, ext x ≤ bump ext p x := by
    intro x; unfold bump; split <;> omega
  refine ⟨?_, ?_, ?_, h.nodup, ?_, ?_, ?_⟩
  · intro x ox hx
    rw [hi]
    by_cases e : x = p
    · subst e
      rw [hself] at hx; cases hx
      have := h.acc x o ho
      show o.ref + 1 = _
      rw [hb, this]; push_cast; ring
    · rw [obj_set_obj_ne s e] at hx
      rw [hbn x e]
      exact h.acc x ox hx
  · intro z hz
    obtain ⟨oz, hoz, hz2⟩ := h.zomb z hz
    by_cases e : z = p
    · subst e
      exact ⟨_, hself, Or.inr (by rw [hb]; omega)⟩
    · refine ⟨oz, by rw [obj_set_obj_ne s e]; exact hoz, ?_⟩
      rw [hbn z e]; exact hz2
  · intro v hv
    obtain ⟨hvZ, ov, hov, hsup⟩ := h.prot v hv
    have hsup' : ∀ o2 : jsdisp_t, o2.proxy = ov.proxy →
        (o2.proxy.isSome = true ∨ 1 ≤ bump ext p v ∨
          ∃ u, V u ∧ v ∈ edges_of (s.set_obj p { o with ref := o.ref + 1 }) u) := by
      intro o2 hpx
      rcases hsup with a | a | ⟨u, hu, hmem⟩
      · exact Or.inl (by rw [hpx]; exact a)
      · exact Or.inr (Or.inl (Nat.le_trans a (hle v)))
      · exact Or.inr (Or.inr ⟨u, hu, by rw [he]; exact hmem⟩)
    refine ⟨hvZ, ?_⟩
    by_cases e : v = p
    · subst e
      rw [ho] at hov; cases hov
      exact ⟨_, hself, hsup' _ rfl⟩
    · exact ⟨ov, by rw [obj_set_obj_ne s e]; exact hov, hsup' _ rfl⟩
  · intro x hx
    rw [obj_set_obj]
    split
    · rfl
    · exact h.listed x hx
  · intro x ox hx hxZ
    by_cases e : x = p
    · subst e; exact Or.inl hL
    · rw [obj_set_obj_ne s e] at hx
      exact h.home x ox hx hxZ
  · intro x ox hx hxZ hpx
    by_cases e : x = p
    · subst e
      rw [hself] at hx; cases hx
      have := h.acc x o ho
      show 1 ≤ o.ref + 1
      omega
    · rw [obj_set_obj_ne s e] at hx
      exact h.pos x ox hx hxZ hpx

theorem cascade_ungrab {ext : Nat → Nat} {V : Nat → Prop} {s : Store} {p : Nat}
    {H Z : List Nat} (h : cascade_inv (bump ext p) V s H Z) (hpZ : p ∉ Z) (hpV : ¬ V p) :
    cascade_inv ext V s (p :: H) Z := by
  have hb : bump ext p p = ext p + 1 := by simp [bump]
  have hbn : ∀ x, x ≠ p → bump ext p x = ext x := by intro x e; simp [bump, e]
  refine ⟨?_, ?_, ?_, h.nodup, h.listed, h.home, h.pos⟩
  · intro x ox hx
    have := h.acc x ox hx
    by_cases e : x = p
    · subst e
      rw [hb] at this
      rw [List.count_cons_self, this]; push_cast; ring
    · rw [hbn x e] at this
      rw [count_cons_ne e]; exact this
  · intro z hz
    obtain ⟨oz, hoz, hz2⟩ := h.zomb z hz
    have e : z ≠ p := fun e => hpZ (e ▸ hz)
    rw [hbn z e] at hz2
    exact ⟨oz, hoz, hz2⟩
  · intro v hv
    obtain ⟨hvZ, ov, hov, hsup⟩ := h.prot v hv
    have e : v ≠ p := fun e => hpV (e ▸ hv)
    rw [hbn v e] at hsup
    exact ⟨hvZ, ov, hov, hsup⟩

theorem store_frame_but_of (p : Nat) {s s1 : Store} (h : store_frame s s1) :
    store_frame_but p s s1 :=
  fun q o1 _ hq => h q o1 hq

theorem store_frame_but_refl (p : Nat) (s : Store) : store_frame_but p s s :=
  store_frame_but_of p (store_frame_refl s)

theorem store_frame_but_trans {p : Nat} {a b c : Store} (h1 : store_frame_but p a b)
    (h2 : store_frame_but p b c) : store_frame_but p a c := by
  intro q o2 hq hq2
  obtain ⟨o1, ho1, hf1⟩ := h2 q o2 hq hq2
  obtain ⟨o, ho, hf⟩ := h1 q o1 hq ho1
  exact ⟨o, ho, obj_frame_trans hf hf1⟩

theorem store_frame_but_set (p : Nat) (s : Store) (o : jsdisp_t) :
    store_frame_but p s (s.set_obj p o) := by
  intro q o1 hq hq2
  rw [obj_set_obj_ne s hq] at hq2
  exact ⟨o1, hq2, rfl⟩

/-! ### One round of pass 3 -/

theorem unlink_props_frame_but (p : Nat) : ∀ (idxs : List Nat) (s s1 : Store),
    unlink_props p idxs s = some s1 → store_frame_but p s s1 := by
  intro idxs
  induction idxs with
  | nil =>
    intro s s1 hr
    simp only [unlink_props, Option.some.injEq] at hr
    subst hr; exact store_frame_but_refl p s
  | cons i rest ih =>
    intro s s1 hr
    simp only [unlink_props] at hr
    cases ho : s.obj p with
    | none => simp [ho] at hr
    | some o =>
      simp only [ho] at hr
      split at hr
      · exact ih s s1 hr
      · obtain ⟨sA, hrA, hr⟩ := Option.bind_eq_some.mp hr
        obtain ⟨sB, hrB, hr⟩ := Option.bind_eq_some.mp hr
        have hfA : store_frame s sA :=
          release_all_frame jsdisp_release jsdisp_release_frame _ _ _ hrA
        obtain ⟨oA, _, hsB⟩ := store_set_slot_eq hrB
        have hfB : store_frame_but p sA sB := by rw [hsB]; exact store_frame_but_set p sA _
        exact store_frame_but_trans (store_frame_but_trans (store_frame_but_of p hfA) hfB)
          (ih sB s1 hr)

theorem unlink_jsdisp_frame_but {s s1 : Store} {p : Nat} (hr : unlink_jsdisp s p = some s1) :
    store_frame_but p s s1 := by
  unfold unlink_jsdisp at hr
  cases ho : s.obj p with
  | none => simp [ho] at hr
  | some o =>
    simp only [ho] at hr
    obtain ⟨sA, hrA, hr⟩ := Option.bind_eq_some.mp hr
    obtain ⟨sB, hrB, hr⟩ := Option.bind_eq_some.mp hr
    have hA := unlink_props_frame_but p _ _ _ hrA
    have hB : store_frame_but p sA sB := by
      cases hpr : o.prototype with
      | none =>
        simp only [hpr, Option.some.injEq] at hrB
        subst hrB; exact store_frame_but_refl p sA
      | some t =>
        simp only [hpr] at hrB
        obtain ⟨s2, hr2, hrB⟩ := Option.bind_eq_some.mp hrB
        have h2 := store_frame_but_of p (jsdisp_release_frame _ _ _ hr2)
        cases ho2 : s2.obj p with
        | none => simp [ho2] at hrB
        | some o2 =>
          simp only [ho2, Option.some.injEq] at hrB
          subst hrB
          exact store_frame_but_trans h2 (store_frame_but_set p s2 _)
    split at hr
    · cases hr
    · simp only [Option.some.injEq] at hr
      subst hr
      exact store_frame_but_trans hA hB

theorem release_unlinked {s s1 : Store} {p : Nat} {o : jsdisp_t} (ho : s.obj p = some o)
    (hE : obj_edges o = []) (hpx : o.proxy = none) (hr : jsdisp_release s p = some s1) :
    (s1.ctx.objects = s.ctx.objects ∨ s1.ctx.objects = s.ctx.objects.erase p) ∧
    (∀ x, x ≠ p → s1.obj x = s.obj x) ∧
    (s1.obj p = none ∨ s1.obj p = some { o with ref := o.ref - 1 }) := by
  have hself := obj_set_obj_self ho { o with ref := o.ref - 1 }
  have hE' : (live_props o).flatMap slot_edges ++ o.prototype.toList = [] := hE
  have hE1 : (live_props o).flatMap slot_edges = [] := (List.append_eq_nil.mp hE').1
  have hE2 : o.prototype = none := by
    have := (List.append_eq_nil.mp hE').2
    cases hp : o.prototype with
    | none => rfl
    | some t => rw [hp] at this; cases this
  unfold jsdisp_release at hr
  simp only [jsdisp_release_fuel, ho] at hr
  by_cases href : o.ref - 1 = 0
  · rw [if_pos href] at hr
    unfold jsdisp_free at hr
    simp only [hself] at hr
    have hnp : ¬ (o.proxy.isSome = true) := by simp [hpx]
    rw [if_neg hnp] at hr
    split at hr
    · cases hr
    · have h1 : (live_props ({ o with ref := o.ref - 1 } : jsdisp_t)).flatMap slot_edges = [] :=
        hE1
      rw [h1] at hr
      simp only [release_all, Option.some_bind] at hr
      rw [hE2] at hr
      simp only [Option.some_bind, Option.some.injEq] at hr
      subst hr
      refine ⟨Or.inr rfl, fun x hx => ?_, Or.inl ?_⟩
      · rw [obj_free_obj, if_neg hx, obj_list_remove, obj_set_obj_ne s hx]
      · rw [obj_free_obj, if_pos rfl]
  · rw [if_neg href] at hr
    simp only [Option.some.injEq] at hr
    subst hr
    exact ⟨Or.inl rfl, fun x hx => obj_set_obj_ne s hx _, Or.inr hself⟩

theorem obj_frame_fields {o o1 : jsdisp_t} (h : obj_frame o o1) :
    o1.gc_marked = o.gc_marked ∧ o1.proxy = o.proxy ∧ obj_edges o1 = obj_edges o := by
  unfold obj_frame at h
  rw [h]
  exact ⟨rfl, rfl, rfl⟩

theorem pass3_round {ext : Nat → Nat} {V : Nat → Prop} {s s1 s2 s3 : Store} {p : Nat}
    {o : jsdisp_t} (h : cascade_inv ext V s [] []) (ho : s.obj p = some o)
    (hL : p ∈ s.ctx.objects) (hpV : ¬ V p) (hpx : o.proxy = none)
    (h1 : jsdisp_addref s p = some s1) (h2 : unlink_jsdisp s1 p = some s2)
    (h3 : jsdisp_release s2 p = some s3) :
    cascade_inv ext V s3 [] [] ∧ s2.ctx.objects.Sublist s.ctx.objects ∧ p ∈ s2.ctx.objects ∧
    (s3.ctx.objects = s2.ctx.objects ∨ s3.ctx.objects = s2.ctx.objects.erase p) ∧
    edges_of s3 p = [] ∧ round_frame p s s3 := by
  have hpos := h.pos p o ho (List.not_mem_nil p) hpx
  have hs1 : s1 = s.set_obj p { o with ref := o.ref + 1 } := by
    unfold jsdisp_addref at h1
    simp only [ho] at h1
    rw [if_neg (by omega)] at h1
    simp only [Option.some.injEq] at h1
    exact h1.symm
  subst hs1
  have hself := obj_set_obj_self ho { o with ref := o.ref + 1 }
  have hg := cascade_grab h ho hL
  have hb : 1 ≤ bump ext p p := by simp [bump]
  obtain ⟨o2, ho2, hE2, _, _, heq, hinv2, hsh2⟩ :=
    unlink_jsdisp_cascade hg hself (List.not_mem_nil p) hpV hb hL h2
  have hu := cascade_ungrab hinv2 (List.not_mem_nil p) hpV
  obtain ⟨hinv3, _⟩ := jsdisp_release_cascade hu h3
  have hm2 : o2.gc_marked = o.gc_marked := by
    have := congrArg jsdisp_t.gc_marked heq
    exact this
  have hp2 : o2.proxy = o.proxy := by
    have := congrArg jsdisp_t.proxy heq
    exact this
  obtain ⟨hlist, hobj, hp3⟩ := release_unlinked ho2 hE2 (by rw [hp2]; exact hpx) h3
  have hfb := unlink_jsdisp_frame_but h2
  refine ⟨hinv3, hsh2.1, hsh2.2 p hL hb, hlist, ?_, ?_⟩
  · rcases hp3 with a | a
    · exact edges_of_none a
    · rw [edges_of_some a]; exact hE2
  · intro x o3 hx
    by_cases e : x = p
    · subst e
      rcases hp3 with a | a
      · rw [a] at hx; cases hx
      · rw [a] at hx; cases hx
        exact ⟨o, ho, hm2, hp2, fun hne => absurd rfl hne⟩
    · rw [hobj x e] at hx
      obtain ⟨o1, ho1, hf⟩ := hfb x o3 e hx
      rw [obj_set_obj_ne s e] at ho1
      obtain ⟨a, b, _⟩ := obj_frame_fields hf
      exact ⟨o1, ho1, a, b, fun _ => hf⟩

/-! ### The walk of pass 3 -/

theorem list_next_split (pre post : List Nat) (p : Nat) (hp : p ∉ pre) :
    list_next (pre ++ p :: post) p = post.head? := by
  unfold list_next
  induction pre with
  | nil => simp
  | cons a pre ih =>
    have ha : a ≠ p := fun e => hp (e ▸ List.mem_cons_self _ _)
    have hp' : p ∉ pre := fun e => hp (List.mem_cons_of_mem _ e)
    rw [List.cons_append, List.dropWhile_cons_of_pos (by simpa using ha)]
    exact ih hp'

theorem sublist_split {l pre post : List Nat} {p : Nat} (hs : l.Sublist (pre ++ p :: post))
    (hp : p ∈ l) (hnd : (pre ++ p :: post).Nodup) :
    ∃ pre2 post2, l = pre2 ++ p :: post2 ∧ pre2.Sublist pre ∧ post2.Sublist post := by
  obtain ⟨l1, l2, hl, h1, h2⟩ := List.sublist_append_iff.mp hs
  have hppre : p ∉ pre := by
    intro hm
    have := (List.nodup_append.mp hnd).2.2
    exact this hm (List.mem_cons_self _ _)
  rcases List.sublist_cons_iff.mp h2 with h3 | ⟨r, hr, h3⟩
  · exfalso
    have hppost : p ∉ post := (List.nodup_cons.mp (List.Nodup.of_append_right hnd)).1
    rw [hl] at hp
    rcases List.mem_append.mp hp with a | a
    · exact hppre (h1.subset a)
    · exact hppost (h3.subset a)
  · exact ⟨l1, r, by rw [hl, hr], h1, h3⟩

theorem erase_split (pre post : List Nat) (p : Nat) (hp : p ∉ pre) :
    (pre ++ p :: post).erase p = pre ++ post := by
  rw [List.erase_append_right _ hp, List.erase_cons_head]

theorem edges_round {p : Nat} {s s3 : Store} (hr : round_frame p s s3) {x : Nat} (hx : x ≠ p)
    (he : edges_of s x = []) : edges_of s3 x = [] := by
  cases h3 : s3.obj x with
  | none => exact edges_of_none h3
  | some o3 =>
    obtain ⟨ox, hox, _, _, hf⟩ := hr x o3 h3
    rw [edges_of_some h3, (obj_frame_fields (hf hx)).2.2, ← edges_of_some hox]
    exact he

theorem pass3_frame_round {V : Nat → Prop} {p : Nat} {s0 s s3 : Store}
    (h0 : pass3_frame V s0 s) (hr : round_frame p s s3) (hpV : ¬ V p) :
    pass3_frame V s0 s3 := by
  intro x o3 hx
  obtain ⟨ox, hox, hm, hpx, hf⟩ := hr x o3 hx
  obtain ⟨o0, ho0, hm0, hpx0, hf0⟩ := h0 x ox hox
  refine ⟨o0, ho0, hm.trans hm0, hpx.trans hpx0, fun hv => ?_⟩
  have e : x ≠ p := fun e => hpV (e ▸ hv)
  exact obj_frame_trans (hf0 hv) (hf e)

theorem gc_pass3_walk (ext : Nat → Nat) (V G : Nat → Prop) (s0 : Store)
    (hGV : ∀ x, G x → ¬ V x)
    (hG0 : ∀ x o, s0.obj x = some o → G x → o.gc_marked = true ∧ o.proxy = none)
    (hGm : ∀ x o, s0.obj x = some o → x ∈ s0.ctx.objects → o.gc_marked = true → G x) :
    ∀ (fuel : Nat) (s : Store) (pre post : List Nat) (s1 : Store),
      s.ctx.objects = pre ++ post → cascade_inv ext V s [] [] → pass3_frame V s0 s →
      s.ctx.objects ⊆ s0.ctx.objects → (∀ x ∈ pre, G x → edges_of s x = []) →
      gc_pass3 fuel s post.head? = some s1 →
      cascade_inv ext V s1 [] [] ∧ pass3_frame V s0 s1 ∧ s1.ctx.objects ⊆ s0.ctx.objects ∧
      (∀ x ∈ s1.ctx.objects, G x → edges_of s1 x = []) := by
  intro fuel
  induction fuel with
  | zero =>
    intro s pre post s1 _ _ _ _ _ hr
    simp [gc_pass3] at hr
  | succ fuel ih =>
    intro s pre post s1 hL h hf hsub hpre hr
    cases post with
    | nil =>
      simp only [List.head?_nil, gc_pass3, Option.some.injEq] at hr
      subst hr
      rw [List.append_nil] at hL
      exact ⟨h, hf, hsub, fun x hx => hpre x (by rw [← hL]; exact hx)⟩
    | cons p post =>
      simp only [List.head?_cons, gc_pass3] at hr
      have hnd : (pre ++ p :: post).Nodup := by rw [← hL]; exact h.nodup
      have hppre : p ∉ pre := fun hm =>
        (List.nodup_append.mp hnd).2.2 hm (List.mem_cons_self _ _)
      have hpL : p ∈ s.ctx.objects := by rw [hL]; simp
      cases ho : s.obj p with
      | none => simp [ho] at hr
      | some o =>
        simp only [ho] at hr
        obtain ⟨o0, ho0, hm0, hpx0, _⟩ := hf p o ho
        by_cases hmark : o.gc_marked = true
        · simp only [hmark, not_true_eq_false, if_false] at hr
          obtain ⟨sA, hrA, hr⟩ := Option.bind_eq_some.mp hr
          obtain ⟨sB, hrB, hr⟩ := Option.bind_eq_some.mp hr
          obtain ⟨sC, hrC, hr⟩ := Option.bind_eq_some.mp hr
          have hGp : G p := hGm p o0 ho0 (hsub hpL) (by rw [← hm0]; exact hmark)
          have hpV := hGV p hGp
          have hpx : o.proxy = none := by rw [hpx0]; exact (hG0 p o0 ho0 hGp).2
          obtain ⟨hC, hsB, hpB, hlist, hedge, hround⟩ :=
            pass3_round h ho hpL hpV hpx hrA hrB hrC
          rw [hL] at hsB
          obtain ⟨pre2, post2, hL2, hs1, _⟩ := sublist_split hsB hpB hnd
          have hppre2 : p ∉ pre2 := fun hm => hppre (hs1.subset hm)
          rw [hL2, list_next_split pre2 post2 p hppre2] at hr
          have hfC := pass3_frame_round hf hround hpV
          have hsubB : sB.ctx.objects ⊆ s0.ctx.objects := by
            intro x hx
            refine hsub ?_
            rw [hL]
            exact hsB.subset hx
          have hpre2 : ∀ x ∈ pre2, G x → edges_of sC x = [] := by
            intro x hx hg
            have hx' := hs1.subset hx
            exact edges_round hround (fun e => hppre (e ▸ hx')) (hpre x hx' hg)
          rcases hlist with hl | hl
          · have hLC : sC.ctx.objects = (pre2 ++ [p]) ++ post2 := by
              rw [hl, hL2]; simp
            refine ih sC (pre2 ++ [p]) post2 s1 hLC hC hfC (by rw [hl]; exact hsubB) ?_ hr
            intro x hx hg
            rcases List.mem_append.mp hx with a | a
            · exact hpre2 x a hg
            · rw [List.mem_singleton.mp a]; exact hedge
          · have hLC : sC.ctx.objects = pre2 ++ post2 := by
              rw [hl, hL2, erase_split pre2 post2 p hppre2]
            refine ih sC pre2 post2 s1 hLC hC hfC ?_ hpre2 hr
            intro x hx
            rw [hl] at hx
            exact hsubB (List.mem_of_mem_erase hx)
        · simp only [hmark, not_false_eq_true, if_true] at hr
          rw [hL, list_next_split pre post p hppre] at hr
          have hL' : s.ctx.objects = (pre ++ [p]) ++ post := by rw [hL]; simp
          refine ih s (pre ++ [p]) post s1 hL' h hf hsub ?_ hr
          intro x hx hg
          rcases List.mem_append.mp hx with a | a
          · exact hpre x a hg
          · rw [List.mem_singleton.mp a] at hg
            exact absurd (by rw [hm0]; exact (hG0 p o0 ho0 hg).1) hmark

theorem indeg_zero {s : Store} {Z : List Nat} {g : Nat} (h : ∀ u, g ∉ edges_of s u) :
    indeg s Z g = 0 := by
  unfold indeg
  rw [range_sum_congr _ _ (fun _ => 0) (fun u _ => by
    split
    · rfl
    · exact List.count_eq_zero.mpr (h u))]
  simp

theorem pass3_frame_refl (V : Nat → Prop) (s : Store) : pass3_frame V s s :=
  fun _ o1 hx => ⟨o1, hx, rfl, rfl, fun _ => rfl⟩

theorem cascade_inv_flag {ext : Nat → Nat} {V : Nat → Prop} {s : Store} {H Z : List Nat}
    (h : cascade_inv ext V s H Z) (b : Bool) :
    cascade_inv ext V (set_gc_is_unlinking s b) H Z :=
  ⟨h.acc, h.zomb, h.prot, h.nodup, h.listed, h.home, h.pos⟩

/-- Pass 3 from a store whose accounts are in order and whose marked objects
`G` are closed off from the others `V`: every object of `G` is destroyed, and
the accounts are in order again. -/
theorem gc_pass3_collects (ext : Nat → Nat) (V G : Nat → Prop) (s0 : Store)
    (hGV : ∀ x, G x → ¬ V x)
    (hG0 : ∀ x o, s0.obj x = some o → G x → o.gc_marked = true ∧ o.proxy = none)
    (hGm : ∀ x o, s0.obj x = some o → x ∈ s0.ctx.objects → o.gc_marked = true → G x)
    (hcover : ∀ x o, s0.obj x = some o → V x ∨ G x)
    (hVG : ∀ u, V u → ∀ g ∈ edges_of s0 u, ¬ G g)
    (hGext : ∀ x, G x → ext x = 0)
    (h0 : cascade_inv ext V s0 [] []) (fuel : Nat) (s1 : Store)
    (hr : gc_pass3 fuel s0 s0.ctx.objects.head? = some s1) :
    cascade_inv ext V s1 [] [] ∧ pass3_frame V s0 s1 ∧ s1.ctx.objects ⊆ s0.ctx.objects ∧
    (∀ g, G g → s1.obj g = none) := by
  obtain ⟨h1, hf1, hsub1, hunl⟩ := gc_pass3_walk ext V G s0 hGV hG0 hGm fuel s0 [] _ s1
    (by simp) h0 (pass3_frame_refl V s0) (fun _ hx => hx)
    (fun x hx => absurd hx (List.not_mem_nil x)) hr
  refine ⟨h1, hf1, hsub1, fun g hg => ?_⟩
  cases hog : s1.obj g with
  | none => rfl
  | some og =>
    exfalso
    obtain ⟨o0, ho0, _, hpx, _⟩ := hf1 g og hog
    have hpn : og.proxy = none := by rw [hpx]; exact (hG0 g o0 ho0 hg).2
    have hpos := h1.pos g og hog (List.not_mem_nil g) hpn
    have hacc := h1.acc g og hog
    have hin : indeg s1 [] g = 0 := by
      refine indeg_zero (fun u hmem => ?_)
      cases hou : s1.obj u with
      | none => rw [edges_of_none hou] at hmem; cases hmem
      | some ou =>
        obtain ⟨o0u, ho0u, _, hpxu, hfu⟩ := hf1 u ou hou
        rcases hcover u o0u ho0u with hv | hgu
        · have := (obj_frame_fields (hfu hv)).2.2
          rw [edges_of_some hou, this, ← edges_of_some ho0u] at hmem
          exact hVG u hv g hmem hg
        · have hpnu : ou.proxy = none := by rw [hpxu]; exact (hG0 u o0u ho0u hgu).2
          rcases h1.home u ou hou (List.not_mem_nil u) with a | ⟨a, _⟩
          · rw [hunl u a hgu] at hmem; cases hmem
          · rw [hpnu] at a; cases a
    rw [hGext g hg, hin] at hacc
    simp at hacc
    omega

/-! ### Pass 1 takes the links of the listed objects off the counts -/

theorem dec_by_refl (s : Store) : dec_by s s (fun _ => 0) (fun _ => false) := by
  refine ⟨rfl, rfl, fun x => ?_⟩
  cases h : s.obj x with
  | none => rfl
  | some o =>
    simp only [Option.map_some', Option.some.injEq]
    cases o
    simp

theorem dec_by_congr {s s1 : Store} {c c' : Nat → Nat} {m m' : Nat → Bool}
    (h : dec_by s s1 c m) (hc : ∀ x, c x = c' x) (hm : ∀ x, m x = m' x) :
    dec_by s s1 c' m' := by
  refine ⟨h.1, h.2.1, fun x => ?_⟩
  rw [h.2.2 x, hc x, hm x]

theorem dec_by_trans {a b d : Store} {c1 c2 : Nat → Nat} {m1 m2 : Nat → Bool}
    (h1 : dec_by a b c1 m1) (h2 : dec_by b d c2 m2) :
    dec_by a d (fun x => c1 x + c2 x) (fun x => m1 x || m2 x) := by
  refine ⟨h2.1.trans h1.1, h2.2.1.trans h1.2.1, fun x => ?_⟩
  rw [h2.2.2 x, h1.2.2 x]
  cases h : a.obj x with
  | none => rfl
  | some o =>
    simp only [Option.map_some', Option.some.injEq, jsdisp_t.mk.injEq, and_true, true_and,
      Bool.or_assoc]
    push_cast
    omega

theorem dec_by_edges {s s1 : Store} {c : Nat → Nat} {m : Nat → Bool} (h : dec_by s s1 c m)
    (x : Nat) : edges_of s1 x = edges_of s x := by
  unfold edges_of
  rw [h.2.2 x]
  cases s.obj x with
  | none => rfl
  | some o => rfl

theorem dec_by_single {s s1 : Store} {c : Nat → Nat} {m : Nat → Bool} (h : dec_by s s1 c m)
    (hs : single_ctx s) : single_ctx s1 := by
  intro x o1 hx
  rw [h.2.2 x] at hx
  cases ho : s.obj x with
  | none => rw [ho] at hx; cases hx
  | some o =>
    rw [ho] at hx
    simp only [Option.map_some', Option.some.injEq] at hx
    rw [← hx, h.1]
    exact hs x o ho

theorem gc_dec_by {s s1 : Store} {q : Nat} (hs : single_ctx s) (h : gc_dec s q = some s1) :
    dec_by s s1 (fun x => if x = q then 1 else 0) (fun _ => false) := by
  unfold gc_dec at h
  cases ho : s.obj q with
  | none => simp [ho] at h
  | some o =>
    simp only [ho] at h
    rw [if_pos (hs q o ho)] at h
    simp only [Option.some.injEq] at h
    subst h
    refine ⟨rfl, by simp [Store.set_obj], fun x => ?_⟩
    rw [obj_set_obj]
    by_cases e : x = q
    · subst e
      rw [if_pos ⟨rfl, obj_lt ho⟩, ho]
      simp
    · rw [if_neg (fun a => e a.1)]
      cases hx : s.obj x with
      | none => rfl
      | some ox =>
        simp only [Option.map_some', Option.some.injEq, e, if_false]
        cases ox
        simp

theorem release_all_gc_dec_by (E : List Nat) : ∀ (s s1 : Store), single_ctx s →
    release_all gc_dec E s = some s1 → dec_by s s1 (fun x => E.count x) (fun _ => false) := by
  induction E with
  | nil =>
    intro s s1 _ h
    simp only [release_all, Option.some.injEq] at h
    subst h
    exact dec_by_congr (dec_by_refl s) (fun _ => rfl) (fun _ => rfl)
  | cons q E ih =>
    intro s s1 hs h
    simp only [release_all] at h
    obtain ⟨s0, h0, h⟩ := Option.bind_eq_some.mp h
    have hd0 := gc_dec_by hs h0
    have hd1 := ih s0 s1 (dec_by_single hd0 hs) h
    refine dec_by_congr (dec_by_trans hd0 hd1) (fun x => ?_) (fun _ => rfl)
    rw [List.count_cons]
    by_cases e : x = q
    · subst e; simp; omega
    · have : (q == x) = false := by simpa using (fun a : q = x => e a.symm)
      simp [e, this]

theorem gc_pass1_obj_by {s s1 : Store} {p : Nat} (hs : single_ctx s)
    (h : gc_pass1_obj s p = some s1) :
    dec_by s s1 (fun x => (edges_of s p).count x) (fun x => decide (x = p)) := by
  unfold gc_pass1_obj at h
  cases ho : s.obj p with
  | none => simp [ho] at h
  | some o =>
    simp only [ho] at h
    obtain ⟨s0, h0, h⟩ := Option.bind_eq_some.mp h
    have hd0 := release_all_gc_dec_by _ s s0 hs h0
    split at h
    · cases h
    · cases ho1 : s0.obj p with
      | none => simp [ho1] at h
      | some o1 =>
        simp only [ho1, Option.some.injEq] at h
        subst h
        have hd1 : dec_by s0 (s0.set_obj p { o1 with gc_marked := true }) (fun _ => 0)
            (fun x => decide (x = p)) := by
          refine ⟨rfl, by simp [Store.set_obj], fun x => ?_⟩
          rw [obj_set_obj]
          by_cases e : x = p
          · subst e
            rw [if_pos ⟨rfl, obj_lt ho1⟩, ho1]
            simp
          · rw [if_neg (fun a => e a.1)]
            cases hx : s0.obj x with
            | none => rfl
            | some ox =>
              simp only [Option.map_some', Option.some.injEq, e, decide_False, Bool.or_false]
              cases ox
              simp
        refine dec_by_congr (dec_by_trans hd0 hd1) (fun x => ?_) (fun x => by simp)
        rw [edges_of_some ho]; rfl

theorem gc_pass1_list_by (L : List Nat) : ∀ (s s1 : Store), single_ctx s →
    release_all gc_pass1_obj L s = some s1 →
    dec_by s s1 (listed_links s L) (fun x => decide (x ∈ L)) := by
  induction L with
  | nil =>
    intro s s1 _ h
    simp only [release_all, Option.some.injEq] at h
    subst h
    exact dec_by_congr (dec_by_refl s) (fun _ => rfl) (fun x => by simp)
  | cons p L ih =>
    intro s s1 hs h
    simp only [release_all] at h
    obtain ⟨s0, h0, h⟩ := Option.bind_eq_some.mp h
    have hd0 := gc_pass1_obj_by hs h0
    have hd1 := ih s0 s1 (dec_by_single hd0 hs) h
    refine dec_by_congr (dec_by_trans hd0 hd1) (fun x => ?_) (fun x => by simp)
    unfold listed_links
    rw [List.map_cons, List.sum_cons]
    congr 1
    congr 1
    refine List.map_congr_left (fun q _ => ?_)
    rw [dec_by_edges hd0 q]

theorem gc_pass1_by {s s1 : Store} (hs : single_ctx s) (h : gc_pass1 s = some s1) :
    dec_by s s1 (listed_links s s.ctx.objects) (fun x => decide (x ∈ s.ctx.objects)) :=
  gc_pass1_list_by _ s s1 hs h

theorem indeg_split (s : Store) (x : Nat) : ∀ (L Z : List Nat), L.Nodup →
    (∀ q ∈ L, q ∉ Z ∧ q < s.heap.length) →
    indeg s Z x = indeg s (L ++ Z) x + listed_links s L x := by
  intro L
  induction L with
  | nil => intro Z _ _; simp [listed_links]
  | cons a L ih =>
    intro Z hnd hL
    have ha := hL a (List.mem_cons_self _ _)
    have hnd' := (List.nodup_cons.mp hnd).2
    have haL : a ∉ L := (List.nodup_cons.mp hnd).1
    rw [ih Z hnd' (fun q hq => hL q (List.mem_cons_of_mem _ hq))]
    have hnot : a ∉ L ++ Z := by
      intro hm
      rcases List.mem_append.mp hm with b | b
      · exact haL b
      · exact ha.1 b
    rw [indeg_move ha.2 hnot x]
    unfold listed_links
    rw [List.map_cons, List.sum_cons, List.cons_append]
    omega

theorem range_sum_pos (n : Nat) (f : Nat → Nat) (h : 0 < ((List.range n).map f).sum) :
    ∃ q, q < n ∧ 0 < f q := by
  induction n with
  | zero => simp at h
  | succ n ih =>
    rw [List.sum_range_succ] at h
    by_cases hn : 0 < f n
    · exact ⟨n, Nat.lt_succ_self n, hn⟩
    · obtain ⟨q, hq, hf⟩ := ih (by omega)
      exact ⟨q, Nat.lt_succ_of_lt hq, hf⟩

theorem indeg_pos {s : Store} {Z : List Nat} {x : Nat} (h : 0 < indeg s Z x) :
    ∃ u, u ∉ Z ∧ x ∈ edges_of s u := by
  obtain ⟨q, _, hq⟩ := range_sum_pos _ _ h
  by_cases hz : q ∈ Z
  · simp [hz] at hq
  · simp only [hz, if_false] at hq
    exact ⟨q, hz, List.count_pos_iff.mp hq⟩

/-! ### The traversal stack -/

theorem gc_stack_push_spec {g g1 : gc_ctx} {a a1 : Nat} {obj : Option Nat} (hw : stack_wf g)
    (h : gc_stack_push g a obj = some (g1, a1)) :
    stack_wf g1 ∧ stack_list g1 = obj :: stack_list g := by
  unfold gc_stack_push at h
  by_cases h0 : g.idx = 0
  · simp only [h0, if_true] at h
    have hfull : ∀ c1 ∈ g.chunks, c1.length = GC_CHUNK := by
      intro c1 hc1
      unfold stack_wf at hw
      cases hch : g.chunks with
      | nil => rw [hch] at hc1; cases hc1
      | cons c prev =>
        rw [hch] at hw hc1
        rcases List.mem_cons.mp hc1 with e | e
        · rw [e]; omega
        · exact hw.2 c1 e
    have key : ∀ (gN : gc_ctx) (a2 : Nat), gN.chunks = [obj] :: g.chunks →
        gN.idx = GC_CHUNK - 1 → (g1, a1) = (gN, a2) →
        stack_wf g1 ∧ stack_list g1 = obj :: stack_list g := by
      intro gN a2 e1 e2 e
      simp only [Prod.mk.injEq] at e
      rw [e.1]
      refine ⟨?_, by simp [stack_list, e1]⟩
      unfold stack_wf
      rw [e1]
      exact ⟨by simp [e2, GC_CHUNK], hfull⟩
    by_cases hn : g.next = true
    · simp only [hn, if_true, Option.some.injEq] at h
      exact key _ a rfl rfl h.symm
    · simp only [hn, Bool.false_eq_true, if_false] at h
      cases hm : malloc a with
      | none => simp [hm] at h
      | some a2 =>
        simp only [hm, Option.map_some', Option.some.injEq] at h
        exact key _ a2 rfl rfl h.symm
  · simp only [h0, if_false] at h
    unfold stack_wf at hw
    cases hch : g.chunks with
    | nil => rw [hch] at hw; exact absurd hw h0
    | cons c prev =>
      rw [hch] at hw
      simp only [hch, Option.some.injEq, Prod.mk.injEq] at h
      rw [← h.1]
      refine ⟨?_, by simp [stack_list, hch]⟩
      unfold stack_wf
      simp only [List.length_cons]
      exact ⟨by omega, hw.2⟩

theorem gc_stack_pop_spec {g g1 : gc_ctx} {obj : Option Nat} (hw : stack_wf g)
    (h : gc_stack_pop g = some (g1, obj)) :
    stack_wf g1 ∧ stack_list g = obj :: stack_list g1 := by
  unfold gc_stack_pop at h
  unfold stack_wf at hw
  cases hch : g.chunks with
  | nil => simp [hch] at h
  | cons c prev =>
    cases c with
    | nil => simp [hch] at h
    | cons x c =>
      rw [hch] at hw
      simp only [hch] at h
      simp only [List.length_cons] at hw
      by_cases hi : g.idx + 1 = GC_CHUNK
      · simp only [hi, if_true, Option.some.injEq, Prod.mk.injEq] at h
        have hc : c = [] := List.length_eq_zero.mp (by omega)
        rw [← h.1, ← h.2]
        refine ⟨?_, by simp [stack_list, hch, hc]⟩
        unfold stack_wf
        cases hp : prev with
        | nil => rfl
        | cons c2 prev2 =>
          rw [hp] at hw
          exact ⟨by simp [hw.2 c2 (List.mem_cons_self _ _)],
            fun c1 hc1 => hw.2 c1 (List.mem_cons_of_mem _ hc1)⟩
      · simp only [hi, if_false, Option.some.injEq, Prod.mk.injEq] at h
        rw [← h.1, ← h.2]
        refine ⟨?_, by simp [stack_list, hch]⟩
        unfold stack_wf
        exact ⟨by simp only; omega, hw.2⟩

/-! ### Pass 2 clears the marks of what the roots reach -/

theorem mark_of_some {s : Store} {x : Nat} {o : jsdisp_t} (h : s.obj x = some o) :
    mark_of s x = o.gc_marked := by
  unfold mark_of; rw [h]; rfl

theorem mark_of_heap {s s1 : Store} (h : s1.heap = s.heap) (x : Nat) :
    mark_of s1 x = mark_of s x := by
  unfold mark_of Store.obj; rw [h]

theorem single_ctx_of_heap {s s1 : Store} (h1 : s1.heap = s.heap) (h2 : s1.ctx = s.ctx)
    (hs : single_ctx s) : single_ctx s1 := by
  intro x o hx
  unfold Store.obj at hx
  rw [h1] at hx
  rw [h2]
  exact hs x o hx

theorem gc_push_links_spec (E : List Nat) : ∀ (s : Store) (g : gc_ctx) (s1 : Store)
    (g1 : gc_ctx), single_ctx s → stack_wf g → gc_push_links E s g = some (s1, g1, true) →
    stack_wf g1 ∧ s1.heap = s.heap ∧ s1.ctx = s.ctx ∧
    ∃ P : List Nat, stack_list g1 = P.map some ++ stack_list g ∧
      (∀ t ∈ P, t ∈ E ∧ mark_of s t = true) ∧ (∀ t ∈ E, mark_of s t = true → t ∈ P) := by
  induction E with
  | nil =>
    intro s g s1 g1 _ hw h
    simp only [gc_push_links, Option.some.injEq, Prod.mk.injEq, and_true] at h
    rw [← h.1, ← h.2]
    exact ⟨hw, rfl, rfl, [], rfl, fun t ht => absurd ht (List.not_mem_nil t),
      fun t ht => absurd ht (List.not_mem_nil t)⟩
  | cons q E ih =>
    intro s g s1 g1 hs hw h
    simp only [gc_push_links] at h
    cases ho : s.obj q with
    | none => simp [ho] at h
    | some link =>
      simp only [ho] at h
      have hmq : mark_of s q = link.gc_marked := mark_of_some ho
      by_cases hc : link.gc_marked = true ∧ link.ctx = s.ctx.self
      · rw [if_pos hc] at h
        cases hp : gc_stack_push g s.avail (some q) with
        | none => simp [hp] at h
        | some r =>
          obtain ⟨g2, a⟩ := r
          simp only [hp] at h
          obtain ⟨hw2, hl2⟩ := gc_stack_push_spec hw hp
          have hs2 : single_ctx ({ s with avail := a } : Store) :=
            single_ctx_of_heap rfl rfl hs
          obtain ⟨hw1, hh, hcx, P, hP, hP1, hP2⟩ := ih { s with avail := a } g2 s1 g1 hs2 hw2 h
          refine ⟨hw1, hh, hcx, P ++ [q], ?_, ?_, ?_⟩
          · rw [hP, hl2]; simp
          · intro t ht
            rcases List.mem_append.mp ht with b | b
            · exact ⟨List.mem_cons_of_mem _ (hP1 t b).1, (hP1 t b).2⟩
            · rw [List.mem_singleton.mp b]
              exact ⟨List.mem_cons_self _ _, by rw [hmq]; exact hc.1⟩
          · intro t ht hm
            rcases List.mem_cons.mp ht with b | b
            · rw [b]; exact List.mem_append_right _ (List.mem_singleton.mpr rfl)
            · exact List.mem_append_left _ (hP2 t b hm)
      · rw [if_neg hc] at h
        obtain ⟨hw1, hh, hcx, P, hP, hP1, hP2⟩ := ih s g s1 g1 hs hw h
        refine ⟨hw1, hh, hcx, P, hP, fun t ht => ⟨List.mem_cons_of_mem _ (hP1 t ht).1,
          (hP1 t ht).2⟩, fun t ht hm => ?_⟩
        rcases List.mem_cons.mp ht with b | b
        · exfalso
          rw [b, hmq] at hm
          exact hc ⟨hm, hs q link ho⟩
        · exact hP2 t b hm

theorem gc_pop_marked_spec (s : Store) : ∀ (fuel : Nat) (g g1 : gc_ctx) (r : Option Nat)
    (A : List Nat) (B : List (Option Nat)), stack_wf g →
    stack_list g = A.map some ++ none :: B → gc_pop_marked s fuel g = some (g1, r) →
    stack_wf g1 ∧
    ((r = none ∧ stack_list g1 = B ∧ ∀ t ∈ A, mark_of s t = false) ∨
     (∃ (q : Nat) (A1 A2 : List Nat), r = some q ∧ A = A1 ++ q :: A2 ∧ (∀ t ∈ A1, mark_of s t = false) ∧
        mark_of s q = true ∧ stack_list g1 = A2.map some ++ none :: B)) := by
  intro fuel
  induction fuel with
  | zero => intro g g1 r A B _ _ h; simp [gc_pop_marked] at h
  | succ fuel ih =>
    intro g g1 r A B hw hl h
    simp only [gc_pop_marked] at h
    cases hp : gc_stack_pop g with
    | none => simp [hp] at h
    | some u =>
      obtain ⟨g2, top⟩ := u
      obtain ⟨hw2, hl2⟩ := gc_stack_pop_spec hw hp
      simp only [hp] at h
      rw [hl] at hl2
      cases A with
      | nil =>
        simp only [List.map_nil, List.nil_append, List.cons.injEq] at hl2
        rw [← hl2.1] at h
        simp only [Option.some.injEq, Prod.mk.injEq] at h
        rw [← h.1, ← h.2]
        exact ⟨hw2, Or.inl ⟨rfl, hl2.2.symm, fun t ht => absurd ht (List.not_mem_nil t)⟩⟩
      | cons a A =>
        simp only [List.map_cons, List.cons_append, List.cons.injEq] at hl2
        rw [← hl2.1] at h
        simp only at h
        cases ho : s.obj a with
        | none => simp [ho] at h
        | some o =>
          simp only [ho] at h
          have hma : mark_of s a = o.gc_marked := mark_of_some ho
          by_cases hm : o.gc_marked = true
          · simp only [hm, if_true, Option.some.injEq, Prod.mk.injEq] at h
            rw [← h.1, ← h.2]
            exact ⟨hw2, Or.inr ⟨a, [], A, rfl, rfl,
              fun t ht => absurd ht (List.not_mem_nil t), by rw [hma]; exact hm, hl2.2.symm⟩⟩
          · simp only [hm, Bool.false_eq_true, if_false] at h
            have hma' : mark_of s a = false := by
              rw [hma]; cases hb : o.gc_marked with
              | true => exact absurd hb hm
              | false => rfl
            obtain ⟨hw1, hres⟩ := ih g2 g1 r A B hw2 hl2.2.symm h
            refine ⟨hw1, ?_⟩
            rcases hres with ⟨e1, e2, e3⟩ | ⟨q, A1, A2, e1, e2, e3, e4, e5⟩
            · refine Or.inl ⟨e1, e2, fun t ht => ?_⟩
              rcases List.mem_cons.mp ht with b | b
              · rw [b]; exact hma'
              · exact e3 t b
            · refine Or.inr ⟨q, a :: A1, A2, e1, by rw [e2]; rfl, fun t ht => ?_, e4, e5⟩
              rcases List.mem_cons.mp ht with b | b
              · rw [b]; exact hma'
              · exact e3 t b

theorem marks_cleared_refl (s : Store) : marks_cleared s s :=
  ⟨mark_frame_refl s, fun _ h => h⟩

theorem marks_cleared_trans {a b c : Store} (h1 : marks_cleared a b) (h2 : marks_cleared b c) :
    marks_cleared a c :=
  ⟨mark_frame_trans h1.1 h2.1, fun x hx => h2.2 x (h1.2 x hx)⟩

theorem marks_cleared_of_heap {s s1 : Store} (h1 : s1.heap = s.heap) (h2 : s1.ctx = s.ctx) :
    marks_cleared s s1 :=
  ⟨mark_frame_of_heap h1 h2, fun x hx => by rw [mark_of_heap h1]; exact hx⟩

theorem mark_of_set_obj {s : Store} {q : Nat} {o : jsdisp_t} (ho : s.obj q = some o)
    (o1 : jsdisp_t) (x : Nat) :
    mark_of (s.set_obj q o1) x = if x = q then o1.gc_marked else mark_of s x := by
  unfold mark_of
  rw [obj_set_obj]
  by_cases e : x = q
  · subst e
    rw [if_pos ⟨rfl, obj_lt ho⟩, if_pos rfl]; rfl
  · rw [if_neg (fun a => e a.1), if_neg e]

theorem marks_cleared_unmark {s : Store} {q : Nat} {o : jsdisp_t} (ho : s.obj q = some o) :
    marks_cleared s (s.set_obj q { o with gc_marked := false }) := by
  refine ⟨mark_frame_set_obj ho _ rfl, fun x hx => ?_⟩
  rw [mark_of_set_obj ho]
  split
  · rfl
  · exact hx

theorem mark_frame_edges {s s1 : Store} (h : mark_frame s s1) (x : Nat) :
    edges_of s1 x = edges_of s x :=
  edges_of_frame (gc_frame_of_mark_frame h) x

theorem mark_frame_single {s s1 : Store} (h : mark_frame s s1) (hs : single_ctx s) :
    single_ctx s1 := by
  intro x o1 hx
  have := h.2.2 x
  rw [hx] at this
  cases ho : s.obj x with
  | none => rw [ho] at this; cases this
  | some o =>
    rw [ho] at this
    simp only [Option.map_some', Option.some.injEq] at this
    have hc : o1.ctx = o.ctx := by
      show (mark_core o1).ctx = (mark_core o).ctx
      rw [this]
    rw [hc, h.1]
    exact hs x o ho

theorem gc_traverse_loop_spec (sb : Store) (R : Nat → Prop) (hsb : single_ctx sb)
    (hRstep : ∀ u t, R u → t ∈ edges_of sb u → R t) :
    ∀ (fuel : Nat) (s : Store) (g : gc_ctx) (cur : Nat) (A : List Nat) (B : List (Option Nat))
      (r : Store × gc_ctx × Bool),
      marks_cleared sb s → stack_wf g → stack_list g = A.map some ++ none :: B →
      (∀ u, mark_of sb u = true → mark_of s u = false → ∀ t ∈ edges_of sb u,
        mark_of s t = true → t ∈ A ∨ t = cur) →
      (∀ u, mark_of sb u = true → mark_of s u = false → R u) → (∀ t ∈ A, R t) → R cur →
      gc_traverse_loop fuel s g cur = some r → r.2.2 = true →
      marks_cleared s r.1 ∧ mark_of r.1 cur = false ∧ stack_wf r.2.1 ∧ stack_list r.2.1 = B ∧
      (∀ u, mark_of sb u = true → mark_of r.1 u = false → ∀ t ∈ edges_of sb u,
        mark_of r.1 t = false) ∧
      (∀ u, mark_of sb u = true → mark_of r.1 u = false → R u) := by
  intro fuel
  induction fuel with
  | zero => intro s g cur A B r _ _ _ _ _ _ _ h; simp [gc_traverse_loop] at h
  | succ fuel ih =>
    intro s g cur A B r hms hw hl hI2 hI3 hA hcur h hflag
    simp only [gc_traverse_loop] at h
    cases ho : s.obj cur with
    | none => simp [ho] at h
    | some o =>
      simp only [ho] at h
      obtain ⟨s1, hs1⟩ : ∃ s1, s1 = s.set_obj cur { o with gc_marked := false } := ⟨_, rfl⟩
      rw [← hs1] at h
      have hm1 : marks_cleared s s1 := by rw [hs1]; exact marks_cleared_unmark ho
      have hmark1 : ∀ x, mark_of s1 x = if x = cur then false else mark_of s x := by
        intro x; rw [hs1, mark_of_set_obj ho]
      have hedge : edges_of sb cur = obj_edges o := by
        rw [← mark_frame_edges hms.1 cur, edges_of_some ho]
      have hsingle1 : single_ctx s1 := mark_frame_single (mark_frame_trans hms.1 hm1.1) hsb
      cases hp : gc_push_links (obj_edges o) s1 g with
      | none => simp [hp] at h
      | some u =>
        obtain ⟨s2, g2, b⟩ := u
        simp only [hp] at h
        cases b with
        | false =>
          simp only [Option.some.injEq] at h
          rw [← h] at hflag
          cases hflag
        | true =>
          simp only at h
          obtain ⟨hw2, hh2, hc2, P, hP, hP1, hP2⟩ :=
            gc_push_links_spec _ s1 g s2 g2 hsingle1 hw hp
          have hm2 : marks_cleared s1 s2 := marks_cleared_of_heap hh2 hc2
          have hmark2 : ∀ x, mark_of s2 x = if x = cur then false else mark_of s x := by
            intro x; rw [mark_of_heap hh2, hmark1]
          have hl2 : stack_list g2 = (P ++ A).map some ++ none :: B := by
            rw [hP, hl]; simp
          have hms2 : marks_cleared s s2 := marks_cleared_trans hm1 hm2
          have hRA : ∀ t ∈ P ++ A, R t := by
            intro t ht
            rcases List.mem_append.mp ht with b | b
            · exact hRstep cur t hcur (by rw [hedge]; exact (hP1 t b).1)
            · exact hA t b
          have hclr : ∀ u, mark_of sb u = true → mark_of s2 u = false → R u := by
            intro u hu hu2
            by_cases e : u = cur
            · rw [e]; exact hcur
            · rw [hmark2, if_neg e] at hu2
              exact hI3 u hu hu2
          have hedges : ∀ u, mark_of sb u = true → mark_of s2 u = false →
              ∀ t ∈ edges_of sb u, mark_of s2 t = true → t ∈ P ++ A := by
            intro u hu hu2 t ht htm
            have htc : t ≠ cur := by
              intro e; rw [hmark2, if_pos e] at htm; cases htm
            have hts : mark_of s t = true := by rw [hmark2, if_neg htc] at htm; exact htm
            by_cases e : u = cur
            · rw [e, hedge] at ht
              refine List.mem_append_left _ (hP2 t ht ?_)
              rw [hmark1, if_neg htc]; exact hts
            · rw [hmark2, if_neg e] at hu2
              rcases hI2 u hu hu2 t ht hts with b | b
              · exact List.mem_append_right _ b
              · exact absurd b htc
          split at h
          · cases h
          · cases hpm : gc_pop_marked s2 (gc_stack_size g2 + 1) g2 with
            | none => simp [hpm] at h
            | some v =>
              obtain ⟨g3, nx⟩ := v
              simp only [hpm] at h
              obtain ⟨hw3, hres⟩ := gc_pop_marked_spec s2 _ g2 g3 nx (P ++ A) B hw2 hl2 hpm
              rcases hres with ⟨e1, e2, e3⟩ | ⟨q, A1, A2, e1, e2, e3, e4, e5⟩
              · subst e1
                simp only [Option.some.injEq] at h
                rw [← h]
                refine ⟨hms2, by rw [hmark2, if_pos rfl], hw3, e2, ?_, hclr⟩
                intro u hu hu2 t ht
                cases htm : mark_of s2 t with
                | false => rfl
                | true =>
                  have := e3 t (hedges u hu hu2 t ht htm)
                  rw [this] at htm; cases htm
              · subst e1
                simp only at h
                have hmsb2 : marks_cleared sb s2 := marks_cleared_trans hms hms2
                have hI2' : ∀ u, mark_of sb u = true → mark_of s2 u = false →
                    ∀ t ∈ edges_of sb u, mark_of s2 t = true → t ∈ A2 ∨ t = q := by
                  intro u hu hu2 t ht htm
                  have := hedges u hu hu2 t ht htm
                  rw [e2] at this
                  rcases List.mem_append.mp this with b | b
                  · have := e3 t b
                    rw [this] at htm; cases htm
                  · rcases List.mem_cons.mp b with c | c
                    · exact Or.inr c
                    · exact Or.inl c
                have hA2 : ∀ t ∈ A2, R t := fun t ht =>
                  hRA t (by rw [e2]; exact List.mem_append_right _ (List.mem_cons_of_mem _ ht))
                have hq : R q :=
                  hRA q (by rw [e2]; exact List.mem_append_right _ (List.mem_cons_self _ _))
                obtain ⟨c1, _, c3, c4, c5, c6⟩ :=
                  ih s2 g3 q A2 B r hmsb2 hw3 e5 hI2' hclr hA2 hq h hflag
                refine ⟨marks_cleared_trans hms2 c1, ?_, c3, c4, c5, c6⟩
                exact c1.2 cur (by rw [hmark2, if_pos rfl])

theorem mark_frame_obj_some {s s1 : Store} (h : mark_frame s s1) {x : Nat} {o1 : jsdisp_t}
    (hx : s1.obj x = some o1) :
    ∃ o, s.obj x = some o ∧ o.ref = o1.ref ∧ o.proxy = o1.proxy := by
  have := h.2.2 x
  rw [hx] at this
  cases ho : s.obj x with
  | none => rw [ho] at this; cases this
  | some o =>
    rw [ho] at this
    simp only [Option.map_some', Option.some.injEq] at this
    refine ⟨o, rfl, ?_, ?_⟩
    · show (mark_core o).ref = (mark_core o1).ref
      rw [this]
    · show (mark_core o).proxy = (mark_core o1).proxy
      rw [this]

theorem gc_pass2_spec (sb : Store) (R : Nat → Prop) (hsb : single_ctx sb)
    (hRstep : ∀ u t, R u → t ∈ edges_of sb u → R t)
    (hRroot : ∀ p o, sb.obj p = some o → mark_of sb p = true →
      ¬ (o.ref = 0 ∧ o.proxy.isNone = true) → R p) :
    ∀ (L : List Nat) (s : Store) (g : gc_ctx) (r : Store × gc_ctx × Bool),
      marks_cleared sb s → stack_wf g →
      (∀ u, mark_of sb u = true → mark_of s u = false → ∀ t ∈ edges_of sb u,
        mark_of s t = false) →
      (∀ u, mark_of sb u = true → mark_of s u = false → R u) →
      gc_pass2 L s g = some r → r.2.2 = true →
      marks_cleared s r.1 ∧
      (∀ u, mark_of sb u = true → mark_of r.1 u = false → ∀ t ∈ edges_of sb u,
        mark_of r.1 t = false) ∧
      (∀ u, mark_of sb u = true → mark_of r.1 u = false → R u) ∧
      (∀ x ∈ L, ∀ o, sb.obj x = some o → mark_of r.1 x = true →
        o.ref = 0 ∧ o.proxy.isNone = true) := by
  intro L
  induction L with
  | nil =>
    intro s g r _ _ hcl hR h _
    simp only [gc_pass2, Option.some.injEq] at h
    rw [← h]
    exact ⟨marks_cleared_refl s, hcl, hR, fun x hx => absurd hx (List.not_mem_nil x)⟩
  | cons p L ih =>
    intro s g r hms hw hcl hR h hflag
    simp only [gc_pass2] at h
    cases ho : s.obj p with
    | none => simp [ho] at h
    | some o =>
      simp only [ho] at h
      obtain ⟨ob, hob, hobr, hobp⟩ := mark_frame_obj_some hms.1 ho
      have hmp : mark_of s p = o.gc_marked := mark_of_some ho
      by_cases hskip : ¬ o.gc_marked = true ∨ (o.ref = 0 ∧ o.proxy.isNone = true)
      · rw [if_pos hskip] at h
        obtain ⟨c1, c2, c3, c4⟩ := ih s g r hms hw hcl hR h hflag
        refine ⟨c1, c2, c3, fun x hx ox hox hmx => ?_⟩
        rcases List.mem_cons.mp hx with e | e
        · subst e
          rw [hob] at hox; cases hox
          rcases hskip with a | a
          · exfalso
            have : mark_of s x = false := by
              rw [hmp]; cases hb : o.gc_marked with
              | true => exact absurd hb a
              | false => rfl
            rw [c1.2 x this] at hmx; cases hmx
          · rw [hobr, hobp]; exact a
        · exact c4 x e ox hox hmx
      · rw [if_neg hskip] at h
        have hmarked : o.gc_marked = true := by
          by_contra hn; exact hskip (Or.inl hn)
        have hroot : ¬ (ob.ref = 0 ∧ ob.proxy.isNone = true) := by
          rw [hobr, hobp]; exact fun a => hskip (Or.inr a)
        cases hp : gc_stack_push g s.avail none with
        | none =>
          simp only [hp, Option.some.injEq] at h
          rw [← h] at hflag; cases hflag
        | some u =>
          obtain ⟨g1, a⟩ := u
          simp only [hp] at h
          obtain ⟨hw1, hl1⟩ := gc_stack_push_spec hw hp
          cases ht : gc_traverse_loop (s.heap.length + 1) { s with avail := a } g1 p with
          | none => simp [ht] at h
          | some v =>
            obtain ⟨s2, g2, b⟩ := v
            simp only [ht] at h
            cases b with
            | false =>
              simp only [Option.map_eq_some'] at h
              obtain ⟨g3, _, h3⟩ := h
              rw [← h3] at hflag; cases hflag
            | true =>
              simp only at h
              have hm0 : marks_cleared s ({ s with avail := a } : Store) :=
                marks_cleared_of_heap rfl rfl
              have hmk : ∀ x, mark_of ({ s with avail := a } : Store) x = mark_of s x :=
                fun x => mark_of_heap rfl x
              have hsbp : mark_of sb p = true := by
                cases hb : mark_of sb p with
                | true => rfl
                | false =>
                  have := hms.2 p hb
                  rw [hmp, hmarked] at this; cases this
              obtain ⟨d1, d2, d3, _, d5, d6⟩ := gc_traverse_loop_spec sb R hsb hRstep _
                { s with avail := a } g1 p [] (stack_list g) (s2, g2, true)
                (marks_cleared_trans hms hm0) hw1 (by rw [hl1]; rfl)
                (fun u hu hu2 t ht htm => by
                  rw [hmk] at hu2 htm
                  rw [hcl u hu hu2 t ht] at htm; cases htm)
                (fun u hu hu2 => by rw [hmk] at hu2; exact hR u hu hu2)
                (fun t ht => absurd ht (List.not_mem_nil t))
                (hRroot p ob hob hsbp hroot) ht rfl
              have hms2 : marks_cleared sb s2 :=
                marks_cleared_trans hms (marks_cleared_trans hm0 d1)
              obtain ⟨c1, c2, c3, c4⟩ := ih s2 g2 r hms2 d3 d5 d6 h hflag
              refine ⟨marks_cleared_trans (marks_cleared_trans hm0 d1) c1, c2, c3,
                fun x hx ox hox hmx => ?_⟩
              rcases List.mem_cons.mp hx with e | e
              · exfalso
                rw [e, c1.2 p d2] at hmx; cases hmx
              · exact c4 x e ox hox hmx

/-! ### Contexts with accurate reference counts -/

theorem ctx_wf_obj {s : Store} (h : ctx_wf s) {x : Nat} {o : jsdisp_t} (hx : s.obj x = some o) :
    (x ∈ s.ctx.objects ∨ (o.proxy.isSome = true ∧ o.ref = 0 ∧ o.gc_marked = false)) ∧
    o.ctx = s.ctx.self ∧ (o.proxy = none → 1 ≤ o.ref) ∧ (indeg s [] x : Int) ≤ o.ref ∧
    ∀ t ∈ obj_edges o, (s.obj t).isSome = true := by
  have := h.2.2 x (obj_lt hx)
  unfold obj_ok at this
  rw [hx] at this
  exact of_decide_eq_true this

theorem ctx_wf_single {s : Store} (h : ctx_wf s) : single_ctx s :=
  fun _ _ hx => (ctx_wf_obj h hx).2.1

theorem ctx_wf_target_listed {s : Store} (h : ctx_wf s) {u t : Nat} (ht : t ∈ edges_of s u) :
    t ∈ s.ctx.objects := by
  cases hu : s.obj u with
  | none => rw [edges_of_none hu] at ht; cases ht
  | some ou =>
    have hsome := (ctx_wf_obj h hu).2.2.2.2 t (by rw [← edges_of_some hu]; exact ht)
    cases hot : s.obj t with
    | none => rw [hot] at hsome; cases hsome
    | some ot =>
      obtain ⟨hhome, _, _, hin, _⟩ := ctx_wf_obj h hot
      have h1 := indeg_term_le (obj_lt hu) (List.not_mem_nil u) t
      have h2 := List.count_pos_iff.mpr ht
      rcases hhome with a | ⟨_, a, _⟩
      · exact a
      · exfalso; rw [a] at hin; omega

theorem ctx_wf_links_listed {s : Store} (h : ctx_wf s) : links_listed s := by
  intro p _ q hq
  unfold listed_or_foreign
  cases hoq : s.obj q with
  | none => rfl
  | some oq =>
    simp only [decide_eq_true_eq]
    exact fun _ => ctx_wf_target_listed h hq

theorem gc_mark_phase_ok {s sM : Store} {hres : HRESULT}
    (h : gc_mark_phase s = some (sM, hres)) (hok : FAILED hres = false) :
    ∃ (a1 : Nat) (s1 : Store) (r : Store × gc_ctx × Bool),
      gc_pass1 { s with avail := a1 } = some s1 ∧
      gc_pass2 s1.ctx.objects s1 gc_ctx.init = some r ∧ r.2.2 = true ∧
      gc_restore r.1.ctx.objects (s.ctx.objects.map (ref_of s)) r.1 = some sM := by
  unfold gc_mark_phase at h
  cases hm : malloc s.avail with
  | none =>
    simp only [hm, Option.some.injEq, Prod.mk.injEq] at h
    rw [← h.2] at hok; cases hok
  | some a0 =>
    simp only [hm] at h
    cases hs : gc_save_refs s s.ctx.objects 0 a0 with
    | none => simp [hs] at h
    | some x =>
      cases x with
      | none =>
        simp only [hs, Option.some.injEq, Prod.mk.injEq] at h
        rw [← h.2] at hok; cases hok
      | some y =>
        obtain ⟨refs, a1⟩ := y
        simp only [hs] at h
        have hrefs := gc_save_refs_eq s _ _ _ _ _ hs
        obtain ⟨s1, h1, h⟩ := Option.bind_eq_some.mp h
        obtain ⟨r, h2, h⟩ := Option.bind_eq_some.mp h
        simp only [Option.map_eq_some', Prod.mk.injEq] at h
        obtain ⟨s3, h3, h4, h5⟩ := h
        subst h4
        refine ⟨a1, s1, r, h1, h2, ?_, by rw [← hrefs]; exact h3⟩
        cases hb : r.2.2 with
        | true => rfl
        | false =>
          rw [hb] at h5
          simp only [Bool.false_eq_true, if_false] at h5
          rw [← h5] at hok; cases hok

theorem gc_restore_marks {f : Nat → Int} {L : List Nat} {s s3 : Store}
    (h : gc_restore L (L.map f) s = some s3) (x : Nat) : mark_of s3 x = mark_of s x := by
  obtain ⟨_, _, hun, hin⟩ := gc_restore_spec f L s s3 h
  by_cases hx : x ∈ L
  · obtain ⟨o2, h1, h2⟩ := hin x hx
    rw [mark_of_some h1, mark_of_some h2]
  · unfold mark_of; rw [hun x hx]

theorem dec_by_obj {s s1 : Store} {c : Nat → Nat} {m : Nat → Bool} (h : dec_by s s1 c m)
    {x : Nat} {o : jsdisp_t} (hx : s.obj x = some o) :
    s1.obj x = some { o with ref := o.ref - (c x : Int), gc_marked := o.gc_marked || m x } := by
  rw [h.2.2 x, hx]; rfl

theorem dec_by_obj_inv {s s1 : Store} {c : Nat → Nat} {m : Nat → Bool} (h : dec_by s s1 c m)
    {x : Nat} {o1 : jsdisp_t} (hx : s1.obj x = some o1) :
    ∃ o, s.obj x = some o ∧
      o1 = { o with ref := o.ref - (c x : Int), gc_marked := o.gc_marked || m x } := by
  rw [h.2.2 x] at hx
  cases ho : s.obj x with
  | none => rw [ho] at hx; cases hx
  | some o =>
    rw [ho] at hx
    simp only [Option.map_some', Option.some.injEq] at hx
    exact ⟨o, rfl, hx.symm⟩

theorem ext_refs_some {s : Store} {x : Nat} {o : jsdisp_t} (hx : s.obj x = some o) :
    ext_refs s x = o.ref - (indeg s [] x : Int) := by
  unfold ext_refs ref_of; rw [hx]; rfl

theorem ctx_wf_split {s : Store} (h : ctx_wf s) (x : Nat) :
    indeg s [] x = indeg s s.ctx.objects x + listed_links s s.ctx.objects x := by
  have := indeg_split s x s.ctx.objects [] h.1 (fun q hq => by
    refine ⟨List.not_mem_nil q, ?_⟩
    have := h.2.1 q hq
    cases hoq : s.obj q with
    | none => rw [hoq] at this; cases this
    | some oq => exact obj_lt hoq)
  rwa [List.append_nil] at this

/-- The reference count pass 1 leaves on a listed object: its references from
outside and the links of unlisted objects. -/
theorem pass1_ref {s : Store} (h : ctx_wf s) {x : Nat} {o : jsdisp_t} (hx : s.obj x = some o) :
    o.ref - (listed_links s s.ctx.objects x : Int) =
      ext_refs s x + (indeg s s.ctx.objects x : Int) ∧ 0 ≤ ext_refs s x := by
  have h1 := ctx_wf_split h x
  have h2 := (ctx_wf_obj h hx).2.2.2.1
  rw [ext_refs_some hx]
  constructor
  · rw [h1]; push_cast; ring
  · omega

theorem is_root_of {s : Store} {r : Nat} {o : jsdisp_t} (hr : s.obj r = some o)
    (h : o.proxy.isSome = true ∨ ext_refs s r ≠ 0) : is_root s r = true := by
  unfold is_root
  rw [hr]
  rcases h with a | a
  · simp [a]
  · simp [a]

theorem is_root_elim {s : Store} {r : Nat} (h : is_root s r = true) :
    ∃ o, s.obj r = some o ∧ (o.proxy.isSome = true ∨ ext_refs s r ≠ 0) := by
  unfold is_root at h
  cases hr : s.obj r with
  | none => rw [hr] at h; cases h
  | some o =>
    rw [hr] at h
    refine ⟨o, rfl, ?_⟩
    simpa using h

/-- What the first two passes compute in a context with accurate reference
counts: among the listed objects the mark stays exactly on those that are not
reachable from an object held from outside. -/
theorem pass12_analysis {s : Store} (h : ctx_wf s) {a1 : Nat} {s1 : Store}
    {r : Store × gc_ctx × Bool} (h1 : gc_pass1 { s with avail := a1 } = some s1)
    (h2 : gc_pass2 s1.ctx.objects s1 gc_ctx.init = some r) (hflag : r.2.2 = true) :
    (∀ x, x ∈ s.ctx.objects → live s x → mark_of r.1 x = false) ∧
    (∀ x, x ∈ s.ctx.objects → mark_of r.1 x = false → live s x) ∧
    (∀ u, u ∈ s.ctx.objects → mark_of r.1 u = false → ∀ t ∈ edges_of s u,
      mark_of r.1 t = false) ∧
    (∀ x o, x ∈ s.ctx.objects → s.obj x = some o → mark_of r.1 x = true →
      o.proxy = none ∧ ext_refs s x = 0 ∧ indeg s s.ctx.objects x = 0) ∧
    (∀ x, x ∉ s.ctx.objects → mark_of r.1 x = false) := by
  have hs0 : single_ctx ({ s with avail := a1 } : Store) :=
    single_ctx_of_heap rfl rfl (ctx_wf_single h)
  have hd : dec_by s s1 (listed_links s s.ctx.objects) (fun x => decide (x ∈ s.ctx.objects)) :=
    gc_pass1_by (s := { s with avail := a1 }) hs0 h1
  have hE : ∀ x, edges_of s1 x = edges_of s x := dec_by_edges hd
  have hL1 : s1.ctx.objects = s.ctx.objects := by rw [hd.1]
  have hsingle1 : single_ctx s1 := dec_by_single hd (ctx_wf_single h)
  -- the object pass 1 leaves of a listed object
  have hob : ∀ x o, x ∈ s.ctx.objects → s.obj x = some o →
      ∃ ob, s1.obj x = some ob ∧ ob.proxy = o.proxy ∧ mark_of s1 x = true ∧
        ob.ref = ext_refs s x + (indeg s s.ctx.objects x : Int) ∧ 0 ≤ ext_refs s x := by
    intro x o hx ho
    have hox := dec_by_obj hd ho
    refine ⟨_, hox, rfl, ?_, (pass1_ref h ho).1, (pass1_ref h ho).2⟩
    rw [mark_of_some hox]
    simp [hx]
  have hm1 : ∀ x, mark_of s1 x = true → x ∈ s.ctx.objects := by
    intro x hx
    by_contra hn
    cases ho1 : s1.obj x with
    | none => unfold mark_of at hx; rw [ho1] at hx; cases hx
    | some o1 =>
      obtain ⟨o, ho, he⟩ := dec_by_obj_inv hd ho1
      rw [mark_of_some ho1, he] at hx
      rcases (ctx_wf_obj h ho).1 with a | ⟨_, _, a⟩
      · exact hn a
      · simp [a, hn] at hx
  have hlisted1 : ∀ x, x ∈ s.ctx.objects → mark_of s1 x = true := by
    intro x hx
    have := h.2.1 x hx
    cases ho : s.obj x with
    | none => rw [ho] at this; cases this
    | some o => exact (hob x o hx ho).choose_spec.2.2.1
  obtain ⟨c1, c2, c3, c4⟩ := gc_pass2_spec s1
    (reach (edges_of s1) (fun p => ∃ ob, s1.obj p = some ob ∧ mark_of s1 p = true ∧
      ¬ (ob.ref = 0 ∧ ob.proxy.isNone = true)))
    hsingle1 (fun u t hu ht => reach.step u t hu ht)
    (fun p o ho hm hn => reach.base p ⟨o, ho, hm, hn⟩) s1.ctx.objects s1 gc_ctx.init r
    (marks_cleared_refl s1) rfl
    (fun u hu hu2 => by rw [hu] at hu2; cases hu2)
    (fun u hu hu2 => by rw [hu] at hu2; cases hu2) h2 hflag
  -- a marked listed object is no root
  have hnoroot : ∀ x o, x ∈ s.ctx.objects → s.obj x = some o → mark_of r.1 x = true →
      o.proxy = none ∧ ext_refs s x = 0 ∧ indeg s s.ctx.objects x = 0 := by
    intro x o hx ho hmx
    obtain ⟨ob, hob1, hpx, _, hrf, hext⟩ := hob x o hx ho
    obtain ⟨e1, e2⟩ := c4 x (by rw [hL1]; exact hx) ob hob1 hmx
    rw [hpx] at e2
    rw [hrf] at e1
    refine ⟨by simpa using e2, by omega, by omega⟩
  have hunmark : ∀ x, x ∈ s.ctx.objects → (∃ o, s.obj x = some o ∧
      (o.proxy.isSome = true ∨ ext_refs s x ≠ 0 ∨ 0 < indeg s s.ctx.objects x)) →
      mark_of r.1 x = false := by
    intro x hx ⟨o, ho, hc⟩
    cases hmx : mark_of r.1 x with
    | false => rfl
    | true =>
      exfalso
      obtain ⟨e1, e2, e3⟩ := hnoroot x o hx ho hmx
      rcases hc with a | a | a
      · rw [e1] at a; cases a
      · exact a e2
      · omega
  refine ⟨?_, ?_, ?_, hnoroot, ?_⟩
  · intro x hx hlive
    have key : ∀ y, live s y → y ∈ s.ctx.objects → mark_of r.1 y = false := by
      intro y hy
      induction hy with
      | base r0 hr0 =>
        intro hyL
        obtain ⟨o, ho, hc⟩ := is_root_elim hr0
        refine hunmark r0 hyL ⟨o, ho, ?_⟩
        rcases hc with a | a
        · exact Or.inl a
        · exact Or.inr (Or.inl a)
      | step u t _ hmem ih =>
        intro htL
        by_cases huL : u ∈ s.ctx.objects
        · exact c2 u (hlisted1 u huL) (ih huL) t (by rw [hE]; exact hmem)
        · have hot := h.2.1 t htL
          cases ho : s.obj t with
          | none => rw [ho] at hot; cases hot
          | some ot =>
            refine hunmark t htL ⟨ot, ho, Or.inr (Or.inr ?_)⟩
            have h1 := indeg_term_le (edges_of_lt hmem) huL t
            have h2 := List.count_pos_iff.mpr hmem
            omega
    exact key x hlive hx
  · intro x hx hmx
    have hR := c3 x (hlisted1 x hx) hmx
    have key : ∀ y, reach (edges_of s1) (fun p => ∃ ob, s1.obj p = some ob ∧
        mark_of s1 p = true ∧ ¬ (ob.ref = 0 ∧ ob.proxy.isNone = true)) y → live s y := by
      intro y hy
      induction hy with
      | base p hp =>
        obtain ⟨ob, hob1, hmp, hn⟩ := hp
        have hpL := hm1 p hmp
        obtain ⟨o, ho, _⟩ := dec_by_obj_inv hd hob1
        obtain ⟨ob', hob', hpx, _, hrf, hext⟩ := hob p o hpL ho
        rw [hob1] at hob'; cases hob'
        by_cases hprox : o.proxy.isSome = true
        · exact reach.base p (is_root_of ho (Or.inl hprox))
        · by_cases hext0 : ext_refs s p = 0
          · have hin : 0 < indeg s s.ctx.objects p := by
              by_contra hz
              refine hn ⟨by rw [hrf]; omega, ?_⟩
              rw [hpx]
              cases hq : o.proxy with
              | none => rfl
              | some v => rw [hq] at hprox; exact absurd rfl hprox
            obtain ⟨u, hu, hmem⟩ := indeg_pos hin
            cases hou : s.obj u with
            | none => rw [edges_of_none hou] at hmem; cases hmem
            | some ou =>
              rcases (ctx_wf_obj h hou).1 with a | ⟨a, _, _⟩
              · exact absurd a hu
              · exact reach.step u p (reach.base u (is_root_of hou (Or.inl a))) hmem
          · exact reach.base p (is_root_of ho (Or.inr hext0))
      | step u t _ hmem ih =>
        exact reach.step u t ih (by rw [← hE]; exact hmem)
    exact key x hR
  · intro u hu hmu t ht
    exact c2 u (hlisted1 u hu) hmu t (by rw [hE]; exact ht)
  · intro x hx
    cases hmx : mark_of s1 x with
    | false => exact c1.2 x hmx
    | true => exact absurd (hm1 x hmx) hx

/-! ### Pass 3 changes the context in its list only -/

theorem ctx_frame_refl (s : Store) : ctx_frame s s := rfl

theorem ctx_frame_trans {a b c : Store} (h1 : ctx_frame a b) (h2 : ctx_frame b c) :
    ctx_frame a c := by
  unfold ctx_frame at *
  rw [h2, h1]

theorem ctx_frame_of_eq {s s1 : Store} (h : s1.ctx = s.ctx) : ctx_frame s s1 := by
  unfold ctx_frame; rw [h]

theorem release_all_ctx_frame (rel : Store → Nat → Option Store)
    (hrel : ∀ s p s1, rel s p = some s1 → ctx_frame s s1) :
    ∀ (l : List Nat) (s s1 : Store), release_all rel l s = some s1 → ctx_frame s s1 := by
  intro l
  induction l with
  | nil =>
    intro s s1 h
    simp only [release_all, Option.some.injEq] at h
    subst h; exact ctx_frame_refl s
  | cons x l ih =>
    intro s s1 h
    simp only [release_all] at h
    obtain ⟨s0, h0, h⟩ := Option.bind_eq_some.mp h
    exact ctx_frame_trans (hrel s x s0 h0) (ih s0 s1 h)

theorem jsdisp_release_fuel_ctx_frame : ∀ (fuel : Nat) (s : Store) (p : Nat) (s1 : Store),
    jsdisp_release_fuel fuel s p = some s1 → ctx_frame s s1 := by
  intro fuel
  induction fuel with
  | zero => intro s p s1 h; simp [jsdisp_release_fuel] at h
  | succ fuel ih =>
    intro s p s1 h
    simp only [jsdisp_release_fuel] at h
    cases ho : s.obj p with
    | none => simp [ho] at h
    | some o =>
      simp only [ho] at h
      split at h
      · unfold jsdisp_free at h
        cases ho1 : (s.set_obj p { o with ref := o.ref - 1 }).obj p with
        | none => simp [ho1] at h
        | some o1 =>
          simp only [ho1] at h
          split at h
          · simp only [Option.some.injEq] at h
            subst h; rfl
          · split at h
            · cases h
            · obtain ⟨s3, hr1, h⟩ := Option.bind_eq_some.mp h
              obtain ⟨s4, hr2, h⟩ := Option.bind_eq_some.mp h
              simp only [Option.some.injEq] at h
              subst h
              have f1 := release_all_ctx_frame _ ih _ _ _ hr1
              have f0 : ctx_frame s ((s.set_obj p { o with ref := o.ref - 1 }).list_remove p) :=
                rfl
              have f2 : ctx_frame s3 s4 := by
                cases hpr : o1.prototype with
                | none =>
                  simp only [hpr, Option.some.injEq] at hr2
                  subst hr2; exact ctx_frame_refl s3
                | some t =>
                  simp only [hpr] at hr2
                  exact ih s3 t s4 hr2
              exact ctx_frame_trans (ctx_frame_trans f0 f1) f2
      · simp only [Option.some.injEq] at h
        subst h; rfl

theorem jsdisp_release_ctx_frame (s : Store) (p : Nat) (s1 : Store)
    (h : jsdisp_release s p = some s1) : ctx_frame s s1 :=
  jsdisp_release_fuel_ctx_frame _ s p s1 h

theorem unlink_props_ctx_frame (p : Nat) : ∀ (idxs : List Nat) (s s1 : Store),
    unlink_props p idxs s = some s1 → ctx_frame s s1 := by
  intro idxs
  induction idxs with
  | nil =>
    intro s s1 hr
    simp only [unlink_props, Option.some.injEq] at hr
    subst hr; exact ctx_frame_refl s
  | cons i rest ih =>
    intro s s1 hr
    simp only [unlink_props] at hr
    cases ho : s.obj p with
    | none => simp [ho] at hr
    | some o =>
      simp only [ho] at hr
      split at hr
      · exact ih s s1 hr
      · obtain ⟨sA, hrA, hr⟩ := Option.bind_eq_some.mp hr
        obtain ⟨sB, hrB, hr⟩ := Option.bind_eq_some.mp hr
        have fA := release_all_ctx_frame jsdisp_release jsdisp_release_ctx_frame _ _ _ hrA
        obtain ⟨oA, _, hsB⟩ := store_set_slot_eq hrB
        have fB : ctx_frame sA sB := by rw [hsB]; rfl
        exact ctx_frame_trans (ctx_frame_trans fA fB) (ih sB s1 hr)

theorem unlink_jsdisp_ctx_frame {s s1 : Store} {p : Nat} (hr : unlink_jsdisp s p = some s1) :
    ctx_frame s s1 := by
  unfold unlink_jsdisp at hr
  cases ho : s.obj p with
  | none => simp [ho] at hr
  | some o =>
    simp only [ho] at hr
    obtain ⟨sA, hrA, hr⟩ := Option.bind_eq_some.mp hr
    obtain ⟨sB, hrB, hr⟩ := Option.bind_eq_some.mp hr
    have hA := unlink_props_ctx_frame p _ _ _ hrA
    have hB : ctx_frame sA sB := by
      cases hpr : o.prototype with
      | none =>
        simp only [hpr, Option.some.injEq] at hrB
        subst hrB; exact ctx_frame_refl sA
      | some t =>
        simp only [hpr] at hrB
        obtain ⟨s2, hr2, hrB⟩ := Option.bind_eq_some.mp hrB
        have h2 := jsdisp_release_ctx_frame _ _ _ hr2
        cases ho2 : s2.obj p with
        | none => simp [ho2] at hrB
        | some o2 =>
          simp only [ho2, Option.some.injEq] at hrB
          subst hrB
          exact ctx_frame_trans h2 rfl
    split at hr
    · cases hr
    · simp only [Option.some.injEq] at hr
      subst hr
      exact ctx_frame_trans hA hB

theorem jsdisp_addref_ctx_frame {s s1 : Store} {p : Nat} (h : jsdisp_addref s p = some s1) :
    ctx_frame s s1 := by
  unfold jsdisp_addref at h
  cases ho : s.obj p with
  | none => simp [ho] at h
  | some o =>
    simp only [ho] at h
    split at h
    · simp only [Option.some.injEq] at h
      subst h
      unfold jsdisp_reacquire
      split <;> rfl
    · simp only [Option.some.injEq] at h
      subst h; rfl

theorem gc_pass3_ctx_frame : ∀ (fuel : Nat) (s : Store) (cur : Option Nat) (s1 : Store),
    gc_pass3 fuel s cur = some s1 → ctx_frame s s1 := by
  intro fuel
  induction fuel with
  | zero => intro s cur s1 h; simp [gc_pass3] at h
  | succ fuel ih =>
    intro s cur s1 h
    cases cur with
    | none =>
      simp only [gc_pass3, Option.some.injEq] at h
      subst h; exact ctx_frame_refl s
    | some p =>
      simp only [gc_pass3] at h
      cases ho : s.obj p with
      | none => simp [ho] at h
      | some o =>
        simp only [ho] at h
        split at h
        · exact ih _ _ _ h
        · obtain ⟨sA, hrA, h⟩ := Option.bind_eq_some.mp h
          obtain ⟨sB, hrB, h⟩ := Option.bind_eq_some.mp h
          obtain ⟨sC, hrC, h⟩ := Option.bind_eq_some.mp h
          exact ctx_frame_trans (ctx_frame_trans (ctx_frame_trans (jsdisp_addref_ctx_frame hrA)
            (unlink_jsdisp_ctx_frame hrB)) (jsdisp_release_ctx_frame _ _ _ hrC)) (ih _ _ _ h)

/-! ### A run of the collector in a context with accurate reference counts -/

theorem gc_run_ok {s s1 : Store} (hflag : s.ctx.gc_is_unlinking = false)
    (hrun : gc_run s = some (s1, HRESULT.S_OK)) :
    ∃ sM hres1 s3, gc_mark_phase s = some (sM, hres1) ∧ FAILED hres1 = false ∧
      gc_pass3 (sM.ctx.objects.length + 1) (set_gc_is_unlinking sM true)
        sM.ctx.objects.head? = some s3 ∧ s1 = set_gc_is_unlinking s3 false := by
  unfold gc_run at hrun
  rw [hflag] at hrun
  simp only [Bool.false_eq_true, if_false] at hrun
  split at hrun
  · cases hrun
  · cases hm : gc_mark_phase s with
    | none => simp [hm] at hrun
    | some r =>
      obtain ⟨sM, hres1⟩ := r
      simp only [hm] at hrun
      cases hf : FAILED hres1 with
      | true =>
        simp only [hf, if_true, Option.some.injEq, Prod.mk.injEq] at hrun
        rw [hrun.2] at hf; cases hf
      | false =>
        simp only [hf, Bool.false_eq_true, if_false, Option.map_eq_some', Prod.mk.injEq] at hrun
        obtain ⟨s3, h3, h4, _⟩ := hrun
        exact ⟨sM, hres1, s3, rfl, hf, h3, h4.symm⟩

theorem mark_phase_state {s sM : Store} {hres1 : HRESULT} (h : ctx_wf s)
    (hm : gc_mark_phase s = some (sM, hres1)) (hok : FAILED hres1 = false) :
    mark_frame s sM ∧
    (∀ x, x ∈ s.ctx.objects → live s x → mark_of sM x = false) ∧
    (∀ x, x ∈ s.ctx.objects → mark_of sM x = false → live s x) ∧
    (∀ u, u ∈ s.ctx.objects → mark_of sM u = false → ∀ t ∈ edges_of s u,
      mark_of sM t = false) ∧
    (∀ x o, x ∈ s.ctx.objects → s.obj x = some o → mark_of sM x = true →
      o.proxy = none ∧ ext_refs s x = 0 ∧ indeg s s.ctx.objects x = 0) ∧
    (∀ x, x ∉ s.ctx.objects → mark_of sM x = false) := by
  have hmf := gc_mark_phase_frame s sM hres1 (ctx_wf_links_listed h) hm
  obtain ⟨a1, s1, r, h1, h2, hflag, hrest⟩ := gc_mark_phase_ok hm hok
  have hs0 : single_ctx ({ s with avail := a1 } : Store) :=
    single_ctx_of_heap rfl rfl (ctx_wf_single h)
  have hd := gc_pass1_by (s := { s with avail := a1 }) hs0 h1
  have hB := gc_pass2_frame _ _ _ _ h2
  have hL : r.1.ctx.objects = s.ctx.objects := by rw [hB.1, hd.1]
  rw [hL] at hrest
  have hmarks : ∀ x, mark_of sM x = mark_of r.1 x := fun x => gc_restore_marks hrest x
  obtain ⟨p1, p2, p3, p4, p5⟩ := pass12_analysis h h1 h2 hflag
  refine ⟨hmf, ?_, ?_, ?_, ?_, ?_⟩
  · intro x hx hl; rw [hmarks]; exact p1 x hx hl
  · intro x hx hmx; rw [hmarks] at hmx; exact p2 x hx hmx
  · intro u hu hmu t ht; rw [hmarks] at hmu ⊢; exact p3 u hu hmu t ht
  · intro x o hx ho hmx; rw [hmarks] at hmx; exact p4 x o hx ho hmx
  · intro x hx; rw [hmarks]; exact p5 x hx

theorem mark_frame_fwd {s sM : Store} (h : mark_frame s sM) {x : Nat} {o : jsdisp_t}
    (hx : s.obj x = some o) : sM.obj x = some { o with gc_marked := mark_of sM x } := by
  obtain ⟨m, hm⟩ := mark_frame_obj h x o hx
  rw [mark_of_some hm]; exact hm

theorem mark_frame_bwd {s sM : Store} (h : mark_frame s sM) {x : Nat} {oM : jsdisp_t}
    (hx : sM.obj x = some oM) :
    ∃ o, s.obj x = some o ∧ oM = { o with gc_marked := mark_of sM x } := by
  cases ho : s.obj x with
  | none =>
    have := map_none_of_eq (h.2.2 x) ho
    rw [this] at hx; cases hx
  | some o =>
    have := mark_frame_fwd h ho
    rw [hx] at this
    exact ⟨o, rfl, by simpa using this⟩

theorem mark_frame_indeg {s sM : Store} (h : mark_frame s sM) (Z : List Nat) (x : Nat) :
    indeg sM Z x = indeg s Z x :=
  indeg_congr h.2.1 (mark_frame_edges h) Z x

theorem live_support {s : Store} {v : Nat} (h : live s v) :
    is_root s v = true ∨ ∃ u, live s u ∧ v ∈ edges_of s u := by
  cases h with
  | base r hr => exact Or.inl hr
  | step u t hu ht => exact Or.inr ⟨u, hu, ht⟩

theorem ext_count_eq {s : Store} (h : ctx_wf s) {x : Nat} {o : jsdisp_t}
    (hx : s.obj x = some o) : o.ref = ((ext_count s x + indeg s [] x : Nat) : Int) := by
  have h2 := (ctx_wf_obj h hx).2.2.2.1
  unfold ext_count
  rw [ext_refs_some hx]
  push_cast
  rw [Int.toNat_of_nonneg (by omega)]
  ring

/-- The store in which pass 3 starts has its accounts in order, the unmarked
objects supporting each other and closed off from the marked ones. -/
theorem pass3_setup {s sM : Store} (h : ctx_wf s) (hmf : mark_frame s sM)
    (p1 : ∀ x, x ∈ s.ctx.objects → live s x → mark_of sM x = false)
    (p2 : ∀ x, x ∈ s.ctx.objects → mark_of sM x = false → live s x)
    (p3 : ∀ u, u ∈ s.ctx.objects → mark_of sM u = false → ∀ t ∈ edges_of s u,
      mark_of sM t = false)
    (p4 : ∀ x o, x ∈ s.ctx.objects → s.obj x = some o → mark_of sM x = true →
      o.proxy = none ∧ ext_refs s x = 0 ∧ indeg s s.ctx.objects x = 0) :
    cascade_inv (ext_count s) (unmarked_alloc s sM) (set_gc_is_unlinking sM true) [] [] ∧
    (∀ u, unmarked_alloc s sM u → ∀ g ∈ edges_of (set_gc_is_unlinking sM true) u,
      ¬ marked_listed s sM g) := by
  have hobjs : ∀ x, (set_gc_is_unlinking sM true).obj x = sM.obj x := fun _ => rfl
  have hedge : ∀ x, edges_of (set_gc_is_unlinking sM true) x = edges_of s x := by
    intro x
    have : edges_of (set_gc_is_unlinking sM true) x = edges_of sM x := rfl
    rw [this, mark_frame_edges hmf]
  have hlist : (set_gc_is_unlinking sM true).ctx.objects = s.ctx.objects := by
    show sM.ctx.objects = s.ctx.objects
    rw [hmf.1]
  have hVG : ∀ u, unmarked_alloc s sM u → ∀ g ∈ edges_of s u, ¬ marked_listed s sM g := by
    intro u hu g hg hG
    by_cases huL : u ∈ s.ctx.objects
    · have hmu : mark_of sM u = false := by
        cases hb : mark_of sM u with
        | false => rfl
        | true => exact absurd ⟨huL, hb⟩ hu.2
      have := hG.2
      rw [p3 u huL hmu g hg] at this
      cases this
    · have hog := h.2.1 g hG.1
      cases ho : s.obj g with
      | none => rw [ho] at hog; cases hog
      | some og =>
        have h0 := (p4 g og hG.1 ho hG.2).2.2
        have h1 := indeg_term_le (edges_of_lt hg) huL g
        have h2 := List.count_pos_iff.mpr hg
        omega
  have hV_live : ∀ u, live s u → (s.obj u).isSome = true → unmarked_alloc s sM u := by
    intro u hu hsome
    refine ⟨hsome, fun hG => ?_⟩
    have := hG.2
    rw [p1 u hG.1 hu] at this
    cases this
  refine ⟨⟨?_, ?_, ?_, ?_, ?_, ?_, ?_⟩, fun u hu g hg => hVG u hu g (by rw [← hedge]; exact hg)⟩
  · intro x oM hx
    rw [hobjs] at hx
    obtain ⟨o, ho, he⟩ := mark_frame_bwd hmf hx
    have hi : indeg (set_gc_is_unlinking sM true) [] x = indeg s [] x :=
      mark_frame_indeg hmf [] x
    rw [hi, he, List.count_nil, Nat.add_zero]
    exact (ext_count_eq h ho : o.ref = _)
  · intro z hz; cases hz
  · intro v hv
    refine ⟨List.not_mem_nil v, ?_⟩
    cases ho : s.obj v with
    | none => have := hv.1; rw [ho] at this; cases this
    | some o =>
      refine ⟨_, by rw [hobjs]; exact mark_frame_fwd hmf ho, ?_⟩
      show o.proxy.isSome = true ∨ _
      by_cases hvL : v ∈ s.ctx.objects
      · have hmv : mark_of sM v = false := by
          cases hb : mark_of sM v with
          | false => rfl
          | true => exact absurd ⟨hvL, hb⟩ hv.2
        rcases live_support (p2 v hvL hmv) with hr | ⟨u, hu, hmem⟩
        · obtain ⟨o', ho', hc⟩ := is_root_elim hr
          rw [ho] at ho'; cases ho'
          rcases hc with a | a
          · exact Or.inl a
          · refine Or.inr (Or.inl ?_)
            have := (pass1_ref h ho).2
            unfold ext_count
            omega
        · refine Or.inr (Or.inr ⟨u, hV_live u hu ?_, by rw [hedge]; exact hmem⟩)
          cases hou : s.obj u with
          | none => rw [edges_of_none hou] at hmem; cases hmem
          | some ou => rfl
      · rcases (ctx_wf_obj h ho).1 with a | ⟨a, _, _⟩
        · exact absurd a hvL
        · exact Or.inl a
  · rw [hlist]; exact h.1
  · intro x hx
    rw [hlist] at hx
    have := h.2.1 x hx
    cases ho : s.obj x with
    | none => rw [ho] at this; cases this
    | some o => rw [hobjs, mark_frame_fwd hmf ho]; rfl
  · intro x oM hx _
    rw [hobjs] at hx
    obtain ⟨o, ho, he⟩ := mark_frame_bwd hmf hx
    rw [hlist, he]
    rcases (ctx_wf_obj h ho).1 with a | ⟨a, b, _⟩
    · exact Or.inl a
    · exact Or.inr ⟨a, b⟩
  · intro x oM hx _ hpx
    rw [hobjs] at hx
    obtain ⟨o, ho, he⟩ := mark_frame_bwd hmf hx
    rw [he] at hpx ⊢
    exact (ctx_wf_obj h ho).2.2.1 hpx

theorem ext_refs_nonneg {s : Store} (h : ctx_wf s) (x : Nat) : 0 ≤ ext_refs s x := by
  cases ho : s.obj x with
  | none =>
    have hz : indeg s [] x = 0 := by
      refine indeg_zero (fun u hmem => ?_)
      cases hou : s.obj u with
      | none => rw [edges_of_none hou] at hmem; cases hmem
      | some ou =>
        have := (ctx_wf_obj h hou).2.2.2.2 x (by rw [← edges_of_some hou]; exact hmem)
        rw [ho] at this; cases this
    unfold ext_refs ref_of
    rw [ho, hz]; rfl
  | some o => exact (pass1_ref h ho).2

/-- A successful run of the collector that is not re-entrant, in a context with
accurate reference counts: the listed objects that are not live are destroyed,
the live objects are kept up to their reference count, with their references
from outside and a clear mark, and the reference counts are accurate again. -/
theorem gc_run_collects {s s1 : Store} (h : ctx_wf s) (hflag : s.ctx.gc_is_unlinking = false)
    (hrun : gc_run s = some (s1, HRESULT.S_OK)) :
    (∀ x, x ∈ s.ctx.objects → ¬ live s x → s1.obj x = none ∧ x ∉ s1.ctx.objects) ∧
    (∀ x o, s.obj x = some o → live s x →
      ∃ r, s1.obj x = some { o with ref := r, gc_marked := false } ∧
        ext_refs s1 x = ext_refs s x) ∧
    ctx_wf s1 ∧ s1.ctx.gc_is_unlinking = false ∧ (∀ x, live s x → live s1 x) := by
  obtain ⟨sM, hres1, s3, hm, hok, h3, hs1⟩ := gc_run_ok hflag hrun
  obtain ⟨hmf, p1, p2, p3, p4, p5⟩ := mark_phase_state h hm hok
  obtain ⟨hinv0, hVG0⟩ := pass3_setup h hmf p1 p2 p3 p4
  have hsome : ∀ x, x ∈ s.ctx.objects → ∃ o, s.obj x = some o := by
    intro x hx
    have := h.2.1 x hx
    cases ho : s.obj x with
    | none => rw [ho] at this; cases this
    | some o => exact ⟨o, rfl⟩
  have hunm : ∀ x, ¬ marked_listed s sM x → mark_of sM x = false := by
    intro x hx
    by_cases hL : x ∈ s.ctx.objects
    · cases hb : mark_of sM x with
      | false => rfl
      | true => exact absurd ⟨hL, hb⟩ hx
    · exact p5 x hL
  obtain ⟨c_inv, c_fr, _, c_dead⟩ := gc_pass3_collects (ext_count s) (unmarked_alloc s sM)
    (marked_listed s sM) (set_gc_is_unlinking sM true)
    (fun x hg hv => hv.2 hg)
    (fun x o0 hx hg => by
      obtain ⟨o, ho, he⟩ := mark_frame_bwd hmf (show sM.obj x = some o0 from hx)
      rw [he]
      exact ⟨hg.2, (p4 x o hg.1 ho hg.2).1⟩)
    (fun x o0 hx hL hmk => by
      refine ⟨by rw [← hmf.1]; exact hL, ?_⟩
      rw [mark_of_some (show sM.obj x = some o0 from hx)]; exact hmk)
    (fun x o0 hx => by
      obtain ⟨o, ho, _⟩ := mark_frame_bwd hmf (show sM.obj x = some o0 from hx)
      by_cases hg : marked_listed s sM x
      · exact Or.inr hg
      · exact Or.inl ⟨by rw [ho]; rfl, hg⟩)
    hVG0
    (fun x hg => by
      obtain ⟨o, ho⟩ := hsome x hg.1
      unfold ext_count
      rw [(p4 x o hg.1 ho hg.2).2.1]; rfl)
    hinv0 (sM.ctx.objects.length + 1) s3 h3
  have hobj1 : ∀ x, s1.obj x = s3.obj x := by intro x; rw [hs1]; rfl
  have hlist1 : s1.ctx.objects = s3.ctx.objects := by rw [hs1]; rfl
  have hindeg1 : ∀ x, indeg s1 [] x = indeg s3 [] x := by intro x; rw [hs1]; rfl
  -- the objects that pass 3 leaves alone
  have hkeep : ∀ x o, s.obj x = some o → unmarked_alloc s sM x →
      ∃ r : Int, s3.obj x = some { o with ref := r, gc_marked := false } ∧
        r = ((ext_count s x + indeg s3 [] x : Nat) : Int) := by
    intro x o ho hv
    obtain ⟨_, o3, ho3, _⟩ := c_inv.prot x hv
    obtain ⟨o0, ho0, _, _, hfr⟩ := c_fr x o3 ho3
    have h0 := mark_frame_fwd hmf ho
    rw [show (set_gc_is_unlinking sM true).obj x = sM.obj x from rfl, h0] at ho0
    cases ho0
    have hf := hfr hv
    unfold obj_frame at hf
    rw [hunm x hv.2] at hf
    refine ⟨o3.ref, by rw [ho3, hf], ?_⟩
    have := c_inv.acc x o3 ho3
    rw [this]; simp
  have hV_of : ∀ x o3, s3.obj x = some o3 →
      ∃ o, s.obj x = some o ∧ unmarked_alloc s sM x := by
    intro x o3 ho3
    obtain ⟨o0, ho0, _⟩ := c_fr x o3 ho3
    obtain ⟨o, ho, _⟩ := mark_frame_bwd hmf (show sM.obj x = some o0 from ho0)
    refine ⟨o, ho, by rw [ho]; rfl, fun hg => ?_⟩
    rw [c_dead x hg] at ho3; cases ho3
  have hV_live : ∀ x o, s.obj x = some o → live s x → unmarked_alloc s sM x := by
    intro x o ho hl
    refine ⟨by rw [ho]; rfl, fun hg => ?_⟩
    have := hg.2
    rw [p1 x hg.1 hl] at this; cases this
  have hB : ∀ x o, s.obj x = some o → live s x →
      ∃ r, s1.obj x = some { o with ref := r, gc_marked := false } ∧
        ext_refs s1 x = ext_refs s x := by
    intro x o ho hl
    obtain ⟨r, hr, hre⟩ := hkeep x o ho (hV_live x o ho hl)
    refine ⟨r, by rw [hobj1]; exact hr, ?_⟩
    have hx1 : s1.obj x = some { o with ref := r, gc_marked := false } := by
      rw [hobj1]; exact hr
    rw [ext_refs_some hx1, hindeg1]
    show r - _ = _
    rw [hre]
    have hn := ext_refs_nonneg h x
    unfold ext_count
    push_cast
    rw [Int.toNat_of_nonneg hn]
    ring
  refine ⟨?_, hB, ?_, by rw [hs1]; rfl, ?_⟩
  · intro x hx hnl
    have hg : marked_listed s sM x := by
      refine ⟨hx, ?_⟩
      cases hb : mark_of sM x with
      | true => rfl
      | false => exact absurd (p2 x hx hb) hnl
    have hnone := c_dead x hg
    refine ⟨by rw [hobj1]; exact hnone, fun hmem => ?_⟩
    rw [hlist1] at hmem
    have := c_inv.listed x hmem
    rw [hnone] at this; cases this
  · refine ⟨by rw [hlist1]; exact c_inv.nodup,
      fun x hx => by rw [hobj1]; exact c_inv.listed x (by rw [← hlist1]; exact hx), ?_⟩
    intro x _
    unfold obj_ok
    cases ho3 : s1.obj x with
    | none => rfl
    | some o3 =>
      simp only
      rw [hobj1] at ho3
      obtain ⟨o, ho, hv⟩ := hV_of x o3 ho3
      obtain ⟨r, hr, _⟩ := hkeep x o ho hv
      rw [ho3] at hr
      simp only [Option.some.injEq] at hr
      have hself : s1.ctx.self = s.ctx.self := by
        have f := gc_pass3_ctx_frame _ _ _ _ h3
        unfold ctx_frame at f
        rw [hs1]
        show s3.ctx.self = _
        rw [f]
        show sM.ctx.self = _
        rw [hmf.1]
      refine decide_eq_true ⟨?_, ?_, ?_, ?_, ?_⟩
      · rcases c_inv.home x o3 ho3 (List.not_mem_nil x) with a | ⟨a, b⟩
        · exact Or.inl (by rw [hlist1]; exact a)
        · exact Or.inr ⟨a, b, by rw [hr]⟩
      · rw [hself, hr]
        exact (ctx_wf_obj h ho).2.1
      · exact c_inv.pos x o3 ho3 (List.not_mem_nil x)
      · rw [hindeg1, c_inv.acc x o3 ho3]
        push_cast
        have : (0 : Int) ≤ (ext_count s x : Int) := Int.ofNat_nonneg _
        simp only [List.count_nil]
        omega
      · intro t ht
        rw [hr] at ht
        have ht' : t ∈ edges_of s x := by rw [edges_of_some ho]; exact ht
        have hts := (ctx_wf_obj h ho).2.2.2.2 t ht
        have hng := hVG0 x hv t (by
          show t ∈ edges_of sM x
          rw [mark_frame_edges hmf]; exact ht')
        obtain ⟨_, o3t, ho3t, _⟩ := c_inv.prot t ⟨hts, hng⟩
        rw [hobj1, ho3t]; rfl
  · intro x hl
    induction hl with
    | base r hr =>
      obtain ⟨o, ho, hc⟩ := is_root_elim hr
      obtain ⟨r1, hr1, he⟩ := hB r o ho (reach.base r hr)
      refine reach.base r (is_root_of hr1 ?_)
      rw [he]
      exact hc
    | step u t hu hmem ih =>
      refine reach.step u t ih ?_
      cases hou : s.obj u with
      | none => rw [edges_of_none hou] at hmem; cases hmem
      | some ou =>
        obtain ⟨r1, hr1, _⟩ := hB u ou hou hu
        rw [edges_of_some hr1]
        rw [edges_of_some hou] at hmem
        exact hmem

theorem not_live_of_no_root {s : Store} (h : ∀ r, r < s.heap.length → is_root s r = false)
    (x : Nat) : ¬ live s x := by
  intro hl
  induction hl with
  | base r hr =>
    obtain ⟨o, ho, _⟩ := is_root_elim hr
    rw [h r (obj_lt ho)] at hr
    cases hr
  | step _ _ _ _ ih => exact ih

theorem gc_runs_collects : ∀ (n : Nat) (s s1 : Store), ctx_wf s →
    s.ctx.gc_is_unlinking = false → gc_runs n s = some s1 →
    ∀ x o, s.obj x = some o → live s x →
      ∃ r, s1.obj x =
          some { o with ref := r, gc_marked := if n = 0 then o.gc_marked else false } ∧
        ext_refs s1 x = ext_refs s x := by
  intro n
  induction n with
  | zero =>
    intro s s1 _ _ hr x o ho _
    simp only [gc_runs, Option.some.injEq] at hr
    subst hr
    exact ⟨o.ref, by rw [ho]; rfl, rfl⟩
  | succ n ih =>
    intro s s1 hwf hflag hr x o ho hl
    simp only [gc_runs] at hr
    cases hrun : gc_run s with
    | none => simp [hrun] at hr
    | some u =>
      obtain ⟨s0, hres⟩ := u
      simp only [hrun] at hr
      by_cases hok : hres = HRESULT.S_OK
      · rw [if_pos hok] at hr
        subst hok
        obtain ⟨_, hB, hwf0, hflag0, hlive⟩ := gc_run_collects hwf hflag hrun
        obtain ⟨r0, hr0, he0⟩ := hB x o ho hl
        obtain ⟨r, hr1, he1⟩ := ih s0 s1 hwf0 hflag0 hr x _ hr0 (hlive x hl)
        refine ⟨r, ?_, he1.trans he0⟩
        rw [hr1]
        simp
      · rw [if_neg hok] at hr
        cases hr

/-- C5, as the code has it.  In a context with accurate reference counts
(`ctx_wf`), when a `gc_run` that is not re-entrant returns `S_OK`, every listed
object that is not reachable, along value, getter, setter and prototype links,
from an object bound to a proxy or with a reference from outside the objects
is destroyed: it is not allocated any more and not in the list. -/
theorem cycle_reclamation (s s1 : Store) (hwf : ctx_wf s)
    (hflag : s.ctx.gc_is_unlinking = false) (hrun : gc_run s = some (s1, HRESULT.S_OK))
    (p : Nat) (hp : p ∈ s.ctx.objects) (hdead : ¬ live s p) :
    s1.obj p = none ∧ p ∉ s1.ctx.objects :=
  (gc_run_collects hwf hflag hrun).1 p hp hdead

theorem cycle_reclamation_witness :
    (store_cycle_collected.obj 0 = none ∧ 0 ∉ store_cycle_collected.ctx.objects) ∧
    (store_cycle_collected.obj 1 = none ∧ 1 ∉ store_cycle_collected.ctx.objects) :=
  ⟨cycle_reclamation store_cycle store_cycle_collected (by decide) (by rfl) (by rfl) 0
      (by decide) (not_live_of_no_root (by decide) 0),
    cycle_reclamation store_cycle store_cycle_collected (by decide) (by rfl) (by rfl) 1
      (by decide) (not_live_of_no_root (by decide) 1)⟩

/-- C5 as stated fails on the two objects that hold each other: the reference
counts are accurate, neither object is reachable from outside, `gc_run` returns
`S_OK`, and afterwards object 1 is no allocated object whose slots are
tombstones: it is destroyed.  It was destroyed inside the `unlink_jsdisp` of
object 0, the first of pass 3, before which its slot was a value slot; and a
re-entrant `gc_run` returns `S_OK` and leaves the objects as they are. -/
theorem cycle_destroyed_not_unlinked :
    ctx_wf store_cycle ∧ 1 ∈ store_cycle.ctx.objects ∧ ¬ live store_cycle 1 ∧
    gc_run store_cycle = some (store_cycle_collected, HRESULT.S_OK) ∧
    ¬ (∃ o, store_cycle_collected.obj 1 = some o ∧
        (∀ i, i < o.prop_cnt → (slot o i).type = prop_type_t.PROP_DELETED) ∧
        o.prototype = none) ∧
    ((store_cycle_marked.obj 1).map fun o => (slot o 0).type) =
      some prop_type_t.PROP_JSVAL ∧
    (jsdisp_addref store_cycle_marked 0).bind (fun s => unlink_jsdisp s 0) =
      some store_cycle_unlinked ∧
    store_cycle_unlinked.obj 1 = none ∧
    gc_run (set_gc_is_unlinking store_cycle true) =
      some (set_gc_is_unlinking store_cycle true, HRESULT.S_OK) := by
  refine ⟨by decide, by decide, not_live_of_no_root (by decide) 1, by rfl, ?_, by rfl, by rfl,
    by rfl, by rfl⟩
  intro ⟨o, ho, _⟩
  have : store_cycle_collected.obj 1 = none := by rfl
  rw [this] at ho
  cases ho

/-- C6, as the code has it.  In a context with accurate reference counts
(`ctx_wf`), let `n` runs of `gc_run`, the first not re-entrant, each return
`S_OK`.  Every object that is reachable, along value, getter, setter and
prototype links, from an object bound to a proxy or with a reference from
outside the objects is afterwards the object it was up to its reference count
and its collectible mark: it has the slots and the prototype it had; its mark
is clear when `n` is not 0; and the references held on it from outside, its
reference count less the links of allocated objects, are what they were, so
that its reference count went down by the links that destroyed objects held
on it and by nothing else. -/
theorem live_objects_survive (n : Nat) (s s1 : Store) (hwf : ctx_wf s)
    (hflag : s.ctx.gc_is_unlinking = false) (hruns : gc_runs n s = some s1)
    (x : Nat) (o : jsdisp_t) (hx : s.obj x = some o) (hl : live s x) :
    ∃ r, s1.obj x =
        some { o with ref := r, gc_marked := if n = 0 then o.gc_marked else false } ∧
      ext_refs s1 x = ext_refs s x :=
  gc_runs_collects n s s1 hwf hflag hruns x o hx hl

theorem live_objects_survive_witness :
    ∃ r, store_leak_twice.obj 0 =
        some { (store_leak.obj 0).getD (init_object 0 dispex_info none) with
          ref := r, gc_marked := if 2 = 0 then
            ((store_leak.obj 0).getD (init_object 0 dispex_info none)).gc_marked else false } ∧
      ext_refs store_leak_twice 0 = ext_refs store_leak 0 :=
  live_objects_survive 2 store_leak store_leak_twice (by decide) (by rfl) (by rfl) 0
    ((store_leak.obj 0).getD (init_object 0 dispex_info none)) (by rfl)
    (reach.base 0 (by decide))

/-- C6 as stated fails on the reference count: in `store_leak` the reference
counts are accurate and object 0 is held from outside, so reachable; `gc_run`
returns `S_OK`; object 0 had the reference count 2 and has the reference
count 1 afterwards, the collector having destroyed object 1, which held it. -/
theorem live_refcount_changes :
    ctx_wf store_leak ∧ live store_leak 0 ∧
    gc_run store_leak = some (store_leak_collected, HRESULT.S_OK) ∧
    ref_of store_leak 0 = 2 ∧ ref_of store_leak_collected 0 = 1 ∧
    store_leak_collected.obj 1 = none :=
  ⟨by decide, reach.base 0 (by decide), by rfl, by rfl, by rfl, by rfl⟩

/-! ### Prototype chains -/

theorem proto_chain_fuel {s : Store} : ∀ (m n : Nat) (q : Option Nat) (a b : List Nat),
    proto_chain s m q = some a → proto_chain s n q = some b → a = b := by
  intro m
  induction m with
  | zero => intro n q a b h; simp [proto_chain] at h
  | succ m ih =>
    intro n q a b ha hb
    cases n with
    | zero => simp [proto_chain] at hb
    | succ n =>
      cases q with
      | none => simp [proto_chain] at ha hb; rw [ha, hb]
      | some q =>
        simp only [proto_chain] at ha hb
        cases ho : s.obj q with
        | none => simp [ho] at ha
        | some o =>
          simp only [ho, Option.map_eq_some'] at ha hb
          obtain ⟨a1, ha1, rfl⟩ := ha
          obtain ⟨b1, hb1, rfl⟩ := hb
          rw [ih n _ _ _ ha1 hb1]

theorem proto_chain_suffix {s : Store} : ∀ (n : Nat) (q : Option Nat) (l : List Nat) (x : Nat),
    proto_chain s n q = some l → x ∈ l →
    ∃ m l2, proto_chain s m (some x) = some l2 ∧ l2.length ≤ l.length := by
  intro n
  induction n with
  | zero => intro q l x h; simp [proto_chain] at h
  | succ n ih =>
    intro q l x h hx
    cases q with
    | none => simp [proto_chain] at h; subst h; simp at hx
    | some q =>
      have h0 := h
      simp only [proto_chain] at h
      cases ho : s.obj q with
      | none => simp [ho] at h
      | some o =>
        simp only [ho, Option.map_eq_some'] at h
        obtain ⟨l1, hl1, rfl⟩ := h
        rcases List.mem_cons.mp hx with rfl | hx1
        · exact ⟨n + 1, _, h0, le_refl _⟩
        · obtain ⟨m, l2, h2, hle⟩ := ih _ _ _ hl1 hx1
          exact ⟨m, l2, h2, by simp; omega⟩

theorem proto_chain_cons {s : Store} {n : Nat} {q : Nat} {l : List Nat}
    (h : proto_chain s n (some q) = some l) :
    ∃ o l1 m, s.obj q = some o ∧ proto_chain s m o.prototype = some l1 ∧ l = q :: l1 := by
  cases n with
  | zero => simp [proto_chain] at h
  | succ n =>
    simp only [proto_chain] at h
    cases ho : s.obj q with
    | none => simp [ho] at h
    | some o =>
      simp only [ho, Option.map_eq_some'] at h
      obtain ⟨l1, hl1, rfl⟩ := h
      exact ⟨o, l1, n, rfl, hl1, rfl⟩

theorem proto_chain_nodup {s : Store} : ∀ (n : Nat) (q : Option Nat) (l : List Nat),
    proto_chain s n q = some l → l.Nodup := by
  intro n
  induction n with
  | zero => intro q l h; simp [proto_chain] at h
  | succ n ih =>
    intro q l h
    cases q with
    | none => simp [proto_chain] at h; subst h; exact List.nodup_nil
    | some q =>
      have h0 := h
      obtain ⟨o, l1, m, ho, hl1, rfl⟩ := proto_chain_cons h
      refine List.nodup_cons.mpr ⟨?_, ih o.prototype l1 ?_⟩
      · intro hq
        obtain ⟨m2, l2, h2, hle⟩ := proto_chain_suffix _ _ _ _ hl1 hq
        have := proto_chain_fuel _ _ _ _ _ h2 h0
        subst this
        simp at hle
      · simp only [proto_chain, ho, Option.map_eq_some'] at h0
        obtain ⟨l1b, hb, hc⟩ := h0
        have : l1b = l1 := by simpa using hc
        rw [← this]; exact hb

theorem proto_chain_lt {s : Store} : ∀ (n : Nat) (q : Option Nat) (l : List Nat),
    proto_chain s n q = some l → ∀ x ∈ l, x < s.heap.length := by
  intro n
  induction n with
  | zero => intro q l h; simp [proto_chain] at h
  | succ n ih =>
    intro q l h x hx
    cases q with
    | none => simp [proto_chain] at h; subst h; simp at hx
    | some q =>
      simp only [proto_chain] at h
      cases ho : s.obj q with
      | none => simp [ho] at h
      | some o =>
        simp only [ho, Option.map_eq_some'] at h
        obtain ⟨l1, hl1, rfl⟩ := h
        rcases List.mem_cons.mp hx with rfl | hx1
        · exact obj_lt ho
        · exact ih _ _ hl1 x hx1

theorem nodup_length_le {l : List Nat} {N : Nat} (hn : l.Nodup) (hlt : ∀ x ∈ l, x < N) :
    l.length ≤ N := by
  have h1 : l.toFinset ⊆ Finset.range N := by
    intro x hx
    exact Finset.mem_range.mpr (hlt x (List.mem_toFinset.mp hx))
  have h2 := Finset.card_le_card h1
  rw [List.toFinset_card_of_nodup hn, Finset.card_range] at h2
  exact h2

theorem proto_chain_length {s : Store} {n : Nat} {q : Option Nat} {l : List Nat}
    (h : proto_chain s n q = some l) : l.length ≤ s.heap.length :=
  nodup_length_le (proto_chain_nodup _ _ _ h) (proto_chain_lt _ _ _ h)

theorem proto_cycle_walk_spec {s : Store} (p : Nat) : ∀ (l : List Nat) (n fuel : Nat) (q : Option Nat),
    proto_chain s n q = some l → l.length < fuel →
    proto_cycle_walk s p fuel q = some (decide (p ∈ l)) := by
  intro l
  induction l with
  | nil =>
    intro n fuel q h hf
    cases fuel with
    | zero => omega
    | succ fuel =>
      cases q with
      | none => simp [proto_cycle_walk]
      | some q =>
        obtain ⟨o, l1, m, ho, hl1, hc⟩ := proto_chain_cons h
        cases hc
  | cons x l ih =>
    intro n fuel q h hf
    cases fuel with
    | zero => omega
    | succ fuel =>
      cases q with
      | none =>
        cases n with
        | zero => simp [proto_chain] at h
        | succ n => simp [proto_chain] at h
      | some q =>
        obtain ⟨o, l1, m, ho, hl1, hc⟩ := proto_chain_cons h
        injection hc with hx hl
        subst hx; subst hl
        simp only [proto_cycle_walk]
        by_cases hq : x = p
        · simp [hq]
        · rw [if_neg hq]
          simp only [ho]
          rw [ih m fuel _ hl1 (by simp at hf; omega)]
          have : ¬ p = x := fun h => hq h.symm
          simp [this]

/-! ### A change of prototype -/

theorem jsdisp_addref_other {s s1 : Store} {q p : Nat} (h : jsdisp_addref s q = some s1)
    (hne : p ≠ q) : s1.obj p = s.obj p := by
  unfold jsdisp_addref at h
  cases ho : s.obj q with
  | none => simp [ho] at h
  | some o =>
    simp only [ho] at h
    split at h
    · injection h with h; subst h
      unfold jsdisp_reacquire
      split
      · show (s.set_obj q _).obj p = _
        exact obj_set_obj_ne s hne _
      · exact obj_set_obj_ne s hne _
    · injection h with h; subst h
      exact obj_set_obj_ne s hne _

theorem drop_protrefs_ref (obj : jsdisp_t) : (drop_protrefs obj).ref = obj.ref := by
  unfold drop_protrefs
  generalize List.range obj.prop_cnt = l
  induction l generalizing obj with
  | nil => rfl
  | cons i l ih =>
    rw [List.foldl_cons, ih]
    split <;> rfl

theorem proto_chain_not_self {s : Store} {n : Nat} {proto : Option Nat} {l : List Nat} {p : Nat}
    {obj : jsdisp_t} (hl : proto_chain s n proto = some l) (ho : s.obj p = some obj)
    (hp : p ∈ l) : obj.prototype ≠ proto := by
  intro he
  obtain ⟨m, l2, h2, hle⟩ := proto_chain_suffix _ _ _ _ hl hp
  obtain ⟨o, l1, m1, ho1, hl1, rfl⟩ := proto_chain_cons h2
  rw [ho] at ho1
  injection ho1 with ho1
  subst ho1
  rw [he] at hl1
  have := proto_chain_fuel _ _ _ _ _ hl1 hl
  subst this
  simp at hle

/-- C14. For an extensible object `obj` and a candidate `proto` whose prototype
chain `l` ends: when `obj` is on `l` (`proto` itself included) the call returns
`JS_E_CYCLIC_PROTO_VALUE` and leaves the whole store, so the prototype, the
slots and every reference count, as it was; when `obj` is not on `l` no result
of the call is that status: a result is `S_OK` with `proto` as the prototype
of `obj`, and there is such a result when the release of the old prototype
does not free it. -/
theorem cyclic_prototype_rejected (s : Store) (p : Nat) (obj : jsdisp_t) (proto : Option Nat)
    (n : Nat) (l : List Nat) (ho : s.obj p = some obj) (hext : obj.extensible = true)
    (hl : proto_chain s n proto = some l) :
    (p ∈ l → jsdisp_change_prototype s p proto = some (s, HRESULT.JS_E_CYCLIC_PROTO_VALUE)) ∧
    (p ∉ l → ∀ s1 hres, jsdisp_change_prototype s p proto = some (s1, hres) →
      hres = HRESULT.S_OK ∧ ∃ o1, s1.obj p = some o1 ∧ o1.prototype = proto) ∧
    (p ∉ l → (∀ q0, obj.prototype = some q0 → ∃ oq, s.obj q0 = some oq ∧ oq.ref - 1 ≠ 0) →
      ∃ s1, jsdisp_change_prototype s p proto = some (s1, HRESULT.S_OK)) := by
  have hw := proto_cycle_walk_spec p l n (s.heap.length + 1) proto hl
    (Nat.lt_succ_of_le (proto_chain_length hl))
  have hadd : ∀ (s2 : Store) (o2 : jsdisp_t), s2.obj p = some o2 →
      p ∉ l → (∀ q, proto = some q → (s2.obj q).isSome = true) →
      ∃ s3, (match proto with
        | none => some (s2, HRESULT.S_OK)
        | some q => (jsdisp_addref s2 q).map fun s3 => (s3, HRESULT.S_OK))
        = some (s3, HRESULT.S_OK) := by
    intro s2 o2 h2 hnl hal
    cases hproto : proto with
    | none => exact ⟨_, rfl⟩
    | some q =>
      cases hoq : s2.obj q with
      | none => have := hal q hproto; simp [hoq] at this
      | some oq =>
        obtain ⟨s0, hs0, _, _⟩ := jsdisp_addref_some s2 q oq hoq
        exact ⟨s0, by simp [hs0]⟩
  have hsome : ∀ (s0 : Store) (a q : Nat) (x : jsdisp_t), (s0.obj q).isSome = true →
      ((s0.set_obj a x).obj q).isSome = true := by
    intro s0 a q x h
    rw [obj_set_obj]
    split
    · rfl
    · exact h
  refine ⟨?_, ?_, ?_⟩
  · intro hp
    have hne := proto_chain_not_self hl ho hp
    unfold jsdisp_change_prototype
    simp only [ho, if_neg hne, hext, not_true_eq_false, if_false, hw, hp, decide_True]
  · intro hp s1 hres h
    unfold jsdisp_change_prototype at h
    simp only [ho, hext, not_true_eq_false, if_false, hw, hp, decide_False] at h
    split at h
    · injection h with h
      injection h with h1 h2
      subst h1; subst h2
      exact ⟨rfl, obj, ho, by assumption⟩
    · obtain ⟨s1a, hr, h⟩ := Option.bind_eq_some.mp h
      · cases ho1 : s1a.obj p with
        | none => simp [ho1] at h
        | some obj1 =>
          simp only [ho1] at h
          cases hproto : proto with
          | none =>
            simp only [hproto] at h
            injection h with h
            injection h with h1 h2
            subst h1; subst h2
            exact ⟨rfl, _, obj_set_obj_self ho1 _, rfl⟩
          | some q =>
            simp only [hproto, Option.map_eq_some'] at h
            obtain ⟨s3, hs3, h⟩ := h
            injection h with h1 h2
            subst h1; subst h2
            have hq : q ∈ l := by
              rw [hproto] at hl
              obtain ⟨_, _, _, _, _, rfl⟩ := proto_chain_cons hl
              exact List.mem_cons_self _ _
            have hne : p ≠ q := fun h => hp (h ▸ hq)
            refine ⟨rfl, { obj1 with prototype := some q }, ?_, rfl⟩
            rw [jsdisp_addref_other hs3 hne, ← hproto]
            exact obj_set_obj_self ho1 _
  · intro hp hheld
    unfold jsdisp_change_prototype
    simp only [ho, hext, not_true_eq_false, if_false, hw, hp, decide_False]
    split
    · exact ⟨s, rfl⟩
    · have hlq : ∀ q, proto = some q → (s.obj q).isSome = true := by
        intro q hq
        rw [hq] at hl
        obtain ⟨o, _, _, hoq, _, _⟩ := proto_chain_cons hl
        simp [hoq]
      cases hpr : obj.prototype with
      | none =>
        simp only [Option.some_bind, ho]
        exact hadd (s.set_obj p { obj with prototype := proto }) _
          (obj_set_obj_self ho _) hp (fun q hq => hsome _ _ _ _ (hlq q hq))
      | some q0 =>
        obtain ⟨oq, hoq, hne⟩ := hheld q0 hpr
        have hq0 : ∃ o0, (s.set_obj p (drop_protrefs obj)).obj q0 = some o0 ∧ o0.ref - 1 ≠ 0 := by
          by_cases hqp : q0 = p
          · subst hqp
            rw [ho] at hoq
            injection hoq with hoq
            subst hoq
            exact ⟨_, obj_set_obj_self ho _, by rw [drop_protrefs_ref]; exact hne⟩
          · exact ⟨oq, by rw [obj_set_obj_ne s hqp]; exact hoq, hne⟩
        obtain ⟨o0, ho0, hne0⟩ := hq0
        simp only [jsdisp_release_eq _ q0 o0 ho0 hne0, Option.some_bind]
        have hp1 : (((s.set_obj p (drop_protrefs obj)).set_obj q0 { o0 with ref := o0.ref - 1 }).obj p).isSome
            = true := hsome _ _ _ _ (by rw [obj_set_obj_self ho]; rfl)
        cases ho1 : ((s.set_obj p (drop_protrefs obj)).set_obj q0 { o0 with ref := o0.ref - 1 }).obj p with
        | none => rw [ho1] at hp1; cases hp1
        | some obj1 =>
          simp only []
          exact hadd _ _ (obj_set_obj_self ho1 _) hp
            (fun q hq => hsome _ _ _ _ (hsome _ _ _ _ (hsome _ _ _ _ (hlq q hq))))

theorem cyclic_prototype_rejected_witness :
    jsdisp_change_prototype store_chain 0 (some 2)
      = some (store_chain, HRESULT.JS_E_CYCLIC_PROTO_VALUE) :=
  (cyclic_prototype_rejected store_chain 0 (obj_at store_chain 0) (some 2) 4 [2, 1, 0]
    (by rfl) (by rfl) (by rfl)).1 (by decide)

/-- C15, as the code has it. For an object whose extensible flag is clear the
call returns the failure status `JS_E_CANNOT_CREATE_FOR_NONEXTENSIBLE` for every
candidate prototype other than the current prototype of the object, and `S_OK`
for the current one; in both cases the whole store, so the prototype and the
slots of the object, stays as it was. -/
theorem nonextensible_prototype_rejected (s : Store) (p : Nat) (obj : jsdisp_t)
    (proto : Option Nat) (ho : s.obj p = some obj) (hext : obj.extensible = false) :
    (obj.prototype ≠ proto →
      jsdisp_change_prototype s p proto
        = some (s, HRESULT.JS_E_CANNOT_CREATE_FOR_NONEXTENSIBLE) ∧
      FAILED HRESULT.JS_E_CANNOT_CREATE_FOR_NONEXTENSIBLE = true) ∧
    (obj.prototype = proto → jsdisp_change_prototype s p proto = some (s, HRESULT.S_OK)) := by
  constructor
  · intro hne
    refine ⟨?_, rfl⟩
    unfold jsdisp_change_prototype
    simp only [ho, if_neg hne, hext, Bool.false_eq_true, not_false_eq_true, if_true]
  · intro he
    unfold jsdisp_change_prototype
    simp only [ho, if_pos he]

theorem nonextensible_prototype_rejected_witness :
    jsdisp_change_prototype store_frozen 1 none
      = some (store_frozen, HRESULT.JS_E_CANNOT_CREATE_FOR_NONEXTENSIBLE) ∧
    FAILED HRESULT.JS_E_CANNOT_CREATE_FOR_NONEXTENSIBLE = true :=
  (nonextensible_prototype_rejected store_frozen 1 (obj_at store_frozen 1) none (by rfl)
    (by rfl)).1 (by decide)

/-- C15, as stated, fails: object 1 of `store_frozen` is not extensible and has
the prototype 0; the call with the candidate 0 returns `S_OK`, which is no
failure status. -/
theorem nonextensible_same_prototype_accepted :
    (store_frozen.obj 1).map (fun o => (o.extensible, o.prototype)) = some (false, some 0) ∧
    jsdisp_change_prototype store_frozen 1 (some 0) = some (store_frozen, HRESULT.S_OK) ∧
    FAILED HRESULT.S_OK = false := by
  refine ⟨by rfl, by rfl, by rfl⟩

/-! ### Redefinition of an existing slot -/

theorem define_property_existing (s : Store) (p : Nat) (name : WSTR) (desc : property_desc_t)
    (o : jsdisp_t) (i : Nat) (ho : s.obj p = some o) (hpx : o.proxy = none) (hwf : props_wf o)
    (hi : i < o.prop_cnt) (hn : (slot o i).name = name)
    (hu : ∀ j, j < o.prop_cnt → (slot o j).name = name → j = i)
    (hov : override_idx o name = none)
    (ht1 : (slot o i).type ≠ prop_type_t.PROP_DELETED)
    (ht2 : (slot o i).type ≠ prop_type_t.PROP_PROTREF) :
    ∃ o1, table_frame o o1 ∧ head_hit o1 (string_hash name) name false i ∧
      jsdisp_define_property s p name desc = define_existing_prop (s.set_obj p o1) p i name desc := by
  obtain ⟨o1, hf, htf, hh⟩ := find_prop_name_found s p name o i ho hpx hwf hi hn hu
  refine ⟨o1, htf, hh, ?_⟩
  have hc := htf.2.2 i
  have hpx1 : o1.proxy = none := by
    rw [(same_fields_proxy (table_frame_fields htf).2.2).1]; exact hpx
  have ht1b : (slot o1 i).type ≠ prop_type_t.PROP_DELETED := by rw [hc.2.2.1]; exact ht1
  have ht2b : (slot o1 i).type ≠ prop_type_t.PROP_PROTREF := by rw [hc.2.2.1]; exact ht2
  unfold jsdisp_define_property
  simp only [ho, hov, hf, FAILED, Bool.false_eq_true, if_false, obj_set_obj_self ho, ht1b, ht2b,
    or_self, decide_False, false_and, hpx1, Option.isSome_none]

/-- C11. For an object without a proxy and with a well-formed table, whose slot
`i` is the slot named `name` (no overridden index), is neither a tombstone nor
a prototype reference and lacks the configurable flag: when the descriptor asks
for configurable = true, or has enumerable in its mask with a value other than
the enumerable flag of the slot, `jsdisp_define_property` returns the error
`JS_E_NONCONFIGURABLE_REDEFINED`, a failure, and leaves every object but this
one as it was and this one with every slot keeping its name, hash, kind, flags
and payload. -/
theorem nonconfigurable_flags_rejected (s : Store) (p : Nat) (name : WSTR)
    (desc : property_desc_t) (o : jsdisp_t) (i : Nat) (ho : s.obj p = some o)
    (hpx : o.proxy = none) (hwf : props_wf o) (hi : i < o.prop_cnt)
    (hn : (slot o i).name = name)
    (hu : ∀ j, j < o.prop_cnt → (slot o j).name = name → j = i)
    (hov : override_idx o name = none)
    (ht1 : (slot o i).type ≠ prop_type_t.PROP_DELETED)
    (ht2 : (slot o i).type ≠ prop_type_t.PROP_PROTREF)
    (hc : (slot o i).flags &&& PROPF_CONFIGURABLE = 0)
    (hd : (desc.mask &&& PROPF_CONFIGURABLE ≠ 0 ∧ desc.flags &&& PROPF_CONFIGURABLE ≠ 0) ∨
      (desc.mask &&& PROPF_ENUMERABLE ≠ 0 ∧
        desc.flags &&& PROPF_ENUMERABLE ≠ (slot o i).flags &&& PROPF_ENUMERABLE)) :
    ∃ o1, jsdisp_define_property s p name desc
        = some (s.set_obj p o1, throw_error s.ctx HRESULT.JS_E_NONCONFIGURABLE_REDEFINED name) ∧
      throw_error s.ctx HRESULT.JS_E_NONCONFIGURABLE_REDEFINED name
        = HRESULT.JS_E_NONCONFIGURABLE_REDEFINED ∧
      FAILED HRESULT.JS_E_NONCONFIGURABLE_REDEFINED = true ∧
      table_frame o o1 ∧ same_core (slot o1 i) (slot o i) := by
  obtain ⟨o1, htf, _, hdef⟩ :=
    define_property_existing s p name desc o i ho hpx hwf hi hn hu hov ht1 ht2
  refine ⟨o1, ?_, rfl, rfl, htf, htf.2.2 i⟩
  have hcore := htf.2.2 i
  rw [hdef]
  unfold define_existing_prop
  simp only [obj_set_obj_self ho, hcore.2.2.2.1, hc, hd, and_self, if_true]
  rfl

theorem jsval_strict_equal_true {a b : jsval_t} {hres : HRESULT}
    (h : jsval_strict_equal a b = some (hres, true)) : a = b := by
  cases a <;> cases b <;> simp [jsval_strict_equal] at h <;> simp [h]

theorem jsval_strict_equal_ok {a b : jsval_t} {hres : HRESULT} {eq : Bool}
    (h : jsval_strict_equal a b = some (hres, eq)) : hres = HRESULT.S_OK := by
  cases a <;> cases b <;> simp [jsval_strict_equal] at h <;> simp [h]

theorem release_copy_back (s : Store) (v : jsval_t)
    (hheld : ∀ q, v = jsval_t.obj q → ∃ oq, s.obj q = some oq ∧ oq.ref - 1 ≠ 0) :
    (jsval_release s v).bind (fun s1 => jsval_copy s1 v) = some s := by
  cases v with
  | obj q =>
    obtain ⟨oq, hoq, hne⟩ := hheld q rfl
    simp only [jsval_release, jsval_copy, val_link, jsdisp_release_eq s q oq hoq hne,
      Option.some_bind]
    exact addref_after_release s q oq hoq hne
  | _ => rfl

theorem slot_set_slot_self (This : jsdisp_t) (i : Nat) (f : dispex_prop_t → dispex_prop_t)
    (hi : i < This.props.length) : slot (set_slot This i f) i = f (slot This i) := by
  rw [slot_set_slot]; simp [hi]

theorem slot_set_slot_ne (This : jsdisp_t) {i j : Nat} (f : dispex_prop_t → dispex_prop_t)
    (h : j ≠ i) : slot (set_slot This i f) j = slot This j := by
  rw [slot_set_slot]; simp [h]

theorem props_wf_lt {o : jsdisp_t} (hwf : props_wf o) {i : Nat} (hi : i < o.prop_cnt) :
    i < o.props.length := by
  rw [hwf.1]; exact Nat.lt_of_lt_of_le hi hwf.2.2.2.1

theorem release_copy_then {α : Type} (s : Store) (v : jsval_t)
    (hheld : ∀ q, v = jsval_t.obj q → ∃ oq, s.obj q = some oq ∧ oq.ref - 1 ≠ 0)
    (k : Store → Option α) :
    (jsval_release s v).bind (fun s1 => (jsval_copy s1 v).bind k) = k s := by
  rw [← Option.bind_assoc, release_copy_back s v hheld, Option.some_bind]

theorem held_set_obj {s : Store} {p : Nat} {o o1 : jsdisp_t} (ho : s.obj p = some o)
    (hr : o1.ref = o.ref) {v : jsval_t}
    (hheld : ∀ q, v = jsval_t.obj q → ∃ oq, s.obj q = some oq ∧ oq.ref - 1 ≠ 0) :
    ∀ q, v = jsval_t.obj q → ∃ oq, (s.set_obj p o1).obj q = some oq ∧ oq.ref - 1 ≠ 0 := by
  intro q hq
  obtain ⟨oq, hoq, hne⟩ := hheld q hq
  by_cases hqp : q = p
  · subst hqp
    rw [ho] at hoq
    injection hoq with hoq
    subst hoq
    exact ⟨o1, obj_set_obj_self ho _, by rw [hr]; exact hne⟩
  · exact ⟨oq, by rw [obj_set_obj_ne s hqp]; exact hoq, hne⟩

/-- C12. For an object without a proxy and with a well-formed table, whose slot
`i` is the slot named `name` (no overridden index), a value slot holding `v0`
with neither the configurable nor the writable flag, and for a descriptor with
an explicit value that `jsval_strict_equal` compares with `v0` (result `eq`):
`jsdisp_define_property` returns `S_OK` exactly when `eq` holds and the
descriptor asks neither for writable = true nor for configurable = true nor for
another enumerable flag; otherwise it returns `JS_E_NONWRITABLE_MODIFIED` or
`JS_E_NONCONFIGURABLE_REDEFINED`, a failure, and every slot keeps its name,
hash, kind, flags and payload.  In both cases the slot still holds `v0`. -/
theorem nonwritable_value_redefinition (s : Store) (p : Nat) (name : WSTR)
    (desc : property_desc_t) (o : jsdisp_t) (i : Nat) (v0 : jsval_t) (eq : Bool)
    (ho : s.obj p = some o) (hpx : o.proxy = none) (hwf : props_wf o) (hi : i < o.prop_cnt)
    (hn : (slot o i).name = name)
    (hu : ∀ j, j < o.prop_cnt → (slot o j).name = name → j = i)
    (hov : override_idx o name = none)
    (ht : (slot o i).type = prop_type_t.PROP_JSVAL) (hv : (slot o i).u = prop_u.val v0)
    (hc : (slot o i).flags &&& PROPF_CONFIGURABLE = 0)
    (hw : (slot o i).flags &&& PROPF_WRITABLE = 0)
    (hev : desc.explicit_value = true)
    (heq : jsval_strict_equal desc.value v0 = some (HRESULT.S_OK, eq))
    (hheld : ∀ q, v0 = jsval_t.obj q → ∃ oq, s.obj q = some oq ∧ oq.ref - 1 ≠ 0) :
    ∃ o1 hres, jsdisp_define_property s p name desc = some (s.set_obj p o1, hres) ∧
      (hres = HRESULT.S_OK ↔
        (eq = true ∧
          ¬ (desc.mask &&& PROPF_WRITABLE ≠ 0 ∧ desc.flags &&& PROPF_WRITABLE ≠ 0) ∧
          ¬ ((desc.mask &&& PROPF_CONFIGURABLE ≠ 0 ∧ desc.flags &&& PROPF_CONFIGURABLE ≠ 0) ∨
            (desc.mask &&& PROPF_ENUMERABLE ≠ 0 ∧
              desc.flags &&& PROPF_ENUMERABLE ≠ (slot o i).flags &&& PROPF_ENUMERABLE)))) ∧
      (hres ≠ HRESULT.S_OK →
        (hres = throw_error s.ctx HRESULT.JS_E_NONWRITABLE_MODIFIED name ∨
          hres = throw_error s.ctx HRESULT.JS_E_NONCONFIGURABLE_REDEFINED name) ∧
        FAILED hres = true ∧ table_frame o o1) ∧
      (∀ j, j ≠ i → same_core (slot o1 j) (slot o j)) ∧
      (slot o1 i).name = name ∧ (slot o1 i).type = prop_type_t.PROP_JSVAL ∧
      (slot o1 i).u = prop_u.val v0 ∧
      (hres = HRESULT.S_OK → (slot o1 i).flags = merge_flags (slot o i).flags desc) := by
  obtain ⟨oa, htf, _, hdef⟩ := define_property_existing s p name desc o i ho hpx hwf hi hn hu hov
    (by rw [ht]; decide) (by rw [ht]; decide)
  have hcore := htf.2.2 i
  have hta : (slot oa i).type = prop_type_t.PROP_JSVAL := by rw [hcore.2.2.1]; exact ht
  have hfa : (slot oa i).flags = (slot o i).flags := hcore.2.2.2.1
  have hua : (slot oa i).u = prop_u.val v0 := by rw [hcore.2.2.2.2]; exact hv
  have hna : (slot oa i).name = name := by rw [hcore.1]; exact hn
  have hoa : (s.set_obj p oa).obj p = some oa := obj_set_obj_self ho _
  by_cases hforb : (desc.mask &&& PROPF_CONFIGURABLE ≠ 0 ∧ desc.flags &&& PROPF_CONFIGURABLE ≠ 0) ∨
      (desc.mask &&& PROPF_ENUMERABLE ≠ 0 ∧
        desc.flags &&& PROPF_ENUMERABLE ≠ (slot o i).flags &&& PROPF_ENUMERABLE)
  · refine ⟨oa, throw_error s.ctx HRESULT.JS_E_NONCONFIGURABLE_REDEFINED name, ?_,
      ⟨fun h => by simp [throw_error] at h, fun h => absurd hforb h.2.2⟩,
      fun _ => ⟨Or.inr rfl, rfl, htf⟩, fun j _ => htf.2.2 j, hna, hta, hua,
      fun h => by simp [throw_error] at h⟩
    rw [hdef]
    unfold define_existing_prop
    simp only [hoa, hfa, hc, hforb, and_self, if_true]
    rfl
  · by_cases hwr : desc.mask &&& PROPF_WRITABLE ≠ 0 ∧ desc.flags &&& PROPF_WRITABLE ≠ 0
    · refine ⟨oa, throw_error s.ctx HRESULT.JS_E_NONWRITABLE_MODIFIED name, ?_,
        ⟨fun h => by simp [throw_error] at h, fun h => absurd hwr h.2.1⟩,
        fun _ => ⟨Or.inl rfl, rfl, htf⟩, fun j _ => htf.2.2 j, hna, hta, hua,
        fun h => by simp [throw_error] at h⟩
      rw [hdef]
      unfold define_existing_prop
      simp only [hoa, hfa, hc, hforb, and_false, if_false, hev, true_or, if_true]
      unfold define_data_prop
      simp only [hoa, hta, hfa, hc, hw, if_pos hwr, and_self, if_true, reduceCtorEq, if_false]
      rfl
    · cases eq with
      | false =>
        refine ⟨oa, throw_error s.ctx HRESULT.JS_E_NONWRITABLE_MODIFIED name, ?_,
          ⟨fun h => by simp [throw_error] at h, fun h => by cases h.1⟩,
          fun _ => ⟨Or.inl rfl, rfl, htf⟩, fun j _ => htf.2.2 j, hna, hta, hua,
          fun h => by simp [throw_error] at h⟩
        rw [hdef]
        unfold define_existing_prop
        simp only [hoa, hfa, hc, hforb, and_false, if_false, hev, true_or, if_true]
        unfold define_data_prop
        simp only [hoa, hta, hfa, hc, hw, if_neg hwr, and_self, if_true, reduceCtorEq, if_false, hua,
          u_val, heq, FAILED, Bool.false_eq_true, hev]
        rfl
      | true =>
        have hval : desc.value = v0 := jsval_strict_equal_true heq
        have heq2 := heq
        rw [hval] at heq2
        have hh := @held_set_obj _ _ _ oa ho (same_fields_proxy (table_frame_fields htf).2.2).2.2 _
          hheld
        refine ⟨set_slot (set_slot oa i (fun q => { q with u := prop_u.val desc.value })) i
            (fun q => { q with flags := merge_flags q.flags desc }), HRESULT.S_OK, ?_,
          ⟨fun _ => ⟨rfl, hwr, hforb⟩, fun _ => rfl⟩, fun h => absurd rfl h, ?_, ?_, ?_, ?_, ?_⟩
        · rw [hdef]
          unfold define_existing_prop
          simp only [hoa, hfa, hc, hforb, and_false, if_false, hev, true_or, if_true]
          unfold define_data_prop
          simp only [hoa, hta, hfa, hc, hw, if_neg hwr, and_self, if_true, reduceCtorEq, if_false, hua,
            u_val, hval, heq2, FAILED, Bool.false_eq_true, hev]
          rw [release_copy_then _ v0 hh]
          simp only [store_set_slot, hoa, Option.map_some', set_obj_set_obj, obj_set_obj_self ho]
        · intro j hj
          rw [slot_set_slot_ne _ _ hj, slot_set_slot_ne _ _ hj]
          exact htf.2.2 j
        all_goals
          have hil : i < oa.props.length := by rw [htf.2.1]; exact props_wf_lt hwf hi
          rw [slot_set_slot_self _ _ _ (by rw [set_slot_length]; exact hil),
            slot_set_slot_self _ _ _ hil]
        · exact hna
        · exact hta
        · show prop_u.val desc.value = _
          rw [hval]
        · intro _
          show merge_flags (slot oa i).flags desc = _
          rw [hfa]

/-! ### Rewriting one slot while reference counts move -/

theorem set_slot_set_slot (X : jsdisp_t) (i : Nat) (f g : dispex_prop_t → dispex_prop_t) :
    set_slot (set_slot X i f) i g = set_slot X i (fun q => g (f q)) := by
  by_cases hi : i < X.props.length
  · unfold set_slot
    have : slot { X with props := X.props.set i (f (slot X i)) } i = f (slot X i) := by
      unfold slot
      simp [List.getD_eq_getElem?_getD, hi]
    rw [this]
    simp [List.set_set]
  · have h1 : ∀ (Y : jsdisp_t) (h : dispex_prop_t → dispex_prop_t), Y.props.length ≤ i →
        set_slot Y i h = Y := by
      intro Y h hY
      unfold set_slot
      rw [List.set_eq_of_length_le hY]
    rw [h1 X f (by omega), h1 X g (by omega), h1 X _ (by omega)]

theorem upd_step_refl (p i : Nat) (s : Store) : upd_step p i (fun q => q) s s := by
  intro q o ho
  refine ⟨o.ref, ?_⟩
  split
  · rw [ho, set_slot_same _ _ _ rfl]
  · rw [ho]

theorem upd_step_alive {p i : Nat} {F : dispex_prop_t → dispex_prop_t} {s0 s : Store}
    (h : upd_step p i F s0 s) {q : Nat} (hq : (s0.obj q).isSome = true) :
    (s.obj q).isSome = true := by
  cases ho : s0.obj q with
  | none => rw [ho] at hq; cases hq
  | some o =>
    obtain ⟨r, hr⟩ := h q o ho
    rw [hr]; rfl

theorem upd_step_set_ref {p i : Nat} {F : dispex_prop_t → dispex_prop_t} {s0 s : Store}
    (h : upd_step p i F s0 s) {q : Nat} {oq : jsdisp_t} (hq : s.obj q = some oq) (r : Int) :
    upd_step p i F s0 (s.set_obj q { oq with ref := r }) := by
  intro x o ho
  obtain ⟨r0, hr0⟩ := h x o ho
  by_cases hx : x = q
  · subst hx
    rw [obj_set_obj_self hq]
    rw [hq] at hr0
    injection hr0 with hr0
    refine ⟨r, ?_⟩
    rw [hr0]
    split <;> rfl
  · rw [obj_set_obj_ne s hx]
    exact ⟨r0, hr0⟩

theorem upd_step_ctx {p i : Nat} {F : dispex_prop_t → dispex_prop_t} {s0 s s1 : Store}
    (h : upd_step p i F s0 s) (hh : s1.heap = s.heap) : upd_step p i F s0 s1 := by
  intro x o ho
  obtain ⟨r0, hr0⟩ := h x o ho
  exact ⟨r0, by unfold Store.obj at hr0 ⊢; rw [hh]; exact hr0⟩

theorem upd_step_release {p i : Nat} {F : dispex_prop_t → dispex_prop_t} {s0 s : Store}
    (h : upd_step p i F s0 s) {q : Nat} {oq : jsdisp_t} (hq : s.obj q = some oq)
    (hne : oq.ref - 1 ≠ 0) :
    ∃ s1, jsdisp_release s q = some s1 ∧ upd_step p i F s0 s1 ∧
      s1 = s.set_obj q { oq with ref := oq.ref - 1 } :=
  ⟨_, jsdisp_release_eq s q oq hq hne, upd_step_set_ref h hq _, rfl⟩

theorem upd_step_addref {p i : Nat} {F : dispex_prop_t → dispex_prop_t} {s0 s : Store}
    (h : upd_step p i F s0 s) {q : Nat} (hq : (s.obj q).isSome = true) :
    ∃ s1, jsdisp_addref s q = some s1 ∧ upd_step p i F s0 s1 := by
  cases ho : s.obj q with
  | none => rw [ho] at hq; cases hq
  | some oq =>
    unfold jsdisp_addref
    simp only [ho]
    split
    · refine ⟨_, rfl, ?_⟩
      unfold jsdisp_reacquire
      split
      · exact upd_step_ctx (upd_step_set_ref h ho _) rfl
      · exact upd_step_set_ref h ho _
    · exact ⟨_, rfl, upd_step_set_ref h ho _⟩

theorem upd_step_set_slot {p i : Nat} {F : dispex_prop_t → dispex_prop_t} {s0 s : Store}
    (h : upd_step p i F s0 s) {o : jsdisp_t} (ho : s0.obj p = some o)
    (g : dispex_prop_t → dispex_prop_t) :
    ∃ s1, store_set_slot s p i g = some s1 ∧ upd_step p i (fun q => g (F q)) s0 s1 := by
  obtain ⟨r, hr⟩ := h p o ho
  rw [if_pos rfl] at hr
  unfold store_set_slot
  simp only [hr]
  refine ⟨_, rfl, ?_⟩
  intro x ox hox
  by_cases hx : x = p
  · rw [hx] at hox ⊢
    rw [ho] at hox
    injection hox with hox
    subst hox
    refine ⟨r, ?_⟩
    rw [obj_set_obj_self hr, if_pos rfl, set_slot_set_slot]
  · obtain ⟨r0, hr0⟩ := h x ox hox
    refine ⟨r0, ?_⟩
    rw [if_neg hx] at hr0 ⊢
    rw [obj_set_obj_ne s hx]
    exact hr0

theorem upd_step_release_all {p i : Nat} {F : dispex_prop_t → dispex_prop_t} {s0 : Store} :
    ∀ (l : List Nat) (s : Store), upd_step p i F s0 s →
      (∀ q ∈ l, ∃ oq, s.obj q = some oq ∧ (l.count q : Int) < oq.ref) →
      ∃ s1, release_all jsdisp_release l s = some s1 ∧ upd_step p i F s0 s1 := by
  intro l
  induction l with
  | nil => intro s h _; exact ⟨s, rfl, h⟩
  | cons x l ih =>
    intro s h hheld
    obtain ⟨ox, hox, hcx⟩ := hheld x (List.mem_cons_self _ _)
    have hne : ox.ref - 1 ≠ 0 := by
      have : (1 : Int) ≤ ((x :: l).count x : Int) := by
        rw [List.count_cons_self]; push_cast; omega
      omega
    obtain ⟨s1, hs1, hu1, he1⟩ := upd_step_release h hox hne
    simp only [release_all, hs1, Option.some_bind]
    refine ih s1 hu1 ?_
    intro q hq
    obtain ⟨oq, hoq, hcq⟩ := hheld q (List.mem_cons_of_mem _ hq)
    by_cases hqx : q = x
    · subst hqx
      rw [hox] at hoq
      injection hoq with hoq
      subst hoq
      refine ⟨_, by rw [he1]; exact obj_set_obj_self hox _, ?_⟩
      rw [List.count_cons_self] at hcq
      show (l.count q : Int) < ox.ref - 1
      push_cast at hcq
      omega
    · refine ⟨oq, by rw [he1, obj_set_obj_ne s hqx]; exact hoq, ?_⟩
      rw [count_cons_ne hqx] at hcq
      exact hcq

theorem upd_step_copy {p i : Nat} {F : dispex_prop_t → dispex_prop_t} {s0 s : Store}
    (h : upd_step p i F s0 s) {v : jsval_t}
    (hv : ∀ q, v = jsval_t.obj q → (s.obj q).isSome = true) :
    ∃ s1, jsval_copy s v = some s1 ∧ upd_step p i F s0 s1 := by
  cases v with
  | obj q => exact upd_step_addref h (hv q rfl)
  | _ => exact ⟨s, rfl, h⟩

theorem upd_step_addref_opt {p i : Nat} {F : dispex_prop_t → dispex_prop_t} {s0 s : Store}
    (h : upd_step p i F s0 s) (f : Option Nat)
    (hf : ∀ g, f = some g → (s0.obj g).isSome = true) :
    ∃ s1, addref_opt s f = some s1 ∧ upd_step p i F s0 s1 := by
  cases f with
  | none => exact ⟨s, rfl, h⟩
  | some g => exact upd_step_addref h (upd_step_alive h (hf g rfl))

theorem upd_step_result {p i : Nat} {F : dispex_prop_t → dispex_prop_t} {s s1 : Store}
    {o oa : jsdisp_t} (ho : s.obj p = some o) (htf : table_frame o oa)
    (hil : i < o.props.length) (h : upd_step p i F (s.set_obj p oa) s1) :
    ∃ o1, s1.obj p = some o1 ∧ slot o1 i = F (slot oa i) ∧
      (∀ j, j ≠ i → same_core (slot o1 j) (slot o j)) ∧
      (∀ q oq, q ≠ p → s.obj q = some oq → ∃ r, s1.obj q = some { oq with ref := r }) := by
  obtain ⟨r, hr⟩ := h p oa (obj_set_obj_self ho _)
  rw [if_pos rfl] at hr
  refine ⟨_, hr, ?_, ?_, ?_⟩
  · rw [slot_set_slot_self _ _ _ (by show i < oa.props.length; rw [htf.2.1]; exact hil)]
    rfl
  · intro j hj
    rw [slot_set_slot_ne _ _ hj]
    exact htf.2.2 j
  · intro q oq hq hoq
    obtain ⟨r0, hr0⟩ := h q oq (by rw [obj_set_obj_ne s hq]; exact hoq)
    rw [if_neg hq] at hr0
    exact ⟨r0, hr0⟩

theorem links_held_frame {s : Store} {p : Nat} {o oa : jsdisp_t} (ho : s.obj p = some o)
    (htf : table_frame o oa) {i : Nat} (h : links_held s (slot o i)) :
    links_held (s.set_obj p oa) (slot oa i) := by
  have hc := htf.2.2 i
  have he : slot_edges (slot oa i) = slot_edges (slot o i) := by
    unfold slot_edges
    rw [hc.2.2.1, hc.2.2.2.2]
  intro q hq
  rw [he] at hq ⊢
  obtain ⟨oq, hoq, hcnt⟩ := h q hq
  by_cases hqp : q = p
  · subst hqp
    rw [ho] at hoq
    injection hoq with hoq
    subst hoq
    exact ⟨oa, obj_set_obj_self ho _,
      by rw [(same_fields_proxy (table_frame_fields htf).2.2).2.2]; exact hcnt⟩
  · exact ⟨oq, by rw [obj_set_obj_ne s hqp]; exact hoq, hcnt⟩

theorem upd_step_jsval_release {p i : Nat} {F : dispex_prop_t → dispex_prop_t} {s0 s : Store}
    (h : upd_step p i F s0 s) {prop : dispex_prop_t}
    (ht : prop.type = prop_type_t.PROP_JSVAL) (hheld : links_held s prop) :
    ∃ s1, jsval_release s (u_val prop.u) = some s1 ∧ upd_step p i F s0 s1 := by
  have he : slot_edges prop = (val_link (u_val prop.u)).toList := by
    unfold slot_edges; rw [ht]
  unfold links_held at hheld
  rw [he] at hheld
  obtain ⟨s1, hs1, hu1⟩ := upd_step_release_all _ s h hheld
  refine ⟨s1, ?_, hu1⟩
  unfold jsval_release
  cases hl : val_link (u_val prop.u) with
  | none => rw [hl] at hs1; exact hs1
  | some q =>
    rw [hl] at hs1
    show jsdisp_release s q = some s1
    simp only [Option.toList, release_all] at hs1
    cases hr : jsdisp_release s q with
    | none => rw [hr] at hs1; simp at hs1
    | some s2 => rw [hr] at hs1; simp at hs1; rw [hs1]

/-! ### A change of shape -/

theorem define_shape_rejected (s : Store) (p : Nat) (name : WSTR) (desc : property_desc_t)
    (o : jsdisp_t) (i : Nat) (ho : s.obj p = some o) (hpx : o.proxy = none) (hwf : props_wf o)
    (hi : i < o.prop_cnt) (hn : (slot o i).name = name)
    (hu : ∀ j, j < o.prop_cnt → (slot o j).name = name → j = i)
    (hov : override_idx o name = none)
    (ht1 : (slot o i).type ≠ prop_type_t.PROP_DELETED)
    (ht2 : (slot o i).type ≠ prop_type_t.PROP_PROTREF)
    (hnc : (slot o i).flags &&& PROPF_CONFIGURABLE = 0)
    (hshape : ((slot o i).type = prop_type_t.PROP_ACCESSOR ∧
        (desc.explicit_value = true ∨ desc.mask &&& PROPF_WRITABLE ≠ 0)) ∨
      ((slot o i).type ≠ prop_type_t.PROP_ACCESSOR ∧
        (desc.explicit_getter = true ∨ desc.explicit_setter = true) ∧
        ¬ (desc.explicit_value = true ∨ desc.mask &&& PROPF_WRITABLE ≠ 0))) :
    ∃ o1, jsdisp_define_property s p name desc
        = some (s.set_obj p o1, throw_error s.ctx HRESULT.JS_E_NONCONFIGURABLE_REDEFINED name) ∧
      table_frame o o1 := by
  obtain ⟨oa, htf, _, hdef⟩ :=
    define_property_existing s p name desc o i ho hpx hwf hi hn hu hov ht1 ht2
  have hcore := htf.2.2 i
  have hta : (slot oa i).type = (slot o i).type := hcore.2.2.1
  have hfa : (slot oa i).flags = (slot o i).flags := hcore.2.2.2.1
  have hoa : (s.set_obj p oa).obj p = some oa := obj_set_obj_self ho _
  refine ⟨oa, ?_, htf⟩
  rw [hdef]
  unfold define_existing_prop
  simp only [hoa, hfa, hnc, true_and]
  split
  · rfl
  · rcases hshape with ⟨hacc, hdata⟩ | ⟨hnacc, hgs, hnd⟩
    · rw [if_pos hdata]
      unfold define_data_prop
      simp only [hoa, hta, hacc, hfa, hnc, if_true]
      rfl
    · rw [if_neg hnd, if_pos hgs]
      unfold define_accessor_prop
      simp only [hoa, hta, hfa, hnc, ne_eq, hnacc, not_false_eq_true, if_true]
      rfl

theorem alive_set_table {s : Store} {p : Nat} {o oa : jsdisp_t} (ho : s.obj p = some o) {q : Nat}
    (hq : (s.obj q).isSome = true) : ((s.set_obj p oa).obj q).isSome = true :=
  alive_set_obj ho oa q hq

theorem define_to_data (s : Store) (p : Nat) (name : WSTR) (desc : property_desc_t)
    (o : jsdisp_t) (i : Nat) (ho : s.obj p = some o) (hpx : o.proxy = none) (hwf : props_wf o)
    (hi : i < o.prop_cnt) (hn : (slot o i).name = name)
    (hu : ∀ j, j < o.prop_cnt → (slot o j).name = name → j = i)
    (hov : override_idx o name = none)
    (hacc : (slot o i).type = prop_type_t.PROP_ACCESSOR)
    (hcf : (slot o i).flags &&& PROPF_CONFIGURABLE ≠ 0)
    (hdata : desc.explicit_value = true ∨ desc.mask &&& PROPF_WRITABLE ≠ 0)
    (hheld : links_held s (slot o i))
    (hlinks : ∀ q ∈ desc_links desc, (s.obj q).isSome = true) :
    ∃ s1 o1, jsdisp_define_property s p name desc = some (s1, HRESULT.S_OK) ∧
      s1.obj p = some o1 ∧ (slot o1 i).name = name ∧
      (slot o1 i).type = prop_type_t.PROP_JSVAL ∧ (slot o1 i).u = prop_u.val desc.value ∧
      (slot o1 i).flags = merge_flags (slot o i).flags desc ∧
      (∀ j, j ≠ i → same_core (slot o1 j) (slot o j)) ∧
      (∀ q oq, q ≠ p → s.obj q = some oq → ∃ r, s1.obj q = some { oq with ref := r }) := by
  obtain ⟨oa, htf, _, hdef⟩ :=
    define_property_existing s p name desc o i ho hpx hwf hi hn hu hov
      (by rw [hacc]; decide) (by rw [hacc]; decide)
  have hcore := htf.2.2 i
  have hta : (slot oa i).type = prop_type_t.PROP_ACCESSOR := by rw [hcore.2.2.1]; exact hacc
  have hfa : (slot oa i).flags = (slot o i).flags := hcore.2.2.2.1
  have hoa : (s.set_obj p oa).obj p = some oa := obj_set_obj_self ho _
  have hcf1 : ((slot o i).flags &&& PROPF_CONFIGURABLE = 0) = False := by simp [hcf]
  have hha := links_held_frame ho htf hheld (i := i)
  have he : slot_edges (slot oa i)
      = (u_getter (slot oa i).u).toList ++ (u_setter (slot oa i).u).toList := by
    unfold slot_edges; rw [hta]
  unfold links_held at hha
  rw [he] at hha
  obtain ⟨s1, hs1, u1⟩ := upd_step_release_all _ _ (upd_step_refl p i (s.set_obj p oa)) hha
  obtain ⟨s2, hs2, u2⟩ := upd_step_set_slot u1 hoa
    (fun q => { q with type := prop_type_t.PROP_JSVAL })
  obtain ⟨s3, hs3, u3⟩ := upd_step_copy u2 (v := desc.value) (fun q hq =>
    upd_step_alive u2 (alive_set_table ho (hlinks q (by simp [desc_links, hq, val_link]))))
  obtain ⟨s4, hs4, u4⟩ := upd_step_set_slot u3 hoa
    (fun q => { q with u := prop_u.val desc.value })
  obtain ⟨s5, hs5, u5⟩ := upd_step_set_slot u4 hoa
    (fun q => { q with flags := merge_flags q.flags desc })
  obtain ⟨o1, ho1, hsl, hoth, hfr⟩ := upd_step_result ho htf (props_wf_lt hwf hi) u5
  refine ⟨s5, o1, ?_, ho1, ?_, ?_, ?_, ?_, hoth, hfr⟩
  · rw [hdef]
    unfold define_existing_prop
    simp only [hoa, hfa, hcf1, false_and, if_false, if_pos hdata]
    unfold define_data_prop
    simp only [hoa, hta, hfa, hcf1, if_true, if_false, hs1, Option.some_bind, hs2, hs3, hs4,
      Option.map_some', hs5]
  · rw [hsl]; exact hcore.1.trans hn
  · rw [hsl]
  · rw [hsl]
  · rw [hsl]; show merge_flags (slot oa i).flags desc = _; rw [hfa]

theorem upd_step_obj {p i : Nat} {F : dispex_prop_t → dispex_prop_t} {sa s : Store}
    {oa : jsdisp_t} (h : upd_step p i F sa s) (hoa : sa.obj p = some oa)
    (hil : i < oa.props.length) :
    ∃ o1, s.obj p = some o1 ∧ slot o1 i = F (slot oa i) := by
  obtain ⟨r, hr⟩ := h p oa hoa
  rw [if_pos rfl] at hr
  exact ⟨_, hr, by rw [slot_set_slot_self _ _ _ (show i < ({ oa with ref := r } : jsdisp_t).props.length from hil)]; rfl⟩

theorem set_getter_step {p i : Nat} {F : dispex_prop_t → dispex_prop_t} {sa s : Store}
    {oa : jsdisp_t} (hoa : sa.obj p = some oa) (hil : i < oa.props.length)
    (h : upd_step p i F sa s) (desc : property_desc_t) (t0 : Option Nat)
    (hF : (F (slot oa i)).u = prop_u.accessor none t0)
    (hg : ∀ f, desc.getter = some f → (sa.obj f).isSome = true) :
    ∃ s1 F1, (if desc.explicit_getter then set_getter s p i desc else some s) = some s1 ∧
      upd_step p i F1 sa s1 ∧
      F1 (slot oa i) = { F (slot oa i) with
        u := prop_u.accessor (if desc.explicit_getter then desc.getter else none) t0 } := by
  cases hb : desc.explicit_getter with
  | false =>
    refine ⟨s, F, by simp, h, ?_⟩
    simp only [Bool.false_eq_true, if_false]
    rw [← hF]
  | true =>
    obtain ⟨o1, ho1, hsl⟩ := upd_step_obj h hoa hil
    obtain ⟨s2, hs2, u2⟩ := upd_step_set_slot h hoa
      (fun q => { q with u := prop_u.accessor none (u_setter q.u) })
    obtain ⟨s3, hs3, u3⟩ := upd_step_addref_opt u2 desc.getter hg
    obtain ⟨s4, hs4, u4⟩ := upd_step_set_slot u3 hoa
      (fun q => { q with u := prop_u.accessor desc.getter (u_setter q.u) })
    refine ⟨s4, _, ?_, u4, ?_⟩
    · simp only [if_true, set_getter, ho1, hsl, hF, u_getter, Option.toList, release_all,
        Option.some_bind, hs2, hs3, hs4]
    · simp only [if_true, hF, u_setter]

theorem set_setter_step {p i : Nat} {F : dispex_prop_t → dispex_prop_t} {sa s : Store}
    {oa : jsdisp_t} (hoa : sa.obj p = some oa) (hil : i < oa.props.length)
    (h : upd_step p i F sa s) (desc : property_desc_t) (g0 : Option Nat)
    (hF : (F (slot oa i)).u = prop_u.accessor g0 none)
    (hg : ∀ f, desc.setter = some f → (sa.obj f).isSome = true) :
    ∃ s1 F1, (if desc.explicit_setter then set_setter s p i desc else some s) = some s1 ∧
      upd_step p i F1 sa s1 ∧
      F1 (slot oa i) = { F (slot oa i) with
        u := prop_u.accessor g0 (if desc.explicit_setter then desc.setter else none) } := by
  cases hb : desc.explicit_setter with
  | false =>
    refine ⟨s, F, by simp, h, ?_⟩
    simp only [Bool.false_eq_true, if_false]
    rw [← hF]
  | true =>
    obtain ⟨o1, ho1, hsl⟩ := upd_step_obj h hoa hil
    obtain ⟨s2, hs2, u2⟩ := upd_step_set_slot h hoa
      (fun q => { q with u := prop_u.accessor (u_getter q.u) none })
    obtain ⟨s3, hs3, u3⟩ := upd_step_addref_opt u2 desc.setter hg
    obtain ⟨s4, hs4, u4⟩ := upd_step_set_slot u3 hoa
      (fun q => { q with u := prop_u.accessor (u_getter q.u) desc.setter })
    refine ⟨s4, _, ?_, u4, ?_⟩
    · simp only [if_true, set_setter, ho1, hsl, hF, u_setter, Option.toList, release_all,
        Option.some_bind, hs2, hs3, hs4]
    · simp only [if_true, hF, u_getter]

theorem define_to_accessor (s : Store) (p : Nat) (name : WSTR) (desc : property_desc_t)
    (o : jsdisp_t) (i : Nat) (ho : s.obj p = some o) (hpx : o.proxy = none) (hwf : props_wf o)
    (hi : i < o.prop_cnt) (hn : (slot o i).name = name)
    (hu : ∀ j, j < o.prop_cnt → (slot o j).name = name → j = i)
    (hov : override_idx o name = none)
    (ht1 : (slot o i).type ≠ prop_type_t.PROP_DELETED)
    (ht2 : (slot o i).type ≠ prop_type_t.PROP_PROTREF)
    (hnacc : (slot o i).type ≠ prop_type_t.PROP_ACCESSOR)
    (hcf : (slot o i).flags &&& PROPF_CONFIGURABLE ≠ 0)
    (hgs : desc.explicit_getter = true ∨ desc.explicit_setter = true)
    (hnd : ¬ (desc.explicit_value = true ∨ desc.mask &&& PROPF_WRITABLE ≠ 0))
    (hheld : links_held s (slot o i))
    (hlinks : ∀ q ∈ desc_links desc, (s.obj q).isSome = true) :
    ∃ s1 o1, jsdisp_define_property s p name desc = some (s1, HRESULT.S_OK) ∧
      s1.obj p = some o1 ∧ (slot o1 i).name = name ∧
      (slot o1 i).type = prop_type_t.PROP_ACCESSOR ∧
      (slot o1 i).u = prop_u.accessor (if desc.explicit_getter then desc.getter else none)
        (if desc.explicit_setter then desc.setter else none) ∧
      (slot o1 i).flags = merge_flags (slot o i).flags desc ∧
      (∀ j, j ≠ i → same_core (slot o1 j) (slot o j)) ∧
      (∀ q oq, q ≠ p → s.obj q = some oq → ∃ r, s1.obj q = some { oq with ref := r }) := by
  obtain ⟨oa, htf, _, hdef⟩ :=
    define_property_existing s p name desc o i ho hpx hwf hi hn hu hov ht1 ht2
  have hcore := htf.2.2 i
  have hta : (slot oa i).type = (slot o i).type := hcore.2.2.1
  have hfa : (slot oa i).flags = (slot o i).flags := hcore.2.2.2.1
  have hoa : (s.set_obj p oa).obj p = some oa := obj_set_obj_self ho _
  have hil : i < oa.props.length := by rw [htf.2.1]; exact props_wf_lt hwf hi
  have hcf1 : ((slot o i).flags &&& PROPF_CONFIGURABLE = 0) = False := by simp [hcf]
  have hha := links_held_frame ho htf hheld (i := i)
  have halive : ∀ f, f ∈ desc_links desc → ((s.set_obj p oa).obj f).isSome = true :=
    fun f hf => alive_set_table ho (hlinks f hf)
  have hA : ∃ s1, (if (slot o i).type = prop_type_t.PROP_JSVAL then
        jsval_release (s.set_obj p oa) (u_val (slot oa i).u) else some (s.set_obj p oa)) = some s1 ∧
      upd_step p i (fun q => q) (s.set_obj p oa) s1 := by
    by_cases hj : (slot o i).type = prop_type_t.PROP_JSVAL
    · rw [if_pos hj]
      exact upd_step_jsval_release (upd_step_refl p i _) (hta.trans hj) hha
    · rw [if_neg hj]
      exact ⟨_, rfl, upd_step_refl p i _⟩
  obtain ⟨s1, hs1, u1⟩ := hA
  obtain ⟨s2, hs2, u2⟩ := upd_step_set_slot u1 hoa
    (fun q => { q with type := prop_type_t.PROP_ACCESSOR, u := prop_u.accessor none none })
  obtain ⟨s3, F3, hs3, u3, hF3⟩ := set_getter_step hoa hil u2 desc none rfl
    (fun f hf => halive f (by simp [desc_links, hf]))
  obtain ⟨s4, F4, hs4, u4, hF4⟩ := set_setter_step hoa hil u3 desc
    (if desc.explicit_getter then desc.getter else none) (by rw [hF3])
    (fun f hf => halive f (by simp [desc_links, hf]))
  obtain ⟨s5, hs5, u5⟩ := upd_step_set_slot u4 hoa
    (fun q => { q with flags := merge_flags q.flags desc })
  obtain ⟨o1, ho1, hsl, hoth, hfr⟩ := upd_step_result ho htf (props_wf_lt hwf hi) u5
  rw [hF4, hF3] at hsl
  refine ⟨s5, o1, ?_, ho1, ?_, ?_, ?_, ?_, hoth, hfr⟩
  · rw [hdef]
    unfold define_existing_prop
    simp only [hoa, hfa, hcf1, false_and, if_false, if_neg hnd, if_pos hgs]
    unfold define_accessor_prop
    simp only [hoa, hta, hfa, hcf1, ne_eq, hnacc, not_false_eq_true, if_true, if_false, hs1,
      Option.some_bind, hs2, Option.map_some', hs3, hs4, hs5]
  · rw [hsl]; exact hcore.1.trans hn
  · rw [hsl]
  · rw [hsl]
  · rw [hsl]; show merge_flags (slot oa i).flags desc = _; rw [hfa]

/-- C13, as the code has it. For an object without a proxy and with a
well-formed table, whose slot `i` is the slot named `name` (no overridden
index) and neither a tombstone nor a prototype reference.  When the slot lacks
the configurable flag, `jsdisp_define_property` returns
`JS_E_NONCONFIGURABLE_REDEFINED` and every slot keeps its name, hash, kind,
flags and payload, both for an accessor slot and a data descriptor (explicit
value or writable in its mask) and for a slot that is no accessor and a
descriptor that has a getter or setter and is no data descriptor.  When the slot
has the configurable flag, the references it holds are not the last ones and
the objects of the descriptor are allocated, the same requests return `S_OK`:
the slot becomes a value slot holding the value of the descriptor, or an
accessor slot with the getter and setter the descriptor gives, and its flags
become `(old & ~mask) | (desc.flags & mask)`. -/
theorem shape_change_needs_configurable (s : Store) (p : Nat) (name : WSTR)
    (desc : property_desc_t) (o : jsdisp_t) (i : Nat) (ho : s.obj p = some o)
    (hpx : o.proxy = none) (hwf : props_wf o) (hi : i < o.prop_cnt)
    (hn : (slot o i).name = name)
    (hu : ∀ j, j < o.prop_cnt → (slot o j).name = name → j = i)
    (hov : override_idx o name = none)
    (ht1 : (slot o i).type ≠ prop_type_t.PROP_DELETED)
    (ht2 : (slot o i).type ≠ prop_type_t.PROP_PROTREF) :
    ((slot o i).flags &&& PROPF_CONFIGURABLE = 0 →
      (((slot o i).type = prop_type_t.PROP_ACCESSOR ∧
          (desc.explicit_value = true ∨ desc.mask &&& PROPF_WRITABLE ≠ 0)) ∨
        ((slot o i).type ≠ prop_type_t.PROP_ACCESSOR ∧
          (desc.explicit_getter = true ∨ desc.explicit_setter = true) ∧
          ¬ (desc.explicit_value = true ∨ desc.mask &&& PROPF_WRITABLE ≠ 0))) →
      ∃ o1, jsdisp_define_property s p name desc
          = some (s.set_obj p o1, throw_error s.ctx HRESULT.JS_E_NONCONFIGURABLE_REDEFINED name) ∧
        throw_error s.ctx HRESULT.JS_E_NONCONFIGURABLE_REDEFINED name
          = HRESULT.JS_E_NONCONFIGURABLE_REDEFINED ∧
        table_frame o o1) ∧
    ((slot o i).flags &&& PROPF_CONFIGURABLE ≠ 0 → links_held s (slot o i) →
      (∀ q ∈ desc_links desc, (s.obj q).isSome = true) →
      ((slot o i).type = prop_type_t.PROP_ACCESSOR ∧
          (desc.explicit_value = true ∨ desc.mask &&& PROPF_WRITABLE ≠ 0) →
        ∃ s1 o1, jsdisp_define_property s p name desc = some (s1, HRESULT.S_OK) ∧
          s1.obj p = some o1 ∧ (slot o1 i).name = name ∧
          (slot o1 i).type = prop_type_t.PROP_JSVAL ∧ (slot o1 i).u = prop_u.val desc.value ∧
          (slot o1 i).flags = merge_flags (slot o i).flags desc ∧
          (∀ j, j ≠ i → same_core (slot o1 j) (slot o j)) ∧
          (∀ q oq, q ≠ p → s.obj q = some oq → ∃ r, s1.obj q = some { oq with ref := r })) ∧
      ((slot o i).type ≠ prop_type_t.PROP_ACCESSOR ∧
          (desc.explicit_getter = true ∨ desc.explicit_setter = true) ∧
          ¬ (desc.explicit_value = true ∨ desc.mask &&& PROPF_WRITABLE ≠ 0) →
        ∃ s1 o1, jsdisp_define_property s p name desc = some (s1, HRESULT.S_OK) ∧
          s1.obj p = some o1 ∧ (slot o1 i).name = name ∧
          (slot o1 i).type = prop_type_t.PROP_ACCESSOR ∧
          (slot o1 i).u = prop_u.accessor (if desc.explicit_getter then desc.getter else none)
            (if desc.explicit_setter then desc.setter else none) ∧
          (slot o1 i).flags = merge_flags (slot o i).flags desc ∧
          (∀ j, j ≠ i → same_core (slot o1 j) (slot o j)) ∧
          (∀ q oq, q ≠ p → s.obj q = some oq → ∃ r, s1.obj q = some { oq with ref := r }))) := by
  refine ⟨fun hnc hshape => ?_, fun hcf hheld hlinks => ⟨fun h => ?_, fun h => ?_⟩⟩
  · obtain ⟨o1, h1, h2⟩ :=
      define_shape_rejected s p name desc o i ho hpx hwf hi hn hu hov ht1 ht2 hnc hshape
    exact ⟨o1, h1, rfl, h2⟩
  · exact define_to_data s p name desc o i ho hpx hwf hi hn hu hov h.1 hcf h.2 hheld hlinks
  · exact define_to_accessor s p name desc o i ho hpx hwf hi hn hu hov ht1 ht2 h.1 hcf h.2.1
      h.2.2 hheld hlinks

theorem shape_change_needs_configurable_witness :
    (∃ o1, jsdisp_define_property store_getter 0 name_x desc_get
        = some (store_getter.set_obj 0 o1,
            throw_error store_getter.ctx HRESULT.JS_E_NONCONFIGURABLE_REDEFINED name_x) ∧
      throw_error store_getter.ctx HRESULT.JS_E_NONCONFIGURABLE_REDEFINED name_x
        = HRESULT.JS_E_NONCONFIGURABLE_REDEFINED ∧
      table_frame (obj_at store_getter 0) o1) ∧
    (∃ s1 o1, jsdisp_define_property store_shadow 0 name_x desc_get = some (s1, HRESULT.S_OK) ∧
      s1.obj 0 = some o1 ∧ (slot o1 0).name = name_x ∧
      (slot o1 0).type = prop_type_t.PROP_ACCESSOR ∧
      (slot o1 0).u = prop_u.accessor (if desc_get.explicit_getter then desc_get.getter else none)
        (if desc_get.explicit_setter then desc_get.setter else none) ∧
      (slot o1 0).flags = merge_flags (slot (obj_at store_shadow 0) 0).flags desc_get ∧
      (∀ j, j ≠ 0 → same_core (slot o1 j) (slot (obj_at store_shadow 0) j)) ∧
      (∀ q oq, q ≠ 0 → store_shadow.obj q = some oq →
        ∃ r, s1.obj q = some { oq with ref := r })) :=
  ⟨(shape_change_needs_configurable store_getter 0 name_x desc_get (obj_at store_getter 0) 0
      (by rfl) (by rfl) (by decide) (by decide) (by rfl) (by decide) (by rfl) (by decide)
      (by decide)).1 (by decide) (Or.inr (by decide)),
   ((shape_change_needs_configurable store_shadow 0 name_x desc_get (obj_at store_shadow 0) 0
      (by rfl) (by rfl) (by decide) (by decide) (by rfl) (by decide) (by rfl) (by decide)
      (by decide)).2 (by decide) (fun q hq => absurd hq (by simp [show slot_edges
        (slot (obj_at store_shadow 0) 0) = [] from by rfl])) (by decide)).2 (by decide)⟩

/-- C13, as stated, fails: slot `x` of object 0 of `store_getter` is a value slot
without the configurable flag; `desc_mixed` supplies a getter and has writable
in its mask; the call returns `S_OK` and leaves the store, so the value slot,
as it was. -/
theorem mixed_descriptor_accepted :
    (store_getter.obj 0).map (fun o => ((slot o 0).name, (slot o 0).type,
        (slot o 0).flags &&& PROPF_CONFIGURABLE)) = some (name_x, prop_type_t.PROP_JSVAL, 0) ∧
    desc_mixed.explicit_getter = true ∧ desc_mixed.getter = some 1 ∧
    jsdisp_define_property store_getter 0 name_x desc_mixed = some (store_getter, HRESULT.S_OK) := by
  refine ⟨by rfl, by rfl, by rfl, by rfl⟩

theorem nonconfigurable_flags_rejected_witness :
    ∃ o1, jsdisp_define_property store_getter 0 name_x desc_configurable
        = some (store_getter.set_obj 0 o1,
            throw_error store_getter.ctx HRESULT.JS_E_NONCONFIGURABLE_REDEFINED name_x) ∧
      throw_error store_getter.ctx HRESULT.JS_E_NONCONFIGURABLE_REDEFINED name_x
        = HRESULT.JS_E_NONCONFIGURABLE_REDEFINED ∧
      FAILED HRESULT.JS_E_NONCONFIGURABLE_REDEFINED = true ∧
      table_frame (obj_at store_getter 0) o1 ∧
      same_core (slot o1 0) (slot (obj_at store_getter 0) 0) :=
  nonconfigurable_flags_rejected store_getter 0 name_x desc_configurable (obj_at store_getter 0) 0
    (by rfl) (by rfl) (by decide) (by decide) (by rfl) (by decide) (by rfl) (by decide)
    (by decide) (by decide) (Or.inl (by decide))

theorem nonwritable_value_redefinition_witness :
    ∃ o1 hres, jsdisp_define_property store_getter 0 name_x desc_undefined
        = some (store_getter.set_obj 0 o1, hres) ∧
      (hres = HRESULT.S_OK ↔
        (true = true ∧
          ¬ (desc_undefined.mask &&& PROPF_WRITABLE ≠ 0 ∧ desc_undefined.flags &&& PROPF_WRITABLE ≠ 0) ∧
          ¬ ((desc_undefined.mask &&& PROPF_CONFIGURABLE ≠ 0 ∧
              desc_undefined.flags &&& PROPF_CONFIGURABLE ≠ 0) ∨
            (desc_undefined.mask &&& PROPF_ENUMERABLE ≠ 0 ∧
              desc_undefined.flags &&& PROPF_ENUMERABLE
                ≠ (slot (obj_at store_getter 0) 0).flags &&& PROPF_ENUMERABLE)))) ∧
      (hres ≠ HRESULT.S_OK →
        (hres = throw_error store_getter.ctx HRESULT.JS_E_NONWRITABLE_MODIFIED name_x ∨
          hres = throw_error store_getter.ctx HRESULT.JS_E_NONCONFIGURABLE_REDEFINED name_x) ∧
        FAILED hres = true ∧ table_frame (obj_at store_getter 0) o1) ∧
      (∀ j, j ≠ 0 → same_core (slot o1 j) (slot (obj_at store_getter 0) j)) ∧
      (slot o1 0).name = name_x ∧ (slot o1 0).type = prop_type_t.PROP_JSVAL ∧
      (slot o1 0).u = prop_u.val jsval_t.undefined ∧
      (hres = HRESULT.S_OK →
        (slot o1 0).flags = merge_flags (slot (obj_at store_getter 0) 0).flags desc_undefined) :=
  nonwritable_value_redefinition store_getter 0 name_x desc_undefined (obj_at store_getter 0) 0
    jsval_t.undefined true (by rfl) (by rfl) (by decide) (by decide) (by rfl) (by decide)
    (by rfl) (by rfl) (by rfl) (by decide) (by decide) (by rfl) (by rfl)
    (fun _ h => nomatch h)

/-! ### What a successful lookup in one object changes -/

theorem same_fields_refl (o : jsdisp_t) : same_fields o o := by
  unfold same_fields; rfl

theorem same_fields_trans {a b c : jsdisp_t} (h1 : same_fields a b) (h2 : same_fields b c) :
    same_fields a c := by
  unfold same_fields at h1 h2 ⊢
  rw [h2, h1]

theorem same_fields_prototype {a b : jsdisp_t} (h : same_fields a b) :
    b.prototype = a.prototype ∧ b.extensible = a.extensible := by
  unfold same_fields at h
  constructor <;> rw [h]

theorem same_fields_set_slot {o T : jsdisp_t} (h : same_fields o T) (i : Nat)
    (f : dispex_prop_t → dispex_prop_t) : same_fields o (set_slot T i f) := by
  unfold same_fields at h ⊢
  unfold set_slot
  rw [h]

theorem raw_hit_lt (o : jsdisp_t) (hash : Nat) (name : WSTR) (ci : Bool) (o1 : jsdisp_t)
    (i : Nat) (hwf : props_wf o) (h : find_prop_name_raw o hash name ci = some (o1, some i)) :
    i < o.prop_cnt := by
  obtain ⟨hlen, h4, _, hcnt, _, hch⟩ := hwf
  have hlt := get_props_idx_lt o hash (by omega)
  have hc := hch _ hlt
  unfold chain_ok at hc
  cases hbc : bucket_chain o (get_props_idx o hash) with
  | none => simp [hbc] at hc
  | some l =>
    simp only [hbc] at hc
    obtain ⟨_, hin, _⟩ := hc
    have hcf := chain_from_is_chain _ _ _ _ hbc
    have hs := raw_loop_spec name ci (get_props_idx o hash) o l _ _ NIL hcf.1 hcf.2
    unfold find_prop_name_raw at h
    simp only [] at h
    rw [h] at hs
    simp only [Option.map_some', Option.some.injEq] at hs
    exact (hin i (List.mem_of_find?_eq_some hs.symm)).1

theorem alloc_set_ok (s : Store) (p : Nat) (name : WSTR) (type : prop_type_t) (flags : Nat)
    (s3 s4 : Store) (i : Nat) (f : dispex_prop_t → dispex_prop_t) (o : jsdisp_t)
    (ho : s.obj p = some o) (hlen : o.props.length = o.buf_size) (hcnt : o.prop_cnt ≤ o.buf_size)
    (hpos : 0 < o.buf_size) (hnil : o.prop_cnt < NIL)
    (ha : store_alloc_prop s p name type flags = some (s3, some i))
    (hs : store_set_slot s3 p i f = some s4) :
    s4.heap.length = s.heap.length ∧ (∀ q, q ≠ p → s4.obj q = s.obj q) ∧ i = o.prop_cnt ∧
    ∃ T, s4.obj p = some (set_slot T i f) ∧ same_fields o T ∧ T.prop_cnt = o.prop_cnt + 1 ∧
      T.props.length = T.buf_size ∧ T.prop_cnt ≤ T.buf_size ∧ 0 < T.buf_size ∧
      (slot T i).type = type ∧ (slot T i).name = name ∧
      (∀ j, j < o.prop_cnt → same_core (slot T j) (slot o j)) := by
  obtain ⟨T, hal, hobj, hoth, _, hhl⟩ := store_alloc_then_set _ _ _ _ _ _ _ _ _ _ ho ha hs
  obtain ⟨hi, _, h1, h2, h3, h4, hsf, hc, hn, ht, _, _, _⟩ :=
    alloc_prop_some o name type flags s.avail i T s4.avail hal hlen hcnt hpos hnil
  subst hi
  exact ⟨hhl, hoth, rfl, T, hobj, hsf, h1, h2, h3, h4, ht, hn, hc⟩

theorem find_prop_name_ok (s : Store) (p hash : Nat) (name : WSTR) (ci : Bool) (o : jsdisp_t)
    (s1 : Store) (hres : HRESULT) (r : Option Nat) (ho : s.obj p = some o) (hwf : props_wf o)
    (hnil : o.prop_cnt < NIL) (h : find_prop_name s p hash name ci = some (s1, hres, r))
    (hf : FAILED hres = false) :
    s.heap.length ≤ s1.heap.length ∧ (∀ x, x ≠ p → x < s.heap.length → s1.obj x = s.obj x) ∧
    (r = none → s1 = s) ∧
    ∃ o1, s1.obj p = some o1 ∧ same_fields o o1 ∧ o1.props.length = o1.buf_size ∧
      o1.prop_cnt ≤ o1.buf_size ∧ 0 < o1.buf_size ∧
      ∀ i, r = some i → i < o1.prop_cnt ∧ i ≤ o.prop_cnt := by
  have hlen := hwf.1
  have hcnt := hwf.2.2.2.1
  have hpos : 0 < o.buf_size := by have := hwf.2.1; omega
  cases r with
  | none =>
    obtain ⟨h1, _⟩ := find_prop_name_none s p hash name ci o s1 hres ho h hf
    subst h1
    refine ⟨le_refl _, fun _ _ _ => rfl, fun _ => rfl, o, ho, ?_, hlen, hcnt, hpos,
      fun i hi => by cases hi⟩
    unfold same_fields; rfl
  | some i =>
    refine ⟨?_, ?_, (fun hc => nomatch hc), ?_⟩
    all_goals
      unfold find_prop_name at h
      simp only [ho] at h
      cases hr : find_prop_name_raw o hash name ci with
      | none => simp [hr] at h
      | some rr =>
        obtain ⟨This1, r1⟩ := rr
        obtain ⟨fr, hnone, hsome⟩ := raw_frame _ _ _ _ _ _ hr
        cases r1 with
        | some k =>
          simp only [hr] at h
          split at h
          · cases h
          · simp only [Option.some.injEq, Prod.mk.injEq] at h
            obtain ⟨rfl, rfl, rfl⟩ := h
            have hlt := raw_hit_lt o hash name ci This1 k hwf hr
            have hff := table_frame_fields fr
            first
              | exact le_of_eq (by simp [Store.set_obj])
              | exact fun x hx _ => obj_set_obj_ne s hx _
              | exact ⟨This1, obj_set_obj_self ho _, hff.2.2, by rw [fr.2.1, hff.2.1]; exact hlen,
                  by rw [hff.1, hff.2.1]; exact hcnt, by rw [hff.2.1]; exact hpos,
                  fun i hi => by cases hi; exact ⟨by rw [hff.1]; exact hlt, Nat.le_of_lt hlt⟩⟩
        | none =>
          have hT := hnone rfl
          subst hT
          simp only [hr] at h
          split at h
          · cases h
          · rw [set_obj_same ho] at h
            cases hb : find_builtin_prop s.ctx This1 name ci with
            | some builtin =>
              simp only [hb] at h
              split at h
              · cases hc : create_builtin_function s builtin.invoke builtin.name builtin.flags with
                | none => simp [hc] at h
                | some c =>
                  obtain ⟨s2, hres2, fobj⟩ := c
                  cases fobj with
                  | none =>
                    simp only [hc] at h
                    split at h <;> simp at h
                  | some fo =>
                    simp only [hc] at h
                    split at h
                    · simp at h
                    · have hcd := create_dispex_none s _ s2 hres2 (some fo) hc
                      rcases hcd with hcd | hcd
                      · simp at hcd
                      · obtain ⟨_, _, _, hheap, _⟩ := hcd
                        have ho2 : s2.obj p = some This1 := by
                          rw [obj_heap_append_old hheap (obj_lt ho)]; exact ho
                        cases ha : store_alloc_prop s2 p builtin.name prop_type_t.PROP_JSVAL
                            (builtin.flags &&& PROPF_ALL ||| PROPF_WRITABLE ||| PROPF_CONFIGURABLE) with
                        | none => simp [ha] at h
                        | some a =>
                          obtain ⟨s3, ri⟩ := a
                          cases ri with
                          | none =>
                            simp only [ha, Option.map_eq_some'] at h
                            obtain ⟨_, _, h⟩ := h
                            simp at h
                          | some k =>
                            simp only [ha, Option.map_eq_some', Prod.mk.injEq] at h
                            obtain ⟨s4, hs4, rfl, rfl, hk⟩ := h
                            simp only [Option.some.injEq] at hk
                            subst hk
                            obtain ⟨hhl, hoth, hi, T, hobj, hsf, h1, h2, h3, h4, _⟩ :=
                              alloc_set_ok _ _ _ _ _ _ _ _ _ _ ho2 hlen hcnt hpos hnil ha hs4
                            have hl2 : s2.heap.length = s.heap.length + 1 := by
                              rw [hheap]; simp
                            first
                              | (rw [hhl, hl2]; exact Nat.le_succ _)
                              | (intro x hx hxl
                                 rw [hoth x hx, obj_heap_append_old hheap hxl])
                              | exact ⟨_, hobj, same_fields_set_slot hsf _ _,
                                  by rw [set_slot_length]; exact h2, h3, h4,
                                  fun i hi' => by cases hi'; exact ⟨by show k < T.prop_cnt; omega, by omega⟩⟩
              · cases ha : store_alloc_prop s p builtin.name prop_type_t.PROP_BUILTIN
                    ((if builtin.setter.isSome = true then builtin.flags ||| PROPF_WRITABLE
                      else builtin.flags) &&&
                      (PROPF_ENUMERABLE ||| PROPF_WRITABLE ||| PROPF_CONFIGURABLE)) with
                | none => simp [ha] at h
                | some a =>
                  obtain ⟨s3, ri⟩ := a
                  cases ri with
                  | none => simp [ha] at h
                  | some k =>
                    simp only [ha, Option.map_eq_some', Prod.mk.injEq] at h
                    obtain ⟨s4, hs4, rfl, rfl, hk⟩ := h
                    simp only [Option.some.injEq] at hk
                    subst hk
                    obtain ⟨hhl, hoth, hi, T, hobj, hsf, h1, h2, h3, h4, _⟩ :=
                      alloc_set_ok _ _ _ _ _ _ _ _ _ _ ho hlen hcnt hpos hnil ha hs4
                    first
                      | exact le_of_eq hhl.symm
                      | exact fun x hx _ => hoth x hx
                      | exact ⟨_, hobj, same_fields_set_slot hsf _ _,
                          by rw [set_slot_length]; exact h2, h3, h4,
                          fun i hi' => by cases hi'; exact ⟨by show k < T.prop_cnt; omega, by omega⟩⟩
            | none =>
              simp only [hb] at h
              split at h
              · split at h
                · split at h
                  · cases ha : store_alloc_prop s p name prop_type_t.PROP_IDX
                        (if This1.builtin_info.idx_put = true then PROPF_ENUMERABLE ||| PROPF_WRITABLE
                          else PROPF_ENUMERABLE) with
                    | none => simp [ha] at h
                    | some a =>
                      obtain ⟨s3, ri⟩ := a
                      cases ri with
                      | none => simp [ha] at h
                      | some k =>
                        simp only [ha, Option.map_eq_some', Prod.mk.injEq] at h
                        obtain ⟨s4, hs4, rfl, rfl, hk⟩ := h
                        simp only [Option.some.injEq] at hk
                        subst hk
                        obtain ⟨hhl, hoth, hi, T, hobj, hsf, h1, h2, h3, h4, _⟩ :=
                          alloc_set_ok _ _ _ _ _ _ _ _ _ _ ho hlen hcnt hpos hnil ha hs4
                        first
                          | exact le_of_eq hhl.symm
                          | exact fun x hx _ => hoth x hx
                          | exact ⟨_, hobj, same_fields_set_slot hsf _ _,
                              by rw [set_slot_length]; exact h2, h3, h4,
                              fun i hi' => by cases hi'; exact ⟨by show k < T.prop_cnt; omega, by omega⟩⟩
                  · simp at h
                · simp at h
              · simp at h

/-! ### Prototype references that resolve -/

theorem obj_wf_elim {s : Store} {x : Nat} (h : obj_wf s x) :
    ∃ o, s.obj x = some o ∧ props_wf o ∧ o.prop_cnt < NIL := by
  unfold obj_wf at h
  cases ho : s.obj x with
  | none => simp [ho] at h
  | some o => rw [ho] at h; exact ⟨o, rfl, h⟩

theorem obj_wf_congr {s s1 : Store} {x : Nat} (he : s1.obj x = s.obj x) (h : obj_wf s x) :
    obj_wf s1 x := by
  unfold obj_wf at h ⊢
  rw [he]; exact h

theorem proto_chain_congr {s s1 : Store} : ∀ (n : Nat) (start : Option Nat) (l : List Nat),
    proto_chain s n start = some l →
    (∀ x ∈ l, ∃ ox ox1, s.obj x = some ox ∧ s1.obj x = some ox1 ∧ ox1.prototype = ox.prototype) →
    proto_chain s1 n start = some l := by
  intro n
  induction n with
  | zero => intro start l h; simp [proto_chain] at h
  | succ n ih =>
    intro start l h hc
    cases start with
    | none => simpa [proto_chain] using h
    | some q =>
      simp only [proto_chain] at h ⊢
      cases ho : s.obj q with
      | none => simp [ho] at h
      | some o =>
        simp only [ho, Option.map_eq_some'] at h
        obtain ⟨l1, hl1, rfl⟩ := h
        obtain ⟨ox, ox1, h1, h2, h3⟩ := hc q (List.mem_cons_self _ _)
        rw [ho] at h1
        injection h1 with h1
        subst h1
        simp only [h2, h3]
        rw [ih _ _ hl1 (fun x hx => hc x (List.mem_cons_of_mem _ hx))]
        rfl

theorem fix_protref_walk_congr {s s1 : Store} : ∀ (l : List Nat) (n f f1 : Nat)
    (start : Option Nat) (ref : Nat), proto_chain s n start = some l → l.length < f →
    l.length < f1 → (∀ x ∈ l, s1.obj x = s.obj x) →
    fix_protref_walk s1 f1 start ref = fix_protref_walk s f start ref := by
  intro l
  induction l with
  | nil =>
    intro n f f1 start ref h hf hf1 _
    cases start with
    | none =>
      cases f with
      | zero => omega
      | succ f =>
        cases f1 with
        | zero => omega
        | succ f1 => simp [fix_protref_walk]
    | some q =>
      obtain ⟨_, _, _, _, _, hc⟩ := proto_chain_cons h
      cases hc
  | cons x l ih =>
    intro n f f1 start ref h hf hf1 he
    cases start with
    | none =>
      cases n with
      | zero => simp [proto_chain] at h
      | succ n => simp [proto_chain] at h
    | some q =>
      obtain ⟨o, l1, m, ho, hl1, hc⟩ := proto_chain_cons h
      injection hc with hx hl
      subst hx; subst hl
      cases f with
      | zero => omega
      | succ f =>
        cases f1 with
        | zero => omega
        | succ f1 =>
          simp only [fix_protref_walk, he x (List.mem_cons_self _ _), ho]
          rw [ih m f f1 o.prototype _ hl1 (by simp at hf; omega) (by simp at hf1; omega)
            (fun y hy => he y (List.mem_cons_of_mem _ hy))]

theorem fix_protref_prop_fixed {s : Store} {p i : Nat} {o : jsdisp_t} (ho : s.obj p = some o)
    (h : (slot o i).type ≠ prop_type_t.PROP_PROTREF ∨
      fix_protref_walk s (s.heap.length + 1) o.prototype (u_ref (slot o i).u) = some true) :
    fix_protref_prop s p i = some s := by
  unfold fix_protref_prop
  simp only [ho]
  split
  · rfl
  · next ht =>
    rcases h with h | h
    · exact absurd h ht
    · rw [h]

theorem fix_protref_prop_cases {s s1 : Store} {p i : Nat} {o : jsdisp_t} (ho : s.obj p = some o)
    (h : fix_protref_prop s p i = some s1) :
    (s1 = s ∧ ((slot o i).type ≠ prop_type_t.PROP_PROTREF ∨
      fix_protref_walk s (s.heap.length + 1) o.prototype (u_ref (slot o i).u) = some true)) ∨
    (s1 = s.set_obj p (set_slot o i (fun q => { q with type := prop_type_t.PROP_DELETED }))) := by
  unfold fix_protref_prop at h
  simp only [ho] at h
  split at h
  · next ht =>
    injection h with h
    exact Or.inl ⟨h.symm, Or.inl ht⟩
  · split at h
    · cases h
    · next hw =>
      injection h with h
      exact Or.inl ⟨h.symm, Or.inr hw⟩
    · injection h with h
      exact Or.inr h.symm

theorem find_prop_name_prot_ok (hash : Nat) (name : WSTR) (ci : Bool) :
    ∀ (fuel : Nat) (s : Store) (p n : Nat) (l : List Nat) (s1 : Store) (hres : HRESULT)
      (r : Option Nat), proto_chain s n (some p) = some l → chain_wf s l →
      find_prop_name_prot_fuel fuel s p hash name ci = some (s1, hres, r) →
      FAILED hres = false →
      (∀ x, x ∉ l → x < s.heap.length → s1.obj x = s.obj x) ∧
      s.heap.length ≤ s1.heap.length ∧
      (∀ x ∈ l, ∃ ox ox1, s.obj x = some ox ∧ s1.obj x = some ox1 ∧ same_fields ox ox1) ∧
      (∀ i, r = some i → ∃ o1, s1.obj p = some o1 ∧ i < o1.prop_cnt ∧ i < o1.props.length ∧
        ((slot o1 i).type ≠ prop_type_t.PROP_DELETED → fix_protref_prop s1 p i = some s1)) ∧
      (∀ i o0, r = some i → s.obj p = some o0 → i ≤ o0.prop_cnt) ∧
      (r = none → s1.obj p = s.obj p) := by
  intro fuel
  induction fuel with
  | zero => intro s p n l s1 hres r _ _ h; simp [find_prop_name_prot_fuel] at h
  | succ fuel ih =>
    intro s p n l s1 hres r hl hwf h hf
    have hnd := proto_chain_nodup _ _ _ hl
    have hlt := proto_chain_lt _ _ _ hl
    obtain ⟨o, l', m, ho, hl', rfl⟩ := proto_chain_cons hl
    have hpl : p ∉ l' := (List.nodup_cons.mp hnd).1
    obtain ⟨o', ho', hwfo, hnil⟩ := obj_wf_elim (hwf p (List.mem_cons_self _ _))
    rw [ho] at ho'
    injection ho' with ho'
    subst ho'
    unfold find_prop_name_prot_fuel at h
    cases hfp : find_prop_name s p hash name ci with
    | none => simp [hfp] at h
    | some ra =>
      obtain ⟨sa, hra, ra⟩ := ra
      simp only [hfp] at h
      by_cases hfa : FAILED hra = true
      · simp only [hfa, if_true, Option.some.injEq, Prod.mk.injEq] at h
        rw [← h.2.1, hfa] at hf
        cases hf
      · have hfa' : FAILED hra = false := by simpa using hfa
        obtain ⟨hla, hfra, hnonea, oa, hoa, hsfa, hlena, hcnta, hposa, hia⟩ :=
          find_prop_name_ok s p hash name ci o sa hra ra ho hwfo hnil hfp hfa'
        have hprota : oa.prototype = o.prototype := by
          unfold same_fields at hsfa; rw [hsfa]
        simp only [hfa, if_false, hoa, Bool.false_eq_true] at h
        have hle0 : ∀ i o0, ra = some i → s.obj p = some o0 → i ≤ o0.prop_cnt := by
          intro i o0 hi h0
          rw [ho] at h0
          injection h0 with h0
          subst h0
          exact (hia i hi).2
        -- the statement about the objects off and on the chain, for a result `sa` changed at `p`
        have hown : ∀ (sb : Store) (ob : jsdisp_t), sb.heap.length = sa.heap.length →
            (∀ x, x ≠ p → sb.obj x = sa.obj x) → sb.obj p = some ob →
            same_fields oa ob →
            (∀ x, x ∉ p :: l' → x < s.heap.length → sb.obj x = s.obj x) ∧
            s.heap.length ≤ sb.heap.length ∧
            (∀ x ∈ p :: l', ∃ ox ox1, s.obj x = some ox ∧ sb.obj x = some ox1 ∧
              same_fields ox ox1) := by
          intro sb ob hlb hob hpb hprb
          refine ⟨?_, by rw [hlb]; exact hla, ?_⟩
          · intro x hx hxl
            have hxp : x ≠ p := fun e => hx (e ▸ List.mem_cons_self _ _)
            rw [hob x hxp, hfra x hxp hxl]
          · intro x hx
            by_cases hxp : x = p
            · subst hxp
              exact ⟨o, ob, ho, hpb, same_fields_trans hsfa hprb⟩
            · have hxl := hlt x hx
              obtain ⟨ox, hox, _, _⟩ := obj_wf_elim (hwf x hx)
              exact ⟨ox, ox, hox, by rw [hob x hxp, hfra x hxp hxl]; exact hox,
                same_fields_refl _⟩
        split at h
        · -- a live own slot
          next hlive =>
          cases ra with
          | none => simp at hlive
          | some i =>
            simp only [Option.map_eq_some', Prod.mk.injEq] at h
            obtain ⟨s2, hfix, rfl, rfl, rfl⟩ := h
            have hi := (hia i rfl).1
            have hil : i < oa.props.length := by rw [hlena]; omega
            rcases fix_protref_prop_cases hoa hfix with ⟨rfl, hcase⟩ | rfl
            · obtain ⟨h1, h2, h3⟩ := hown s2 oa rfl (fun _ _ => rfl) hoa (same_fields_refl _)
              refine ⟨h1, h2, h3, ?_, hle0, (fun hc => nomatch hc)⟩
              intro i' hi'
              cases hi'
              exact ⟨oa, hoa, hi, hil, fun _ => fix_protref_prop_fixed hoa hcase⟩
            · obtain ⟨h1, h2, h3⟩ := hown
                (sa.set_obj p (set_slot oa i (fun q => { q with type := prop_type_t.PROP_DELETED })))
                _ (by simp [Store.set_obj]) (fun x hx => obj_set_obj_ne sa hx _)
                (obj_set_obj_self hoa _) (same_fields_set_slot (same_fields_refl _) _ _)
              refine ⟨h1, h2, h3, ?_, hle0, (fun hc => nomatch hc)⟩
              intro i' hi'
              cases hi'
              refine ⟨_, obj_set_obj_self hoa _, hi, by rw [set_slot_length]; exact hil, fun hne => ?_⟩
              exact absurd (by rw [slot_set_slot_self _ _ _ hil]) hne
        · next hdead =>
          have hdel : ∀ i, ra = some i → (slot oa i).type = prop_type_t.PROP_DELETED := by
            intro i hi
            subst hi
            simpa using hdead
          have hila : ∀ i, ra = some i → i < oa.props.length := by
            intro i hi
            have := (hia i hi).1
            rw [hlena]; omega
          cases hpr : oa.prototype with
          | none =>
            simp only [hpr, Option.some.injEq, Prod.mk.injEq] at h
            obtain ⟨rfl, rfl, rfl⟩ := h
            obtain ⟨h1, h2, h3⟩ := hown sa oa rfl (fun _ _ => rfl) hoa (same_fields_refl _)
            exact ⟨h1, h2, h3, fun i hi =>
              ⟨oa, hoa, (hia i hi).1, hila i hi, fun hne => absurd (hdel i hi) hne⟩, hle0,
              fun hn => by rw [hnonea hn]⟩
          | some q =>
            simp only [hpr] at h
            have hq : o.prototype = some q := by rw [← hprota, hpr]
            rw [hq] at hl'
            have hql : q ∈ l' := by
              obtain ⟨_, _, _, _, _, rfl⟩ := proto_chain_cons hl'
              exact List.mem_cons_self _ _
            have hqp : q ≠ p := fun e => hpl (e ▸ hql)
            have hl'a : proto_chain sa m (some q) = some l' :=
              proto_chain_congr _ _ _ hl' (fun x hx => by
                have hxp : x ≠ p := fun e => hpl (e ▸ hx)
                obtain ⟨ox, hox, _, _⟩ := obj_wf_elim (hwf x (List.mem_cons_of_mem _ hx))
                exact ⟨ox, ox, hox,
                  by rw [hfra x hxp (hlt x (List.mem_cons_of_mem _ hx))]; exact hox, rfl⟩)
            have hwfa : chain_wf sa l' := fun x hx =>
              obj_wf_congr (hfra x (fun e => hpl (e ▸ hx)) (hlt x (List.mem_cons_of_mem _ hx)))
                (hwf x (List.mem_cons_of_mem _ hx))
            cases hrec : find_prop_name_prot_fuel fuel sa q hash name ci with
            | none => simp [hrec] at h
            | some rr =>
              obtain ⟨s2, hres2, r2⟩ := rr
              simp only [hrec] at h
              by_cases hf2 : FAILED hres2 = true
              · simp only [hf2, if_true, Option.some.injEq, Prod.mk.injEq] at h
                rw [← h.2.1, hf2] at hf
                cases hf
              · obtain ⟨hA, hB, hC, hD⟩ :=
                  ih sa q m l' s2 hres2 r2 hl'a hwfa hrec (by simpa using hf2)
                simp only [hf2, Bool.false_eq_true, if_false] at h
                have hp2 : s2.obj p = some oa := by
                  rw [hA p hpl (Nat.lt_of_lt_of_le (obj_lt ho) hla)]; exact hoa
                have hrecown : ∀ (sb : Store) (ob : jsdisp_t),
                    sb.heap.length = s2.heap.length →
                    (∀ x, x ≠ p → sb.obj x = s2.obj x) → sb.obj p = some ob →
                    same_fields oa ob →
                    (∀ x, x ∉ p :: l' → x < s.heap.length → sb.obj x = s.obj x) ∧
                    s.heap.length ≤ sb.heap.length ∧
                    (∀ x ∈ p :: l', ∃ ox ox1, s.obj x = some ox ∧ sb.obj x = some ox1 ∧
                      same_fields ox ox1) := by
                  intro sb ob hlb hob hpb hprb
                  refine ⟨?_, by rw [hlb]; omega, ?_⟩
                  · intro x hx hxl
                    have hxp : x ≠ p := fun e => hx (e ▸ List.mem_cons_self _ _)
                    have hxl' : x ∉ l' := fun e => hx (List.mem_cons_of_mem _ e)
                    rw [hob x hxp, hA x hxl' (by omega), hfra x hxp hxl]
                  · intro x hx
                    by_cases hxp : x = p
                    · subst hxp
                      exact ⟨o, ob, ho, hpb, same_fields_trans hsfa hprb⟩
                    · have hx' : x ∈ l' := by
                        rcases List.mem_cons.mp hx with e | e
                        · exact absurd e hxp
                        · exact e
                      obtain ⟨ox, ox1, h1, h2, h3⟩ := hC x hx'
                      rw [hfra x hxp (hlt x hx)] at h1
                      exact ⟨ox, ox1, h1, by rw [hob x hxp]; exact h2, h3⟩
                have hkeep : some (s2, HRESULT.S_OK, ra) = some (s1, hres, r) →
                    (∀ x, x ∉ p :: l' → x < s.heap.length → s1.obj x = s.obj x) ∧
                    s.heap.length ≤ s1.heap.length ∧
                    (∀ x ∈ p :: l', ∃ ox ox1, s.obj x = some ox ∧ s1.obj x = some ox1 ∧
                      same_fields ox ox1) ∧
                    (∀ i, r = some i → ∃ o1, s1.obj p = some o1 ∧ i < o1.prop_cnt ∧
                      i < o1.props.length ∧
                      ((slot o1 i).type ≠ prop_type_t.PROP_DELETED →
                        fix_protref_prop s1 p i = some s1)) ∧
                    (∀ i o0, r = some i → s.obj p = some o0 → i ≤ o0.prop_cnt) ∧
                    (r = none → s1.obj p = s.obj p) := by
                  intro hk
                  simp only [Option.some.injEq, Prod.mk.injEq] at hk
                  obtain ⟨rfl, rfl, rfl⟩ := hk
                  obtain ⟨h1, h2, h3⟩ := hrecown s2 oa rfl (fun _ _ => rfl) hp2 (same_fields_refl _)
                  exact ⟨h1, h2, h3, fun i hi =>
                    ⟨oa, hp2, (hia i hi).1, hila i hi, fun hne => absurd (hdel i hi) hne⟩, hle0,
                    fun hn => by rw [hp2, ← hoa, hnonea hn]⟩
                cases r2 with
                | none => exact hkeep (by simpa using h)
                | some j =>
                  obtain ⟨oq, hoq, hj, hjl, hfixq⟩ := hD.1 j rfl
                  simp only [hoq] at h
                  split at h
                  · next hlive =>
                    have hfq := hfixq hlive
                    have hlenl : (p :: l').length ≤ s.heap.length := proto_chain_length hl
                    have hwalk : ∀ sb : Store, sb.heap.length = s2.heap.length →
                        (∀ x, x ≠ p → sb.obj x = s2.obj x) →
                        fix_protref_walk sb (sb.heap.length + 1) (some q) j = some true := by
                      intro sb hlb hob
                      simp only [fix_protref_walk, hob q hqp, hoq]
                      rw [if_neg (by
                        intro hc
                        rcases hc with hc | hc
                        · omega
                        · exact hlive hc)]
                      split
                      · rfl
                      · next hpt =>
                        have hpt' : (slot oq j).type = prop_type_t.PROP_PROTREF := by
                          simpa using hpt
                        have hl2 : proto_chain s2 m (some q) = some l' :=
                          proto_chain_congr _ _ _ hl'a (fun x hx => by
                            obtain ⟨ox, ox1, h1, h2, h3⟩ := hC x hx
                            exact ⟨ox, ox1, h1, h2, (same_fields_prototype h3).1⟩)
                        obtain ⟨oq', l'', m2, hoq', hl'', hcons⟩ := proto_chain_cons hl2
                        rw [hoq] at hoq'
                        injection hoq' with hoq'
                        subst hoq'
                        subst hcons
                        have hw2 : fix_protref_walk s2 (s2.heap.length + 1) oq.prototype
                            (u_ref (slot oq j).u) = some true := by
                          rcases fix_protref_prop_cases hoq hfq with ⟨_, hc⟩ | hc
                          · rcases hc with hc | hc
                            · exact absurd hpt' hc
                            · exact hc
                          · exfalso
                            have h1 := congrArg (fun t => t.obj q) hc
                            simp only [obj_set_obj_self hoq, hoq] at h1
                            injection h1 with h1
                            have h2 := congrArg (fun t => (slot t j).type) h1
                            simp only [slot_set_slot_self _ _ _ hjl] at h2
                            exact hlive h2
                        rw [← hw2]
                        refine fix_protref_walk_congr l'' m2 _ _ _ _ hl'' ?_ ?_ ?_
                        · simp only [List.length_cons] at hlenl; omega
                        · simp only [List.length_cons] at hlenl; omega
                        · intro x hx
                          exact hob x (fun e => hpl (e ▸ List.mem_cons_of_mem _ hx))
                    cases ra with
                    | some i =>
                      simp only [Option.map_eq_some', Prod.mk.injEq] at h
                      obtain ⟨s3, hs3, rfl, rfl, rfl⟩ := h
                      obtain ⟨o', ho', rfl⟩ := store_set_slot_eq hs3
                      rw [hp2] at ho'
                      injection ho' with ho'
                      subst ho'
                      have hi := (hia i rfl).1
                      have hil := hila i rfl
                      obtain ⟨h1, h2, h3⟩ := hrecown
                        (s2.set_obj p (set_slot oa i (fun r =>
                          { r with type := prop_type_t.PROP_PROTREF, u := prop_u.ref j }))) _
                        (by simp [Store.set_obj])
                        (fun x hx => obj_set_obj_ne s2 hx _) (obj_set_obj_self hp2 _)
                        (same_fields_set_slot (same_fields_refl _) _ _)
                      refine ⟨h1, h2, h3, ?_, hle0, (fun hc => nomatch hc)⟩
                      intro i' hi'
                      cases hi'
                      refine ⟨_, obj_set_obj_self hp2 _, hi, by rw [set_slot_length]; exact hil,
                        fun _ => ?_⟩
                      apply fix_protref_prop_fixed (obj_set_obj_self hp2 _)
                      right
                      rw [slot_set_slot_self _ _ _ hil]
                      show fix_protref_walk _ _ oa.prototype j = some true
                      rw [hpr]
                      exact hwalk _ (by simp [Store.set_obj]) (fun x hx => obj_set_obj_ne s2 hx _)
                    | none =>
                      have hsa := hnonea rfl
                      subst hsa
                      rw [ho] at hoa
                      injection hoa with hoa
                      subst hoa
                      simp only [] at h
                      unfold alloc_protref at h
                      cases ha : store_alloc_prop s2 p (slot oq j).name prop_type_t.PROP_PROTREF 0 with
                      | none => simp [ha] at h
                      | some a =>
                        obtain ⟨s3, ri⟩ := a
                        cases ri with
                        | none =>
                          simp only [ha, Option.some.injEq, Prod.mk.injEq] at h
                          rw [← h.2.1] at hf
                          cases hf
                        | some k =>
                          simp only [ha] at h
                          cases hs4 : store_set_slot s3 p k (fun q => { q with u := prop_u.ref j }) with
                          | none => simp [hs4] at h
                          | some s4 =>
                            simp only [hs4, Option.map_some', Option.some.injEq, Prod.mk.injEq] at h
                            obtain ⟨rfl, rfl, rfl⟩ := h
                            obtain ⟨hhl, hoth, hk, T, hobj, hsf, h1, h2, h3, h4, ht, _⟩ :=
                              alloc_set_ok _ _ _ _ _ _ _ _ _ _ hp2 hlena hcnta hposa hnil ha hs4
                            have hprT : T.prototype = o.prototype := by
                              unfold same_fields at hsf; rw [hsf]
                            have hkl : k < T.props.length := by rw [h2]; omega
                            obtain ⟨g1, g2, g3⟩ := hrecown s4 _ hhl hoth hobj
                              (same_fields_set_slot hsf _ _)
                            refine ⟨g1, g2, g3, ?_, ?_, (fun hc => nomatch hc)⟩
                            swap
                            · intro i' o0 hi' h0
                              cases hi'
                              rw [ho] at h0
                              injection h0 with h0
                              subst h0
                              omega
                            intro i' hi'
                            cases hi'
                            refine ⟨_, hobj, by show k < T.prop_cnt; omega,
                              by rw [set_slot_length]; exact hkl, fun _ => ?_⟩
                            apply fix_protref_prop_fixed hobj
                            right
                            rw [slot_set_slot_self _ _ _ hkl]
                            show fix_protref_walk _ _ T.prototype j = some true
                            rw [hprT, hq]
                            exact hwalk _ hhl hoth
                  · exact hkeep h

/-! ### Overridden indexes of typed arrays -/

theorem override_idx_scan_digits : ∀ (name : WSTR) (idx : Nat), idx < 4294967296 →
    name.all is_digit = true →
    override_idx_scan name idx
      = ([], (name.foldl (fun v c => v * 10 + (c - 48)) idx) % 4294967296) := by
  intro name
  induction name with
  | nil => intro idx h _; simp [override_idx_scan, Nat.mod_eq_of_lt h]
  | cons c rest ih =>
    intro idx h hd
    simp only [List.all_cons, Bool.and_eq_true] at hd
    have hle : idx ≤ 4294967295 - 9 / 10 := by
      have : (4294967295 - 9 / 10 : Nat) = 4294967295 := by decide
      omega
    simp only [override_idx_scan, hd.1, hle, decide_True, Bool.and_self, if_true, List.foldl_cons]
    rw [ih _ (Nat.mod_lt _ (by decide)) hd.2]
    congr 1
    have hfold : ∀ (l : WSTR) (a b : Nat), a % 4294967296 = b % 4294967296 →
        (l.foldl (fun v c => v * 10 + (c - 48)) a) % 4294967296
          = (l.foldl (fun v c => v * 10 + (c - 48)) b) % 4294967296 := by
      intro l
      induction l with
      | nil => intro a b hab; exact hab
      | cons d l ihl =>
        intro a b hab
        simp only [List.foldl_cons]
        apply ihl
        rw [Nat.add_mod, Nat.mul_mod, hab, ← Nat.mul_mod, ← Nat.add_mod]
    exact hfold rest _ _ (Nat.mod_mod _ _)

/-- On a typed array every name made of decimal digits is an overridden index:
its numeric value, taken modulo `2^32`. -/
theorem override_idx_digits (o : jsdisp_t) (name : WSTR)
    (hta : FIRST_TYPEDARRAY_JSCLASS ≤ o.builtin_info.jsclass ∧
      o.builtin_info.jsclass ≤ LAST_TYPEDARRAY_JSCLASS)
    (hd : name.all is_digit = true) :
    override_idx o name = some (digits_value name % 4294967296) := by
  unfold override_idx
  rw [if_pos hta, override_idx_scan_digits name 0 (by decide) hd]
  rfl

/-- For a typed array with `len` elements and a name of decimal digits whose
value is below `2^32` and not below `len`: `jsdisp_get_id` and
`jsdisp_get_own_property` return `DISP_E_UNKNOWNNAME` and change nothing. -/
theorem typed_array_out_of_bounds (s : Store) (p : Nat) (o : jsdisp_t) (name : WSTR)
    (len flags : Nat) (fo : Bool) (ho : s.obj p = some o)
    (hta : FIRST_TYPEDARRAY_JSCLASS ≤ o.builtin_info.jsclass ∧
      o.builtin_info.jsclass ≤ LAST_TYPEDARRAY_JSCLASS)
    (hlen : o.builtin_info.idx_length = some len)
    (hd : name.all is_digit = true) (hv : digits_value name < 4294967296)
    (hge : len ≤ digits_value name) :
    jsdisp_get_id s p name flags = some (s, HRESULT.DISP_E_UNKNOWNNAME, some DISPID_UNKNOWN) ∧
    jsdisp_get_own_property s p name fo = some (s, HRESULT.DISP_E_UNKNOWNNAME, none) := by
  have hov := override_idx_digits o name hta hd
  rw [Nat.mod_eq_of_lt hv] at hov
  constructor
  · unfold jsdisp_get_id
    simp only [ho, hov, hlen, ge_iff_le, hge, if_true]
  · unfold jsdisp_get_own_property
    simp only [ho, hov, hlen, ge_iff_le, hge, if_true]

/-- For a typed array and a name of decimal digits `jsdisp_define_property`
makes no slot: when it returns within this file it returns
`JS_E_NONCONFIGURABLE_REDEFINED` with the store as it was, as it does for every
descriptor that has a getter or a setter and no explicit value. -/
theorem typed_array_define (s : Store) (p : Nat) (o : jsdisp_t) (name : WSTR)
    (desc : property_desc_t) (ho : s.obj p = some o)
    (hta : FIRST_TYPEDARRAY_JSCLASS ≤ o.builtin_info.jsclass ∧
      o.builtin_info.jsclass ≤ LAST_TYPEDARRAY_JSCLASS)
    (hd : name.all is_digit = true) :
    (∀ s1 hres, jsdisp_define_property s p name desc = some (s1, hres) →
      s1 = s ∧ hres = throw_error s.ctx HRESULT.JS_E_NONCONFIGURABLE_REDEFINED name) ∧
    (desc.explicit_value = false → (desc.explicit_getter = true ∨ desc.explicit_setter = true) →
      jsdisp_define_property s p name desc
        = some (s, throw_error s.ctx HRESULT.JS_E_NONCONFIGURABLE_REDEFINED name)) := by
  have hov := override_idx_digits o name hta hd
  constructor
  · intro s1 hres h
    unfold jsdisp_define_property at h
    simp only [ho, hov] at h
    split at h
    · simp only [Option.some.injEq, Prod.mk.injEq] at h
      exact ⟨h.1.symm, h.2.symm⟩
    · split at h
      · cases h
      · split at h
        · simp only [Option.some.injEq, Prod.mk.injEq] at h
          exact ⟨h.1.symm, h.2.symm⟩
        · cases h
  · intro hev hgs
    unfold jsdisp_define_property
    simp only [ho, hov, hev, Bool.false_eq_true, if_false]
    have : (desc.explicit_getter || desc.explicit_setter) = true := by
      rcases hgs with h | h <;> simp [h]
    rw [this]
    simp

/-- C20. The object of `store_typed_array` is a typed array with one element;
the name `4294967296` is made of decimal digits and its value `2^32` is not
below the element count.  The scan of `override_idx` wraps the value to the
index 0, and `jsdisp_get_own_property` returns `S_OK` with the descriptor of an
element where the claim has `DISP_E_UNKNOWNNAME`.  (For this name
`jsdisp_get_id` does return `DISP_E_UNKNOWNNAME`.) -/
theorem typed_array_index_wraps :
    (store_typed_array.obj 0).map (fun o => (o.builtin_info.jsclass, o.builtin_info.idx_length))
      = some (FIRST_TYPEDARRAY_JSCLASS, some 1) ∧
    name_2_32.all is_digit = true ∧ digits_value name_2_32 = 4294967296 ∧
    (store_typed_array.obj 0).map (fun o => override_idx o name_2_32) = some (some 0) ∧
    (jsdisp_get_own_property store_typed_array 0 name_2_32 true).map (fun r => (r.2.1,
        r.2.2.map fun d => (d.explicit_value, d.flags)))
      = some (HRESULT.S_OK, some (true, PROPF_ENUMERABLE ||| PROPF_WRITABLE)) ∧
    (jsdisp_get_id store_typed_array 0 name_2_32 0).map (fun r => r.2)
      = some (HRESULT.DISP_E_UNKNOWNNAME, some DISPID_UNKNOWN) := by
  refine ⟨by rfl, by rfl, by rfl, by rfl, by rfl, by rfl⟩

/-! ### The id of a name -/

theorem find_prop_name_proxy {s : Store} {p hash : Nat} {name : WSTR} {ci : Bool}
    {x : Store × HRESULT × Option Nat} {o : jsdisp_t}
    (h : find_prop_name s p hash name ci = some x) (ho : s.obj p = some o) : o.proxy = none := by
  unfold find_prop_name at h
  simp only [ho] at h
  cases hr : find_prop_name_raw o hash name ci with
  | none => simp [hr] at h
  | some rr =>
    obtain ⟨T, r1⟩ := rr
    cases hp : o.proxy with
    | none => rfl
    | some d =>
      cases r1 with
      | none => simp [hr, hp] at h
      | some k => simp [hr, hp] at h

theorem prop_put_store_returned (s : Store) (p i : Nat) (val : jsval_t) :
    prop_put_store s p i val = (prop_put_store_call s p i val).bind put_returned := by
  unfold prop_put_store prop_put_store_call
  cases jsval_copy s val with
  | none => rfl
  | some s1 =>
    simp only [Option.some_bind]
    cases store_set_slot s1 p i (fun q => { q with u := prop_u.val val }) with
    | none => rfl
    | some s2 =>
      simp only [Option.some_bind]
      cases s2.obj p with
      | none => rfl
      | some T =>
        simp only
        cases T.builtin_info.on_put <;> rfl

theorem prop_put_switch_returned (s : Store) (p : Nat) (val : jsval_t) (This : jsdisp_t)
    (prop_obj j : Nat) :
    (match s.obj prop_obj with
      | none => none
      | some o =>
        let prop := slot o j
        match prop.type with
        | prop_type_t.PROP_BUILTIN =>
          match prop.u with
          | prop_u.p b => if b.setter.isSome then none else some (s, HRESULT.S_OK)
          | _ => none
        | prop_type_t.PROP_PROTREF | prop_type_t.PROP_DELETED =>
          if ¬ This.extensible then some (s, HRESULT.S_OK)
          else
            (store_set_slot s prop_obj j (fun q =>
              { q with type := prop_type_t.PROP_JSVAL,
                       flags := PROPF_ENUMERABLE ||| PROPF_CONFIGURABLE ||| PROPF_WRITABLE,
                       u := prop_u.val jsval_t.undefined })).bind fun s1 =>
            prop_put_store s1 prop_obj j val
        | prop_type_t.PROP_JSVAL =>
          if prop.flags &&& PROPF_WRITABLE = 0 then some (s, HRESULT.S_OK)
          else (jsval_release s (u_val prop.u)).bind fun s1 => prop_put_store s1 prop_obj j val
        | prop_type_t.PROP_ACCESSOR =>
          match u_setter prop.u with
          | some _ => none
          | none => some (s, HRESULT.S_OK)
        | prop_type_t.PROP_PROXY =>
          if prop.flags &&& PROPF_WRITABLE = 0 then some (s, HRESULT.S_OK) else none
        | prop_type_t.PROP_IDX =>
          if ¬ This.builtin_info.idx_put then some (s, HRESULT.S_OK) else none)
    = (match s.obj prop_obj with
      | none => none
      | some o =>
        let prop := slot o j
        match prop.type with
        | prop_type_t.PROP_BUILTIN =>
          match prop.u with
          | prop_u.p b =>
            if b.setter.isSome then some (s, put_end.leaves) else some (s, put_end.ret HRESULT.S_OK)
          | _ => none
        | prop_type_t.PROP_PROTREF | prop_type_t.PROP_DELETED =>
          if ¬ This.extensible then some (s, put_end.ret HRESULT.S_OK)
          else
            (store_set_slot s prop_obj j (fun q =>
              { q with type := prop_type_t.PROP_JSVAL,
                       flags := PROPF_ENUMERABLE ||| PROPF_CONFIGURABLE ||| PROPF_WRITABLE,
                       u := prop_u.val jsval_t.undefined })).bind fun s1 =>
            prop_put_store_call s1 prop_obj j val
        | prop_type_t.PROP_JSVAL =>
          if prop.flags &&& PROPF_WRITABLE = 0 then some (s, put_end.ret HRESULT.S_OK)
          else (jsval_release s (u_val prop.u)).bind fun s1 => prop_put_store_call s1 prop_obj j val
        | prop_type_t.PROP_ACCESSOR =>
          match u_setter prop.u with
          | some f => some (s, put_end.call_value f p val)
          | none => some (s, put_end.ret HRESULT.S_OK)
        | prop_type_t.PROP_PROXY =>
          if prop.flags &&& PROPF_WRITABLE = 0 then some (s, put_end.ret HRESULT.S_OK)
          else some (s, put_end.leaves)
        | prop_type_t.PROP_IDX =>
          if ¬ This.builtin_info.idx_put then some (s, put_end.ret HRESULT.S_OK)
          else some (s, put_end.leaves)).bind put_returned := by
  cases s.obj prop_obj with
  | none => rfl
  | some o =>
    simp only
    cases (slot o j).type with
    | PROP_BUILTIN =>
      simp only
      cases (slot o j).u with
      | p b => simp only; cases b.setter.isSome <;> rfl
      | _ => rfl
    | PROP_PROTREF =>
      simp only
      cases This.extensible
      · rfl
      · simp only [not_true_eq_false, if_false]
        cases store_set_slot s prop_obj j _ with
        | none => rfl
        | some s1 => simp only [Option.some_bind, prop_put_store_returned]
    | PROP_DELETED =>
      simp only
      cases This.extensible
      · rfl
      · simp only [not_true_eq_false, if_false]
        cases store_set_slot s prop_obj j _ with
        | none => rfl
        | some s1 => simp only [Option.some_bind, prop_put_store_returned]
    | PROP_JSVAL =>
      simp only
      split
      · rfl
      · cases jsval_release s (u_val (slot o j).u) with
        | none => rfl
        | some s1 => simp only [Option.some_bind, prop_put_store_returned]
    | PROP_ACCESSOR =>
      simp only
      cases u_setter (slot o j).u <;> rfl
    | PROP_PROXY =>
      simp only
      split <;> rfl
    | PROP_IDX =>
      simp only
      cases This.builtin_info.idx_put <;> rfl

/-- The model `prop_put` is the model `prop_put_call` where a call that leaves
this file has no result. -/
theorem prop_put_returned (s : Store) (p i : Nat) (val : jsval_t) :
    prop_put s p i val = (prop_put_call s p i val).bind put_returned := by
  unfold prop_put prop_put_call
  cases s.obj p with
  | none => rfl
  | some This =>
    simp only
    by_cases ht : (slot This i).type = prop_type_t.PROP_PROTREF
    · simp only [ht, if_true]
      cases protref_target s (s.heap.length + 1) p i with
      | none => rfl
      | some qj =>
        obtain ⟨q, j⟩ := qj
        simp only
        cases s.obj q with
        | none => rfl
        | some oq =>
          simp only
          by_cases ha : (slot oq j).type = prop_type_t.PROP_ACCESSOR
          · simp only [ha, if_true]
            exact prop_put_switch_returned s p val This q j
          · simp only [ha, if_false]
            exact prop_put_switch_returned s p val This p i
    · simp only [ht, if_false]
      exact prop_put_switch_returned s p val This p i

/-- C17. Let slot `i` of the extensible object `p` be a prototype reference and
let the loop of `prop_put` that follows the references end at slot `j` of the
ancestor `q`.  When that slot is an accessor, `prop_put` ends with the call of
its setter with the receiver `p` and the argument `v` (with `S_OK` and no call
when the accessor has no setter), and the store is the one of the call: slot
`i` is still a prototype reference.  In every other case slot `i` becomes a
value slot that holds `v` with the flags enumerable, configurable and writable
(then the class is notified where it has an `on_put`); no other slot of `p` and
no slot of another object changes, only reference counts move. -/
theorem put_through_protref (s : Store) (p i q j : Nat) (v : jsval_t) (o oq : jsdisp_t)
    (ho : s.obj p = some o) (hext : o.extensible = true)
    (ht : (slot o i).type = prop_type_t.PROP_PROTREF) (hil : i < o.props.length)
    (htgt : protref_target s (s.heap.length + 1) p i = some (q, j))
    (hq : s.obj q = some oq)
    (hv : ∀ x, v = jsval_t.obj x → (s.obj x).isSome = true) :
    ((slot oq j).type = prop_type_t.PROP_ACCESSOR →
      (∀ f, u_setter (slot oq j).u = some f →
        prop_put_call s p i v = some (s, put_end.call_value f p v)) ∧
      (u_setter (slot oq j).u = none →
        prop_put_call s p i v = some (s, put_end.ret HRESULT.S_OK))) ∧
    ((slot oq j).type ≠ prop_type_t.PROP_ACCESSOR →
      ∃ s1 o1, prop_put_call s p i v = some (s1,
          if o.builtin_info.on_put then put_end.on_put p (slot o i).name
          else put_end.ret HRESULT.S_OK) ∧
        s1.obj p = some o1 ∧ (slot o1 i).type = prop_type_t.PROP_JSVAL ∧
        (slot o1 i).u = prop_u.val v ∧
        (slot o1 i).flags = PROPF_ENUMERABLE ||| PROPF_CONFIGURABLE ||| PROPF_WRITABLE ∧
        (slot o1 i).name = (slot o i).name ∧
        (∀ k, k ≠ i → slot o1 k = slot o k) ∧
        (∀ x ox, x ≠ p → s.obj x = some ox → ∃ r, s1.obj x = some { ox with ref := r })) := by
  constructor
  · intro ha
    constructor
    · intro f hf
      unfold prop_put_call
      simp only [ho, ht, htgt, hq, ha, if_true, hf]
    · intro hf
      unfold prop_put_call
      simp only [ho, ht, htgt, hq, ha, if_true, hf]
  · intro hna
    obtain ⟨s1, e1, h1⟩ := upd_step_set_slot (upd_step_refl p i s) ho (fun r =>
      { r with type := prop_type_t.PROP_JSVAL,
               flags := PROPF_ENUMERABLE ||| PROPF_CONFIGURABLE ||| PROPF_WRITABLE,
               u := prop_u.val jsval_t.undefined })
    obtain ⟨s2, e2, h2⟩ := @upd_step_copy _ _ _ _ _ h1 v
      (fun x hx => upd_step_alive h1 (hv x hx))
    obtain ⟨s3, e3, h3⟩ := upd_step_set_slot h2 ho (fun r => { r with u := prop_u.val v })
    obtain ⟨r, hr⟩ := h3 p o ho
    rw [if_pos rfl] at hr
    refine ⟨s3, _, ?_, hr, ?_, ?_, ?_, ?_, ?_, ?_⟩
    · unfold prop_put_call
      simp only [ho, ht, htgt, hq, hna, if_true, if_false, hext, not_true_eq_false, e1,
        Option.some_bind]
      unfold prop_put_store_call
      simp only [e2, e3, Option.some_bind, hr]
      have hn : (slot (set_slot { o with ref := r } i (fun r =>
          ({ ({ r with type := prop_type_t.PROP_JSVAL,
                       flags := PROPF_ENUMERABLE ||| PROPF_CONFIGURABLE ||| PROPF_WRITABLE,
                       u := prop_u.val jsval_t.undefined } : dispex_prop_t)
              with u := prop_u.val v } : dispex_prop_t))) i).name = (slot o i).name := by
        rw [slot_set_slot_self _ _ _ (show i < ({ o with ref := r } : jsdisp_t).props.length from hil)]
        rfl
      rw [hn]
      show (if o.builtin_info.on_put = true then _ else _) = _
      cases o.builtin_info.on_put <;> rfl
    · rw [slot_set_slot_self _ _ _ (show i < ({ o with ref := r } : jsdisp_t).props.length from hil)]
    · rw [slot_set_slot_self _ _ _ (show i < ({ o with ref := r } : jsdisp_t).props.length from hil)]
    · rw [slot_set_slot_self _ _ _ (show i < ({ o with ref := r } : jsdisp_t).props.length from hil)]
    · rw [slot_set_slot_self _ _ _ (show i < ({ o with ref := r } : jsdisp_t).props.length from hil)]
      rfl
    · intro k hk
      rw [slot_set_slot_ne _ _ hk]
      rfl
    · intro x ox hx hox
      obtain ⟨r1, hr1⟩ := h3 x ox hox
      rw [if_neg hx] at hr1
      exact ⟨r1, hr1⟩

theorem put_through_protref_witness :
    prop_put_call store_setter 1 0 (jsval_t.number 5)
      = some (store_setter, put_end.call_value 2 1 (jsval_t.number 5)) ∧
    ∃ s1 o1, prop_put_call store_chain_cached 2 0 (jsval_t.number 5)
        = some (s1, put_end.ret HRESULT.S_OK) ∧
      s1.obj 2 = some o1 ∧ (slot o1 0).type = prop_type_t.PROP_JSVAL ∧
      (slot o1 0).u = prop_u.val (jsval_t.number 5) ∧
      (slot o1 0).flags = PROPF_ENUMERABLE ||| PROPF_CONFIGURABLE ||| PROPF_WRITABLE := by
  constructor
  · exact ((put_through_protref store_setter 1 0 0 0 (jsval_t.number 5) (obj_at store_setter 1)
      (obj_at store_setter 0) (by rfl) (by rfl) (by rfl) (by decide) (by rfl) (by rfl)
      (fun x hx => nomatch hx)).1 (by rfl)).1 2 (by rfl)
  · obtain ⟨s1, o1, h, ho1, h1, h2, h3, _⟩ :=
      (put_through_protref store_chain_cached 2 0 1 0 (jsval_t.number 5)
        (obj_at store_chain_cached 2) (obj_at store_chain_cached 1) (by rfl) (by rfl) (by rfl)
        (by decide) (by rfl) (by rfl) (fun x hx => nomatch hx)).2 (by decide)
    exact ⟨s1, o1, h, ho1, h1, h2, h3⟩

/-! ### Enumeration -/

theorem tomb_refl (s : Store) : tomb s s :=
  ⟨rfl, rfl, rfl, fun _ h => h, fun _ o ho => ⟨o, ho, rfl, rfl, fun _ => Or.inl rfl⟩⟩

theorem tomb_obj {s s1 : Store} (h : tomb s s1) {x : Nat} {o : jsdisp_t} (ho : s.obj x = some o) :
    ∃ o1, s1.obj x = some o1 ∧ o1.prototype = o.prototype ∧ o1.prop_cnt = o.prop_cnt ∧
      o1.proxy = o.proxy ∧ o1.builtin_info = o.builtin_info ∧ o1.props.length = o.props.length ∧
      ∀ k, slot o1 k = slot o k ∨
        ((slot o k).type = prop_type_t.PROP_PROTREF ∧ (∀ fuel, eff_flags_fuel fuel s x k = 0) ∧
          slot o1 k = { slot o k with type := prop_type_t.PROP_DELETED }) := by
  obtain ⟨o1, ho1, he, hl, hk⟩ := h.2.2.2.2 x o ho
  exact ⟨o1, ho1, by rw [he], by rw [he], by rw [he], by rw [he], hl, hk⟩

theorem eff_flags_tomb {s s1 : Store} (h : tomb s s1) :
    ∀ (fuel x k : Nat) (o o1 : jsdisp_t), s.obj x = some o → s1.obj x = some o1 →
      slot o1 k = slot o k → eff_flags_fuel fuel s1 x k = eff_flags_fuel fuel s x k := by
  intro fuel
  induction fuel with
  | zero => intros; rfl
  | succ fuel ih =>
    intro x k o o1 ho ho1 hs
    obtain ⟨o1', ho1', hpr, _, _, _, _, _⟩ := tomb_obj h ho
    rw [ho1] at ho1'
    injection ho1' with ho1'
    subst ho1'
    simp only [eff_flags_fuel, ho, ho1, hs, hpr]
    split
    · cases hq : o.prototype with
      | none => rfl
      | some q =>
        simp only
        cases hp : s.obj q with
        | none => rw [h.2.2.2.1 q hp]
        | some proto =>
          obtain ⟨proto1, hp1, _, hc, _, _, _, hk⟩ := tomb_obj h hp
          simp only [hp1, hc]
          rcases hk (u_ref (slot o k).u) with he | ⟨ht, hz, he⟩
          · rw [he]
            split
            · exact ih _ _ _ _ hp hp1 he
            · rfl
          · rw [he]
            simp only [ne_eq, not_true_eq_false, and_false, if_false]
            split
            · exact (hz fuel).symm
            · rfl
    · rfl

theorem tomb_trans {a b c : Store} (h1 : tomb a b) (h2 : tomb b c) : tomb a c := by
  refine ⟨h2.1.trans h1.1, h2.2.1.trans h1.2.1, h2.2.2.1.trans h1.2.2.1,
    fun x hx => h2.2.2.2.1 x (h1.2.2.2.1 x hx), ?_⟩
  intro x o ho
  obtain ⟨o1, ho1, he1, hl1, hk1⟩ := h1.2.2.2.2 x o ho
  obtain ⟨o2, ho2, he2, hl2, hk2⟩ := h2.2.2.2.2 x o1 ho1
  refine ⟨o2, ho2, ?_, hl2.trans hl1, ?_⟩
  · rw [he2, he1]
  · intro k
    rcases hk2 k with e2 | ⟨t2, z2, e2⟩
    · rcases hk1 k with e1 | ⟨t1, z1, e1⟩
      · exact Or.inl (e2.trans e1)
      · exact Or.inr ⟨t1, z1, e2.trans e1⟩
    · rcases hk1 k with e1 | ⟨t1, z1, e1⟩
      · refine Or.inr ⟨by rw [← e1]; exact t2, fun fuel => ?_, by rw [e2, e1]⟩
        rw [← eff_flags_tomb h1 fuel x k o o1 ho ho1 e1]
        exact z2 fuel
      · rw [e1] at t2
        cases t2
theorem tomb_tombstone {s : Store} {x k : Nat} {o : jsdisp_t} (ho : s.obj x = some o)
    (ht : (slot o k).type = prop_type_t.PROP_PROTREF)
    (hz : ∀ fuel, eff_flags_fuel fuel s x k = 0) :
    tomb s (s.set_obj x
      (set_slot o k (fun r => { r with type := prop_type_t.PROP_DELETED }))) := by
  refine ⟨by simp [Store.set_obj], rfl, rfl, ?_, ?_⟩
  · intro y hy
    have hne : y ≠ x := by
      intro e; subst e; rw [ho] at hy; cases hy
    rw [obj_set_obj_ne s hne]; exact hy
  · intro y oy hy
    by_cases hyx : y = x
    · subst hyx
      rw [ho] at hy
      injection hy with hy
      subst hy
      refine ⟨_, obj_set_obj_self ho _, rfl, set_slot_length _ _ _, ?_⟩
      intro j
      rw [slot_set_slot]
      split
      · next hj =>
        obtain ⟨rfl, _⟩ := hj
        exact Or.inr ⟨ht, hz, rfl⟩
      · exact Or.inl rfl
    · rw [obj_set_obj_ne s hyx]
      exact ⟨oy, hy, rfl, rfl, fun _ => Or.inl rfl⟩

/-- The function `get_flags` returns on an object whose prototype chain ends:
its result is the effective flags, and the store differs by tombstones for
prototype references without effective flags. -/
theorem get_flags_fuel_spec {s : Store} : ∀ (l : List Nat) (n x : Nat),
    proto_chain s n (some x) = some l → protrefs_wf s l →
    ∀ (fuel k : Nat) (o : jsdisp_t), l.length ≤ fuel → s.obj x = some o → k < o.prop_cnt →
      ∃ s1, get_flags_fuel fuel s x k = some (s1, eff_flags_fuel fuel s x k) ∧ tomb s s1 := by
  intro l
  induction l with
  | nil =>
    intro n x hl
    obtain ⟨_, _, _, _, _, h⟩ := proto_chain_cons hl
    cases h
  | cons y l1 ih =>
    intro n x hl hwf fuel k o hfuel ho hk
    obtain ⟨o', l1', m, ho', hl1, he⟩ := proto_chain_cons hl
    rw [ho] at ho'
    injection ho' with ho'
    subst ho'
    injection he with hy hl1e
    subst hy hl1e
    cases fuel with
    | zero => simp at hfuel
    | succ fuel =>
      simp only [get_flags_fuel, eff_flags_fuel, ho]
      by_cases ht : (slot o k).type = prop_type_t.PROP_PROTREF
      · simp only [ht, if_true]
        have hpw := hwf y (List.mem_cons_self _ _)
        unfold protref_wf at hpw
        rw [ho] at hpw
        have hsome := hpw k hk ht
        cases hq : o.prototype with
        | none => rw [hq] at hsome; cases hsome
        | some q =>
          rw [hq] at hl1
          obtain ⟨proto, l2, m2, hproto, _, _⟩ := proto_chain_cons hl1
          simp only [hproto]
          split
          · next hc =>
            exact ih m q hl1 (fun z hz => hwf z (List.mem_cons_of_mem _ hz)) fuel _ proto
              (by simpa using hfuel) hproto hc.1
          · next hc =>
            refine ⟨_, rfl, tomb_tombstone ho ht ?_⟩
            intro f
            cases f with
            | zero => rfl
            | succ f => simp only [eff_flags_fuel, ho, ht, if_true, hq, hproto, if_neg hc]
      · simp only [ht, if_false]
        exact ⟨s, rfl, tomb_refl s⟩

theorem tomb_chain {s s1 : Store} (h : tomb s s1) : ∀ (n : Nat) (q : Option Nat) (l : List Nat),
    proto_chain s n q = some l → proto_chain s1 n q = some l := by
  intro n
  induction n with
  | zero => intro q l hl; simp [proto_chain] at hl
  | succ n ih =>
    intro q l hl
    cases q with
    | none => simpa [proto_chain] using hl
    | some x =>
      simp only [proto_chain] at hl ⊢
      cases ho : s.obj x with
      | none => simp [ho] at hl
      | some o =>
        obtain ⟨o1, ho1, hpr, _⟩ := tomb_obj h ho
        simp only [ho, Option.map_eq_some'] at hl
        obtain ⟨l1, hl1, rfl⟩ := hl
        simp only [ho1, hpr, ih _ _ hl1, Option.map_some']

theorem tomb_protrefs_wf {s s1 : Store} (h : tomb s s1) {l : List Nat} (hwf : protrefs_wf s l) :
    protrefs_wf s1 l := by
  intro x hx
  have hp := hwf x hx
  unfold protref_wf at hp ⊢
  cases ho : s.obj x with
  | none => rw [ho] at hp; exact hp.elim
  | some o =>
    rw [ho] at hp
    obtain ⟨o1, ho1, hpr, hc, _, _, _, hk⟩ := tomb_obj h ho
    rw [ho1]
    intro k hk1 ht
    rw [hpr]
    apply hp k (by rw [← hc]; exact hk1)
    rcases hk k with e | ⟨t, _, _⟩
    · rw [← e]; exact ht
    · exact t
theorem enum_passes_def {enum_type : jsdisp_enum_type} {s : Store} {p k : Nat} {o : jsdisp_t}
    (ho : s.obj p = some o) :
    enum_passes enum_type s p k ↔
      (k < o.prop_cnt ∧ (slot o k).type ≠ prop_type_t.PROP_DELETED ∧
      (enum_type ≠ jsdisp_enum_type.JSDISP_ENUM_ALL →
        (slot o k).type ≠ prop_type_t.PROP_PROTREF) ∧
      (enum_type ≠ jsdisp_enum_type.JSDISP_ENUM_OWN →
        eff_flags s p k &&& PROPF_ENUMERABLE ≠ 0)) := by
  unfold enum_passes
  rw [ho]

/-- A slot that is a tombstone, or was a prototype reference without effective
flags, does not pass the filter in any mode. -/
theorem tombstone_fails {enum_type : jsdisp_enum_type} {s0 : Store} {p k : Nat} {o0 : jsdisp_t}
    (ho0 : s0.obj p = some o0) {sl : dispex_prop_t}
    (hd : sl.type = prop_type_t.PROP_DELETED)
    (hk : sl = slot o0 k ∨
      ((slot o0 k).type = prop_type_t.PROP_PROTREF ∧ (∀ fuel, eff_flags_fuel fuel s0 p k = 0) ∧
        sl = { slot o0 k with type := prop_type_t.PROP_DELETED })) :
    ¬ enum_passes enum_type s0 p k := by
  rw [enum_passes_def ho0]
  rintro ⟨_, h1, h2, h3⟩
  rcases hk with e | ⟨t, z, _⟩
  · rw [e] at hd; exact h1 hd
  · by_cases hall : enum_type = jsdisp_enum_type.JSDISP_ENUM_ALL
    · apply h3 (by rw [hall]; decide)
      unfold eff_flags
      rw [z]
      exact Nat.zero_and _
    · exact h2 hall t

theorem fix_overridden_prop_plain {s : Store} {p i : Nat} {o : jsdisp_t} (ho : s.obj p = some o)
    (hpx : o.proxy = none) : fix_overridden_prop s p i = some (s, HRESULT.S_OK) := by
  unfold fix_overridden_prop
  simp only [ho, hpx, Option.isSome_none, Bool.false_eq_true, if_false]

/-- The loop of `jsdisp_next_prop` on an object without proxy whose prototype
chain ends: it returns at the first slot from `idx` on that passes the filter
in the store `s0` the loop started with, or runs to the end of the table when
there is none. -/
theorem next_prop_scan_spec (enum_type : jsdisp_enum_type) (p : Nat) (s0 : Store) (o0 : jsdisp_t)
    (n : Nat) (l : List Nat) (ho0 : s0.obj p = some o0) (hpx : o0.proxy = none)
    (hl : proto_chain s0 n (some p) = some l) (hwf : protrefs_wf s0 l) :
    ∀ (fuel : Nat) (s : Store) (idx : Nat), tomb s0 s → o0.prop_cnt - idx < fuel →
      ∃ s2 r, next_prop_scan enum_type p fuel s idx = some (s2, HRESULT.S_OK, r) ∧ tomb s0 s2 ∧
        (∀ k, r = some k → idx ≤ k ∧ enum_passes enum_type s0 p k ∧
          (∀ j, idx ≤ j → j < k → ¬ enum_passes enum_type s0 p j) ∧
          ∃ o2, s2.obj p = some o2 ∧ (slot o2 k).type ≠ prop_type_t.PROP_DELETED) ∧
        (r = none → ∀ j, idx ≤ j → ¬ enum_passes enum_type s0 p j) := by
  intro fuel
  induction fuel with
  | zero => intro s idx _ h; omega
  | succ fuel ih =>
    intro s idx ht hfuel
    obtain ⟨o, ho, hpr, hc, hpx1, _, _, hk⟩ := tomb_obj ht ho0
    rw [hpx] at hpx1
    -- the rounds after a slot that does not pass
    have hskip : ∀ s1, tomb s0 s1 → idx < o0.prop_cnt → ¬ enum_passes enum_type s0 p idx →
        ∃ s2 r, next_prop_scan enum_type p fuel s1 (idx + 1) = some (s2, HRESULT.S_OK, r) ∧
          tomb s0 s2 ∧
          (∀ k, r = some k → idx ≤ k ∧ enum_passes enum_type s0 p k ∧
            (∀ j, idx ≤ j → j < k → ¬ enum_passes enum_type s0 p j) ∧
            ∃ o2, s2.obj p = some o2 ∧ (slot o2 k).type ≠ prop_type_t.PROP_DELETED) ∧
          (r = none → ∀ j, idx ≤ j → ¬ enum_passes enum_type s0 p j) := by
      intro s1 ht1 hlt hnp
      obtain ⟨s2, r, hr, ht2, hsome, hnone⟩ := ih s1 (idx + 1) ht1 (by omega)
      refine ⟨s2, r, hr, ht2, ?_, ?_⟩
      · intro k hk
        obtain ⟨h1, h2, h3, h4⟩ := hsome k hk
        refine ⟨by omega, h2, ?_, h4⟩
        intro j hj1 hj2
        by_cases hji : j = idx
        · rw [hji]; exact hnp
        · exact h3 j (by omega) hj2
      · intro hr0 j hj
        by_cases hji : j = idx
        · rw [hji]; exact hnp
        · exact hnone hr0 j (by omega)
    simp only [next_prop_scan, ho]
    by_cases hlt : idx < o.prop_cnt
    · simp only [hlt, if_true, fix_overridden_prop_plain ho hpx1, FAILED, Bool.false_eq_true,
        if_false, ho]
      have hlt0 : idx < o0.prop_cnt := by rw [← hc]; exact hlt
      by_cases hd : (slot o idx).type = prop_type_t.PROP_DELETED
      · simp only [hd, if_true]
        exact hskip s ht hlt0 (tombstone_fails ho0 hd (hk idx))
      · have hsame : slot o idx = slot o0 idx := by
          rcases hk idx with e | ⟨_, _, e⟩
          · exact e
          · rw [e] at hd; exact absurd rfl hd
        simp only [hd, if_false]
        by_cases hp : enum_type ≠ jsdisp_enum_type.JSDISP_ENUM_ALL ∧
            (slot o idx).type = prop_type_t.PROP_PROTREF
        · rw [if_pos hp]
          apply hskip s ht hlt0
          rw [enum_passes_def ho0]
          rintro ⟨_, _, h2, _⟩
          exact h2 hp.1 (by rw [← hsame]; exact hp.2)
        · rw [if_neg hp]
          by_cases hown : enum_type ≠ jsdisp_enum_type.JSDISP_ENUM_OWN
          · rw [if_pos hown]
            obtain ⟨s2, hg, hts⟩ := get_flags_fuel_spec l n p (tomb_chain ht _ _ _ hl)
              (tomb_protrefs_wf ht hwf) (s.heap.length + 1) idx o
              (by have := proto_chain_length (tomb_chain ht _ _ _ hl); omega) ho hlt
            have hfl : eff_flags_fuel (s.heap.length + 1) s p idx = eff_flags s0 p idx := by
              unfold eff_flags
              rw [ht.1]
              exact eff_flags_tomb ht _ _ _ _ _ ho0 ho hsame
            rw [hfl] at hg
            unfold get_flags
            simp only [hg]
            by_cases hz : eff_flags s0 p idx &&& PROPF_ENUMERABLE = 0
            · rw [if_pos hz]
              apply hskip s2 (tomb_trans ht hts) hlt0
              rw [enum_passes_def ho0]
              rintro ⟨_, _, _, h3⟩
              exact h3 hown hz
            · rw [if_neg hz]
              refine ⟨s2, some idx, rfl, tomb_trans ht hts, ?_, fun h => nomatch h⟩
              intro k hk1
              injection hk1 with hk1
              subst hk1
              refine ⟨le_refl _, ?_, fun j h1 h2 => absurd h1 (by omega), ?_⟩
              · rw [enum_passes_def ho0]
                refine ⟨hlt0, by rw [← hsame]; exact hd, fun ha hpt => hp ⟨ha, ?_⟩, fun _ => hz⟩
                rw [hsame]; exact hpt
              · obtain ⟨o2, ho2, _, _, _, _, _, hk2⟩ := tomb_obj hts ho
                refine ⟨o2, ho2, ?_⟩
                rcases hk2 idx with e | ⟨_, z, _⟩
                · rw [e]; exact hd
                · exfalso
                  apply hz
                  rw [← hfl, z]
                  exact Nat.zero_and _
          · rw [if_neg hown]
            refine ⟨s, some idx, rfl, ht, ?_, fun h => nomatch h⟩
            intro k hk1
            injection hk1 with hk1
            subst hk1
            refine ⟨le_refl _, ?_, fun j h1 h2 => absurd h1 (by omega), o, ho, hd⟩
            rw [enum_passes_def ho0]
            refine ⟨hlt0, by rw [← hsame]; exact hd, fun ha hpt => hp ⟨ha, ?_⟩,
              fun h => absurd h hown⟩
            rw [hsame]; exact hpt
    · simp only [hlt, if_false]
      refine ⟨s, none, rfl, ht, (fun k h => nomatch h), ?_⟩
      intro _ j hj
      rw [enum_passes_def ho0]
      rintro ⟨h1, _⟩
      omega
/-- A call of `jsdisp_next_prop` outside HTML mode whose first block ends in
the store `s1` with the start index `idx`. -/
theorem next_prop_call (enum_type : jsdisp_enum_type) (p : Nat) (s0 : Store) (o0 : jsdisp_t)
    (n : Nat) (l : List Nat) (ho0 : s0.obj p = some o0) (hpx : o0.proxy = none)
    (hhtml : s0.ctx.html_mode = false)
    (hl : proto_chain s0 n (some p) = some l) (hwf : protrefs_wf s0 l)
    (s : Store) (id : Int) (s1 : Store) (hres : HRESULT) (idx fuel : Nat)
    (hstart : next_prop_start s p id enum_type = some (s1, hres, some idx)) (ht : tomb s0 s1) :
    ∃ s2 r, jsdisp_next_prop_fuel (fuel + 1) s p id enum_type
        = some (s2, (if r.isSome then HRESULT.S_OK else HRESULT.S_FALSE), r.map prop_to_id) ∧
      tomb s0 s2 ∧
      (∀ k, r = some k → idx ≤ k ∧ enum_passes enum_type s0 p k ∧
        (∀ j, idx ≤ j → j < k → ¬ enum_passes enum_type s0 p j) ∧
        ∃ o2, s2.obj p = some o2 ∧ (slot o2 k).type ≠ prop_type_t.PROP_DELETED) ∧
      (r = none → ∀ j, idx ≤ j → ¬ enum_passes enum_type s0 p j) := by
  obtain ⟨o1, ho1, _, hc, _⟩ := tomb_obj ht ho0
  obtain ⟨s2, r, hr, ht2, hsome, hnone⟩ := next_prop_scan_spec enum_type p s0 o0 n l ho0 hpx hl hwf
    (o1.prop_cnt - idx + 1) s1 idx ht (by rw [hc]; omega)
  refine ⟨s2, r, ?_, ht2, hsome, hnone⟩
  simp only [jsdisp_next_prop_fuel, hstart, ho1, hr]
  cases r with
  | some k => rfl
  | none =>
    simp only [FAILED, Bool.false_eq_true, if_false, ht2.2.1, hhtml]
    rfl

theorem next_prop_start_in_range {s : Store} {p : Nat} {o : jsdisp_t} (ho : s.obj p = some o)
    (enum_type : jsdisp_enum_type) (idx : Nat) (hlt : idx < o.prop_cnt) (h32 : idx < 4294967296) :
    next_prop_start s p (idx : Int) enum_type = some (s, HRESULT.S_OK, some idx) := by
  have hmod : ((idx : Int) % 4294967296).toNat = idx := by omega
  have hne : ¬ ((idx : Int) = DISPID_STARTENUM) := by unfold DISPID_STARTENUM; omega
  unfold next_prop_start
  simp only [ho, hmod, hne, false_or, ge_iff_le, Nat.not_le.mpr hlt, if_false]

theorem next_prop_start_cases {s : Store} {p : Nat} {id : Int} {enum_type : jsdisp_enum_type}
    {s1 : Store} {hres : HRESULT} {r : Option Nat}
    (h : next_prop_start s p id enum_type = some (s1, hres, r)) (hok : FAILED hres = false) :
    ∃ o1, s1.obj p = some o1 ∧
      (r = none → hres = HRESULT.S_FALSE ∧
        o1.prop_cnt ≤ (if id = DISPID_STARTENUM then 0 else (id % 4294967296).toNat)) ∧
      (∀ idx, r = some idx →
        idx = (if id = DISPID_STARTENUM then 0 else (id % 4294967296).toNat) ∧
        idx < o1.prop_cnt) := by
  unfold next_prop_start at h
  cases ho : s.obj p with
  | none => simp [ho] at h
  | some o =>
    simp only [ho] at h
    by_cases hc : id = DISPID_STARTENUM ∨ (id % 4294967296).toNat ≥ o.prop_cnt
    · rw [if_pos hc] at h
      generalize (if enum_type = jsdisp_enum_type.JSDISP_ENUM_ALL then fill_protrefs s p
        else fill_props s p) = fr at h
      cases fr with
      | none => cases h
      | some x =>
        obtain ⟨s2, hres2⟩ := x
        simp only at h
        by_cases hf : FAILED hres2 = true
        · rw [if_pos hf] at h
          simp only [Option.some.injEq, Prod.mk.injEq] at h
          obtain ⟨_, rfl, _⟩ := h
          rw [hok] at hf
          cases hf
        · rw [if_neg hf] at h
          cases ho1 : s2.obj p with
          | none => simp [ho1] at h
          | some o1 =>
            simp only [ho1] at h
            generalize (if id = DISPID_STARTENUM then 0 else (id % 4294967296).toNat) = idx0 at h ⊢
            by_cases hge : idx0 ≥ o1.prop_cnt
            · rw [if_pos hge] at h
              simp only [Option.some.injEq, Prod.mk.injEq] at h
              obtain ⟨rfl, rfl, rfl⟩ := h
              exact ⟨o1, ho1, fun _ => ⟨rfl, hge⟩, fun _ hr => nomatch hr⟩
            · rw [if_neg hge] at h
              simp only [Option.some.injEq, Prod.mk.injEq] at h
              obtain ⟨rfl, rfl, rfl⟩ := h
              refine ⟨o1, ho1, (fun hr => nomatch hr), fun idx hr => ?_⟩
              injection hr with hr
              subst hr
              exact ⟨rfl, by omega⟩
    · rw [if_neg hc] at h
      simp only [Option.some.injEq, Prod.mk.injEq] at h
      obtain ⟨rfl, rfl, rfl⟩ := h
      have hne : ¬ (id = DISPID_STARTENUM) := fun e => hc (Or.inl e)
      have hlt : ¬ ((id % 4294967296).toNat ≥ o.prop_cnt) := fun e => hc (Or.inr e)
      refine ⟨o, ho, (fun hr => nomatch hr), fun idx hr => ?_⟩
      injection hr with hr
      subst hr
      exact ⟨by rw [if_neg hne], by omega⟩
theorem filter_range_least (P : Nat → Bool) : ∀ (d idx k : Nat), idx ≤ k → k < idx + d →
    P k = true → (∀ j, idx ≤ j → j < k → P j = false) →
    (List.range' idx d).filter P = k :: (List.range' (k + 1) (idx + d - (k + 1))).filter P := by
  intro d
  induction d with
  | zero => intro idx k h1 h2; omega
  | succ d ih =>
    intro idx k h1 h2 hk hj
    rw [List.range'_succ]
    by_cases he : idx = k
    · subst he
      rw [List.filter_cons_of_pos hk]
      have hd : idx + (d + 1) - (idx + 1) = d := by omega
      rw [hd]
    · rw [List.filter_cons_of_neg (by rw [hj idx (le_refl _) (by omega)]; simp)]
      rw [ih (idx + 1) k (by omega) (by omega) hk (fun j h3 h4 => hj j (by omega) h4)]
      have hd : idx + 1 + d - (k + 1) = idx + (d + 1) - (k + 1) := by omega
      rw [hd]

theorem passing_from_none {enum_type : jsdisp_enum_type} {s : Store} {p cnt idx : Nat}
    (h : ∀ j, idx ≤ j → ¬ enum_passes enum_type s p j) : passing_from enum_type s p cnt idx = [] := by
  unfold passing_from
  rw [List.filter_eq_nil_iff]
  intro j hj
  rw [List.mem_range'_1] at hj
  simpa using h j hj.1

theorem passing_from_least {enum_type : jsdisp_enum_type} {s : Store} {p cnt idx k : Nat}
    (h1 : idx ≤ k) (h2 : k < cnt) (hk : enum_passes enum_type s p k)
    (hj : ∀ j, idx ≤ j → j < k → ¬ enum_passes enum_type s p j) :
    passing_from enum_type s p cnt idx = k :: passing_from enum_type s p cnt (k + 1) := by
  unfold passing_from
  rw [filter_range_least _ (cnt - idx) idx k h1 (by omega) (by simpa using hk)
    (fun j h3 h4 => by simpa using hj j h3 h4)]
  have hd : idx + (cnt - idx) - (k + 1) = cnt - (k + 1) := by omega
  rw [hd]

theorem fill_props_plain {s : Store} {p : Nat} {o : jsdisp_t} (ho : s.obj p = some o)
    (hpx : o.proxy = none) (hidx : o.builtin_info.idx_length = none) :
    fill_props s p = some (s, HRESULT.S_OK) := by
  unfold fill_props
  simp only [ho, hpx, Option.isSome_none, Bool.false_eq_true, if_false, hidx]

theorem fill_protrefs_plain {s : Store} {p : Nat} {o : jsdisp_t} (ho : s.obj p = some o)
    (hpx : o.proxy = none) (hidx : o.builtin_info.idx_length = none)
    (hproto : o.prototype = none) : fill_protrefs s p = some (s, HRESULT.S_OK) := by
  unfold fill_protrefs
  simp only [fill_protrefs_fuel, fill_props_plain ho hpx hidx, FAILED, Bool.false_eq_true,
    if_false, ho, hproto]

theorem next_prop_start_end {s : Store} {p : Nat} {o : jsdisp_t} (ho : s.obj p = some o)
    (hpx : o.proxy = none) (hidx : o.builtin_info.idx_length = none)
    {enum_type : jsdisp_enum_type}
    (het : enum_type = jsdisp_enum_type.JSDISP_ENUM_ALL → o.prototype = none)
    (h32 : o.prop_cnt < 4294967296) :
    next_prop_start s p (o.prop_cnt : Int) enum_type = some (s, HRESULT.S_FALSE, none) := by
  have hmod : ((o.prop_cnt : Int) % 4294967296).toNat = o.prop_cnt := by omega
  have hne : ¬ ((o.prop_cnt : Int) = DISPID_STARTENUM) := by unfold DISPID_STARTENUM; omega
  have hfill : (if enum_type = jsdisp_enum_type.JSDISP_ENUM_ALL then fill_protrefs s p
      else fill_props s p) = some (s, HRESULT.S_OK) := by
    split
    · next e => exact fill_protrefs_plain ho hpx hidx (het e)
    · exact fill_props_plain ho hpx hidx
  unfold next_prop_start
  simp only [ho, hmod, hne, false_or, ge_iff_le, le_refl, if_true, hfill, FAILED,
    Bool.false_eq_true, if_false]

theorem prop_to_id_cast (k : Nat) : prop_to_id k = ((k + 1 : Nat) : Int) := by
  unfold prop_to_id
  push_cast
  rfl

/-- One call of the iteration whose first block ends with a start index, and
the calls after it. -/
theorem enum_from_call (enum_type : jsdisp_enum_type) (p : Nat) (s0 : Store) (o0 : jsdisp_t)
    (n : Nat) (l : List Nat) (ho0 : s0.obj p = some o0) (hpx : o0.proxy = none)
    (hhtml : s0.ctx.html_mode = false)
    (hl : proto_chain s0 n (some p) = some l) (hwf : protrefs_wf s0 l)
    (s : Store) (id : Int) (s1 : Store) (hres : HRESULT) (idx fuel : Nat)
    (hstart : next_prop_start s p id enum_type = some (s1, hres, some idx)) (ht : tomb s0 s1)
    (hrest : ∀ s2 k, tomb s0 s2 → idx ≤ k → k < o0.prop_cnt →
      enum_from enum_type p fuel s2 ((k + 1 : Nat) : Int)
        = some ((passing_from enum_type s0 p o0.prop_cnt (k + 1)).map prop_to_id)) :
    enum_from enum_type p (fuel + 1) s id
      = some ((passing_from enum_type s0 p o0.prop_cnt idx).map prop_to_id) := by
  obtain ⟨s2, r, hr, ht2, hsome, hnone⟩ := next_prop_call enum_type p s0 o0 n l ho0 hpx hhtml hl hwf
    s id s1 hres idx (s.avail + 1) hstart ht
  simp only [enum_from, jsdisp_next_prop, hr]
  cases r with
  | none =>
    simp only [Option.isSome_none, Bool.false_eq_true, if_false, reduceCtorEq]
    rw [passing_from_none (hnone rfl)]
    rfl
  | some k =>
    obtain ⟨h1, h2, h3, _⟩ := hsome k rfl
    have hk : k < o0.prop_cnt := ((enum_passes_def ho0).1 h2).1
    simp only [Option.isSome_some, if_true, Option.map_some', prop_to_id_cast k,
      hrest s2 k ht2 h1 hk]
    rw [passing_from_least h1 hk h2 h3, List.map_cons, prop_to_id_cast k]

/-- The iteration from an index of the table on, where a call at the end of
the table returns in its first block. -/
theorem enum_from_spec (enum_type : jsdisp_enum_type) (p : Nat) (s0 : Store) (o0 : jsdisp_t)
    (n : Nat) (l : List Nat) (ho0 : s0.obj p = some o0) (hpx : o0.proxy = none)
    (hhtml : s0.ctx.html_mode = false)
    (hl : proto_chain s0 n (some p) = some l) (hwf : protrefs_wf s0 l)
    (h32 : o0.prop_cnt < 4294967296)
    (hclose : ∀ s, tomb s0 s →
      ∃ s1 hres, next_prop_start s p (o0.prop_cnt : Int) enum_type = some (s1, hres, none)) :
    ∀ (fuel : Nat) (s : Store) (idx : Nat), tomb s0 s → idx ≤ o0.prop_cnt →
      o0.prop_cnt - idx < fuel →
      enum_from enum_type p fuel s (idx : Int)
        = some ((passing_from enum_type s0 p o0.prop_cnt idx).map prop_to_id) := by
  intro fuel
  induction fuel with
  | zero => intro s idx _ _ h; omega
  | succ fuel ih =>
    intro s idx ht hle hfuel
    obtain ⟨o, ho, _, hc, _⟩ := tomb_obj ht ho0
    by_cases hlt : idx < o0.prop_cnt
    · exact enum_from_call enum_type p s0 o0 n l ho0 hpx hhtml hl hwf s idx s HRESULT.S_OK idx
        fuel (next_prop_start_in_range ho enum_type idx (by rw [hc]; exact hlt) (by omega)) ht
        (fun s2 k ht2 h1 h2 => ih s2 (k + 1) ht2 (by omega) (by omega))
    · have he : idx = o0.prop_cnt := by omega
      subst he
      obtain ⟨s1, hres, hs⟩ := hclose s ht
      have hne : hres ≠ HRESULT.S_OK := by
        intro e
        subst e
        have := (next_prop_start_cases hs rfl).choose_spec.2.1 rfl
        exact absurd this.1 (by decide)
      simp only [enum_from, jsdisp_next_prop, jsdisp_next_prop_fuel, hs, hne, if_false]
      unfold passing_from
      simp
/-! ### Lookups keep the table well formed -/

theorem is_chain_iff_seg (props : List dispex_prop_t) :
    ∀ (l : List Nat) (pos : Nat), is_chain props pos l ↔ is_seg props pos l NIL := by
  intro l
  induction l with
  | nil => intro pos; simp [is_chain, is_seg]
  | cons x l ih =>
    intro pos
    simp only [is_chain, is_seg, ih]

theorem is_seg_append (props : List dispex_prop_t) :
    ∀ (A B : List Nat) (a c : Nat),
      is_seg props a (A ++ B) c ↔ ∃ m, is_seg props a A m ∧ is_seg props m B c := by
  intro A
  induction A with
  | nil =>
    intro B a c
    simp only [List.nil_append, is_seg]
    constructor
    · intro h; exact ⟨a, rfl, h⟩
    · rintro ⟨m, rfl, h⟩; exact h
  | cons x A ih =>
    intro B a c
    rw [List.cons_append]
    simp only [is_seg]
    rw [ih]
    constructor
    · rintro ⟨h1, h2, m, h3, h4⟩; exact ⟨m, ⟨h1, h2, h3⟩, h4⟩
    · rintro ⟨m, ⟨h1, h2, h3⟩, h4⟩; exact ⟨h1, h2, m, h3, h4⟩

theorem is_seg_congr {props props1 : List dispex_prop_t} :
    ∀ (A : List Nat) (a c : Nat),
      (∀ x ∈ A, (props1.getD x dispex_prop_t.zero).bucket_next
        = (props.getD x dispex_prop_t.zero).bucket_next) →
      is_seg props a A c → is_seg props1 a A c := by
  intro A
  induction A with
  | nil => intro a c _ h; exact h
  | cons x A ih =>
    intro a c hx h
    obtain ⟨h1, h2, h3⟩ := h
    subst h2
    refine ⟨h1, rfl, ?_⟩
    rw [hx x (List.mem_cons_self _ _)]
    exact ih _ _ (fun y hy => hx y (List.mem_cons_of_mem _ hy)) h3

theorem is_chain_chain_from (props : List dispex_prop_t) :
    ∀ (l : List Nat) (fuel pos : Nat), is_chain props pos l → l.length < fuel →
      chain_from props fuel pos = some l := by
  intro l
  induction l with
  | nil =>
    intro fuel pos h hf
    cases fuel with
    | zero => omega
    | succ n =>
      simp only [is_chain] at h
      simp [chain_from, h]
  | cons x l ih =>
    intro fuel pos h hf
    cases fuel with
    | zero => simp at hf
    | succ n =>
      obtain ⟨h1, h2, h3⟩ := h
      subst h2
      simp only [chain_from, h1, if_false, ih n _ h3 (by simpa using hf), Option.map_some']

theorem is_seg_mem_ne {props : List dispex_prop_t} :
    ∀ (A : List Nat) (a c : Nat), is_seg props a A c → ∀ x ∈ A, x ≠ NIL := by
  intro A
  induction A with
  | nil => intro a c _ x hx; cases hx
  | cons y A ih =>
    intro a c h x hx
    obtain ⟨h1, h2, h3⟩ := h
    subst h2
    rcases List.mem_cons.1 hx with e | e
    · rw [e]; exact h1
    · exact ih _ _ h3 x e

/-- The loop of `find_prop_name_raw` on a chain: the first slot of the chain
whose name matches, moved to the head of the chain when another slot is before
it. -/
theorem raw_loop_result (name : WSTR) (ci : Bool) (bucket : Nat) (This : jsdisp_t) :
    ∀ (l : List Nat) (fuel pos prev : Nat), is_chain This.props pos l → l.length < fuel →
      find_prop_name_raw_loop name ci bucket fuel This pos prev =
        some (match l.find? (fun p => name_match ci name (slot This p).name) with
          | none => (This, none)
          | some x =>
            (if pred_in prev l x ≠ NIL then move_front This bucket (pred_in prev l x) x else This,
              some x)) := by
  intro l
  induction l with
  | nil =>
    intro fuel pos prev hc hf
    cases fuel with
    | zero => omega
    | succ n => simp [is_chain] at hc; simp [find_prop_name_raw_loop, hc]
  | cons x l ih =>
    intro fuel pos prev hc hf
    cases fuel with
    | zero => simp at hf
    | succ n =>
      obtain ⟨hp, rfl, hc'⟩ := hc
      simp only [find_prop_name_raw_loop, hp, if_false, List.find?_cons]
      by_cases hm : name_match ci name (slot This x).name = true
      · simp only [hm, if_true, pred_in]
        split <;> rfl
      · simp only [hm, Bool.false_eq_true, if_false]
        have := ih n (slot This x).bucket_next x (by simpa [slot] using hc') (by simpa using hf)
        rw [this]
        cases hfd : l.find? (fun p => name_match ci name (slot This p).name) with
        | none => rfl
        | some y =>
          have hy : name_match ci name (slot This y).name = true := by
            have := List.find?_some hfd
            simpa using this
          have hne : ¬ (x = y) := by
            intro e; rw [e] at hm; exact hm hy
          simp only [pred_in, hne, if_false]
theorem slot_set_slot_keep {α : Type} (g : dispex_prop_t → α) (This : jsdisp_t) (i j : Nat)
    (f : dispex_prop_t → dispex_prop_t) (hf : ∀ q, g (f q) = g q) :
    g (slot (set_slot This i f) j) = g (slot This j) := by
  rw [slot_set_slot]
  split
  · next h => rw [hf, h.1]
  · rfl

theorem move_front_length (This : jsdisp_t) (b pv x : Nat) :
    (move_front This b pv x).props.length = This.props.length := by
  simp only [move_front, set_slot_length]

theorem move_front_fields (This : jsdisp_t) (b pv x : Nat) :
    move_front This b pv x = { This with props := (move_front This b pv x).props } := rfl

theorem move_front_name (This : jsdisp_t) (b pv x i : Nat) :
    (slot (move_front This b pv x) i).name = (slot This i).name := by
  unfold move_front
  exact (slot_set_slot_keep (fun q => q.name) _ _ _ _ (by intro q; rfl)).trans
    ((slot_set_slot_keep (fun q => q.name) _ _ _ _ (by intro q; rfl)).trans
      (slot_set_slot_keep (fun q => q.name) _ _ _ _ (by intro q; rfl)))

theorem move_front_hash (This : jsdisp_t) (b pv x i : Nat) :
    (slot (move_front This b pv x) i).hash = (slot This i).hash := by
  unfold move_front
  exact (slot_set_slot_keep (fun q => q.hash) _ _ _ _ (by intro q; rfl)).trans
    ((slot_set_slot_keep (fun q => q.hash) _ _ _ _ (by intro q; rfl)).trans
      (slot_set_slot_keep (fun q => q.hash) _ _ _ _ (by intro q; rfl)))

theorem move_front_head (This : jsdisp_t) (b pv x i : Nat) (hb : b < This.props.length) :
    (slot (move_front This b pv x) i).bucket_head
      = if i = b then x else (slot This i).bucket_head := by
  unfold move_front
  simp only
  rw [slot_set_slot]
  by_cases hi : i = b
  · rw [if_pos ⟨hi, by simpa only [set_slot_length] using hb⟩, if_pos hi]
  · rw [if_neg (fun h => hi h.1), if_neg hi]
    exact (slot_set_slot_keep (fun q => q.bucket_head) _ _ _ _ (by intro q; rfl)).trans
      (slot_set_slot_keep (fun q => q.bucket_head) _ _ _ _ (by intro q; rfl))

theorem move_front_next (This : jsdisp_t) (b pv x i : Nat) (hpv : pv < This.props.length)
    (hx : x < This.props.length) :
    (slot (move_front This b pv x) i).bucket_next
      = if i = x then (slot This b).bucket_head
        else if i = pv then (slot This x).bucket_next else (slot This i).bucket_next := by
  unfold move_front
  simp only
  refine (slot_set_slot_keep (fun q => q.bucket_next) _ _ _ _ (by intro q; rfl)).trans ?_
  rw [slot_set_slot]
  by_cases hi : i = x
  · rw [if_pos ⟨hi, by simpa only [set_slot_length] using hx⟩, if_pos hi]
    exact slot_set_slot_keep (fun q => q.bucket_head) _ _ _ _ (by intro q; rfl)
  · rw [if_neg (fun h => hi h.1), if_neg hi, slot_set_slot]
    by_cases hp : i = pv
    · rw [if_pos ⟨hp, hpv⟩, if_pos hp]
    · rw [if_neg (fun h => hp h.1), if_neg hp]

/-- The chain of the bucket after the move: the slot found, then the slots that
were before it, then the slots that were after it. -/
theorem move_front_chain (This : jsdisp_t) (b pv x : Nat) (A R : List Nat)
    (hb : b < This.props.length) (hlt : ∀ i ∈ A ++ pv :: x :: R, i < This.props.length)
    (hnd : (A ++ pv :: x :: R).Nodup)
    (hc : is_chain This.props (slot This b).bucket_head (A ++ pv :: x :: R)) :
    is_chain (move_front This b pv x).props (slot (move_front This b pv x) b).bucket_head
      (x :: (A ++ pv :: R)) := by
  have hpvl : pv < This.props.length := hlt pv (by simp)
  have hxl : x < This.props.length := hlt x (by simp)
  have hnd' := hnd
  rw [List.nodup_append] at hnd'
  obtain ⟨_, hnd2, hdis⟩ := hnd'
  have hpx : pv ≠ x := by
    intro e
    rw [e] at hnd2
    simp at hnd2
  have hnext : ∀ i, ((move_front This b pv x).props.getD i dispex_prop_t.zero).bucket_next
      = if i = x then (slot This b).bucket_head
        else if i = pv then (slot This x).bucket_next else (slot This i).bucket_next :=
    fun i => move_front_next This b pv x i hpvl hxl
  rw [is_chain_iff_seg] at hc ⊢
  rw [is_seg_append] at hc
  obtain ⟨m, hA, hrest⟩ := hc
  obtain ⟨hpv0, hm, hrest⟩ := hrest
  subst hm
  obtain ⟨hx0, hxe, hR⟩ := hrest
  rw [move_front_head This b _ x b hb, if_pos rfl]
  refine ⟨?_, rfl, ?_⟩
  · rw [hxe]; exact hx0
  · rw [hnext x, if_pos rfl, is_seg_append]
    refine ⟨pv, ?_, hpv0, rfl, ?_⟩
    · apply is_seg_congr A _ _ _ hA
      intro y hy
      have hyx : y ≠ x := by
        intro e; subst e
        exact hdis hy (by simp)
      have hyp : y ≠ pv := by
        intro e; subst e
        exact hdis hy (by simp)
      rw [hnext y, if_neg hyx, if_neg hyp]
      rfl
    · rw [hnext pv, if_neg hpx, if_pos rfl]
      have hR' : is_seg This.props (slot This x).bucket_next R NIL := by
        rw [hxe]; exact hR
      apply is_seg_congr R _ _ _ hR'
      intro y hy
      have hyx : y ≠ x := by
        intro e; subst e
        have : (pv :: y :: R).Nodup := hnd2
        simp at this
        exact this.2.1 hy
      have hyp : y ≠ pv := by
        intro e; subst e
        have : (y :: x :: R).Nodup := hnd2
        simp at this
        exact this.1.2 hy
      rw [hnext y, if_neg hyx, if_neg hyp]
      rfl
theorem pred_in_split : ∀ (l : List Nat) (prev x : Nat), x ∈ l →
    (pred_in prev l x = prev ∧ ∃ R, l = x :: R) ∨
      ∃ A R, l = A ++ pred_in prev l x :: x :: R := by
  intro l
  induction l with
  | nil => intro prev x hx; cases hx
  | cons y rest ih =>
    intro prev x hx
    by_cases hy : y = x
    · left
      subst hy
      exact ⟨by simp [pred_in], rest, rfl⟩
    · right
      have hx' : x ∈ rest := by
        rcases List.mem_cons.1 hx with e | e
        · exact absurd e.symm hy
        · exact e
      simp only [pred_in, hy, if_false]
      rcases ih y x hx' with ⟨h1, R, h2⟩ | ⟨A, R, h2⟩
      · refine ⟨[], R, ?_⟩
        rw [h1, h2]
        rfl
      · refine ⟨y :: A, R, ?_⟩
        rw [List.cons_append, ← h2]

theorem move_front_wf (o : jsdisp_t) (b pv x : Nat) (A R : List Nat) (hwf : props_wf o)
    (hb : b < o.buf_size) (hl : bucket_chain o b = some (A ++ pv :: x :: R)) :
    props_wf (move_front o b pv x) := by
  obtain ⟨hlen, h4, hpow, hcnt, hhash, hch⟩ := hwf
  have hcb := hch b hb
  unfold chain_ok at hcb
  rw [hl] at hcb
  obtain ⟨hnd, hin, hall⟩ := hcb
  have hcf := chain_from_is_chain _ _ _ _ hl
  have hblen : b < o.props.length := by rw [hlen]; exact hb
  have hlt : ∀ i ∈ A ++ pv :: x :: R, i < o.props.length := by
    intro i hi
    have := (hin i hi).1
    omega
  have hpvl : pv < o.props.length := hlt pv (by simp)
  have hxl : x < o.props.length := hlt x (by simp)
  have hnew := move_front_chain o b pv x A R hblen hlt hnd hcf.1
  have hperm : ∀ i, i ∈ x :: (A ++ pv :: R) ↔ i ∈ A ++ pv :: x :: R := by
    intro i
    simp only [List.mem_cons, List.mem_append]
    tauto
  have hnd1 : (x :: (A ++ pv :: R)).Nodup := by
    have h0 := hnd
    rw [List.nodup_append] at h0
    obtain ⟨hA, h2, hdis⟩ := h0
    rw [List.nodup_cons] at h2 ⊢
    obtain ⟨hpvn, h3⟩ := h2
    rw [List.nodup_cons] at h3
    obtain ⟨hxn, hR⟩ := h3
    refine ⟨?_, ?_⟩
    · simp only [List.mem_append, List.mem_cons, not_or]
      refine ⟨fun hxA => hdis hxA (by simp), fun e => hpvn (by rw [e]; simp), hxn⟩
    · rw [List.nodup_append]
      refine ⟨hA, ?_, ?_⟩
      · rw [List.nodup_cons]
        exact ⟨fun h => hpvn (List.mem_cons_of_mem _ h), hR⟩
      · intro i hiA hi2
        apply hdis hiA
        rcases List.mem_cons.1 hi2 with e | e
        · rw [e]; simp
        · simp [e]
  refine ⟨by rw [move_front_length]; exact hlen, h4, hpow, hcnt, ?_, ?_⟩
  · intro i hi
    rw [move_front_hash, move_front_name]
    exact hhash i hi
  · intro b1 hb1
    have hb1' : b1 < o.buf_size := hb1
    unfold chain_ok bucket_chain
    by_cases hbb : b1 = b
    · subst hbb
      rw [move_front_length, is_chain_chain_from _ _ _ _ hnew (by
        have h1 := nodup_length_le hnd1 (fun i hi => hlt i ((hperm i).1 hi))
        omega)]
      refine ⟨hnd1, ?_, ?_⟩
      · intro i hi
        rw [move_front_hash]
        exact hin i ((hperm i).1 hi)
      · intro i hi hbi
        rw [move_front_hash] at hbi
        exact (hperm i).2 (hall i hi hbi)
    · have hc1 := hch b1 hb1'
      unfold chain_ok at hc1
      cases hl1 : bucket_chain o b1 with
      | none => rw [hl1] at hc1; exact hc1.elim
      | some l1 =>
        rw [hl1] at hc1
        obtain ⟨hnd', hin', hall'⟩ := hc1
        have hcf1 := chain_from_is_chain _ _ _ _ hl1
        have hkeep : ∀ y ∈ l1, ((move_front o b pv x).props.getD y dispex_prop_t.zero).bucket_next
            = (o.props.getD y dispex_prop_t.zero).bucket_next := by
          intro y hy
          have hyb := (hin' y hy).2
          have hyx : y ≠ x := by
            intro e
            rw [e, (hin x (by simp)).2] at hyb
            exact hbb hyb.symm
          have hyp : y ≠ pv := by
            intro e
            rw [e, (hin pv (by simp)).2] at hyb
            exact hbb hyb.symm
          have := move_front_next o b pv x y hpvl hxl
          rw [if_neg hyx, if_neg hyp] at this
          exact this
        have hc2 : is_chain (move_front o b pv x).props (slot (move_front o b pv x) b1).bucket_head
            l1 := by
          rw [move_front_head o b pv x b1 hblen, if_neg hbb, is_chain_iff_seg]
          exact is_seg_congr l1 _ _ hkeep ((is_chain_iff_seg _ _ _).1 hcf1.1)
        rw [move_front_length, is_chain_chain_from _ _ _ _ hc2 hcf1.2]
        refine ⟨hnd', ?_, ?_⟩
        · intro i hi
          rw [move_front_hash]
          exact hin' i hi
        · intro i hi hbi
          rw [move_front_hash] at hbi
          exact hall' i hi hbi
/-- The own-table lookup in a well-formed table returns, leaves the table well
formed, and finds a slot when a slot of the bucket has a matching name. -/
theorem raw_lookup_wf (o : jsdisp_t) (hash : Nat) (name : WSTR) (ci : Bool) (hwf : props_wf o) :
    ∃ o1 r, find_prop_name_raw o hash name ci = some (o1, r) ∧ props_wf o1 ∧
      (∀ j, r = some j → j < o.prop_cnt) ∧
      ((∃ i, i < o.prop_cnt ∧ get_props_idx o (slot o i).hash = get_props_idx o hash ∧
        name_match ci name (slot o i).name = true) → r.isSome = true) := by
  have hwf0 := hwf
  obtain ⟨hlen, h4, _, hcnt, _, hch⟩ := hwf
  have hb := get_props_idx_lt o hash (by omega)
  have hc := hch _ hb
  unfold chain_ok at hc
  cases hbc : bucket_chain o (get_props_idx o hash) with
  | none => rw [hbc] at hc; exact hc.elim
  | some l =>
    rw [hbc] at hc
    obtain ⟨hnd, hin, hall⟩ := hc
    have hcf := chain_from_is_chain _ _ _ _ hbc
    have hres := raw_loop_result name ci (get_props_idx o hash) o l (o.props.length + 1)
      (slot o (get_props_idx o hash)).bucket_head NIL hcf.1 hcf.2
    unfold find_prop_name_raw
    simp only
    rw [hres]
    cases hfd : l.find? (fun p => name_match ci name (slot o p).name) with
    | none =>
      refine ⟨o, none, rfl, hwf0, (fun j hj => nomatch hj), ?_⟩
      rintro ⟨i, hi, hbi, hm⟩
      have := List.find?_eq_none.1 hfd i (hall i hi hbi)
      exact (this hm).elim
    | some x =>
      have hx : x ∈ l := List.mem_of_find?_eq_some hfd
      refine ⟨_, some x, rfl, ?_, ?_, fun _ => rfl⟩
      · split
        · next hp =>
          rcases pred_in_split l NIL x hx with ⟨h1, _⟩ | ⟨A, R, h2⟩
          · exact absurd h1 hp
          · rw [h2] at hbc
            exact move_front_wf o _ _ x A R hwf0 hb hbc
        · exact hwf0
      · intro j hj
        injection hj with hj
        subst hj
        exact (hin x hx).1
theorem chain_from_congr {props props1 : List dispex_prop_t}
    (h : ∀ i, (props1.getD i dispex_prop_t.zero).bucket_next
      = (props.getD i dispex_prop_t.zero).bucket_next) :
    ∀ (fuel pos : Nat), chain_from props1 fuel pos = chain_from props fuel pos := by
  intro fuel
  induction fuel with
  | zero => intro pos; rfl
  | succ n ih =>
    intro pos
    simp only [chain_from, h, ih]

/-- A table with the same names, hashes and links is well formed as well. -/
theorem props_wf_links {o o1 : jsdisp_t} (he : o1 = { o with props := o1.props })
    (hl : o1.props.length = o.props.length)
    (hs : ∀ i, (slot o1 i).name = (slot o i).name ∧ (slot o1 i).hash = (slot o i).hash ∧
      (slot o1 i).bucket_head = (slot o i).bucket_head ∧
      (slot o1 i).bucket_next = (slot o i).bucket_next)
    (hwf : props_wf o) : props_wf o1 := by
  obtain ⟨hlen, h4, hpow, hcnt, hhash, hch⟩ := hwf
  have hb : o1.buf_size = o.buf_size := by rw [he]
  have hc : o1.prop_cnt = o.prop_cnt := by rw [he]
  have hidx : ∀ h, get_props_idx o1 h = get_props_idx o h := by
    intro h; unfold get_props_idx; rw [hb]
  refine ⟨by rw [hl, hb]; exact hlen, by rw [hb]; exact h4, by rw [hb]; exact hpow,
    by rw [hb, hc]; exact hcnt, ?_, ?_⟩
  · intro i hi
    rw [(hs i).1, (hs i).2.1]
    exact hhash i (by rw [← hc]; exact hi)
  · intro b hbb
    have := hch b (by rw [← hb]; exact hbb)
    unfold chain_ok bucket_chain at this ⊢
    rw [hl, (hs b).2.2.1, chain_from_congr (fun i => (hs i).2.2.2)]
    cases hcf : chain_from o.props (o.props.length + 1) (slot o b).bucket_head with
    | none => rw [hcf] at this; exact this.elim
    | some l =>
      rw [hcf] at this
      obtain ⟨h1, h2, h3⟩ := this
      refine ⟨h1, ?_, ?_⟩
      · intro i hi
        rw [hc, (hs i).2.1, hidx]
        exact h2 i hi
      · intro i hi hbi
        rw [(hs i).2.1, hidx] at hbi
        exact h3 i (by rw [← hc]; exact hi) hbi

theorem names_kept_refl (o : jsdisp_t) : names_kept o o :=
  ⟨rfl, rfl, fun _ => ⟨rfl, rfl⟩⟩

theorem names_kept_trans {a b c : jsdisp_t} (h1 : names_kept a b) (h2 : names_kept b c) :
    names_kept a c := by
  refine ⟨?_, h2.2.1.trans h1.2.1, fun i => ⟨((h2.2.2 i).1).trans (h1.2.2 i).1,
    ((h2.2.2 i).2).trans (h1.2.2 i).2⟩⟩
  rw [h2.1, h1.1]

theorem names_kept_of_table_frame {a b : jsdisp_t} (h : table_frame a b) : names_kept a b :=
  ⟨h.1, h.2.1, fun i => ⟨(h.2.2 i).1, (h.2.2 i).2.1⟩⟩

theorem names_kept_fields {a b : jsdisp_t} (h : names_kept a b) :
    b.prop_cnt = a.prop_cnt ∧ b.buf_size = a.buf_size ∧ b.proxy = a.proxy ∧
      b.prototype = a.prototype ∧ b.builtin_info = a.builtin_info := by
  refine ⟨by rw [h.1], by rw [h.1], by rw [h.1], by rw [h.1], by rw [h.1]⟩

theorem has_name_kept {a b : jsdisp_t} (h : names_kept a b) {name : WSTR}
    (hn : has_name a name) : has_name b name := by
  obtain ⟨i, hi, he⟩ := hn
  exact ⟨i, by rw [(names_kept_fields h).1]; exact hi, by rw [(h.2.2 i).1]; exact he⟩

theorem override_idx_kept {a b : jsdisp_t} (h : names_kept a b) (name : WSTR) :
    override_idx b name = override_idx a name := by
  unfold override_idx
  rw [(names_kept_fields h).2.2.2.2]

theorem kept_refl (s : Store) : kept s s :=
  ⟨rfl, fun _ o ho => ⟨o, ho, names_kept_refl o, fun h => h⟩⟩

theorem kept_trans {a b c : Store} (h1 : kept a b) (h2 : kept b c) : kept a c := by
  refine ⟨h2.1.trans h1.1, ?_⟩
  intro y o ho
  obtain ⟨o1, ho1, hk1, hw1⟩ := h1.2 y o ho
  obtain ⟨o2, ho2, hk2, hw2⟩ := h2.2 y o1 ho1
  exact ⟨o2, ho2, names_kept_trans hk1 hk2, fun h => hw2 (hw1 h)⟩

theorem kept_set_obj {s : Store} {x : Nat} {o o1 : jsdisp_t} (ho : s.obj x = some o)
    (hk : names_kept o o1) (hw : props_wf o → props_wf o1) : kept s (s.set_obj x o1) := by
  refine ⟨by simp [Store.set_obj], ?_⟩
  intro y oy hy
  by_cases hyx : y = x
  · subst hyx
    rw [ho] at hy
    injection hy with hy
    subst hy
    exact ⟨o1, obj_set_obj_self ho _, hk, hw⟩
  · rw [obj_set_obj_ne s hyx]
    exact ⟨oy, hy, names_kept_refl _, fun h => h⟩

theorem kept_of_tomb {s s1 : Store} (h : tomb s s1) : kept s s1 := by
  refine ⟨h.1, ?_⟩
  intro y o ho
  obtain ⟨o1, ho1, he, hl, hk⟩ := h.2.2.2.2 y o ho
  have hs : ∀ i, (slot o1 i).name = (slot o i).name ∧ (slot o1 i).hash = (slot o i).hash ∧
      (slot o1 i).bucket_head = (slot o i).bucket_head ∧
      (slot o1 i).bucket_next = (slot o i).bucket_next := by
    intro i
    rcases hk i with e | ⟨_, _, e⟩ <;> rw [e] <;> exact ⟨rfl, rfl, rfl, rfl⟩
  exact ⟨o1, ho1, ⟨he, hl, fun i => ⟨(hs i).1, (hs i).2.1⟩⟩, props_wf_links he hl hs⟩
/-- The lookup of a name that the well-formed table of an object without proxy
has: it finds a slot, allocates nothing, and leaves the table well formed with
every slot under its name. -/
theorem find_prop_name_known {s : Store} {x : Nat} {o : jsdisp_t} {name : WSTR}
    (ho : s.obj x = some o) (hpx : o.proxy = none) (hwf : props_wf o) (hn : has_name o name)
    (hash : Nat) (hh : hash = string_hash name) :
    ∃ o1 j, find_prop_name s x hash name false = some (s.set_obj x o1, HRESULT.S_OK, some j) ∧
      names_kept o o1 ∧ props_wf o1 ∧ j < o.prop_cnt := by
  obtain ⟨o1, r, hraw, hwf1, hlt, hfound⟩ := raw_lookup_wf o hash name false hwf
  obtain ⟨i, hi, hni⟩ := hn
  have hsome := hfound ⟨i, hi, by rw [hwf.2.2.2.2.1 i hi, hni, hh], by
    rw [hni]; exact name_match_self _ _⟩
  cases r with
  | none => cases hsome
  | some j =>
    refine ⟨o1, j, ?_, names_kept_of_table_frame (raw_frame _ _ _ _ _ _ hraw).1, hwf1,
      hlt j rfl⟩
    unfold find_prop_name
    simp only [ho, hraw, hpx, Option.isSome_none, Bool.false_eq_true, if_false]

/-- The loop of `fill_props` on a table that has the names of the elements. -/
theorem fill_props_loop_known {x : Nat} : ∀ (l : List Nat) (s : Store) (o : jsdisp_t),
    s.obj x = some o → o.proxy = none → props_wf o →
    (∀ i ∈ l, has_name o (decimal_name i)) →
    ∃ s1 o1, fill_props_loop x l s = some (s1, HRESULT.S_OK) ∧ s1 = s.set_obj x o1 ∧
      names_kept o o1 ∧ props_wf o1 := by
  intro l
  induction l with
  | nil =>
    intro s o ho _ hwf _
    exact ⟨s, o, rfl, (set_obj_same ho).symm, names_kept_refl o, hwf⟩
  | cons i rest ih =>
    intro s o ho hpx hwf hn
    obtain ⟨o1, j, hf, hk1, hwf1, _⟩ := find_prop_name_known ho hpx hwf
      (hn i (List.mem_cons_self _ _)) _ rfl
    have ho1 : (s.set_obj x o1).obj x = some o1 := obj_set_obj_self ho _
    obtain ⟨s2, o2, hl2, hs2, hk2, hwf2⟩ := ih (s.set_obj x o1) o1 ho1
      (by rw [(names_kept_fields hk1).2.2.1]; exact hpx) hwf1
      (fun k hk => has_name_kept hk1 (hn k (List.mem_cons_of_mem _ hk)))
    refine ⟨s2, o2, ?_, ?_, names_kept_trans hk1 hk2, hwf2⟩
    · simp only [fill_props_loop, hf, FAILED, Bool.false_eq_true, if_false, hl2]
    · rw [hs2, set_obj_set_obj]
theorem names_kept_set_slot (o : jsdisp_t) (j : Nat) (f : dispex_prop_t → dispex_prop_t)
    (hf : ∀ r, (f r).name = r.name ∧ (f r).hash = r.hash) : names_kept o (set_slot o j f) := by
  refine ⟨rfl, set_slot_length _ _ _, fun i => ?_⟩
  rw [slot_set_slot]
  split
  · next h => rw [h.1]; exact hf _
  · exact ⟨rfl, rfl⟩

theorem props_wf_set_slot (o : jsdisp_t) (j : Nat) (f : dispex_prop_t → dispex_prop_t)
    (hf : ∀ r, (f r).name = r.name ∧ (f r).hash = r.hash ∧ (f r).bucket_head = r.bucket_head ∧
      (f r).bucket_next = r.bucket_next) (hwf : props_wf o) : props_wf (set_slot o j f) := by
  refine props_wf_links rfl (set_slot_length _ _ _) (fun i => ?_) hwf
  rw [slot_set_slot]
  split
  · next h => rw [h.1]; exact hf _
  · exact ⟨rfl, rfl, rfl, rfl⟩

/-- The loop of `fill_protrefs` on a table that has the names of the slots of
the prototype. -/
theorem fill_protrefs_loop_known {p q : Nat} (hpq : q ≠ p) :
    ∀ (fuel : Nat) (s : Store) (k : Nat) (o oq : jsdisp_t),
      s.obj p = some o → s.obj q = some oq → o.proxy = none → props_wf o → props_wf oq →
      (∀ j, j < oq.prop_cnt →
        (override_idx o (slot oq j).name).isSome = true ∨ has_name o (slot oq j).name) →
      oq.prop_cnt - k < fuel →
      ∃ s1 o1, fill_protrefs_loop p q fuel s k = some (s1, HRESULT.S_OK) ∧
        s1 = s.set_obj p o1 ∧ names_kept o o1 ∧ props_wf o1 := by
  intro fuel
  induction fuel with
  | zero => intro s k o oq _ _ _ _ _ _ h; omega
  | succ fuel ih =>
    intro s k o oq ho hq hpx hwf hwfq hn hfuel
    simp only [fill_protrefs_loop, ho, hq]
    by_cases hk : k < oq.prop_cnt
    · rw [if_pos hk]
      by_cases hov : (override_idx o (slot oq k).name).isSome = true
      · rw [if_pos hov]
        exact ih s (k + 1) o oq ho hq hpx hwf hwfq hn (by omega)
      · rw [if_neg hov]
        have hnk : has_name o (slot oq k).name := by
          rcases hn k hk with h | h
          · exact absurd h hov
          · exact h
        obtain ⟨o1, j, hf, hk1, hwf1, _⟩ := find_prop_name_known ho hpx hwf hnk
          (slot oq k).hash (hwfq.2.2.2.2.1 k hk)
        have ho1 : (s.set_obj p o1).obj p = some o1 := obj_set_obj_self ho _
        have hpx1 : o1.proxy = none := by rw [(names_kept_fields hk1).2.2.1]; exact hpx
        have hn1 : ∀ j, j < oq.prop_cnt →
            (override_idx o1 (slot oq j).name).isSome = true ∨ has_name o1 (slot oq j).name := by
          intro j hj
          rcases hn j hj with h | h
          · left; rw [override_idx_kept hk1]; exact h
          · right; exact has_name_kept hk1 h
        simp only [hf, FAILED, Bool.false_eq_true, if_false, ho1]
        by_cases hd : (slot o1 j).type = prop_type_t.PROP_DELETED
        · rw [if_pos hd]
          simp only [store_set_slot, ho1, Option.some_bind]
          have hk2 := names_kept_set_slot o1 j (fun r =>
            { r with type := prop_type_t.PROP_PROTREF, flags := 0, u := prop_u.ref k })
            (fun _ => ⟨rfl, rfl⟩)
          have hwf2 := props_wf_set_slot o1 j (fun r =>
            { r with type := prop_type_t.PROP_PROTREF, flags := 0, u := prop_u.ref k })
            (fun _ => ⟨rfl, rfl, rfl, rfl⟩) hwf1
          obtain ⟨s3, o3, hl3, hs3, hk3, hwf3⟩ := ih _ (k + 1) _ oq
            (obj_set_obj_self ho1 _)
            (by rw [obj_set_obj_ne _ hpq, obj_set_obj_ne _ hpq]; exact hq)
            (by rw [(names_kept_fields hk2).2.2.1]; exact hpx1) hwf2 hwfq
            (fun j hj => by
              rcases hn1 j hj with h | h
              · left; rw [override_idx_kept hk2]; exact h
              · right; exact has_name_kept hk2 h) (by omega)
          refine ⟨s3, o3, hl3, ?_, names_kept_trans hk1 (names_kept_trans hk2 hk3), hwf3⟩
          rw [hs3, set_obj_set_obj, set_obj_set_obj]
        · rw [if_neg hd]
          obtain ⟨s3, o3, hl3, hs3, hk3, hwf3⟩ := ih _ (k + 1) o1 oq ho1
            (by rw [obj_set_obj_ne _ hpq]; exact hq) hpx1 hwf1 hwfq hn1 (by omega)
          refine ⟨s3, o3, hl3, ?_, names_kept_trans hk1 hk3, hwf3⟩
          rw [hs3, set_obj_set_obj]
    · rw [if_neg hk]
      exact ⟨s, o, rfl, (set_obj_same ho).symm, names_kept_refl o, hwf⟩
theorem kept_chain {s s1 : Store} (h : kept s s1) : ∀ (n : Nat) (q : Option Nat) (l : List Nat),
    proto_chain s n q = some l → proto_chain s1 n q = some l := by
  intro n
  induction n with
  | zero => intro q l hl; simp [proto_chain] at hl
  | succ n ih =>
    intro q l hl
    cases q with
    | none => simpa [proto_chain] using hl
    | some x =>
      simp only [proto_chain] at hl ⊢
      cases ho : s.obj x with
      | none => simp [ho] at hl
      | some o =>
        obtain ⟨o1, ho1, hk, _⟩ := h.2 x o ho
        simp only [ho, Option.map_eq_some'] at hl
        obtain ⟨l1, hl1, rfl⟩ := hl
        simp only [ho1, (names_kept_fields hk).2.2.2.1, ih _ _ hl1, Option.map_some']

theorem obj_filled_kept {s s1 : Store} (h : kept s s1) {x : Nat} (hf : obj_filled s x) :
    obj_filled s1 x := by
  unfold obj_filled at hf ⊢
  cases ho : s.obj x with
  | none => rw [ho] at hf; exact hf.elim
  | some o =>
    rw [ho] at hf
    obtain ⟨hpx, hwf, hidx, hpr⟩ := hf
    obtain ⟨o1, ho1, hk, hw⟩ := h.2 x o ho
    obtain ⟨_, _, e3, e4, e5⟩ := names_kept_fields hk
    rw [ho1]
    refine ⟨by rw [e3]; exact hpx, hw hwf, ?_, ?_⟩
    · unfold idx_names_in at hidx ⊢
      rw [e5]
      cases hlen : o.builtin_info.idx_length with
      | none => trivial
      | some len =>
        rw [hlen] at hidx
        exact fun i hi => has_name_kept hk (hidx i hi)
    · unfold proto_names_in at hpr ⊢
      rw [e4]
      cases hq : o.prototype with
      | none => trivial
      | some q =>
        rw [hq] at hpr
        simp only at hpr ⊢
        cases hoq : s.obj q with
        | none => rw [hoq] at hpr; exact hpr.elim
        | some oq =>
          rw [hoq] at hpr
          obtain ⟨oq1, hoq1, hkq, _⟩ := h.2 q oq hoq
          rw [hoq1]
          intro k hk1
          rw [(hkq.2.2 k).1, override_idx_kept hk]
          rcases hpr k (by rw [← (names_kept_fields hkq).1]; exact hk1) with e | e
          · exact Or.inl e
          · exact Or.inr (has_name_kept hk e)

theorem filled_kept {s s1 : Store} (h : kept s s1) {l : List Nat} (hf : filled s l) :
    filled s1 l :=
  fun x hx => obj_filled_kept h (hf x hx)

theorem fill_props_known {s : Store} {x : Nat} {o : jsdisp_t} (ho : s.obj x = some o)
    (hpx : o.proxy = none) (hwf : props_wf o) (hidx : idx_names_in o) :
    ∃ o1, fill_props s x = some (s.set_obj x o1, HRESULT.S_OK) ∧ names_kept o o1 ∧
      props_wf o1 := by
  unfold fill_props
  simp only [ho, hpx, Option.isSome_none, Bool.false_eq_true, if_false]
  unfold idx_names_in at hidx
  cases hlen : o.builtin_info.idx_length with
  | none =>
    refine ⟨o, ?_, names_kept_refl o, hwf⟩
    rw [set_obj_same ho]
  | some len =>
    rw [hlen] at hidx
    obtain ⟨s1, o1, h1, h2, h3, h4⟩ := fill_props_loop_known (List.range len) s o ho hpx hwf
      (fun i hi => hidx i (List.mem_range.1 hi))
    refine ⟨o1, ?_, h3, h4⟩
    simp only [h1, h2]

/-- The function `fill_protrefs` on objects that are as a fill leaves them: it
returns `S_OK`, allocates nothing, and leaves every slot under its name. -/
theorem fill_protrefs_known : ∀ (l : List Nat) (n x : Nat) (s : Store),
    proto_chain s n (some x) = some l → filled s l → ∀ fuel, l.length ≤ fuel →
    ∃ s1, fill_protrefs_fuel fuel s x = some (s1, HRESULT.S_OK) ∧ kept s s1 := by
  intro l
  induction l with
  | nil =>
    intro n x s hl
    obtain ⟨_, _, _, _, _, h⟩ := proto_chain_cons hl
    cases h
  | cons y l1 ih =>
    intro n x s hl hf fuel hfuel
    have hnd := proto_chain_nodup _ _ _ hl
    obtain ⟨o, l1', m, ho, hl1, he⟩ := proto_chain_cons hl
    injection he with hy hl1e
    subst hy hl1e
    cases fuel with
    | zero => simp at hfuel
    | succ fuel =>
      have hfx := hf y (List.mem_cons_self _ _)
      unfold obj_filled at hfx
      rw [ho] at hfx
      obtain ⟨hpx, hwf, hidx, _⟩ := hfx
      obtain ⟨o1, hfp, hk1, hwf1⟩ := fill_props_known ho hpx hwf hidx
      have hkept1 : kept s (s.set_obj y o1) := kept_set_obj ho hk1 (fun _ => hwf1)
      have ho1 : (s.set_obj y o1).obj y = some o1 := obj_set_obj_self ho _
      simp only [fill_protrefs_fuel, hfp, FAILED, Bool.false_eq_true, if_false, ho1,
        (names_kept_fields hk1).2.2.2.1]
      cases hq : o.prototype with
      | none => exact ⟨_, rfl, hkept1⟩
      | some q =>
        simp only
        rw [hq] at hl1
        obtain ⟨s2, hr, hkept2⟩ := ih m q (s.set_obj y o1) (kept_chain hkept1 _ _ _ hl1)
          (filled_kept hkept1 (fun z hz => hf z (List.mem_cons_of_mem _ hz))) fuel
          (by simpa using hfuel)
        have hkept02 := kept_trans hkept1 hkept2
        have hf2 := filled_kept hkept02 hf
        have hqm : q ∈ l1 := by
          obtain ⟨_, _, _, _, _, e⟩ := proto_chain_cons hl1
          rw [e]; exact List.mem_cons_self _ _
        have hqy : q ≠ y := by
          intro e
          rw [e] at hqm
          exact (List.nodup_cons.1 hnd).1 hqm
        have hfy := hf2 y (List.mem_cons_self _ _)
        unfold obj_filled at hfy
        obtain ⟨o2, ho2, hk02, _⟩ := hkept02.2 y o ho
        rw [ho2] at hfy
        obtain ⟨hpx2, hwf2, _, hpr2⟩ := hfy
        unfold proto_names_in at hpr2
        rw [(names_kept_fields hk02).2.2.2.1, hq] at hpr2
        simp only at hpr2
        cases hoq2 : s2.obj q with
        | none => rw [hoq2] at hpr2; exact hpr2.elim
        | some oq2 =>
          rw [hoq2] at hpr2
          have hfq := hf2 q (List.mem_cons_of_mem _ hqm)
          unfold obj_filled at hfq
          rw [hoq2] at hfq
          obtain ⟨s3, o3, hl3, hs3, hk3, hwf3⟩ := fill_protrefs_loop_known hqy
            (oq2.prop_cnt + 1) s2 0 o2 oq2 ho2 hoq2 hpx2 hwf2 hfq.2.1 hpr2 (by omega)
          refine ⟨s3, ?_, ?_⟩
          · simp only [hr, FAILED, Bool.false_eq_true, if_false, hoq2, hl3]
          · rw [hs3]
            exact kept_trans hkept02 (kept_set_obj ho2 hk3 (fun _ => hwf3))
theorem fill_done_kept {enum_type : jsdisp_enum_type} {s s1 : Store} {p : Nat} {l : List Nat}
    (h : kept s s1) (hf : fill_done enum_type s p l) : fill_done enum_type s1 p l := by
  unfold fill_done at hf ⊢
  split
  · next e => rw [if_pos e] at hf; exact filled_kept h hf
  · next e =>
    rw [if_neg e] at hf
    unfold own_filled at hf ⊢
    cases ho : s.obj p with
    | none => rw [ho] at hf; exact hf.elim
    | some o =>
      rw [ho] at hf
      obtain ⟨hpx, hwf, hidx⟩ := hf
      obtain ⟨o1, ho1, hk, hw⟩ := h.2 p o ho
      rw [ho1]
      refine ⟨by rw [(names_kept_fields hk).2.2.1]; exact hpx, hw hwf, ?_⟩
      unfold idx_names_in at hidx ⊢
      rw [(names_kept_fields hk).2.2.2.2]
      cases hlen : o.builtin_info.idx_length with
      | none => trivial
      | some len =>
        rw [hlen] at hidx
        exact fun i hi => has_name_kept hk (hidx i hi)

/-- The first block of a call at the end of the table, on objects that are as
the fill of the mode leaves them: the fill adds no slot and the call returns
`S_FALSE`. -/
theorem next_prop_start_filled (enum_type : jsdisp_enum_type) {s : Store} {p : Nat}
    {o : jsdisp_t} {n : Nat} {l : List Nat} (ho : s.obj p = some o)
    (hl : proto_chain s n (some p) = some l) (hf : fill_done enum_type s p l)
    (h32 : o.prop_cnt < 4294967296) :
    ∃ s1, next_prop_start s p (o.prop_cnt : Int) enum_type = some (s1, HRESULT.S_FALSE, none) := by
  have hmod : ((o.prop_cnt : Int) % 4294967296).toNat = o.prop_cnt := by omega
  have hne : ¬ ((o.prop_cnt : Int) = DISPID_STARTENUM) := by unfold DISPID_STARTENUM; omega
  have hfill : ∃ s1, (if enum_type = jsdisp_enum_type.JSDISP_ENUM_ALL then fill_protrefs s p
      else fill_props s p) = some (s1, HRESULT.S_OK) ∧ kept s s1 := by
    unfold fill_done at hf
    split
    · next e =>
      rw [if_pos e] at hf
      unfold fill_protrefs
      exact fill_protrefs_known l n p s hl hf _ (by have := proto_chain_length hl; omega)
    · next e =>
      rw [if_neg e] at hf
      unfold own_filled at hf
      rw [ho] at hf
      obtain ⟨o1, h1, h2, h3⟩ := fill_props_known ho hf.1 hf.2.1 hf.2.2
      exact ⟨_, h1, kept_set_obj ho h2 (fun _ => h3)⟩
  obtain ⟨s1, hfl, hk⟩ := hfill
  obtain ⟨o1, ho1, hk1, _⟩ := hk.2 p o ho
  refine ⟨s1, ?_⟩
  unfold next_prop_start
  simp only [ho, hmod, hne, false_or, ge_iff_le, le_refl, if_true, hfl, FAILED,
    Bool.false_eq_true, if_false, ho1, (names_kept_fields hk1).1]

theorem jsdisp_next_prop_early {s : Store} {p : Nat} {id : Int} {enum_type : jsdisp_enum_type}
    {s1 : Store} {hres : HRESULT}
    (h : next_prop_start s p id enum_type = some (s1, hres, none)) :
    jsdisp_next_prop s p id enum_type = some (s1, hres, none) := by
  simp only [jsdisp_next_prop, jsdisp_next_prop_fuel, h]

/-- C19. Let the first block of `jsdisp_next_prop` (the fill, where the id is
`DISPID_STARTENUM` or at the end of the table) end without failure in the store
`s1`, for an object without proxy outside HTML mode whose prototype chain ends,
and let `id` be `DISPID_STARTENUM` or a previous id.  The call returns `S_OK`
with the id `k + 1` of the lowest slot `k` with `id ≤ k` that passes the filter
of the mode in `s1` (so no tombstone, and from 0 on at the start), and `S_FALSE`
when no such slot passes; the id returned is greater than `id`, the slot is no
tombstone after the call, and the store differs from `s1` by tombstones only.
The iteration from `DISPID_STARTENUM` returns the ids of the passing slots of
`s1`, each once and in storage order, and ends; for the mode
`JSDISP_ENUM_ALL` on an object with a prototype and for a class with indexed
elements this is shown where the objects are in `s1` as the fill of the mode
leaves them: without proxy, with well-formed tables that have the names the
fill looks up, so that the fill of the call at the end of the table adds no
slot. -/
theorem next_prop_order (s : Store) (p : Nat) (id : Int) (enum_type : jsdisp_enum_type)
    (s1 : Store) (hres : HRESULT) (start : Option Nat) (o1 : jsdisp_t) (n : Nat) (l : List Nat)
    (hstart : next_prop_start s p id enum_type = some (s1, hres, start))
    (hok : FAILED hres = false)
    (ho1 : s1.obj p = some o1) (hpx : o1.proxy = none) (hhtml : s1.ctx.html_mode = false)
    (hl : proto_chain s1 n (some p) = some l) (hwf : protrefs_wf s1 l)
    (h32 : o1.prop_cnt < 4294967296)
    (hid : id = DISPID_STARTENUM ∨ (0 ≤ id ∧ id < 4294967296)) :
    (∃ s2, tomb s1 s2 ∧
      ((∀ k : Nat, id ≤ (k : Int) → ¬ enum_passes enum_type s1 p k) →
        jsdisp_next_prop s p id enum_type = some (s2, HRESULT.S_FALSE, none)) ∧
      (∀ k : Nat, id ≤ (k : Int) → enum_passes enum_type s1 p k →
        (∀ j : Nat, id ≤ (j : Int) → j < k → ¬ enum_passes enum_type s1 p j) →
        jsdisp_next_prop s p id enum_type = some (s2, HRESULT.S_OK, some (prop_to_id k)) ∧
        id < prop_to_id k ∧
        ∃ o2, s2.obj p = some o2 ∧ (slot o2 k).type ≠ prop_type_t.PROP_DELETED)) ∧
    (id = DISPID_STARTENUM →
      (((enum_type = jsdisp_enum_type.JSDISP_ENUM_ALL ∧ o1.prototype ≠ none) ∨
          o1.builtin_info.idx_length ≠ none) → fill_done enum_type s1 p l) →
      ∀ fuel, o1.prop_cnt + 1 < fuel →
        enum_from enum_type p fuel s DISPID_STARTENUM
          = some (((List.range o1.prop_cnt).filter
              fun k => decide (enum_passes enum_type s1 p k)).map prop_to_id)) := by
  obtain ⟨o1', ho1', hnone, hsome⟩ := next_prop_start_cases hstart hok
  rw [ho1] at ho1'
  injection ho1' with ho1'
  subst ho1'
  have hidx : ∀ k : Nat, id ≤ (k : Int) ↔
      (if id = DISPID_STARTENUM then 0 else (id % 4294967296).toNat) ≤ k := by
    intro k
    rcases hid with e | ⟨h1, h2⟩
    · rw [if_pos e, e]
      unfold DISPID_STARTENUM
      omega
    · have hne : ¬ (id = DISPID_STARTENUM) := by unfold DISPID_STARTENUM; omega
      rw [if_neg hne]
      omega
  constructor
  · cases start with
    | none =>
      obtain ⟨hS, hle⟩ := hnone rfl
      subst hS
      refine ⟨s1, tomb_refl s1, fun _ => jsdisp_next_prop_early hstart, ?_⟩
      intro k hk hp _
      have := ((enum_passes_def ho1).1 hp).1
      have := (hidx k).1 hk
      omega
    | some idx =>
      obtain ⟨hi, _⟩ := hsome idx rfl
      obtain ⟨s2, r, hr, ht2, hrs, hrn⟩ := next_prop_call enum_type p s1 o1 n l ho1 hpx hhtml hl
        hwf s id s1 hres idx (s.avail + 1) hstart (tomb_refl s1)
      refine ⟨s2, ht2, ?_, ?_⟩
      · intro hno
        cases r with
        | none => exact hr
        | some k =>
          obtain ⟨h1, h2, _⟩ := hrs k rfl
          exact absurd h2 (hno k ((hidx k).2 (by rw [← hi]; exact h1)))
      · intro k hk hp hj
        have hik : idx ≤ k := by rw [hi]; exact (hidx k).1 hk
        cases r with
        | none => exact absurd hp (hrn rfl k hik)
        | some k1 =>
          obtain ⟨h1, h2, h3, h4⟩ := hrs k1 rfl
          have hkk : k1 = k := by
            by_contra hne
            rcases Nat.lt_or_gt_of_ne hne with hlt | hgt
            · exact hj k1 ((hidx k1).2 (by rw [← hi]; exact h1)) hlt h2
            · exact h3 k hik hgt hp
          subst hkk
          refine ⟨hr, ?_, h4⟩
          unfold prop_to_id
          omega
  · intro hstartenum hclose fuel hfuel
    subst hstartenum
    have hclose1 : ∀ s3, tomb s1 s3 → ∃ s4 hres4,
        next_prop_start s3 p (o1.prop_cnt : Int) enum_type = some (s4, hres4, none) := by
      intro s3 ht3
      by_cases hc : (enum_type = jsdisp_enum_type.JSDISP_ENUM_ALL ∧ o1.prototype ≠ none) ∨
          o1.builtin_info.idx_length ≠ none
      · obtain ⟨o3, ho3, _, hc3, _⟩ := tomb_obj ht3 ho1
        obtain ⟨s4, h4⟩ := next_prop_start_filled enum_type ho3 (tomb_chain ht3 _ _ _ hl)
          (fill_done_kept (kept_of_tomb ht3) (hclose hc)) (by rw [hc3]; exact h32)
        rw [hc3] at h4
        exact ⟨_, _, h4⟩
      · obtain ⟨o3, ho3, hpr3, hc3, hpx3, hbi3, _⟩ := tomb_obj ht3 ho1
        have h := next_prop_start_end ho3 (by rw [hpx3]; exact hpx)
          (by rw [hbi3]; by_contra hx; exact hc (Or.inr hx))
          (fun e => by rw [hpr3]; by_contra hx; exact hc (Or.inl ⟨e, hx⟩))
          (by rw [hc3]; exact h32)
        rw [hc3] at h
        exact ⟨_, _, h⟩
    have hlist : (List.range o1.prop_cnt).filter (fun k => decide (enum_passes enum_type s1 p k))
        = passing_from enum_type s1 p o1.prop_cnt 0 := by
      unfold passing_from
      rw [List.range_eq_range', Nat.sub_zero]
    rw [hlist]
    cases fuel with
    | zero => omega
    | succ fuel =>
      cases start with
      | none =>
        obtain ⟨hS, hle⟩ := hnone rfl
        subst hS
        simp only [enum_from, jsdisp_next_prop_early hstart, reduceCtorEq, if_false]
        rw [if_pos rfl] at hle
        unfold passing_from
        have : o1.prop_cnt = 0 := by omega
        rw [this]
        rfl
      | some idx =>
        obtain ⟨hi, _⟩ := hsome idx rfl
        rw [if_pos rfl] at hi
        subst hi
        exact enum_from_call enum_type p s1 o1 n l ho1 hpx hhtml hl hwf s DISPID_STARTENUM s1
          hres 0 fuel hstart (tomb_refl s1)
          (fun s2 k ht2 _ hk => enum_from_spec enum_type p s1 o1 n l ho1 hpx hhtml hl hwf h32
            hclose1 fuel s2 (k + 1) ht2 (by omega) (by omega))
theorem eff_flags_own {s : Store} {p k : Nat} {o : jsdisp_t} (ho : s.obj p = some o)
    (ht : (slot o k).type ≠ prop_type_t.PROP_PROTREF) : eff_flags s p k = (slot o k).flags := by
  unfold eff_flags
  simp only [eff_flags_fuel, ho, ht, if_false]

/-- The filter of the loop, mode by mode. -/
theorem enum_passes_modes {enum_type : jsdisp_enum_type} {s : Store} {p k : Nat} {o : jsdisp_t}
    (ho : s.obj p = some o) :
    enum_passes enum_type s p k ↔
      (k < o.prop_cnt ∧ (slot o k).type ≠ prop_type_t.PROP_DELETED ∧
      (enum_type = jsdisp_enum_type.JSDISP_ENUM_OWN_ENUMERABLE →
        (slot o k).type ≠ prop_type_t.PROP_PROTREF ∧ (slot o k).flags &&& PROPF_ENUMERABLE ≠ 0) ∧
      (enum_type = jsdisp_enum_type.JSDISP_ENUM_OWN →
        (slot o k).type ≠ prop_type_t.PROP_PROTREF) ∧
      (enum_type = jsdisp_enum_type.JSDISP_ENUM_ALL →
        eff_flags s p k &&& PROPF_ENUMERABLE ≠ 0)) := by
  rw [enum_passes_def ho]
  constructor
  · rintro ⟨h1, h2, h3, h4⟩
    refine ⟨h1, h2, ?_, ?_, ?_⟩
    · intro e
      have hp := h3 (by rw [e]; decide)
      exact ⟨hp, by rw [← eff_flags_own ho hp]; exact h4 (by rw [e]; decide)⟩
    · intro e
      exact h3 (by rw [e]; decide)
    · intro e
      exact h4 (by rw [e]; decide)
  · rintro ⟨h1, h2, h3, h4, h5⟩
    refine ⟨h1, h2, ?_, ?_⟩
    · intro hne
      cases enum_type with
      | JSDISP_ENUM_ALL => exact absurd rfl hne
      | JSDISP_ENUM_OWN_ENUMERABLE => exact (h3 rfl).1
      | JSDISP_ENUM_OWN => exact h4 rfl
    · intro hne
      cases enum_type with
      | JSDISP_ENUM_ALL => exact h5 rfl
      | JSDISP_ENUM_OWN_ENUMERABLE =>
        rw [eff_flags_own ho (h3 rfl).1]
        exact (h3 rfl).2
      | JSDISP_ENUM_OWN => exact absurd rfl hne

/-- A call of `jsdisp_next_prop` whose first block ends without failure. -/
theorem next_prop_result (s : Store) (p : Nat) (id : Int) (enum_type : jsdisp_enum_type)
    (s1 : Store) (hres : HRESULT) (start : Option Nat) (o1 : jsdisp_t) (n : Nat) (l : List Nat)
    (hstart : next_prop_start s p id enum_type = some (s1, hres, start))
    (hok : FAILED hres = false)
    (ho1 : s1.obj p = some o1) (hpx : o1.proxy = none) (hhtml : s1.ctx.html_mode = false)
    (hl : proto_chain s1 n (some p) = some l) (hwf : protrefs_wf s1 l)
    (hid : id = DISPID_STARTENUM ∨ (0 ≤ id ∧ id < 4294967296)) :
    ∃ (s2 : Store) (r : Option Nat), jsdisp_next_prop s p id enum_type
        = some (s2, (if r.isSome then HRESULT.S_OK else HRESULT.S_FALSE), r.map prop_to_id) ∧
      tomb s1 s2 ∧
      (∀ k : Nat, r = some k → id ≤ (k : Int) ∧ enum_passes enum_type s1 p k ∧
        (∀ j : Nat, id ≤ (j : Int) → j < k → ¬ enum_passes enum_type s1 p j)) ∧
      (r = none → ∀ j : Nat, id ≤ (j : Int) → ¬ enum_passes enum_type s1 p j) := by
  obtain ⟨o1', ho1', hnone, hsome⟩ := next_prop_start_cases hstart hok
  rw [ho1] at ho1'
  injection ho1' with ho1'
  subst ho1'
  have hidx : ∀ k : Nat, id ≤ (k : Int) ↔
      (if id = DISPID_STARTENUM then 0 else (id % 4294967296).toNat) ≤ k := by
    intro k
    rcases hid with e | ⟨h1, h2⟩
    · rw [if_pos e, e]
      unfold DISPID_STARTENUM
      omega
    · have hne : ¬ (id = DISPID_STARTENUM) := by unfold DISPID_STARTENUM; omega
      rw [if_neg hne]
      omega
  cases start with
  | none =>
    obtain ⟨hS, hle⟩ := hnone rfl
    subst hS
    refine ⟨s1, none, jsdisp_next_prop_early hstart, tomb_refl s1, (fun k h => nomatch h), ?_⟩
    intro _ j hj hp
    have := ((enum_passes_def ho1).1 hp).1
    have := (hidx j).1 hj
    omega
  | some idx =>
    obtain ⟨hi, _⟩ := hsome idx rfl
    obtain ⟨s2, r, hr, ht2, hrs, hrn⟩ := next_prop_call enum_type p s1 o1 n l ho1 hpx hhtml hl
      hwf s id s1 hres idx (s.avail + 1) hstart (tomb_refl s1)
    refine ⟨s2, r, hr, ht2, ?_, ?_⟩
    · intro k hk
      obtain ⟨h1, h2, h3, _⟩ := hrs k hk
      refine ⟨(hidx k).2 (by rw [← hi]; exact h1), h2, fun j hj hjk => h3 j ?_ hjk⟩
      rw [hi]; exact (hidx j).1 hj
    · intro hr0 j hj
      apply hrn hr0 j
      rw [hi]; exact (hidx j).1 hj

/-- C18. Let the first block of `jsdisp_next_prop` end without failure in the
store `s1`, for an object without proxy outside HTML mode whose prototype chain
ends.  A slot the call returns is in use and no tombstone; in the mode "own
enumerable only" it is no prototype reference and has the enumerable flag; in
the mode "own all kinds" it is no prototype reference, whatever its enumerable
flag; in the mode "all inherited enumerable" it is an own slot or a prototype
reference whose effective flags have the enumerable flag.  And the call passes
over no such slot: a slot from `id` on that the mode admits is the slot
returned or comes after it. -/
theorem enum_mode_filters (s : Store) (p : Nat) (id : Int) (enum_type : jsdisp_enum_type)
    (s1 : Store) (hres : HRESULT) (start : Option Nat) (o1 : jsdisp_t) (n : Nat) (l : List Nat)
    (hstart : next_prop_start s p id enum_type = some (s1, hres, start))
    (hok : FAILED hres = false)
    (ho1 : s1.obj p = some o1) (hpx : o1.proxy = none) (hhtml : s1.ctx.html_mode = false)
    (hl : proto_chain s1 n (some p) = some l) (hwf : protrefs_wf s1 l)
    (hid : id = DISPID_STARTENUM ∨ (0 ≤ id ∧ id < 4294967296)) :
    ∃ (s2 : Store) (hres2 : HRESULT) (r : Option Nat),
      jsdisp_next_prop s p id enum_type = some (s2, hres2, r.map prop_to_id) ∧
      (∀ k : Nat, r = some k → hres2 = HRESULT.S_OK ∧ k < o1.prop_cnt ∧
        (slot o1 k).type ≠ prop_type_t.PROP_DELETED ∧
        (enum_type = jsdisp_enum_type.JSDISP_ENUM_OWN_ENUMERABLE →
          (slot o1 k).type ≠ prop_type_t.PROP_PROTREF ∧
          (slot o1 k).flags &&& PROPF_ENUMERABLE ≠ 0) ∧
        (enum_type = jsdisp_enum_type.JSDISP_ENUM_OWN →
          (slot o1 k).type ≠ prop_type_t.PROP_PROTREF) ∧
        (enum_type = jsdisp_enum_type.JSDISP_ENUM_ALL →
          eff_flags s1 p k &&& PROPF_ENUMERABLE ≠ 0)) ∧
      (∀ j : Nat, id ≤ (j : Int) → j < o1.prop_cnt →
        (slot o1 j).type ≠ prop_type_t.PROP_DELETED →
        (enum_type = jsdisp_enum_type.JSDISP_ENUM_OWN_ENUMERABLE →
          (slot o1 j).type ≠ prop_type_t.PROP_PROTREF ∧
          (slot o1 j).flags &&& PROPF_ENUMERABLE ≠ 0) →
        (enum_type = jsdisp_enum_type.JSDISP_ENUM_OWN →
          (slot o1 j).type ≠ prop_type_t.PROP_PROTREF) →
        (enum_type = jsdisp_enum_type.JSDISP_ENUM_ALL →
          eff_flags s1 p j &&& PROPF_ENUMERABLE ≠ 0) →
        ∃ k, r = some k ∧ k ≤ j) := by
  obtain ⟨s2, r, hr, _, hrs, hrn⟩ := next_prop_result s p id enum_type s1 hres start o1 n l
    hstart hok ho1 hpx hhtml hl hwf hid
  refine ⟨s2, _, r, hr, ?_, ?_⟩
  · intro k hk
    obtain ⟨_, h2, _⟩ := hrs k hk
    obtain ⟨a1, a2, a3, a4, a5⟩ := (enum_passes_modes ho1).1 h2
    subst hk
    exact ⟨rfl, a1, a2, a3, a4, a5⟩
  · intro j hj b1 b2 b3 b4 b5
    have hp : enum_passes enum_type s1 p j := (enum_passes_modes ho1).2 ⟨b1, b2, b3, b4, b5⟩
    cases r with
    | none => exact absurd hp (hrn rfl j hj)
    | some k =>
      refine ⟨k, rfl, ?_⟩
      obtain ⟨_, _, h3⟩ := hrs k rfl
      by_contra hlt
      exact h3 j hj (by omega) hp
theorem enum_mode_filters_witness :
    ∃ (s2 : Store) (k : Nat),
      jsdisp_next_prop store_chain 2 DISPID_STARTENUM jsdisp_enum_type.JSDISP_ENUM_ALL
        = some (s2, HRESULT.S_OK, some (prop_to_id k)) ∧
      k < (obj_at store_chain_filled 2).prop_cnt ∧
      (slot (obj_at store_chain_filled 2) k).type ≠ prop_type_t.PROP_DELETED ∧
      eff_flags store_chain_filled 2 k &&& PROPF_ENUMERABLE ≠ 0 ∧ k ≤ 0 := by
  obtain ⟨s2, hres2, r, h, hret, hall⟩ := enum_mode_filters store_chain 2 DISPID_STARTENUM
    jsdisp_enum_type.JSDISP_ENUM_ALL store_chain_filled HRESULT.S_OK (some 0)
    (obj_at store_chain_filled 2) 4 [2, 1, 0] (by rfl) (by rfl) (by rfl) (by rfl) (by rfl)
    (by rfl) (by decide) (Or.inl rfl)
  obtain ⟨k, hk, hle⟩ := hall 0 (by decide) (by decide) (by decide)
    (fun e => nomatch e) (fun e => nomatch e) (fun _ => by decide)
  subst hk
  obtain ⟨h1, h2, h3, _, _, h6⟩ := hret k rfl
  subst h1
  exact ⟨s2, k, h, h2, h3, h6 rfl, hle⟩

/-- C18, as stated, fails: the one slot of object `O` (2) of `store_chain_cached`
is a prototype reference, no tombstone, which a lookup leaves as it is and
which the mode `JSDISP_ENUM_ALL` returns; the enumeration in the mode
`JSDISP_ENUM_OWN`, "own all kinds", returns `S_FALSE` at once. -/
theorem own_mode_skips_protref :
    (store_chain_cached.obj 2).map (fun o => (o.prop_cnt, (slot o 0).type))
      = some (1, prop_type_t.PROP_PROTREF) ∧
    fix_protref_prop store_chain_cached 2 0 = some store_chain_cached ∧
    (jsdisp_next_prop store_chain_cached 2 DISPID_STARTENUM
        jsdisp_enum_type.JSDISP_ENUM_ALL).map (fun r => r.2)
      = some (HRESULT.S_OK, some (prop_to_id 0)) ∧
    jsdisp_next_prop store_chain_cached 2 DISPID_STARTENUM jsdisp_enum_type.JSDISP_ENUM_OWN
      = some (store_chain_cached, HRESULT.S_FALSE, none) := by
  refine ⟨by rfl, by rfl, by rfl, by rfl⟩

theorem next_prop_order_witness :
    (∃ s2, jsdisp_next_prop store_chain 2 DISPID_STARTENUM jsdisp_enum_type.JSDISP_ENUM_ALL
        = some (s2, HRESULT.S_OK, some (prop_to_id 0)) ∧ tomb store_chain_filled s2) ∧
    enum_from jsdisp_enum_type.JSDISP_ENUM_OWN_ENUMERABLE 1 3 store_chain DISPID_STARTENUM
      = some [prop_to_id 0] ∧
    enum_from jsdisp_enum_type.JSDISP_ENUM_ALL 2 3 store_chain DISPID_STARTENUM
      = some [prop_to_id 0] ∧
    enum_from jsdisp_enum_type.JSDISP_ENUM_OWN_ENUMERABLE 0 3 store_typed_array DISPID_STARTENUM
      = some [prop_to_id 0] := by
  refine ⟨?_, ?_, ?_, ?_⟩
  · obtain ⟨s2, ht, _, h⟩ := (next_prop_order store_chain 2 DISPID_STARTENUM
      jsdisp_enum_type.JSDISP_ENUM_ALL store_chain_filled HRESULT.S_OK (some 0)
      (obj_at store_chain_filled 2) 4 [2, 1, 0] (by rfl) (by rfl) (by rfl) (by rfl) (by rfl)
      (by rfl) (by decide) (by decide) (Or.inl rfl)).1
    exact ⟨s2, (h 0 (by decide) (by decide) (fun j _ hj => absurd hj (by omega))).1, ht⟩
  · exact (next_prop_order store_chain 1 DISPID_STARTENUM
      jsdisp_enum_type.JSDISP_ENUM_OWN_ENUMERABLE store_chain HRESULT.S_OK (some 0)
      (obj_at store_chain 1) 4 [1, 0] (by rfl) (by rfl) (by rfl) (by rfl) (by rfl)
      (by rfl) (by decide) (by decide) (Or.inl rfl)).2 rfl (fun hc => absurd hc (by decide)) 3
      (by decide)
  · exact (next_prop_order store_chain 2 DISPID_STARTENUM
      jsdisp_enum_type.JSDISP_ENUM_ALL store_chain_filled HRESULT.S_OK (some 0)
      (obj_at store_chain_filled 2) 4 [2, 1, 0] (by rfl) (by rfl) (by rfl) (by rfl) (by rfl)
      (by rfl) (by decide) (by decide) (Or.inl rfl)).2 rfl
      (fun _ => by decide) 3 (by decide)
  · exact (next_prop_order store_typed_array 0 DISPID_STARTENUM
      jsdisp_enum_type.JSDISP_ENUM_OWN_ENUMERABLE store_typed_filled HRESULT.S_OK (some 0)
      (obj_at store_typed_filled 0) 2 [0] (by rfl) (by rfl) (by rfl) (by rfl) (by rfl)
      (by rfl) (by decide) (by decide) (Or.inl rfl)).2 rfl (fun _ => by decide) 3 (by decide)

/-! ### Entering a slot at the head of a chain -/

theorem push_front_length (This : jsdisp_t) (b i : Nat) :
    (push_front This b i).props.length = This.props.length := by
  simp only [push_front, set_slot_length]

theorem push_front_fields (This : jsdisp_t) (b i : Nat) :
    push_front This b i = { This with props := (push_front This b i).props } := rfl

theorem push_front_core (This : jsdisp_t) (b i j : Nat) :
    same_core (slot (push_front This b i) j) (slot This j) := by
  unfold push_front
  exact same_core_trans (same_core_set_slot _ _ _ _ (fun q => same_core_refl q))
    (same_core_set_slot _ _ _ _ (fun q => same_core_refl q))

theorem push_front_frame (This : jsdisp_t) (b i : Nat) : table_frame This (push_front This b i) :=
  ⟨push_front_fields This b i, push_front_length This b i, fun j => push_front_core This b i j⟩

theorem push_front_head (This : jsdisp_t) (b i c : Nat) (hb : b < This.props.length) :
    (slot (push_front This b i) c).bucket_head
      = if c = b then i else (slot This c).bucket_head := by
  unfold push_front
  simp only
  rw [slot_set_slot]
  by_cases hc : c = b
  · rw [if_pos ⟨hc, by simpa only [set_slot_length] using hb⟩, if_pos hc]
  · rw [if_neg (fun h => hc h.1), if_neg hc]
    exact slot_set_slot_keep (fun q => q.bucket_head) _ _ _ _ (by intro q; rfl)

theorem push_front_next (This : jsdisp_t) (b i j : Nat) (hi : i < This.props.length) :
    (slot (push_front This b i) j).bucket_next
      = if j = i then (slot This b).bucket_head else (slot This j).bucket_next := by
  unfold push_front
  simp only
  refine (slot_set_slot_keep (fun q => q.bucket_next) _ _ _ _ (by intro q; rfl)).trans ?_
  rw [slot_set_slot]
  by_cases hj : j = i
  · rw [if_pos ⟨hj, hi⟩, if_pos hj]
  · rw [if_neg (fun h => hj h.1), if_neg hj]

theorem rehash_step_push (This : jsdisp_t) (i : Nat) :
    rehash_step This i = push_front This (get_props_idx This (slot This i).hash) i := rfl

/-- The chains after slot `k`, on no chain before, is entered at the head of
the chain of `b`. -/
theorem push_front_chain (This : jsdisp_t) (b k c : Nat) (l : List Nat)
    (hb : b < This.props.length) (hk : k < This.props.length) (hnil : k ≠ NIL)
    (hkl : k ∉ l) (hc : is_chain This.props (slot This c).bucket_head l) :
    is_chain (push_front This b k).props (slot (push_front This b k) c).bucket_head
      (if c = b then k :: l else l) := by
  have hnext : ∀ j, ((push_front This b k).props.getD j dispex_prop_t.zero).bucket_next
      = if j = k then (slot This b).bucket_head else (slot This j).bucket_next :=
    fun j => push_front_next This b k j hk
  have hkeep : ∀ (pos : Nat), is_chain This.props pos l →
      is_chain (push_front This b k).props pos l := by
    intro pos hp
    rw [is_chain_iff_seg] at hp ⊢
    apply is_seg_congr l _ _ _ hp
    intro x hx
    have hxk : x ≠ k := fun e => hkl (e ▸ hx)
    rw [hnext x, if_neg hxk]
    rfl
  rw [push_front_head This b k c hb]
  by_cases e : c = b
  · rw [if_pos e, if_pos e]
    refine ⟨hnil, rfl, ?_⟩
    rw [hnext k, if_pos rfl]
    rw [e] at hc
    exact hkeep _ hc
  · rw [if_neg e, if_neg e]
    exact hkeep _ hc

/-! ### The chains as lists -/

/-- The invariant of one bucket in terms of the relation `is_chain`. -/
theorem chain_ok_iff (This : jsdisp_t) (b : Nat) (hcnt : This.prop_cnt ≤ This.props.length) :
    chain_ok This b ↔ ∃ l, is_chain This.props (slot This b).bucket_head l ∧ l.Nodup ∧
      (∀ i ∈ l, i < This.prop_cnt ∧ get_props_idx This (slot This i).hash = b) ∧
      (∀ i, i < This.prop_cnt → get_props_idx This (slot This i).hash = b → i ∈ l) := by
  unfold chain_ok bucket_chain
  constructor
  · intro h
    cases hcf : chain_from This.props (This.props.length + 1) (slot This b).bucket_head with
    | none => rw [hcf] at h; exact h.elim
    | some l =>
      rw [hcf] at h
      exact ⟨l, (chain_from_is_chain _ _ _ _ hcf).1, h⟩
  · rintro ⟨l, hc, hnd, hin, hall⟩
    have hlen : l.length ≤ This.prop_cnt := nodup_length_le hnd (fun i hi => (hin i hi).1)
    rw [is_chain_chain_from This.props l _ _ hc (by omega)]
    exact ⟨hnd, hin, hall⟩

theorem is_chain_unique (props : List dispex_prop_t) :
    ∀ (l l1 : List Nat) (pos : Nat), is_chain props pos l → is_chain props pos l1 → l = l1 := by
  intro l
  induction l with
  | nil =>
    intro l1 pos h h1
    cases l1 with
    | nil => rfl
    | cons x r => exact absurd h h1.1
  | cons y r ih =>
    intro l1 pos h h1
    cases l1 with
    | nil => exact absurd h1 h.1
    | cons x r1 =>
      obtain ⟨_, hy, hr⟩ := h
      obtain ⟨_, hx, hr1⟩ := h1
      rw [hy, hx, ih r1 _ hr hr1]

theorem bucket_chain_of_chain (This : jsdisp_t) (b : Nat) (l : List Nat)
    (hc : is_chain This.props (slot This b).bucket_head l) (hl : l.length ≤ This.props.length) :
    bucket_chain This b = some l := by
  unfold bucket_chain
  exact is_chain_chain_from This.props l _ _ hc (by omega)

/-! ### The second loop of `resize_props` -/

theorem rehash_chain_succ (bk : Nat → Nat) (k c : Nat) :
    rehash_chain bk (k + 1) c = if c = bk k then k :: rehash_chain bk k c else rehash_chain bk k c := by
  unfold rehash_chain
  rw [List.range_succ, List.filter_append, List.reverse_append]
  by_cases e : c = bk k
  · rw [if_pos e]
    simp [List.filter_cons, e]
  · rw [if_neg e]
    have : ¬ bk k = c := fun h => e h.symm
    simp [List.filter_cons, this]

theorem mem_rehash_chain (bk : Nat → Nat) (k c i : Nat) :
    i ∈ rehash_chain bk k c ↔ i < k ∧ bk i = c := by
  unfold rehash_chain
  simp

theorem rehash_chain_nodup (bk : Nat → Nat) (k c : Nat) : (rehash_chain bk k c).Nodup := by
  unfold rehash_chain
  rw [List.nodup_reverse]
  exact (List.nodup_range k).filter _

theorem rehash_chain_length (bk : Nat → Nat) (k c : Nat) : (rehash_chain bk k c).length ≤ k :=
  nodup_length_le (rehash_chain_nodup bk k c) (fun i hi => ((mem_rehash_chain bk k c i).1 hi).1)

/-- The slots of a chain built by `resize_props` that are before slot `i` have
an index above `i`. -/
theorem rehash_chain_split (bk : Nat → Nat) (k c i : Nat) (hi : i ∈ rehash_chain bk k c) :
    ∃ A R, rehash_chain bk k c = A ++ i :: R ∧ ∀ x ∈ A, i < x := by
  obtain ⟨A, R, h⟩ := List.append_of_mem hi
  refine ⟨A, R, h, ?_⟩
  have hp : (rehash_chain bk k c).Pairwise (fun a b => b < a) := by
    unfold rehash_chain
    rw [List.pairwise_reverse]
    exact (List.pairwise_lt_range k).filter _
  rw [h, List.pairwise_append] at hp
  intro x hx
  exact hp.2.2 x hx i (by simp)

theorem rehash_foldl_chain (This : jsdisp_t) (hlen : This.props.length = This.buf_size)
    (hpos : 0 < This.buf_size) (hhead : ∀ c, (slot This c).bucket_head = NIL) :
    ∀ k, k ≤ This.props.length → k ≤ NIL → ∀ c,
      is_chain ((List.range k).foldl rehash_step This).props
        (slot ((List.range k).foldl rehash_step This) c).bucket_head
        (rehash_chain (fun i => get_props_idx This (slot This i).hash) k c) := by
  intro k
  induction k with
  | zero =>
    intro _ _ c
    simp only [List.range_zero, List.foldl_nil, rehash_chain, List.filter_nil, List.reverse_nil]
    exact hhead c
  | succ k ih =>
    intro hk hnil c
    have ih1 := ih (by omega) (by omega) c
    have fr := rehash_foldl_frame (List.range k) This
    have hbs : ((List.range k).foldl rehash_step This).buf_size = This.buf_size :=
      (table_frame_fields fr).2.1
    have hl : ((List.range k).foldl rehash_step This).props.length = This.props.length := fr.2.1
    have hb : get_props_idx ((List.range k).foldl rehash_step This)
        (slot ((List.range k).foldl rehash_step This) k).hash
        = get_props_idx This (slot This k).hash := by
      rw [(fr.2.2 k).2.1]
      unfold get_props_idx
      rw [hbs]
    rw [List.range_succ, List.foldl_append, List.foldl_cons, List.foldl_nil, rehash_step_push, hb,
      rehash_chain_succ]
    refine push_front_chain _ _ k c _ ?_ (by omega) (by omega) ?_ ih1
    · rw [hl, hlen]
      exact get_props_idx_lt This _ hpos
    · intro hm
      have := ((mem_rehash_chain _ k c k).1 hm).1
      omega

theorem slot_clear_links_head (props : List dispex_prop_t) (c : Nat) :
    ((clear_links props).getD c dispex_prop_t.zero).bucket_head = NIL := by
  unfold clear_links
  simp only [List.getD_eq_getElem?_getD, List.getElem?_map]
  cases props[c]? with
  | none => rfl
  | some q => rfl

/-- A successful `resize_props`: the table of twice the size, with the chains
of its buckets. -/
theorem resize_props_chain (This : jsdisp_t) (avail a1 : Nat)
    (hcnt : This.prop_cnt = This.buf_size)
    (hpos : 0 < This.buf_size) (hnil : This.buf_size ≤ NIL) (hm : malloc avail = some a1) :
    ∃ R, resize_props This avail = (HRESULT.S_OK, R, a1) ∧ R.buf_size = This.buf_size * 2 ∧
      R.prop_cnt = This.prop_cnt ∧ R.props.length = R.buf_size ∧ same_fields This R ∧
      (∀ j, j < This.prop_cnt → same_core (slot R j) (slot This j)) ∧
      ∀ c, is_chain R.props (slot R c).bucket_head
        (rehash_chain (fun i => get_props_idx R (slot This i).hash) This.prop_cnt c) := by
  have hcore := fun j hj => (resize_props_core This avail j hj).1
  have h : ¬ This.buf_size ≠ This.prop_cnt := by simp [hcnt]
  unfold resize_props at hcore ⊢
  rw [if_neg h] at hcore ⊢
  rw [hm] at hcore ⊢
  simp only at hcore ⊢
  generalize hT : ({ This with buf_size := This.buf_size * 2,
                                props := clear_links ((This.props ++
                                  List.replicate (This.buf_size * 2) dispex_prop_t.zero).take
                                    (This.buf_size * 2)) } : jsdisp_t) = T at hcore ⊢
  have hTb : T.buf_size = This.buf_size * 2 := by rw [← hT]
  have hTc : T.prop_cnt = This.prop_cnt := by rw [← hT]
  have hTl : T.props.length = T.buf_size := by
    rw [← hT]
    simp [clear_links]
  have hTh : ∀ c, (slot T c).bucket_head = NIL := by
    intro c
    rw [← hT]
    exact slot_clear_links_head _ c
  have hTf : same_fields This T := by
    rw [← hT]
    rfl
  have fr := rehash_foldl_frame (List.range This.prop_cnt) T
  obtain ⟨f1, f2, f3⟩ := table_frame_fields fr
  have hch := rehash_foldl_chain T hTl (by omega) hTh This.prop_cnt (by omega) (by omega)
  refine ⟨_, rfl, by rw [f2, hTb], by rw [f1, hTc], by rw [fr.2.1, f2]; exact hTl, ?_, hcore, ?_⟩
  · unfold same_fields at f3 hTf ⊢
    rw [f3, hTf]
  · intro c
    have hbk : ∀ c, rehash_chain (fun i => get_props_idx T (slot T i).hash) This.prop_cnt c
        = rehash_chain (fun i => get_props_idx ((List.range This.prop_cnt).foldl rehash_step T)
            (slot This i).hash) This.prop_cnt c := by
      intro c
      unfold rehash_chain
      refine congrArg List.reverse (List.filter_congr fun i hi => ?_)
      have hi' : i < This.prop_cnt := List.mem_range.1 hi
      have e1 : (slot T i).hash = (slot This i).hash := by
        have h1 := (hcore i hi').2.1
        have h2 := (fr.2.2 i).2.1
        rw [← h1, h2]
      have e2 : get_props_idx ((List.range This.prop_cnt).foldl rehash_step T) (slot This i).hash
          = get_props_idx T (slot This i).hash := by
        unfold get_props_idx
        rw [f2]
      show decide (get_props_idx T (slot T i).hash = c) = decide (get_props_idx
        ((List.range This.prop_cnt).foldl rehash_step T) (slot This i).hash = c)
      rw [e1, e2]
    rw [← hbk c]
    exact hch c

/-! ### The operations on the table keep it well formed -/

/-- A table with the same links, and the same names and hashes of the slots in
use, is well formed as well. -/
theorem props_wf_congr {o o1 : jsdisp_t} (he : o1 = { o with props := o1.props })
    (hl : o1.props.length = o.props.length)
    (hlk : ∀ i, (slot o1 i).bucket_head = (slot o i).bucket_head ∧
      (slot o1 i).bucket_next = (slot o i).bucket_next)
    (hs : ∀ i, i < o.prop_cnt → (slot o1 i).name = (slot o i).name ∧
      (slot o1 i).hash = (slot o i).hash)
    (hwf : props_wf o) : props_wf o1 := by
  obtain ⟨hlen, h4, hpow, hcnt, hhash, hch⟩ := hwf
  have hb : o1.buf_size = o.buf_size := by rw [he]
  have hc : o1.prop_cnt = o.prop_cnt := by rw [he]
  have hidx : ∀ h, get_props_idx o1 h = get_props_idx o h := by
    intro h; unfold get_props_idx; rw [hb]
  refine ⟨by rw [hl, hb]; exact hlen, by rw [hb]; exact h4, by rw [hb]; exact hpow,
    by rw [hb, hc]; exact hcnt, ?_, ?_⟩
  · intro i hi
    rw [hc] at hi
    rw [(hs i hi).1, (hs i hi).2]
    exact hhash i hi
  · intro b hbb
    have := hch b (by rw [← hb]; exact hbb)
    unfold chain_ok bucket_chain at this ⊢
    rw [hl, (hlk b).1, chain_from_congr (fun i => (hlk i).2)]
    cases hcf : chain_from o.props (o.props.length + 1) (slot o b).bucket_head with
    | none => rw [hcf] at this; exact this.elim
    | some l =>
      rw [hcf] at this
      obtain ⟨h1, h2, h3⟩ := this
      refine ⟨h1, ?_, ?_⟩
      · intro i hi
        rw [hc, (hs i (h2 i hi).1).2, hidx]
        exact h2 i hi
      · intro i hi hbi
        rw [hc] at hi
        rw [(hs i hi).2, hidx] at hbi
        exact h3 i hi hbi

/-- A store into a slot that is not in use, which keeps its links, leaves the
table well formed. -/
theorem props_wf_set_free (o : jsdisp_t) (j : Nat) (f : dispex_prop_t → dispex_prop_t)
    (hj : o.prop_cnt ≤ j)
    (hf : ∀ r, (f r).bucket_head = r.bucket_head ∧ (f r).bucket_next = r.bucket_next)
    (hwf : props_wf o) : props_wf (set_slot o j f) := by
  refine props_wf_congr rfl (set_slot_length o j f) (fun i => ?_) (fun i hi => ?_) hwf
  · exact ⟨slot_set_slot_keep (fun q => q.bucket_head) _ _ _ _ (fun q => (hf q).1),
      slot_set_slot_keep (fun q => q.bucket_next) _ _ _ _ (fun q => (hf q).2)⟩
  · rw [slot_set_slot_ne o f (by omega : i ≠ j)]
    exact ⟨rfl, rfl⟩

theorem pow_bound {n : Nat} (h : n < 2 ^ 31) : n ≤ NIL := by
  unfold NIL
  omega

theorem resize_props_wf (o : jsdisp_t) (avail : Nat) (hwf : props_wf o)
    (hb : o.buf_size < 2 ^ 31) : props_wf (resize_props o avail).2.1 := by
  by_cases h : o.buf_size ≠ o.prop_cnt
  · unfold resize_props
    rw [if_pos h]
    exact hwf
  · cases hm : malloc avail with
    | none =>
      unfold resize_props
      rw [if_neg h, hm]
      exact hwf
    | some a1 =>
      have hcnt : o.prop_cnt = o.buf_size := by
        have : o.buf_size = o.prop_cnt := by simpa using h
        exact this.symm
      obtain ⟨hlen, h4, ⟨k, hk, hpow⟩, _, hhash, _⟩ := hwf
      obtain ⟨R, hR, hRb, hRc, hRl, _, hcore, hch⟩ :=
        resize_props_chain o avail a1 hcnt (by omega) (pow_bound hb) hm
      rw [hR]
      show props_wf R
      have hh : ∀ i, i < o.prop_cnt → (slot R i).hash = (slot o i).hash :=
        fun i hi => (hcore i hi).2.1
      refine ⟨hRl, by omega, ⟨k + 1, ?_, ?_⟩, by omega, ?_, ?_⟩
      · rw [hRb]
        omega
      · rw [hRb, hpow, pow_succ]
      · intro i hi
        rw [hRc] at hi
        rw [hh i hi, (hcore i hi).1]
        exact hhash i hi
      · intro c _
        rw [chain_ok_iff R c (by omega)]
        refine ⟨_, hch c, rehash_chain_nodup _ _ _, ?_, ?_⟩
        · intro i hi
          rw [mem_rehash_chain] at hi
          rw [hRc, hh i hi.1]
          exact hi
        · intro i hi hbi
          rw [hRc] at hi
          rw [hh i hi] at hbi
          exact (mem_rehash_chain _ _ _ _).2 ⟨hi, hbi⟩

/-- The table `alloc_prop` leaves: the table after `resize_props` when an
allocation failed (with the name of the next slot cleared when it was the copy
of the name that failed), and otherwise that table with the new slot written
and entered at the head of the chain of its bucket. -/
theorem alloc_prop_cases (o : jsdisp_t) (name : WSTR) (type : prop_type_t) (flags avail : Nat) :
    ((alloc_prop o name type flags avail).1 = none ∧
      ((alloc_prop o name type flags avail).2.1 = (resize_props o avail).2.1 ∨
        (alloc_prop o name type flags avail).2.1 = set_slot (resize_props o avail).2.1
          (resize_props o avail).2.1.prop_cnt (fun p => { p with name := [] }))) ∨
    ((alloc_prop o name type flags avail).1 = some (resize_props o avail).2.1.prop_cnt ∧
      (alloc_prop o name type flags avail).2.1 =
        { push_front (set_slot (resize_props o avail).2.1 (resize_props o avail).2.1.prop_cnt
            (fun p => { p with name := name, type := type, flags := flags,
                               hash := string_hash name }))
            (get_props_idx (resize_props o avail).2.1 (string_hash name))
            (resize_props o avail).2.1.prop_cnt
          with prop_cnt := (resize_props o avail).2.1.prop_cnt + 1 }) := by
  unfold alloc_prop
  rcases hr : resize_props o avail with ⟨hres, R, a1⟩
  simp only
  by_cases hf : FAILED hres = true
  · rw [if_pos hf]
    exact Or.inl ⟨rfl, Or.inl rfl⟩
  · rw [if_neg hf]
    cases hm : malloc a1 with
    | none => exact Or.inl ⟨rfl, Or.inr rfl⟩
    | some a2 => exact Or.inr ⟨rfl, rfl⟩

/-- The table with a new slot written at index `prop_cnt` and entered at the
head of the chain of its bucket: it is well formed, and its chains are those
of before, the chain of the bucket with the new slot first. -/
theorem push_new_wf (R : jsdisp_t) (name : WSTR) (f : dispex_prop_t → dispex_prop_t)
    (hf : ∀ r, (f r).name = name ∧ (f r).hash = string_hash name ∧
      (f r).bucket_head = r.bucket_head ∧ (f r).bucket_next = r.bucket_next)
    (hwf : props_wf R) (hlt : R.prop_cnt < R.buf_size) (hnil : R.prop_cnt ≠ NIL) :
    props_wf { push_front (set_slot R R.prop_cnt f) (get_props_idx R (string_hash name)) R.prop_cnt
      with prop_cnt := R.prop_cnt + 1 } ∧
    ∀ c l, is_chain R.props (slot R c).bucket_head l → (∀ i ∈ l, i < R.prop_cnt) →
      is_chain (push_front (set_slot R R.prop_cnt f) (get_props_idx R (string_hash name))
          R.prop_cnt).props
        (slot (push_front (set_slot R R.prop_cnt f) (get_props_idx R (string_hash name))
          R.prop_cnt) c).bucket_head
        (if c = get_props_idx R (string_hash name) then R.prop_cnt :: l else l) := by
  have hwf2 : props_wf (set_slot R R.prop_cnt f) :=
    props_wf_set_free R R.prop_cnt f (le_refl _) (fun r => ⟨(hf r).2.2.1, (hf r).2.2.2⟩) hwf
  obtain ⟨hlen, h4, hpow, hcnt, hhash, hch⟩ := hwf2
  have hlenR : R.props.length = R.buf_size := hwf.1
  have hbl : get_props_idx R (string_hash name) < (set_slot R R.prop_cnt f).props.length := by
    rw [set_slot_length, hlenR]
    exact get_props_idx_lt R _ (by omega)
  have hkl : R.prop_cnt < (set_slot R R.prop_cnt f).props.length := by
    rw [set_slot_length, hlenR]
    exact hlt
  have hslot : slot (set_slot R R.prop_cnt f) R.prop_cnt = f (slot R R.prop_cnt) := by
    rw [slot_set_slot, if_pos ⟨rfl, by rw [hlenR]; exact hlt⟩]
  have hchain : ∀ c l, is_chain (set_slot R R.prop_cnt f).props
      (slot (set_slot R R.prop_cnt f) c).bucket_head l → (∀ i ∈ l, i < R.prop_cnt) →
      is_chain (push_front (set_slot R R.prop_cnt f) (get_props_idx R (string_hash name))
          R.prop_cnt).props
        (slot (push_front (set_slot R R.prop_cnt f) (get_props_idx R (string_hash name))
          R.prop_cnt) c).bucket_head
        (if c = get_props_idx R (string_hash name) then R.prop_cnt :: l else l) := by
    intro c l hc hl
    exact push_front_chain _ _ _ c l hbl hkl hnil (fun h => by have := hl _ h; omega) hc
  have hcore := push_front_core (set_slot R R.prop_cnt f) (get_props_idx R (string_hash name))
    R.prop_cnt
  constructor
  · refine ⟨?_, h4, hpow, ?_, ?_, ?_⟩
    · show (push_front _ _ _).props.length = R.buf_size
      rw [push_front_length]
      exact hlen
    · show R.prop_cnt + 1 ≤ R.buf_size
      omega
    · intro i hi
      have hi' : i < R.prop_cnt + 1 := hi
      show (slot (push_front _ _ _) i).hash = string_hash (slot (push_front _ _ _) i).name
      rw [(hcore i).1, (hcore i).2.1]
      by_cases e : i = R.prop_cnt
      · rw [e, hslot, (hf _).1, (hf _).2.1]
      · exact hhash i (by show i < R.prop_cnt; omega)
    · intro c hc
      have hc0 := hch c hc
      rw [chain_ok_iff _ c (by rw [hlen]; exact hcnt)] at hc0
      obtain ⟨l, hl, hnd, hin, hall⟩ := hc0
      have hlt' : ∀ i ∈ l, i < R.prop_cnt := fun i hi => (hin i hi).1
      rw [chain_ok_iff _ c (by
        show R.prop_cnt + 1 ≤ (push_front _ _ _).props.length
        rw [push_front_length, hlen]
        exact hlt)]
      refine ⟨_, hchain c l hl hlt', ?_, ?_, ?_⟩
      · split
        · exact List.nodup_cons.2 ⟨fun h => by have := hlt' _ h; omega, hnd⟩
        · exact hnd
      · intro i hi
        show i < R.prop_cnt + 1 ∧ get_props_idx R (slot (push_front _ _ _) i).hash = c
        rw [(hcore i).2.1]
        split at hi
        · next e =>
          rcases List.mem_cons.1 hi with h | h
          · rw [h, hslot, (hf _).2.1]
            exact ⟨by omega, e.symm⟩
          · exact ⟨by have := hlt' _ h; omega, (hin i h).2⟩
        · exact ⟨by have := hlt' _ hi; omega, (hin i hi).2⟩
      · intro i hi hbi
        have hi' : i < R.prop_cnt + 1 := hi
        have hbi' : get_props_idx R (slot (push_front (set_slot R R.prop_cnt f)
            (get_props_idx R (string_hash name)) R.prop_cnt) i).hash = c := hbi
        rw [(hcore i).2.1] at hbi'
        by_cases e : i = R.prop_cnt
        · rw [e, hslot, (hf _).2.1] at hbi'
          rw [if_pos hbi'.symm, e]
          exact List.mem_cons_self _ _
        · have hm := hall i (by show i < R.prop_cnt; omega) hbi'
          split
          · exact List.mem_cons_of_mem _ hm
          · exact hm
  · intro c l hc hl
    apply hchain c l ?_ hl
    have h1 : (slot (set_slot R R.prop_cnt f) c).bucket_head = (slot R c).bucket_head :=
      slot_set_slot_keep (fun q => q.bucket_head) _ _ _ _ (fun q => (hf q).2.2.1)
    rw [h1, is_chain_iff_seg]
    refine is_seg_congr l _ _ (fun x _ => ?_) ((is_chain_iff_seg _ _ _).1 hc)
    exact slot_set_slot_keep (fun q => q.bucket_next) _ _ _ _ (fun q => (hf q).2.2.2)

theorem resize_props_room (o : jsdisp_t) (avail : Nat) (hcnt : o.prop_cnt ≤ o.buf_size)
    (hpos : 0 < o.buf_size) (h : FAILED (resize_props o avail).1 = false) :
    (resize_props o avail).2.1.prop_cnt < (resize_props o avail).2.1.buf_size ∧
      (resize_props o avail).2.1.prop_cnt = o.prop_cnt := by
  by_cases hne : o.buf_size ≠ o.prop_cnt
  · unfold resize_props
    rw [if_pos hne]
    exact ⟨by show o.prop_cnt < o.buf_size; omega, rfl⟩
  · cases hm : malloc avail with
    | none =>
      unfold resize_props at h
      rw [if_neg hne, hm] at h
      cases h
    | some a1 =>
      have fr := rehash_foldl_frame (List.range o.prop_cnt)
        { o with buf_size := o.buf_size * 2,
                 props := clear_links ((o.props ++
                   List.replicate (o.buf_size * 2) dispex_prop_t.zero).take (o.buf_size * 2)) }
      obtain ⟨f1, f2, _⟩ := table_frame_fields fr
      unfold resize_props
      rw [if_neg hne, hm]
      simp only
      rw [f1, f2]
      simp only
      constructor
      · omega
      · trivial

theorem alloc_prop_wf (o : jsdisp_t) (name : WSTR) (type : prop_type_t) (flags avail : Nat)
    (hwf : props_wf o) (hb : o.buf_size < 2 ^ 31) :
    props_wf (alloc_prop o name type flags avail).2.1 := by
  have hR := resize_props_wf o avail hwf hb
  rcases alloc_prop_cases o name type flags avail with ⟨_, h | h⟩ | ⟨hs, h⟩
  · rw [h]; exact hR
  · rw [h]
    exact props_wf_set_free _ _ _ (le_refl _) (fun r => ⟨rfl, rfl⟩) hR
  · rw [h]
    have hfail : FAILED (resize_props o avail).1 = false := by
      unfold alloc_prop at hs
      rcases hr : resize_props o avail with ⟨hres, R, a1⟩
      rw [hr] at hs
      simp only at hs
      by_cases hf : FAILED hres = true
      · rw [if_pos hf] at hs
        cases hs
      · simpa using hf
    have hroom := resize_props_room o avail hwf.2.2.2.1 (by have := hwf.2.1; omega) hfail
    refine (push_new_wf _ name
      (fun p => { p with name := name, type := type, flags := flags,
                         hash := string_hash name })
      (fun r => ⟨rfl, rfl, rfl, rfl⟩) hR hroom.1 ?_).1
    rw [hroom.2]
    have := hwf.2.2.2.1
    have := pow_bound hb
    unfold NIL at *
    omega

theorem init_object_wf (ctx : Nat) (builtin_info : builtin_info_t) (prototype : Option Nat) :
    props_wf (init_object ctx builtin_info prototype) := by
  have hhead : ∀ b, (slot (init_object ctx builtin_info prototype) b).bucket_head = NIL := by
    intro b
    unfold slot init_object
    simp only [List.getD_eq_getElem?_getD, List.getElem?_replicate]
    split <;> rfl
  have hpow : (4 : Nat) = 2 ^ 2 := by norm_num
  refine ⟨rfl, Nat.le_refl 4, ⟨2, (by show 2 < 4; omega), hpow⟩, Nat.zero_le 4,
    (fun i hi => absurd hi (Nat.not_lt_zero i)), ?_⟩
  intro b _
  rw [chain_ok_iff _ b (Nat.zero_le _)]
  exact ⟨[], hhead b, List.nodup_nil, (fun i hi => nomatch hi),
    (fun i hi => absurd hi (Nat.not_lt_zero i))⟩

theorem table_reach_props_wf (o : jsdisp_t) (h : table_reach o) : props_wf o := by
  induction h with
  | init ctx info proto => exact init_object_wf ctx info proto
  | alloc o name type flags avail _ hb ih => exact alloc_prop_wf o name type flags avail ih hb
  | resize o avail _ hb ih => exact resize_props_wf o avail ih hb
  | raw o hash name ci o1 r _ hr ih =>
    obtain ⟨o2, r2, h2, hwf, _⟩ := raw_lookup_wf o hash name ci ih
    rw [hr] at h2
    injection h2 with h2
    injection h2 with h2 _
    rw [h2]
    exact hwf

/-- In a well-formed table every chain ends in the sentinel, has no slot twice,
and a slot in use is once on the chain of the bucket of its hash and on no
other chain. -/
theorem props_wf_count (o : jsdisp_t) (hwf : props_wf o) (b : Nat) (hb : b < o.buf_size) :
    ∃ l, bucket_chain o b = some l ∧ l.Nodup ∧
      ∀ i, i < o.prop_cnt →
        l.count i = if b = get_props_idx o (slot o i).hash then 1 else 0 := by
  have hc := hwf.2.2.2.2.2 b hb
  unfold chain_ok at hc
  cases hbc : bucket_chain o b with
  | none => rw [hbc] at hc; exact hc.elim
  | some l =>
    rw [hbc] at hc
    obtain ⟨hnd, hin, hall⟩ := hc
    refine ⟨l, rfl, hnd, fun i hi => ?_⟩
    by_cases e : b = get_props_idx o (slot o i).hash
    · rw [if_pos e]
      exact List.count_eq_one_of_mem hnd (hall i hi e.symm)
    · rw [if_neg e]
      exact List.count_eq_zero_of_not_mem (fun hm => e (hin i hm).2.symm)

/-- C23. Well-formedness of the hash table is an invariant: in every table
reachable from `init_dispex` by `alloc_prop`, `resize_props` and
`find_prop_name_raw`, `buf_size` is a power of two that is at least 4,
`prop_cnt <= buf_size`, the chain of every bucket ends in the sentinel and
holds no slot twice, and every slot in use has the hash of its name and is
once on the chain of the bucket of that hash and on no other chain. -/
theorem table_wf_invariant (o : jsdisp_t) (h : table_reach o) :
    (∃ k, o.buf_size = 2 ^ k) ∧ 4 ≤ o.buf_size ∧ o.prop_cnt ≤ o.buf_size ∧
    (∀ b, b < o.buf_size → ∃ l, bucket_chain o b = some l ∧ l.Nodup ∧
      ∀ i, i < o.prop_cnt →
        (slot o i).hash = string_hash (slot o i).name ∧
        l.count i = if b = get_props_idx o (string_hash (slot o i).name) then 1 else 0) := by
  have hwf := table_reach_props_wf o h
  obtain ⟨k, _, hk⟩ := hwf.2.2.1
  refine ⟨⟨k, hk⟩, hwf.2.1, hwf.2.2.2.1, fun b hb => ?_⟩
  obtain ⟨l, hl, hnd, hcnt⟩ := props_wf_count o hwf b hb
  refine ⟨l, hl, hnd, fun i hi => ?_⟩
  have hh := hwf.2.2.2.2.1 i hi
  refine ⟨hh, ?_⟩
  rw [← hh]
  exact hcnt i hi

/-- C25. Resizing preserves the membership of the bucket chains: for a table
with `prop_cnt = buf_size`, a successful `resize_props` doubles `buf_size`,
keeps every slot at its index, and leaves every slot in use once on the chain
of the bucket `get_props_idx(hash_i)` of the new `buf_size` and on no other
chain; when `prop_cnt != buf_size` it changes nothing. -/
theorem resize_keeps_membership (o : jsdisp_t) (avail : Nat) (hpos : 0 < o.buf_size)
    (hb : o.buf_size < 2 ^ 31) :
    (o.prop_cnt = o.buf_size → 0 < avail →
      ∃ R, resize_props o avail = (HRESULT.S_OK, R, avail - 1) ∧
        R.buf_size = 2 * o.buf_size ∧ R.prop_cnt = o.prop_cnt ∧
        (∀ i, i < o.prop_cnt → same_core (slot R i) (slot o i)) ∧
        ∀ b, b < R.buf_size → ∃ l, bucket_chain R b = some l ∧
          ∀ i, i < o.prop_cnt →
            l.count i = if b = get_props_idx R (slot o i).hash then 1 else 0) ∧
    (o.prop_cnt ≠ o.buf_size → resize_props o avail = (HRESULT.S_FALSE, o, avail)) := by
  constructor
  · intro hcnt hav
    obtain ⟨R, hR, hRb, hRc, hRl, _, hcore, hch⟩ :=
      resize_props_chain o avail (avail - 1) hcnt hpos (pow_bound hb) (malloc_pos hav)
    refine ⟨R, hR, by omega, hRc, hcore, fun b _ => ?_⟩
    refine ⟨_, bucket_chain_of_chain R b _ (hch b) ?_, fun i hi => ?_⟩
    · have := rehash_chain_length (fun i => get_props_idx R (slot o i).hash) o.prop_cnt b
      omega
    · by_cases e : b = get_props_idx R (slot o i).hash
      · rw [if_pos e]
        exact List.count_eq_one_of_mem (rehash_chain_nodup _ _ _)
          ((mem_rehash_chain _ _ _ _).2 ⟨hi, e.symm⟩)
      · rw [if_neg e]
        exact List.count_eq_zero_of_not_mem
          (fun hm => e ((mem_rehash_chain _ _ _ _).1 hm).2.symm)
  · intro hne
    unfold resize_props
    rw [if_pos (fun e => hne e.symm)]

theorem table_abcde_reach : table_reach table_abcde := by
  have h0 : table_reach (init_object 0 dispex_info none) := table_reach.init 0 dispex_info none
  have h1 := table_reach.alloc _ [97] prop_type_t.PROP_JSVAL 0 8 h0 (by decide)
  have h2 := table_reach.alloc _ [98] prop_type_t.PROP_JSVAL 0 8 h1 (by decide)
  have h3 := table_reach.alloc _ [99] prop_type_t.PROP_JSVAL 0 8 h2 (by decide)
  have h4 := table_reach.alloc _ [100] prop_type_t.PROP_JSVAL 0 8 h3 (by decide)
  exact table_reach.alloc _ [101] prop_type_t.PROP_JSVAL 0 8 h4 (by decide)

theorem table_wf_invariant_witness :
    table_reach table_abcde ∧ table_abcde.buf_size = 8 ∧ table_abcde.prop_cnt = 5 ∧
    (∃ k, table_abcde.buf_size = 2 ^ k) ∧ 4 ≤ table_abcde.buf_size ∧
    table_abcde.prop_cnt ≤ table_abcde.buf_size ∧
    (∀ b, b < table_abcde.buf_size → ∃ l, bucket_chain table_abcde b = some l ∧ l.Nodup ∧
      ∀ i, i < table_abcde.prop_cnt →
        (slot table_abcde i).hash = string_hash (slot table_abcde i).name ∧
        l.count i
          = if b = get_props_idx table_abcde (string_hash (slot table_abcde i).name) then 1
            else 0) :=
  ⟨table_abcde_reach, by decide, by decide, table_wf_invariant table_abcde table_abcde_reach⟩


theorem resize_keeps_membership_witness :
    0 < table_abcd.buf_size ∧ table_abcd.buf_size < 2 ^ 31 ∧
    table_abcd.prop_cnt = table_abcd.buf_size ∧
    ∃ R, resize_props table_abcd 8 = (HRESULT.S_OK, R, 7) ∧
      R.buf_size = 2 * table_abcd.buf_size ∧ R.prop_cnt = table_abcd.prop_cnt ∧
      (∀ i, i < table_abcd.prop_cnt → same_core (slot R i) (slot table_abcd i)) ∧
      ∀ b, b < R.buf_size → ∃ l, bucket_chain R b = some l ∧
        ∀ i, i < table_abcd.prop_cnt →
          l.count i = if b = get_props_idx R (slot table_abcd i).hash then 1 else 0 :=
  ⟨by decide, by decide, by decide,
    (resize_keeps_membership table_abcd 8 (by decide) (by decide)).1 (by decide) (by decide)⟩

/-! ### The chains after a lookup -/

/-- The chain of a bucket of a well-formed table, as a list. -/
theorem chain_members (o : jsdisp_t) (hwf : props_wf o) (c : Nat) (hc : c < o.buf_size)
    (l : List Nat) (hl : is_chain o.props (slot o c).bucket_head l) :
    l.Nodup ∧ (∀ i ∈ l, i < o.prop_cnt ∧ get_props_idx o (slot o i).hash = c) ∧
      (∀ i, i < o.prop_cnt → get_props_idx o (slot o i).hash = c → i ∈ l) := by
  have h := hwf.2.2.2.2.2 c hc
  rw [chain_ok_iff o c (by rw [hwf.1]; exact hwf.2.2.2.1)] at h
  obtain ⟨l1, h1, hnd, hin, hall⟩ := h
  rw [is_chain_unique _ _ _ _ hl h1]
  exact ⟨hnd, hin, hall⟩

theorem move_front_other (o : jsdisp_t) (b pv x c : Nat) (l1 : List Nat)
    (hb : b < o.props.length) (hpv : pv < o.props.length) (hx : x < o.props.length)
    (hcb : c ≠ b) (hxl : x ∉ l1) (hpl : pv ∉ l1)
    (hc : is_chain o.props (slot o c).bucket_head l1) :
    is_chain (move_front o b pv x).props (slot (move_front o b pv x) c).bucket_head l1 := by
  rw [move_front_head o b pv x c hb, if_neg hcb, is_chain_iff_seg]
  refine is_seg_congr l1 _ _ (fun y hy => ?_) ((is_chain_iff_seg _ _ _).1 hc)
  have hyx : y ≠ x := fun e => hxl (e ▸ hy)
  have hyp : y ≠ pv := fun e => hpl (e ▸ hy)
  have := move_front_next o b pv x y hpv hx
  rw [if_neg hyx, if_neg hyp] at this
  exact this

/-- The own-table lookup in a well-formed table: it returns the first slot on
the chain of the bucket whose name matches, which it moves to the head of the
chain; the other chains stay as they are. -/
theorem raw_lookup_chains (o : jsdisp_t) (hash : Nat) (name : WSTR) (ci : Bool)
    (hwf : props_wf o) :
    ∃ o1 r l, find_prop_name_raw o hash name ci = some (o1, r) ∧
      is_chain o.props (slot o (get_props_idx o hash)).bucket_head l ∧
      r = l.find? (fun p => name_match ci name (slot o p).name) ∧
      (r = none → o1 = o) ∧
      (∀ x, r = some x →
        is_chain o1.props (slot o1 (get_props_idx o hash)).bucket_head (x :: l.erase x)) ∧
      ∀ c, c < o.buf_size → c ≠ get_props_idx o hash → ∀ l1,
        is_chain o.props (slot o c).bucket_head l1 →
        is_chain o1.props (slot o1 c).bucket_head l1 := by
  have hwf0 := hwf
  obtain ⟨hlen, h4, _, hcnt, _, hch⟩ := hwf
  have hb := get_props_idx_lt o hash (by omega)
  have hblen : get_props_idx o hash < o.props.length := by rw [hlen]; exact hb
  have hc := hch _ hb
  unfold chain_ok at hc
  cases hbc : bucket_chain o (get_props_idx o hash) with
  | none => rw [hbc] at hc; exact hc.elim
  | some l =>
    rw [hbc] at hc
    obtain ⟨hnd, hin, hall⟩ := hc
    have hcf := chain_from_is_chain _ _ _ _ hbc
    have hres := raw_loop_result name ci (get_props_idx o hash) o l (o.props.length + 1)
      (slot o (get_props_idx o hash)).bucket_head NIL hcf.1 hcf.2
    unfold find_prop_name_raw
    simp only
    rw [hres]
    cases hfd : l.find? (fun p => name_match ci name (slot o p).name) with
    | none =>
      exact ⟨o, none, l, rfl, hcf.1, hfd.symm, (fun _ => rfl), (fun x hx => nomatch hx),
        fun c _ _ l1 h1 => h1⟩
    | some x =>
      have hx : x ∈ l := List.mem_of_find?_eq_some hfd
      have hlt : ∀ i ∈ l, i < o.props.length := by
        intro i hi
        have := (hin i hi).1
        omega
      by_cases hp : pred_in NIL l x ≠ NIL
      · simp only [if_pos hp]
        rcases pred_in_split l NIL x hx with ⟨h1, _⟩ | ⟨A, R, h2⟩
        · exact absurd h1 hp
        · generalize pred_in NIL l x = pv at h2 hp
          subst h2
          have hnd' := hnd
          rw [List.nodup_append] at hnd'
          obtain ⟨_, hnd2, hdis⟩ := hnd'
          have hxA : x ∉ A := fun h => hdis h (by simp)
          have hpx : pv ≠ x := by
            intro e
            rw [e] at hnd2
            simp at hnd2
          have her : (A ++ pv :: x :: R).erase x = A ++ pv :: R := by
            rw [List.erase_append_right _ hxA, List.erase_cons_tail (by simpa using hpx),
              List.erase_cons_head]
          refine ⟨_, some x, _, rfl, hcf.1, hfd.symm, (fun h => nomatch h), ?_, ?_⟩
          · intro y hy
            injection hy with hy
            subst hy
            rw [her]
            exact move_front_chain o _ pv x A R hblen hlt hnd hcf.1
          · intro c hc hcb l1 h1
            have hm := chain_members o hwf0 c hc l1 h1
            refine move_front_other o _ pv x c l1 hblen (hlt pv (by simp)) (hlt x (by simp))
              hcb ?_ ?_ h1
            · intro hxl
              have e1 := (hm.2.1 x hxl).2
              have e2 := (hin x (by simp)).2
              exact hcb (e1.symm.trans e2)
            · intro hpl
              have e1 := (hm.2.1 pv hpl).2
              have e2 := (hin pv (by simp)).2
              exact hcb (e1.symm.trans e2)
      · have hp' : pred_in NIL l x = NIL := by simpa using hp
        simp only [if_neg hp]
        refine ⟨o, some x, l, rfl, hcf.1, hfd.symm, (fun h => nomatch h), ?_, fun c _ _ l1 h1 => h1⟩
        intro y hy
        injection hy with hy
        subst hy
        rcases pred_in_split l NIL x hx with ⟨_, R, h2⟩ | ⟨A, R, h2⟩
        · rw [h2, List.erase_cons_head, ← h2]
          exact hcf.1
        · rw [hp'] at h2
          have h3 := (is_chain_iff_seg _ _ _).1 hcf.1
          have := is_seg_mem_ne l _ _ h3 NIL (by rw [h2]; simp)
          exact absurd rfl this

/-! ### The slot a lookup finds -/

theorem name_match_exact (n t : WSTR) : name_match false n t = true ↔ t = n := by
  unfold name_match
  simp only [Bool.false_eq_true, if_false, beq_iff_eq]
  rw [wcscmp_eq_zero_iff]
  exact eq_comm

theorem alloc_prop_not_failed (o : jsdisp_t) (name : WSTR) (type : prop_type_t)
    (flags avail k : Nat) (h : (alloc_prop o name type flags avail).1 = some k) :
    FAILED (resize_props o avail).1 = false := by
  unfold alloc_prop at h
  rcases hr : resize_props o avail with ⟨hres, R, a1⟩
  rw [hr] at h
  simp only at h
  by_cases hf : FAILED hres = true
  · rw [if_pos hf] at h
    cases h
  · simpa using hf

theorem first_named_lookup (o : jsdisp_t) (n : WSTR) (i : Nat) (hwf : props_wf o)
    (h : first_named o n i) :
    ∃ o1, find_prop_name_raw o (string_hash n) n false = some (o1, some i) := by
  obtain ⟨o1, r, l, hf, hl, hr, _⟩ := raw_lookup_chains o (string_hash n) n false hwf
  obtain ⟨_, hname, _, A, R, hc, hA⟩ := h
  have hlA := is_chain_unique _ _ _ _ hl hc
  subst hlA
  refine ⟨o1, ?_⟩
  rw [hf, hr, List.find?_append]
  have h1 : A.find? (fun p => name_match false n (slot o p).name) = none :=
    List.find?_eq_none.2 (fun x hx hm => hA x hx ((name_match_exact n _).1 hm))
  have h2 : (i :: R).find? (fun p => name_match false n (slot o p).name) = some i :=
    List.find?_cons_of_pos _ (by rw [hname]; exact name_match_self false n)
  rw [h1, h2]
  rfl

theorem first_named_raw (o : jsdisp_t) (n : WSTR) (i hash : Nat) (name : WSTR) (ci : Bool)
    (o1 : jsdisp_t) (r : Option Nat) (hwf : props_wf o) (h : first_named o n i)
    (hf : find_prop_name_raw o hash name ci = some (o1, r)) : first_named o1 n i := by
  obtain ⟨o1', r', l, hf', hl, hr, hnone, hsome, hother⟩ := raw_lookup_chains o hash name ci hwf
  rw [hf] at hf'
  injection hf' with hf'
  injection hf' with e1 e2
  subst e1
  subst e2
  have hfr := (raw_frame o hash name ci o1 r hf).1
  have hnm : ∀ j, (slot o1 j).name = (slot o j).name := fun j => (hfr.2.2 j).1
  obtain ⟨hcnt, hbs, _⟩ := table_frame_fields hfr
  have hidx : ∀ h, get_props_idx o1 h = get_props_idx o h := by
    intro h; unfold get_props_idx; rw [hbs]
  obtain ⟨hi, hname, hmax, A, R, hc, hA⟩ := h
  have hA1 : ∀ (A1 : List Nat), (∀ x ∈ A1, (slot o x).name ≠ n) →
      ∀ x ∈ A1, (slot o1 x).name ≠ n := by
    intro A1 h1 x hx
    rw [hnm]
    exact h1 x hx
  refine ⟨by rw [hcnt]; exact hi, by rw [hnm]; exact hname,
    fun j hj hjn => hmax j (by rw [← hcnt]; exact hj) (by rw [← hnm]; exact hjn), ?_⟩
  rw [hidx]
  by_cases hb : get_props_idx o (string_hash n) = get_props_idx o hash
  · rw [hb] at hc ⊢
    have hlA := is_chain_unique _ _ _ _ hl hc
    subst hlA
    cases r with
    | none =>
      rw [hnone rfl]
      exact ⟨A, R, hc, hA⟩
    | some x =>
      have hch := hsome x rfl
      obtain ⟨hpx, as, bs, hsplit, has⟩ := List.find?_eq_some.1 hr.symm
      have hxas : x ∉ as := by
        intro hm
        have h0 := has x hm
        have hpx' : name_match ci name (slot o x).name = true := hpx
        have h0' : (!name_match ci name (slot o x).name) = true := h0
        rw [hpx'] at h0'
        cases h0'
      have her : (A ++ i :: R).erase x = as ++ bs := by
        rw [hsplit, List.erase_append_right _ hxas, List.erase_cons_head]
      rw [her] at hch
      have hPi : x ≠ i → i ∈ as → (slot o x).name ≠ n := by
        intro _ hm e
        have h0 : (!name_match ci name (slot o i).name) = true := has i hm
        have hpx' : name_match ci name (slot o x).name = true := hpx
        rw [hname, ← e, hpx'] at h0
        cases h0
      rcases List.append_eq_append_iff.1 hsplit with ⟨a', e1, e2⟩ | ⟨c', e1, e2⟩
      · cases a' with
        | nil =>
          simp only [List.nil_append, List.cons.injEq] at e2
          rw [← e2.1] at hch
          exact ⟨[], as ++ bs, hch, fun x hx => nomatch hx⟩
        | cons y a2 =>
          simp only [List.cons_append, List.cons.injEq] at e2
          obtain ⟨e3, e4⟩ := e2
          subst e3
          have his : i ∈ as := by rw [e1]; simp
          have hxi : x ≠ i := fun e => hxas (e ▸ his)
          refine ⟨x :: A, a2 ++ bs, ?_, ?_⟩
          · rw [e1] at hch
            simpa using hch
          · apply hA1
            intro z hz
            rcases List.mem_cons.1 hz with e | e
            · rw [e]; exact hPi hxi his
            · exact hA z e
      · cases c' with
        | nil =>
          simp only [List.nil_append, List.cons.injEq] at e2
          rw [e2.1] at hch
          exact ⟨[], as ++ bs, hch, fun x hx => nomatch hx⟩
        | cons y c2 =>
          simp only [List.cons_append, List.cons.injEq] at e2
          obtain ⟨e3, e4⟩ := e2
          subst e3
          refine ⟨x :: (as ++ c2), R, ?_, ?_⟩
          · rw [e4] at hch
            simpa using hch
          · apply hA1
            intro z hz
            apply hA
            rw [e1]
            simp only [List.mem_cons, List.mem_append] at hz ⊢
            tauto
  · have hlt : get_props_idx o (string_hash n) < o.buf_size :=
      get_props_idx_lt o _ (by have := hwf.2.1; omega)
    exact ⟨A, R, hother _ hlt hb _ hc, hA1 A hA⟩

theorem first_named_resize (o : jsdisp_t) (n : WSTR) (i avail : Nat) (hwf : props_wf o)
    (hb : o.buf_size < 2 ^ 31) (h : first_named o n i) :
    first_named (resize_props o avail).2.1 n i := by
  by_cases hne : o.buf_size ≠ o.prop_cnt
  · unfold resize_props
    rw [if_pos hne]
    exact h
  · cases hm : malloc avail with
    | none =>
      unfold resize_props
      rw [if_neg hne, hm]
      exact h
    | some a1 =>
      have hcnt : o.prop_cnt = o.buf_size := by
        have : o.buf_size = o.prop_cnt := by simpa using hne
        exact this.symm
      obtain ⟨R, hR, hRb, hRc, hRl, _, hcore, hch⟩ :=
        resize_props_chain o avail a1 hcnt (by have := hwf.2.1; omega) (pow_bound hb) hm
      rw [hR]
      show first_named R n i
      obtain ⟨hi, hname, hmax, _⟩ := h
      have hnm : ∀ j, j < o.prop_cnt → (slot R j).name = (slot o j).name :=
        fun j hj => (hcore j hj).1
      have hmem : i ∈ rehash_chain (fun i => get_props_idx R (slot o i).hash) o.prop_cnt
          (get_props_idx R (string_hash n)) := by
        rw [mem_rehash_chain]
        refine ⟨hi, ?_⟩
        show get_props_idx R (slot o i).hash = get_props_idx R (string_hash n)
        rw [hwf.2.2.2.2.1 i hi, hname]
      obtain ⟨A, R1, hsplit, hA⟩ := rehash_chain_split _ _ _ _ hmem
      refine ⟨by rw [hRc]; exact hi, by rw [hnm i hi]; exact hname, ?_, A, R1, ?_, ?_⟩
      · intro j hj hjn
        rw [hRc] at hj
        rw [hnm j hj] at hjn
        exact hmax j hj hjn
      · rw [← hsplit]
        exact hch _
      · intro x hx hxn
        have hxm : x ∈ rehash_chain (fun i => get_props_idx R (slot o i).hash) o.prop_cnt
            (get_props_idx R (string_hash n)) := by
          rw [hsplit]
          exact List.mem_append_left _ hx
        have hxc := ((mem_rehash_chain _ _ _ _).1 hxm).1
        rw [hnm x hxc] at hxn
        have := hmax x hxc hxn
        have := hA x hx
        omega

/-- The table with a new slot named `m` entered: the new slot is the one the
lookup of `m` finds, and the lookup of another name finds what it found. -/
theorem push_new_first (R : jsdisp_t) (m : WSTR) (f : dispex_prop_t → dispex_prop_t)
    (hf : ∀ r, (f r).name = m ∧ (f r).hash = string_hash m ∧
      (f r).bucket_head = r.bucket_head ∧ (f r).bucket_next = r.bucket_next)
    (hwf : props_wf R) (hlt : R.prop_cnt < R.buf_size) (hnil : R.prop_cnt ≠ NIL) (n : WSTR) :
    (m = n → first_named
      { push_front (set_slot R R.prop_cnt f) (get_props_idx R (string_hash m)) R.prop_cnt
        with prop_cnt := R.prop_cnt + 1 } n R.prop_cnt) ∧
    (∀ i, m ≠ n → first_named R n i → first_named
      { push_front (set_slot R R.prop_cnt f) (get_props_idx R (string_hash m)) R.prop_cnt
        with prop_cnt := R.prop_cnt + 1 } n i) := by
  have hchain := (push_new_wf R m f hf hwf hlt hnil).2
  have hlenR : R.props.length = R.buf_size := hwf.1
  have hnm : ∀ j, (slot (push_front (set_slot R R.prop_cnt f) (get_props_idx R (string_hash m))
      R.prop_cnt) j).name = if j = R.prop_cnt then m else (slot R j).name := by
    intro j
    rw [(push_front_core _ _ _ j).1, slot_set_slot]
    by_cases e : j = R.prop_cnt
    · rw [if_pos ⟨e, by rw [hlenR]; exact hlt⟩, if_pos e]
      exact (hf _).1
    · rw [if_neg (fun h => e h.1), if_neg e]
  have hcn : get_props_idx R (string_hash n) < R.buf_size :=
    get_props_idx_lt R _ (by omega)
  constructor
  · intro e
    subst e
    have hc0 := hwf.2.2.2.2.2 _ hcn
    rw [chain_ok_iff R _ (by rw [hlenR]; exact hwf.2.2.2.1)] at hc0
    obtain ⟨l, hl, _, hin, _⟩ := hc0
    have h1 := hchain _ l hl (fun i hi => (hin i hi).1)
    rw [if_pos rfl] at h1
    refine ⟨Nat.lt_succ_self _, ?_, ?_, [], l, h1, fun x hx => nomatch hx⟩
    · show (slot (push_front _ _ _) R.prop_cnt).name = m
      rw [hnm, if_pos rfl]
    · intro j hj _
      have : j < R.prop_cnt + 1 := hj
      omega
  · intro i hmn ⟨hi, hname, hmax, A, R1, hc, hA⟩
    have hmem := chain_members R hwf _ hcn _ hc
    have h1 := hchain _ _ hc (fun i hi => (hmem.2.1 i hi).1)
    have hAlt : ∀ x ∈ A, x < R.prop_cnt :=
      fun x hx => (hmem.2.1 x (List.mem_append_left _ hx)).1
    have hA2 : ∀ x ∈ A, (slot (push_front (set_slot R R.prop_cnt f)
        (get_props_idx R (string_hash m)) R.prop_cnt) x).name ≠ n := by
      intro x hx
      rw [hnm, if_neg (by have := hAlt x hx; omega)]
      exact hA x hx
    refine ⟨Nat.lt_succ_of_lt hi, ?_, ?_, ?_⟩
    · show (slot (push_front _ _ _) i).name = n
      rw [hnm, if_neg (by omega)]
      exact hname
    · intro j hj hjn
      have hj' : j < R.prop_cnt + 1 := hj
      have hjn' : (slot (push_front (set_slot R R.prop_cnt f)
          (get_props_idx R (string_hash m)) R.prop_cnt) j).name = n := hjn
      rw [hnm] at hjn'
      by_cases e : j = R.prop_cnt
      · rw [if_pos e] at hjn'
        exact absurd hjn' hmn
      · rw [if_neg e] at hjn'
        exact hmax j (by omega) hjn'
    · by_cases e : get_props_idx R (string_hash n) = get_props_idx R (string_hash m)
      · rw [if_pos e] at h1
        refine ⟨R.prop_cnt :: A, R1, h1, ?_⟩
        intro x hx
        rcases List.mem_cons.1 hx with e1 | e1
        · show (slot (push_front _ _ _) x).name ≠ n
          rw [hnm, if_pos e1]
          exact hmn
        · exact hA2 x e1
      · rw [if_neg e] at h1
        exact ⟨A, R1, h1, hA2⟩

theorem alloc_prop_room (o : jsdisp_t) (name : WSTR) (type : prop_type_t) (flags avail k : Nat)
    (hwf : props_wf o) (hb : o.buf_size < 2 ^ 31)
    (h : (alloc_prop o name type flags avail).1 = some k) :
    (resize_props o avail).2.1.prop_cnt < (resize_props o avail).2.1.buf_size ∧
      (resize_props o avail).2.1.prop_cnt ≠ NIL := by
  have hfail := alloc_prop_not_failed o name type flags avail k h
  have hroom := resize_props_room o avail hwf.2.2.2.1 (by have := hwf.2.1; omega) hfail
  refine ⟨hroom.1, ?_⟩
  rw [hroom.2]
  have := hwf.2.2.2.1
  have := pow_bound hb
  unfold NIL at *
  omega

theorem first_named_alloc (o : jsdisp_t) (n : WSTR) (i : Nat) (m : WSTR) (type : prop_type_t)
    (flags avail : Nat) (hwf : props_wf o) (hb : o.buf_size < 2 ^ 31) (h : first_named o n i)
    (hmn : m ≠ n) : first_named (alloc_prop o m type flags avail).2.1 n i := by
  have hR := resize_props_wf o avail hwf hb
  have hfR := first_named_resize o n i avail hwf hb h
  rcases alloc_prop_cases o m type flags avail with ⟨_, h1 | h1⟩ | ⟨hs, h1⟩
  · rw [h1]; exact hfR
  · rw [h1]
    obtain ⟨hi, hname, hmax, A, R1, hc, hA⟩ := hfR
    have hcn : get_props_idx (resize_props o avail).2.1 (string_hash n)
        < (resize_props o avail).2.1.buf_size :=
      get_props_idx_lt _ _ (by have := hR.2.1; omega)
    have hmem := chain_members _ hR _ hcn _ hc
    have hnm : ∀ j, j < (resize_props o avail).2.1.prop_cnt →
        (slot (set_slot (resize_props o avail).2.1 (resize_props o avail).2.1.prop_cnt
          (fun p => { p with name := [] })) j).name = (slot (resize_props o avail).2.1 j).name := by
      intro j hj
      rw [slot_set_slot_ne _ _ (by omega)]
    refine ⟨hi, by rw [hnm i hi]; exact hname, ?_, A, R1, ?_, ?_⟩
    · intro j hj hjn
      have hj' : j < (resize_props o avail).2.1.prop_cnt := hj
      rw [hnm j hj'] at hjn
      exact hmax j hj' hjn
    · have h2 : (slot (set_slot (resize_props o avail).2.1 (resize_props o avail).2.1.prop_cnt
          (fun p => { p with name := [] }))
          (get_props_idx (resize_props o avail).2.1 (string_hash n))).bucket_head
          = (slot (resize_props o avail).2.1
            (get_props_idx (resize_props o avail).2.1 (string_hash n))).bucket_head :=
        slot_set_slot_keep (fun q => q.bucket_head) _ _ _ _ (by intro q; rfl)
      show is_chain _ (slot (set_slot _ _ _)
        (get_props_idx (resize_props o avail).2.1 (string_hash n))).bucket_head _
      rw [h2, is_chain_iff_seg]
      refine is_seg_congr _ _ _ (fun x _ => ?_) ((is_chain_iff_seg _ _ _).1 hc)
      exact slot_set_slot_keep (fun q => q.bucket_next) _ _ _ _ (by intro q; rfl)
    · intro x hx
      rw [hnm x (hmem.2.1 x (List.mem_append_left _ hx)).1]
      exact hA x hx
  · rw [h1]
    have hroom := alloc_prop_room o m type flags avail _ hwf hb hs
    exact (push_new_first _ m
      (fun p => { p with name := m, type := type, flags := flags,
                         hash := string_hash m })
      (fun r => ⟨rfl, rfl, rfl, rfl⟩) hR hroom.1 hroom.2 n).2 i hmn hfR

theorem alloc_first_named (o : jsdisp_t) (n : WSTR) (type : prop_type_t) (flags avail i : Nat)
    (o2 : jsdisp_t) (a2 : Nat) (hwf : props_wf o) (hb : o.buf_size < 2 ^ 31)
    (h : alloc_prop o n type flags avail = (some i, o2, a2)) : first_named o2 n i := by
  have hR := resize_props_wf o avail hwf hb
  have h1 : (alloc_prop o n type flags avail).1 = some i := by rw [h]
  have h2 : (alloc_prop o n type flags avail).2.1 = o2 := by rw [h]
  have hroom := alloc_prop_room o n type flags avail i hwf hb h1
  rcases alloc_prop_cases o n type flags avail with ⟨hn, _⟩ | ⟨hs, h3⟩
  · rw [h1] at hn
    cases hn
  · rw [h1] at hs
    injection hs with hs
    rw [← h2, h3, hs]
    exact (push_new_first _ n
      (fun p => { p with name := n, type := type, flags := flags,
                         hash := string_hash n })
      (fun r => ⟨rfl, rfl, rfl, rfl⟩) hR hroom.1 hroom.2 n).1 rfl

theorem table_later_first (n : WSTR) (i : Nat) (o2 o3 : jsdisp_t) (h : table_later n o2 o3)
    (hwf : props_wf o2) (hf : first_named o2 n i) : props_wf o3 ∧ first_named o3 n i := by
  induction h with
  | refl => exact ⟨hwf, hf⟩
  | alloc o1 name type flags avail _ hne hb ih =>
    exact ⟨alloc_prop_wf o1 name type flags avail ih.1 hb,
      first_named_alloc o1 n i name type flags avail ih.1 hb ih.2 hne⟩
  | resize o1 avail _ hb ih =>
    exact ⟨resize_props_wf o1 avail ih.1 hb, first_named_resize o1 n i avail ih.1 hb ih.2⟩
  | raw o1 hash name ci o4 r _ hr ih =>
    refine ⟨?_, first_named_raw o1 n i hash name ci o4 r ih.1 ih.2 hr⟩
    obtain ⟨o5, r5, h5, hwf5, _⟩ := raw_lookup_wf o1 hash name ci ih.1
    rw [hr] at h5
    injection h5 with h5
    injection h5 with h5 _
    rw [h5]
    exact hwf5

/-- C24. The own-table lookup is exact: in a well-formed table the
case-sensitive lookup of a name `n` under its hash returns, with a slot named
`n` when a slot in use has that name (tombstones included, the kind is not
looked at) and with none otherwise; and a name added by `alloc_prop` is found
at the index `alloc_prop` returned, also after later resizes, lookups and
allocations of other names. -/
theorem raw_lookup_exact (o : jsdisp_t) (n : WSTR) (hwf : props_wf o) :
    (∃ o1 r, find_prop_name_raw o (string_hash n) n false = some (o1, r) ∧
      (has_name o n → ∃ j, r = some j ∧ j < o1.prop_cnt ∧ (slot o1 j).name = n) ∧
      (¬ has_name o n → r = none)) ∧
    ∀ (type : prop_type_t) (flags avail i : Nat) (o2 : jsdisp_t) (a2 : Nat) (o3 : jsdisp_t),
      o.buf_size < 2 ^ 31 → alloc_prop o n type flags avail = (some i, o2, a2) →
      table_later n o2 o3 →
      ∃ o4, find_prop_name_raw o3 (string_hash n) n false = some (o4, some i) ∧
        (slot o4 i).name = n := by
  constructor
  · obtain ⟨o1, r, hf, _, hlt, hex⟩ := raw_lookup_wf o (string_hash n) n false hwf
    have hfr := raw_frame o (string_hash n) n false o1 r hf
    obtain ⟨hcnt, _, _⟩ := table_frame_fields hfr.1
    have hnm : ∀ j, r = some j → (slot o j).name = n :=
      fun j hj => (name_match_exact n _).1 (hfr.2.2 j hj).2.1
    refine ⟨o1, r, hf, ?_, ?_⟩
    · rintro ⟨k, hk, hkn⟩
      have hs := hex ⟨k, hk, by rw [hwf.2.2.2.2.1 k hk, hkn],
        (name_match_exact n _).2 hkn⟩
      cases r with
      | none => cases hs
      | some j =>
        refine ⟨j, rfl, by rw [hcnt]; exact hlt j rfl, ?_⟩
        rw [(hfr.1.2.2 j).1]
        exact hnm j rfl
    · intro hno
      cases r with
      | none => rfl
      | some j => exact absurd ⟨j, hlt j rfl, hnm j rfl⟩ hno
  · intro type flags avail i o2 a2 o3 hb ha hl
    have hwf2 : props_wf o2 := by
      have := alloc_prop_wf o n type flags avail hwf hb
      rw [ha] at this
      exact this
    have hf2 := alloc_first_named o n type flags avail i o2 a2 hwf hb ha
    obtain ⟨hwf3, hf3⟩ := table_later_first n i o2 o3 hl hwf2 hf2
    obtain ⟨o4, h4⟩ := first_named_lookup o3 n i hwf3 hf3
    refine ⟨o4, h4, ?_⟩
    rw [((raw_frame o3 (string_hash n) n false o4 (some i) h4).1.2.2 i).1]
    exact hf3.2.1

theorem raw_lookup_exact_witness :
    props_wf table_abcd ∧ table_abcd.buf_size < 2 ^ 31 ∧
    alloc_prop table_abcd [101] prop_type_t.PROP_JSVAL 0 8 = (some 4, table_abcde, 6) ∧
    (∃ o1 r, find_prop_name_raw table_abcd (string_hash [101]) [101] false = some (o1, r) ∧
      (has_name table_abcd [101] →
        ∃ j, r = some j ∧ j < o1.prop_cnt ∧ (slot o1 j).name = [101]) ∧
      (¬ has_name table_abcd [101] → r = none)) ∧
    ∃ o4, find_prop_name_raw table_abcde (string_hash [101]) [101] false = some (o4, some 4) ∧
      (slot o4 4).name = [101] :=
  ⟨by decide, by decide, by rfl, (raw_lookup_exact table_abcd [101] (by decide)).1,
    (raw_lookup_exact table_abcd [101] (by decide)).2 prop_type_t.PROP_JSVAL 0 8 4 table_abcde 6
      table_abcde (by decide) (by rfl) (table_later.refl _)⟩

/-! ### Pass 1 across contexts -/

theorem dec_by_own_ctx {s s1 : Store} {c : Nat → Nat} {m : Nat → Bool} (h : dec_by s s1 c m)
    (x : Nat) : own_ctx s1 x = own_ctx s x := by
  unfold own_ctx
  rw [h.2.2 x, h.1]
  cases s.obj x with
  | none => rfl
  | some o => rfl

theorem dec_by_some {s s1 : Store} {c : Nat → Nat} {m : Nat → Bool} (h : dec_by s s1 c m)
    (x : Nat) : (s1.obj x).isSome = (s.obj x).isSome := by
  rw [h.2.2 x]
  cases s.obj x with
  | none => rfl
  | some o => rfl

theorem dec_by_ready {s s1 : Store} {c : Nat → Nat} {m : Nat → Bool} (h : dec_by s s1 c m)
    (p : Nat) : obj_ready s1 p = obj_ready s p := by
  unfold obj_ready
  have hs : (fun q => (s1.obj q).isSome) = fun q => (s.obj q).isSome :=
    funext (fun q => dec_by_some h q)
  rw [h.2.2 p, hs]
  cases s.obj p with
  | none => rfl
  | some o => rfl

theorem gc_dec_ctx (s : Store) (q : Nat) (hq : (s.obj q).isSome = true) :
    ∃ s1, gc_dec s q = some s1 ∧
      dec_by s s1 (fun x => if x = q ∧ own_ctx s x = true then 1 else 0) (fun _ => false) := by
  unfold gc_dec
  cases ho : s.obj q with
  | none => rw [ho] at hq; cases hq
  | some o =>
    simp only
    by_cases hc : o.ctx = s.ctx.self
    · rw [if_pos hc]
      refine ⟨_, rfl, rfl, by simp [Store.set_obj], fun x => ?_⟩
      rw [obj_set_obj]
      by_cases e : x = q
      · subst e
        have hown : own_ctx s x = true := by
          unfold own_ctx
          rw [ho]
          simpa using hc
        rw [if_pos ⟨rfl, obj_lt ho⟩, ho]
        simp [hown]
      · rw [if_neg (fun a => e a.1)]
        cases hx : s.obj x with
        | none => rfl
        | some ox =>
          simp only [Option.map_some', Option.some.injEq]
          cases ox
          simp [e]
    · rw [if_neg hc]
      refine ⟨s, rfl, dec_by_congr (dec_by_refl s) (fun x => ?_) (fun _ => rfl)⟩
      by_cases e : x = q
      · subst e
        have hown : own_ctx s x = false := by
          unfold own_ctx
          rw [ho]
          simpa using hc
        show 0 = if x = x ∧ own_ctx s x = true then 1 else 0
        rw [if_neg (fun a => by rw [hown] at a; cases a.2)]
      · show 0 = if x = q ∧ own_ctx s x = true then 1 else 0
        rw [if_neg (fun a => e a.1)]

theorem release_all_gc_dec_ctx (E : List Nat) : ∀ (s : Store),
    (∀ q ∈ E, (s.obj q).isSome = true) →
    ∃ s1, release_all gc_dec E s = some s1 ∧
      dec_by s s1 (fun x => if own_ctx s x = true then E.count x else 0) (fun _ => false) := by
  induction E with
  | nil =>
    intro s _
    exact ⟨s, rfl, dec_by_congr (dec_by_refl s) (fun x => by simp) (fun _ => rfl)⟩
  | cons q E ih =>
    intro s hE
    obtain ⟨s0, h0, hd0⟩ := gc_dec_ctx s q (hE q (List.mem_cons_self _ _))
    obtain ⟨s1, h1, hd1⟩ := ih s0 (fun r hr => by
      rw [dec_by_some hd0 r]
      exact hE r (List.mem_cons_of_mem _ hr))
    refine ⟨s1, ?_, ?_⟩
    · simp only [release_all, h0, Option.some_bind]
      exact h1
    · refine dec_by_congr (dec_by_trans hd0 hd1) (fun x => ?_) (fun _ => rfl)
      show (if x = q ∧ own_ctx s x = true then 1 else 0)
        + (if own_ctx s0 x = true then E.count x else 0)
        = if own_ctx s x = true then (q :: E).count x else 0
      rw [dec_by_own_ctx hd0 x, List.count_cons]
      by_cases hown : own_ctx s x = true
      · simp only [hown, and_true, if_true]
        by_cases e : x = q
        · subst e; simp; omega
        · have : (q == x) = false := by simpa using (fun a : q = x => e a.symm)
          simp [e, this]
      · simp [hown]

theorem gc_pass1_obj_ctx (s : Store) (p : Nat) (hr : obj_ready s p = true) :
    ∃ s1, gc_pass1_obj s p = some s1 ∧
      dec_by s s1 (fun x => if own_ctx s x = true then (edges_of s p).count x else 0)
        (fun x => decide (x = p)) := by
  unfold obj_ready at hr
  unfold gc_pass1_obj
  cases ho : s.obj p with
  | none => rw [ho] at hr; cases hr
  | some o =>
    rw [ho] at hr
    simp only [Bool.and_eq_true, Bool.not_eq_true', List.all_eq_true] at hr
    obtain ⟨s0, h0, hd0⟩ := release_all_gc_dec_ctx (obj_edges o) s hr.2
    simp only [h0, Option.some_bind, hr.1, Bool.false_eq_true, if_false]
    have ho1 := dec_by_obj hd0 ho
    rw [ho1]
    simp only
    refine ⟨_, rfl, ?_⟩
    have hd1 : dec_by s0 (s0.set_obj p { ({ o with ref := o.ref - ((if own_ctx s p = true then
        (obj_edges o).count p else 0 : Nat) : Int), gc_marked := o.gc_marked || false } : jsdisp_t)
          with gc_marked := true }) (fun _ => 0) (fun x => decide (x = p)) := by
      refine ⟨rfl, by simp [Store.set_obj], fun x => ?_⟩
      rw [obj_set_obj]
      by_cases e : x = p
      · subst e
        rw [if_pos ⟨rfl, obj_lt ho1⟩, ho1]
        simp
      · rw [if_neg (fun a => e a.1)]
        cases hx : s0.obj x with
        | none => rfl
        | some ox =>
          simp only [Option.map_some', Option.some.injEq, e, decide_False, Bool.or_false]
          cases ox
          simp
    refine dec_by_congr (dec_by_trans hd0 hd1) (fun x => ?_) (fun x => by simp)
    rw [edges_of_some ho]
    rfl

theorem gc_pass1_list_ctx (L : List Nat) : ∀ (s : Store),
    (∀ p ∈ L, obj_ready s p = true) →
    ∃ s1, release_all gc_pass1_obj L s = some s1 ∧
      dec_by s s1 (fun x => if own_ctx s x = true then listed_links s L x else 0)
        (fun x => decide (x ∈ L)) := by
  induction L with
  | nil =>
    intro s _
    exact ⟨s, rfl, dec_by_congr (dec_by_refl s) (fun x => by simp [listed_links])
      (fun x => by simp)⟩
  | cons p L ih =>
    intro s hL
    obtain ⟨s0, h0, hd0⟩ := gc_pass1_obj_ctx s p (hL p (List.mem_cons_self _ _))
    obtain ⟨s1, h1, hd1⟩ := ih s0 (fun r hr => by
      rw [dec_by_ready hd0 r]
      exact hL r (List.mem_cons_of_mem _ hr))
    refine ⟨s1, ?_, ?_⟩
    · simp only [release_all, h0, Option.some_bind]
      exact h1
    · refine dec_by_congr (dec_by_trans hd0 hd1) (fun x => ?_) (fun x => by simp)
      show (if own_ctx s x = true then (edges_of s p).count x else 0)
        + (if own_ctx s0 x = true then listed_links s0 L x else 0)
        = if own_ctx s x = true then listed_links s (p :: L) x else 0
      rw [dec_by_own_ctx hd0 x]
      have hll : listed_links s0 L x = listed_links s L x := by
        unfold listed_links
        congr 1
        refine List.map_congr_left (fun q _ => ?_)
        rw [dec_by_edges hd0 q]
      rw [hll]
      by_cases hown : own_ctx s x = true
      · simp only [hown, if_true]
        unfold listed_links
        rw [List.map_cons, List.sum_cons]
      · simp [hown]

/-- C26. Pass 1 computes the external reference counts: on a context whose
listed objects have no type-specific traversal hook, the second loop of pass 1
of `gc_run` returns; the reference count of every object of the context is its
count at entry less the number of links (object values of value slots,
getters, setters, prototypes, each counted as often as it occurs) that the
listed objects hold on it; every listed object is marked collectible; and an
object of another context keeps its count. -/
theorem pass1_external_refs (s : Store) (hr : ∀ p ∈ s.ctx.objects, obj_ready s p = true) :
    ∃ s1, gc_pass1 s = some s1 ∧ s1.ctx = s.ctx ∧ s1.heap.length = s.heap.length ∧
      ∀ x o, s.obj x = some o →
        ∃ o1, s1.obj x = some o1 ∧ o1 = { o with ref := o1.ref, gc_marked := o1.gc_marked } ∧
          (o.ctx = s.ctx.self → o1.ref = o.ref - (listed_links s s.ctx.objects x : Int)) ∧
          (o.ctx ≠ s.ctx.self → o1.ref = o.ref) ∧
          (x ∈ s.ctx.objects → o1.gc_marked = true) ∧
          (x ∉ s.ctx.objects → o1.gc_marked = o.gc_marked) := by
  obtain ⟨s1, h1, hd⟩ := gc_pass1_list_ctx s.ctx.objects s hr
  refine ⟨s1, h1, hd.1, hd.2.1, fun x o ho => ?_⟩
  have hown : own_ctx s x = decide (o.ctx = s.ctx.self) := by
    unfold own_ctx
    rw [ho]
  refine ⟨_, dec_by_obj hd ho, rfl, ?_, ?_, ?_, ?_⟩
  · intro hc
    simp only
    rw [hown, decide_eq_true hc, if_pos rfl]
  · intro hc
    simp only
    rw [hown, decide_eq_false hc]
    simp
  · intro hx
    simp [hx]
  · intro hx
    simp [hx]

theorem pass1_external_refs_witness :
    (∀ p ∈ store_cycle.ctx.objects, obj_ready store_cycle p = true) ∧
    store_cycle.ctx.objects = [0, 1] ∧ listed_links store_cycle [0, 1] 0 = 1 ∧
    ∃ s1, gc_pass1 store_cycle = some s1 ∧ s1.ctx = store_cycle.ctx ∧
      s1.heap.length = store_cycle.heap.length ∧
      ∀ x o, store_cycle.obj x = some o →
        ∃ o1, s1.obj x = some o1 ∧ o1 = { o with ref := o1.ref, gc_marked := o1.gc_marked } ∧
          (o.ctx = store_cycle.ctx.self →
            o1.ref = o.ref - (listed_links store_cycle store_cycle.ctx.objects x : Int)) ∧
          (o.ctx ≠ store_cycle.ctx.self → o1.ref = o.ref) ∧
          (x ∈ store_cycle.ctx.objects → o1.gc_marked = true) ∧
          (x ∉ store_cycle.ctx.objects → o1.gc_marked = o.gc_marked) :=
  ⟨by decide, by decide, by decide, pass1_external_refs store_cycle (by decide)⟩

/-! ### Lazy invalidation of a prototype reference -/

theorem fix_protref_walk_spec {s : Store} : ∀ (l : List Nat) (n fuel : Nat) (start : Option Nat)
    (ref : Nat), proto_chain s n start = some l → l.length < fuel →
    ∃ b, fix_protref_walk s fuel start ref = some b ∧
      (b = true ↔ reaches_live_spec s start ref) := by
  intro l
  induction l with
  | nil =>
    intro n fuel start ref h hf
    cases start with
    | none =>
      cases fuel with
      | zero => omega
      | succ fuel =>
        refine ⟨false, rfl, ?_⟩
        constructor
        · intro h; cases h
        · intro h; cases h
    | some q =>
      obtain ⟨o, l1, m, _, _, hl⟩ := proto_chain_cons h
      cases hl
  | cons x l ih =>
    intro n fuel start ref h hf
    cases start with
    | none =>
      cases n with
      | zero => simp [proto_chain] at h
      | succ n => simp [proto_chain] at h
    | some q =>
      obtain ⟨o, l1, m, ho, hl1, hl⟩ := proto_chain_cons h
      injection hl with hx hl
      subst hl
      cases fuel with
      | zero => omega
      | succ fuel =>
        simp only [fix_protref_walk, ho]
        by_cases h1 : ref ≥ o.prop_cnt ∨ (slot o ref).type = prop_type_t.PROP_DELETED
        · rw [if_pos h1]
          refine ⟨false, rfl, ?_⟩
          constructor
          · intro h; cases h
          · intro hr
            cases hr with
            | here q ref o1 ho1 hlt hd hp =>
              rw [ho] at ho1
              injection ho1 with ho1
              subst ho1
              rcases h1 with h1 | h1
              · omega
              · exact absurd h1 hd
            | up q ref o1 ho1 hlt hp hr1 =>
              rw [ho] at ho1
              injection ho1 with ho1
              subst ho1
              rcases h1 with h1 | h1
              · omega
              · rw [hp] at h1
                cases h1
        · rw [if_neg h1]
          have hlt : ref < o.prop_cnt := by
            by_contra hc
            exact h1 (Or.inl (by omega))
          have hd : (slot o ref).type ≠ prop_type_t.PROP_DELETED := fun e => h1 (Or.inr e)
          by_cases h2 : (slot o ref).type ≠ prop_type_t.PROP_PROTREF
          · rw [if_pos h2]
            exact ⟨true, rfl, fun _ => reaches_live_spec.here q ref o ho hlt hd h2, fun _ => rfl⟩
          · rw [if_neg h2]
            have hp : (slot o ref).type = prop_type_t.PROP_PROTREF := by
              by_contra hc
              exact h2 hc
            obtain ⟨b, hb, hiff⟩ := ih m fuel o.prototype (u_ref (slot o ref).u) hl1
              (by simp only [List.length_cons] at hf; omega)
            refine ⟨b, hb, ?_⟩
            rw [hiff]
            constructor
            · intro hr
              exact reaches_live_spec.up q ref o ho hlt hp hr
            · intro hr
              cases hr with
              | here q ref o1 ho1 _ _ hp1 =>
                rw [ho] at ho1
                injection ho1 with ho1
                subst ho1
                exact absurd hp hp1
              | up q ref o1 ho1 _ _ hr1 =>
                rw [ho] at ho1
                injection ho1 with ho1
                subst ho1
                exact hr1

/-- C28. Lazy invalidation of a prototype reference: for an object with an
acyclic prototype chain, `fix_protref_prop` on a prototype-reference slot
leaves the slot as it is exactly when following the references from the
prototype of the object upward reaches, with every index in bounds, a slot that
is neither a tombstone nor a prototype reference, and otherwise turns it into
a tombstone; no other slot of any object is modified, and a slot of another
kind is left as it is. -/
theorem fix_protref_lazy (s : Store) (p i : Nat) (o : jsdisp_t) (n : Nat) (l : List Nat)
    (ho : s.obj p = some o) (hi : i < o.props.length)
    (hl : proto_chain s n o.prototype = some l) :
    ∃ s1 o1, fix_protref_prop s p i = some s1 ∧ s1.obj p = some o1 ∧
      s1.ctx = s.ctx ∧ s1.avail = s.avail ∧ s1.heap.length = s.heap.length ∧
      (∀ x, x ≠ p → s1.obj x = s.obj x) ∧
      o1 = { o with props := o1.props } ∧ (∀ k, k ≠ i → slot o1 k = slot o k) ∧
      ((slot o i).type ≠ prop_type_t.PROP_PROTREF → slot o1 i = slot o i) ∧
      ((slot o i).type = prop_type_t.PROP_PROTREF →
        (reaches_live_spec s o.prototype (u_ref (slot o i).u) → slot o1 i = slot o i) ∧
        (¬ reaches_live_spec s o.prototype (u_ref (slot o i).u) →
          slot o1 i = { slot o i with type := prop_type_t.PROP_DELETED })) := by
  have hsame : ∃ s1 o1, some s = some s1 ∧ s1.obj p = some o1 ∧
      s1.ctx = s.ctx ∧ s1.avail = s.avail ∧ s1.heap.length = s.heap.length ∧
      (∀ x, x ≠ p → s1.obj x = s.obj x) ∧
      o1 = { o with props := o1.props } ∧ (∀ k, k ≠ i → slot o1 k = slot o k) ∧
      slot o1 i = slot o i :=
    ⟨s, o, rfl, ho, rfl, rfl, rfl, fun _ _ => rfl, rfl, fun _ _ => rfl, rfl⟩
  unfold fix_protref_prop
  simp only [ho]
  by_cases ht : (slot o i).type ≠ prop_type_t.PROP_PROTREF
  · rw [if_pos ht]
    obtain ⟨s1, o1, h1, h2, h3, h4, h5, h6, h7, h8, h9⟩ := hsame
    exact ⟨s1, o1, h1, h2, h3, h4, h5, h6, h7, h8, fun _ => h9, fun e => absurd e ht⟩
  · rw [if_neg ht]
    obtain ⟨b, hb, hiff⟩ := fix_protref_walk_spec l n (s.heap.length + 1) o.prototype
      (u_ref (slot o i).u) hl (by have := proto_chain_length hl; omega)
    rw [hb]
    cases b with
    | true =>
      simp only
      obtain ⟨s1, o1, h1, h2, h3, h4, h5, h6, h7, h8, h9⟩ := hsame
      exact ⟨s1, o1, h1, h2, h3, h4, h5, h6, h7, h8, fun _ => h9,
        fun _ => ⟨fun _ => h9, fun hn => absurd (hiff.1 rfl) hn⟩⟩
    | false =>
      simp only
      have hnr : ¬ reaches_live_spec s o.prototype (u_ref (slot o i).u) := by
        intro hr
        have := hiff.2 hr
        cases this
      refine ⟨_, set_slot o i (fun q => { q with type := prop_type_t.PROP_DELETED }), rfl, ?_,
        rfl, rfl, by simp [Store.set_obj], ?_, rfl, ?_, ?_, ?_⟩
      · rw [obj_set_obj, if_pos ⟨rfl, obj_lt ho⟩]
      · intro x hx
        exact obj_set_obj_ne s hx _
      · intro k hk
        exact slot_set_slot_ne o _ hk
      · intro e
        exact absurd e ht
      · intro _
        refine ⟨fun hr => absurd hr hnr, fun _ => ?_⟩
        rw [slot_set_slot, if_pos ⟨rfl, hi⟩]

theorem fix_protref_lazy_witness :
    store_chain_stale.obj 2 = some (obj_at store_chain_stale 2) ∧
    0 < (obj_at store_chain_stale 2).props.length ∧
    proto_chain store_chain_stale 4 (obj_at store_chain_stale 2).prototype = some [1, 0] ∧
    (slot (obj_at store_chain_stale 2) 0).type = prop_type_t.PROP_PROTREF ∧
    ∃ s1 o1, fix_protref_prop store_chain_stale 2 0 = some s1 ∧ s1.obj 2 = some o1 ∧
      s1.ctx = store_chain_stale.ctx ∧ s1.avail = store_chain_stale.avail ∧
      s1.heap.length = store_chain_stale.heap.length ∧
      (∀ x, x ≠ 2 → s1.obj x = store_chain_stale.obj x) ∧
      o1 = { obj_at store_chain_stale 2 with props := o1.props } ∧
      (∀ k, k ≠ 0 → slot o1 k = slot (obj_at store_chain_stale 2) k) ∧
      ((slot (obj_at store_chain_stale 2) 0).type ≠ prop_type_t.PROP_PROTREF →
        slot o1 0 = slot (obj_at store_chain_stale 2) 0) ∧
      ((slot (obj_at store_chain_stale 2) 0).type = prop_type_t.PROP_PROTREF →
        (reaches_live_spec store_chain_stale (obj_at store_chain_stale 2).prototype
            (u_ref (slot (obj_at store_chain_stale 2) 0).u) →
          slot o1 0 = slot (obj_at store_chain_stale 2) 0) ∧
        (¬ reaches_live_spec store_chain_stale (obj_at store_chain_stale 2).prototype
            (u_ref (slot (obj_at store_chain_stale 2) 0).u) →
          slot o1 0
            = { slot (obj_at store_chain_stale 2) 0 with type := prop_type_t.PROP_DELETED })) :=
  ⟨by rfl, by decide, by rfl, by rfl,
    fix_protref_lazy store_chain_stale 2 0 (obj_at store_chain_stale 2) 4 [1, 0] (by rfl)
      (by decide) (by rfl)⟩

/-! ### Reuse of a tombstone -/

/-- Reuse of a tombstone when the resolver on the prototype answers with a live
slot: for an object with an own tombstone slot named `n`, if
`find_prop_name_prot` on the prototype returns a slot `j` that is not a
tombstone, then `find_prop_name_prot` on the object returns that same
tombstone slot, now a prototype reference with `ref = j`, and `prop_cnt` and
`buf_size` of the object are as before. -/
theorem tombstone_reused (s : Store) (p q i : Nat) (o : jsdisp_t) (n : WSTR) (m : Nat)
    (l : List Nat) (ho : s.obj p = some o) (hpx : o.proxy = none) (hwf : props_wf o)
    (hi : i < o.prop_cnt) (hn : (slot o i).name = n)
    (ht : (slot o i).type = prop_type_t.PROP_DELETED)
    (hu : ∀ j, j < o.prop_cnt → (slot o j).name = n → j = i)
    (hq : o.prototype = some q) (hl : proto_chain s m (some p) = some l) (hcw : chain_wf s l) :
    ∃ s1, find_prop_name s p (string_hash n) n false = some (s1, HRESULT.S_OK, some i) ∧
      ∀ (fuel : Nat) (s2 : Store) (hres2 : HRESULT) (j : Nat) (proto : jsdisp_t),
        find_prop_name_prot_fuel fuel s1 q (string_hash n) n false = some (s2, hres2, some j) →
        FAILED hres2 = false → s2.obj q = some proto →
        (slot proto j).type ≠ prop_type_t.PROP_DELETED →
        ∃ s3 o3, find_prop_name_prot_fuel (fuel + 1) s p (string_hash n) n false
            = some (s3, HRESULT.S_OK, some i) ∧
          s3.obj p = some o3 ∧ o3.prop_cnt = o.prop_cnt ∧ o3.buf_size = o.buf_size ∧
          (slot o3 i).type = prop_type_t.PROP_PROTREF ∧ (slot o3 i).u = prop_u.ref j ∧
          (slot o3 i).name = n ∧ (∀ k, k ≠ i → same_core (slot o3 k) (slot o k)) ∧
          (∀ x, x ≠ p → s3.obj x = s2.obj x) := by
  obtain ⟨o1, hf, hfr, _⟩ := find_prop_name_found s p n o i ho hpx hwf hi hn hu
  refine ⟨s.set_obj p o1, hf, ?_⟩
  intro fuel s2 hres2 j proto hrec hnf hproto hlive
  obtain ⟨o', l1, m', ho', hl1, hll⟩ := proto_chain_cons hl
  rw [ho] at ho'
  injection ho' with ho'
  subst ho'
  rw [hq] at hl1
  have hnd := proto_chain_nodup _ _ _ hl
  rw [hll] at hnd hcw
  have hpl1 : p ∉ l1 := (List.nodup_cons.1 hnd).1
  have hs1 : ∀ x ∈ l1, (s.set_obj p o1).obj x = s.obj x := by
    intro x hx
    have hxp : x ≠ p := by
      intro e
      rw [e] at hx
      exact hpl1 hx
    exact obj_set_obj_ne s hxp _
  have hobj : ∀ x ∈ l1, ∃ ox, s.obj x = some ox := by
    intro x hx
    have := hcw x (List.mem_cons_of_mem _ hx)
    unfold obj_wf at this
    cases hox : s.obj x with
    | none => rw [hox] at this; exact this.elim
    | some ox => exact ⟨ox, rfl⟩
  have hl1' : proto_chain (s.set_obj p o1) m' (some q) = some l1 := by
    refine proto_chain_congr m' (some q) l1 hl1 (fun x hx => ?_)
    obtain ⟨ox, hox⟩ := hobj x hx
    exact ⟨ox, ox, hox, by rw [hs1 x hx]; exact hox, rfl⟩
  have hcw1 : chain_wf (s.set_obj p o1) l1 := by
    intro x hx
    have := hcw x (List.mem_cons_of_mem _ hx)
    unfold obj_wf at this ⊢
    rw [hs1 x hx]
    exact this
  have hok := find_prop_name_prot_ok (string_hash n) n false fuel (s.set_obj p o1) q m' l1 s2
    hres2 (some j) hl1' hcw1 hrec hnf
  have hp1 : (s.set_obj p o1).obj p = some o1 := obj_set_obj_self ho o1
  have hp2 : s2.obj p = some o1 := by
    rw [hok.1 p hpl1 (obj_lt hp1)]
    exact hp1
  have ht1 : (slot o1 i).type = prop_type_t.PROP_DELETED := by
    rw [(hfr.2.2 i).2.2.1]
    exact ht
  have hq1 : o1.prototype = some q := by
    rw [hfr.1]
    exact hq
  have hlen : i < o1.props.length := by
    rw [hfr.2.1, hwf.1]
    have := hwf.2.2.2.1
    omega
  refine ⟨s2.set_obj p (set_slot o1 i (fun r =>
    { r with type := prop_type_t.PROP_PROTREF, u := prop_u.ref j })), _, ?_, obj_set_obj_self hp2 _,
    ?_, ?_, ?_, ?_, ?_, ?_, ?_⟩
  · have hfail : FAILED HRESULT.S_OK = false := rfl
    simp only [find_prop_name_prot_fuel, hf, hfail, hp1, ht1, hq1, hrec, hnf, hproto, hlive,
      store_set_slot, hp2, Bool.false_eq_true, if_false, ne_eq, not_true_eq_false, decide_False,
      not_false_eq_true, if_true, Option.map_some']
  · show o1.prop_cnt = o.prop_cnt
    rw [hfr.1]
  · show o1.buf_size = o.buf_size
    rw [hfr.1]
  · rw [slot_set_slot, if_pos ⟨rfl, hlen⟩]
  · rw [slot_set_slot, if_pos ⟨rfl, hlen⟩]
  · rw [slot_set_slot, if_pos ⟨rfl, hlen⟩]
    show (slot o1 i).name = n
    rw [(hfr.2.2 i).1]
    exact hn
  · intro k hk
    rw [slot_set_slot_ne o1 _ hk]
    exact hfr.2.2 k
  · intro x hx
    exact obj_set_obj_ne s2 hx _

theorem tombstone_reused_witness :
    (slot (obj_at store_reinherit 1) 0).type = prop_type_t.PROP_DELETED ∧
    (slot (obj_at store_reinherit 1) 0).name = name_x ∧
    (find_prop_name_prot store_reinherit 1 (string_hash name_x) name_x false).map (fun r => r.2)
      = some (HRESULT.S_OK, some 0) ∧
    ∃ s1, find_prop_name store_reinherit 1 (string_hash name_x) name_x false
        = some (s1, HRESULT.S_OK, some 0) ∧
      ∀ (fuel : Nat) (s2 : Store) (hres2 : HRESULT) (j : Nat) (proto : jsdisp_t),
        find_prop_name_prot_fuel fuel s1 0 (string_hash name_x) name_x false
          = some (s2, hres2, some j) →
        FAILED hres2 = false → s2.obj 0 = some proto →
        (slot proto j).type ≠ prop_type_t.PROP_DELETED →
        ∃ s3 o3, find_prop_name_prot_fuel (fuel + 1) store_reinherit 1 (string_hash name_x) name_x
            false = some (s3, HRESULT.S_OK, some 0) ∧
          s3.obj 1 = some o3 ∧ o3.prop_cnt = (obj_at store_reinherit 1).prop_cnt ∧
          o3.buf_size = (obj_at store_reinherit 1).buf_size ∧
          (slot o3 0).type = prop_type_t.PROP_PROTREF ∧ (slot o3 0).u = prop_u.ref j ∧
          (slot o3 0).name = name_x ∧
          (∀ k, k ≠ 0 → same_core (slot o3 k) (slot (obj_at store_reinherit 1) k)) ∧
          (∀ x, x ≠ 1 → s3.obj x = s2.obj x) :=
  ⟨by rfl, by rfl, by rfl,
    tombstone_reused store_reinherit 1 0 0 (obj_at store_reinherit 1) name_x 3 [1, 0] (by rfl)
      (by rfl) (by decide) (by decide) (by rfl) (by rfl) (by decide) (by rfl) (by rfl)
      (by decide)⟩

/-! ### The scan for an element index -/

/-- C30. The object of `store_indexed` has no proxy, no slot and no builtin
entry, and a million indexed elements.  The empty name and the name `01` are
not the decimal representation of an integer (that of 0 is `0`, that of 1 is
`1`), yet `find_prop_name` materialises the indexed slots 0 and 1 under these
names; and `700000` is the decimal representation of an index below the
element count, yet `find_prop_name` returns no slot for it, because the scan
stops once the value has reached `0x10000`. -/
theorem indexed_scan_diverges :
    (store_indexed.obj 0).map (fun o => (o.proxy, o.prop_cnt, o.builtin_info.props,
        o.builtin_info.idx_length)) = some (none, 0, [], some 1000000) ∧
    decimal_name 0 = [48] ∧ decimal_name 1 = [49] ∧ decimal_name 700000 = name_700000 ∧
    found_slot store_indexed 0 []
      = some (HRESULT.S_OK, some ([], prop_type_t.PROP_IDX, PROPF_ENUMERABLE, prop_u.idx 0)) ∧
    found_slot store_indexed 0 name_01
      = some (HRESULT.S_OK,
          some (name_01, prop_type_t.PROP_IDX, PROPF_ENUMERABLE, prop_u.idx 1)) ∧
    found_slot store_indexed 0 name_700000 = some (HRESULT.S_OK, none) ∧
    found_slot store_indexed 0 (decimal_name 1)
      = some (HRESULT.S_OK,
          some ([49], prop_type_t.PROP_IDX, PROPF_ENUMERABLE, prop_u.idx 1)) := by
  refine ⟨by rfl, by rfl, by rfl, by rfl, by rfl, by rfl, by rfl, by rfl⟩

/-! ### The resolver of an object with a proxy -/

theorem fix_overridden_prop_px_plain (px : proxy_t) (s : Store) (p i : Nat)
    (r : Store × HRESULT) (h : fix_overridden_prop s p i = some r) :
    fix_overridden_prop_px px s p i = some r := by
  unfold fix_overridden_prop at h
  unfold fix_overridden_prop_px
  cases ho : s.obj p with
  | none => rw [ho] at h; cases h
  | some o =>
    rw [ho] at h
    simp only at h ⊢
    cases hp : o.proxy with
    | none =>
      rw [hp] at h
      exact h
    | some d =>
      rw [hp] at h
      simp only [Option.isSome_some, if_true] at h
      simp only [Option.isNone_some, Bool.false_eq_true, if_false]
      cases ht : (slot o i).type <;> rw [ht] at h <;>
        first | (cases h; done) | (rw [← h])

theorem find_prop_name_px_plain (px : proxy_t) (s : Store) (p hash : Nat) (name : WSTR)
    (ci : Bool) (r : Store × HRESULT × Option Nat)
    (h : find_prop_name s p hash name ci = some r) :
    find_prop_name_px px s p hash name ci = some r := by
  cases ho : s.obj p with
  | none =>
    unfold find_prop_name at h
    rw [ho] at h
    cases h
  | some o =>
    have hpx := find_prop_name_proxy h ho
    unfold find_prop_name at h
    unfold find_prop_name_px
    rw [ho] at h ⊢
    simp only at h ⊢
    cases hr : find_prop_name_raw o hash name ci with
    | none => rw [hr] at h; cases h
    | some rr =>
      obtain ⟨T, r1⟩ := rr
      have hT : T.proxy = none := by
        rw [(raw_frame o hash name ci T r1 hr).1.1]
        exact hpx
      rw [hr] at h
      cases r1 with
      | some k =>
        simp only [hpx, Option.isSome_none, Bool.false_eq_true, if_false] at h
        simp only
        have hf : fix_overridden_prop_px px (s.set_obj p T) p k
            = some (s.set_obj p T, HRESULT.S_OK) := by
          unfold fix_overridden_prop_px
          rw [obj_set_obj_self ho T]
          simp only [hT, Option.isNone_none, if_true]
        rw [hf, ← h]
        rfl
      | none =>
        simp only [hpx, Option.isSome_none, Bool.false_eq_true, if_false] at h
        simp only [hT, Option.isSome_none, Bool.false_eq_true, if_false]
        rw [← h]
        rfl

/-- C21 (counterexample). In `store_proxied` the object is bound to a proxy
and has the own value slot `x`; the proxy `px_owns` answers `PropGetInfo` for
`x` with `S_OK`: it owns the name.  `find_prop_name` consults the own slot
table first and returns the own value slot, without the question to the
proxy: the slot is not made a proxy slot. -/
theorem own_slot_precedes_proxy :
    (store_proxied.obj 0).map (fun o => (o.proxy, o.prop_cnt, (slot o 0).name, (slot o 0).type,
        (slot o 0).u))
      = some (some 1, 1, name_x, prop_type_t.PROP_JSVAL, prop_u.val (jsval_t.number 1)) ∧
    (px_owns.PropGetInfo name_x false).1 = HRESULT.S_OK ∧
    find_prop_name_px px_owns store_proxied 0 (string_hash name_x) name_x false
      = some (store_proxied, HRESULT.S_OK, some 0) := by
  refine ⟨by rfl, by rfl, by rfl⟩

/-- C21 (amended). For an object with a proxy and a name that has no slot in
the own slot table of the object, which `find_prop_name` consults first: when
`PropGetInfo` of the proxy answers that it owns the name, `find_prop_name`
resolves the name from the answer of the proxy, by `alloc_proxy_prop`, whatever
the builtin table and the element count of the object are; for a member that
is no function the new slot is a proxy slot with the identifier, the flags and
the name of the answer. -/
theorem proxy_answer_resolves (px : proxy_t) (s : Store) (p hash : Nat) (name : WSTR)
    (ci : Bool) (o : jsdisp_t) (info : proxy_prop_info) (ho : s.obj p = some o)
    (hpx : o.proxy.isSome = true) (hwf : props_wf o) (hb : o.prop_cnt < NIL)
    (hno : ∀ j, j < o.prop_cnt → name_match ci name (slot o j).name = false)
    (hown : px.PropGetInfo name ci = (HRESULT.S_OK, info)) :
    find_prop_name_px px s p hash name ci = alloc_proxy_prop s p info none ∧
    (info.invoke = none → 2 ≤ s.avail →
      ∃ s1 o1, find_prop_name_px px s p hash name ci
          = some (s1, HRESULT.S_OK, some o.prop_cnt) ∧
        s1.obj p = some o1 ∧ o1.prop_cnt = o.prop_cnt + 1 ∧
        o1.builtin_info = o.builtin_info ∧
        (slot o1 o.prop_cnt).name = info.name ∧
        (slot o1 o.prop_cnt).type = prop_type_t.PROP_PROXY ∧
        (slot o1 o.prop_cnt).flags = info.flags &&& PROPF_ALL ∧
        (slot o1 o.prop_cnt).u = prop_u.proxy_id info.dispid ∧
        ∀ j, j < o.prop_cnt → same_core (slot o1 j) (slot o j)) := by
  have hmiss := raw_miss o hash name ci hwf hno
  have h1 : find_prop_name_px px s p hash name ci = alloc_proxy_prop s p info none := by
    unfold find_prop_name_px
    simp only [ho, hmiss, hpx, if_true, hown, set_obj_same ho]
  refine ⟨h1, fun hinv hav => ?_⟩
  rw [h1]
  obtain ⟨This1, avail1, ha, _, _, hc, hl, hcb, _, hsf, hcore, hnm, hty, hfl, _⟩ :=
    alloc_prop_ok o info.name prop_type_t.PROP_PROXY (info.flags &&& PROPF_ALL) s.avail hwf.1
      hwf.2.2.2.1 (by have := hwf.2.1; omega) hb hav
  have hp1 : (Store.obj { s.set_obj p This1 with avail := avail1 } p) = some This1 := by
    rw [obj_with_avail]
    exact obj_set_obj_self ho This1
  have hlen : o.prop_cnt < This1.props.length := by omega
  refine ⟨Store.set_obj { s.set_obj p This1 with avail := avail1 } p
      (set_slot This1 o.prop_cnt (fun q => { q with u := prop_u.proxy_id info.dispid })),
    set_slot This1 o.prop_cnt (fun q => { q with u := prop_u.proxy_id info.dispid }), ?_,
    obj_set_obj_self hp1 _, hc, ?_, ?_, ?_, ?_, ?_, ?_⟩
  · unfold alloc_proxy_prop
    simp only [hinv, Option.isSome_none, Bool.false_eq_true, if_false, store_alloc_prop, ho, ha,
      store_set_slot, hp1, Option.map_some']
  · show This1.builtin_info = o.builtin_info
    unfold same_fields at hsf
    rw [hsf]
  · rw [slot_set_slot, if_pos ⟨rfl, hlen⟩]
    exact hnm
  · rw [slot_set_slot, if_pos ⟨rfl, hlen⟩]
    exact hty
  · rw [slot_set_slot, if_pos ⟨rfl, hlen⟩]
    exact hfl
  · rw [slot_set_slot, if_pos ⟨rfl, hlen⟩]
  · intro j hj
    rw [slot_set_slot_ne This1 _ (by omega : j ≠ o.prop_cnt)]
    exact hcore j hj

theorem proxy_answer_resolves_witness :
    store_proxied.obj 0 = some (obj_at store_proxied 0) ∧
    (obj_at store_proxied 0).proxy.isSome = true ∧ (obj_at store_proxied 0).prop_cnt = 1 ∧
    px_owns.PropGetInfo [121] false
      = (HRESULT.S_OK, { dispid := 7, flags := PROPF_ENUMERABLE, name := [121], invoke := none }) ∧
    find_prop_name_px px_owns store_proxied 0 (string_hash [121]) [121] false
      = alloc_proxy_prop store_proxied 0
          { dispid := 7, flags := PROPF_ENUMERABLE, name := [121], invoke := none } none ∧
    ∃ s1 o1, find_prop_name_px px_owns store_proxied 0 (string_hash [121]) [121] false
        = some (s1, HRESULT.S_OK, some (obj_at store_proxied 0).prop_cnt) ∧
      s1.obj 0 = some o1 ∧ o1.prop_cnt = (obj_at store_proxied 0).prop_cnt + 1 ∧
      o1.builtin_info = (obj_at store_proxied 0).builtin_info ∧
      (slot o1 (obj_at store_proxied 0).prop_cnt).name = [121] ∧
      (slot o1 (obj_at store_proxied 0).prop_cnt).type = prop_type_t.PROP_PROXY ∧
      (slot o1 (obj_at store_proxied 0).prop_cnt).flags = PROPF_ENUMERABLE &&& PROPF_ALL ∧
      (slot o1 (obj_at store_proxied 0).prop_cnt).u = prop_u.proxy_id 7 ∧
      ∀ j, j < (obj_at store_proxied 0).prop_cnt →
        same_core (slot o1 j) (slot (obj_at store_proxied 0) j) :=
  ⟨by rfl, by rfl, by rfl, by rfl,
    (proxy_answer_resolves px_owns store_proxied 0 (string_hash [121]) [121] false
      (obj_at store_proxied 0)
      { dispid := 7, flags := PROPF_ENUMERABLE, name := [121], invoke := none }
      (by rfl) (by rfl) (by decide) (by decide) (by decide) (by rfl)).1,
    (proxy_answer_resolves px_owns store_proxied 0 (string_hash [121]) [121] false
      (obj_at store_proxied 0)
      { dispid := 7, flags := PROPF_ENUMERABLE, name := [121], invoke := none }
      (by rfl) (by rfl) (by decide) (by decide) (by decide) (by rfl)).2 (by rfl) (by decide)⟩

/-- The slot after the proxy reported the name as removed, in terms of the
answer of the resolver on the prototype: for an object with a proxy and a slot
that is a proxy slot, a prototype reference or a tombstone, when
`PropFixOverride` answers `S_OK` with the identifier unknown,
`fix_overridden_prop` makes the slot a prototype reference to the slot that
`find_prop_name_prot` on the prototype returns, when that is no tombstone, and
a tombstone otherwise (no prototype, no slot returned, or a tombstone
returned); a slot of another kind is not changed. -/
theorem proxy_removed_degrades (px : proxy_t) (s : Store) (p i : Nat) (o : jsdisp_t)
    (ho : s.obj p = some o) :
    ((slot o i).type ≠ prop_type_t.PROP_PROXY → (slot o i).type ≠ prop_type_t.PROP_PROTREF →
      (slot o i).type ≠ prop_type_t.PROP_DELETED →
      fix_overridden_prop_px px s p i = some (s, HRESULT.S_OK)) ∧
    (o.proxy.isSome = true →
      ((slot o i).type = prop_type_t.PROP_PROXY ∨ (slot o i).type = prop_type_t.PROP_PROTREF ∨
        (slot o i).type = prop_type_t.PROP_DELETED) →
      ∀ info, px.PropFixOverride (slot o i).name
          (if (slot o i).type = prop_type_t.PROP_PROXY then u_proxy_id (slot o i).u
            else DISPID_UNKNOWN) = (HRESULT.S_OK, info) →
      info.dispid = DISPID_UNKNOWN →
      (o.prototype = none →
        fix_overridden_prop_px px s p i
          = some (s.set_obj p (set_slot o i (fun r =>
              { r with type := prop_type_t.PROP_DELETED })), HRESULT.S_OK)) ∧
      (∀ (q : Nat) (s1 : Store) (hres1 : HRESULT) (r : Option Nat) (o1 proto : jsdisp_t),
        o.prototype = some q →
        find_prop_name_prot s q (slot o i).hash (slot o i).name false = some (s1, hres1, r) →
        FAILED hres1 = false → s1.obj p = some o1 → s1.obj q = some proto →
        (∀ j, r = some j → (slot proto j).type ≠ prop_type_t.PROP_DELETED →
          fix_overridden_prop_px px s p i
            = some (s1.set_obj p (set_slot o1 i (fun r =>
                { r with type := prop_type_t.PROP_PROTREF, u := prop_u.ref j })), hres1)) ∧
        ((r = none ∨ ∃ j, r = some j ∧ (slot proto j).type = prop_type_t.PROP_DELETED) →
          fix_overridden_prop_px px s p i
            = some (s1.set_obj p (set_slot o1 i (fun r =>
                { r with type := prop_type_t.PROP_DELETED })), hres1)))) := by
  constructor
  · intro h1 h2 h3
    unfold fix_overridden_prop_px
    simp only [ho]
    split
    · rfl
    · cases ht : (slot o i).type
      all_goals first | exact absurd ht h1 | exact absurd ht h2 | exact absurd ht h3 | rfl
  · intro hpx hk info hfix hrem
    have hpn : o.proxy.isNone = false := by
      cases hp : o.proxy with
      | none => rw [hp] at hpx; cases hpx
      | some d => rfl
    have hask : (match (slot o i).type with
        | prop_type_t.PROP_PROXY => some (u_proxy_id (slot o i).u)
        | prop_type_t.PROP_PROTREF => some DISPID_UNKNOWN
        | prop_type_t.PROP_DELETED => some DISPID_UNKNOWN
        | _ => none)
        = some (if (slot o i).type = prop_type_t.PROP_PROXY then u_proxy_id (slot o i).u
            else DISPID_UNKNOWN) := by
      rcases hk with hk | hk | hk <;> rw [hk] <;> rfl
    have hS : (HRESULT.S_OK ≠ HRESULT.S_OK) = False := by simp
    constructor
    · intro hproto
      unfold fix_overridden_prop_px
      simp only [ho, hpn, Bool.false_eq_true, if_false, hask, hfix, hS, hrem, if_true, hproto,
        store_set_slot, Option.map_some']
    · intro q s1 hres1 r o1 proto hproto hrec hnf ho1 hq1
      constructor
      · intro j hj hlive
        subst hj
        unfold fix_overridden_prop_px
        simp only [ho, hpn, Bool.false_eq_true, if_false, hask, hfix, hS, hrem, if_true, hproto,
          hrec, hnf, hq1, hlive, ne_eq, not_false_eq_true, store_set_slot, ho1, Option.map_some']
      · intro hr
        rcases hr with hr | ⟨j, hj, hdead⟩
        · subst hr
          unfold fix_overridden_prop_px
          simp only [ho, hpn, Bool.false_eq_true, if_false, hask, hfix, hS, hrem, if_true, hproto,
            hrec, hnf, store_set_slot, ho1, Option.map_some']
        · subst hj
          unfold fix_overridden_prop_px
          simp only [ho, hpn, Bool.false_eq_true, if_false, hask, hfix, hS, hrem, if_true, hproto,
            hrec, hnf, hq1, hdead, ne_eq, not_true_eq_false, store_set_slot, ho1,
            Option.map_some']


theorem proxy_removed_degrades_witness :
    store_proxied_tomb.obj 1 = some (obj_at store_proxied_tomb 1) ∧
    (obj_at store_proxied_tomb 1).proxy.isSome = true ∧
    (slot (obj_at store_proxied_tomb 1) 0).type = prop_type_t.PROP_DELETED ∧
    (obj_at store_proxied_tomb 1).prototype = some 0 ∧
    find_prop_name_prot store_proxied_tomb 0 (slot (obj_at store_proxied_tomb 1) 0).hash
      (slot (obj_at store_proxied_tomb 1) 0).name false
      = some (store_proxied_found, HRESULT.S_OK, some 0) ∧
    (slot (obj_at store_proxied_found 0) 0).type = prop_type_t.PROP_JSVAL ∧
    fix_overridden_prop_px px_owns store_proxied_tomb 1 0
      = some (store_proxied_found.set_obj 1 (set_slot (obj_at store_proxied_found 1) 0 (fun r =>
          { r with type := prop_type_t.PROP_PROTREF, u := prop_u.ref 0 })), HRESULT.S_OK) :=
  ⟨by rfl, by rfl, by rfl, by rfl, by rfl, by rfl,
    (((proxy_removed_degrades px_owns store_proxied_tomb 1 0 (obj_at store_proxied_tomb 1)
      (by rfl)).2 (by rfl) (Or.inr (Or.inr (by rfl)))
      { dispid := DISPID_UNKNOWN, flags := 0, name := name_x, invoke := none } (by rfl)
      (by rfl)).2 0 store_proxied_found HRESULT.S_OK (some 0) (obj_at store_proxied_found 1)
      (obj_at store_proxied_found 0) (by rfl) (by rfl) (by rfl) (by rfl) (by rfl)).1 0 (by rfl)
      (by decide)⟩

/-! ### The invariant of the prototype references -/

theorem grow_refl (s : Store) : grow s s :=
  ⟨le_refl _, le_refl _, fun _ o1 h =>
    ⟨fun _ => ⟨o1, h, rfl, le_refl _⟩, fun hle => absurd (obj_lt h) (Nat.not_lt.mpr hle)⟩⟩

theorem grow_trans {a b c : Store} (h1 : grow a b) (h2 : grow b c) : grow a c := by
  refine ⟨le_trans h1.1 h2.1, le_trans h2.2.1 h1.2.1, fun x o2 hx => ⟨fun hlt => ?_, fun hle => ?_⟩⟩
  · obtain ⟨o1, ho1, hp1, hc1⟩ := (h2.2.2 x o2 hx).1 (lt_of_lt_of_le hlt h1.1)
    obtain ⟨o, ho, hp, hc⟩ := (h1.2.2 x o1 ho1).1 hlt
    exact ⟨o, ho, hp1.trans hp, le_trans hc hc1⟩
  · by_cases hb : x < b.heap.length
    · obtain ⟨o1, ho1, hp1, _⟩ := (h2.2.2 x o2 hx).1 hb
      rw [hp1]
      exact (h1.2.2 x o1 ho1).2 hle
    · exact (h2.2.2 x o2 hx).2 (Nat.le_of_not_lt hb)

theorem grow_of_same_length {s s1 : Store} (hl : s1.heap.length = s.heap.length)
    (ha : s1.avail ≤ s.avail)
    (h : ∀ x o1, s1.obj x = some o1 →
      ∃ o, s.obj x = some o ∧ o1.prototype = o.prototype ∧ o.prop_cnt ≤ o1.prop_cnt) :
    grow s s1 :=
  ⟨by rw [hl], ha, fun x o1 hx =>
    ⟨fun _ => h x o1 hx, fun hle => absurd (obj_lt hx) (by rw [hl]; exact Nat.not_lt.mpr hle)⟩⟩

theorem soft_refl (s : Store) : soft s s := ⟨rfl, rfl, store_frame_refl s⟩

theorem soft_trans {a b c : Store} (h1 : soft a b) (h2 : soft b c) : soft a c :=
  ⟨h2.1.trans h1.1, h2.2.1.trans h1.2.1, store_frame_trans h1.2.2 h2.2.2⟩

theorem soft_grow {s s1 : Store} (h : soft s s1) : grow s s1 := by
  refine grow_of_same_length h.1 (by rw [h.2.1]) (fun x o1 hx => ?_)
  obtain ⟨o, ho, hf⟩ := h.2.2 x o1 hx
  refine ⟨o, ho, ?_, ?_⟩
  · rw [hf]
  · rw [hf]

theorem props_wf_frame {o o1 : jsdisp_t} (hf : obj_frame o o1) (h : props_wf o) :
    props_wf o1 := by
  rw [hf]
  exact h

theorem inv_soft {s s1 : Store} (hinv : protref_inv s) (h : soft s s1) : protref_inv s1 := by
  refine ⟨by rw [h.2.1]; exact hinv.1, fun x o1 hx => ?_⟩
  obtain ⟨o, ho, hf⟩ := h.2.2 x o1 hx
  obtain ⟨hwf, hb, hp⟩ := hinv.2 x o ho
  have hc : o1.prop_cnt = o.prop_cnt := by rw [hf]
  have hs : ∀ i, slot o1 i = slot o i := by
    intro i
    rw [hf]
    rfl
  refine ⟨props_wf_frame hf hwf, by rw [hc, h.2.1]; exact hb, fun i hi ht => ?_⟩
  rw [hc] at hi
  rw [hs] at ht
  obtain ⟨q, hq, hlt, hv⟩ := hp i hi ht
  refine ⟨q, by rw [hf]; exact hq, by rw [h.1]; exact hlt, fun oq1 hoq1 => ?_⟩
  obtain ⟨oq, hoq, hfq⟩ := h.2.2 q oq1 hoq1
  have := hv oq hoq
  rw [hs, hfq]
  exact this

/-- A store of the object at `p` that keeps the prototype and the slots in use,
and in which every prototype reference is one of before or can be followed,
keeps the invariant. -/
theorem inv_set_obj {s : Store} {p : Nat} {o o1 : jsdisp_t} (a : Nat) (hinv : protref_inv s)
    (ho : s.obj p = some o) (ha : a ≤ s.avail) (hwf : props_wf o1)
    (hproto : o1.prototype = o.prototype) (hcnt : o.prop_cnt ≤ o1.prop_cnt)
    (hb : o1.prop_cnt + a < 2 ^ 31)
    (hnew : ∀ i, i < o1.prop_cnt → (slot o1 i).type = prop_type_t.PROP_PROTREF →
      (i < o.prop_cnt ∧ (slot o i).type = prop_type_t.PROP_PROTREF ∧
        (slot o1 i).u = (slot o i).u) ∨
      protref_valid ({ s.set_obj p o1 with avail := a } : Store) o1 i) :
    protref_inv ({ s.set_obj p o1 with avail := a } : Store) ∧
      grow s ({ s.set_obj p o1 with avail := a } : Store) := by
  have hlen : ({ s.set_obj p o1 with avail := a } : Store).heap.length = s.heap.length := by
    simp [Store.set_obj]
  have hobj : ∀ x, Store.obj ({ s.set_obj p o1 with avail := a } : Store) x
      = if x = p then some o1 else s.obj x := by
    intro x
    rw [obj_with_avail, obj_set_obj]
    by_cases e : x = p
    · rw [if_pos ⟨e, obj_lt ho⟩, if_pos e]
    · rw [if_neg (fun h => e h.1), if_neg e]
  have hold : ∀ (x : Nat) (ox : jsdisp_t) (i : Nat), s.obj x = some ox → i < ox.prop_cnt →
      (slot ox i).type = prop_type_t.PROP_PROTREF →
      ∃ q, ox.prototype = some q ∧ q < s.heap.length ∧
        ∀ oq, Store.obj ({ s.set_obj p o1 with avail := a } : Store) q = some oq →
          u_ref (slot ox i).u < oq.prop_cnt := by
    intro x ox i hox hi ht
    obtain ⟨q, hq, hlt, hv⟩ := (hinv.2 x ox hox).2.2 i hi ht
    refine ⟨q, hq, hlt, fun oq hoq => ?_⟩
    rw [hobj] at hoq
    by_cases e : q = p
    · rw [if_pos e] at hoq
      injection hoq with hoq
      subst hoq
      have := hv o (by rw [e]; exact ho)
      omega
    · rw [if_neg e] at hoq
      exact hv oq hoq
  constructor
  · refine ⟨lt_of_le_of_lt ha hinv.1, fun x ox hx => ?_⟩
    rw [hobj] at hx
    by_cases e : x = p
    · rw [if_pos e] at hx
      injection hx with hx
      subst hx
      refine ⟨hwf, hb, fun i hi ht => ?_⟩
      rcases hnew i hi ht with ⟨hi0, ht0, hu⟩ | hv
      · obtain ⟨q, hq, hlt, hv⟩ := hold p o i ho hi0 ht0
        exact ⟨q, hproto.trans hq, by rw [hlen]; exact hlt, fun oq hoq => by
          rw [hu]; exact hv oq hoq⟩
      · exact hv
    · rw [if_neg e] at hx
      obtain ⟨hwfx, hbx, _⟩ := hinv.2 x ox hx
      refine ⟨hwfx, ?_, fun i hi ht => ?_⟩
      · show ox.prop_cnt + a < 2 ^ 31
        omega
      · obtain ⟨q, hq, hlt, hv⟩ := hold x ox i hx hi ht
        exact ⟨q, hq, by rw [hlen]; exact hlt, hv⟩
  · refine grow_of_same_length hlen ha (fun x ox hx => ?_)
    rw [hobj] at hx
    by_cases e : x = p
    · rw [if_pos e] at hx
      injection hx with hx
      subst hx
      exact ⟨o, by rw [e]; exact ho, hproto, hcnt⟩
    · rw [if_neg e] at hx
      exact ⟨ox, hx, rfl, le_refl _⟩

/-- The same for a store that leaves the budget of the allocator as it is. -/
theorem inv_set_obj_plain {s : Store} {p : Nat} {o o1 : jsdisp_t} (hinv : protref_inv s)
    (ho : s.obj p = some o) (hwf : props_wf o1) (hproto : o1.prototype = o.prototype)
    (hcnt : o1.prop_cnt = o.prop_cnt)
    (hnew : ∀ i, i < o1.prop_cnt → (slot o1 i).type = prop_type_t.PROP_PROTREF →
      (i < o.prop_cnt ∧ (slot o i).type = prop_type_t.PROP_PROTREF ∧
        (slot o1 i).u = (slot o i).u) ∨
      protref_valid (s.set_obj p o1) o1 i) :
    protref_inv (s.set_obj p o1) ∧ grow s (s.set_obj p o1) :=
  inv_set_obj s.avail hinv ho (le_refl _) hwf hproto (by omega)
    (by rw [hcnt]; exact (hinv.2 p o ho).2.1) hnew

theorem malloc_some {a b : Nat} (h : malloc a = some b) : 0 < a ∧ b = a - 1 := by
  unfold malloc at h
  by_cases e : a = 0
  · rw [if_pos e] at h; cases h
  · rw [if_neg e] at h
    injection h with h
    exact ⟨by omega, h.symm⟩

theorem resize_props_proto (o : jsdisp_t) (avail : Nat) :
    (resize_props o avail).2.1.prototype = o.prototype ∧ (resize_props o avail).2.2 ≤ avail := by
  unfold resize_props
  by_cases h : o.buf_size ≠ o.prop_cnt
  · rw [if_pos h]; exact ⟨rfl, le_refl _⟩
  · rw [if_neg h]
    cases hm : malloc avail with
    | none => exact ⟨rfl, le_refl _⟩
    | some a =>
      have ha := malloc_some hm
      refine ⟨?_, by show a ≤ avail; omega⟩
      show (List.foldl rehash_step _ _).prototype = o.prototype
      rw [(rehash_foldl_frame _ _).1]

theorem resize_props_wf_cnt (o : jsdisp_t) (avail : Nat) (hwf : props_wf o)
    (hb : o.prop_cnt < 2 ^ 31) : props_wf (resize_props o avail).2.1 := by
  by_cases h : o.buf_size ≠ o.prop_cnt
  · unfold resize_props
    rw [if_pos h]
    exact hwf
  · exact resize_props_wf o avail hwf (by omega)

theorem alloc_prop_avail (o : jsdisp_t) (name : WSTR) (type : prop_type_t) (flags avail : Nat) :
    (alloc_prop o name type flags avail).2.2 ≤ avail ∧
    ((alloc_prop o name type flags avail).1 ≠ none →
      (alloc_prop o name type flags avail).2.2 < avail) := by
  have ha1 := (resize_props_proto o avail).2
  unfold alloc_prop
  rcases hr : resize_props o avail with ⟨hres, R, a1⟩
  rw [hr] at ha1
  simp only at ha1 ⊢
  by_cases hf : FAILED hres = true
  · rw [if_pos hf]; exact ⟨ha1, fun h => absurd rfl h⟩
  · rw [if_neg hf]
    cases hm : malloc a1 with
    | none => exact ⟨ha1, fun h => absurd rfl h⟩
    | some a2 =>
      have := malloc_some hm
      exact ⟨by show a2 ≤ avail; omega, fun _ => by show a2 < avail; omega⟩

/-- The slot table after `alloc_prop`: well formed, with the prototype and the
slots of before, and one slot more when the call gave one. -/
theorem alloc_prop_facts (o : jsdisp_t) (name : WSTR) (type : prop_type_t) (flags avail : Nat)
    (hwf : props_wf o) (hb : o.prop_cnt < 2 ^ 31) :
    props_wf (alloc_prop o name type flags avail).2.1 ∧
    (alloc_prop o name type flags avail).2.1.prototype = o.prototype ∧
    (∀ j, j < o.prop_cnt → same_core (slot (alloc_prop o name type flags avail).2.1 j) (slot o j)) ∧
    (((alloc_prop o name type flags avail).1 = none ∧
        (alloc_prop o name type flags avail).2.1.prop_cnt = o.prop_cnt) ∨
      ((alloc_prop o name type flags avail).1 = some o.prop_cnt ∧
        (alloc_prop o name type flags avail).2.1.prop_cnt = o.prop_cnt + 1 ∧
        (slot (alloc_prop o name type flags avail).2.1 o.prop_cnt).type = type ∧
        o.prop_cnt < (alloc_prop o name type flags avail).2.1.props.length)) := by
  have hR := resize_props_wf_cnt o avail hwf hb
  have hRp := (resize_props_proto o avail).1
  have hRc : (resize_props o avail).2.1.prop_cnt = o.prop_cnt := by
    unfold resize_props
    by_cases h : o.buf_size ≠ o.prop_cnt
    · rw [if_pos h]
    · rw [if_neg h]
      cases hm : malloc avail with
      | none => rfl
      | some a => exact (rehash_foldl_core _ _ 0).2
  have hcore := fun j hj => (resize_props_core o avail j hj).1
  rcases alloc_prop_cases o name type flags avail with ⟨hn, h | h⟩ | ⟨hs, h⟩
  · rw [h]
    exact ⟨hR, hRp, hcore, Or.inl ⟨hn, hRc⟩⟩
  · rw [h]
    refine ⟨props_wf_set_free _ _ _ (le_refl _) (fun r => ⟨rfl, rfl⟩) hR, hRp, fun j hj => ?_,
      Or.inl ⟨hn, hRc⟩⟩
    rw [slot_set_slot_ne _ _ (by omega : j ≠ (resize_props o avail).2.1.prop_cnt)]
    exact hcore j hj
  · have hfail : FAILED (resize_props o avail).1 = false := by
      unfold alloc_prop at hs
      rcases hr : resize_props o avail with ⟨hres, R, a1⟩
      rw [hr] at hs
      simp only at hs
      by_cases hf : FAILED hres = true
      · rw [if_pos hf] at hs
        cases hs
      · simpa using hf
    have hroom := resize_props_room o avail hwf.2.2.2.1 (by have := hwf.2.1; omega) hfail
    have hw := (push_new_wf _ name
      (fun p => { p with name := name, type := type, flags := flags,
                         hash := string_hash name })
      (fun r => ⟨rfl, rfl, rfl, rfl⟩) hR hroom.1 (by
        rw [hRc]
        unfold NIL
        omega)).1
    rw [h]
    refine ⟨hw, hRp, fun j hj => ?_, Or.inr ⟨by rw [hs, hRc], by show _ + 1 = _; rw [hRc], ?_, ?_⟩⟩
    · refine same_core_trans (push_front_core _ _ _ j) ?_
      rw [slot_set_slot_ne _ _ (by omega : j ≠ (resize_props o avail).2.1.prop_cnt)]
      exact hcore j hj
    · have hlt : (resize_props o avail).2.1.prop_cnt < (resize_props o avail).2.1.props.length := by
        rw [hR.1]; exact hroom.1
      have h1 := (push_front_core (set_slot (resize_props o avail).2.1
        (resize_props o avail).2.1.prop_cnt
        (fun p => { p with name := name, type := type, flags := flags,
                           hash := string_hash name }))
        (get_props_idx (resize_props o avail).2.1 (string_hash name))
        (resize_props o avail).2.1.prop_cnt (resize_props o avail).2.1.prop_cnt).2.2.1
      rw [slot_set_slot, if_pos ⟨rfl, hlt⟩] at h1
      rw [← hRc]
      exact h1
    · show o.prop_cnt < (push_front _ _ _).props.length
      rw [push_front_length, set_slot_length, hR.1, ← hRc]
      exact hroom.1

/-! ### Releases and references taken keep the heap size -/

theorem store_frame_set_obj {s : Store} {p : Nat} {o o1 : jsdisp_t} (h : s.obj p = some o)
    (hf : obj_frame o o1) : store_frame s (s.set_obj p o1) := by
  intro q oq hq
  rw [obj_set_obj] at hq
  split at hq
  · next hc =>
    rw [hc.1]
    injection hq with hq
    subst hq
    exact ⟨o, h, hf⟩
  · exact ⟨oq, hq, rfl⟩

theorem soft_set_ref {s : Store} {p : Nat} {o : jsdisp_t} (h : s.obj p = some o) (r : Int) :
    soft s (s.set_obj p { o with ref := r }) :=
  ⟨by simp [Store.set_obj], rfl, store_frame_set_ref h r⟩

theorem soft_of_heap {s s1 : Store} (h1 : s1.heap = s.heap) (h2 : s1.avail = s.avail) :
    soft s s1 :=
  ⟨by rw [h1], h2, fun q o1 hq => ⟨o1, by unfold Store.obj at hq ⊢; rw [← h1]; exact hq, rfl⟩⟩

theorem release_all_soft (rel : Store → Nat → Option Store)
    (hrel : ∀ s p s1, rel s p = some s1 → soft s s1) :
    ∀ (l : List Nat) (s s1 : Store), release_all rel l s = some s1 → soft s s1 := by
  intro l
  induction l with
  | nil => intro s s1 h; simp [release_all] at h; subst h; exact soft_refl _
  | cons x l ih =>
    intro s s1 h
    simp only [release_all, Option.bind_eq_some] at h
    obtain ⟨s2, h2, h3⟩ := h
    exact soft_trans (hrel _ _ _ h2) (ih _ _ h3)

theorem jsdisp_free_soft (rel : Store → Nat → Option Store)
    (hrel : ∀ s p s1, rel s p = some s1 → soft s s1) (s : Store) (p : Nat) (s1 : Store)
    (h : jsdisp_free rel s p = some s1) : soft s s1 := by
  unfold jsdisp_free at h
  cases ho : s.obj p with
  | none => simp [ho] at h
  | some o =>
    simp only [ho] at h
    have f1 : soft s (s.list_remove p) := soft_of_heap rfl rfl
    by_cases hp : o.proxy.isSome = true
    · simp only [hp, if_true, Option.some.injEq] at h
      subst h
      exact f1
    · simp only [hp] at h
      by_cases hw : o.has_weak_refs = true
      · simp [hw] at h
      · simp only [hw, Bool.false_eq_true, if_false, Option.bind_eq_some] at h
        obtain ⟨s2, h2, s3, h3, h4⟩ := h
        have f2 := release_all_soft rel hrel _ _ _ h2
        have f3 : soft s2 s3 := by
          cases hpr : o.prototype with
          | none => simp [hpr] at h3; subst h3; exact soft_refl _
          | some q => simp only [hpr] at h3; exact hrel _ _ _ h3
        simp only [Option.some.injEq] at h4
        subst h4
        have f4 : soft s3 (s3.free_obj p) :=
          ⟨by simp [Store.free_obj], rfl, store_frame_free_obj _ _⟩
        exact soft_trans (soft_trans (soft_trans f1 f2) f3) f4

theorem jsdisp_release_fuel_soft :
    ∀ (fuel : Nat) (s : Store) (p : Nat) (s1 : Store),
      jsdisp_release_fuel fuel s p = some s1 → soft s s1 := by
  intro fuel
  induction fuel with
  | zero => intro s p s1 h; simp [jsdisp_release_fuel] at h
  | succ n ih =>
    intro s p s1 h
    simp only [jsdisp_release_fuel] at h
    cases ho : s.obj p with
    | none => simp [ho] at h
    | some o =>
      simp only [ho] at h
      have f1 := soft_set_ref ho (o.ref - 1)
      split at h
      · exact soft_trans f1 (jsdisp_free_soft _ ih _ _ _ h)
      · simp only [Option.some.injEq] at h
        subst h
        exact f1

theorem jsdisp_release_soft (s : Store) (p : Nat) (s1 : Store)
    (h : jsdisp_release s p = some s1) : soft s s1 :=
  jsdisp_release_fuel_soft _ _ _ _ h

theorem jsdisp_addref_soft {s s1 : Store} {p : Nat} (h : jsdisp_addref s p = some s1) :
    soft s s1 := by
  unfold jsdisp_addref at h
  cases ho : s.obj p with
  | none => simp [ho] at h
  | some o =>
    simp only [ho] at h
    have f1 := soft_set_ref ho (o.ref + 1)
    split at h
    · injection h with h
      subst h
      refine soft_trans f1 ?_
      unfold jsdisp_reacquire
      split
      · exact soft_of_heap rfl rfl
      · exact soft_refl _
    · injection h with h
      subst h
      exact f1

theorem jsval_release_soft {s s1 : Store} {v : jsval_t} (h : jsval_release s v = some s1) :
    soft s s1 := by
  unfold jsval_release at h
  split at h
  · exact jsdisp_release_soft _ _ _ h
  · injection h with h
    subst h
    exact soft_refl _

theorem jsval_copy_soft {s s1 : Store} {v : jsval_t} (h : jsval_copy s v = some s1) :
    soft s s1 := by
  unfold jsval_copy at h
  split at h
  · exact jsdisp_addref_soft h
  · injection h with h
    subst h
    exact soft_refl _

theorem addref_opt_soft {s s1 : Store} {f : Option Nat} (h : addref_opt s f = some s1) :
    soft s s1 := by
  unfold addref_opt at h
  split at h
  · injection h with h
    subst h
    exact soft_refl _
  · exact jsdisp_addref_soft h

theorem release_list_soft {s s1 : Store} {l : List Nat}
    (h : release_all jsdisp_release l s = some s1) : soft s s1 :=
  release_all_soft _ jsdisp_release_soft _ _ _ h

/-! ### Stores into slots that make no prototype reference -/

theorem tame_obj_refl (o : jsdisp_t) : tame_obj o o :=
  ⟨rfl, rfl, fun _ => ⟨rfl, rfl, rfl, rfl, fun h => ⟨h, rfl⟩⟩⟩

theorem tame_obj_trans {a b c : jsdisp_t} (h1 : tame_obj a b) (h2 : tame_obj b c) :
    tame_obj a c := by
  refine ⟨?_, h2.2.1.trans h1.2.1, fun i => ?_⟩
  · rw [h2.1, h1.1]
  · obtain ⟨a1, a2, a3, a4, a5⟩ := h1.2.2 i
    obtain ⟨b1, b2, b3, b4, b5⟩ := h2.2.2 i
    refine ⟨b1.trans a1, b2.trans a2, b3.trans a3, b4.trans a4, fun h => ?_⟩
    obtain ⟨c1, c2⟩ := b5 h
    obtain ⟨d1, d2⟩ := a5 c1
    exact ⟨d1, c2.trans d2⟩

theorem tame_refl (s : Store) : tame s s :=
  ⟨rfl, rfl, fun _ o1 h => ⟨o1, h, tame_obj_refl o1⟩⟩

theorem tame_trans {a b c : Store} (h1 : tame a b) (h2 : tame b c) : tame a c := by
  refine ⟨h2.1.trans h1.1, h2.2.1.trans h1.2.1, fun x o2 hx => ?_⟩
  obtain ⟨o1, ho1, t1⟩ := h2.2.2 x o2 hx
  obtain ⟨o, ho, t⟩ := h1.2.2 x o1 ho1
  exact ⟨o, ho, tame_obj_trans t t1⟩

theorem tame_of_soft {s s1 : Store} (h : soft s s1) : tame s s1 := by
  refine ⟨h.1, h.2.1, fun x o1 hx => ?_⟩
  obtain ⟨o, ho, hf⟩ := h.2.2 x o1 hx
  refine ⟨o, ho, ?_⟩
  have hs : ∀ i, slot o1 i = slot o i := by
    intro i
    rw [hf]
    rfl
  refine ⟨by rw [hf], by rw [hf], fun i => ?_⟩
  rw [hs]
  exact ⟨rfl, rfl, rfl, rfl, fun h => ⟨h, rfl⟩⟩

theorem tame_grow {s s1 : Store} (h : tame s s1) : grow s s1 := by
  refine grow_of_same_length h.1 (by rw [h.2.1]) (fun x o1 hx => ?_)
  obtain ⟨o, ho, ht⟩ := h.2.2 x o1 hx
  refine ⟨o, ho, ?_, ?_⟩
  · rw [ht.1]
  · rw [ht.1]

theorem props_wf_tame {o o1 : jsdisp_t} (ht : tame_obj o o1) (h : props_wf o) : props_wf o1 := by
  have h1 : props_wf { o with ref := o1.ref } := h
  refine props_wf_links (o := { o with ref := o1.ref }) ?_ ht.2.1
    (fun i => ⟨(ht.2.2 i).1, (ht.2.2 i).2.1, (ht.2.2 i).2.2.1, (ht.2.2 i).2.2.2.1⟩) h1
  rw [ht.1]

theorem inv_tame {s s1 : Store} (hinv : protref_inv s) (h : tame s s1) : protref_inv s1 := by
  refine ⟨by rw [h.2.1]; exact hinv.1, fun x o1 hx => ?_⟩
  obtain ⟨o, ho, ht⟩ := h.2.2 x o1 hx
  obtain ⟨hwf, hb, hp⟩ := hinv.2 x o ho
  have hc : o1.prop_cnt = o.prop_cnt := by rw [ht.1]
  refine ⟨props_wf_tame ht hwf, by rw [hc, h.2.1]; exact hb, fun i hi ht1 => ?_⟩
  rw [hc] at hi
  obtain ⟨ht0, hu⟩ := (ht.2.2 i).2.2.2.2 ht1
  obtain ⟨q, hq, hlt, hv⟩ := hp i hi ht0
  refine ⟨q, by rw [ht.1]; exact hq, by rw [h.1]; exact hlt, fun oq1 hoq1 => ?_⟩
  obtain ⟨oq, hoq, htq⟩ := h.2.2 q oq1 hoq1
  have := hv oq hoq
  rw [hu, htq.1]
  exact this

theorem tame_set_obj {s : Store} {p : Nat} {o o1 : jsdisp_t} (ho : s.obj p = some o)
    (ht : tame_obj o o1) : tame s (s.set_obj p o1) := by
  refine ⟨by simp [Store.set_obj], rfl, fun x ox hx => ?_⟩
  rw [obj_set_obj] at hx
  split at hx
  · next hc =>
    rw [hc.1]
    injection hx with hx
    subst hx
    exact ⟨o, ho, ht⟩
  · exact ⟨ox, hx, tame_obj_refl ox⟩

theorem tame_obj_set_slot (o : jsdisp_t) (i : Nat) (f : dispex_prop_t → dispex_prop_t)
    (hk : keeps_links f)
    (ht : (f (slot o i)).type = prop_type_t.PROP_PROTREF →
      (slot o i).type = prop_type_t.PROP_PROTREF ∧ (f (slot o i)).u = (slot o i).u) :
    tame_obj o (set_slot o i f) := by
  refine ⟨rfl, set_slot_length _ _ _, fun j => ?_⟩
  rw [slot_set_slot]
  split
  · next h =>
    rw [h.1]
    exact ⟨(hk _).1, (hk _).2.1, (hk _).2.2.1, (hk _).2.2.2, ht⟩
  · exact ⟨rfl, rfl, rfl, rfl, fun h => ⟨h, rfl⟩⟩

/-- A store into a slot that keeps the links and makes no prototype reference. -/
theorem tame_set_slot {s s1 : Store} {p i : Nat} {f : dispex_prop_t → dispex_prop_t}
    (h : store_set_slot s p i f = some s1) (hk : keeps_links f)
    (ht : ∀ o, s.obj p = some o → (f (slot o i)).type = prop_type_t.PROP_PROTREF →
      (slot o i).type = prop_type_t.PROP_PROTREF ∧ (f (slot o i)).u = (slot o i).u) :
    tame s s1 := by
  obtain ⟨o, ho, rfl⟩ := store_set_slot_eq h
  exact tame_set_obj ho (tame_obj_set_slot o i f hk (ht o ho))

theorem slot_out_of_range (o : jsdisp_t) (i : Nat) (h : o.props.length ≤ i) :
    slot o i = dispex_prop_t.zero := by
  unfold slot
  simp [List.getD_eq_getElem?_getD, List.getElem?_eq_none h]

/-- After a store of a kind other than prototype reference the slot is none. -/
theorem no_protref_set_slot {s s1 : Store} {p i : Nat} {f : dispex_prop_t → dispex_prop_t}
    (h : store_set_slot s p i f = some s1)
    (hf : ∀ r, (f r).type ≠ prop_type_t.PROP_PROTREF) : no_protref s1 p i := by
  obtain ⟨o, ho, rfl⟩ := store_set_slot_eq h
  intro o1 ho1
  rw [obj_set_obj_self ho] at ho1
  injection ho1 with ho1
  subst ho1
  rw [slot_set_slot]
  split
  · exact hf _
  · next hn =>
    by_cases hl : i < o.props.length
    · exact absurd ⟨rfl, hl⟩ hn
    · rw [slot_out_of_range o i (by omega)]
      intro e
      cases e

theorem no_protref_tame {s s1 : Store} {p i : Nat} (h : tame s s1) (hn : no_protref s p i) :
    no_protref s1 p i := by
  intro o1 ho1 e
  obtain ⟨o, ho, ht⟩ := h.2.2 p o1 ho1
  exact hn o ho ((ht.2.2 i).2.2.2.2 e).1

/-- A store into a slot that is no prototype reference and is none after it. -/
theorem tame_set_slot_at {s s1 : Store} {p i : Nat} {f : dispex_prop_t → dispex_prop_t}
    (h : store_set_slot s p i f = some s1) (hk : keeps_links f) (hn : no_protref s p i)
    (hf : ∀ r, r.type ≠ prop_type_t.PROP_PROTREF → (f r).type ≠ prop_type_t.PROP_PROTREF) :
    tame s s1 :=
  tame_set_slot h hk (fun o ho e => absurd e (hf _ (hn o ho)))

theorem store_alloc_prop_eq {s s1 : Store} {p : Nat} {name : WSTR} {type : prop_type_t}
    {flags : Nat} {r : Option Nat} {o : jsdisp_t} (ho : s.obj p = some o)
    (h : store_alloc_prop s p name type flags = some (s1, r)) :
    s1 = ({ s.set_obj p (alloc_prop o name type flags s.avail).2.1 with
            avail := (alloc_prop o name type flags s.avail).2.2 } : Store) ∧
      r = (alloc_prop o name type flags s.avail).1 := by
  unfold store_alloc_prop at h
  simp only [ho] at h
  injection h with h
  injection h with h1 h2
  exact ⟨h1.symm, h2.symm⟩

/-- The function `alloc_prop` of a slot that is no prototype reference keeps the
invariant. -/
theorem alloc_inv {s s1 : Store} {p : Nat} {name : WSTR} {type : prop_type_t}
    {flags : Nat} {r : Option Nat} {o : jsdisp_t} (hinv : protref_inv s) (ho : s.obj p = some o)
    (h : store_alloc_prop s p name type flags = some (s1, r))
    (hty : r ≠ none → type ≠ prop_type_t.PROP_PROTREF) :
    protref_inv s1 ∧ grow s s1 ∧
    ∃ o1, s1.obj p = some o1 ∧ o1.prototype = o.prototype ∧
      ∀ i, r = some i → i = o.prop_cnt ∧ o1.prop_cnt = o.prop_cnt + 1 ∧
        (slot o1 i).type = type := by
  obtain ⟨hs1, hr⟩ := store_alloc_prop_eq ho h
  obtain ⟨hwf, hb, hp⟩ := hinv.2 p o ho
  obtain ⟨fwf, fproto, fcore, fcase⟩ :=
    alloc_prop_facts o name type flags s.avail hwf (by omega)
  obtain ⟨fa1, fa2⟩ := alloc_prop_avail o name type flags s.avail
  have hcnt : o.prop_cnt ≤ (alloc_prop o name type flags s.avail).2.1.prop_cnt := by
    rcases fcase with ⟨_, h⟩ | ⟨_, h, _⟩ <;> omega
  have hpot : (alloc_prop o name type flags s.avail).2.1.prop_cnt +
      (alloc_prop o name type flags s.avail).2.2 < 2 ^ 31 := by
    rcases fcase with ⟨_, h⟩ | ⟨hsome, h, _⟩
    · omega
    · have := fa2 (by rw [hsome]; exact fun e => nomatch e)
      omega
  have key := inv_set_obj (alloc_prop o name type flags s.avail).2.2 hinv ho fa1 fwf fproto hcnt
    hpot (fun i hi ht => by
      by_cases hlt : i < o.prop_cnt
      · obtain ⟨_, _, c3, _, c5⟩ := fcore i hlt
        exact Or.inl ⟨hlt, c3 ▸ ht, c5⟩
      · rcases fcase with ⟨_, h⟩ | ⟨hsome, h, htt, _⟩
        · omega
        · have hi2 : i = o.prop_cnt := by omega
          rw [hi2, htt] at ht
          exact absurd ht (hty (by rw [hr, hsome]; exact fun e => nomatch e)))
  rw [← hs1] at key
  refine ⟨key.1, key.2, (alloc_prop o name type flags s.avail).2.1, ?_, fproto, ?_⟩
  · rw [hs1, obj_with_avail]
    exact obj_set_obj_self ho _
  · intro i hi
    rw [hr] at hi
    rcases fcase with ⟨hn, _⟩ | ⟨hsome, h, htt, _⟩
    · rw [hn] at hi; cases hi
    · rw [hsome] at hi
      injection hi with hi
      subst hi
      exact ⟨rfl, h, htt⟩

theorem alloc_step_inv {s s2 : Store} {p : Nat} {name : WSTR} {type : prop_type_t}
    {flags : Nat} {r : Option Nat} (hinv : protref_inv s)
    (h : store_alloc_prop s p name type flags = some (s2, r))
    (hty : type ≠ prop_type_t.PROP_PROTREF) :
    protref_inv s2 ∧ grow s s2 ∧
    ∀ i, r = some i → ∃ o2, s2.obj p = some o2 ∧ i < o2.prop_cnt ∧ (slot o2 i).type = type := by
  cases ho : s.obj p with
  | none =>
    unfold store_alloc_prop at h
    simp [ho] at h
  | some o =>
    obtain ⟨h1, h2, o1, ho1, _, h3⟩ := alloc_inv hinv ho h (fun _ => hty)
    refine ⟨h1, h2, fun i hi => ⟨o1, ho1, ?_, (h3 i hi).2.2⟩⟩
    have := h3 i hi
    omega

theorem tame_cnt {s s1 : Store} (h : tame s s1) {p : Nat} {o1 : jsdisp_t}
    (ho1 : s1.obj p = some o1) : ∃ o, s.obj p = some o ∧ o1.prop_cnt = o.prop_cnt ∧
      o1.prototype = o.prototype := by
  obtain ⟨o, ho, ht⟩ := h.2.2 p o1 ho1
  exact ⟨o, ho, by rw [ht.1], by rw [ht.1]⟩

theorem store_set_slot_obj {s s1 : Store} {p i : Nat} {f : dispex_prop_t → dispex_prop_t}
    (h : store_set_slot s p i f = some s1) :
    ∃ o, s.obj p = some o ∧ s1.obj p = some (set_slot o i f) := by
  obtain ⟨o, ho, rfl⟩ := store_set_slot_eq h
  exact ⟨o, ho, obj_set_obj_self ho _⟩

/-- The function `alloc_prop` for a slot of a kind other than prototype
reference, followed by a store into the slot that keeps its kind. -/
theorem alloc_set_inv {s s2 s3 : Store} {p : Nat} {name : WSTR} {type : prop_type_t}
    {flags i : Nat} {f : dispex_prop_t → dispex_prop_t} (hinv : protref_inv s)
    (h : store_alloc_prop s p name type flags = some (s2, some i))
    (hty : type ≠ prop_type_t.PROP_PROTREF)
    (hs : store_set_slot s2 p i f = some s3) (hk : keeps_links f)
    (hf : ∀ r, r.type ≠ prop_type_t.PROP_PROTREF → (f r).type ≠ prop_type_t.PROP_PROTREF) :
    protref_inv s3 ∧ grow s s3 ∧ ∃ o3, s3.obj p = some o3 ∧ i < o3.prop_cnt := by
  obtain ⟨h1, h2, h3⟩ := alloc_step_inv hinv h hty
  obtain ⟨o2, ho2, hi, ht⟩ := h3 i rfl
  have hn : no_protref s2 p i := by
    intro o ho
    rw [ho2] at ho
    injection ho with ho
    subst ho
    rw [ht]
    exact hty
  have htame := tame_set_slot_at hs hk hn hf
  obtain ⟨o, ho, ho3⟩ := store_set_slot_obj hs
  rw [ho2] at ho
  injection ho with ho
  subst ho
  exact ⟨inv_tame h1 htame, grow_trans h2 (tame_grow htame), _, ho3, hi⟩

theorem obj_append_cases (s : Store) (x : jsdisp_t) (a : Nat) (q : Nat) (o : jsdisp_t)
    (h : Store.obj ({ s with heap := s.heap ++ [some x], avail := a } : Store) q = some o) :
    (q < s.heap.length ∧ s.obj q = some o) ∨ (q = s.heap.length ∧ o = x) := by
  unfold Store.obj at h ⊢
  simp only [List.getD_eq_getElem?_getD] at h ⊢
  by_cases hq : q < s.heap.length
  · rw [List.getElem?_append_left hq] at h
    exact Or.inl ⟨hq, h⟩
  · rw [List.getElem?_append_right (by omega)] at h
    by_cases he : q = s.heap.length
    · subst he
      simp at h
      exact Or.inr ⟨rfl, h.symm⟩
    · have : q - s.heap.length ≠ 0 := by omega
      cases hk : q - s.heap.length with
      | zero => exact absurd hk this
      | succ k => rw [hk] at h; simp at h

/-- A new object without slots in use, at the end of the heap. -/
theorem inv_append {s : Store} {x : jsdisp_t} {a : Nat} (hinv : protref_inv s)
    (ha : a ≤ s.avail) (hwf : props_wf x) (hc : x.prop_cnt = 0) :
    protref_inv ({ s with heap := s.heap ++ [some x], avail := a } : Store) ∧
      (x.prototype = none → grow s ({ s with heap := s.heap ++ [some x], avail := a } : Store)) := by
  constructor
  · refine ⟨lt_of_le_of_lt ha hinv.1, fun q o hq => ?_⟩
    rcases obj_append_cases s x a q o hq with ⟨hlt, ho⟩ | ⟨_, rfl⟩
    · obtain ⟨h1, h2, h3⟩ := hinv.2 q o ho
      refine ⟨h1, by show o.prop_cnt + a < 2 ^ 31; omega, fun i hi ht => ?_⟩
      obtain ⟨t, ht1, ht2, ht3⟩ := h3 i hi ht
      refine ⟨t, ht1, by simp; omega, fun ot hot => ?_⟩
      rcases obj_append_cases s x a t ot hot with ⟨_, hot1⟩ | ⟨he, _⟩
      · exact ht3 ot hot1
      · omega
    · refine ⟨hwf, ?_, fun i hi => by omega⟩
      have := hinv.1
      show o.prop_cnt + a < 2 ^ 31
      omega
  · intro hpr
    refine ⟨by simp, ha, fun q o hq => ⟨fun hlt => ?_, fun hle => ?_⟩⟩
    · rcases obj_append_cases s x a q o hq with ⟨_, ho⟩ | ⟨he, _⟩
      · exact ⟨o, ho, rfl, le_refl _⟩
      · omega
    · rcases obj_append_cases s x a q o hq with ⟨hlt, _⟩ | ⟨_, rfl⟩
      · omega
      · exact hpr

theorem create_dispex_inv {s s1 : Store} {bi : Option builtin_info_t} {proto : Option Nat}
    {hres : HRESULT} {r : Option Nat} (hinv : protref_inv s)
    (h : create_dispex s bi proto = some (s1, hres, r)) :
    protref_inv s1 ∧ (proto = none → grow s s1) := by
  unfold create_dispex at h
  cases h1 : malloc s.avail with
  | none =>
    simp only [h1, Option.some.injEq, Prod.mk.injEq] at h
    rw [← h.1]
    exact ⟨hinv, fun _ => grow_refl s⟩
  | some a1 =>
    have ha1 := malloc_some h1
    simp only [h1] at h
    cases h2 : malloc a1 with
    | none =>
      simp only [h2, Option.some.injEq, Prod.mk.injEq] at h
      rw [← h.1]
      have hs : soft ({ s with avail := a1 } : Store) ({ s with avail := a1 } : Store) :=
        soft_refl _
      refine ⟨⟨by show a1 < 2 ^ 31; have := hinv.1; omega, fun x o hx => ?_⟩,
        fun _ => grow_of_same_length rfl (by show a1 ≤ s.avail; omega)
          (fun x o hx => ⟨o, hx, rfl, le_refl _⟩)⟩
      obtain ⟨h3, h4, h5⟩ := hinv.2 x o hx
      exact ⟨h3, by show o.prop_cnt + a1 < 2 ^ 31; omega, h5⟩
    | some a2 =>
      have ha2 := malloc_some h2
      simp only [h2, Option.bind_eq_some] at h
      obtain ⟨s2, hs2, h⟩ := h
      simp only [Option.some.injEq, Prod.mk.injEq] at h
      rw [← h.1]
      have k := @inv_append s (init_object s.ctx.self (bi.getD dispex_info) proto) a2 hinv
        (by omega) (init_object_wf _ _ _) rfl
      have hsoft : soft ({ s with heap := s.heap ++
          [some (init_object s.ctx.self (bi.getD dispex_info) proto)], avail := a2 } : Store) s2 := by
        cases proto with
        | none =>
          simp only [Option.some.injEq] at hs2
          rw [← hs2]
          exact soft_refl _
        | some q => exact jsdisp_addref_soft hs2
      have hsoft2 : soft s2 (s2.list_add_tail s.heap.length) := soft_of_heap rfl rfl
      have hs := soft_trans hsoft hsoft2
      exact ⟨inv_soft k.1 hs, fun hp => grow_trans (k.2 (by rw [hp]; rfl)) (soft_grow hs)⟩

theorem fix_protref_prop_tame {s s1 : Store} {p i : Nat} (h : fix_protref_prop s p i = some s1) :
    tame s s1 := by
  cases ho : s.obj p with
  | none =>
    unfold fix_protref_prop at h
    simp [ho] at h
  | some o =>
    rcases fix_protref_prop_cases ho h with ⟨rfl, _⟩ | rfl
    · exact tame_refl _
    · exact tame_set_obj ho (tame_obj_set_slot o i _ (fun r => ⟨rfl, rfl, rfl, rfl⟩)
        (fun e => nomatch e))

/-- The own-table lookup keeps the invariant. -/
theorem raw_inv {s : Store} {p hash : Nat} {name : WSTR} {ci : Bool} {o This1 : jsdisp_t}
    {r1 : Option Nat} (hinv : protref_inv s) (ho : s.obj p = some o)
    (hr : find_prop_name_raw o hash name ci = some (This1, r1)) :
    protref_inv (s.set_obj p This1) ∧ grow s (s.set_obj p This1) ∧
      This1.prop_cnt = o.prop_cnt ∧ ∀ k, r1 = some k → k < This1.prop_cnt := by
  obtain ⟨hwf, _, _⟩ := hinv.2 p o ho
  obtain ⟨fr, _, _⟩ := raw_frame _ _ _ _ _ _ hr
  obtain ⟨o1, r, h1, hwf1, hlt, _⟩ := raw_lookup_wf o hash name ci hwf
  rw [hr] at h1
  injection h1 with h1
  injection h1 with h1 h2
  subst h1
  subst h2
  have hff := table_frame_fields fr
  have k := inv_set_obj_plain hinv ho hwf1 (same_fields_prototype hff.2.2).1 hff.1
    (fun i hi ht => Or.inl ⟨by rw [← hff.1]; exact hi, (fr.2.2 i).2.2.1 ▸ ht, (fr.2.2 i).2.2.2.2⟩)
  exact ⟨k.1, k.2, hff.1, fun k hk => by rw [hff.1]; exact hlt k hk⟩

/-- The resolver of one object keeps the invariant, and the slot it returns is
in use. -/
theorem find_prop_name_inv {s s1 : Store} {p hash : Nat} {name : WSTR} {ci : Bool}
    {hres : HRESULT} {r : Option Nat} (hinv : protref_inv s)
    (h : find_prop_name s p hash name ci = some (s1, hres, r)) :
    protref_inv s1 ∧ grow s s1 ∧ ∀ i, r = some i → ∃ o1, s1.obj p = some o1 ∧ i < o1.prop_cnt := by
  unfold find_prop_name at h
  cases ho : s.obj p with
  | none => simp [ho] at h
  | some o =>
    simp only [ho] at h
    cases hr : find_prop_name_raw o hash name ci with
    | none => simp [hr] at h
    | some rr =>
      obtain ⟨This1, r1⟩ := rr
      obtain ⟨k1, k2, _, k4⟩ := raw_inv hinv ho hr
      have ho1 : (s.set_obj p This1).obj p = some This1 := obj_set_obj_self ho _
      cases r1 with
      | some k =>
        simp only [hr] at h
        split at h
        · cases h
        · simp only [Option.some.injEq, Prod.mk.injEq] at h
          obtain ⟨rfl, rfl, rfl⟩ := h
          exact ⟨k1, k2, fun i hi => ⟨This1, ho1, by injection hi with hi; rw [← hi]; exact k4 k rfl⟩⟩
      | none =>
        simp only [hr] at h
        split at h
        · cases h
        · have fin : ∀ {sb : Store} {rb : Option Nat}, (protref_inv sb ∧
              grow (s.set_obj p This1) sb ∧
              ∀ i, rb = some i → ∃ o1, sb.obj p = some o1 ∧ i < o1.prop_cnt) →
              protref_inv sb ∧ grow s sb ∧
              ∀ i, rb = some i → ∃ o1, sb.obj p = some o1 ∧ i < o1.prop_cnt :=
            fun hh => ⟨hh.1, grow_trans k2 hh.2.1, hh.2.2⟩
          have hu : keeps_links (fun q : dispex_prop_t => q) := fun r => ⟨rfl, rfl, rfl, rfl⟩
          have alloc_case : ∀ {sx : Store} {nm : WSTR} {ty : prop_type_t} {fl : Nat}
              {f : dispex_prop_t → dispex_prop_t} {sr : Store} {hr1 : HRESULT} {rr1 : Option Nat},
              protref_inv sx →
              (match store_alloc_prop sx p nm ty fl with
                | none => none
                | some (s2, none) => some (s2, HRESULT.E_OUTOFMEMORY, none)
                | some (s2, some i) =>
                  (store_set_slot s2 p i f).map fun s3 => (s3, HRESULT.S_OK, some i)) =
                some (sr, hr1, rr1) →
              ty ≠ prop_type_t.PROP_PROTREF → keeps_links f →
              (∀ r, r.type ≠ prop_type_t.PROP_PROTREF → (f r).type ≠ prop_type_t.PROP_PROTREF) →
              protref_inv sr ∧ grow sx sr ∧
                ∀ i, rr1 = some i → ∃ o1, sr.obj p = some o1 ∧ i < o1.prop_cnt := by
            intro sx nm ty fl f sr hr1 rr1 hix hm hty hk hf
            cases ha : store_alloc_prop sx p nm ty fl with
            | none => simp [ha] at hm
            | some a =>
              obtain ⟨s3, ri⟩ := a
              cases ri with
              | none =>
                simp only [ha, Option.some.injEq, Prod.mk.injEq] at hm
                obtain ⟨rfl, _, rfl⟩ := hm
                obtain ⟨a1, a2, _⟩ := alloc_step_inv hix ha hty
                exact ⟨a1, a2, fun i hi => nomatch hi⟩
              | some k =>
                simp only [ha, Option.map_eq_some', Prod.mk.injEq] at hm
                obtain ⟨s4, hs4, rfl, _, rfl⟩ := hm
                obtain ⟨a1, a2, o3, a3, a4⟩ := alloc_set_inv hix ha hty hs4 hk hf
                exact ⟨a1, a2, fun i hi => ⟨o3, a3, by injection hi with hi; rw [← hi]; exact a4⟩⟩
          cases hb : find_builtin_prop s.ctx This1 name ci with
          | some builtin =>
            simp only [hb] at h
            split at h
            · cases hc : create_builtin_function (s.set_obj p This1) builtin.invoke builtin.name builtin.flags with
              | none => simp [hc] at h
              | some c =>
                obtain ⟨s2, hres2, fobj⟩ := c
                obtain ⟨c1, c2⟩ := create_dispex_inv k1 hc
                have c2 := c2 rfl
                cases fobj with
                | none =>
                  simp only [hc] at h
                  split at h
                  · simp only [Option.some.injEq, Prod.mk.injEq] at h
                    obtain ⟨rfl, rfl, rfl⟩ := h
                    exact fin ⟨c1, c2, fun i hi => nomatch hi⟩
                  · cases h
                | some fo =>
                  simp only [hc] at h
                  split at h
                  · simp only [Option.some.injEq, Prod.mk.injEq] at h
                    obtain ⟨rfl, rfl, rfl⟩ := h
                    exact fin ⟨c1, c2, fun i hi => nomatch hi⟩
                  · cases ha : store_alloc_prop s2 p builtin.name prop_type_t.PROP_JSVAL
                        (builtin.flags &&& PROPF_ALL ||| PROPF_WRITABLE ||| PROPF_CONFIGURABLE) with
                    | none => simp [ha] at h
                    | some a =>
                      obtain ⟨s3, ri⟩ := a
                      cases ri with
                      | none =>
                        simp only [ha, Option.map_eq_some', Prod.mk.injEq] at h
                        obtain ⟨s4, hs4, rfl, _, rfl⟩ := h
                        obtain ⟨a1, a2, _⟩ := alloc_step_inv c1 ha (fun e => nomatch e)
                        have hsf := jsdisp_release_soft _ _ _ hs4
                        exact fin ⟨inv_soft a1 hsf, grow_trans c2 (grow_trans a2 (soft_grow hsf)),
                          fun i hi => nomatch hi⟩
                      | some k =>
                        simp only [ha, Option.map_eq_some', Prod.mk.injEq] at h
                        obtain ⟨s4, hs4, rfl, _, rfl⟩ := h
                        obtain ⟨a1, a2, o3, a3, a4⟩ := alloc_set_inv c1 ha (fun e => nomatch e) hs4
                          (fun r => ⟨rfl, rfl, rfl, rfl⟩) (fun r _ e => nomatch e)
                        exact fin ⟨a1, grow_trans c2 a2,
                          fun i hi => ⟨o3, a3, by injection hi with hi; rw [← hi]; exact a4⟩⟩
            · obtain ⟨a1, a2, a3⟩ := alloc_case k1 h (fun e => nomatch e)
                (fun r => ⟨rfl, rfl, rfl, rfl⟩) (fun r hr => hr)
              exact fin ⟨a1, a2, a3⟩
          | none =>
            simp only [hb] at h
            split at h
            · split at h
              · split at h
                · obtain ⟨a1, a2, a3⟩ := alloc_case k1 h (fun e => nomatch e)
                    (fun r => ⟨rfl, rfl, rfl, rfl⟩) (fun r hr => hr)
                  exact fin ⟨a1, a2, a3⟩
                · simp only [Option.some.injEq, Prod.mk.injEq] at h
                  obtain ⟨rfl, rfl, rfl⟩ := h
                  exact fin ⟨k1, grow_refl _, fun i hi => nomatch hi⟩
              · simp only [Option.some.injEq, Prod.mk.injEq] at h
                obtain ⟨rfl, rfl, rfl⟩ := h
                exact fin ⟨k1, grow_refl _, fun i hi => nomatch hi⟩
            · simp only [Option.some.injEq, Prod.mk.injEq] at h
              obtain ⟨rfl, rfl, rfl⟩ := h
              exact fin ⟨k1, grow_refl _, fun i hi => nomatch hi⟩

theorem ranked_grow {rank : Nat → Nat} {s s1 : Store} (h : proto_ranked rank s)
    (hg : grow s s1) : proto_ranked rank s1 := by
  intro x o1 q hx hq
  by_cases hlt : x < s.heap.length
  · obtain ⟨o, ho, hp, _⟩ := (hg.2.2 x o1 hx).1 hlt
    rw [hp] at hq
    have := h x o q ho hq
    exact ⟨lt_of_lt_of_le this.1 hg.1, this.2⟩
  · have := (hg.2.2 x o1 hx).2 (Nat.le_of_not_lt hlt)
    rw [this] at hq
    cases hq

theorem keeps_live_refl (s : Store) : keeps_live s s :=
  fun _ o _ ho hi _ => ⟨o, ho, rfl, hi, rfl, rfl⟩

theorem reaches_keep {s s1 : Store} (hk : keeps_live s s1) {start : Option Nat} {ref : Nat}
    (h : reaches_live_spec s start ref) : reaches_live_spec s1 start ref := by
  induction h with
  | here q ref o ho hlt hd hp =>
    obtain ⟨o1, ho1, _, h2, h3, _⟩ := hk q o ref ho hlt hd
    exact reaches_live_spec.here q ref o1 ho1 h2 (by rw [h3]; exact hd) (by rw [h3]; exact hp)
  | up q ref o ho hlt hp _ ih =>
    obtain ⟨o1, ho1, h1, h2, h3, h4⟩ := hk q o ref ho hlt (by rw [hp]; exact fun e => nomatch e)
    refine reaches_live_spec.up q ref o1 ho1 h2 (by rw [h3]; exact hp) ?_
    rw [h1, h4]
    exact ih

theorem walk_true_reaches {s : Store} : ∀ (fuel : Nat) (start : Option Nat) (ref : Nat),
    fix_protref_walk s fuel start ref = some true → reaches_live_spec s start ref := by
  intro fuel
  induction fuel with
  | zero => intro start ref h; simp [fix_protref_walk] at h
  | succ n ih =>
    intro start ref h
    cases start with
    | none => simp [fix_protref_walk] at h
    | some q =>
      simp only [fix_protref_walk] at h
      cases ho : s.obj q with
      | none => simp [ho] at h
      | some o =>
        simp only [ho] at h
        split at h
        · cases h
        · next hc =>
          have hlt : ref < o.prop_cnt := by
            by_contra e
            exact hc (Or.inl (Nat.le_of_not_lt e))
          have hd : (slot o ref).type ≠ prop_type_t.PROP_DELETED := fun e => hc (Or.inr e)
          split at h
          · next hp => exact reaches_live_spec.here q ref o ho hlt hd hp
          · next hp =>
            exact reaches_live_spec.up q ref o ho hlt (by simpa using hp) (ih _ _ h)

theorem set_obj_avail_set_obj (s : Store) (p : Nat) (a : Nat) (x y : jsdisp_t) :
    Store.set_obj ({ s.set_obj p x with avail := a } : Store) p y =
      ({ s.set_obj p y with avail := a } : Store) := by
  simp [Store.set_obj, List.set_set]

/-- The function `alloc_protref` with the index of a slot in use of the
prototype keeps the invariant; the slot it returns refers to that index. -/
theorem alloc_protref_inv {s s1 : Store} {p j q : Nat} {name : WSTR} {r : Option Nat}
    {o : jsdisp_t} (hinv : protref_inv s) (ho : s.obj p = some o) (hq : o.prototype = some q)
    (hj : ∃ oq, s.obj q = some oq ∧ j < oq.prop_cnt)
    (h : alloc_protref s p name j = some (s1, r)) :
    protref_inv s1 ∧ grow s s1 ∧ (∀ x, x ≠ p → s1.obj x = s.obj x) ∧ keeps_live s s1 ∧
    ∀ k, r = some k → ∃ o1, s1.obj p = some o1 ∧ k < o1.prop_cnt ∧
      (slot o1 k).type = prop_type_t.PROP_PROTREF ∧ u_ref (slot o1 k).u = j ∧
      o1.prototype = some q := by
  obtain ⟨hwf, hb, hp⟩ := hinv.2 p o ho
  obtain ⟨fwf, fproto, fcore, fcase⟩ :=
    alloc_prop_facts o name prop_type_t.PROP_PROTREF 0 s.avail hwf (by omega)
  obtain ⟨fa1, fa2⟩ := alloc_prop_avail o name prop_type_t.PROP_PROTREF 0 s.avail
  have hcnt : o.prop_cnt ≤ (alloc_prop o name prop_type_t.PROP_PROTREF 0 s.avail).2.1.prop_cnt := by
    rcases fcase with ⟨_, h⟩ | ⟨_, h, _⟩ <;> omega
  have hpot : (alloc_prop o name prop_type_t.PROP_PROTREF 0 s.avail).2.1.prop_cnt +
      (alloc_prop o name prop_type_t.PROP_PROTREF 0 s.avail).2.2 < 2 ^ 31 := by
    rcases fcase with ⟨_, h⟩ | ⟨hsome, h, _⟩
    · omega
    · have := fa2 (by rw [hsome]; exact fun e => nomatch e)
      omega
  unfold alloc_protref at h
  cases ha : store_alloc_prop s p name prop_type_t.PROP_PROTREF 0 with
  | none => simp [ha] at h
  | some a =>
    obtain ⟨s2, ri⟩ := a
    obtain ⟨hs2, hri⟩ := store_alloc_prop_eq ho ha
    generalize hT : (alloc_prop o name prop_type_t.PROP_PROTREF 0 s.avail).2.1 = T at *
    generalize hA : (alloc_prop o name prop_type_t.PROP_PROTREF 0 s.avail).2.2 = A at *
    have hoth : ∀ (Y : jsdisp_t) x, x ≠ p →
        Store.obj ({ s.set_obj p Y with avail := A } : Store) x = s.obj x := by
      intro Y x hx
      rw [obj_with_avail, obj_set_obj_ne s hx]
    have hself : ∀ (Y : jsdisp_t),
        Store.obj ({ s.set_obj p Y with avail := A } : Store) p = some Y := by
      intro Y
      rw [obj_with_avail]
      exact obj_set_obj_self ho _
    have hlive : ∀ (Y : jsdisp_t), Y.prototype = o.prototype → o.prop_cnt ≤ Y.prop_cnt →
        (∀ i, i < o.prop_cnt → same_core (slot Y i) (slot o i)) →
        keeps_live s ({ s.set_obj p Y with avail := A } : Store) := by
      intro Y h1 h2 h3 x ox i hx hi hd
      by_cases e : x = p
      · subst e
        rw [ho] at hx
        injection hx with hx
        subst hx
        exact ⟨Y, hself Y, h1, by omega, (h3 i hi).2.2.1, (h3 i hi).2.2.2.2⟩
      · exact ⟨ox, by rw [hoth Y x e]; exact hx, rfl, hi, rfl, rfl⟩
    cases ri with
    | none =>
      simp only [ha, Option.some.injEq, Prod.mk.injEq] at h
      obtain ⟨rfl, rfl⟩ := h
      have hn : (alloc_prop o name prop_type_t.PROP_PROTREF 0 s.avail).1 = none := hri.symm
      have hc2 : T.prop_cnt = o.prop_cnt := by
        rcases fcase with ⟨_, h⟩ | ⟨hsome, _⟩
        · exact h
        · rw [hn] at hsome; cases hsome
      have key := inv_set_obj A hinv ho fa1 fwf fproto hcnt hpot (fun i hi ht => by
        have hlt : i < o.prop_cnt := by omega
        obtain ⟨_, _, c3, _, c5⟩ := fcore i hlt
        exact Or.inl ⟨hlt, c3 ▸ ht, c5⟩)
      rw [hs2]
      exact ⟨key.1, key.2, hoth T, hlive T fproto hcnt fcore, fun k hk => nomatch hk⟩
    | some i =>
      simp only [ha, Option.map_eq_some', Prod.mk.injEq] at h
      obtain ⟨s3, hs3, rfl, rfl⟩ := h
      have hsome : (alloc_prop o name prop_type_t.PROP_PROTREF 0 s.avail).1 = some i := hri.symm
      obtain ⟨hi, hc2, hlen⟩ : i = o.prop_cnt ∧ T.prop_cnt = o.prop_cnt + 1 ∧
          o.prop_cnt < T.props.length := by
        rcases fcase with ⟨hn, _⟩ | ⟨hs, h1, _, h3⟩
        · rw [hn] at hsome; cases hsome
        · rw [hs] at hsome
          injection hsome with hsome
          exact ⟨hsome.symm, h1, h3⟩
      subst hi
      obtain ⟨T2, hT2, hs3e⟩ := store_set_slot_eq hs3
      rw [hs2, hself T] at hT2
      injection hT2 with hT2
      subst hT2
      rw [hs2, set_obj_avail_set_obj] at hs3e
      have hslot : slot (set_slot T o.prop_cnt
          (fun q => { q with u := prop_u.ref j })) o.prop_cnt =
          { slot T o.prop_cnt with u := prop_u.ref j } := by
        rw [slot_set_slot, if_pos ⟨rfl, hlen⟩]
      have hold : ∀ i, i < o.prop_cnt → slot (set_slot T o.prop_cnt
          (fun q => { q with u := prop_u.ref j })) i = slot T i := by
        intro i hi
        rw [slot_set_slot_ne _ _ (by omega : i ≠ o.prop_cnt)]
      have htype : (slot T o.prop_cnt).type = prop_type_t.PROP_PROTREF := by
        rcases fcase with ⟨hn, _⟩ | ⟨_, _, h2, _⟩
        · rw [hn] at hsome; cases hsome
        · exact h2
      obtain ⟨oq, hoq, hjlt⟩ := hj
      have key := @inv_set_obj s p o (set_slot T o.prop_cnt
          (fun q => { q with u := prop_u.ref j })) A hinv ho fa1
        (props_wf_set_slot _ _ _ (fun r => ⟨rfl, rfl, rfl, rfl⟩) fwf) fproto hcnt hpot
        (fun i hi ht => by
          by_cases hlt : i < o.prop_cnt
          · rw [hold i hlt] at ht ⊢
            obtain ⟨_, _, c3, _, c5⟩ := fcore i hlt
            exact Or.inl ⟨hlt, c3 ▸ ht, c5⟩
          · have hi2 : i = o.prop_cnt := by
              have : i < T.prop_cnt := hi
              omega
            subst hi2
            refine Or.inr ⟨q, fproto.trans hq, ?_, fun oq1 hoq1 => ?_⟩
            · show q < (List.set _ _ _).length
              rw [List.length_set]
              exact obj_lt hoq
            · rw [hslot]
              show j < oq1.prop_cnt
              by_cases e : q = p
              · subst e
                rw [hself] at hoq1
                injection hoq1 with hoq1
                subst hoq1
                rw [ho] at hoq
                injection hoq with hoq
                subst hoq
                show j < T.prop_cnt
                omega
              · rw [hoth _ q e, hoq] at hoq1
                injection hoq1 with hoq1
                subst hoq1
                exact hjlt)
      rw [hs3e]
      refine ⟨key.1, key.2, hoth _, hlive _ fproto hcnt (fun i hi => ?_), fun k hk => ?_⟩
      · rw [hold i hi]
        exact fcore i hi
      · injection hk with hk
        subst hk
        refine ⟨_, hself _, by show o.prop_cnt < T.prop_cnt; omega, ?_, ?_, fproto.trans hq⟩
        · rw [hslot]; exact htype
        · rw [hslot]; rfl

/-- The store of a prototype reference into a tombstone, with the index of a
slot in use of the prototype, keeps the invariant. -/
theorem protref_store_inv {s s1 : Store} {p i j q : Nat} {o : jsdisp_t}
    (hinv : protref_inv s) (ho : s.obj p = some o) (hq : o.prototype = some q)
    (hi : i < o.prop_cnt) (hd : (slot o i).type = prop_type_t.PROP_DELETED)
    (hj : ∃ oq, s.obj q = some oq ∧ j < oq.prop_cnt)
    (h : store_set_slot s p i (fun r =>
      { r with type := prop_type_t.PROP_PROTREF, u := prop_u.ref j }) = some s1) :
    protref_inv s1 ∧ grow s s1 ∧ (∀ x, x ≠ p → s1.obj x = s.obj x) ∧ keeps_live s s1 ∧
    ∃ o1, s1.obj p = some o1 ∧ o1.prop_cnt = o.prop_cnt ∧
      (slot o1 i).type = prop_type_t.PROP_PROTREF ∧ u_ref (slot o1 i).u = j ∧
      o1.prototype = some q := by
  obtain ⟨hwf, hb, hp⟩ := hinv.2 p o ho
  obtain ⟨o2, ho2, rfl⟩ := store_set_slot_eq h
  rw [ho] at ho2
  injection ho2 with ho2
  subst ho2
  have hlen : i < o.props.length := by
    have := hwf.1
    have := hwf.2.2.2.1
    omega
  have hslot : slot (set_slot o i (fun r =>
      { r with type := prop_type_t.PROP_PROTREF, u := prop_u.ref j })) i =
      { slot o i with type := prop_type_t.PROP_PROTREF, u := prop_u.ref j } := by
    rw [slot_set_slot, if_pos ⟨rfl, hlen⟩]
  obtain ⟨oq, hoq, hjlt⟩ := hj
  have key := @inv_set_obj_plain s p o (set_slot o i (fun r =>
      { r with type := prop_type_t.PROP_PROTREF, u := prop_u.ref j })) hinv ho
    (props_wf_set_slot _ _ _ (fun r => ⟨rfl, rfl, rfl, rfl⟩) hwf) rfl rfl
    (fun k hk ht => by
      by_cases e : k = i
      · subst e
        refine Or.inr ⟨q, hq, ?_, fun oq1 hoq1 => ?_⟩
        · show q < (List.set _ _ _).length
          rw [List.length_set]
          exact obj_lt hoq
        · rw [hslot]
          show j < oq1.prop_cnt
          by_cases e : q = p
          · subst e
            rw [obj_set_obj_self ho] at hoq1
            injection hoq1 with hoq1
            subst hoq1
            rw [ho] at hoq
            injection hoq with hoq
            subst hoq
            exact hjlt
          · rw [obj_set_obj_ne s e, hoq] at hoq1
            injection hoq1 with hoq1
            subst hoq1
            exact hjlt
      · rw [slot_set_slot_ne _ _ e] at ht ⊢
        exact Or.inl ⟨hk, ht, rfl⟩)
  refine ⟨key.1, key.2, fun x hx => obj_set_obj_ne s hx _, ?_, _, obj_set_obj_self ho _, rfl,
    by rw [hslot], by rw [hslot]; rfl, hq⟩
  intro x ox k hx hk hdk
  by_cases e : x = p
  · subst e
    rw [ho] at hx
    injection hx with hx
    subst hx
    have hki : k ≠ i := by
      intro e
      subst e
      exact hdk hd
    exact ⟨_, obj_set_obj_self ho _, rfl, hk, by rw [slot_set_slot_ne _ _ hki],
      by rw [slot_set_slot_ne _ _ hki]⟩
  · exact ⟨ox, by rw [obj_set_obj_ne s e]; exact hx, rfl, hk, rfl, rfl⟩

theorem fix_protref_prop_reaches {s s1 : Store} {p i : Nat} {o : jsdisp_t}
    (ho : s.obj p = some o) (hi : i < o.prop_cnt) (hlen : o.prop_cnt ≤ o.props.length)
    (h : fix_protref_prop s p i = some s1) :
    tame s s1 ∧ (∀ x, x ≠ p → s1.obj x = s.obj x) ∧
    ∃ o1, s1.obj p = some o1 ∧ o1.prop_cnt = o.prop_cnt ∧
      ((slot o1 i).type ≠ prop_type_t.PROP_DELETED → reaches_live_spec s1 (some p) i) := by
  have ht := fix_protref_prop_tame h
  rcases fix_protref_prop_cases ho h with ⟨rfl, hc⟩ | rfl
  · refine ⟨ht, fun _ _ => rfl, o, ho, rfl, fun hd => ?_⟩
    by_cases hp : (slot o i).type = prop_type_t.PROP_PROTREF
    · rcases hc with hc | hc
      · exact absurd hp hc
      · exact reaches_live_spec.up p i o ho hi hp (walk_true_reaches _ _ _ hc)
    · exact reaches_live_spec.here p i o ho hi hd hp
  · refine ⟨ht, fun x hx => obj_set_obj_ne s hx _, _, obj_set_obj_self ho _, rfl, fun hd => ?_⟩
    rw [slot_set_slot, if_pos ⟨rfl, by omega⟩] at hd
    exact absurd rfl hd

/-- The resolver with prototype fallback keeps the invariant; it leaves the
objects that are not below the object in rank as they are, and a slot it
returns that is no tombstone leads to a slot that holds a property. -/
theorem resolver_inv (rank : Nat → Nat) (hash : Nat) (name : WSTR) (ci : Bool) :
    ∀ (fuel : Nat) (s : Store) (p : Nat) (s1 : Store) (hres : HRESULT) (r : Option Nat),
      protref_inv s → proto_ranked rank s →
      find_prop_name_prot_fuel fuel s p hash name ci = some (s1, hres, r) →
      protref_inv s1 ∧ grow s s1 ∧
      (FAILED hres = false →
        (∀ x, x < s.heap.length → rank p ≤ rank x → x ≠ p → s1.obj x = s.obj x) ∧
        ∀ i, r = some i → ∃ o1, s1.obj p = some o1 ∧ i < o1.prop_cnt ∧
          ((slot o1 i).type ≠ prop_type_t.PROP_DELETED → reaches_live_spec s1 (some p) i)) := by
  intro fuel
  induction fuel with
  | zero => intro s p s1 hres r _ _ h; simp [find_prop_name_prot_fuel] at h
  | succ fuel ih =>
    intro s p s1 hres r hinv hrk h
    unfold find_prop_name_prot_fuel at h
    cases hfp : find_prop_name s p hash name ci with
    | none => simp [hfp] at h
    | some ra =>
      obtain ⟨sa, hra, ra⟩ := ra
      simp only [hfp] at h
      obtain ⟨a1, a2, a3⟩ := find_prop_name_inv hinv hfp
      have hrka := ranked_grow hrk a2
      by_cases hfa : FAILED hra = true
      · simp only [hfa, if_true, Option.some.injEq, Prod.mk.injEq] at h
        obtain ⟨rfl, rfl, rfl⟩ := h
        exact ⟨a1, a2, fun hf => by rw [hfa] at hf; cases hf⟩
      · have hfa' : FAILED hra = false := by simpa using hfa
        simp only [hfa, Bool.false_eq_true, if_false] at h
        cases ho : s.obj p with
        | none =>
          unfold find_prop_name at hfp
          simp [ho] at hfp
        | some o =>
        obtain ⟨hwf, hb, _⟩ := hinv.2 p o ho
        obtain ⟨_, afr, _, _⟩ := find_prop_name_ok s p hash name ci o sa hra ra ho hwf
          (by unfold NIL; omega) hfp hfa'
        cases hoa : sa.obj p with
        | none => simp [hoa] at h
        | some This =>
          simp only [hoa] at h
          obtain ⟨hwfa, _, _⟩ := a1.2 p This hoa
          have hlenA : This.prop_cnt ≤ This.props.length := by
            rw [hwfa.1]; exact hwfa.2.2.2.1
          -- the part after a miss or a tombstone in the own table
          have tail : ∀ (del : Option Nat),
              (∀ i, del = some i → i < This.prop_cnt ∧
                (slot This i).type = prop_type_t.PROP_DELETED) →
              (match This.prototype with
                | none => some (sa, HRESULT.S_OK, del)
                | some q =>
                  match find_prop_name_prot_fuel fuel sa q hash name ci with
                  | none => none
                  | some (s2, hres2, prop2) =>
                    if FAILED hres2 then some (s2, hres2, none)
                    else
                      match prop2, s2.obj q with
                      | some j, some proto =>
                        if (slot proto j).type ≠ prop_type_t.PROP_DELETED then
                          match del with
                          | some i =>
                            (store_set_slot s2 p i (fun r =>
                              { r with type := prop_type_t.PROP_PROTREF, u := prop_u.ref j })).map
                              fun s3 => (s3, HRESULT.S_OK, some i)
                          | none =>
                            match alloc_protref s2 p (slot proto j).name j with
                            | none => none
                            | some (s3, none) => some (s3, HRESULT.E_OUTOFMEMORY, none)
                            | some (s3, some k) => some (s3, HRESULT.S_OK, some k)
                        else some (s2, HRESULT.S_OK, del)
                      | some _, none => none
                      | none, _ => some (s2, HRESULT.S_OK, del)) = some (s1, hres, r) →
              protref_inv s1 ∧ grow sa s1 ∧
              (FAILED hres = false →
                (∀ x, x < sa.heap.length → rank p ≤ rank x → x ≠ p → s1.obj x = sa.obj x) ∧
                ∀ i, r = some i → ∃ o1, s1.obj p = some o1 ∧ i < o1.prop_cnt ∧
                  ((slot o1 i).type ≠ prop_type_t.PROP_DELETED →
                    reaches_live_spec s1 (some p) i)) := by
            intro del hdel h
            have dead : ∀ i, del = some i → ∃ o1, sa.obj p = some o1 ∧ i < o1.prop_cnt ∧
                ((slot o1 i).type ≠ prop_type_t.PROP_DELETED →
                  reaches_live_spec sa (some p) i) :=
              fun i hi => ⟨This, hoa, (hdel i hi).1, fun hd => absurd (hdel i hi).2 hd⟩
            cases hpr : This.prototype with
            | none =>
              simp only [hpr, Option.some.injEq, Prod.mk.injEq] at h
              obtain ⟨rfl, rfl, rfl⟩ := h
              exact ⟨a1, grow_refl _, fun _ => ⟨fun _ _ _ _ => rfl, dead⟩⟩
            | some q =>
              simp only [hpr] at h
              obtain ⟨hqlt, hrq⟩ := hrka p This q hoa hpr
              have hpq : p ≠ q := by
                intro e
                rw [← e] at hrq
                exact absurd hrq (Nat.lt_irrefl _)
              cases hrec : find_prop_name_prot_fuel fuel sa q hash name ci with
              | none => simp [hrec] at h
              | some rb =>
                obtain ⟨s2, hres2, prop2⟩ := rb
                simp only [hrec] at h
                obtain ⟨b1, b2, b3⟩ := ih sa q s2 hres2 prop2 a1 hrka hrec
                by_cases hfb : FAILED hres2 = true
                · simp only [hfb, if_true, Option.some.injEq, Prod.mk.injEq] at h
                  obtain ⟨rfl, rfl, rfl⟩ := h
                  exact ⟨b1, b2, fun hf => by rw [hfb] at hf; cases hf⟩
                · have hfb' : FAILED hres2 = false := by simpa using hfb
                  simp only [hfb, Bool.false_eq_true, if_false] at h
                  obtain ⟨bfr, bidx⟩ := b3 hfb'
                  have hp2 : s2.obj p = some This := by
                    rw [bfr p (obj_lt hoa) (Nat.le_of_lt hrq) hpq]; exact hoa
                  have frame2 : ∀ x, x < sa.heap.length → rank p ≤ rank x → x ≠ p →
                      s2.obj x = sa.obj x := by
                    intro x hx hr hxp
                    exact bfr x hx (by omega) (by
                      intro e
                      rw [e] at hr
                      omega)
                  have dead2 : ∀ i, del = some i → ∃ o1, s2.obj p = some o1 ∧ i < o1.prop_cnt ∧
                      ((slot o1 i).type ≠ prop_type_t.PROP_DELETED →
                        reaches_live_spec s2 (some p) i) :=
                    fun i hi => ⟨This, hp2, (hdel i hi).1, fun hd => absurd (hdel i hi).2 hd⟩
                  have same : (s1, hres, r) = (s2, HRESULT.S_OK, del) →
                      protref_inv s1 ∧ grow sa s1 ∧
                      (FAILED hres = false →
                        (∀ x, x < sa.heap.length → rank p ≤ rank x → x ≠ p →
                          s1.obj x = sa.obj x) ∧
                        ∀ i, r = some i → ∃ o1, s1.obj p = some o1 ∧ i < o1.prop_cnt ∧
                          ((slot o1 i).type ≠ prop_type_t.PROP_DELETED →
                            reaches_live_spec s1 (some p) i)) := by
                    intro e
                    simp only [Prod.mk.injEq] at e
                    obtain ⟨rfl, rfl, rfl⟩ := e
                    exact ⟨b1, b2, fun _ => ⟨frame2, dead2⟩⟩
                  cases prop2 with
                  | none =>
                    simp only [Option.some.injEq] at h
                    exact same h.symm
                  | some j =>
                    cases hoq : s2.obj q with
                    | none => simp [hoq] at h
                    | some proto =>
                      simp only [hoq] at h
                      obtain ⟨oq, hoq2, hjlt, hjr⟩ := bidx j rfl
                      rw [hoq] at hoq2
                      injection hoq2 with hoq2
                      subst hoq2
                      by_cases hlive : (slot proto j).type ≠ prop_type_t.PROP_DELETED
                      · rw [if_pos hlive] at h
                        have hreach := hjr hlive
                        cases del with
                        | some i =>
                          simp only [Option.map_eq_some', Prod.mk.injEq] at h
                          obtain ⟨s3, hs3, rfl, rfl, rfl⟩ := h
                          obtain ⟨c1, c2, c3, c4, o1, c5, c6, c7, c8, c9⟩ :=
                            protref_store_inv b1 hp2 hpr (hdel i rfl).1 (hdel i rfl).2
                              ⟨proto, hoq, hjlt⟩ hs3
                          refine ⟨c1, grow_trans b2 c2, fun _ => ⟨fun x hx hr hxp => ?_,
                            fun k hk => ?_⟩⟩
                          · rw [c3 x hxp]; exact frame2 x hx hr hxp
                          · injection hk with hk
                            subst hk
                            refine ⟨o1, c5, by rw [c6]; exact (hdel i rfl).1, fun _ => ?_⟩
                            refine reaches_live_spec.up p i o1 c5
                              (by rw [c6]; exact (hdel i rfl).1) c7 ?_
                            rw [c9, c8]
                            exact reaches_keep c4 hreach
                        | none =>
                          cases hal : alloc_protref s2 p (slot proto j).name j with
                          | none => simp [hal] at h
                          | some rc =>
                            obtain ⟨s3, rk⟩ := rc
                            obtain ⟨c1, c2, c3, c4, c5⟩ :=
                              alloc_protref_inv b1 hp2 hpr ⟨proto, hoq, hjlt⟩ hal
                            cases rk with
                            | none =>
                              simp only [hal, Option.some.injEq, Prod.mk.injEq] at h
                              obtain ⟨rfl, rfl, rfl⟩ := h
                              exact ⟨c1, grow_trans b2 c2, fun hf => by cases hf⟩
                            | some k =>
                              simp only [hal, Option.some.injEq, Prod.mk.injEq] at h
                              obtain ⟨rfl, rfl, rfl⟩ := h
                              obtain ⟨o1, d1, d2, d3, d4, d5⟩ := c5 k rfl
                              refine ⟨c1, grow_trans b2 c2, fun _ => ⟨fun x hx hr hxp => ?_,
                                fun k2 hk => ?_⟩⟩
                              · rw [c3 x hxp]; exact frame2 x hx hr hxp
                              · injection hk with hk
                                subst hk
                                refine ⟨o1, d1, d2, fun _ => ?_⟩
                                refine reaches_live_spec.up p k o1 d1 d2 d3 ?_
                                rw [d5, d4]
                                exact reaches_keep c4 hreach
                      · rw [if_neg hlive] at h
                        simp only [Option.some.injEq] at h
                        exact same h.symm
          have lift : ∀ {sb : Store}, (protref_inv s1 ∧ grow sb s1 ∧
              (FAILED hres = false →
                (∀ x, x < sb.heap.length → rank p ≤ rank x → x ≠ p → s1.obj x = sb.obj x) ∧
                ∀ i, r = some i → ∃ o1, s1.obj p = some o1 ∧ i < o1.prop_cnt ∧
                  ((slot o1 i).type ≠ prop_type_t.PROP_DELETED →
                    reaches_live_spec s1 (some p) i))) →
              grow s sb → (∀ x, x ≠ p → x < s.heap.length → sb.obj x = s.obj x) →
              protref_inv s1 ∧ grow s s1 ∧
              (FAILED hres = false →
                (∀ x, x < s.heap.length → rank p ≤ rank x → x ≠ p → s1.obj x = s.obj x) ∧
                ∀ i, r = some i → ∃ o1, s1.obj p = some o1 ∧ i < o1.prop_cnt ∧
                  ((slot o1 i).type ≠ prop_type_t.PROP_DELETED →
                    reaches_live_spec s1 (some p) i)) := by
            intro sb hh hg hfr
            refine ⟨hh.1, grow_trans hg hh.2.1, fun hf => ⟨fun x hx hr hxp => ?_, (hh.2.2 hf).2⟩⟩
            rw [(hh.2.2 hf).1 x (lt_of_lt_of_le hx hg.1) hr hxp]
            exact hfr x hxp hx
          cases ra with
          | none =>
            simp only [Bool.false_eq_true, if_false] at h
            exact lift (tail none (fun i hi => nomatch hi) h) a2 afr
          | some i =>
            obtain ⟨oa, hoa2, hia⟩ := a3 i rfl
            rw [hoa] at hoa2
            injection hoa2 with hoa2
            subst hoa2
            simp only at h
            split at h
            · next hc =>
              have hl : (slot This i).type ≠ prop_type_t.PROP_DELETED := of_decide_eq_true hc
              simp only [Option.map_eq_some', Prod.mk.injEq] at h
              obtain ⟨s2, hs2, rfl, rfl, rfl⟩ := h
              obtain ⟨f1, f2, o1, f3, f4, f5⟩ := fix_protref_prop_reaches hoa hia hlenA hs2
              refine @lift sa ⟨inv_tame a1 f1, tame_grow f1, fun _ =>
                ⟨fun x _ _ hxp => f2 x hxp, fun k hk => ?_⟩⟩ a2 afr
              injection hk with hk
              subst hk
              exact ⟨o1, f3, by rw [f4]; exact hia, f5⟩
            · next hc =>
              have hd : (slot This i).type = prop_type_t.PROP_DELETED := by
                by_contra e
                exact hc (decide_eq_true e)
              exact lift (tail (some i) (fun k hk => by
                injection hk with hk
                subst hk
                exact ⟨hia, hd⟩) h) a2 afr

theorem no_protref_of_type {s : Store} {p i : Nat} {o : jsdisp_t} (ho : s.obj p = some o)
    (h : (slot o i).type ≠ prop_type_t.PROP_PROTREF) : no_protref s p i := by
  intro o1 ho1
  rw [ho] at ho1
  injection ho1 with ho1
  subst ho1
  exact h

theorem prop_put_store_tame {s s1 : Store} {p i : Nat} {val : jsval_t} {hres : HRESULT}
    (hn : no_protref s p i) (h : prop_put_store s p i val = some (s1, hres)) : tame s s1 := by
  unfold prop_put_store at h
  simp only [Option.bind_eq_some] at h
  obtain ⟨sa, h1, sb, h2, h3⟩ := h
  have t1 := tame_of_soft (jsval_copy_soft h1)
  have t2 := tame_set_slot_at h2 (fun r => ⟨rfl, rfl, rfl, rfl⟩) (no_protref_tame t1 hn)
    (fun r hr => hr)
  cases hob : sb.obj p with
  | none => simp [hob] at h3
  | some ob =>
    simp only [hob] at h3
    split at h3
    · cases h3
    · injection h3 with h3
      injection h3 with h3 _
      subst h3
      exact tame_trans t1 t2

theorem prop_put_tame {s s1 : Store} {p i : Nat} {val : jsval_t} {hres : HRESULT}
    (h : prop_put s p i val = some (s1, hres)) : tame s s1 := by
  unfold prop_put at h
  cases ho : s.obj p with
  | none => simp [ho] at h
  | some This =>
    simp only [ho] at h
    split at h
    · cases h
    · next po j htg =>
      have unch : some (s, HRESULT.S_OK) = some (s1, hres) → tame s s1 := by
        intro e
        injection e with e
        injection e with e _
        subst e
        exact tame_refl _
      have fresh : (if ¬This.extensible = true then some (s, HRESULT.S_OK)
          else (store_set_slot s po j (fun q =>
            { q with type := prop_type_t.PROP_JSVAL,
                     flags := PROPF_ENUMERABLE ||| PROPF_CONFIGURABLE ||| PROPF_WRITABLE,
                     u := prop_u.val jsval_t.undefined })).bind
              fun s1 => prop_put_store s1 po j val) = some (s1, hres) → tame s s1 := by
        intro h
        split at h
        · exact unch h
        · simp only [Option.bind_eq_some] at h
          obtain ⟨sa, h1, h2⟩ := h
          have t1 := tame_set_slot h1 (fun r => ⟨rfl, rfl, rfl, rfl⟩) (fun _ _ e => nomatch e)
          have n1 := no_protref_set_slot h1 (fun _ e => nomatch e)
          exact tame_trans t1 (prop_put_store_tame n1 h2)
      cases hpo : s.obj po with
      | none => simp [hpo] at h
      | some o =>
        simp only [hpo] at h
        cases hty : (slot o j).type with
        | PROP_JSVAL =>
          simp only [hty] at h
          split at h
          · exact unch h
          · simp only [Option.bind_eq_some] at h
            obtain ⟨sa, h1, h2⟩ := h
            have t1 := tame_of_soft (jsval_release_soft h1)
            have n0 : no_protref s po j :=
              no_protref_of_type hpo (by rw [hty]; exact fun e => nomatch e)
            exact tame_trans t1 (prop_put_store_tame (no_protref_tame t1 n0) h2)
        | PROP_BUILTIN =>
          simp only [hty] at h
          split at h
          · split at h
            · cases h
            · exact unch h
          · cases h
        | PROP_PROTREF =>
          simp only [hty] at h
          exact fresh h
        | PROP_ACCESSOR =>
          simp only [hty] at h
          split at h
          · cases h
          · exact unch h
        | PROP_DELETED =>
          simp only [hty] at h
          exact fresh h
        | PROP_IDX =>
          simp only [hty] at h
          split at h
          · exact unch h
          · cases h
        | PROP_PROXY =>
          simp only [hty] at h
          split at h
          · exact unch h
          · cases h

theorem delete_prop_tame {s s1 : Store} {p i : Nat} {hres : HRESULT} {ret : Bool}
    (h : delete_prop s p i = some (s1, hres, ret)) : tame s s1 := by
  unfold delete_prop at h
  cases ho : s.obj p with
  | none => simp [ho] at h
  | some o =>
    simp only [ho] at h
    have unch : ∀ (b : Bool), some (s, HRESULT.S_OK, b) = some (s1, hres, ret) → tame s s1 := by
      intro b e
      injection e with e
      injection e with e _
      subst e
      exact tame_refl _
    split at h
    · exact unch _ h
    · split at h
      · cases h
      · split at h
        · exact unch _ h
        · split at h
          · cases h
          · simp only [Option.bind_eq_some, Option.map_eq_some', Prod.mk.injEq] at h
            obtain ⟨sa, h1, sb, h2, rfl, _⟩ := h
            exact tame_trans (tame_of_soft (release_list_soft h1))
              (tame_set_slot h2 (fun r => ⟨rfl, rfl, rfl, rfl⟩) (fun _ _ e => nomatch e))

/-- The loop of `unlink_jsdisp` makes no prototype reference and leaves none
at the indices it visits. -/
theorem unlink_props_tame (p : Nat) : ∀ (idxs : List Nat) (s s1 : Store),
    unlink_props p idxs s = some s1 → tame s s1 ∧ ∀ i ∈ idxs, no_protref s1 p i := by
  intro idxs
  induction idxs with
  | nil =>
    intro s s1 h
    simp only [unlink_props, Option.some.injEq] at h
    subst h
    exact ⟨tame_refl _, fun i hi => nomatch hi⟩
  | cons i rest ih =>
    intro s s1 h
    simp only [unlink_props] at h
    cases ho : s.obj p with
    | none => simp [ho] at h
    | some o =>
      simp only [ho] at h
      split at h
      · next hd =>
        obtain ⟨t, hn⟩ := ih _ _ h
        refine ⟨t, fun k hk => ?_⟩
        rcases List.mem_cons.mp hk with rfl | hk
        · exact no_protref_tame t (no_protref_of_type ho (by rw [hd]; exact fun e => nomatch e))
        · exact hn k hk
      · simp only [Option.bind_eq_some] at h
        obtain ⟨sa, h1, sb, h2, h3⟩ := h
        have t1 := tame_of_soft (release_list_soft h1)
        have t2 := tame_set_slot h2 (fun r => ⟨rfl, rfl, rfl, rfl⟩) (fun _ _ e => nomatch e)
        have n2 := no_protref_set_slot h2 (fun _ e => nomatch e)
        obtain ⟨t, hn⟩ := ih _ _ h3
        refine ⟨tame_trans (tame_trans t1 t2) t, fun k hk => ?_⟩
        rcases List.mem_cons.mp hk with rfl | hk
        · exact no_protref_tame t n2
        · exact hn k hk

theorem define_new_prop_tame {s s1 : Store} {p i : Nat} {desc : property_desc_t}
    {hres : HRESULT} (h : define_new_prop s p i desc = some (s1, hres)) : tame s s1 := by
  unfold define_new_prop at h
  simp only [Option.bind_eq_some] at h
  obtain ⟨sa, h1, h⟩ := h
  have t1 := tame_set_slot h1 (fun r => ⟨rfl, rfl, rfl, rfl⟩) (fun _ _ e => ⟨e, rfl⟩)
  split at h
  · simp only [Option.bind_eq_some, Option.map_eq_some', Prod.mk.injEq] at h
    obtain ⟨sb, h2, sc, h3, sd, h4, se, h5, rfl, _⟩ := h
    have t2 := tame_set_slot h2 (fun r => ⟨rfl, rfl, rfl, rfl⟩) (fun _ _ e => nomatch e)
    have n2 := no_protref_set_slot h2 (fun _ e => nomatch e)
    have t3 := tame_of_soft (addref_opt_soft h3)
    have t4 := tame_of_soft (addref_opt_soft h4)
    have t5 := tame_set_slot_at h5 (fun r => ⟨rfl, rfl, rfl, rfl⟩)
      (no_protref_tame t4 (no_protref_tame t3 n2)) (fun r hr => hr)
    exact tame_trans t1 (tame_trans t2 (tame_trans t3 (tame_trans t4 t5)))
  · simp only [Option.bind_eq_some] at h
    obtain ⟨sb, h2, h⟩ := h
    have t2 := tame_set_slot h2 (fun r => ⟨rfl, rfl, rfl, rfl⟩) (fun _ _ e => nomatch e)
    have n2 := no_protref_set_slot h2 (fun _ e => nomatch e)
    split at h
    · simp only [Option.bind_eq_some, Option.map_eq_some', Prod.mk.injEq] at h
      obtain ⟨sc, h3, sd, h4, rfl, _⟩ := h
      have t3 := tame_of_soft (jsval_copy_soft h3)
      have t4 := tame_set_slot_at h4 (fun r => ⟨rfl, rfl, rfl, rfl⟩)
        (no_protref_tame t3 n2) (fun r hr => hr)
      exact tame_trans t1 (tame_trans t2 (tame_trans t3 t4))
    · simp only [Option.map_eq_some', Prod.mk.injEq] at h
      obtain ⟨sc, h3, rfl, _⟩ := h
      have t3 := tame_set_slot_at h3 (fun r => ⟨rfl, rfl, rfl, rfl⟩) n2 (fun r hr => hr)
      exact tame_trans t1 (tame_trans t2 t3)

theorem define_data_prop_tame {s s1 : Store} {p i : Nat} {name : WSTR} {desc : property_desc_t}
    {r : Option HRESULT} (hn : no_protref s p i)
    (h : define_data_prop s p i name desc = some (s1, r)) : tame s s1 := by
  unfold define_data_prop at h
  cases ho : s.obj p with
  | none => simp [ho] at h
  | some o =>
    simp only [ho] at h
    have unch : ∀ (x : Option HRESULT), some (s, x) = some (s1, r) → tame s s1 := by
      intro x e
      injection e with e
      injection e with e _
      subst e
      exact tame_refl _
    split at h
    · split at h
      · exact unch _ h
      · simp only [Option.bind_eq_some, Option.map_eq_some', Prod.mk.injEq] at h
        obtain ⟨sa, h1, sb, h2, sc, h3, sd, h4, rfl, _⟩ := h
        have t1 := tame_of_soft (release_list_soft h1)
        have t2 := tame_set_slot h2 (fun r => ⟨rfl, rfl, rfl, rfl⟩) (fun _ _ e => nomatch e)
        have n2 := no_protref_set_slot h2 (fun _ e => nomatch e)
        have t3 := tame_of_soft (jsval_copy_soft h3)
        have t4 := tame_set_slot_at h4 (fun r => ⟨rfl, rfl, rfl, rfl⟩)
          (no_protref_tame t3 n2) (fun r hr => hr)
        exact tame_trans t1 (tame_trans t2 (tame_trans t3 t4))
    · split at h
      · cases h
      · exact unch _ h
      · split at h
        · simp only [Option.bind_eq_some, Option.map_eq_some', Prod.mk.injEq] at h
          obtain ⟨sa, h1, sb, h2, sc, h3, rfl, _⟩ := h
          have t1 : tame s sa := by
            split at h1
            · exact tame_of_soft (jsval_release_soft h1)
            · exact tame_set_slot h1 (fun r => ⟨rfl, rfl, rfl, rfl⟩) (fun _ _ e => nomatch e)
          have t2 := tame_of_soft (jsval_copy_soft h2)
          have t3 := tame_set_slot_at h3 (fun r => ⟨rfl, rfl, rfl, rfl⟩)
            (no_protref_tame t2 (no_protref_tame t1 hn)) (fun r hr => hr)
          exact tame_trans t1 (tame_trans t2 t3)
        · exact unch _ h

theorem set_getter_tame {s s1 : Store} {p i : Nat} {desc : property_desc_t}
    (hn : no_protref s p i) (h : set_getter s p i desc = some s1) : tame s s1 := by
  unfold set_getter at h
  cases ho : s.obj p with
  | none => simp [ho] at h
  | some o =>
    simp only [ho, Option.bind_eq_some] at h
    obtain ⟨sa, h1, sb, h2, sc, h3, h4⟩ := h
    have t1 := tame_of_soft (release_list_soft h1)
    have n1 := no_protref_tame t1 hn
    have t2 := tame_set_slot_at h2 (fun r => ⟨rfl, rfl, rfl, rfl⟩) n1 (fun r hr => hr)
    have n2 := no_protref_tame t2 n1
    have t3 := tame_of_soft (addref_opt_soft h3)
    have n3 := no_protref_tame t3 n2
    have t4 := tame_set_slot_at h4 (fun r => ⟨rfl, rfl, rfl, rfl⟩) n3 (fun r hr => hr)
    exact tame_trans t1 (tame_trans t2 (tame_trans t3 t4))

theorem set_setter_tame {s s1 : Store} {p i : Nat} {desc : property_desc_t}
    (hn : no_protref s p i) (h : set_setter s p i desc = some s1) : tame s s1 := by
  unfold set_setter at h
  cases ho : s.obj p with
  | none => simp [ho] at h
  | some o =>
    simp only [ho, Option.bind_eq_some] at h
    obtain ⟨sa, h1, sb, h2, sc, h3, h4⟩ := h
    have t1 := tame_of_soft (release_list_soft h1)
    have n1 := no_protref_tame t1 hn
    have t2 := tame_set_slot_at h2 (fun r => ⟨rfl, rfl, rfl, rfl⟩) n1 (fun r hr => hr)
    have n2 := no_protref_tame t2 n1
    have t3 := tame_of_soft (addref_opt_soft h3)
    have n3 := no_protref_tame t3 n2
    have t4 := tame_set_slot_at h4 (fun r => ⟨rfl, rfl, rfl, rfl⟩) n3 (fun r hr => hr)
    exact tame_trans t1 (tame_trans t2 (tame_trans t3 t4))

theorem define_accessor_prop_tame {s s1 : Store} {p i : Nat} {name : WSTR}
    {desc : property_desc_t} {r : Option HRESULT} (hn : no_protref s p i)
    (h : define_accessor_prop s p i name desc = some (s1, r)) : tame s s1 := by
  unfold define_accessor_prop at h
  cases ho : s.obj p with
  | none => simp [ho] at h
  | some o =>
    simp only [ho] at h
    split at h
    · cases h
    · next sa hr hsh =>
      have ta : tame s sa := by
        split at hsh
        · split at hsh
          · injection hsh with hsh
            injection hsh with hsh _
            subst hsh
            exact tame_refl _
          · simp only [Option.bind_eq_some, Option.map_eq_some', Prod.mk.injEq] at hsh
            obtain ⟨sb, h1, sc, h2, rfl, _⟩ := hsh
            have t1 : tame s sb := by
              split at h1
              · exact tame_of_soft (jsval_release_soft h1)
              · injection h1 with h1
                subst h1
                exact tame_refl _
            exact tame_trans t1
              (tame_set_slot h2 (fun r => ⟨rfl, rfl, rfl, rfl⟩) (fun _ _ e => nomatch e))
        · split at hsh
          · injection hsh with hsh
            injection hsh with hsh _
            subst hsh
            exact tame_refl _
          · injection hsh with hsh
            injection hsh with hsh _
            subst hsh
            exact tame_refl _
      injection h with h
      injection h with h _
      subst h
      exact ta
    · next sa hsh =>
      have ta : tame s sa := by
        split at hsh
        · split at hsh
          · injection hsh with hsh
            injection hsh with hsh _
            subst hsh
            exact tame_refl _
          · simp only [Option.bind_eq_some, Option.map_eq_some', Prod.mk.injEq] at hsh
            obtain ⟨sb, h1, sc, h2, rfl, _⟩ := hsh
            have t1 : tame s sb := by
              split at h1
              · exact tame_of_soft (jsval_release_soft h1)
              · injection h1 with h1
                subst h1
                exact tame_refl _
            exact tame_trans t1
              (tame_set_slot h2 (fun r => ⟨rfl, rfl, rfl, rfl⟩) (fun _ _ e => nomatch e))
        · split at hsh
          · injection hsh with hsh
            injection hsh with hsh _
            subst hsh
            exact tame_refl _
          · injection hsh with hsh
            injection hsh with hsh _
            subst hsh
            exact tame_refl _
      have na := no_protref_tame ta hn
      simp only [Option.bind_eq_some, Option.map_eq_some', Prod.mk.injEq] at h
      obtain ⟨sb, h1, sc, h2, rfl, _⟩ := h
      have tb : tame sa sb := by
        split at h1
        · exact set_getter_tame na h1
        · injection h1 with h1
          subst h1
          exact tame_refl _
      have nb := no_protref_tame tb na
      have tc : tame sb sc := by
        split at h2
        · exact set_setter_tame nb h2
        · injection h2 with h2
          subst h2
          exact tame_refl _
      exact tame_trans ta (tame_trans tb tc)

theorem define_existing_prop_tame {s s1 : Store} {p i : Nat} {name : WSTR}
    {desc : property_desc_t} {hres : HRESULT} (hn : no_protref s p i)
    (h : define_existing_prop s p i name desc = some (s1, hres)) : tame s s1 := by
  unfold define_existing_prop at h
  cases ho : s.obj p with
  | none => simp [ho] at h
  | some o =>
    simp only [ho] at h
    split at h
    · injection h with h
      injection h with h _
      subst h
      exact tame_refl _
    · have body : ∀ (sa : Store) (x : Option HRESULT),
          (if desc.explicit_value = true ∨ desc.mask &&& PROPF_WRITABLE ≠ 0 then
            define_data_prop s p i name desc
          else if desc.explicit_getter = true ∨ desc.explicit_setter = true then
            define_accessor_prop s p i name desc
          else some (s, none)) = some (sa, x) → tame s sa := by
        intro sa x hb
        split at hb
        · exact define_data_prop_tame hn hb
        · split at hb
          · exact define_accessor_prop_tame hn hb
          · injection hb with hb
            injection hb with hb _
            subst hb
            exact tame_refl _
      split at h
      · cases h
      · next sa hr hb =>
        injection h with h
        injection h with h _
        subst h
        exact body _ _ hb
      · next sa hb =>
        have ta := body _ _ hb
        simp only [Option.map_eq_some', Prod.mk.injEq] at h
        obtain ⟨sb, h1, rfl, _⟩ := h
        exact tame_trans ta (tame_set_slot_at h1 (fun r => ⟨rfl, rfl, rfl, rfl⟩)
          (no_protref_tame ta hn) (fun r hr => hr))

theorem jsdisp_define_property_inv {s s1 : Store} {p : Nat} {name : WSTR}
    {desc : property_desc_t} {hres : HRESULT} (hinv : protref_inv s)
    (h : jsdisp_define_property s p name desc = some (s1, hres)) :
    protref_inv s1 ∧ grow s s1 := by
  unfold jsdisp_define_property at h
  cases ho : s.obj p with
  | none => simp [ho] at h
  | some obj =>
    simp only [ho] at h
    have unch : ∀ (x : HRESULT), some (s, x) = some (s1, hres) → protref_inv s1 ∧ grow s s1 := by
      intro x e
      injection e with e
      injection e with e _
      subst e
      exact ⟨hinv, grow_refl _⟩
    split at h
    · split at h
      · exact unch _ h
      · split at h
        · cases h
        · split at h
          · exact unch _ h
          · cases h
    · cases hfp : find_prop_name s p (string_hash name) name false with
      | none => simp [hfp] at h
      | some ra =>
        obtain ⟨sa, hra, prop⟩ := ra
        obtain ⟨a1, a2, a3⟩ := find_prop_name_inv hinv hfp
        simp only [hfp] at h
        split at h
        · injection h with h
          injection h with h _
          subst h
          exact ⟨a1, a2⟩
        · cases hoa : sa.obj p with
          | none => simp [hoa] at h
          | some obj1 =>
            simp only [hoa] at h
            split at h
            · injection h with h
              injection h with h _
              subst h
              exact ⟨a1, a2⟩
            · have fin : ∀ (sb : Store) (i : Nat), protref_inv sb → grow sa sb →
                  (match sb.obj p with
                    | none => none
                    | some obj2 =>
                      if obj2.proxy.isSome = true ∧ desc.explicit_value = true then none
                      else if (slot obj2 i).type = prop_type_t.PROP_DELETED ∨
                          (slot obj2 i).type = prop_type_t.PROP_PROTREF then
                        define_new_prop sb p i desc
                      else define_existing_prop sb p i name desc) = some (s1, hres) →
                  protref_inv s1 ∧ grow s s1 := by
                intro sb i b1 b2 hm
                cases hob : sb.obj p with
                | none => simp [hob] at hm
                | some obj2 =>
                  simp only [hob] at hm
                  split at hm
                  · cases hm
                  · split at hm
                    · have t := define_new_prop_tame hm
                      exact ⟨inv_tame b1 t, grow_trans a2 (grow_trans b2 (tame_grow t))⟩
                    · next hc =>
                      have hn : no_protref sb p i :=
                        no_protref_of_type hob (fun e => hc (Or.inr e))
                      have t := define_existing_prop_tame hn hm
                      exact ⟨inv_tame b1 t, grow_trans a2 (grow_trans b2 (tame_grow t))⟩
              cases prop with
              | some i =>
                simp only at h
                exact fin sa i a1 (grow_refl _) h
              | none =>
                simp only at h
                cases hal : store_alloc_prop sa p name prop_type_t.PROP_DELETED 0 with
                | none => simp [hal] at h
                | some rb =>
                  obtain ⟨sb, ri⟩ := rb
                  obtain ⟨b1, b2, _⟩ := alloc_step_inv a1 hal (fun e => nomatch e)
                  simp only [hal] at h
                  cases ri with
                  | none =>
                    simp only [Option.some.injEq, Prod.mk.injEq] at h
                    obtain ⟨rfl, _⟩ := h
                    exact ⟨b1, grow_trans a2 b2⟩
                  | some i =>
                    simp only at h
                    exact fin sb i b1 b2 h

theorem ensure_prop_name_inv (rank : Nat → Nat) {s s1 : Store} {p cf : Nat} {name : WSTR}
    {ci : Bool} {hres : HRESULT} {r : Option Nat} (hinv : protref_inv s)
    (hrk : proto_ranked rank s)
    (h : ensure_prop_name s p name cf ci = some (s1, hres, r)) :
    protref_inv s1 ∧ grow s s1 := by
  unfold ensure_prop_name at h
  cases hfp : find_prop_name_prot s p (string_hash name) name ci with
  | none => simp [hfp] at h
  | some ra =>
    obtain ⟨sa, hra, prop⟩ := ra
    obtain ⟨a1, a2, _⟩ := resolver_inv rank _ _ _ _ _ _ _ _ _ hinv hrk hfp
    simp only [hfp] at h
    split at h
    · injection h with h
      injection h with h _
      subst h
      exact ⟨a1, a2⟩
    · cases hoa : sa.obj p with
      | none => simp [hoa] at h
      | some This =>
        simp only [hoa] at h
        split at h
        · have fin : ∀ (sb : Store) (i : Nat), protref_inv sb → grow sa sb →
              no_protref sb p i →
              (if This.proxy.isSome = true then none
                else (store_set_slot sb p i (fun q =>
                  { q with u := prop_u.val jsval_t.undefined })).map
                    fun s3 => (s3, hra, some i)) = some (s1, hres, r) →
              protref_inv s1 ∧ grow s s1 := by
            intro sb i b1 b2 hn hm
            split at hm
            · cases hm
            · simp only [Option.map_eq_some', Prod.mk.injEq] at hm
              obtain ⟨sc, h1, rfl, _⟩ := hm
              have t := tame_set_slot_at h1 (fun r => ⟨rfl, rfl, rfl, rfl⟩) hn (fun r hr => hr)
              exact ⟨inv_tame b1 t, grow_trans a2 (grow_trans b2 (tame_grow t))⟩
          cases prop with
          | some i =>
            simp only at h
            have hs : store_set_slot sa p i (fun q =>
                { q with type := prop_type_t.PROP_JSVAL, flags := cf,
                         u := prop_u.val jsval_t.undefined }) =
                some (sa.set_obj p (set_slot This i (fun q =>
                { q with type := prop_type_t.PROP_JSVAL, flags := cf,
                         u := prop_u.val jsval_t.undefined }))) := by
              unfold store_set_slot
              rw [hoa]
            have t := tame_set_slot hs (fun r => ⟨rfl, rfl, rfl, rfl⟩) (fun _ _ e => nomatch e)
            have n := no_protref_set_slot hs (fun _ e => nomatch e)
            exact fin _ i (inv_tame a1 t) (tame_grow t) n h
          | none =>
            simp only at h
            cases hal : store_alloc_prop sa p name prop_type_t.PROP_JSVAL cf with
            | none => simp [hal] at h
            | some rb =>
              obtain ⟨sb, ri⟩ := rb
              obtain ⟨b1, b2, b3⟩ := alloc_step_inv a1 hal (fun e => nomatch e)
              simp only [hal] at h
              cases ri with
              | none =>
                simp only [Option.some.injEq, Prod.mk.injEq] at h
                obtain ⟨rfl, _⟩ := h
                exact ⟨b1, grow_trans a2 b2⟩
              | some i =>
                simp only at h
                obtain ⟨o2, ho2, _, ht⟩ := b3 i rfl
                exact fin sb i b1 b2
                  (no_protref_of_type ho2 (by rw [ht]; exact fun e => nomatch e)) h
        · injection h with h
          injection h with h _
          subst h
          exact ⟨a1, a2⟩

theorem jsdisp_propput_inv (rank : Nat → Nat) {s s1 : Store} {p flags : Nat} {name : WSTR}
    {throw : Bool} {val : jsval_t} {hres : HRESULT} (hinv : protref_inv s)
    (hrk : proto_ranked rank s)
    (h : jsdisp_propput s p name flags throw val = some (s1, hres)) :
    protref_inv s1 ∧ grow s s1 := by
  unfold jsdisp_propput at h
  cases ho : s.obj p with
  | none => simp [ho] at h
  | some obj =>
    simp only [ho] at h
    split at h
    · cases h
    · split at h
      · cases h
      · next sa hra prop hfound =>
        have ha : protref_inv sa ∧ grow s sa := by
          split at hfound
          · exact ensure_prop_name_inv rank hinv hrk hfound
          · obtain ⟨a1, a2, _⟩ := find_prop_name_inv hinv hfound
            exact ⟨a1, a2⟩
        have unch : ∀ (x : HRESULT), some (sa, x) = some (s1, hres) →
            protref_inv s1 ∧ grow s s1 := by
          intro x e
          injection e with e
          injection e with e _
          subst e
          exact ha
        split at h
        · exact unch _ h
        · split at h
          · cases h
          · exact unch _ h
          · split at h
            · exact unch _ h
            · have t := prop_put_tame h
              exact ⟨inv_tame ha.1 t, grow_trans ha.2 (tame_grow t)⟩

theorem get_prop_tame {s s1 : Store} {p : Nat} {id : Int} {r : Option Nat}
    (h : get_prop s p id = some (s1, r)) : tame s s1 := by
  unfold get_prop at h
  cases ho : s.obj p with
  | none => simp [ho] at h
  | some This =>
    simp only [ho] at h
    split at h
    · injection h with h
      injection h with h _
      subst h
      exact tame_refl _
    · split at h
      · cases h
      · simp only [Option.bind_eq_some] at h
        obtain ⟨sa, h1, h2⟩ := h
        have t := fix_protref_prop_tame h1
        cases hoa : sa.obj p with
        | none => simp [hoa] at h2
        | some o1 =>
          simp only [hoa, Option.some.injEq, Prod.mk.injEq] at h2
          obtain ⟨rfl, _⟩ := h2
          exact t

/-- The store of a prototype into an object without a prototype reference in
use keeps the invariant of the prototype references. -/
theorem inv_set_proto {s : Store} {p : Nat} {o : jsdisp_t} (pr : Option Nat)
    (hinv : protref_inv s) (ho : s.obj p = some o)
    (hno : ∀ i, i < o.prop_cnt → (slot o i).type ≠ prop_type_t.PROP_PROTREF) :
    protref_inv (s.set_obj p { o with prototype := pr }) := by
  have hlen : (s.set_obj p { o with prototype := pr }).heap.length = s.heap.length := by
    simp [Store.set_obj]
  have hobj : ∀ x, (s.set_obj p { o with prototype := pr }).obj x
      = if x = p then some { o with prototype := pr } else s.obj x := by
    intro x
    rw [obj_set_obj]
    by_cases e : x = p
    · rw [if_pos ⟨e, obj_lt ho⟩, if_pos e]
    · rw [if_neg (fun h => e h.1), if_neg e]
  refine ⟨hinv.1, fun x ox hx => ?_⟩
  rw [hobj] at hx
  by_cases e : x = p
  · rw [if_pos e] at hx
    injection hx with hx
    subst hx
    obtain ⟨hwf, hb, _⟩ := hinv.2 p o ho
    exact ⟨hwf, hb, fun i hi ht => absurd ht (hno i hi)⟩
  · rw [if_neg e] at hx
    obtain ⟨hwf, hb, hp⟩ := hinv.2 x ox hx
    refine ⟨hwf, hb, fun i hi ht => ?_⟩
    obtain ⟨q, hq, hlt, hv⟩ := hp i hi ht
    refine ⟨q, hq, by rw [hlen]; exact hlt, fun oq hoq => ?_⟩
    rw [hobj] at hoq
    by_cases e2 : q = p
    · rw [if_pos e2] at hoq
      injection hoq with hoq
      subst hoq
      exact hv o (by rw [e2]; exact ho)
    · rw [if_neg e2] at hoq
      exact hv oq hoq

theorem ranked_of_sub {rank : Nat → Nat} {s s1 : Store} (h : proto_ranked rank s)
    (hl : s.heap.length ≤ s1.heap.length)
    (hs : ∀ x o1 q, s1.obj x = some o1 → o1.prototype = some q →
      ∃ o, s.obj x = some o ∧ o.prototype = some q) : proto_ranked rank s1 := by
  intro x o1 q hx hq
  obtain ⟨o, ho, hp⟩ := hs x o1 q hx hq
  have := h x o q ho hp
  exact ⟨lt_of_lt_of_le this.1 hl, this.2⟩

theorem no_protref_soft {s s1 : Store} {p : Nat} {o1 : jsdisp_t} (h : tame s s1)
    (ho1 : s1.obj p = some o1) (N : Nat) (hn : ∀ i, i < N → no_protref s p i) :
    ∀ i, i < N → (slot o1 i).type ≠ prop_type_t.PROP_PROTREF :=
  fun i hi => no_protref_tame h (hn i hi) o1 ho1

theorem unlink_jsdisp_inv {rank : Nat → Nat} {s s1 : Store} {p : Nat} (hinv : protref_inv s)
    (hrk : proto_ranked rank s) (h : unlink_jsdisp s p = some s1) :
    protref_inv s1 ∧ proto_ranked rank s1 := by
  unfold unlink_jsdisp at h
  cases ho : s.obj p with
  | none => simp [ho] at h
  | some o =>
    simp only [ho, Option.bind_eq_some] at h
    obtain ⟨sa, h1, sb, h2, h3⟩ := h
    have hs1 : s1 = sb := by
      split at h3
      · cases h3
      · injection h3 with h3
        exact h3.symm
    subst hs1
    obtain ⟨ta, na⟩ := unlink_props_tame p _ _ _ h1
    have ia := inv_tame hinv ta
    have ra := ranked_grow hrk (tame_grow ta)
    cases hpr : o.prototype with
    | none =>
      simp only [hpr, Option.some.injEq] at h2
      subst h2
      exact ⟨ia, ra⟩
    | some q =>
      simp only [hpr, Option.bind_eq_some] at h2
      obtain ⟨sc, h4, h5⟩ := h2
      have tc := tame_of_soft (jsdisp_release_soft _ _ _ h4)
      have ic := inv_tame ia tc
      have rc := ranked_grow ra (tame_grow tc)
      cases hoc : sc.obj p with
      | none => simp [hoc] at h5
      | some o2 =>
        simp only [hoc, Option.some.injEq] at h5
        subst h5
        obtain ⟨o0, ho0, hc0, _⟩ := tame_cnt (tame_trans ta tc) hoc
        rw [ho] at ho0
        injection ho0 with ho0
        subst ho0
        have hno : ∀ i, i < o2.prop_cnt → (slot o2 i).type ≠ prop_type_t.PROP_PROTREF := by
          intro i hi
          rw [hc0] at hi
          exact no_protref_tame tc (na i (List.mem_range.mpr hi)) o2 hoc
        refine ⟨inv_set_proto none ic hoc hno, ranked_of_sub rc (by simp [Store.set_obj])
          (fun x o1 t hx ht => ?_)⟩
        rw [obj_set_obj] at hx
        split at hx
        · injection hx with hx
          subst hx
          cases ht
        · exact ⟨o1, hx, ht⟩

theorem drop_fold_tame : ∀ (l : List Nat) (This : jsdisp_t),
    tame_obj This (l.foldl (fun T i =>
      if (slot T i).type = prop_type_t.PROP_PROTREF then
        set_slot T i (fun q => { q with type := prop_type_t.PROP_DELETED })
      else T) This) ∧
    ∀ i ∈ l, (slot (l.foldl (fun T i =>
      if (slot T i).type = prop_type_t.PROP_PROTREF then
        set_slot T i (fun q => { q with type := prop_type_t.PROP_DELETED })
      else T) This) i).type ≠ prop_type_t.PROP_PROTREF := by
  intro l
  induction l with
  | nil => intro This; exact ⟨tame_obj_refl _, fun i hi => nomatch hi⟩
  | cons x l ih =>
    intro This
    simp only [List.foldl_cons]
    have hstep : tame_obj This (if (slot This x).type = prop_type_t.PROP_PROTREF then
          set_slot This x (fun q => { q with type := prop_type_t.PROP_DELETED })
        else This) ∧
        (slot (if (slot This x).type = prop_type_t.PROP_PROTREF then
          set_slot This x (fun q => { q with type := prop_type_t.PROP_DELETED })
        else This) x).type ≠ prop_type_t.PROP_PROTREF := by
      split
      · next hp =>
        refine ⟨tame_obj_set_slot _ _ _ (fun r => ⟨rfl, rfl, rfl, rfl⟩) (fun e => nomatch e), ?_⟩
        have hlt : x < This.props.length := by
          by_contra e
          rw [slot_out_of_range This x (by omega)] at hp
          cases hp
        rw [slot_set_slot, if_pos ⟨rfl, hlt⟩]
        exact fun e => nomatch e
      · next hp => exact ⟨tame_obj_refl _, hp⟩
    obtain ⟨t2, n2⟩ := ih (if (slot This x).type = prop_type_t.PROP_PROTREF then
          set_slot This x (fun q => { q with type := prop_type_t.PROP_DELETED })
        else This)
    refine ⟨tame_obj_trans hstep.1 t2, fun i hi => ?_⟩
    rcases List.mem_cons.mp hi with rfl | hi
    · exact fun e => hstep.2 ((t2.2.2 i).2.2.2.2 e).1
    · exact n2 i hi

theorem drop_protrefs_tame (obj : jsdisp_t) :
    tame_obj obj (drop_protrefs obj) ∧
    ∀ i, i < obj.prop_cnt → (slot (drop_protrefs obj) i).type ≠ prop_type_t.PROP_PROTREF := by
  obtain ⟨h1, h2⟩ := drop_fold_tame (List.range obj.prop_cnt) obj
  exact ⟨h1, fun i hi => h2 i (List.mem_range.mpr hi)⟩

/-- The loop of `jsdisp_change_prototype` that looks for the object on the
chain of the new prototype ends without it: no prototype links lead from
the new prototype to the object. -/
theorem cycle_walk_false {s : Store} {p : Nat} : ∀ (fuel : Nat) (start : Option Nat),
    proto_cycle_walk s p fuel start = some false →
    ∀ t, start = some t → ¬ Relation.ReflTransGen (proto_link s) t p := by
  intro fuel
  induction fuel with
  | zero => intro start h; simp [proto_cycle_walk] at h
  | succ n ih =>
    intro start h t ht hr
    subst ht
    simp only [proto_cycle_walk] at h
    split at h
    · cases h
    · next hne =>
      cases ho : s.obj t with
      | none => simp [ho] at h
      | some o =>
        simp only [ho] at h
        rcases Relation.ReflTransGen.cases_head hr with e | ⟨b, hb, hrest⟩
        · exact hne e
        · obtain ⟨o2, ho2, hp2⟩ := hb
          rw [ho] at ho2
          injection ho2 with ho2
          subst ho2
          exact ih _ h b hp2 hrest

/-- A new prototype that the object is not reached from keeps the prototype
links free of cycles. -/
theorem rerank {rank : Nat → Nat} {s sF : Store} (p : Nat) (proto : Option Nat)
    (hrk : proto_ranked rank s) (hl : sF.heap.length = s.heap.length)
    (hoth : ∀ x o1, x ≠ p → sF.obj x = some o1 →
      ∃ o, s.obj x = some o ∧ o1.prototype = o.prototype)
    (hp : ∀ oF, sF.obj p = some oF → oF.prototype = proto)
    (ht : ∀ t, proto = some t → t < s.heap.length ∧ ¬ Relation.ReflTransGen (proto_link s) t p) :
    ∃ rank1, proto_ranked rank1 sF := by
  classical
  refine ⟨fun x => if Relation.ReflTransGen (proto_link s) x p
    then rank x + ((Finset.range s.heap.length).sup rank + 1) else rank x, ?_⟩
  intro x o1 q hx hq
  by_cases e : x = p
  · subst e
    rw [hp o1 hx] at hq
    obtain ⟨h1, h2⟩ := ht q hq
    refine ⟨by rw [hl]; exact h1, ?_⟩
    simp only [if_neg h2, if_pos Relation.ReflTransGen.refl]
    have : rank q ≤ (Finset.range s.heap.length).sup rank :=
      Finset.le_sup (f := rank) (Finset.mem_range.mpr h1)
    omega
  · obtain ⟨o, ho, hpr⟩ := hoth x o1 e hx
    rw [hpr] at hq
    obtain ⟨h1, h2⟩ := hrk x o q ho hq
    refine ⟨by rw [hl]; exact h1, ?_⟩
    by_cases hq2 : Relation.ReflTransGen (proto_link s) q p
    · have hx2 : Relation.ReflTransGen (proto_link s) x p :=
        Relation.ReflTransGen.head ⟨o, ho, hq⟩ hq2
      simp only [if_pos hq2, if_pos hx2]
      omega
    · simp only [if_neg hq2]
      split <;> omega

theorem jsdisp_change_prototype_inv {rank : Nat → Nat} {s s1 : Store} {p : Nat}
    {proto : Option Nat} {hres : HRESULT} (hinv : protref_inv s) (hrk : proto_ranked rank s)
    (h : jsdisp_change_prototype s p proto = some (s1, hres)) :
    protref_inv s1 ∧ ∃ rank1, proto_ranked rank1 s1 := by
  unfold jsdisp_change_prototype at h
  cases ho : s.obj p with
  | none => simp [ho] at h
  | some obj =>
    simp only [ho] at h
    have unch : ∀ (x : HRESULT), some (s, x) = some (s1, hres) →
        protref_inv s1 ∧ ∃ rank1, proto_ranked rank1 s1 := by
      intro x e
      injection e with e
      injection e with e _
      subst e
      exact ⟨hinv, rank, hrk⟩
    split at h
    · exact unch _ h
    · split at h
      · exact unch _ h
      · cases hw : proto_cycle_walk s p (s.heap.length + 1) proto with
        | none => simp [hw] at h
        | some b =>
          cases b with
          | true =>
            simp only [hw] at h
            exact unch _ h
          | false =>
            simp only [hw, Option.bind_eq_some] at h
            obtain ⟨sa, h1, h2⟩ := h
            have hcyc := cycle_walk_false _ _ hw
            have ta : tame s sa ∧ ∀ i, i < obj.prop_cnt → no_protref sa p i := by
              cases hpr : obj.prototype with
              | none =>
                simp only [hpr, Option.some.injEq] at h1
                subst h1
                refine ⟨tame_refl _, fun i hi => no_protref_of_type ho (fun e => ?_)⟩
                obtain ⟨q, hq, _⟩ := (hinv.2 p obj ho).2.2 i hi e
                rw [hpr] at hq
                cases hq
              | some q =>
                simp only [hpr] at h1
                have t1 := tame_set_obj ho (drop_protrefs_tame obj).1
                have t2 := tame_of_soft (jsdisp_release_soft _ _ _ h1)
                refine ⟨tame_trans t1 t2, fun i hi => no_protref_tame t2 ?_⟩
                exact no_protref_of_type (obj_set_obj_self ho _) ((drop_protrefs_tame obj).2 i hi)
            cases hoa : sa.obj p with
            | none => simp [hoa] at h2
            | some obj1 =>
              simp only [hoa] at h2
              obtain ⟨o0, ho0, hc0, _⟩ := tame_cnt ta.1 hoa
              rw [ho] at ho0
              injection ho0 with ho0
              subst ho0
              have ia := inv_tame hinv ta.1
              have hno : ∀ i, i < obj1.prop_cnt →
                  (slot obj1 i).type ≠ prop_type_t.PROP_PROTREF :=
                fun i hi => ta.2 i (by rw [← hc0]; exact hi) obj1 hoa
              have ib := inv_set_proto proto ia hoa hno
              have hlb : (sa.set_obj p { obj1 with prototype := proto }).heap.length =
                  s.heap.length := by
                rw [← ta.1.1]
                simp [Store.set_obj]
              have hothb : ∀ x o1, x ≠ p →
                  (sa.set_obj p { obj1 with prototype := proto }).obj x = some o1 →
                  ∃ o, s.obj x = some o ∧ o1.prototype = o.prototype := by
                intro x o1 hx hox
                rw [obj_set_obj_ne sa hx] at hox
                obtain ⟨o, ho', _, hp'⟩ := tame_cnt ta.1 hox
                exact ⟨o, ho', hp'⟩
              have hpb : ∀ oF, (sa.set_obj p { obj1 with prototype := proto }).obj p = some oF →
                  oF.prototype = proto := by
                intro oF hoF
                rw [obj_set_obj_self hoa] at hoF
                injection hoF with hoF
                rw [← hoF]
              cases proto with
              | none =>
                simp only [Option.some.injEq, Prod.mk.injEq] at h2
                obtain ⟨rfl, _⟩ := h2
                exact ⟨ib, rerank p none hrk hlb hothb hpb (fun t ht => nomatch ht)⟩
              | some t =>
                simp only [Option.map_eq_some', Prod.mk.injEq] at h2
                obtain ⟨sc, h3, rfl, _⟩ := h2
                have tc := jsdisp_addref_soft h3
                have htlt : t < s.heap.length := by
                  unfold jsdisp_addref at h3
                  cases hot : (sa.set_obj p { obj1 with prototype := some t }).obj t with
                  | none => simp [hot] at h3
                  | some ot =>
                    have := obj_lt hot
                    rw [hlb] at this
                    exact this
                refine ⟨inv_soft ib tc, rerank p (some t) hrk (by rw [tc.1, hlb]) (fun x o1 hx hox => ?_)
                  (fun oF hoF => ?_) (fun t2 ht2 => ?_)⟩
                · obtain ⟨o2, ho2, hf2⟩ := tc.2.2 x o1 hox
                  obtain ⟨o, ho', hp'⟩ := hothb x o2 hx ho2
                  exact ⟨o, ho', by rw [hf2]; exact hp'⟩
                · obtain ⟨o2, ho2, hf2⟩ := tc.2.2 p oF hoF
                  rw [hf2]
                  exact hpb o2 ho2
                · injection ht2 with ht2
                  subst ht2
                  exact ⟨htlt, hcyc _ rfl⟩

theorem create_dispex_ranked {rank : Nat → Nat} {s s1 : Store} {bi : Option builtin_info_t}
    {proto : Option Nat} {hres : HRESULT} {r : Option Nat} (hrk : proto_ranked rank s)
    (hq : ∀ q, proto = some q → q < s.heap.length)
    (h : create_dispex s bi proto = some (s1, hres, r)) : ∃ rank1, proto_ranked rank1 s1 := by
  unfold create_dispex at h
  cases h1 : malloc s.avail with
  | none =>
    simp only [h1, Option.some.injEq, Prod.mk.injEq] at h
    rw [← h.1]
    exact ⟨rank, hrk⟩
  | some a1 =>
    simp only [h1] at h
    cases h2 : malloc a1 with
    | none =>
      simp only [h2, Option.some.injEq, Prod.mk.injEq] at h
      rw [← h.1]
      exact ⟨rank, fun x o q hx hq => hrk x o q hx hq⟩
    | some a2 =>
      simp only [h2, Option.bind_eq_some] at h
      obtain ⟨s2, hs2, h⟩ := h
      simp only [Option.some.injEq, Prod.mk.injEq] at h
      rw [← h.1]
      have hsoft : soft ({ s with heap := s.heap ++
          [some (init_object s.ctx.self (bi.getD dispex_info) proto)], avail := a2 } : Store)
          (s2.list_add_tail s.heap.length) := by
        refine soft_trans ?_ (soft_of_heap rfl rfl : soft s2 (s2.list_add_tail s.heap.length))
        cases proto with
        | none =>
          simp only [Option.some.injEq] at hs2
          rw [← hs2]
          exact soft_refl _
        | some q =>
          simp only at hs2
          exact jsdisp_addref_soft hs2
      refine ⟨fun x => if x = s.heap.length then
        (proto.map fun q => rank q + 1).getD 0 else rank x, ?_⟩
      intro x o1 t hx ht
      obtain ⟨o, ho, hf⟩ := hsoft.2.2 x o1 hx
      have hpt : o.prototype = some t := by
        rw [hf] at ht
        exact ht
      have hlen : (s2.list_add_tail s.heap.length).heap.length = s.heap.length + 1 := by
        rw [hsoft.1]
        simp
      rcases obj_append_cases s _ a2 x o ho with ⟨hlt, hos⟩ | ⟨he, hoe⟩
      · obtain ⟨k1, k2⟩ := hrk x o t hos hpt
        refine ⟨by rw [hlen]; omega, ?_⟩
        simp only [if_neg (by omega : ¬ x = s.heap.length),
          if_neg (by omega : ¬ t = s.heap.length)]
        exact k2
      · subst hoe
        have hpe : proto = some t := hpt
        have htl := hq t hpe
        refine ⟨by rw [hlen]; omega, ?_⟩
        simp only [if_pos he, if_neg (by omega : ¬ t = s.heap.length), hpe, Option.map_some',
          Option.getD_some]
        omega

theorem resolver_some_ok (hash : Nat) (name : WSTR) (ci : Bool) (fuel : Nat) (s : Store) (p : Nat)
    (s1 : Store) (hres : HRESULT) (i : Nat)
    (h : find_prop_name_prot_fuel fuel s p hash name ci = some (s1, hres, some i)) :
    hres = HRESULT.S_OK := by
  cases fuel with
  | zero => simp [find_prop_name_prot_fuel] at h
  | succ fuel =>
    unfold find_prop_name_prot_fuel at h
    repeat' split at h
    all_goals try simp only at h
    all_goals try split at h
    all_goals first
      | (cases h; done)
      | (simp only [Option.some.injEq, Prod.mk.injEq] at h; exact h.2.1.symm)
      | (simp only [Option.map_eq_some', Prod.mk.injEq] at h
         obtain ⟨_, _, _, h, _⟩ := h
         exact h.symm)

theorem reaches_some {s : Store} {start : Option Nat} {ref : Nat}
    (h : reaches_live_spec s start ref) : ∃ q, start = some q := by
  cases h with
  | here q ref o => exact ⟨q, rfl⟩
  | up q ref o => exact ⟨q, rfl⟩

/-- A slot that leads to a property: the walk over the prototype references
ends there, on objects of falling rank. -/
theorem reaches_path {rank : Nat → Nat} {s : Store} (hinv : protref_inv s)
    (hrk : proto_ranked rank s) {start : Option Nat} {ref : Nat}
    (h : reaches_live_spec s start ref) :
    ∀ p, start = some p → ∃ (L : List Nat) (t j : Nat) (ot : jsdisp_t), L.Nodup ∧
      (∀ x ∈ L, x < s.heap.length ∧ rank x ≤ rank p) ∧
      (∀ fuel, L.length ≤ fuel → protref_target s fuel p ref = some (t, j)) ∧
      s.obj t = some ot ∧ j < ot.prop_cnt ∧
      (slot ot j).type ≠ prop_type_t.PROP_PROTREF ∧
      (slot ot j).type ≠ prop_type_t.PROP_DELETED := by
  induction h with
  | here q ref o ho hlt hd hp =>
    intro p e
    injection e with e
    subst e
    have hwf := (hinv.2 q o ho).1
    have hlen : ¬ o.props.length ≤ ref := by
      have := hwf.1
      have := hwf.2.2.2.1
      omega
    refine ⟨[q], q, ref, o, List.nodup_singleton q, fun x hx => ?_, fun fuel hf => ?_, ho, hlt,
      hp, hd⟩
    · rw [List.mem_singleton.mp hx]
      exact ⟨obj_lt ho, le_refl _⟩
    · cases fuel with
      | zero => simp at hf
      | succ f =>
        simp only [protref_target, ho]
        rw [if_neg hlen, if_neg hp]
  | up q ref o ho hlt hp hsub ih =>
    intro p e
    injection e with e
    subst e
    obtain ⟨q1, hq1⟩ := reaches_some hsub
    obtain ⟨L, t, j, ot, h1, h2, h3, h4⟩ := ih q1 hq1
    obtain ⟨_, hr⟩ := hrk q o q1 ho hq1
    have hwf := (hinv.2 q o ho).1
    have hlen : ¬ o.props.length ≤ ref := by
      have := hwf.1
      have := hwf.2.2.2.1
      omega
    refine ⟨q :: L, t, j, ot, List.nodup_cons.mpr ⟨fun hm => ?_, h1⟩, fun x hx => ?_,
      fun fuel hf => ?_, h4⟩
    · have := (h2 q hm).2
      omega
    · rcases List.mem_cons.mp hx with rfl | hx
      · exact ⟨obj_lt ho, le_refl _⟩
      · exact ⟨(h2 x hx).1, by have := (h2 x hx).2; omega⟩
    · cases fuel with
      | zero => simp at hf
      | succ f =>
        simp only [protref_target, ho]
        rw [if_neg hlen, if_pos hp, hq1]
        exact h3 f (by simpa using hf)

/-- A slot that leads to a property, in a store with the invariant: the walk of
`prop_get` ends at a slot in use that is neither a prototype reference nor a
tombstone, and `prop_get` does not return `E_FAIL`. -/
theorem reaches_get {rank : Nat → Nat} {s : Store} (hinv : protref_inv s)
    (hrk : proto_ranked rank s) {p i : Nat} (h : reaches_live_spec s (some p) i) :
    ∃ t j ot, protref_target s (s.heap.length + 1) p i = some (t, j) ∧
      s.obj t = some ot ∧ j < ot.prop_cnt ∧
      (slot ot j).type ≠ prop_type_t.PROP_PROTREF ∧
      (slot ot j).type ≠ prop_type_t.PROP_DELETED ∧
      ∀ s2 hres v, prop_get s p i = some (s2, hres, v) → hres ≠ HRESULT.E_FAIL := by
  obtain ⟨L, t, j, ot, h1, h2, h3, h4, h5, h6, h7⟩ := reaches_path hinv hrk h p rfl
  have hL : L.length ≤ s.heap.length := nodup_length_le h1 (fun x hx => (h2 x hx).1)
  have htg := h3 (s.heap.length + 1) (by omega)
  refine ⟨t, j, ot, htg, h4, h5, h6, h7, fun s2 hres v hg => ?_⟩
  unfold prop_get at hg
  simp only [htg, h4] at hg
  split at hg
  · cases hg
  · cases hty : (slot ot j).type with
    | PROP_JSVAL =>
      simp only [hty, Option.bind_eq_some, Option.map_eq_some', Prod.mk.injEq] at hg
      obtain ⟨_, _, _, _, _, e, _⟩ := hg
      rw [← e]
      exact fun e => nomatch e
    | PROP_BUILTIN => simp only [hty] at hg; cases hg
    | PROP_PROTREF => exact absurd hty h6
    | PROP_ACCESSOR =>
      simp only [hty] at hg
      split at hg
      · cases hg
      · simp only [Option.some.injEq, Prod.mk.injEq] at hg
        rw [← hg.2.1]
        exact fun e => nomatch e
    | PROP_DELETED => exact absurd hty h7
    | PROP_IDX => simp only [hty] at hg; cases hg
    | PROP_PROXY => simp only [hty] at hg; cases hg

theorem get_prop_reaches {s s1 : Store} {p i : Nat} {id : Int} (hinv : protref_inv s)
    (h : get_prop s p id = some (s1, some i)) : reaches_live_spec s1 (some p) i := by
  unfold get_prop at h
  cases ho : s.obj p with
  | none => simp [ho] at h
  | some This =>
    simp only [ho] at h
    split at h
    · simp at h
    · next hidx =>
      split at h
      · cases h
      · simp only [Option.bind_eq_some] at h
        obtain ⟨sa, h1, h2⟩ := h
        have hwf := (hinv.2 p This ho).1
        obtain ⟨_, _, o1, f3, _, f5⟩ := fix_protref_prop_reaches ho (Nat.lt_of_not_le hidx)
          (by rw [hwf.1]; exact hwf.2.2.2.1) h1
        simp only [f3, Option.some.injEq, Prod.mk.injEq] at h2
        obtain ⟨rfl, h3⟩ := h2
        split at h3
        · cases h3
        · next hd =>
          injection h3 with h3
          subst h3
          exact f5 hd

/-- Every operation keeps the invariant of the prototype references and the
prototype links free of cycles. -/
theorem protref_step_inv {s s1 : Store} (h : protref_step s s1) (hinv : protref_inv s)
    (hrk : ∃ rank, proto_ranked rank s) :
    protref_inv s1 ∧ ∃ rank, proto_ranked rank s1 := by
  obtain ⟨rank, hrk⟩ := hrk
  cases h with
  | own p hash name ci hres r h =>
    obtain ⟨a1, a2, _⟩ := find_prop_name_inv hinv h
    exact ⟨a1, rank, ranked_grow hrk a2⟩
  | resolve p hash name ci hres r h =>
    obtain ⟨a1, a2, _⟩ := resolver_inv rank _ _ _ _ _ _ _ _ _ hinv hrk h
    exact ⟨a1, rank, ranked_grow hrk a2⟩
  | ensure p cf name ci hres r h =>
    obtain ⟨a1, a2⟩ := ensure_prop_name_inv rank hinv hrk h
    exact ⟨a1, rank, ranked_grow hrk a2⟩
  | get p id r h =>
    have t := get_prop_tame h
    exact ⟨inv_tame hinv t, rank, ranked_grow hrk (tame_grow t)⟩
  | put p i val hres h =>
    have t := prop_put_tame h
    exact ⟨inv_tame hinv t, rank, ranked_grow hrk (tame_grow t)⟩
  | put_name p flags name throw val hres h =>
    obtain ⟨a1, a2⟩ := jsdisp_propput_inv rank hinv hrk h
    exact ⟨a1, rank, ranked_grow hrk a2⟩
  | delete p i hres ret h =>
    have t := delete_prop_tame h
    exact ⟨inv_tame hinv t, rank, ranked_grow hrk (tame_grow t)⟩
  | define p name desc hres h =>
    obtain ⟨a1, a2⟩ := jsdisp_define_property_inv hinv h
    exact ⟨a1, rank, ranked_grow hrk a2⟩
  | change_prototype p proto hres h => exact jsdisp_change_prototype_inv hinv hrk h
  | unlink p h =>
    obtain ⟨a1, a2⟩ := unlink_jsdisp_inv hinv hrk h
    exact ⟨a1, rank, a2⟩
  | create bi proto hres r hq h =>
    refine ⟨(create_dispex_inv hinv h).1, create_dispex_ranked hrk (fun q hq2 => ?_) h⟩
    have := hq q hq2
    cases hoq : s.obj q with
    | none => rw [hoq] at this; cases this
    | some oq => exact obj_lt hoq
  | addref p h =>
    have t := tame_of_soft (jsdisp_addref_soft h)
    exact ⟨inv_tame hinv t, rank, ranked_grow hrk (tame_grow t)⟩
  | release p h =>
    have t := tame_of_soft (jsdisp_release_soft _ _ _ h)
    exact ⟨inv_tame hinv t, rank, ranked_grow hrk (tame_grow t)⟩

theorem protref_reach_inv {s0 s : Store} (h : Relation.ReflTransGen protref_step s0 s)
    (hinv : protref_inv s0) (hrk : ∃ rank, proto_ranked rank s0) :
    protref_inv s ∧ ∃ rank, proto_ranked rank s := by
  induction h with
  | refl => exact ⟨hinv, hrk⟩
  | tail _ hstep ih => exact protref_step_inv hstep ih.1 ih.2

/-- C27. Prototype-reference slots are always dereferenceable.  In every store
reached by the operations of `protref_step` (the resolver, put, delete, define,
`jsdisp_change_prototype`, `unlink_jsdisp`, the creation of objects and the
counting of references) from a store with the invariant `protref_inv` and with
prototype links that fall in `rank`, every slot in use of kind prototype
reference belongs to an object with a prototype, and its `ref` is below the
`prop_cnt` of that prototype, as long as the prototype is allocated.  For a
slot that `get_prop` or `find_prop_name_prot` returns and that is no tombstone,
the walk of `prop_get` over the prototype references, with the number of
rounds the model grants it, ends at a slot in use that is neither a prototype
reference nor a tombstone, and `prop_get` does not return `E_FAIL`. -/
theorem protref_dereferenceable (rank : Nat → Nat) (s0 s : Store) (h0 : protref_inv s0)
    (hr0 : proto_ranked rank s0) (hreach : Relation.ReflTransGen protref_step s0 s) :
    (∀ x o i, s.obj x = some o → i < o.prop_cnt →
      (slot o i).type = prop_type_t.PROP_PROTREF →
      ∃ q, o.prototype = some q ∧
        ∀ oq, s.obj q = some oq → u_ref (slot o i).u < oq.prop_cnt) ∧
    (∀ p i s1 o1,
      ((∃ id, get_prop s p id = some (s1, some i)) ∨
        ∃ hash name ci hres, find_prop_name_prot s p hash name ci = some (s1, hres, some i)) →
      s1.obj p = some o1 → (slot o1 i).type ≠ prop_type_t.PROP_DELETED →
      ∃ t j ot, protref_target s1 (s1.heap.length + 1) p i = some (t, j) ∧
        s1.obj t = some ot ∧ j < ot.prop_cnt ∧
        (slot ot j).type ≠ prop_type_t.PROP_PROTREF ∧
        (slot ot j).type ≠ prop_type_t.PROP_DELETED ∧
        ∀ s2 hres v, prop_get s1 p i = some (s2, hres, v) → hres ≠ HRESULT.E_FAIL) := by
  obtain ⟨hinv, rk, hrk⟩ := protref_reach_inv hreach h0 ⟨rank, hr0⟩
  refine ⟨fun x o i ho hi ht => ?_, fun p i s1 o1 hret ho1 hlive => ?_⟩
  · obtain ⟨q, hq, _, hv⟩ := (hinv.2 x o ho).2.2 i hi ht
    exact ⟨q, hq, hv⟩
  · rcases hret with ⟨id, hg⟩ | ⟨hash, name, ci, hres, hf⟩
    · have t := get_prop_tame hg
      exact reaches_get (inv_tame hinv t) (ranked_grow hrk (tame_grow t))
        (get_prop_reaches hinv hg)
    · have hok := resolver_some_ok _ _ _ _ _ _ _ _ _ hf
      obtain ⟨a1, a2, a3⟩ := resolver_inv rk _ _ _ _ _ _ _ _ _ hinv hrk hf
      obtain ⟨_, a4⟩ := a3 (by rw [hok]; rfl)
      obtain ⟨o2, ho2, _, hr⟩ := a4 i rfl
      rw [ho1] at ho2
      injection ho2 with ho2
      subst ho2
      exact reaches_get a1 (ranked_grow hrk a2) (hr hlive)

/-- The invariant by evaluation, with the address as the rank. -/
theorem inv_of_valid (s : Store) (ha : s.avail < 2 ^ 31)
    (h : ∀ x, x < s.heap.length → obj_valid s x)
    (hp : ∀ x o q, s.obj x = some o → o.prototype = some q → q < s.heap.length) :
    protref_inv s ∧ proto_ranked (fun x => x) s := by
  refine ⟨⟨ha, fun x o ho => ?_⟩, fun x o q ho hq => ?_⟩
  · have hx := h x (obj_lt ho)
    unfold obj_valid at hx
    rw [ho] at hx
    refine ⟨hx.1, hx.2.1, fun i hi ht => ?_⟩
    have hs := hx.2.2.1 i hi
    unfold slot_valid at hs
    have hs := hs ht
    cases hpr : o.prototype with
    | none => rw [hpr] at hs; exact absurd hs id
    | some q =>
      rw [hpr] at hs
      refine ⟨q, hpr, hs.1, fun oq hoq => ?_⟩
      have h2 := hs.2
      unfold ref_in_range at h2
      rw [hoq] at h2
      exact h2
  · have hx := h x (obj_lt ho)
    unfold obj_valid at hx
    rw [ho] at hx
    exact ⟨hp x o q ho hq, hx.2.2.2 q (hp x o q ho hq) hq⟩

theorem store_chain_valid : protref_inv store_chain ∧ proto_ranked (fun x => x) store_chain := by
  have h : store_chain.avail < 2 ^ 31 ∧ (∀ x, x < store_chain.heap.length →
      obj_valid store_chain x ∧ ∀ q, (store_chain.obj x).bind (fun o => o.prototype) = some q →
        q < store_chain.heap.length) := by decide
  refine inv_of_valid store_chain h.1 (fun x hx => (h.2 x hx).1) (fun x o q ho hq => ?_)
  exact (h.2 x (obj_lt ho)).2 q (by rw [ho]; exact hq)

theorem store_chain_reach :
    Relation.ReflTransGen protref_step store_chain store_chain_resolved :=
  Relation.ReflTransGen.single
    (protref_step.resolve store_chain store_chain_resolved 2 (string_hash name_x) name_x false
      HRESULT.S_OK (some 0) (by decide))

theorem protref_dereferenceable_witness :
    protref_inv store_chain ∧ proto_ranked (fun x => x) store_chain ∧
    Relation.ReflTransGen protref_step store_chain store_chain_resolved ∧
    (∀ x o i, store_chain_resolved.obj x = some o → i < o.prop_cnt →
      (slot o i).type = prop_type_t.PROP_PROTREF →
      ∃ q, o.prototype = some q ∧
        ∀ oq, store_chain_resolved.obj q = some oq → u_ref (slot o i).u < oq.prop_cnt) ∧
    (∀ p i s1 o1,
      ((∃ id, get_prop store_chain_resolved p id = some (s1, some i)) ∨
        ∃ hash name ci hres,
          find_prop_name_prot store_chain_resolved p hash name ci = some (s1, hres, some i)) →
      s1.obj p = some o1 → (slot o1 i).type ≠ prop_type_t.PROP_DELETED →
      ∃ t j ot, protref_target s1 (s1.heap.length + 1) p i = some (t, j) ∧
        s1.obj t = some ot ∧ j < ot.prop_cnt ∧
        (slot ot j).type ≠ prop_type_t.PROP_PROTREF ∧
        (slot ot j).type ≠ prop_type_t.PROP_DELETED ∧
        ∀ s2 hres v, prop_get s1 p i = some (s2, hres, v) → hres ≠ HRESULT.E_FAIL) :=
  ⟨store_chain_valid.1, store_chain_valid.2, store_chain_reach,
    protref_dereferenceable (fun x => x) store_chain store_chain_resolved store_chain_valid.1
      store_chain_valid.2 store_chain_reach⟩

/-! ### What `override_idx` accepts -/

theorem override_idx_scan_stops : ∀ (name : WSTR) (idx : Nat), idx < 4294967296 →
    name.all is_digit = false →
    ∃ c rest k, override_idx_scan name idx = (c :: rest, k) ∧ is_digit c = false := by
  intro name
  induction name with
  | nil => intro idx _ h; simp at h
  | cons c rest ih =>
    intro idx h hd
    by_cases hc : is_digit c = true
    · have hr : rest.all is_digit = false := by
        simp only [List.all_cons, hc, Bool.true_and] at hd
        exact hd
      have hle : idx ≤ 4294967295 - 9 / 10 := by
        have : (4294967295 - 9 / 10 : Nat) = 4294967295 := by decide
        omega
      simp only [override_idx_scan, hc, hle, decide_True, Bool.and_self, if_true]
      exact ih _ (Nat.mod_lt _ (by decide)) hr
    · have hc2 : is_digit c = false := by simpa using hc
      refine ⟨c, rest, idx, ?_, hc2⟩
      simp only [override_idx_scan, hc2, Bool.false_and, Bool.false_eq_true, if_false]

/-- C31. What `override_idx` computes: for an object of a typed-array class
it succeeds exactly for the names made of decimal digits only, the empty name
among them, and the index it reports is the numeric value of the name modulo
`2^32`; for an object of another class it fails.  The claim has it fail for the
empty name and report `UINT_MAX` for a value that does not fit: on the typed
array of `store_typed_array` the empty name yields the index 0, and so does the
name `4294967296`, whose value is `2^32`. -/
theorem override_idx_wraps :
    (∀ (o : jsdisp_t) (name : WSTR),
      override_idx o name =
        if FIRST_TYPEDARRAY_JSCLASS ≤ o.builtin_info.jsclass ∧
            o.builtin_info.jsclass ≤ LAST_TYPEDARRAY_JSCLASS then
          if name.all is_digit then some (digits_value name % 4294967296) else none
        else none) ∧
    (store_typed_array.obj 0).map (fun o => o.builtin_info.jsclass)
      = some FIRST_TYPEDARRAY_JSCLASS ∧
    (store_typed_array.obj 0).map (fun o => override_idx o []) = some (some 0) ∧
    name_2_32.all is_digit = true ∧ digits_value name_2_32 = 4294967296 ∧
    (store_typed_array.obj 0).map (fun o => override_idx o name_2_32) = some (some 0) := by
  refine ⟨fun o name => ?_, by rfl, by rfl, by rfl, by rfl, by rfl⟩
  by_cases hta : FIRST_TYPEDARRAY_JSCLASS ≤ o.builtin_info.jsclass ∧
      o.builtin_info.jsclass ≤ LAST_TYPEDARRAY_JSCLASS
  · rw [if_pos hta]
    by_cases hd : name.all is_digit = true
    · rw [if_pos hd]
      exact override_idx_digits o name hta hd
    · rw [if_neg hd]
      have hd2 : name.all is_digit = false := by simpa using hd
      obtain ⟨c, rest, k, hs, hc⟩ := override_idx_scan_stops name 0 (by decide) hd2
      unfold override_idx
      rw [if_pos hta, hs]
      simp only [List.dropWhile_cons, hc, Bool.false_eq_true, if_false, List.isEmpty_cons]
  · rw [if_neg hta]
    unfold override_idx
    rw [if_neg hta]

/-! ### The binary search of the builtin table -/

theorem builtin_bsearch_range (props : List builtin_prop_t) (name : WSTR) :
    ∀ (fuel : Nat) (min max : Int) (i : Nat), 0 ≤ min →
      builtin_bsearch props name fuel min max = some i → min ≤ i ∧ (i : Int) ≤ max := by
  intro fuel
  induction fuel with
  | zero => intro min max i _ h; simp [builtin_bsearch] at h
  | succ n ih =>
    intro min max i h0 h
    simp only [builtin_bsearch] at h
    split at h
    · split at h
      · simp only [Option.some.injEq] at h
        rw [← h]
        omega
      · split at h
        · have := ih _ _ _ h0 h
          omega
        · have := ih _ _ _ (by omega) h
          omega
    · cases h

theorem builtin_at_mem (props : List builtin_prop_t) (i : Nat) (hi : i < props.length) :
    builtin_at props i ∈ props := by
  unfold builtin_at
  rw [List.getD_eq_getElem _ _ hi]
  exact List.getElem_mem hi

theorem builtin_mem_at (props : List builtin_prop_t) (b : builtin_prop_t) (hb : b ∈ props) :
    ∃ i, i < props.length ∧ builtin_at props i = b := by
  obtain ⟨i, hi, he⟩ := List.getElem_of_mem hb
  refine ⟨i, hi, ?_⟩
  unfold builtin_at
  rw [List.getD_eq_getElem _ _ hi]
  exact he

theorem builtin_sorted_unique (props : List builtin_prop_t)
    (hs : ∀ i j, i < j → j < props.length →
      wcscmp (builtin_at props i).name (builtin_at props j).name < 0)
    (i j : Nat) (hi : i < props.length) (hj : j < props.length)
    (he : (builtin_at props i).name = (builtin_at props j).name) : i = j := by
  by_contra hne
  rcases Nat.lt_or_gt_of_ne hne with h | h
  · have := hs i j h hj
    rw [he, wcscmp_self] at this
    omega
  · have := hs j i h hi
    rw [he, wcscmp_self] at this
    omega

/-- C32. Builtin table lookup: for a builtin table sorted strictly ascending
by `wcscmp` of the names, `find_builtin_prop` in case-sensitive mode returns
the entry `b` exactly when `b` is an entry of the table whose name equals the
query and which passes the gate, and `none` when there is no such entry; its
result is that of the linear case-sensitive scan of the table followed by the
gate.  An entry passes the gate when its minimum version is zero or not above
the version of the context, and it is not marked for HTML mode outside HTML
mode. -/
theorem builtin_lookup_sorted (ctx : script_ctx_t) (o : jsdisp_t) (name : WSTR)
    (hs : ∀ i j, i < j → j < o.builtin_info.props.length →
      wcscmp (builtin_at o.builtin_info.props i).name (builtin_at o.builtin_info.props j).name
        < 0) :
    find_builtin_prop ctx o name false = find_builtin_linear ctx o name ∧
    (∀ b, find_builtin_prop ctx o name false = some b ↔
      (b ∈ o.builtin_info.props ∧ b.name = name ∧ builtin_gate ctx b = true)) ∧
    (find_builtin_prop ctx o name false = none ↔
      ¬ ∃ b, b ∈ o.builtin_info.props ∧ b.name = name ∧ builtin_gate ctx b = true) ∧
    (∀ b, builtin_gate ctx b = true ↔
      (((b.flags &&& PROPF_VERSION_MASK) >>> PROPF_VERSION_SHIFT = 0 ∨
        (b.flags &&& PROPF_VERSION_MASK) >>> PROPF_VERSION_SHIFT ≤ ctx.version) ∧
       (b.flags &&& PROPF_HTML = 0 ∨ ctx.html_mode = true))) := by
  have hgate : ∀ b, builtin_gate ctx b = true ↔
      (((b.flags &&& PROPF_VERSION_MASK) >>> PROPF_VERSION_SHIFT = 0 ∨
        (b.flags &&& PROPF_VERSION_MASK) >>> PROPF_VERSION_SHIFT ≤ ctx.version) ∧
       (b.flags &&& PROPF_HTML = 0 ∨ ctx.html_mode = true)) := by
    intro b
    unfold builtin_gate
    simp only
    constructor
    · intro h
      split at h
      · cases h
      · next h1 =>
        split at h
        · cases h
        · next h2 =>
          constructor
          · by_contra hc
            exact h1 ⟨fun e => hc (Or.inl e), by omega⟩
          · by_contra hc
            exact h2 ⟨fun e => hc (Or.inl e), fun e => hc (Or.inr e)⟩
    · intro ⟨h1, h2⟩
      rw [if_neg (by
        intro hc
        rcases h1 with h1 | h1
        · exact hc.1 h1
        · omega)]
      rw [if_neg (by
        intro hc
        rcases h2 with h2 | h2
        · exact hc.1 h2
        · exact hc.2 h2)]
  -- the index both searches find
  have key : ∀ b, find_builtin_prop ctx o name false = some b ↔
      (b ∈ o.builtin_info.props ∧ b.name = name ∧ builtin_gate ctx b = true) := by
    intro b
    constructor
    · intro h
      have hn := find_builtin_prop_some ctx o name false b h
      unfold find_builtin_prop at h
      simp only [Bool.false_eq_true, if_false] at h
      split at h
      · cases h
      · next i hi =>
        obtain ⟨_, hmax⟩ := builtin_bsearch_range _ _ _ _ _ _ (le_refl _) hi
        split at h
        · next hg =>
          injection h with h
          subst h
          refine ⟨builtin_at_mem _ i (by omega), ?_, hg⟩
          exact ((wcscmp_eq_zero_iff _ _).1 (builtin_bsearch_some _ _ _ _ _ _ hi)).symm
        · cases h
    · intro ⟨hb, hn, hg⟩
      obtain ⟨e, he, hbe⟩ := builtin_mem_at _ b hb
      rw [← hbe] at hn hg ⊢
      exact find_builtin_prop_sorted ctx o name e hs he hn hg
  have hlin : ∀ b, find_builtin_linear ctx o name = some b ↔
      (b ∈ o.builtin_info.props ∧ b.name = name ∧ builtin_gate ctx b = true) := by
    intro b
    unfold find_builtin_linear
    constructor
    · intro h
      split at h
      · cases h
      · next c hc =>
        split at h
        · next hg =>
          injection h with h
          subst h
          have hp := List.find?_some hc
          simp only [beq_iff_eq] at hp
          exact ⟨List.mem_of_find?_eq_some hc, ((wcscmp_eq_zero_iff _ _).1 hp).symm, hg⟩
        · cases h
    · intro ⟨hb, hn, hg⟩
      cases hf : o.builtin_info.props.find? (fun b => wcscmp name b.name == 0) with
      | none =>
        have := List.find?_eq_none.mp hf b hb
        rw [hn, wcscmp_self] at this
        exact absurd rfl this
      | some c =>
        have hp := List.find?_some hf
        simp only [beq_iff_eq] at hp
        have hcn : c.name = name := ((wcscmp_eq_zero_iff _ _).1 hp).symm
        obtain ⟨i, hi, hci⟩ := builtin_mem_at _ c (List.mem_of_find?_eq_some hf)
        obtain ⟨j, hj, hbj⟩ := builtin_mem_at _ b hb
        have hij := builtin_sorted_unique _ hs i j hi hj (by rw [hci, hbj, hcn, hn])
        have hcb : c = b := by rw [← hci, ← hbj, hij]
        subst hcb
        simp only [hg, if_true]
  refine ⟨?_, key, ?_, hgate⟩
  · cases h1 : find_builtin_prop ctx o name false with
    | some b => exact ((hlin b).2 ((key b).1 h1)).symm
    | none =>
      cases h2 : find_builtin_linear ctx o name with
      | none => rfl
      | some b =>
        have := (key b).2 ((hlin b).1 h2)
        rw [h1] at this
        cases this
  · constructor
    · intro h ⟨b, hb⟩
      have := (key b).2 hb
      rw [h] at this
      cases this
    · intro h
      cases h1 : find_builtin_prop ctx o name false with
      | none => rfl
      | some b => exact absurd ⟨b, (key b).1 h1⟩ h

theorem info_am_sorted : ∀ i j, i < j →
    j < (init_object 0 info_am none).builtin_info.props.length →
    wcscmp (builtin_at (init_object 0 info_am none).builtin_info.props i).name
      (builtin_at (init_object 0 info_am none).builtin_info.props j).name < 0 := by
  intro i j hij hj
  have hj2 : j < 2 := hj
  interval_cases j
  · omega
  · interval_cases i
    decide

theorem builtin_lookup_sorted_witness :
    (∀ i j, i < j → j < (init_object 0 info_am none).builtin_info.props.length →
      wcscmp (builtin_at (init_object 0 info_am none).builtin_info.props i).name
        (builtin_at (init_object 0 info_am none).builtin_info.props j).name < 0) ∧
    find_builtin_prop ctx_empty (init_object 0 info_am none) [97] false =
      find_builtin_linear ctx_empty (init_object 0 info_am none) [97] ∧
    find_builtin_linear ctx_empty (init_object 0 info_am none) [97] =
      some { name := [97], invoke := none, flags := 0, getter := some 1, setter := none } :=
  ⟨info_am_sorted,
    (builtin_lookup_sorted ctx_empty (init_object 0 info_am none) [97] info_am_sorted).1,
    by decide⟩

/-! ### Move-to-front -/

theorem bucket_chain_wf (o : jsdisp_t) (hwf : props_wf o) (c : Nat) (hc : c < o.buf_size) :
    ∃ l, bucket_chain o c = some l ∧ is_chain o.props (slot o c).bucket_head l ∧ l.Nodup ∧
      l.length ≤ o.props.length ∧ ∀ i ∈ l, i < o.prop_cnt := by
  have h := hwf.2.2.2.2.2 c hc
  unfold chain_ok at h
  cases hb : bucket_chain o c with
  | none => rw [hb] at h; exact h.elim
  | some l =>
    rw [hb] at h
    have hcf := chain_from_is_chain _ _ _ _ hb
    refine ⟨l, rfl, hcf.1, h.1, ?_, fun i hi => (h.2.1 i hi).1⟩
    have := nodup_length_le h.1 (fun i hi => (h.2.1 i hi).1)
    have := hwf.1
    have := hwf.2.2.2.1
    omega

/-- C35. Move-to-front: in a well-formed table the own-table lookup returns a
result; a hit on slot `x` makes `x` the head of the chain of its bucket with the
other members of that chain in the order they had, leaves the chain of every
other bucket and the name, hash, kind, flags and payload of every slot as they
were, and keeps the table well formed; a miss changes nothing. -/
theorem move_to_front (o : jsdisp_t) (hash : Nat) (name : WSTR) (ci : Bool)
    (hwf : props_wf o) :
    ∃ o1 r l, find_prop_name_raw o hash name ci = some (o1, r) ∧
      bucket_chain o (get_props_idx o hash) = some l ∧
      (r = none → o1 = o) ∧
      (∀ x, r = some x → x ∈ l ∧
        bucket_chain o1 (get_props_idx o hash) = some (x :: l.erase x)) ∧
      (∀ c, c < o.buf_size → c ≠ get_props_idx o hash →
        bucket_chain o1 c = bucket_chain o c) ∧
      (∀ j, same_core (slot o1 j) (slot o j)) ∧
      o1 = { o with props := o1.props } ∧ o1.props.length = o.props.length ∧
      props_wf o1 := by
  obtain ⟨o1, r, l, hf, hl, hr, hnone, hsome, hother⟩ := raw_lookup_chains o hash name ci hwf
  obtain ⟨fr, _, _⟩ := raw_frame _ _ _ _ _ _ hf
  obtain ⟨o2, r2, hf2, hwf1, _, _⟩ := raw_lookup_wf o hash name ci hwf
  rw [hf] at hf2
  injection hf2 with hf2
  injection hf2 with hf2 _
  subst hf2
  have hb := get_props_idx_lt o hash (by have := hwf.2.1; omega)
  obtain ⟨l0, hl0, hc0, hnd, hlen0, _⟩ := bucket_chain_wf o hwf _ hb
  have hll : l = l0 := is_chain_unique _ _ _ _ hl hc0
  subst hll
  refine ⟨o1, r, l, hf, hl0, hnone, fun x hx => ?_, fun c hc hne => ?_, fr.2.2, fr.1, fr.2.1,
    hwf1⟩
  · have hmem : x ∈ l := by
      rw [hr] at hx
      exact List.mem_of_find?_eq_some hx
    refine ⟨hmem, bucket_chain_of_chain o1 _ _ (hsome x hx) ?_⟩
    rw [fr.2.1]
    simp only [List.length_cons, List.length_erase_of_mem hmem]
    have : 0 < l.length := List.length_pos_of_mem hmem
    omega
  · obtain ⟨l1, hl1, hc1, _, hlen1, _⟩ := bucket_chain_wf o hwf c hc
    rw [hl1]
    exact bucket_chain_of_chain o1 c l1 (hother c hc hne l1 hc1) (by rw [fr.2.1]; exact hlen1)

theorem move_to_front_witness :
    props_wf table_aei ∧
    bucket_chain table_aei 1 = some [2, 1, 0] ∧
    (find_prop_name_raw table_aei (string_hash [97]) [97] false).map
      (fun r => (r.2, bucket_chain r.1 1)) = some (some 0, some [0, 2, 1]) ∧
    ∃ o1 r l, find_prop_name_raw table_aei (string_hash [97]) [97] false = some (o1, r) ∧
      bucket_chain table_aei (get_props_idx table_aei (string_hash [97])) = some l ∧
      (r = none → o1 = table_aei) ∧
      (∀ x, r = some x → x ∈ l ∧
        bucket_chain o1 (get_props_idx table_aei (string_hash [97])) = some (x :: l.erase x)) ∧
      (∀ c, c < table_aei.buf_size → c ≠ get_props_idx table_aei (string_hash [97]) →
        bucket_chain o1 c = bucket_chain table_aei c) ∧
      (∀ j, same_core (slot o1 j) (slot table_aei j)) ∧
      o1 = { table_aei with props := o1.props } ∧
      o1.props.length = table_aei.props.length ∧ props_wf o1 :=
  ⟨by decide, by decide, by decide,
    move_to_front table_aei (string_hash [97]) [97] false (by decide)⟩

/-! ### The traversal stack is a LIFO stack -/

theorem gc_stack_push_idx {g g1 : gc_ctx} {a a1 : Nat} {obj : Option Nat}
    (hi : g.idx < GC_CHUNK) (h : gc_stack_push g a obj = some (g1, a1)) :
    g1.idx < GC_CHUNK := by
  unfold gc_stack_push at h
  by_cases h0 : g.idx = 0
  · simp only [h0, if_true] at h
    by_cases hn : g.next = true
    · simp only [hn, if_true, Option.some.injEq, Prod.mk.injEq] at h
      rw [← h.1]
      show GC_CHUNK - 1 < GC_CHUNK
      decide
    · simp only [hn, Bool.false_eq_true, if_false] at h
      cases hm : malloc a with
      | none => simp [hm] at h
      | some a2 =>
        simp only [hm, Option.map_some', Option.some.injEq, Prod.mk.injEq] at h
        rw [← h.1]
        show GC_CHUNK - 1 < GC_CHUNK
        decide
  · simp only [h0, if_false] at h
    cases hch : g.chunks with
    | nil =>
      simp only [hch, Option.some.injEq, Prod.mk.injEq] at h
      rw [← h.1]
      show g.idx - 1 < GC_CHUNK
      omega
    | cons c prev =>
      simp only [hch, Option.some.injEq, Prod.mk.injEq] at h
      rw [← h.1]
      show g.idx - 1 < GC_CHUNK
      omega

theorem gc_stack_push_some {g : gc_ctx} {a : Nat} (obj : Option Nat) (ha : 0 < a) :
    ∃ g1 a1, gc_stack_push g a obj = some (g1, a1) ∧ a - 1 ≤ a1 := by
  unfold gc_stack_push
  by_cases h0 : g.idx = 0
  · by_cases hn : g.next = true
    · simp only [h0, hn, if_true]
      exact ⟨_, _, rfl, by omega⟩
    · simp only [h0, hn, if_true, Bool.false_eq_true, if_false, malloc_pos ha, Option.map_some']
      exact ⟨_, _, rfl, le_refl _⟩
  · simp only [h0, if_false]
    split
    · exact ⟨_, _, rfl, by omega⟩
    · exact ⟨_, _, rfl, by omega⟩

theorem gc_stack_pop_some {g : gc_ctx} (hw : stack_wf g) (hi : g.idx < GC_CHUNK)
    (hne : stack_list g ≠ []) : ∃ g1 obj, gc_stack_pop g = some (g1, obj) ∧ g1.idx < GC_CHUNK := by
  unfold gc_stack_pop
  unfold stack_wf at hw
  cases hch : g.chunks with
  | nil => exact absurd (by simp [stack_list, hch]) hne
  | cons c prev =>
    rw [hch] at hw
    cases c with
    | nil =>
      simp only [List.length_nil] at hw
      omega
    | cons x c =>
      simp only
      split
      · exact ⟨_, _, rfl, by show 0 < GC_CHUNK; decide⟩
      · next hn =>
        refine ⟨_, _, rfl, ?_⟩
        simp only [List.length_cons] at hw
        show g.idx + 1 < GC_CHUNK
        omega

/-- The calls on the chunked stack and on the list, side by side. -/
theorem run_stack_lifo : ∀ (ops : List stack_op) (g : gc_ctx) (avail : Nat)
    (st outs : List (Option Nat)), stack_wf g → g.idx < GC_CHUNK →
    run_lifo ops (stack_list g) = some (st, outs) →
    (∀ g1 a1 outs1, run_stack ops g avail = some (g1, a1, outs1) →
      outs1 = outs ∧ stack_list g1 = st ∧ stack_wf g1) ∧
    (ops.length ≤ avail → ∃ g1 a1, run_stack ops g avail = some (g1, a1, outs)) := by
  intro ops
  induction ops with
  | nil =>
    intro g avail st outs hw hi hl
    simp only [run_lifo, Option.some.injEq, Prod.mk.injEq] at hl
    obtain ⟨rfl, rfl⟩ := hl
    refine ⟨fun g1 a1 outs1 h => ?_, fun _ => ⟨g, avail, rfl⟩⟩
    simp only [run_stack, Option.some.injEq, Prod.mk.injEq] at h
    obtain ⟨rfl, _, rfl⟩ := h
    exact ⟨rfl, rfl, hw⟩
  | cons op ops ih =>
    intro g avail st outs hw hi hl
    cases op with
    | push obj =>
      simp only [run_lifo] at hl
      constructor
      · intro g1 a1 outs1 h
        simp only [run_stack, Option.bind_eq_some] at h
        obtain ⟨r, hr, h⟩ := h
        obtain ⟨g2, a2⟩ := r
        obtain ⟨hw2, hs2⟩ := gc_stack_push_spec hw hr
        have hi2 := gc_stack_push_idx hi hr
        rw [← hs2] at hl
        exact (ih g2 a2 st outs hw2 hi2 hl).1 g1 a1 outs1 h
      · intro hlen
        simp only [List.length_cons] at hlen
        obtain ⟨g2, a2, hr, ha2⟩ := @gc_stack_push_some g avail obj (by omega)
        obtain ⟨hw2, hs2⟩ := gc_stack_push_spec hw hr
        have hi2 := gc_stack_push_idx hi hr
        rw [← hs2] at hl
        obtain ⟨g1, a1, h1⟩ := (ih g2 a2 st outs hw2 hi2 hl).2 (by omega)
        exact ⟨g1, a1, by simp only [run_stack, hr, Option.some_bind]; exact h1⟩
    | pop =>
      cases hst : stack_list g with
      | nil =>
        rw [hst] at hl
        simp [run_lifo] at hl
      | cons x rest =>
        rw [hst] at hl
        simp only [run_lifo, Option.map_eq_some', Prod.mk.injEq] at hl
        obtain ⟨t, ht, rfl, rfl⟩ := hl
        obtain ⟨g2, obj, hp, hi2⟩ := gc_stack_pop_some hw hi (by rw [hst]; exact fun e => nomatch e)
        obtain ⟨hw2, hs2⟩ := gc_stack_pop_spec hw hp
        rw [hst] at hs2
        injection hs2 with hx hrest
        subst hx
        rw [hrest] at ht
        constructor
        · intro g1 a1 outs1 h
          simp only [run_stack, hp, Option.some_bind, Option.map_eq_some', Prod.mk.injEq] at h
          obtain ⟨t2, ht2, rfl, rfl, rfl⟩ := h
          obtain ⟨h1, h2, h3⟩ := (ih g2 avail t.1 t.2 hw2 hi2 ht).1 t2.1 t2.2.1 t2.2.2 ht2
          exact ⟨by rw [h1], h2, h3⟩
        · intro hlen
          simp only [List.length_cons] at hlen
          obtain ⟨g1, a1, h1⟩ := (ih g2 avail t.1 t.2 hw2 hi2 ht).2 (by omega)
          exact ⟨g1, a1, by simp only [run_stack, hp, Option.some_bind, h1, Option.map_some']⟩

/-- C39. The traversal stack is a LIFO stack across chunk boundaries.  For a
sequence of calls of `gc_stack_push` and `gc_stack_pop` from the empty
`gc_ctx` in which no pop is made on the empty stack: whenever the calls
succeed, the pops return what the pops of a list stack return, each the most
recently pushed object not yet popped, and the entries left are those of the
list; and with one allocation granted for each call the calls do succeed. -/
theorem gc_stack_lifo (ops : List stack_op) (avail : Nat) (st outs : List (Option Nat))
    (hl : run_lifo ops [] = some (st, outs)) :
    (∀ g1 a1 outs1, run_stack ops gc_ctx.init avail = some (g1, a1, outs1) →
      outs1 = outs ∧ stack_list g1 = st) ∧
    (ops.length ≤ avail → ∃ g1 a1, run_stack ops gc_ctx.init avail = some (g1, a1, outs)) := by
  have h := run_stack_lifo ops gc_ctx.init avail st outs rfl (by decide) hl
  exact ⟨fun g1 a1 outs1 hr => ⟨(h.1 g1 a1 outs1 hr).1, (h.1 g1 a1 outs1 hr).2.1⟩, h.2⟩

theorem run_lifo_pushes : ∀ (l : List Nat) (ops : List stack_op) (st : List (Option Nat)),
    run_lifo (l.map (fun i => stack_op.push (some i)) ++ ops) st =
      run_lifo ops (l.reverse.map (fun i => some i) ++ st) := by
  intro l
  induction l with
  | nil => intro ops st; rfl
  | cons x l ih =>
    intro ops st
    show run_lifo (l.map (fun i => stack_op.push (some i)) ++ ops) (some x :: st) = _
    rw [ih]
    simp only [List.reverse_cons, List.map_append, List.map_cons,
      List.map_nil, List.append_assoc, List.nil_append, List.cons_append]

theorem run_lifo_calls (R : List Nat) (a b c : Nat) :
    run_lifo ((R ++ [a, b]).map (fun i => stack_op.push (some i)) ++
      [stack_op.pop, stack_op.push (some c), stack_op.pop, stack_op.pop]) [] =
      some ((R.reverse.map fun i => some i), [some b, some c, some a]) := by
  rw [run_lifo_pushes]
  simp only [List.reverse_append, List.map_append, List.append_nil, List.reverse_cons,
    List.reverse_nil, List.nil_append, List.cons_append, List.map_cons, List.map_nil, run_lifo,
    Option.map_some']

theorem stack_calls_lifo :
    run_lifo stack_calls [] =
      some (((List.range 1019).reverse.map fun i => some i),
        [some 1020, some 5000, some 1019]) := by
  have hr : List.range 1021 = List.range 1019 ++ [1019, 1020] := by
    rw [List.range_succ, List.range_succ, List.append_assoc]
    rfl
  unfold stack_calls
  rw [hr]
  exact run_lifo_calls (List.range 1019) 1019 1020 5000

theorem stack_calls_length : stack_calls.length ≤ 2000 := by
  unfold stack_calls
  simp only [List.length_append, List.length_map, List.length_range, List.length_cons,
    List.length_nil]
  decide

theorem gc_stack_lifo_witness :
    run_lifo stack_calls [] =
      some (((List.range 1019).reverse.map fun i => some i),
        [some 1020, some 5000, some 1019]) ∧
    stack_calls.length ≤ 2000 ∧
    (∀ g1 a1 outs1, run_stack stack_calls gc_ctx.init 2000 = some (g1, a1, outs1) →
      outs1 = [some 1020, some 5000, some 1019] ∧
      stack_list g1 = (List.range 1019).reverse.map fun i => some i) ∧
    (stack_calls.length ≤ 2000 → ∃ g1 a1, run_stack stack_calls gc_ctx.init 2000 =
      some (g1, a1, [some 1020, some 5000, some 1019])) :=
  ⟨stack_calls_lifo, stack_calls_length,
    gc_stack_lifo stack_calls 2000 _ _ stack_calls_lifo⟩

/-! ### Freeze and seal -/

theorem freeze_step (seal1 : Bool) :
    (fun (This : jsdisp_t) (i : Nat) =>
      let This1 :=
        if seal1 = false ∧ (slot This i).type = prop_type_t.PROP_JSVAL then
          set_slot This i (fun q => { q with flags := q.flags &&& (4294967295 ^^^ PROPF_WRITABLE) })
        else This
      set_slot This1 i (fun q => { q with flags := q.flags &&& (4294967295 ^^^ PROPF_CONFIGURABLE) })) =
    fun This i => set_slot This i (freeze_slot seal1) := by
  funext This i
  have hs : ∀ (f g : dispex_prop_t → dispex_prop_t), f (slot This i) = g (slot This i) →
      set_slot This i f = set_slot This i g := by
    intro f g h
    unfold set_slot
    rw [h]
  by_cases hc : seal1 = false ∧ (slot This i).type = prop_type_t.PROP_JSVAL
  · simp only [if_pos hc, set_slot_set_slot]
    apply hs
    simp only [freeze_slot, hc, and_self, if_true]
  · simp only [if_neg hc]
    apply hs
    simp only [freeze_slot, hc, if_false]

/-- The object after one function has been applied to the slots of a list of
indices without repetition. -/
theorem set_slot_fold (F : dispex_prop_t → dispex_prop_t) : ∀ (l : List Nat) (o : jsdisp_t),
    l.Nodup →
    (∃ props1, l.foldl (fun This i => set_slot This i F) o = { o with props := props1 }) ∧
    (l.foldl (fun This i => set_slot This i F) o).props.length = o.props.length ∧
    ∀ j, slot (l.foldl (fun This i => set_slot This i F) o) j =
      if j ∈ l ∧ j < o.props.length then F (slot o j) else slot o j := by
  intro l
  induction l with
  | nil => intro o _; exact ⟨⟨o.props, rfl⟩, rfl, fun j => by simp⟩
  | cons x l ih =>
    intro o hnd
    obtain ⟨hx, hnd2⟩ := List.nodup_cons.mp hnd
    simp only [List.foldl_cons]
    obtain ⟨⟨pr, h1⟩, h2, h3⟩ := ih (set_slot o x F) hnd2
    refine ⟨⟨pr, ?_⟩, ?_, fun j => ?_⟩
    · rw [h1]; rfl
    · rw [h2, set_slot_length]
    · rw [h3 j, set_slot_length, slot_set_slot]
      by_cases hj : j = x
      · subst hj
        by_cases hl : j < o.props.length
        · simp [hx, hl]
        · simp [hx, hl]
      · by_cases hjl : j ∈ l
        · simp [hj, hjl]
        · simp [hj, hjl]

theorem freeze_slot_fixed (seal1 : Bool) (q : dispex_prop_t) :
    freeze_slot seal1 (freeze_slot seal1 q) = freeze_slot seal1 q := by
  have h1 : ∀ x m : Nat, (x &&& m) &&& m = x &&& m := by
    intro x m
    rw [Nat.and_assoc, Nat.and_self]
  have h2 : ∀ x a b : Nat, ((x &&& a) &&& b) &&& a = (x &&& a) &&& b := by
    intro x a b
    rw [Nat.and_assoc, Nat.and_comm b a, ← Nat.and_assoc, h1]
  unfold freeze_slot
  by_cases hc : seal1 = false ∧ q.type = prop_type_t.PROP_JSVAL
  · simp only [hc, and_self, if_true, h2, h1]
  · simp only [hc, if_false, h1]

theorem is_frozen_loop_true (obj : jsdisp_t) (sealed : Bool) : ∀ (l : List Nat),
    (∀ i ∈ l, (slot obj i).flags &&& PROPF_CONFIGURABLE = 0 ∧
      (sealed = false → (slot obj i).type = prop_type_t.PROP_JSVAL →
        (slot obj i).flags &&& PROPF_WRITABLE = 0)) →
    is_frozen_loop obj sealed l = true := by
  intro l
  induction l with
  | nil => intro _; rfl
  | cons x l ih =>
    intro h
    obtain ⟨hc, hw⟩ := h x (List.mem_cons_self _ _)
    have hr := ih (fun i hi => h i (List.mem_cons_of_mem _ hi))
    simp only [is_frozen_loop, hc, ne_eq, not_true_eq_false, if_false, hr]
    split
    · next ht =>
      rw [if_neg (fun hh => hh.2 (hw hh.1 ht))]
    · split <;> rfl

theorem and_configurable (x : Nat) :
    (x &&& (4294967295 ^^^ PROPF_CONFIGURABLE)) &&& PROPF_CONFIGURABLE = 0 := by
  rw [Nat.and_assoc]
  have : (4294967295 ^^^ PROPF_CONFIGURABLE) &&& PROPF_CONFIGURABLE = 0 := by decide
  rw [this, Nat.and_zero]

theorem and_writable (x : Nat) :
    ((x &&& (4294967295 ^^^ PROPF_WRITABLE)) &&& (4294967295 ^^^ PROPF_CONFIGURABLE)) &&&
      PROPF_WRITABLE = 0 := by
  rw [Nat.and_assoc, Nat.and_assoc]
  have : (4294967295 ^^^ PROPF_WRITABLE) &&&
      ((4294967295 ^^^ PROPF_CONFIGURABLE) &&& PROPF_WRITABLE) = 0 := by decide
  rw [this, Nat.and_zero]

theorem freeze_slot_others (seal1 : Bool) (q : dispex_prop_t) :
    (freeze_slot seal1 q).flags &&& (4294967295 ^^^ (PROPF_WRITABLE ||| PROPF_CONFIGURABLE)) =
      q.flags &&& (4294967295 ^^^ (PROPF_WRITABLE ||| PROPF_CONFIGURABLE)) := by
  unfold freeze_slot
  have h1 : (4294967295 ^^^ PROPF_CONFIGURABLE) &&&
      (4294967295 ^^^ (PROPF_WRITABLE ||| PROPF_CONFIGURABLE)) =
      4294967295 ^^^ (PROPF_WRITABLE ||| PROPF_CONFIGURABLE) := by decide
  have h2 : (4294967295 ^^^ PROPF_WRITABLE) &&&
      (4294967295 ^^^ (PROPF_WRITABLE ||| PROPF_CONFIGURABLE)) =
      4294967295 ^^^ (PROPF_WRITABLE ||| PROPF_CONFIGURABLE) := by decide
  by_cases hc : seal1 = false ∧ q.type = prop_type_t.PROP_JSVAL
  · simp only [hc, and_self, if_true]
    rw [Nat.and_assoc, h1, Nat.and_assoc, h2]
  · simp only [hc, if_false]
    rw [Nat.and_assoc, h1]

theorem set_slot_fold_fixed (F : dispex_prop_t → dispex_prop_t) : ∀ (l : List Nat) (o : jsdisp_t),
    (∀ i ∈ l, F (slot o i) = slot o i) →
    l.foldl (fun This i => set_slot This i F) o = o := by
  intro l
  induction l with
  | nil => intro o _; rfl
  | cons x l ih =>
    intro o h
    simp only [List.foldl_cons]
    rw [set_slot_same o x F (h x (List.mem_cons_self _ _))]
    exact ih o (fun i hi => h i (List.mem_cons_of_mem _ hi))

/-- C38. Freeze and seal are recognised by their own test.  For every object
`o` at `p`, `jsdisp_freeze(p, seal)` returns; after it `jsdisp_is_frozen` with
`sealed = TRUE` is true and, when `seal = FALSE`, `jsdisp_is_frozen` with
`sealed = FALSE` is true as well; a second `jsdisp_freeze` leaves the store as
it is; and the call changes no slot's kind, payload, name, hash or bucket link
and no flag other than writable and configurable, nothing of the object but its
slots' flags and `extensible`, and no other object. -/
theorem freeze_recognised (s : Store) (p : Nat) (o : jsdisp_t) (seal1 : Bool)
    (h : s.obj p = some o) :
    ∃ s1 o1, jsdisp_freeze s p seal1 = some s1 ∧ s1.obj p = some o1 ∧
      jsdisp_is_frozen s1 p true = some true ∧
      (seal1 = false → jsdisp_is_frozen s1 p false = some true) ∧
      jsdisp_freeze s1 p seal1 = some s1 ∧
      (∀ i, (slot o1 i).type = (slot o i).type ∧ (slot o1 i).u = (slot o i).u ∧
        (slot o1 i).name = (slot o i).name ∧ (slot o1 i).hash = (slot o i).hash ∧
        (slot o1 i).bucket_head = (slot o i).bucket_head ∧
        (slot o1 i).bucket_next = (slot o i).bucket_next ∧
        (slot o1 i).flags &&& (4294967295 ^^^ (PROPF_WRITABLE ||| PROPF_CONFIGURABLE)) =
          (slot o i).flags &&& (4294967295 ^^^ (PROPF_WRITABLE ||| PROPF_CONFIGURABLE))) ∧
      (∃ props1, o1 = { o with props := props1, extensible := false }) ∧
      o1.props.length = o.props.length ∧
      (∀ q, q ≠ p → s1.obj q = s.obj q) ∧ s1.ctx = s.ctx ∧ s1.avail = s.avail ∧
      s1.heap.length = s.heap.length := by
  obtain ⟨⟨pr, hpr⟩, hlen, hslot⟩ :=
    set_slot_fold (freeze_slot seal1) (List.range o.prop_cnt) o (List.nodup_range _)
  have hfr : ∀ (t : Store) (x : jsdisp_t), t.obj p = some x →
      jsdisp_freeze t p seal1 = some (t.set_obj p
        { (List.foldl (fun This i => set_slot This i (freeze_slot seal1)) x
            (List.range x.prop_cnt)) with extensible := false }) := by
    intro t x hx
    unfold jsdisp_freeze
    rw [hx]
    simp only
    rw [freeze_step seal1]
  have hs1 : ∀ i, slot ({ (List.foldl (fun This i => set_slot This i (freeze_slot seal1)) o
      (List.range o.prop_cnt)) with extensible := false } : jsdisp_t) i =
      if i ∈ List.range o.prop_cnt ∧ i < o.props.length then freeze_slot seal1 (slot o i)
      else slot o i := hslot
  have hcnt : ({ (List.foldl (fun This i => set_slot This i (freeze_slot seal1)) o
      (List.range o.prop_cnt)) with extensible := false } : jsdisp_t).prop_cnt = o.prop_cnt := by
    rw [hpr]
  have hfix : ∀ i, freeze_slot seal1 (slot ({ (List.foldl
      (fun This i => set_slot This i (freeze_slot seal1)) o
      (List.range o.prop_cnt)) with extensible := false } : jsdisp_t) i) =
      slot ({ (List.foldl (fun This i => set_slot This i (freeze_slot seal1)) o
      (List.range o.prop_cnt)) with extensible := false } : jsdisp_t) i ∨
      ¬ i < o.prop_cnt := by
    intro i
    by_cases hi : i < o.prop_cnt
    · left
      rw [hs1 i]
      by_cases hl : i < o.props.length
      · rw [if_pos ⟨List.mem_range.mpr hi, hl⟩, freeze_slot_fixed]
      · rw [if_neg (fun hh => hl hh.2), slot_out_of_range o i (Nat.le_of_not_lt hl)]
        cases seal1 <;> rfl
    · exact Or.inr hi
  have hflags : ∀ i, i < o.prop_cnt →
      (slot ({ (List.foldl (fun This i => set_slot This i (freeze_slot seal1)) o
        (List.range o.prop_cnt)) with extensible := false } : jsdisp_t) i).flags &&&
          PROPF_CONFIGURABLE = 0 ∧
      (seal1 = false → (slot ({ (List.foldl (fun This i => set_slot This i (freeze_slot seal1)) o
        (List.range o.prop_cnt)) with extensible := false } : jsdisp_t) i).type =
          prop_type_t.PROP_JSVAL →
        (slot ({ (List.foldl (fun This i => set_slot This i (freeze_slot seal1)) o
        (List.range o.prop_cnt)) with extensible := false } : jsdisp_t) i).flags &&&
          PROPF_WRITABLE = 0) := by
    intro i hi
    rw [hs1 i]
    by_cases hl : i < o.props.length
    · rw [if_pos ⟨List.mem_range.mpr hi, hl⟩]
      refine ⟨and_configurable _, fun hs ht => ?_⟩
      have ht2 : (slot o i).type = prop_type_t.PROP_JSVAL := ht
      simp only [freeze_slot, hs, ht2, and_self, if_true]
      exact and_writable _
    · rw [if_neg (fun hh => hl hh.2), slot_out_of_range o i (Nat.le_of_not_lt hl)]
      exact ⟨rfl, fun _ _ => rfl⟩
  have hobj := obj_set_obj_self h ({ (List.foldl (fun This i => set_slot This i (freeze_slot seal1)) o
      (List.range o.prop_cnt)) with extensible := false } : jsdisp_t)
  have hfrozen : ∀ sealed : Bool, (sealed = false → seal1 = false) →
      jsdisp_is_frozen (s.set_obj p ({ (List.foldl
        (fun This i => set_slot This i (freeze_slot seal1)) o
        (List.range o.prop_cnt)) with extensible := false } : jsdisp_t)) p sealed = some true := by
    intro sealed hsl
    unfold jsdisp_is_frozen
    rw [hobj]
    simp only [Bool.false_eq_true, if_false, Option.some.injEq]
    apply is_frozen_loop_true
    intro i hi
    rw [hcnt] at hi
    have hf := hflags i (List.mem_range.mp hi)
    exact ⟨hf.1, fun hsd => hf.2 (hsl hsd)⟩
  refine ⟨_, _, hfr s o h, hobj, hfrozen true (fun hh => Bool.noConfusion hh),
    fun hs => hfrozen false (fun _ => hs), ?_, fun i => ?_, ?_, hlen, ?_, rfl, rfl, ?_⟩
  · rw [hfr _ _ hobj, hcnt]
    have hfold := set_slot_fold_fixed (freeze_slot seal1) (List.range o.prop_cnt)
      ({ (List.foldl (fun This i => set_slot This i (freeze_slot seal1)) o
        (List.range o.prop_cnt)) with extensible := false } : jsdisp_t)
      (fun i hi => (hfix i).resolve_right (fun hn => hn (List.mem_range.mp hi)))
    rw [hfold, set_obj_set_obj]
  · rw [hs1 i]
    split
    · exact ⟨rfl, rfl, rfl, rfl, rfl, rfl, freeze_slot_others seal1 _⟩
    · exact ⟨rfl, rfl, rfl, rfl, rfl, rfl, rfl⟩
  · exact ⟨pr, by rw [hpr]⟩
  · intro q hq
    exact obj_set_obj_ne s hq _
  · simp [Store.set_obj]

theorem freeze_recognised_witness :
    store_shadow.obj 0 = some (shadow_obj 0) ∧
    (slot (shadow_obj 0) 0).flags = PROPF_ENUMERABLE ||| PROPF_CONFIGURABLE ||| PROPF_WRITABLE ∧
    ((jsdisp_freeze store_shadow 0 false).bind fun t => (t.obj 0).map fun x =>
      ((slot x 0).flags, x.extensible)) = some (PROPF_ENUMERABLE, false) ∧
    jsdisp_is_frozen store_shadow 0 true = some false ∧
    ∃ s1 o1, jsdisp_freeze store_shadow 0 false = some s1 ∧ s1.obj 0 = some o1 ∧
      jsdisp_is_frozen s1 0 true = some true ∧
      (false = false → jsdisp_is_frozen s1 0 false = some true) ∧
      jsdisp_freeze s1 0 false = some s1 ∧
      (∀ i, (slot o1 i).type = (slot (shadow_obj 0) i).type ∧
        (slot o1 i).u = (slot (shadow_obj 0) i).u ∧
        (slot o1 i).name = (slot (shadow_obj 0) i).name ∧
        (slot o1 i).hash = (slot (shadow_obj 0) i).hash ∧
        (slot o1 i).bucket_head = (slot (shadow_obj 0) i).bucket_head ∧
        (slot o1 i).bucket_next = (slot (shadow_obj 0) i).bucket_next ∧
        (slot o1 i).flags &&& (4294967295 ^^^ (PROPF_WRITABLE ||| PROPF_CONFIGURABLE)) =
          (slot (shadow_obj 0) i).flags &&&
            (4294967295 ^^^ (PROPF_WRITABLE ||| PROPF_CONFIGURABLE))) ∧
      (∃ props1, o1 = { shadow_obj 0 with props := props1, extensible := false }) ∧
      o1.props.length = (shadow_obj 0).props.length ∧
      (∀ q, q ≠ 0 → s1.obj q = store_shadow.obj q) ∧ s1.ctx = store_shadow.ctx ∧
      s1.avail = store_shadow.avail ∧ s1.heap.length = store_shadow.heap.length :=
  ⟨by decide, by decide, by decide, by decide,
    freeze_recognised store_shadow 0 (shadow_obj 0) false (by decide)⟩

/-! ### Prototype chains without cycles -/

/-- Without cycles and dangling prototype pointers the prototype chain of an
object ends within as many links as the heap has objects. -/
theorem chain_of_acyclic {s : Store} (hac : proto_acyclic s) (hcl : proto_closed s) :
    ∀ (n : Nat) (visited : List Nat) (start : Option Nat), visited.Nodup →
      (∀ v ∈ visited, v < s.heap.length) →
      (∀ v ∈ visited, ∀ y, start = some y → Relation.TransGen (proto_link s) v y) →
      (∀ y, start = some y → (s.obj y).isSome = true) →
      s.heap.length ≤ visited.length + n → ∃ l, proto_chain s (n + 1) start = some l := by
  intro n
  induction n with
  | zero =>
    intro visited start hnd hlt hv ha hlen
    cases start with
    | none => exact ⟨[], rfl⟩
    | some x =>
      exfalso
      obtain ⟨o, ho⟩ := Option.isSome_iff_exists.mp (ha x rfl)
      have hx : x ∉ visited := fun hm => hac x (hv x hm x rfl)
      have hnd2 : (x :: visited).Nodup := List.nodup_cons.mpr ⟨hx, hnd⟩
      have := @nodup_length_le (x :: visited) s.heap.length hnd2 (fun y hy => by
        rcases List.mem_cons.mp hy with rfl | hy
        · exact obj_lt ho
        · exact hlt y hy)
      simp only [List.length_cons] at this
      omega
  | succ m ih =>
    intro visited start hnd hlt hv ha hlen
    cases start with
    | none => exact ⟨[], rfl⟩
    | some x =>
      obtain ⟨o, ho⟩ := Option.isSome_iff_exists.mp (ha x rfl)
      have hx : x ∉ visited := fun hm => hac x (hv x hm x rfl)
      have hnd2 : (x :: visited).Nodup := List.nodup_cons.mpr ⟨hx, hnd⟩
      obtain ⟨l, hl⟩ := ih (x :: visited) o.prototype hnd2 (fun y hy => by
        rcases List.mem_cons.mp hy with rfl | hy
        · exact obj_lt ho
        · exact hlt y hy) (fun v hvm y hy => by
        have hlink : proto_link s x y := ⟨o, ho, hy⟩
        rcases List.mem_cons.mp hvm with rfl | hvm
        · exact Relation.TransGen.single hlink
        · exact Relation.TransGen.tail (hv v hvm x rfl) hlink) (fun y hy => hcl x o y ho hy)
        (by simp only [List.length_cons]; omega)
      refine ⟨x :: l, ?_⟩
      simp only [proto_chain, ho, hl, Option.map_some']

theorem chain_exists {s : Store} (hac : proto_acyclic s) (hcl : proto_closed s)
    (start : Option Nat) (ha : ∀ y, start = some y → (s.obj y).isSome = true) :
    ∃ l, proto_chain s (s.heap.length + 1) start = some l ∧ l.length ≤ s.heap.length := by
  obtain ⟨l, hl⟩ := chain_of_acyclic hac hcl s.heap.length [] start List.nodup_nil
    (fun v hv => nomatch hv) (fun v hv => nomatch hv) ha (by simp)
  exact ⟨l, hl, proto_chain_length hl⟩

/-- The objects of a prototype chain are those the prototype links lead to. -/
theorem chain_mem_reach {s : Store} : ∀ (n : Nat) (start : Option Nat) (l : List Nat),
    proto_chain s n start = some l → ∀ x ∈ l, ∀ y, start = some y →
      Relation.ReflTransGen (proto_link s) y x := by
  intro n
  induction n with
  | zero => intro start l h; simp [proto_chain] at h
  | succ n ih =>
    intro start l h x hx y hy
    subst hy
    obtain ⟨o, l1, m, ho, hl1, rfl⟩ := proto_chain_cons h
    have h2 : proto_chain s n o.prototype = some l1 := by
      simp only [proto_chain, ho, Option.map_eq_some'] at h
      obtain ⟨l2, h2, he⟩ := h
      have : l2 = l1 := by simpa using he
      rw [← this]; exact h2
    rcases List.mem_cons.mp hx with rfl | hx1
    · exact Relation.ReflTransGen.refl
    · cases hp : o.prototype with
      | none =>
        rw [hp] at h2
        cases n with
        | zero => simp [proto_chain] at h2
        | succ n =>
          simp only [proto_chain, Option.some.injEq] at h2
          subst h2
          cases hx1
      | some q =>
        exact Relation.ReflTransGen.head ⟨o, ho, hp⟩ (ih _ _ h2 x hx1 q hp)

/-- A store whose prototype links are those of an acyclic store, but for the
links of `p`, which lead to objects that do not lead to `p`, is acyclic. -/
theorem acyclic_relink {s s1 : Store} {p : Nat} (hac : proto_acyclic s)
    (hoth : ∀ x y, x ≠ p → proto_link s1 x y → proto_link s x y)
    (hp : ∀ y, proto_link s1 p y → ¬ Relation.ReflTransGen (proto_link s) y p) :
    proto_acyclic s1 := by
  have hfirst : ∀ a b, Relation.TransGen (proto_link s1) a b →
      Relation.TransGen (proto_link s) a b ∨ Relation.ReflTransGen (proto_link s) a p := by
    intro a b h
    induction h with
    | single hab =>
      by_cases e : a = p
      · exact Or.inr (e ▸ Relation.ReflTransGen.refl)
      · exact Or.inl (Relation.TransGen.single (hoth _ _ e hab))
    | tail hac2 hcb ih =>
      rename_i c d
      rcases ih with h1 | h1
      · by_cases e : c = p
        · exact Or.inr (e ▸ h1.to_reflTransGen)
        · exact Or.inl (Relation.TransGen.tail h1 (hoth _ _ e hcb))
      · exact Or.inr h1
  have hlast : ∀ a b, Relation.TransGen (proto_link s1) a b →
      Relation.TransGen (proto_link s) a b ∨
        ∃ d, proto_link s1 p d ∧ Relation.ReflTransGen (proto_link s) d b := by
    intro a b h
    induction h with
    | single hab =>
      by_cases e : a = p
      · exact Or.inr ⟨_, e ▸ hab, Relation.ReflTransGen.refl⟩
      · exact Or.inl (Relation.TransGen.single (hoth _ _ e hab))
    | tail hac2 hcb ih =>
      rename_i c d
      by_cases e : c = p
      · exact Or.inr ⟨_, e ▸ hcb, Relation.ReflTransGen.refl⟩
      · rcases ih with h1 | ⟨d1, hd1, h1⟩
        · exact Or.inl (Relation.TransGen.tail h1 (hoth _ _ e hcb))
        · exact Or.inr ⟨d1, hd1, Relation.ReflTransGen.tail h1 (hoth _ _ e hcb)⟩
  intro x hx
  rcases hlast x x hx with h1 | ⟨d, hd, h1⟩
  · exact hac x h1
  · rcases hfirst x x hx with h2 | h2
    · exact hac x h2
    · exact hp d hd (h1.trans h2)

/-- What `jsdisp_change_prototype` does to the prototype links: it leaves the
store as it is, or it leaves the links of the other objects and gives the
object a prototype that does not lead to it. -/
theorem change_prototype_links {s s1 : Store} {p : Nat} {proto : Option Nat} {hres : HRESULT}
    (h : jsdisp_change_prototype s p proto = some (s1, hres)) :
    s1 = s ∨ ((∀ x y, x ≠ p → proto_link s1 x y → proto_link s x y) ∧
      ∀ y, proto_link s1 p y → ¬ Relation.ReflTransGen (proto_link s) y p) := by
  unfold jsdisp_change_prototype at h
  cases ho : s.obj p with
  | none => simp [ho] at h
  | some obj =>
    simp only [ho] at h
    have unch : ∀ (x : HRESULT), some (s, x) = some (s1, hres) → s1 = s := by
      intro x e
      injection e with e
      injection e with e _
      exact e.symm
    split at h
    · exact Or.inl (unch _ h)
    · split at h
      · exact Or.inl (unch _ h)
      · cases hw : proto_cycle_walk s p (s.heap.length + 1) proto with
        | none => simp [hw] at h
        | some b =>
          cases b with
          | true =>
            simp only [hw] at h
            exact Or.inl (unch _ h)
          | false =>
            right
            simp only [hw, Option.bind_eq_some] at h
            obtain ⟨sa, h1, h2⟩ := h
            have hcyc := cycle_walk_false _ _ hw
            have ta : tame s sa := by
              cases hpr : obj.prototype with
              | none =>
                simp only [hpr, Option.some.injEq] at h1
                subst h1
                exact tame_refl _
              | some q =>
                simp only [hpr] at h1
                exact tame_trans (tame_set_obj ho (drop_protrefs_tame obj).1)
                  (tame_of_soft (jsdisp_release_soft _ _ _ h1))
            cases hoa : sa.obj p with
            | none => simp [hoa] at h2
            | some obj1 =>
              simp only [hoa] at h2
              have hothb : ∀ x o1, x ≠ p →
                  (sa.set_obj p { obj1 with prototype := proto }).obj x = some o1 →
                  ∃ o, s.obj x = some o ∧ o1.prototype = o.prototype := by
                intro x o1 hx hox
                rw [obj_set_obj_ne sa hx] at hox
                obtain ⟨o, ho', _, hp'⟩ := tame_cnt ta hox
                exact ⟨o, ho', hp'⟩
              have hpb : ∀ oF, (sa.set_obj p { obj1 with prototype := proto }).obj p = some oF →
                  oF.prototype = proto := by
                intro oF hoF
                rw [obj_set_obj_self hoa] at hoF
                injection hoF with hoF
                rw [← hoF]
              have fin : ∀ sF : Store, (∀ x o1, sF.obj x = some o1 →
                  ∃ o2, (sa.set_obj p { obj1 with prototype := proto }).obj x = some o2 ∧
                    o1.prototype = o2.prototype) →
                  (∀ x y, x ≠ p → proto_link sF x y → proto_link s x y) ∧
                  ∀ y, proto_link sF p y → ¬ Relation.ReflTransGen (proto_link s) y p := by
                intro sF hF
                constructor
                · intro x y hx ⟨o1, ho1, hy⟩
                  obtain ⟨o2, ho2, hp2⟩ := hF x o1 ho1
                  obtain ⟨o, ho', hp'⟩ := hothb x o2 hx ho2
                  exact ⟨o, ho', by rw [← hp', ← hp2]; exact hy⟩
                · intro y ⟨o1, ho1, hy⟩
                  obtain ⟨o2, ho2, hp2⟩ := hF p o1 ho1
                  have := hpb o2 ho2
                  rw [hp2, this] at hy
                  exact hcyc y hy
              cases proto with
              | none =>
                simp only [Option.some.injEq, Prod.mk.injEq] at h2
                obtain ⟨rfl, _⟩ := h2
                exact fin _ (fun x o1 hx => ⟨o1, hx, rfl⟩)
              | some t =>
                simp only [Option.map_eq_some', Prod.mk.injEq] at h2
                obtain ⟨sc, h3, rfl, _⟩ := h2
                have tc := jsdisp_addref_soft h3
                refine fin _ (fun x o1 hx => ?_)
                obtain ⟨o2, ho2, hf2⟩ := tc.2.2 x o1 hx
                exact ⟨o2, ho2, by rw [hf2]⟩

theorem change_prototype_acyclic {s s1 : Store} {p : Nat} {proto : Option Nat} {hres : HRESULT}
    (hac : proto_acyclic s) (h : jsdisp_change_prototype s p proto = some (s1, hres)) :
    proto_acyclic s1 := by
  rcases change_prototype_links h with e | ⟨h1, h2⟩
  · rw [e]; exact hac
  · exact acyclic_relink hac h1 h2

/-! ### The fill of an enumeration -/

theorem fill_rel_refl (R : Nat → WSTR → Prop) (o : jsdisp_t) : fill_rel R o o :=
  ⟨same_fields_refl o, le_refl _, fun _ _ => ⟨rfl, Or.inl ⟨rfl, rfl, rfl⟩⟩,
    fun _ h1 h2 => absurd h2 (Nat.not_lt.mpr h1)⟩

theorem slot_is_ref_congr {R : Nat → WSTR → Prop} {b c : jsdisp_t} {i : Nat}
    (hn : (slot c i).name = (slot b i).name) (ht : (slot c i).type = (slot b i).type)
    (hu : (slot c i).u = (slot b i).u) (h : slot_is_ref R b i) : slot_is_ref R c i := by
  obtain ⟨h1, j, h2, h3⟩ := h
  exact ⟨ht.trans h1, j, hu.trans h2, by rw [hn]; exact h3⟩

theorem fill_rel_trans {R : Nat → WSTR → Prop} {a b c : jsdisp_t} (h1 : fill_rel R a b)
    (h2 : fill_rel R b c) : fill_rel R a c := by
  obtain ⟨f1, c1, o1, n1⟩ := h1
  obtain ⟨f2, c2, o2, n2⟩ := h2
  refine ⟨same_fields_trans f1 f2, le_trans c1 c2, fun i hi => ?_, fun i hi1 hi2 => ?_⟩
  · obtain ⟨na, ha⟩ := o1 i hi
    obtain ⟨nb, hb⟩ := o2 i (lt_of_lt_of_le hi c1)
    refine ⟨nb.trans na, ?_⟩
    rcases ha with ⟨t1, fl1, u1⟩ | ⟨d1, r1⟩
    · rcases hb with ⟨t2, fl2, u2⟩ | ⟨d2, r2⟩
      · exact Or.inl ⟨t2.trans t1, fl2.trans fl1, u2.trans u1⟩
      · exact Or.inr ⟨by rw [← t1]; exact d2, r2⟩
    · rcases hb with ⟨t2, fl2, u2⟩ | ⟨d2, r2⟩
      · exact Or.inr ⟨d1, slot_is_ref_congr nb t2 u2 r1⟩
      · rw [r1.1] at d2
        cases d2
  · by_cases hb : i < b.prop_cnt
    · obtain ⟨nb, hb2⟩ := o2 i hb
      rcases hb2 with ⟨t2, fl2, u2⟩ | ⟨d2, r2⟩
      · rcases n1 i hi1 hb with r | m
        · exact Or.inl (slot_is_ref_congr nb t2 u2 r)
        · right
          unfold slot_is_mat at m ⊢
          rw [t2]; exact m
      · exact Or.inl r2
    · exact n2 i (Nat.le_of_not_lt hb) hi2

theorem fill_rel_mono {R R1 : Nat → WSTR → Prop} {a b : jsdisp_t} (hR : ∀ j n, R j n → R1 j n)
    (h : fill_rel R a b) : fill_rel R1 a b := by
  obtain ⟨f1, c1, o1, n1⟩ := h
  have hr : ∀ i, slot_is_ref R b i → slot_is_ref R1 b i :=
    fun i ⟨h1, j, h2, h3⟩ => ⟨h1, j, h2, hR _ _ h3⟩
  refine ⟨f1, c1, fun i hi => ⟨(o1 i hi).1, ?_⟩, fun i h1 h2 => ?_⟩
  · rcases (o1 i hi).2 with h | ⟨d, r⟩
    · exact Or.inl h
    · exact Or.inr ⟨d, hr i r⟩
  · rcases n1 i h1 h2 with r | m
    · exact Or.inl (hr i r)
    · exact Or.inr m

/-- The release of the one reference on a new object frees it. -/
theorem release_new (s : Store) (x : Nat) (o : jsdisp_t) (ho : s.obj x = some o)
    (hr : o.ref = 1) (hpx : o.proxy = none) (hw : o.has_weak_refs = false) (hc : o.prop_cnt = 0)
    (hp : o.prototype = none) : ∃ s1, jsdisp_release s x = some s1 := by
  have h1 : ((s.set_obj x { o with ref := o.ref - 1 }).obj x) = some { o with ref := o.ref - 1 } :=
    obj_set_obj_self ho _
  have h0 : o.ref - 1 = 0 := by omega
  unfold jsdisp_release jsdisp_release_fuel
  simp only [ho]
  rw [if_pos h0]
  unfold jsdisp_free
  rw [h1]
  simp only [hpx, Option.isSome_none, Bool.false_eq_true, if_false, hw, live_props, hc,
    List.take_zero, List.flatMap_nil, release_all, Option.some_bind, hp]
  exact ⟨_, rfl⟩

theorem store_alloc_prop_total (s : Store) (p : Nat) (o : jsdisp_t) (ho : s.obj p = some o)
    (name : WSTR) (type : prop_type_t) (flags : Nat) :
    ∃ s1 r o1, store_alloc_prop s p name type flags = some (s1, r) ∧ s1.obj p = some o1 ∧
      (∀ x, x ≠ p → s1.obj x = s.obj x) := by
  unfold store_alloc_prop
  simp only [ho]
  refine ⟨_, _, (alloc_prop o name type flags s.avail).2.1, rfl, ?_, fun x hx => ?_⟩
  · exact obj_set_obj_self ho _
  · exact obj_set_obj_ne s hx _

theorem store_set_slot_total (s : Store) (p : Nat) (o : jsdisp_t) (ho : s.obj p = some o)
    (i : Nat) (f : dispex_prop_t → dispex_prop_t) :
    ∃ s1, store_set_slot s p i f = some s1 := by
  unfold store_set_slot
  simp only [ho]
  exact ⟨_, rfl⟩

theorem create_dispex_total (s : Store) (bi : Option builtin_info_t) :
    ∃ r, create_dispex s bi none = some r := by
  unfold create_dispex
  split
  · exact ⟨_, rfl⟩
  · split
    · exact ⟨_, rfl⟩
    · exact ⟨_, rfl⟩

/-- The resolver of one object returns on an object without proxy that has a
well-formed table. -/
theorem find_prop_name_total (s : Store) (p hash : Nat) (name : WSTR) (ci : Bool) (o : jsdisp_t)
    (ho : s.obj p = some o) (hwf : props_wf o) (hpx : o.proxy = none) :
    ∃ r, find_prop_name s p hash name ci = some r := by
  obtain ⟨o1, r, hraw, _, _, _⟩ := raw_lookup_wf o hash name ci hwf
  obtain ⟨_, hnone, _⟩ := raw_frame _ _ _ _ _ _ hraw
  have alloc_case : ∀ (nm : WSTR) (ty : prop_type_t) (fl : Nat) (f : dispex_prop_t → dispex_prop_t),
      ∃ r, (match store_alloc_prop s p nm ty fl with
        | none => none
        | some (s2, none) => some (s2, HRESULT.E_OUTOFMEMORY, none)
        | some (s2, some i) =>
          (store_set_slot s2 p i f).map fun s3 => (s3, HRESULT.S_OK, some i)) = some r := by
    intro nm ty fl f
    obtain ⟨s2, r2, o2, ha, ho2, _⟩ := store_alloc_prop_total s p o ho nm ty fl
    rw [ha]
    cases r2 with
    | none => exact ⟨_, rfl⟩
    | some i =>
      obtain ⟨s3, hs3⟩ := store_set_slot_total s2 p o2 ho2 i f
      simp only [hs3, Option.map_some']
      exact ⟨_, rfl⟩
  unfold find_prop_name
  simp only [ho, hraw]
  cases r with
  | some i =>
    simp only [hpx, Option.isSome_none, Bool.false_eq_true, if_false]
    exact ⟨_, rfl⟩
  | none =>
    have hT := hnone rfl
    subst hT
    simp only [hpx, Option.isSome_none, Bool.false_eq_true, if_false]
    rw [set_obj_same ho]
    cases hb : find_builtin_prop s.ctx o1 name ci with
    | some builtin =>
      simp only []
      split
      · cases hc : create_builtin_function s builtin.invoke builtin.name builtin.flags with
        | none =>
          obtain ⟨r, hr⟩ := create_dispex_total s (some function_info)
          unfold create_builtin_function at hc
          rw [hr] at hc
          cases hc
        | some c =>
          obtain ⟨s2, hres2, fobj⟩ := c
          rcases create_dispex_none s _ s2 hres2 fobj hc with ⟨rfl, hfl⟩ | ⟨rfl, rfl, _, hheap, _⟩
          · simp only [hfl, if_true]
            exact ⟨_, rfl⟩
          · simp only [FAILED, Bool.false_eq_true, if_false]
            have ho2 : s2.obj p = some o1 := by
              rw [obj_heap_append_old hheap (obj_lt ho)]; exact ho
            obtain ⟨s3, r3, o3, ha, ho3, hoth⟩ := store_alloc_prop_total s2 p o1 ho2 builtin.name
              prop_type_t.PROP_JSVAL
              ((builtin.flags &&& PROPF_ALL) ||| PROPF_WRITABLE ||| PROPF_CONFIGURABLE)
            rw [ha]
            cases r3 with
            | none =>
              have hne : s.heap.length ≠ p := Nat.ne_of_gt (obj_lt ho)
              have hnew : s3.obj s.heap.length =
                  some (init_object s.ctx.self ((some function_info).getD dispex_info) none) := by
                rw [hoth _ hne]
                unfold Store.obj
                rw [hheap]
                simp [List.getD_eq_getElem?_getD]
              obtain ⟨s4, hs4⟩ := release_new s3 _ _ hnew rfl rfl rfl rfl rfl
              simp only [hs4, Option.map_some']
              exact ⟨_, rfl⟩
            | some i =>
              obtain ⟨s4, hs4⟩ := store_set_slot_total s3 p o3 ho3 i (fun q =>
                { q with type := prop_type_t.PROP_JSVAL,
                         u := prop_u.val (jsval_t.obj s.heap.length) })
              simp only [hs4, Option.map_some']
              exact ⟨_, rfl⟩
      · exact alloc_case _ _ _ _
    | none =>
      simp only []
      split
      · split
        · split
          · exact alloc_case _ _ _ _
          · exact ⟨_, rfl⟩
        · exact ⟨_, rfl⟩
      · exact ⟨_, rfl⟩

theorem fill_rel_alloc {R : Nat → WSTR → Prop} {o T : jsdisp_t} {k : Nat}
    {f : dispex_prop_t → dispex_prop_t} (hsf : same_fields o T) (hk : k = o.prop_cnt)
    (hc : T.prop_cnt = o.prop_cnt + 1)
    (hold : ∀ j, j < o.prop_cnt → same_core (slot T j) (slot o j))
    (hnew : slot_is_ref R (set_slot T k f) k ∨ slot_is_mat (set_slot T k f) k) :
    fill_rel R o (set_slot T k f) := by
  refine ⟨same_fields_set_slot hsf _ _, ?_, fun i hi => ?_, fun i h1 h2 => ?_⟩
  · show o.prop_cnt ≤ T.prop_cnt
    omega
  · have hne : i ≠ k := by omega
    rw [slot_set_slot_ne T f hne]
    obtain ⟨a, _, c, d, e⟩ := hold i hi
    exact ⟨a, Or.inl ⟨c, d, e⟩⟩
  · have h3 : i < T.prop_cnt := h2
    have : i = k := by omega
    subst this
    exact hnew

/-- A lookup by `find_prop_name` that does not fail: the slots the object had
are as they were, up to their bucket links; at most one slot was added, for a
builtin or an indexed element; and the slot returned has the name. -/
theorem find_prop_name_slots (R : Nat → WSTR → Prop) (s : Store) (p hash : Nat) (name : WSTR)
    (o : jsdisp_t) (s1 : Store) (hres : HRESULT) (r : Option Nat) (ho : s.obj p = some o)
    (hwf : props_wf o) (hnil : o.prop_cnt < NIL)
    (h : find_prop_name s p hash name false = some (s1, hres, r)) (hf : FAILED hres = false) :
    hres = HRESULT.S_OK ∧ ∃ o1, s1.obj p = some o1 ∧ fill_rel R o o1 ∧ (r = none → o1 = o) ∧
      ∀ i, r = some i → i < o1.prop_cnt ∧ (slot o1 i).name = name := by
  have hlen := hwf.1
  have hcnt := hwf.2.2.2.1
  have hpos : 0 < o.buf_size := by have := hwf.2.1; omega
  cases r with
  | none =>
    obtain ⟨h1, h2⟩ := find_prop_name_none s p hash name false o s1 hres ho h hf
    subst h1
    exact ⟨h2, o, ho, fill_rel_refl R o, fun _ => rfl, fun i hi => nomatch hi⟩
  | some i =>
    unfold find_prop_name at h
    simp only [ho] at h
    cases hr : find_prop_name_raw o hash name false with
    | none => simp [hr] at h
    | some rr =>
      obtain ⟨This1, r1⟩ := rr
      obtain ⟨fr, hnone, hsome⟩ := raw_frame _ _ _ _ _ _ hr
      have fin : ∀ (sx s4 : Store) (k : Nat) (nm : WSTR) (ty : prop_type_t) (fl : Nat)
          (f : dispex_prop_t → dispex_prop_t), sx.obj p = some o →
          store_alloc_prop sx p nm ty fl = some (s4, some k) → ∀ s5,
          store_set_slot s4 p k f = some s5 → nm = name →
          (∀ q, (f q).name = q.name) →
          (∀ q, q.type = ty → (f q).type = prop_type_t.PROP_BUILTIN ∨
            (f q).type = prop_type_t.PROP_JSVAL ∨ (f q).type = prop_type_t.PROP_IDX) →
          ∃ o1, s5.obj p = some o1 ∧ fill_rel R o o1 ∧ (some k = none → o1 = o) ∧
            ∀ i, some k = some i → i < o1.prop_cnt ∧ (slot o1 i).name = name := by
        intro sx s4 k nm ty fl f hox ha s5 hs5 hnm hfn hft
        obtain ⟨_, _, hi, T, hobj, hsf, h1, h2, h3, _, ht, hn, hold⟩ :=
          alloc_set_ok _ _ _ _ _ _ _ _ _ _ hox hlen hcnt hpos hnil ha hs5
        have hkl : k < T.props.length := by rw [h2]; omega
        have hsl : slot (set_slot T k f) k = f (slot T k) := by
          rw [slot_set_slot, if_pos ⟨rfl, hkl⟩]
        refine ⟨_, hobj, fill_rel_alloc hsf hi h1 hold (Or.inr ?_), (fun e => nomatch e),
          fun i hi' => ?_⟩
        · unfold slot_is_mat
          rw [hsl]
          exact hft _ ht
        · injection hi' with hi'
          subst hi'
          refine ⟨?_, ?_⟩
          · show k < T.prop_cnt
            omega
          · rw [hsl, hfn, hn, hnm]
      cases r1 with
      | some k =>
        simp only [hr] at h
        split at h
        · cases h
        · simp only [Option.some.injEq, Prod.mk.injEq] at h
          obtain ⟨rfl, rfl, rfl⟩ := h
          have hlt := raw_hit_lt o hash name false This1 k hwf hr
          have hff := table_frame_fields fr
          refine ⟨rfl, This1, obj_set_obj_self ho _, ⟨hff.2.2, le_of_eq hff.1.symm, fun j _ => ?_,
            fun j h1 h2 => ?_⟩, (fun e => nomatch e), fun i hi => ?_⟩
          · obtain ⟨a, _, c, d, e⟩ := fr.2.2 j
            exact ⟨a, Or.inl ⟨c, d, e⟩⟩
          · rw [hff.1] at h2
            omega
          · injection hi with hi
            subst hi
            refine ⟨by rw [hff.1]; exact hlt, ?_⟩
            rw [(fr.2.2 k).1]
            exact ((name_match_exact _ _).1 (hsome k rfl).2.1)
      | none =>
        have hT := hnone rfl
        subst hT
        simp only [hr] at h
        split at h
        · cases h
        · rw [set_obj_same ho] at h
          cases hb : find_builtin_prop s.ctx This1 name false with
          | some builtin =>
            have hbn : builtin.name = name :=
              (name_match_exact _ _).1 (find_builtin_prop_some _ _ _ _ _ hb)
            simp only [hb] at h
            split at h
            · cases hc : create_builtin_function s builtin.invoke builtin.name builtin.flags with
              | none => simp [hc] at h
              | some c =>
                obtain ⟨s2, hres2, fobj⟩ := c
                cases fobj with
                | none =>
                  simp only [hc] at h
                  split at h <;> simp at h
                | some fo =>
                  simp only [hc] at h
                  split at h
                  · simp at h
                  · have hcd := create_dispex_none s _ s2 hres2 (some fo) hc
                    rcases hcd with hcd | hcd
                    · simp at hcd
                    · obtain ⟨_, _, _, hheap, _⟩ := hcd
                      have ho2 : s2.obj p = some This1 := by
                        rw [obj_heap_append_old hheap (obj_lt ho)]; exact ho
                      cases ha : store_alloc_prop s2 p builtin.name prop_type_t.PROP_JSVAL
                          (builtin.flags &&& PROPF_ALL ||| PROPF_WRITABLE ||| PROPF_CONFIGURABLE) with
                      | none => simp [ha] at h
                      | some a =>
                        obtain ⟨s3, ri⟩ := a
                        cases ri with
                        | none =>
                          simp only [ha, Option.map_eq_some'] at h
                          obtain ⟨_, _, h⟩ := h
                          simp at h
                        | some k =>
                          simp only [ha, Option.map_eq_some', Prod.mk.injEq] at h
                          obtain ⟨s4, hs4, rfl, rfl, hk⟩ := h
                          simp only [Option.some.injEq] at hk
                          subst hk
                          exact ⟨rfl, fin s2 s3 k _ _ _ _ ho2 ha _ hs4 hbn (fun _ => rfl)
                            (fun _ _ => Or.inr (Or.inl rfl))⟩
            · cases ha : store_alloc_prop s p builtin.name prop_type_t.PROP_BUILTIN
                  ((if builtin.setter.isSome = true then builtin.flags ||| PROPF_WRITABLE
                    else builtin.flags) &&&
                    (PROPF_ENUMERABLE ||| PROPF_WRITABLE ||| PROPF_CONFIGURABLE)) with
              | none => simp [ha] at h
              | some a =>
                obtain ⟨s3, ri⟩ := a
                cases ri with
                | none => simp [ha] at h
                | some k =>
                  simp only [ha, Option.map_eq_some', Prod.mk.injEq] at h
                  obtain ⟨s4, hs4, rfl, rfl, hk⟩ := h
                  simp only [Option.some.injEq] at hk
                  subst hk
                  exact ⟨rfl, fin s s3 k _ _ _ _ ho ha _ hs4 hbn (fun _ => rfl)
                    (fun _ hq => Or.inl hq)⟩
          | none =>
            simp only [hb] at h
            split at h
            · split at h
              · split at h
                · cases ha : store_alloc_prop s p name prop_type_t.PROP_IDX
                      (if This1.builtin_info.idx_put = true then PROPF_ENUMERABLE ||| PROPF_WRITABLE
                        else PROPF_ENUMERABLE) with
                  | none => simp [ha] at h
                  | some a =>
                    obtain ⟨s3, ri⟩ := a
                    cases ri with
                    | none => simp [ha] at h
                    | some k =>
                      simp only [ha, Option.map_eq_some', Prod.mk.injEq] at h
                      obtain ⟨s4, hs4, rfl, rfl, hk⟩ := h
                      simp only [Option.some.injEq] at hk
                      subst hk
                      exact ⟨rfl, fin s s3 k _ _ _ _ ho ha _ hs4 rfl (fun _ => rfl)
                        (fun _ hq => Or.inr (Or.inr hq))⟩
                · simp at h
              · simp at h
            · simp at h

theorem override_idx_fields {a b : jsdisp_t} (h : same_fields a b) (name : WSTR) :
    override_idx b name = override_idx a name := by
  unfold override_idx
  rw [(same_fields_proxy h).2.1]

theorem live_name_kept {R : Nat → WSTR → Prop} {a b : jsdisp_t} (h : fill_rel R a b)
    {name : WSTR} (hl : live_name a name) : live_name b name := by
  obtain ⟨i, hi, hn, ht⟩ := hl
  obtain ⟨hn2, hc⟩ := h.2.2.1 i hi
  refine ⟨i, lt_of_lt_of_le hi h.2.1, hn2.trans hn, ?_⟩
  rcases hc with ⟨t, _, _⟩ | ⟨d, _⟩
  · rw [t]; exact ht
  · exact absurd d ht

theorem name_covered_kept {R : Nat → WSTR → Prop} {a b oq : jsdisp_t} (h : fill_rel R a b)
    {k : Nat} (hc : name_covered a oq k) : name_covered b oq k := by
  intro hov
  rw [override_idx_fields h.1] at hov
  exact live_name_kept h (hc hov)

/-- A tombstone turned into a prototype reference, as the loop of
`fill_protrefs` does it, keeps the invariant. -/
theorem protref_fill_inv {s : Store} {p i j q : Nat} {o : jsdisp_t}
    (hinv : protref_inv s) (ho : s.obj p = some o) (hq : o.prototype = some q)
    (hj : ∃ oq, s.obj q = some oq ∧ j < oq.prop_cnt) :
    protref_inv (s.set_obj p (set_slot o i (fun r =>
      { r with type := prop_type_t.PROP_PROTREF, flags := 0, u := prop_u.ref j }))) := by
  obtain ⟨hwf, hb, hp⟩ := hinv.2 p o ho
  by_cases hlen : i < o.props.length
  · have hslot : slot (set_slot o i (fun r =>
        { r with type := prop_type_t.PROP_PROTREF, flags := 0, u := prop_u.ref j })) i =
        { slot o i with type := prop_type_t.PROP_PROTREF, flags := 0, u := prop_u.ref j } := by
      rw [slot_set_slot, if_pos ⟨rfl, hlen⟩]
    obtain ⟨oq, hoq, hjlt⟩ := hj
    have key := @inv_set_obj_plain s p o (set_slot o i (fun r =>
        { r with type := prop_type_t.PROP_PROTREF, flags := 0, u := prop_u.ref j })) hinv ho
      (props_wf_set_slot _ _ _ (fun r => ⟨rfl, rfl, rfl, rfl⟩) hwf) rfl rfl
      (fun k hk ht => by
        by_cases e : k = i
        · subst e
          refine Or.inr ⟨q, hq, ?_, fun oq1 hoq1 => ?_⟩
          · show q < (List.set _ _ _).length
            rw [List.length_set]
            exact obj_lt hoq
          · rw [hslot]
            show j < oq1.prop_cnt
            by_cases e : q = p
            · subst e
              rw [obj_set_obj_self ho] at hoq1
              injection hoq1 with hoq1
              subst hoq1
              rw [ho] at hoq
              injection hoq with hoq
              subst hoq
              exact hjlt
            · rw [obj_set_obj_ne s e, hoq] at hoq1
              injection hoq1 with hoq1
              subst hoq1
              exact hjlt
        · rw [slot_set_slot_ne _ _ e] at ht ⊢
          exact Or.inl ⟨hk, ht, rfl⟩)
    exact key.1
  · have : set_slot o i (fun r =>
        { r with type := prop_type_t.PROP_PROTREF, flags := 0, u := prop_u.ref j }) = o := by
      unfold set_slot
      rw [List.set_eq_of_length_le (Nat.le_of_not_lt hlen)]
    rw [this, set_obj_same ho]
    exact hinv

theorem fill_rel_set_ref {oq o : jsdisp_t} {i k : Nat} (hi : i < o.props.length)
    (hd : (slot o i).type = prop_type_t.PROP_DELETED) (hk : k < oq.prop_cnt)
    (hn : (slot o i).name = (slot oq k).name) :
    fill_rel (names_slot oq) o (set_slot o i (fun r =>
      { r with type := prop_type_t.PROP_PROTREF, flags := 0, u := prop_u.ref k })) := by
  refine ⟨same_fields_set_slot (same_fields_refl o) _ _, le_refl _, fun j _ => ?_,
    fun j h1 h2 => absurd h2 (Nat.not_lt.mpr h1)⟩
  by_cases e : j = i
  · subst e
    have hs : slot (set_slot o j (fun r =>
        { r with type := prop_type_t.PROP_PROTREF, flags := 0, u := prop_u.ref k })) j =
        { slot o j with type := prop_type_t.PROP_PROTREF, flags := 0, u := prop_u.ref k } := by
      rw [slot_set_slot, if_pos ⟨rfl, hi⟩]
    refine ⟨by rw [hs], Or.inr ⟨hd, ?_, k, ?_, hk, ?_⟩⟩
    · rw [hs]
    · rw [hs]
    · rw [hs]; exact hn.symm
  · rw [slot_set_slot_ne _ _ e]
    exact ⟨rfl, Or.inl ⟨rfl, rfl, rfl⟩⟩

/-- One lookup of a fill: `find_prop_name` on an object without proxy returns,
and when it does not fail the object has its slots as they were and at most one
more, and the slot returned has the name. -/
theorem find_prop_name_step (R : Nat → WSTR → Prop) {s : Store} {p : Nat} {o : jsdisp_t}
    (hash : Nat) (name : WSTR) (hinv : protref_inv s) (ho : s.obj p = some o)
    (hpx : o.proxy = none) :
    ∃ s1 hres r, find_prop_name s p hash name false = some (s1, hres, r) ∧
      (FAILED hres = false → hres = HRESULT.S_OK ∧ protref_inv s1 ∧
        s.heap.length ≤ s1.heap.length ∧
        (∀ x, x ≠ p → x < s.heap.length → s1.obj x = s.obj x) ∧ (r = none → s1 = s) ∧
        ∃ o1, s1.obj p = some o1 ∧ fill_rel R o o1 ∧
          ∀ i, r = some i → i < o1.prop_cnt ∧ (slot o1 i).name = name) := by
  obtain ⟨hwf, hb, _⟩ := hinv.2 p o ho
  have hnil : o.prop_cnt < NIL := by
    unfold NIL
    omega
  obtain ⟨⟨s1, hres, r⟩, h⟩ := find_prop_name_total s p hash name false o ho hwf hpx
  refine ⟨s1, hres, r, h, fun hf => ?_⟩
  obtain ⟨i1, _, _⟩ := find_prop_name_inv hinv h
  obtain ⟨l1, l2, l3, _⟩ := find_prop_name_ok s p hash name false o s1 hres r ho hwf hnil h hf
  obtain ⟨e, o1, ho1, fr, _, hi⟩ := find_prop_name_slots R s p hash name o s1 hres r ho hwf hnil h hf
  exact ⟨e, i1, l1, l2, l3, o1, ho1, fr, hi⟩

/-- The loop of `fill_props` returns on an object without proxy. -/
theorem fill_props_loop_run (R : Nat → WSTR → Prop) {p : Nat} : ∀ (l : List Nat) (s : Store)
    (o : jsdisp_t), protref_inv s → s.obj p = some o → o.proxy = none →
    ∃ s1 hres, fill_props_loop p l s = some (s1, hres) ∧
      (FAILED hres = false → hres = HRESULT.S_OK ∧ protref_inv s1 ∧
        s.heap.length ≤ s1.heap.length ∧
        (∀ x, x ≠ p → x < s.heap.length → s1.obj x = s.obj x) ∧
        ∃ o1, s1.obj p = some o1 ∧ fill_rel R o o1) := by
  intro l
  induction l with
  | nil =>
    intro s o hinv ho _
    exact ⟨s, HRESULT.S_OK, rfl, fun _ => ⟨rfl, hinv, le_refl _, fun _ _ _ => rfl, o, ho,
      fill_rel_refl R o⟩⟩
  | cons i rest ih =>
    intro s o hinv ho hpx
    obtain ⟨s1, hres, r, h, hk⟩ := find_prop_name_step R (string_hash (decimal_name i))
      (decimal_name i) hinv ho hpx
    simp only [fill_props_loop, h]
    by_cases hf : FAILED hres = true
    · rw [if_pos hf]
      exact ⟨s1, hres, rfl, fun hf2 => by rw [hf] at hf2; cases hf2⟩
    · rw [if_neg hf]
      have hf' : FAILED hres = false := by simpa using hf
      obtain ⟨_, i1, l1, l2, _, o1, ho1, fr, _⟩ := hk hf'
      obtain ⟨s2, hres2, h2, hk2⟩ := ih s1 o1 i1 ho1
        (by rw [(same_fields_proxy fr.1).1]; exact hpx)
      refine ⟨s2, hres2, h2, fun hf2 => ?_⟩
      obtain ⟨e2, i2, m1, m2, o2, ho2, fr2⟩ := hk2 hf2
      exact ⟨e2, i2, le_trans l1 m1, fun x hx hxl => by
        rw [m2 x hx (lt_of_lt_of_le hxl l1), l2 x hx hxl], o2, ho2, fill_rel_trans fr fr2⟩

theorem fill_props_run (R : Nat → WSTR → Prop) {s : Store} {p : Nat} {o : jsdisp_t}
    (hinv : protref_inv s) (ho : s.obj p = some o) (hpx : o.proxy = none) :
    ∃ s1 hres, fill_props s p = some (s1, hres) ∧
      (FAILED hres = false → hres = HRESULT.S_OK ∧ protref_inv s1 ∧
        s.heap.length ≤ s1.heap.length ∧
        (∀ x, x ≠ p → x < s.heap.length → s1.obj x = s.obj x) ∧
        ∃ o1, s1.obj p = some o1 ∧ fill_rel R o o1) := by
  unfold fill_props
  simp only [ho, hpx, Option.isSome_none, Bool.false_eq_true, if_false]
  cases o.builtin_info.idx_length with
  | none =>
    exact ⟨s, HRESULT.S_OK, rfl, fun _ => ⟨rfl, hinv, le_refl _, fun _ _ _ => rfl, o, ho,
      fill_rel_refl R o⟩⟩
  | some len => exact fill_props_loop_run R (List.range len) s o hinv ho hpx

/-- The loop of `fill_protrefs` over the slots of the prototype returns, and
when it does not fail every name of the prototype is covered. -/
theorem fill_protrefs_loop_run {p q : Nat} (hpq : q ≠ p) (oq : jsdisp_t) :
    ∀ (fuel : Nat) (s : Store) (k : Nat) (o : jsdisp_t), protref_inv s → s.obj p = some o →
      s.obj q = some oq → o.proxy = none → o.prototype = some q → oq.prop_cnt - k < fuel →
      (∀ k1, k1 < k → name_covered o oq k1) →
      ∃ s1 hres, fill_protrefs_loop p q fuel s k = some (s1, hres) ∧
        (FAILED hres = false → hres = HRESULT.S_OK ∧ protref_inv s1 ∧
          s.heap.length ≤ s1.heap.length ∧
          (∀ x, x ≠ p → x < s.heap.length → s1.obj x = s.obj x) ∧
          ∃ o1, s1.obj p = some o1 ∧ fill_rel (names_slot oq) o o1 ∧
            ∀ k1, k1 < oq.prop_cnt → name_covered o1 oq k1) := by
  intro fuel
  induction fuel with
  | zero => intro s k o _ _ _ _ _ h; omega
  | succ fuel ih =>
    intro s k o hinv ho hq hpx hproto hfuel hcov
    simp only [fill_protrefs_loop, ho, hq]
    by_cases hk : k < oq.prop_cnt
    · rw [if_pos hk]
      have next : ∀ (s2 : Store) (o2 : jsdisp_t), protref_inv s2 → s2.obj p = some o2 →
          s.heap.length ≤ s2.heap.length →
          (∀ x, x ≠ p → x < s.heap.length → s2.obj x = s.obj x) →
          fill_rel (names_slot oq) o o2 → name_covered o2 oq k →
          ∃ s1 hres, fill_protrefs_loop p q fuel s2 (k + 1) = some (s1, hres) ∧
            (FAILED hres = false → hres = HRESULT.S_OK ∧ protref_inv s1 ∧
              s.heap.length ≤ s1.heap.length ∧
              (∀ x, x ≠ p → x < s.heap.length → s1.obj x = s.obj x) ∧
              ∃ o1, s1.obj p = some o1 ∧ fill_rel (names_slot oq) o o1 ∧
                ∀ k1, k1 < oq.prop_cnt → name_covered o1 oq k1) := by
        intro s2 o2 hinv2 ho2 hle hfr hrel hck
        have hq2 : s2.obj q = some oq := by rw [hfr q hpq (obj_lt hq)]; exact hq
        obtain ⟨s1, hres, h1, hk1⟩ := ih s2 (k + 1) o2 hinv2 ho2 hq2
          (by rw [(same_fields_proxy hrel.1).1]; exact hpx)
          (by rw [(same_fields_prototype hrel.1).1]; exact hproto) (by omega)
          (fun k1 hk1 => by
            by_cases e : k1 = k
            · subst e; exact hck
            · exact name_covered_kept hrel (hcov k1 (by omega)))
        refine ⟨s1, hres, h1, fun hf => ?_⟩
        obtain ⟨e, i1, l1, l2, o1, ho1, fr, hc⟩ := hk1 hf
        exact ⟨e, i1, le_trans hle l1, fun x hx hxl => by
          rw [l2 x hx (lt_of_lt_of_le hxl hle), hfr x hx hxl], o1, ho1, fill_rel_trans hrel fr, hc⟩
      by_cases hov : (override_idx o (slot oq k).name).isSome = true
      · rw [if_pos hov]
        refine next s o hinv ho (le_refl _) (fun _ _ _ => rfl) (fill_rel_refl _ o) (fun hn => ?_)
        rw [hn] at hov
        cases hov
      · rw [if_neg hov]
        obtain ⟨s1, hres, r, h, hk1⟩ := find_prop_name_step (names_slot oq) (slot oq k).hash
          (slot oq k).name hinv ho hpx
        simp only [h]
        by_cases hf : FAILED hres = true
        · rw [if_pos hf]
          exact ⟨s1, hres, rfl, fun hf2 => by rw [hf] at hf2; cases hf2⟩
        · rw [if_neg hf]
          have hf' : FAILED hres = false := by simpa using hf
          obtain ⟨_, i1, l1, l2, l3, o1, ho1, fr, hi⟩ := hk1 hf'
          have hq1 : s1.obj q = some oq := by rw [l2 q hpq (obj_lt hq)]; exact hq
          have hproto1 : o1.prototype = some q := by
            rw [(same_fields_prototype fr.1).1]; exact hproto
          obtain ⟨hwf1, _, _⟩ := i1.2 p o1 ho1
          cases r with
          | some i =>
            obtain ⟨hil, hin⟩ := hi i rfl
            simp only [ho1]
            by_cases hd : (slot o1 i).type = prop_type_t.PROP_DELETED
            · rw [if_pos hd]
              unfold store_set_slot
              simp only [ho1, Option.some_bind]
              have hlen : i < o1.props.length := by
                have := hwf1.1
                have := hwf1.2.2.2.1
                omega
              have hrel := @fill_rel_set_ref oq o1 i k hlen hd hk hin
              have hs : slot (set_slot o1 i (fun r =>
                  { r with type := prop_type_t.PROP_PROTREF, flags := 0, u := prop_u.ref k })) i =
                  { slot o1 i with type := prop_type_t.PROP_PROTREF, flags := 0,
                                   u := prop_u.ref k } := by
                rw [slot_set_slot, if_pos ⟨rfl, hlen⟩]
              refine next _ _ (protref_fill_inv i1 ho1 hproto1 ⟨oq, hq1, hk⟩)
                (obj_set_obj_self ho1 _) (by simpa [Store.set_obj] using l1)
                (fun x hx hxl => by rw [obj_set_obj_ne s1 hx, l2 x hx hxl])
                (fill_rel_trans fr hrel) (fun _ => ⟨i, hil, ?_, ?_⟩)
              · rw [hs]; exact hin
              · rw [hs]; exact fun e => nomatch e
            · rw [if_neg hd]
              exact next s1 o1 i1 ho1 l1 l2 fr (fun _ => ⟨i, hil, hin, hd⟩)
          | none =>
            have hs1 := l3 rfl
            subst hs1
            rw [ho] at ho1
            injection ho1 with ho1
            subst ho1
            simp only [ho]
            obtain ⟨s2, r2, o2, ha, ho2, _⟩ := store_alloc_prop_total s1 p o ho (slot oq k).name
              prop_type_t.PROP_PROTREF 0
            cases r2 with
            | none =>
              simp only [alloc_protref, ha]
              exact ⟨s2, HRESULT.E_OUTOFMEMORY, rfl, fun hf2 => by cases hf2⟩
            | some i =>
              obtain ⟨s3, hs3⟩ := store_set_slot_total s2 p o2 ho2 i
                (fun q => { q with u := prop_u.ref k })
              have hap : alloc_protref s1 p (slot oq k).name k = some (s3, some i) := by
                simp only [alloc_protref, ha, hs3, Option.map_some']
              simp only [hap]
              obtain ⟨a1, _, a3, _, _⟩ := alloc_protref_inv hinv ho hproto ⟨oq, hq, hk⟩ hap
              obtain ⟨hwf, hb, _⟩ := hinv.2 p o ho
              have hnil : o.prop_cnt < NIL := by
                unfold NIL
                omega
              obtain ⟨b1, _, hi2, T, hobj, hsf, c1, c2, c3, _, ht, hn, hold⟩ :=
                alloc_set_ok _ _ _ _ _ _ _ _ _ _ ho hwf.1 hwf.2.2.2.1
                  (by have := hwf.2.1; omega) hnil ha hs3
              have hkl : i < T.props.length := by rw [c2]; omega
              have hsl : slot (set_slot T i (fun q => { q with u := prop_u.ref k })) i =
                  { slot T i with u := prop_u.ref k } := by
                rw [slot_set_slot, if_pos ⟨rfl, hkl⟩]
              have hrel : fill_rel (names_slot oq) o
                  (set_slot T i (fun q => { q with u := prop_u.ref k })) := by
                refine fill_rel_alloc hsf hi2 c1 hold (Or.inl ⟨?_, k, ?_, hk, ?_⟩)
                · rw [hsl]; exact ht
                · rw [hsl]
                · rw [hsl]; exact hn.symm
              refine next s3 _ a1 hobj (le_of_eq b1.symm) (fun x hx _ => a3 x hx) hrel
                (fun _ => ⟨i, ?_, ?_, ?_⟩)
              · show i < T.prop_cnt
                omega
              · rw [hsl]; exact hn
              · rw [hsl]
                show (slot T i).type ≠ prop_type_t.PROP_DELETED
                rw [ht]
                exact fun e => nomatch e
    · rw [if_neg hk]
      exact ⟨s, HRESULT.S_OK, rfl, fun _ => ⟨rfl, hinv, le_refl _, fun _ _ _ => rfl, o, ho,
        fill_rel_refl _ o, fun k1 hk1 => hcov k1 (by omega)⟩⟩

/-- The function `fill_protrefs` returns on an object whose prototype chain
ends and has no proxy, and when it does not fail the names of the prototype
are covered in the object. -/
theorem fill_protrefs_run : ∀ (l : List Nat) (n p : Nat) (s : Store) (fuel : Nat),
    proto_chain s n (some p) = some l → protref_inv s →
    (∀ x ∈ l, ∀ ox, s.obj x = some ox → ox.proxy = none) → l.length ≤ fuel →
    ∃ s1 hres, fill_protrefs_fuel fuel s p = some (s1, hres) ∧
      (FAILED hres = false → hres = HRESULT.S_OK ∧ protref_inv s1 ∧
        s.heap.length ≤ s1.heap.length ∧
        (∀ x, x ∉ l → x < s.heap.length → s1.obj x = s.obj x) ∧
        (∀ x ∈ l, ∃ ox ox1, s.obj x = some ox ∧ s1.obj x = some ox1 ∧ same_fields ox ox1) ∧
        ∀ o, s.obj p = some o → ∃ o1, s1.obj p = some o1 ∧
          fill_rel (fun j nm => ∀ q, o.prototype = some q →
            ∃ oq, s1.obj q = some oq ∧ names_slot oq j nm) o o1 ∧
          ∀ q, o.prototype = some q → ∃ oq, s1.obj q = some oq ∧
            ∀ k, k < oq.prop_cnt → name_covered o1 oq k) := by
  intro l
  induction l with
  | nil =>
    intro n p s fuel hl
    obtain ⟨_, _, _, _, _, h⟩ := proto_chain_cons hl
    cases h
  | cons p l1 ih =>
    intro n p0 s fuel hl hinv hpl hfuel
    have hnd := proto_chain_nodup _ _ _ hl
    have hlt := proto_chain_lt _ _ _ hl
    obtain ⟨o, l1', m, ho, hl1, he⟩ := proto_chain_cons hl
    injection he with hy hl1e
    subst hy hl1e
    have hpn : p ∉ l1 := (List.nodup_cons.mp hnd).1
    cases fuel with
    | zero => simp at hfuel
    | succ fuel =>
      have hpx := hpl p (List.mem_cons_self _ _) o ho
      obtain ⟨s1, hres1, h1, hk1⟩ := fill_props_run (fun _ _ => False) hinv ho hpx
      simp only [fill_protrefs_fuel, h1]
      by_cases hf : FAILED hres1 = true
      · rw [if_pos hf]
        exact ⟨s1, hres1, rfl, fun hf2 => by rw [hf] at hf2; cases hf2⟩
      · rw [if_neg hf]
        have hf' : FAILED hres1 = false := by simpa using hf
        obtain ⟨_, i1, a1, a2, o1, ho1, fr1⟩ := hk1 hf'
        simp only [ho1]
        have hsame : ∀ x ∈ l1, s1.obj x = s.obj x := fun x hx =>
          a2 x (fun e => hpn (e ▸ hx)) (hlt x (List.mem_cons_of_mem _ hx))
        cases hp : o1.prototype with
        | none =>
          refine ⟨s1, HRESULT.S_OK, rfl, fun _ => ⟨rfl, i1, a1, fun x hx hxl =>
            a2 x (fun e => hx (e ▸ List.mem_cons_self _ _)) hxl, fun x hx => ?_,
            fun o' ho' => ?_⟩⟩
          · rcases List.mem_cons.mp hx with rfl | hx1
            · exact ⟨o, o1, ho, ho1, fr1.1⟩
            · obtain ⟨m2, l2, h2, _⟩ := proto_chain_suffix _ _ _ _ hl1 hx1
              obtain ⟨ox, _, _, hox, _⟩ := proto_chain_cons h2
              exact ⟨ox, ox, hox, by rw [hsame x hx1]; exact hox, same_fields_refl _⟩
          · rw [ho] at ho'
            injection ho' with ho'
            subst ho'
            exact ⟨o1, ho1, fill_rel_mono (fun _ _ hF => nomatch hF) fr1, fun q hq => by
              rw [← (same_fields_prototype fr1.1).1, hp] at hq
              cases hq⟩
        | some q =>
          have hpq : o.prototype = some q := by
            rw [← (same_fields_prototype fr1.1).1]; exact hp
          rw [hpq] at hl1
          have hql : q ∈ l1 := by
            obtain ⟨_, _, _, _, _, e⟩ := proto_chain_cons hl1
            rw [e]
            exact List.mem_cons_self _ _
          have hqp : q ≠ p := fun e => hpn (e ▸ hql)
          have hl1s : proto_chain s1 m (some q) = some l1 := by
            refine proto_chain_congr _ _ _ hl1 (fun x hx => ?_)
            obtain ⟨m2, l2, h2, _⟩ := proto_chain_suffix _ _ _ _ hl1 hx
            obtain ⟨ox, _, _, hox, _⟩ := proto_chain_cons h2
            exact ⟨ox, ox, hox, by rw [hsame x hx]; exact hox, rfl⟩
          obtain ⟨s2, hres2, h2, hk2⟩ := ih m q s1 fuel hl1s i1 (fun x hx ox hox => by
            rw [hsame x hx] at hox
            exact hpl x (List.mem_cons_of_mem _ hx) ox hox) (by simpa using hfuel)
          simp only [h2]
          by_cases hf2 : FAILED hres2 = true
          · rw [if_pos hf2]
            exact ⟨s2, hres2, rfl, fun hf3 => by rw [hf2] at hf3; cases hf3⟩
          · rw [if_neg hf2]
            have hf2' : FAILED hres2 = false := by simpa using hf2
            obtain ⟨_, i2, b1, b2, b3, _⟩ := hk2 hf2'
            obtain ⟨oq0, oq, hoq0, hoq, _⟩ := b3 q hql
            simp only [hoq]
            have ho2 : s2.obj p = some o1 := by
              rw [b2 p hpn (obj_lt ho1)]; exact ho1
            obtain ⟨s3, hres3, h3, hk3⟩ := fill_protrefs_loop_run hqp oq (oq.prop_cnt + 1) s2 0 o1
              i2 ho2 hoq (by rw [(same_fields_proxy fr1.1).1]; exact hpx) hp (by omega)
              (fun k1 hk1 => absurd hk1 (Nat.not_lt_zero _))
            refine ⟨s3, hres3, h3, fun hf3 => ?_⟩
            obtain ⟨e3, i3, c1, c2, o3, ho3, fr3, hcov⟩ := hk3 hf3
            have hq3 : s3.obj q = some oq := by rw [c2 q hqp (obj_lt hoq)]; exact hoq
            refine ⟨e3, i3, le_trans a1 (le_trans b1 c1), fun x hx hxl => ?_, fun x hx => ?_,
              fun o' ho' => ?_⟩
            · have hxp : x ≠ p := fun e => hx (e ▸ List.mem_cons_self _ _)
              have hxl1 : x ∉ l1 := fun e => hx (List.mem_cons_of_mem _ e)
              rw [c2 x hxp (lt_of_lt_of_le hxl (le_trans a1 b1)),
                b2 x hxl1 (lt_of_lt_of_le hxl a1), a2 x hxp hxl]
            · rcases List.mem_cons.mp hx with rfl | hx1
              · exact ⟨o, o3, ho, ho3, same_fields_trans fr1.1 fr3.1⟩
              · obtain ⟨ox, ox1, hox, hox1, hsf⟩ := b3 x hx1
                have hxp : x ≠ p := fun e => hpn (e ▸ hx1)
                refine ⟨ox, ox1, by rw [← hsame x hx1]; exact hox, ?_, hsf⟩
                rw [c2 x hxp (obj_lt hox1)]
                exact hox1
            · rw [ho] at ho'
              injection ho' with ho'
              subst ho'
              refine ⟨o3, ho3, fill_rel_trans (fill_rel_mono (fun _ _ hF => nomatch hF) fr1)
                (fill_rel_mono (fun j nm hjn q' hq' => ?_) fr3), fun q' hq' => ?_⟩
              · rw [hpq] at hq'
                injection hq' with hq'
                subst hq'
                exact ⟨oq, hq3, hjn⟩
              · rw [hpq] at hq'
                injection hq' with hq'
                subst hq'
                exact ⟨oq, hq3, hcov⟩

theorem alloc_protref_total (s : Store) (p : Nat) (o : jsdisp_t) (ho : s.obj p = some o)
    (name : WSTR) (ref : Nat) : ∃ r, alloc_protref s p name ref = some r := by
  obtain ⟨s2, r2, o2, ha, ho2, _⟩ := store_alloc_prop_total s p o ho name
    prop_type_t.PROP_PROTREF 0
  unfold alloc_protref
  rw [ha]
  cases r2 with
  | none => exact ⟨_, rfl⟩
  | some i =>
    obtain ⟨s3, hs3⟩ := store_set_slot_total s2 p o2 ho2 i (fun q => { q with u := prop_u.ref ref })
    simp only [hs3, Option.map_some']
    exact ⟨_, rfl⟩

theorem fix_protref_prop_total {s : Store} {p n : Nat} {o : jsdisp_t} {l : List Nat}
    (ho : s.obj p = some o) (hl : proto_chain s n o.prototype = some l) (i : Nat) :
    ∃ s1, fix_protref_prop s p i = some s1 := by
  unfold fix_protref_prop
  simp only [ho]
  split
  · exact ⟨_, rfl⟩
  · obtain ⟨b, hb, _⟩ := fix_protref_walk_spec l n (s.heap.length + 1) o.prototype
      (u_ref (slot o i).u) hl (Nat.lt_succ_of_le (proto_chain_length hl))
    rw [hb]
    cases b
    · exact ⟨_, rfl⟩
    · exact ⟨_, rfl⟩

/-- The resolver with prototype fallback returns on an object whose prototype
chain ends, with well-formed tables and no proxy on it. -/
theorem find_prop_name_prot_total (hash : Nat) (name : WSTR) (ci : Bool) :
    ∀ (l : List Nat) (n p : Nat) (s : Store) (fuel : Nat),
      proto_chain s n (some p) = some l → chain_wf s l →
      (∀ x ∈ l, ∀ ox, s.obj x = some ox → ox.proxy = none) → l.length ≤ fuel →
      ∃ r, find_prop_name_prot_fuel fuel s p hash name ci = some r := by
  intro l
  induction l with
  | nil =>
    intro n p s fuel hl
    obtain ⟨_, _, _, _, _, h⟩ := proto_chain_cons hl
    cases h
  | cons p l1 ih =>
    intro n p0 s fuel hl hwf hpl hfuel
    have hnd := proto_chain_nodup _ _ _ hl
    have hlt := proto_chain_lt _ _ _ hl
    obtain ⟨o, l1', m, ho, hl1, he⟩ := proto_chain_cons hl
    injection he with hy hl1e
    subst hy hl1e
    have hpn : p ∉ l1 := (List.nodup_cons.mp hnd).1
    cases fuel with
    | zero => simp at hfuel
    | succ fuel =>
      have hpx := hpl p (List.mem_cons_self _ _) o ho
      obtain ⟨o', ho', hwfo, hnil⟩ := obj_wf_elim (hwf p (List.mem_cons_self _ _))
      rw [ho] at ho'
      injection ho' with ho'
      subst ho'
      obtain ⟨⟨s1, hres, prop⟩, h⟩ := find_prop_name_total s p hash name ci o ho hwfo hpx
      simp only [find_prop_name_prot_fuel, h]
      by_cases hf : FAILED hres = true
      · rw [if_pos hf]
        exact ⟨_, rfl⟩
      · rw [if_neg hf]
        have hf' : FAILED hres = false := by simpa using hf
        obtain ⟨a1, a2, _, o1, ho1, hsf, _⟩ :=
          find_prop_name_ok s p hash name ci o s1 hres prop ho hwfo hnil h hf'
        simp only [ho1]
        have hsame : ∀ x ∈ l1, s1.obj x = s.obj x := fun x hx =>
          a2 x (fun e => hpn (e ▸ hx)) (hlt x (List.mem_cons_of_mem _ hx))
        have hl1s : proto_chain s1 m o1.prototype = some l1 := by
          rw [(same_fields_prototype hsf).1]
          refine proto_chain_congr _ _ _ hl1 (fun x hx => ?_)
          obtain ⟨m2, l2, h2, _⟩ := proto_chain_suffix _ _ _ _ hl1 hx
          obtain ⟨ox, _, _, hox, _⟩ := proto_chain_cons h2
          exact ⟨ox, ox, hox, by rw [hsame x hx]; exact hox, rfl⟩
        have rest : ∃ r, (match o1.prototype with
            | none => some (s1, HRESULT.S_OK, prop)
            | some q =>
              match find_prop_name_prot_fuel fuel s1 q hash name ci with
              | none => none
              | some (s2, hres2, prop2) =>
                if FAILED hres2 then some (s2, hres2, none)
                else
                  match prop2, s2.obj q with
                  | some j, some proto =>
                    if (slot proto j).type ≠ prop_type_t.PROP_DELETED then
                      match prop with
                      | some i =>
                        (store_set_slot s2 p i (fun r =>
                          { r with type := prop_type_t.PROP_PROTREF, u := prop_u.ref j })).map
                          fun s3 => (s3, HRESULT.S_OK, some i)
                      | none =>
                        match alloc_protref s2 p (slot proto j).name j with
                        | none => none
                        | some (s3, none) => some (s3, HRESULT.E_OUTOFMEMORY, none)
                        | some (s3, some k) => some (s3, HRESULT.S_OK, some k)
                    else some (s2, HRESULT.S_OK, prop)
                  | some _, none => none
                  | none, _ => some (s2, HRESULT.S_OK, prop)) = some r := by
          cases hp : o1.prototype with
          | none => exact ⟨_, rfl⟩
          | some q =>
            rw [hp] at hl1s
            have hql : q ∈ l1 := by
              obtain ⟨_, _, _, _, _, e⟩ := proto_chain_cons hl1s
              rw [e]
              exact List.mem_cons_self _ _
            have hwf1 : chain_wf s1 l1 := fun x hx =>
              obj_wf_congr (hsame x hx) (hwf x (List.mem_cons_of_mem _ hx))
            obtain ⟨⟨s2, hres2, prop2⟩, h2⟩ := ih m q s1 fuel hl1s hwf1 (fun x hx ox hox => by
              rw [hsame x hx] at hox
              exact hpl x (List.mem_cons_of_mem _ hx) ox hox) (by simpa using hfuel)
            simp only [h2]
            by_cases hf2 : FAILED hres2 = true
            · rw [if_pos hf2]
              exact ⟨_, rfl⟩
            · rw [if_neg hf2]
              have hf2' : FAILED hres2 = false := by simpa using hf2
              obtain ⟨b1, _, b3, _⟩ := find_prop_name_prot_ok hash name ci fuel s1 q m l1 s2 hres2
                prop2 hl1s hwf1 h2 hf2'
              obtain ⟨_, oq, _, hoq, _⟩ := b3 q hql
              have ho2 : s2.obj p = some o1 := by
                rw [b1 p hpn (obj_lt ho1)]; exact ho1
              cases prop2 with
              | none => exact ⟨_, rfl⟩
              | some j =>
                simp only [hoq]
                split
                · cases prop with
                  | some i =>
                    obtain ⟨s3, hs3⟩ := store_set_slot_total s2 p o1 ho2 i (fun r =>
                      { r with type := prop_type_t.PROP_PROTREF, u := prop_u.ref j })
                    simp only [hs3, Option.map_some']
                    exact ⟨_, rfl⟩
                  | none =>
                    obtain ⟨⟨s3, r3⟩, h3⟩ := alloc_protref_total s2 p o1 ho2 (slot oq j).name j
                    simp only [h3]
                    cases r3 <;> exact ⟨_, rfl⟩
                · exact ⟨_, rfl⟩
        cases prop with
        | none => exact rest
        | some i =>
          by_cases hd : (slot o1 i).type = prop_type_t.PROP_DELETED
          · simp only [hd, ne_eq, not_true_eq_false, decide_False, Bool.false_eq_true, if_false]
            exact rest
          · simp only [hd, ne_eq, not_false_eq_true, decide_True, if_true]
            obtain ⟨s2, hs2⟩ := fix_protref_prop_total ho1 hl1s i
            simp only [hs2, Option.map_some']
            exact ⟨_, rfl⟩

theorem acyclic_of_ranked {rank : Nat → Nat} {s : Store} (h : proto_ranked rank s) :
    proto_acyclic s := by
  have key : ∀ a b, Relation.TransGen (proto_link s) a b → rank b < rank a := by
    intro a b hab
    induction hab with
    | single hl =>
      obtain ⟨o, ho, hp⟩ := hl
      exact (h _ o _ ho hp).2
    | tail _ hl ih =>
      obtain ⟨o, ho, hp⟩ := hl
      exact lt_trans (h _ o _ ho hp).2 ih
  intro x hx
  exact absurd (key x x hx) (lt_irrefl _)

theorem closed_of_full {rank : Nat → Nat} {s : Store} (h : proto_ranked rank s)
    (hall : ∀ x, x < s.heap.length → (s.obj x).isSome = true) : proto_closed s :=
  fun x o q ho hq => hall q (h x o q ho hq).1

theorem plain_of_all {s : Store}
    (hall : ∀ x, x < s.heap.length → (s.obj x).bind (fun o => o.proxy) = none) (p : Nat) :
    chain_plain s p := by
  intro x o _ ho
  have := hall x (obj_lt ho)
  rw [ho] at this
  exact this

theorem chain_wf_of_inv {s : Store} (hinv : protref_inv s) {n : Nat} {start : Option Nat}
    {l : List Nat} (hl : proto_chain s n start = some l) : chain_wf s l := by
  intro x hx
  obtain ⟨m2, l2, h2, _⟩ := proto_chain_suffix _ _ _ _ hl hx
  obtain ⟨ox, _, _, hox, _⟩ := proto_chain_cons h2
  obtain ⟨hwf, hb, _⟩ := hinv.2 x ox hox
  unfold obj_wf
  rw [hox]
  refine ⟨hwf, ?_⟩
  unfold NIL
  omega

/-- C33. Prototype chains stay acyclic.  In a store in which no object is on
its own prototype chain: after every call of `jsdisp_change_prototype` that
returns, with whatever status, no object is on its own prototype chain; and,
when no prototype pointer dangles, the chain walks end: the loop of
`jsdisp_change_prototype` and `fix_protref_prop` return, and on an object the
prototype chain of which has no proxy, in a store that satisfies the invariant
of the slot tables, `find_prop_name_prot` and `fill_protrefs` return. -/
theorem proto_chains_acyclic (s : Store) (hac : proto_acyclic s) :
    (∀ p proto s1 hres, jsdisp_change_prototype s p proto = some (s1, hres) →
      proto_acyclic s1) ∧
    (proto_closed s →
      (∀ p proto, (∀ t, proto = some t → (s.obj t).isSome = true) →
        ∃ b, proto_cycle_walk s p (s.heap.length + 1) proto = some b) ∧
      (∀ p i, (s.obj p).isSome = true → ∃ s1, fix_protref_prop s p i = some s1) ∧
      (∀ p hash name ci, (s.obj p).isSome = true → protref_inv s → chain_plain s p →
        ∃ r, find_prop_name_prot s p hash name ci = some r) ∧
      (∀ p, (s.obj p).isSome = true → protref_inv s → chain_plain s p →
        ∃ r, fill_protrefs s p = some r)) := by
  refine ⟨fun p proto s1 hres h => change_prototype_acyclic hac h, fun hcl => ⟨?_, ?_, ?_, ?_⟩⟩
  · intro p proto ha
    obtain ⟨l, hl, hlen⟩ := chain_exists hac hcl proto ha
    exact ⟨_, proto_cycle_walk_spec p l _ _ proto hl (Nat.lt_succ_of_le hlen)⟩
  · intro p i hp
    obtain ⟨o, ho⟩ := Option.isSome_iff_exists.mp hp
    obtain ⟨l, hl, _⟩ := chain_exists hac hcl o.prototype (fun t ht => hcl p o t ho ht)
    exact fix_protref_prop_total ho hl i
  · intro p hash name ci hp hinv hpl
    obtain ⟨l, hl, hlen⟩ := chain_exists hac hcl (some p) (fun t ht => by
      injection ht with ht
      rw [← ht]; exact hp)
    exact find_prop_name_prot_total hash name ci l _ p s _ hl (chain_wf_of_inv hinv hl)
      (fun x hx ox hox => hpl x ox (chain_mem_reach _ _ _ hl x hx p rfl) hox)
      (Nat.le_succ_of_le hlen)
  · intro p hp hinv hpl
    obtain ⟨l, hl, hlen⟩ := chain_exists hac hcl (some p) (fun t ht => by
      injection ht with ht
      rw [← ht]; exact hp)
    obtain ⟨s1, hres, h, _⟩ := fill_protrefs_run l _ p s (s.heap.length + 1) hl hinv
      (fun x hx ox hox => hpl x ox (chain_mem_reach _ _ _ hl x hx p rfl) hox)
      (Nat.le_succ_of_le hlen)
    exact ⟨_, h⟩

theorem proto_chains_acyclic_witness :
    proto_acyclic store_chain ∧ proto_closed store_chain ∧ protref_inv store_chain ∧
    chain_plain store_chain 2 ∧
    (jsdisp_change_prototype store_chain 0 (some 2)).map (fun r => r.2) =
      some HRESULT.JS_E_CYCLIC_PROTO_VALUE ∧
    (jsdisp_change_prototype store_chain 2 (some 0)).map (fun r => r.2) = some HRESULT.S_OK ∧
    (∀ p proto s1 hres, jsdisp_change_prototype store_chain p proto = some (s1, hres) →
      proto_acyclic s1) ∧
    (proto_closed store_chain →
      (∀ p proto, (∀ t, proto = some t → (store_chain.obj t).isSome = true) →
        ∃ b, proto_cycle_walk store_chain p (store_chain.heap.length + 1) proto = some b) ∧
      (∀ p i, (store_chain.obj p).isSome = true →
        ∃ s1, fix_protref_prop store_chain p i = some s1) ∧
      (∀ p hash name ci, (store_chain.obj p).isSome = true → protref_inv store_chain →
        chain_plain store_chain p →
        ∃ r, find_prop_name_prot store_chain p hash name ci = some r) ∧
      (∀ p, (store_chain.obj p).isSome = true → protref_inv store_chain →
        chain_plain store_chain p → ∃ r, fill_protrefs store_chain p = some r)) :=
  ⟨acyclic_of_ranked store_chain_valid.2,
    closed_of_full store_chain_valid.2 (by decide), store_chain_valid.1,
    plain_of_all (by decide) 2, by decide, by decide,
    proto_chains_acyclic store_chain (acyclic_of_ranked store_chain_valid.2)⟩

/-- C34, as stated, fails on a builtin.  The child of `store_am_child` has no
proxy and the prototype `P`; the name `a` is visible on `P` and not claimed by
the index override; `fill_protrefs` on the child succeeds; and the only slot of
the child with the name `a` is then the slot the fill has made for the builtin
`a` of its class: the child had no slot before, and the slot is no prototype
reference. -/
theorem prefill_builtin_counterexample :
    (obj_at store_am_child 1).proxy = none ∧ (obj_at store_am_child 1).prototype = some 0 ∧
    (obj_at store_am_child 1).prop_cnt = 0 ∧
    fill_protrefs store_am_child 1 = some (store_am_child_filled, HRESULT.S_OK) ∧
    0 < (obj_at store_am_child_filled 0).prop_cnt ∧
    (slot (obj_at store_am_child_filled 0) 0).name = [97] ∧
    (slot (obj_at store_am_child_filled 0) 0).type = prop_type_t.PROP_JSVAL ∧
    override_idx (obj_at store_am_child 1) [97] = none ∧
    (obj_at store_am_child_filled 1).prop_cnt = 1 ∧
    (slot (obj_at store_am_child_filled 1) 0).name = [97] ∧
    (slot (obj_at store_am_child_filled 1) 0).type = prop_type_t.PROP_BUILTIN ∧
    ¬ ∃ i, i < (obj_at store_am_child_filled 1).prop_cnt ∧
      (slot (obj_at store_am_child_filled 1) i).name = [97] ∧
      (i < (obj_at store_am_child 1).prop_cnt ∨
        (slot (obj_at store_am_child_filled 1) i).type = prop_type_t.PROP_PROTREF) := by
  decide

/-- C34, amended.  For a non-proxy object `o` at `p` with the prototype `P` at
`q`, in a store with acyclic prototype chains, no dangling prototype pointer,
the invariant of the slot tables and no proxy on the chain of `p`:
`fill_protrefs` returns, and when it succeeds every name of a slot in use of
`P` that is no tombstone, and that the index override of `o` does not claim,
has a slot in `o`: an own slot that was there before and was no tombstone, or a
slot the fill has made for a builtin or an indexed element of `o`, or a
prototype reference whose reference is the index of a slot of `P` with that
name (the slot itself when the names of `P` are distinct); and no own slot of
`o` that was no tombstone has changed kind, flags or payload. -/
theorem fill_protrefs_prefill (s : Store) (p q : Nat) (o : jsdisp_t) (hac : proto_acyclic s)
    (hcl : proto_closed s) (hinv : protref_inv s) (hpl : chain_plain s p)
    (ho : s.obj p = some o) (hq : o.prototype = some q) :
    ∃ s1 hres, fill_protrefs s p = some (s1, hres) ∧
      (hres = HRESULT.S_OK → ∃ o1 oq, s1.obj p = some o1 ∧ s1.obj q = some oq ∧
        (∀ k, k < oq.prop_cnt → (slot oq k).type ≠ prop_type_t.PROP_DELETED →
          override_idx o (slot oq k).name = none →
          ∃ i, i < o1.prop_cnt ∧ (slot o1 i).name = (slot oq k).name ∧
            ((i < o.prop_cnt ∧ (slot o i).type ≠ prop_type_t.PROP_DELETED) ∨
              (o.prop_cnt ≤ i ∧ slot_is_mat o1 i) ∨
              ((slot o1 i).type = prop_type_t.PROP_PROTREF ∧
                ∃ j, (slot o1 i).u = prop_u.ref j ∧ j < oq.prop_cnt ∧
                  (slot oq j).name = (slot oq k).name ∧
                  ((∀ a b, a < oq.prop_cnt → b < oq.prop_cnt →
                    (slot oq a).name = (slot oq b).name → a = b) → j = k)))) ∧
        (∀ i, i < o.prop_cnt → (slot o i).type ≠ prop_type_t.PROP_DELETED →
          (slot o1 i).type = (slot o i).type ∧ (slot o1 i).flags = (slot o i).flags ∧
            (slot o1 i).u = (slot o i).u)) := by
  obtain ⟨l, hl, hlen⟩ := chain_exists hac hcl (some p) (fun t ht => by
    injection ht with ht
    rw [← ht, ho]; rfl)
  obtain ⟨s1, hres, h, hk⟩ := fill_protrefs_run l _ p s (s.heap.length + 1) hl hinv
    (fun x hx ox hox => hpl x ox (chain_mem_reach _ _ _ hl x hx p rfl) hox)
    (Nat.le_succ_of_le hlen)
  refine ⟨s1, hres, h, fun hs => ?_⟩
  subst hs
  obtain ⟨_, _, _, _, _, hp⟩ := hk rfl
  obtain ⟨o1, ho1, frel, hcov⟩ := hp o ho
  obtain ⟨oq, hoq, hc⟩ := hcov q hq
  have href : ∀ i k, (slot o1 i).name = (slot oq k).name → k < oq.prop_cnt →
      slot_is_ref (fun j nm => ∀ q, o.prototype = some q →
        ∃ oq, s1.obj q = some oq ∧ names_slot oq j nm) o1 i →
      (slot o1 i).type = prop_type_t.PROP_PROTREF ∧
        ∃ j, (slot o1 i).u = prop_u.ref j ∧ j < oq.prop_cnt ∧
          (slot oq j).name = (slot oq k).name ∧
          ((∀ a b, a < oq.prop_cnt → b < oq.prop_cnt →
            (slot oq a).name = (slot oq b).name → a = b) → j = k) := by
    intro i k hn hkl ⟨ht, j, hu, hR⟩
    obtain ⟨oq2, hoq2, hj, hjn⟩ := hR q hq
    rw [hoq] at hoq2
    injection hoq2 with hoq2
    subst hoq2
    exact ⟨ht, j, hu, hj, hjn.trans hn, fun hd => hd j k hj hkl (hjn.trans hn)⟩
  refine ⟨o1, oq, ho1, hoq, fun k hkl _ hov => ?_, fun i hi ht => ?_⟩
  · obtain ⟨i, hi, hn, ht⟩ := hc k hkl (by rw [override_idx_fields frel.1]; exact hov)
    refine ⟨i, hi, hn, ?_⟩
    by_cases hio : i < o.prop_cnt
    · rcases (frel.2.2.1 i hio).2 with ⟨t, _, _⟩ | ⟨_, r⟩
      · exact Or.inl ⟨hio, by rw [← t]; exact ht⟩
      · exact Or.inr (Or.inr (href i k hn hkl r))
    · rcases frel.2.2.2 i (Nat.le_of_not_lt hio) hi with r | m
      · exact Or.inr (Or.inr (href i k hn hkl r))
      · exact Or.inr (Or.inl ⟨Nat.le_of_not_lt hio, m⟩)
  · rcases (frel.2.2.1 i hi).2 with h1 | ⟨d, _⟩
    · exact h1
    · exact absurd d ht

theorem fill_protrefs_prefill_witness :
    proto_acyclic store_chain ∧ proto_closed store_chain ∧ protref_inv store_chain ∧
    chain_plain store_chain 2 ∧ store_chain.obj 2 = some (obj_at store_chain 2) ∧
    (obj_at store_chain 2).prototype = some 1 ∧
    fill_protrefs store_chain 2 = some (store_chain_filled, HRESULT.S_OK) ∧
    (obj_at store_chain 2).prop_cnt = 0 ∧ (obj_at store_chain_filled 2).prop_cnt = 1 ∧
    (slot (obj_at store_chain_filled 2) 0).name = name_x ∧
    (slot (obj_at store_chain_filled 2) 0).type = prop_type_t.PROP_PROTREF ∧
    (slot (obj_at store_chain_filled 2) 0).u = prop_u.ref 0 ∧
    (slot (obj_at store_chain_filled 1) 0).name = name_x ∧
    ∃ s1 hres, fill_protrefs store_chain 2 = some (s1, hres) ∧
      (hres = HRESULT.S_OK → ∃ o1 oq, s1.obj 2 = some o1 ∧ s1.obj 1 = some oq ∧
        (∀ k, k < oq.prop_cnt → (slot oq k).type ≠ prop_type_t.PROP_DELETED →
          override_idx (obj_at store_chain 2) (slot oq k).name = none →
          ∃ i, i < o1.prop_cnt ∧ (slot o1 i).name = (slot oq k).name ∧
            ((i < (obj_at store_chain 2).prop_cnt ∧
                (slot (obj_at store_chain 2) i).type ≠ prop_type_t.PROP_DELETED) ∨
              ((obj_at store_chain 2).prop_cnt ≤ i ∧ slot_is_mat o1 i) ∨
              ((slot o1 i).type = prop_type_t.PROP_PROTREF ∧
                ∃ j, (slot o1 i).u = prop_u.ref j ∧ j < oq.prop_cnt ∧
                  (slot oq j).name = (slot oq k).name ∧
                  ((∀ a b, a < oq.prop_cnt → b < oq.prop_cnt →
                    (slot oq a).name = (slot oq b).name → a = b) → j = k)))) ∧
        (∀ i, i < (obj_at store_chain 2).prop_cnt →
          (slot (obj_at store_chain 2) i).type ≠ prop_type_t.PROP_DELETED →
          (slot o1 i).type = (slot (obj_at store_chain 2) i).type ∧
            (slot o1 i).flags = (slot (obj_at store_chain 2) i).flags ∧
            (slot o1 i).u = (slot (obj_at store_chain 2) i).u)) :=
  ⟨acyclic_of_ranked store_chain_valid.2, closed_of_full store_chain_valid.2 (by decide),
    store_chain_valid.1, plain_of_all (by decide) 2, by decide, by decide, by decide, by decide,
    by decide, by decide, by decide, by decide, by decide,
    fill_protrefs_prefill store_chain 2 1 (obj_at store_chain 2)
      (acyclic_of_ranked store_chain_valid.2) (closed_of_full store_chain_valid.2 (by decide))
      store_chain_valid.1 (plain_of_all (by decide) 2) (by decide) (by decide)⟩

/-! ### Pass 2 of the collector terminates -/

theorem gc_push_links_erase : ∀ (E : List Nat) (s : Store) (g : gc_ctx),
    (gc_push_links_count E s g).map (fun r => (r.1, r.2.1, r.2.2.1)) = gc_push_links E s g := by
  intro E
  induction E with
  | nil => intro s g; rfl
  | cons q rest ih =>
    intro s g
    simp only [gc_push_links_count, gc_push_links]
    cases s.obj q with
    | none => rfl
    | some link =>
      simp only
      split
      · cases gc_stack_push g s.avail (some q) with
        | none => rfl
        | some r =>
          obtain ⟨g1, a⟩ := r
          simp only [Option.map_map]
          rw [← ih]
          rfl
      · exact ih s g

theorem gc_traverse_loop_erase : ∀ (fuel : Nat) (s : Store) (g : gc_ctx) (obj2 : Nat),
    (gc_traverse_loop_trace fuel s g obj2).map (fun r => r.1) = gc_traverse_loop fuel s g obj2 := by
  intro fuel
  induction fuel with
  | zero => intro s g obj2; rfl
  | succ fuel ih =>
    intro s g obj2
    simp only [gc_traverse_loop_trace, gc_traverse_loop]
    cases ho : s.obj obj2 with
    | none => rfl
    | some o =>
      simp only
      rw [← gc_push_links_erase]
      cases gc_push_links_count (obj_edges o) (s.set_obj obj2 { o with gc_marked := false }) g with
      | none => rfl
      | some r =>
        obtain ⟨s2, g2, b, n⟩ := r
        cases b with
        | false => rfl
        | true =>
          simp only [Option.map_some']
          split
          · rfl
          · cases gc_pop_marked s2 (gc_stack_size g2 + 1) g2 with
            | none => rfl
            | some r3 =>
              obtain ⟨g3, q⟩ := r3
              cases q with
              | none => rfl
              | some q =>
                simp only [Option.map_map]
                rw [← ih]
                rfl

theorem gc_pass2_erase : ∀ (L : List Nat) (s : Store) (g : gc_ctx),
    (gc_pass2_trace L s g).map (fun r => r.1) = gc_pass2 L s g := by
  intro L
  induction L with
  | nil => intro s g; rfl
  | cons p rest ih =>
    intro s g
    simp only [gc_pass2_trace, gc_pass2]
    cases ho : s.obj p with
    | none => rfl
    | some obj =>
      simp only
      split
      · exact ih s g
      · cases gc_stack_push g s.avail none with
        | none => rfl
        | some r =>
          obtain ⟨g1, a⟩ := r
          simp only
          rw [← gc_traverse_loop_erase]
          cases gc_traverse_loop_trace (s.heap.length + 1) { s with avail := a } g1 p with
          | none => rfl
          | some r2 =>
            obtain ⟨⟨s2, g2, b⟩, t⟩ := r2
            cases b with
            | false =>
              simp only [Option.map_some', Option.map_map]
              rfl
            | true =>
              simp only [Option.map_some', Option.map_map]
              rw [← ih]
              rfl

theorem gc_stack_push_ok {g g1 : gc_ctx} {a a1 : Nat} {obj : Option Nat} (hw : stack_wf g)
    (hi : g.idx < GC_CHUNK) (h : gc_stack_push g a obj = some (g1, a1)) :
    stack_wf g1 ∧ g1.idx < GC_CHUNK ∧ stack_list g1 = obj :: stack_list g :=
  ⟨(gc_stack_push_spec hw h).1, gc_stack_push_idx hi h, (gc_stack_push_spec hw h).2⟩

/-- The pushes of one round return when the links are allocated; they add
marked links to the stack, one for each call that succeeded. -/
theorem gc_push_links_run : ∀ (E : List Nat) (s : Store) (g : gc_ctx),
    (∀ q ∈ E, (s.obj q).isSome = true) → stack_wf g → g.idx < GC_CHUNK →
    ∃ s1 g1 b n, gc_push_links_count E s g = some (s1, g1, b, n) ∧ s1.heap = s.heap ∧
      s1.ctx = s.ctx ∧ stack_wf g1 ∧ g1.idx < GC_CHUNK ∧ n ≤ E.length ∧
      ∃ P : List Nat, stack_list g1 = P.map some ++ stack_list g ∧
        ∀ t ∈ P, t ∈ E ∧ mark_of s t = true := by
  intro E
  induction E with
  | nil =>
    intro s g _ hw hi
    exact ⟨s, g, true, 0, rfl, rfl, rfl, hw, hi, le_refl _, [], rfl, fun t ht => nomatch ht⟩
  | cons q rest ih =>
    intro s g hE hw hi
    obtain ⟨link, hl⟩ := Option.isSome_iff_exists.mp (hE q (List.mem_cons_self _ _))
    have hrest : ∀ t ∈ rest, (s.obj t).isSome = true :=
      fun t ht => hE t (List.mem_cons_of_mem _ ht)
    simp only [gc_push_links_count, hl]
    by_cases hc : link.gc_marked = true ∧ link.ctx = s.ctx.self
    · rw [if_pos hc]
      cases hp : gc_stack_push g s.avail (some q) with
      | none =>
        exact ⟨s, g, false, 1, rfl, rfl, rfl, hw, hi, by simp, [], rfl, fun t ht => nomatch ht⟩
      | some r =>
        obtain ⟨g1, a⟩ := r
        obtain ⟨hw1, hi1, hs1⟩ := gc_stack_push_ok hw hi hp
        obtain ⟨s2, g2, b, n, h2, e1, e2, hw2, hi2, hn, P, hP, hPm⟩ :=
          ih { s with avail := a } g1 hrest hw1 hi1
        simp only [h2, Option.map_some']
        refine ⟨s2, g2, b, n + 1, rfl, e1, e2, hw2, hi2, by simp; omega, P ++ [q], ?_,
          fun t ht => ?_⟩
        · rw [hP, hs1]
          simp
        · rcases List.mem_append.mp ht with h | h
          · exact ⟨List.mem_cons_of_mem _ (hPm t h).1, (hPm t h).2⟩
          · have : t = q := by simpa using h
            subst this
            exact ⟨List.mem_cons_self _ _, by rw [mark_of_some hl]; exact hc.1⟩
    · rw [if_neg hc]
      obtain ⟨s2, g2, b, n, h2, e1, e2, hw2, hi2, hn, P, hP, hPm⟩ := ih s g hrest hw hi
      exact ⟨s2, g2, b, n, h2, e1, e2, hw2, hi2, by simp; omega, P, hP,
        fun t ht => ⟨List.mem_cons_of_mem _ (hPm t ht).1, (hPm t ht).2⟩⟩

theorem stack_size_list (g : gc_ctx) : gc_stack_size g = (stack_list g).length := by
  unfold gc_stack_size stack_list
  rw [List.length_flatten]

/-- The pops after a round return when the stack holds the sentinel below
allocated objects: they end at the sentinel or at a marked object. -/
theorem gc_pop_marked_run (s : Store) : ∀ (fuel : Nat) (g : gc_ctx) (A : List Nat)
    (B : List (Option Nat)), stack_wf g → g.idx < GC_CHUNK →
    stack_list g = A.map some ++ none :: B → (∀ t ∈ A, (s.obj t).isSome = true) →
    A.length < fuel →
    ∃ g1 r, gc_pop_marked s fuel g = some (g1, r) ∧ stack_wf g1 ∧ g1.idx < GC_CHUNK ∧
      ((r = none ∧ stack_list g1 = B) ∨
        ∃ (q : Nat) (A2 : List Nat), r = some q ∧ q ∈ A ∧ mark_of s q = true ∧
          stack_list g1 = A2.map some ++ none :: B ∧ ∀ t ∈ A2, t ∈ A) := by
  intro fuel
  induction fuel with
  | zero => intro g A B _ _ _ _ h; omega
  | succ fuel ih =>
    intro g A B hw hi hl hA hf
    obtain ⟨g1, obj, hp, hi1⟩ := gc_stack_pop_some hw hi (by rw [hl]; simp)
    obtain ⟨hw1, hs1⟩ := gc_stack_pop_spec hw hp
    simp only [gc_pop_marked, hp]
    cases A with
    | nil =>
      rw [hl] at hs1
      simp only [List.map_nil, List.nil_append, List.cons.injEq] at hs1
      obtain ⟨e1, e2⟩ := hs1
      subst e1
      exact ⟨g1, none, rfl, hw1, hi1, Or.inl ⟨rfl, e2.symm⟩⟩
    | cons a A1 =>
      rw [hl] at hs1
      simp only [List.map_cons, List.cons_append, List.cons.injEq] at hs1
      obtain ⟨e1, e2⟩ := hs1
      subst e1
      obtain ⟨o, ho⟩ := Option.isSome_iff_exists.mp (hA a (List.mem_cons_self _ _))
      simp only [ho]
      by_cases hm : o.gc_marked = true
      · rw [if_pos hm]
        exact ⟨g1, some a, rfl, hw1, hi1, Or.inr ⟨a, A1, rfl, List.mem_cons_self _ _,
          by rw [mark_of_some ho]; exact hm, e2.symm, fun t ht => List.mem_cons_of_mem _ ht⟩⟩
      · rw [if_neg hm]
        obtain ⟨g2, r, h2, hw2, hi2, hr⟩ := ih g1 A1 B hw1 hi1 e2.symm
          (fun t ht => hA t (List.mem_cons_of_mem _ ht)) (by simp at hf; omega)
        refine ⟨g2, r, h2, hw2, hi2, ?_⟩
        rcases hr with h | ⟨q, A2, h1, h3, h4, h5, h6⟩
        · exact Or.inl h
        · exact Or.inr ⟨q, A2, h1, List.mem_cons_of_mem _ h3, h4, h5,
            fun t ht => List.mem_cons_of_mem _ (h6 t ht)⟩

/-- The pops after a failed push return: they end at the sentinel. -/
theorem gc_drain_run : ∀ (fuel : Nat) (g : gc_ctx) (A : List Nat) (B : List (Option Nat)),
    stack_wf g → g.idx < GC_CHUNK → stack_list g = A.map some ++ none :: B → A.length < fuel →
    ∃ g1, gc_drain fuel g = some g1 ∧ stack_wf g1 ∧ g1.idx < GC_CHUNK ∧ stack_list g1 = B := by
  intro fuel
  induction fuel with
  | zero => intro g A B _ _ _ h; omega
  | succ fuel ih =>
    intro g A B hw hi hl hf
    obtain ⟨g1, obj, hp, hi1⟩ := gc_stack_pop_some hw hi (by rw [hl]; simp)
    obtain ⟨hw1, hs1⟩ := gc_stack_pop_spec hw hp
    simp only [gc_drain, hp]
    cases A with
    | nil =>
      rw [hl] at hs1
      simp only [List.map_nil, List.nil_append, List.cons.injEq] at hs1
      obtain ⟨e1, e2⟩ := hs1
      subst e1
      exact ⟨g1, rfl, hw1, hi1, e2.symm⟩
    | cons a A1 =>
      rw [hl] at hs1
      simp only [List.map_cons, List.cons_append, List.cons.injEq] at hs1
      obtain ⟨e1, e2⟩ := hs1
      subst e1
      exact ih g1 A1 B hw1 hi1 e2.symm (by simp at hf; omega)

theorem mark_of_true {s : Store} {x : Nat} (h : mark_of s x = true) :
    ∃ o, s.obj x = some o ∧ o.gc_marked = true := by
  unfold mark_of at h
  cases ho : s.obj x with
  | none => rw [ho] at h; cases h
  | some o => rw [ho] at h; exact ⟨o, rfl, h⟩

theorem marked_count_heap {s s1 : Store} (h : s1.heap = s.heap) :
    marked_count s1 = marked_count s := by
  unfold marked_count
  rw [h]
  congr 1
  apply Finset.filter_congr
  intro x _
  rw [mark_of_heap h]

theorem marked_count_unmark {s : Store} {q : Nat} {o : jsdisp_t} (ho : s.obj q = some o)
    (hm : o.gc_marked = true) :
    marked_count (s.set_obj q { o with gc_marked := false }) < marked_count s := by
  unfold marked_count
  have hlen : (s.set_obj q { o with gc_marked := false }).heap.length = s.heap.length := by
    simp [Store.set_obj]
  rw [hlen]
  apply Finset.card_lt_card
  rw [Finset.ssubset_iff_of_subset]
  · refine ⟨q, ?_, ?_⟩
    · rw [Finset.mem_filter, Finset.mem_range]
      exact ⟨obj_lt ho, by rw [mark_of_some ho]; exact hm⟩
    · rw [Finset.mem_filter]
      intro h
      have := h.2
      rw [mark_of_set_obj ho, if_pos rfl] at this
      cases this
  · intro x hx
    rw [Finset.mem_filter] at hx ⊢
    refine ⟨hx.1, ?_⟩
    have := hx.2
    rw [mark_of_set_obj ho] at this
    split at this
    · cases this
    · exact this

theorem mark_frame_some {s s1 : Store} (h : mark_frame s s1) {x : Nat}
    (hx : (s.obj x).isSome = true) : (s1.obj x).isSome = true := by
  obtain ⟨o, ho⟩ := Option.isSome_iff_exists.mp hx
  rw [mark_frame_fwd h ho]
  rfl

/-- The traversal from a marked object returns: every round clears the mark of
an object that had it, so there are no more rounds than marked objects. -/
theorem gc_traverse_loop_run (sb : Store) (hcl : links_allocated sb) (hpl : traverse_plain sb) :
    ∀ (fuel : Nat) (s : Store) (g : gc_ctx) (cur : Nat) (A : List Nat) (B : List (Option Nat)),
      mark_frame sb s → stack_wf g → g.idx < GC_CHUNK →
      stack_list g = A.map some ++ none :: B → (∀ t ∈ A, (s.obj t).isSome = true) →
      mark_of s cur = true → marked_count s ≤ fuel →
      ∃ r t, gc_traverse_loop_trace fuel s g cur = some (r, t) ∧ mark_frame sb r.1 ∧
        (∀ x, mark_of s x = false → mark_of r.1 x = false) ∧ stack_wf r.2.1 ∧
        r.2.1.idx < GC_CHUNK ∧ (r.2.2 = true → stack_list r.2.1 = B) ∧
        (r.2.2 = false → ∃ A1 : List Nat, stack_list r.2.1 = A1.map some ++ none :: B) ∧
        t.roots = [] ∧
        (∀ x ∈ t.cleared, x.2 = true ∧ mark_of s x.1 = true ∧ mark_of r.1 x.1 = false) ∧
        (t.cleared.map Prod.fst).Nodup ∧
        t.pushes ≤ (t.cleared.map fun x => (edges_of sb x.1).length).sum := by
  intro fuel
  induction fuel with
  | zero =>
    intro s g cur A B _ _ _ _ _ hm hf
    exfalso
    obtain ⟨o, ho, hmo⟩ := mark_of_true hm
    have := marked_count_unmark ho hmo
    omega
  | succ fuel ih =>
    intro s g cur A B hmf hw hi hl hA hm hf
    obtain ⟨o, ho, hmo⟩ := mark_of_true hm
    obtain ⟨ob, hob, heo⟩ := mark_frame_bwd hmf ho
    have hmf1 : mark_frame s (s.set_obj cur { o with gc_marked := false }) :=
      mark_frame_set_obj ho _ rfl
    have hedges : obj_edges o = obj_edges ob := by rw [heo]; rfl
    have hE : ∀ q ∈ obj_edges o, ((s.set_obj cur { o with gc_marked := false }).obj q).isSome = true := by
      intro q hq
      rw [hedges] at hq
      exact mark_frame_some (mark_frame_trans hmf hmf1) (hcl cur ob hob q hq)
    obtain ⟨s2, g2, b, n, hpush, e1, e2, hw2, hi2, hn, P, hP, hPm⟩ :=
      gc_push_links_run (obj_edges o) _ g hE hw hi
    have hmf2 : mark_frame s s2 := mark_frame_trans hmf1 (mark_frame_of_heap e1 e2)
    have hmark2 : ∀ x, mark_of s2 x = if x = cur then false else mark_of s x := by
      intro x
      rw [mark_of_heap e1, mark_of_set_obj ho]
    have hmono : ∀ x, mark_of s x = false → mark_of s2 x = false := by
      intro x hx
      rw [hmark2]
      split
      · rfl
      · exact hx
    have hcur2 : mark_of s2 cur = false := by rw [hmark2, if_pos rfl]
    have hne : n ≤ (edges_of sb cur).length := by
      unfold edges_of
      rw [hob]
      simp only [Option.map_some', Option.getD_some]
      rw [← hedges]
      exact hn
    have hstack : stack_list g2 = (P ++ A).map some ++ none :: B := by
      rw [hP, hl]
      simp
    simp only [gc_traverse_loop_trace, ho, hpush]
    cases b with
    | false =>
      refine ⟨_, _, rfl, mark_frame_trans hmf hmf2, hmono, hw2, hi2, (fun h => nomatch h),
        fun _ => ⟨P ++ A, hstack⟩, rfl, fun x hx => ?_, by simp, by simpa using hne⟩
      have : x = (cur, o.gc_marked) := by simpa using hx
      subst this
      exact ⟨hmo, hm, hcur2⟩
    | true =>
      have hp := hpl cur ob hob
      have hp2 : ¬ (o.builtin_info.gc_traverse = true ∨ o.has_weak_refs = true) := by
        rw [heo]
        simp [hp.1, hp.2]
      simp only [if_neg hp2]
      have hPA : ∀ t ∈ P ++ A, (s2.obj t).isSome = true := by
        intro t ht
        rcases List.mem_append.mp ht with h | h
        · have := hE t (hPm t h).1
          unfold Store.obj at this ⊢
          rw [e1]
          exact this
        · exact mark_frame_some hmf2 (hA t h)
      obtain ⟨g3, r, hpop, hw3, hi3, hr⟩ := gc_pop_marked_run s2 (gc_stack_size g2 + 1) g2
        (P ++ A) B hw2 hi2 hstack hPA (by rw [stack_size_list, hstack]; simp; omega)
      simp only [hpop]
      rcases hr with ⟨rfl, hB⟩ | ⟨q, A2, rfl, _, hq, hA2, hsub⟩
      · refine ⟨_, _, rfl, mark_frame_trans hmf hmf2, hmono, hw3, hi3, fun _ => hB,
          (fun h => nomatch h), rfl, fun x hx => ?_, by simp, by simpa using hne⟩
        have : x = (cur, o.gc_marked) := by simpa using hx
        subst this
        exact ⟨hmo, hm, hcur2⟩
      · have hcount : marked_count s2 ≤ fuel := by
          have h1 := marked_count_unmark ho hmo
          have h2 : marked_count s2 = marked_count (s.set_obj cur { o with gc_marked := false }) :=
            marked_count_heap e1
          omega
        obtain ⟨r3, t3, h3, f1, f2, f3, f4, f5, f6, f7, f8, f9, f10⟩ :=
          ih s2 g3 q A2 B (mark_frame_trans hmf hmf2) hw3 hi3 hA2
            (fun t ht => hPA t (hsub t ht)) hq hcount
        simp only [h3, Option.map_some']
        refine ⟨_, _, rfl, f1, fun x hx => f2 x (hmono x hx), f3, f4, f5, f6, ?_, ?_, ?_, ?_⟩
        · simp [gc_trace.add, f7]
        · intro x hx
          simp only [gc_trace.add, List.singleton_append, List.mem_cons] at hx
          rcases hx with rfl | hx
          · exact ⟨hmo, hm, f2 cur hcur2⟩
          · obtain ⟨a1, a2, a3⟩ := f8 x hx
            refine ⟨a1, ?_, a3⟩
            cases hsx : mark_of s x.1 with
            | true => rfl
            | false => rw [hmono x.1 hsx] at a2; cases a2
        · simp only [gc_trace.add, List.singleton_append, List.map_cons, List.nodup_cons]
          refine ⟨fun hc => ?_, f9⟩
          obtain ⟨x, hx, hxc⟩ := List.mem_map.mp hc
          have := (f8 x hx).2.1
          rw [hxc, hcur2] at this
          cases this
        · simp only [gc_trace.add, List.singleton_append, List.map_cons, List.sum_cons]
          omega

theorem gc_pop_marked_marked (s : Store) : ∀ (fuel : Nat) (g g1 : gc_ctx) (q : Nat),
    gc_pop_marked s fuel g = some (g1, some q) → mark_of s q = true := by
  intro fuel
  induction fuel with
  | zero => intro g g1 q h; simp [gc_pop_marked] at h
  | succ fuel ih =>
    intro g g1 q h
    simp only [gc_pop_marked] at h
    cases hp : gc_stack_pop g with
    | none => simp [hp] at h
    | some r =>
      obtain ⟨g2, obj⟩ := r
      cases obj with
      | none => simp [hp] at h
      | some x =>
        simp only [hp] at h
        cases ho : s.obj x with
        | none => simp [ho] at h
        | some o =>
          simp only [ho] at h
          split at h
          · next hm =>
            simp only [Option.some.injEq, Prod.mk.injEq] at h
            obtain ⟨_, hq⟩ := h
            subst hq
            rw [mark_of_some ho]
            exact hm
          · exact ih _ _ _ h

theorem marked_count_le (s : Store) : marked_count s ≤ s.heap.length := by
  unfold marked_count
  have := Finset.card_filter_le (Finset.range s.heap.length) (fun x => mark_of s x = true)
  rw [Finset.card_range] at this
  exact this

theorem sum_nodup_le (f : Nat → Nat) {l : List Nat} {n : Nat} (hnd : l.Nodup)
    (hlt : ∀ x ∈ l, x < n) : (l.map f).sum ≤ ((List.range n).map f).sum := by
  rw [← List.sum_toFinset f hnd, ← List.sum_toFinset f (List.nodup_range n)]
  apply Finset.sum_le_sum_of_subset
  intro x hx
  rw [List.mem_toFinset, List.mem_range]
  exact hlt x (List.mem_toFinset.mp hx)

/-- Pass 2 returns; the marks it clears were set, each is cleared once, and the
calls of `gc_stack_push` are at most one for each root and one for each link of
an object whose mark was cleared. -/
theorem gc_pass2_run (sb : Store) (hcl : links_allocated sb) (hpl : traverse_plain sb) :
    ∀ (L : List Nat) (s : Store) (g : gc_ctx), mark_frame sb s → stack_wf g →
      g.idx < GC_CHUNK → stack_list g = [] → (∀ p ∈ L, (sb.obj p).isSome = true) →
      ∃ r t, gc_pass2_trace L s g = some (r, t) ∧ mark_frame sb r.1 ∧
        (∀ x, mark_of s x = false → mark_of r.1 x = false) ∧ t.roots.Sublist L ∧
        (∀ x ∈ t.cleared, x.2 = true ∧ mark_of s x.1 = true ∧ mark_of r.1 x.1 = false) ∧
        (t.cleared.map Prod.fst).Nodup ∧
        t.pushes ≤ t.roots.length + (t.cleared.map fun x => (edges_of sb x.1).length).sum := by
  intro L
  induction L with
  | nil =>
    intro s g hmf _ _ _ _
    exact ⟨_, _, rfl, hmf, fun _ h => h, List.Sublist.slnil, (fun x hx => nomatch hx),
      List.nodup_nil, le_refl _⟩
  | cons p rest ih =>
    intro s g hmf hw hi hl hL
    have hrest : ∀ q ∈ rest, (sb.obj q).isSome = true :=
      fun q hq => hL q (List.mem_cons_of_mem _ hq)
    obtain ⟨obj, ho⟩ := Option.isSome_iff_exists.mp
      (mark_frame_some hmf (hL p (List.mem_cons_self _ _)))
    simp only [gc_pass2_trace, ho]
    by_cases hc : ¬ obj.gc_marked = true ∨ (obj.ref = 0 ∧ obj.proxy.isNone = true)
    · rw [if_pos hc]
      obtain ⟨r, t, h, f1, f2, f3, f4, f5, f6⟩ := ih s g hmf hw hi hl hrest
      exact ⟨r, t, h, f1, f2, List.Sublist.cons _ f3, f4, f5, f6⟩
    · rw [if_neg hc]
      have hm : obj.gc_marked = true := by
        by_contra h
        exact hc (Or.inl h)
      cases hp : gc_stack_push g s.avail none with
      | none =>
        refine ⟨_, _, rfl, hmf, fun _ h => h, ?_, (fun x hx => nomatch hx), List.nodup_nil, ?_⟩
        · exact List.Sublist.cons₂ _ (List.nil_sublist _)
        · simp
      | some r1 =>
        obtain ⟨g1, a⟩ := r1
        obtain ⟨hw1, hi1, hs1⟩ := gc_stack_push_ok hw hi hp
        rw [hl] at hs1
        have hmfa : mark_frame s ({ s with avail := a } : Store) := mark_frame_of_heap rfl rfl
        have hms : ∀ x, mark_of ({ s with avail := a } : Store) x = mark_of s x :=
          fun x => mark_of_heap rfl x
        obtain ⟨r2, t2, h2, a1, a2, a3, a4, a5, a6, a7, a8, a9, a10⟩ :=
          gc_traverse_loop_run sb hcl hpl (s.heap.length + 1) { s with avail := a } g1 p [] []
            (mark_frame_trans hmf hmfa) hw1 hi1 (by rw [hs1]; rfl) (fun t ht => nomatch ht)
            (by rw [hms, mark_of_some ho]; exact hm)
            (Nat.le_succ_of_le (marked_count_le _))
        obtain ⟨⟨s2, g2, b⟩, hr2⟩ : ∃ x : Store × gc_ctx × Bool, x = r2 := ⟨r2, rfl⟩
        subst hr2
        simp only [h2]
        cases b with
        | false =>
          obtain ⟨A1, hA1⟩ := a6 rfl
          obtain ⟨g3, h3, _, _, _⟩ := gc_drain_run (gc_stack_size g2 + 1) g2 A1 [] a3 a4 hA1
            (by rw [stack_size_list, hA1]; simp; omega)
          simp only [h3, Option.map_some']
          refine ⟨_, _, rfl, a1, fun x hx => a2 x (by rw [hms]; exact hx), ?_, fun x hx => ?_,
            ?_, ?_⟩
          · simp only [gc_trace.add, a7, List.append_nil]
            exact List.Sublist.cons₂ _ (List.nil_sublist _)
          · simp only [gc_trace.add, List.nil_append] at hx
            obtain ⟨b1, b2, b3⟩ := a8 x hx
            exact ⟨b1, by rw [← hms]; exact b2, b3⟩
          · simpa [gc_trace.add] using a9
          · simp only [gc_trace.add, a7, List.nil_append, List.append_nil, List.length_singleton]
            omega
        | true =>
          obtain ⟨r3, t3, h3, c1, c2, c3, c4, c5, c6⟩ := ih s2 g2 a1 a3 a4 (a5 rfl) hrest
          simp only [h3, Option.map_some']
          refine ⟨_, _, rfl, c1, fun x hx => c2 x (a2 x (by rw [hms]; exact hx)), ?_,
            fun x hx => ?_, ?_, ?_⟩
          · simp only [gc_trace.add, a7, List.append_nil, List.singleton_append]
            exact List.Sublist.cons₂ _ c3
          · simp only [gc_trace.add, List.nil_append, List.mem_append] at hx
            rcases hx with hx | hx
            · obtain ⟨b1, b2, b3⟩ := a8 x hx
              exact ⟨b1, by rw [← hms]; exact b2, c2 _ b3⟩
            · obtain ⟨b1, b2, b3⟩ := c4 x hx
              refine ⟨b1, ?_, b3⟩
              cases hsx : mark_of s x.1 with
              | true => rfl
              | false =>
                rw [a2 x.1 (by rw [hms]; exact hsx)] at b2
                cases b2
          · simp only [gc_trace.add, List.nil_append, List.map_append]
            refine List.Nodup.append a9 c5 (fun y hy1 hy2 => ?_)
            obtain ⟨x1, hx1, e1⟩ := List.mem_map.mp hy1
            obtain ⟨x2, hx2, e2⟩ := List.mem_map.mp hy2
            have h1 := (a8 x1 hx1).2.2
            have h2 := (c4 x2 hx2).2.1
            rw [e1] at h1
            rw [e2, h1] at h2
            cases h2
          · simp only [gc_trace.add, a7, List.nil_append, List.append_nil, List.singleton_append,
              List.length_cons, List.map_append, List.sum_append]
            omega

theorem links_allocated_of {s : Store}
    (h : ∀ x, x < s.heap.length → ∀ q ∈ edges_of s x, (s.obj q).isSome = true) :
    links_allocated s := by
  intro x o ho q hq
  refine h x (obj_lt ho) q ?_
  unfold edges_of
  rw [ho]
  exact hq

theorem traverse_plain_of {s : Store}
    (h : ∀ x, x < s.heap.length →
      (s.obj x).map (fun o => o.builtin_info.gc_traverse || o.has_weak_refs) ≠ some true) :
    traverse_plain s := by
  intro x o ho
  have := h x (obj_lt ho)
  rw [ho] at this
  simp only [Option.map_some', ne_eq, Option.some.injEq, Bool.or_eq_true, not_or,
    Bool.not_eq_true] at this
  exact this

/-- C36. Pass 2 of `gc_run` terminates on every finite object graph, cycles and
self-references included.  On a store in which the listed objects and the links
of every object are allocated and no object has a traversal callback or weak
references, pass 2 over the list `L` returns, with the trace `t` of what it
did: every round of the inner loop cleared the mark of an object that had it;
the pops skip the objects without mark, so a traversal only goes on from a
marked object; the mark of no object is cleared twice; and the calls of
`gc_stack_push` are at most one for each root and one for each link of an
object whose mark was cleared, so at most the number of roots plus the number
of links of the graph. -/
theorem gc_pass2_terminates (s : Store) (L : List Nat)
    (hL : ∀ p ∈ L, (s.obj p).isSome = true) (hcl : links_allocated s)
    (hpl : traverse_plain s) :
    ∃ r t, gc_pass2_trace L s gc_ctx.init = some (r, t) ∧ gc_pass2 L s gc_ctx.init = some r ∧
      (∀ x ∈ t.cleared, x.2 = true ∧ mark_of s x.1 = true ∧ mark_of r.1 x.1 = false) ∧
      (∀ s2 fuel g g1 q, gc_pop_marked s2 fuel g = some (g1, some q) → mark_of s2 q = true) ∧
      (t.cleared.map Prod.fst).Nodup ∧ t.roots.Sublist L ∧
      t.pushes ≤ t.roots.length + (t.cleared.map fun x => (edges_of s x.1).length).sum ∧
      t.pushes ≤ L.length + edge_count s := by
  obtain ⟨r, t, h, _, _, f3, f4, f5, f6⟩ := gc_pass2_run s hcl hpl L s gc_ctx.init
    (mark_frame_refl s) rfl (by decide) rfl hL
  refine ⟨r, t, h, ?_, f4, fun s2 fuel g g1 q hq => gc_pop_marked_marked s2 fuel g g1 q hq, f5,
    f3, f6, ?_⟩
  · rw [← gc_pass2_erase, h]
    rfl
  · have h1 : (t.cleared.map fun x => (edges_of s x.1).length).sum ≤ edge_count s := by
      have := sum_nodup_le (fun x => (edges_of s x).length) f5 (fun x hx => by
        obtain ⟨y, hy, e⟩ := List.mem_map.mp hx
        obtain ⟨o, ho, _⟩ := mark_of_true (f4 y hy).2.1
        rw [← e]
        exact obj_lt ho)
      rw [List.map_map] at this
      exact this
    have h2 := f3.length_le
    omega

theorem gc_pass2_terminates_witness :
    (∀ p ∈ store_ring_marked.ctx.objects, (store_ring_marked.obj p).isSome = true) ∧
    links_allocated store_ring_marked ∧ traverse_plain store_ring_marked ∧
    store_ring_marked.ctx.objects = [0, 1] ∧ edges_of store_ring_marked 0 = [1] ∧
    edges_of store_ring_marked 1 = [0, 1] ∧
    (gc_pass2_trace store_ring_marked.ctx.objects store_ring_marked gc_ctx.init).map
      (fun r => (r.2, r.1.2.2)) =
      some ({ cleared := [(0, true), (1, true)], pushes := 2, roots := [0] }, true) ∧
    ∃ r t, gc_pass2_trace store_ring_marked.ctx.objects store_ring_marked gc_ctx.init =
        some (r, t) ∧
      gc_pass2 store_ring_marked.ctx.objects store_ring_marked gc_ctx.init = some r ∧
      (∀ x ∈ t.cleared, x.2 = true ∧ mark_of store_ring_marked x.1 = true ∧
        mark_of r.1 x.1 = false) ∧
      (∀ s2 fuel g g1 q, gc_pop_marked s2 fuel g = some (g1, some q) → mark_of s2 q = true) ∧
      (t.cleared.map Prod.fst).Nodup ∧ t.roots.Sublist store_ring_marked.ctx.objects ∧
      t.pushes ≤ t.roots.length +
        (t.cleared.map fun x => (edges_of store_ring_marked x.1).length).sum ∧
      t.pushes ≤ store_ring_marked.ctx.objects.length + edge_count store_ring_marked :=
  ⟨by decide, links_allocated_of (by decide), traverse_plain_of (by decide), by decide,
    by decide, by decide, by decide,
    gc_pass2_terminates store_ring_marked store_ring_marked.ctx.objects (by decide)
      (links_allocated_of (by decide)) (traverse_plain_of (by decide))⟩

/-! ### Define and describe -/

/-- The own-table lookup of a name of which every slot is a tombstone or a
prototype reference, and which is no builtin and no element when it has no
slot: `jsdisp_get_own_property` returns `DISP_E_UNKNOWNNAME`. -/
theorem get_own_property_unknown (s : Store) (p : Nat) (o : jsdisp_t) (name : WSTR)
    (ho : s.obj p = some o) (hwf : props_wf o) (hpx : o.proxy = none)
    (hov : override_idx o name = none)
    (hall : ∀ j, j < o.prop_cnt → (slot o j).name = name →
      (slot o j).type = prop_type_t.PROP_DELETED ∨ (slot o j).type = prop_type_t.PROP_PROTREF)
    (habs : (∀ j, j < o.prop_cnt → (slot o j).name ≠ name) →
      find_builtin_prop s.ctx o name false = none ∧ is_element_name o name = false)
    (fo : Bool) :
    ∃ s2, jsdisp_get_own_property s p name fo = some (s2, HRESULT.DISP_E_UNKNOWNNAME, none) := by
  obtain ⟨o1, r, hraw, _, hlt, hfound⟩ := raw_lookup_wf o (string_hash name) name false hwf
  obtain ⟨fr, hnone, hsome⟩ := raw_frame _ _ _ _ _ _ hraw
  cases r with
  | some i =>
    have hfind : find_prop_name s p (string_hash name) name false =
        some (s.set_obj p o1, HRESULT.S_OK, some i) := by
      unfold find_prop_name
      simp only [ho, hraw, hpx, Option.isSome_none, Bool.false_eq_true, if_false]
    have hn : (slot o i).name = name := (name_match_exact _ _).1 (hsome i rfl).2.1
    have ht := hall i (hlt i rfl) hn
    rw [← (fr.2.2 i).2.2.1] at ht
    unfold jsdisp_get_own_property
    simp only [ho, hov, hfind, FAILED, Bool.false_eq_true, if_false, obj_set_obj_self ho]
    rcases ht with ht | ht
    · simp only [ht]
      exact ⟨_, rfl⟩
    · simp only [ht]
      exact ⟨_, rfl⟩
  | none =>
    have hT := hnone rfl
    subst hT
    have hno : ∀ j, j < o1.prop_cnt → (slot o1 j).name ≠ name := by
      intro j hj hn
      have := hfound ⟨j, hj, by rw [hwf.2.2.2.2.1 j hj, hn], by
        rw [hn]; exact (name_match_exact _ _).2 rfl⟩
      cases this
    obtain ⟨hb, hidx⟩ := habs hno
    have hfind := find_prop_name_miss s p (string_hash name) name false o1 ho hpx hraw hb hidx
    unfold jsdisp_get_own_property
    simp only [ho, hov, hfind, FAILED, Bool.false_eq_true, if_false]
    exact ⟨_, rfl⟩
theorem jsval_copy_facts {s s1 : Store} {v : jsval_t} (h : jsval_copy s v = some s1) :
    s1.ctx.version = s.ctx.version ∧ s1.heap.length = s.heap.length ∧
    (∀ q, v = jsval_t.obj q → (s1.obj q).isSome = true) := by
  refine ⟨?_, (jsval_copy_soft h).1, ?_⟩
  · unfold jsval_copy at h
    cases hl : val_link v with
    | none => rw [hl] at h; injection h with h; subst h; rfl
    | some q =>
      rw [hl] at h
      have hc := jsdisp_addref_ctx_frame h
      unfold ctx_frame at hc
      rw [hc]
  · intro q hq
    subst hq
    simp only [jsval_copy, val_link] at h
    cases ho : s.obj q with
    | none => simp [jsdisp_addref, ho] at h
    | some o =>
      obtain ⟨s0, h0, h1, _⟩ := jsdisp_addref_some s q o ho
      rw [h] at h0
      injection h0 with h0
      subst h0
      rw [h1]; rfl

theorem store_set_slot_facts {s s1 : Store} {p i : Nat} {f : dispex_prop_t → dispex_prop_t}
    (h : store_set_slot s p i f = some s1) :
    s1.ctx.version = s.ctx.version ∧ s1.heap.length = s.heap.length ∧
    (∀ q, (s.obj q).isSome = true → (s1.obj q).isSome = true) := by
  obtain ⟨o, ho, he⟩ := store_set_slot_eq h
  subst he
  refine ⟨rfl, by simp [Store.set_obj], fun q hq => alive_set_obj ho _ q hq⟩

/-- The definition of a data property on a slot that is a tombstone: the slot
gets the flags of the descriptor, the kind of a value slot and the value. -/
theorem define_new_data (s2 : Store) (p i : Nat) (T : jsdisp_t) (f : Nat) (v : jsval_t)
    (hT : s2.obj p = some T) (s1 : Store) (hres : HRESULT)
    (hd : define_new_prop s2 p i
        { flags := f, mask := f, explicit_value := true, value := v,
          explicit_getter := false, getter := none, explicit_setter := false, setter := none }
        = some (s1, hres)) :
    hres = HRESULT.S_OK ∧ s1.ctx.version = s2.ctx.version ∧
    s1.heap.length = s2.heap.length ∧
    (∀ q, v = jsval_t.obj q → (s1.obj q).isSome = true) ∧
    ∃ r, s1.obj p = some (set_slot { T with ref := r } i
        (fun q => { q with flags := f, type := prop_type_t.PROP_JSVAL, u := prop_u.val v })) := by
  unfold define_new_prop at hd
  have h0 := upd_step_refl p i s2
  obtain ⟨sa, ha, ua⟩ := upd_step_set_slot h0 hT (fun q => { q with flags := f })
  obtain ⟨sb, hb, ub⟩ := upd_step_set_slot ua hT
    (fun q => { q with type := prop_type_t.PROP_JSVAL })
  rw [ha] at hd
  simp only [Option.some_bind, Bool.or_self, Bool.false_eq_true, if_false] at hd
  rw [hb] at hd
  simp only [Option.some_bind, if_true] at hd
  cases hc : jsval_copy sb v with
  | none => rw [hc] at hd; cases hd
  | some sc =>
    rw [hc] at hd
    simp only [Option.some_bind] at hd
    have fa := store_set_slot_facts ha
    have fb := store_set_slot_facts hb
    have fc := jsval_copy_facts hc
    have hvb : ∀ q, v = jsval_t.obj q → (sb.obj q).isSome = true := by
      intro q hq
      subst hq
      simp only [jsval_copy, val_link] at hc
      cases ho : sb.obj q with
      | none => simp [jsdisp_addref, ho] at hc
      | some o => rfl
    obtain ⟨sc1, hc1, uc⟩ := upd_step_copy ub hvb
    rw [hc] at hc1
    injection hc1 with hc1
    subst hc1
    obtain ⟨sd, hd1, ud⟩ := upd_step_set_slot uc hT (fun q => { q with u := prop_u.val v })
    rw [hd1] at hd
    simp only [Option.map_some', Option.some.injEq, Prod.mk.injEq] at hd
    obtain ⟨e1, e2⟩ := hd
    subst e1
    have fd := store_set_slot_facts hd1
    refine ⟨e2.symm, ?_, ?_, fun q hq => fd.2.2 q (fc.2.2 q hq), ?_⟩
    · rw [fd.1, fc.1, fb.1, fa.1]
    · rw [fd.2.1, fc.2.1, fb.2.1, fa.2.1]
    · obtain ⟨r, hr⟩ := ud p T hT
      rw [if_pos rfl] at hr
      exact ⟨r, hr⟩
/-- An own value slot is described: the only slot of the name, a value slot
with the flags `f` and the value `v`, gives the data descriptor of `f` and
`v`. -/
theorem describe_data_slot (s : Store) (p i : Nat) (o : jsdisp_t) (name : WSTR) (f : Nat)
    (v : jsval_t) (ho : s.obj p = some o) (hwf : props_wf o) (hpx : o.proxy = none)
    (hov : override_idx o name = none) (hi : i < o.prop_cnt) (hn : (slot o i).name = name)
    (hu : ∀ j, j < o.prop_cnt → (slot o j).name = name → j = i)
    (ht : (slot o i).type = prop_type_t.PROP_JSVAL) (hfl : (slot o i).flags = f)
    (hval : (slot o i).u = prop_u.val v) (hv : val_ok s v) :
    (∃ s2, jsdisp_get_own_property s p name false =
      some (s2, HRESULT.S_OK, some (data_desc f v))) ∧
    (∃ s2, jsdisp_get_own_property s p name true =
      some (s2, HRESULT.S_OK, some (data_desc f jsval_t.undefined))) := by
  obtain ⟨o1, hfind, tf, _⟩ := find_prop_name_found s p name o i ho hpx hwf hi hn hu
  have ho1 : (s.set_obj p o1).obj p = some o1 := obj_set_obj_self ho o1
  have hc := tf.2.2 i
  have ht1 : (slot o1 i).type = prop_type_t.PROP_JSVAL := by rw [hc.2.2.1, ht]
  have hfl1 : (slot o1 i).flags = f := by rw [hc.2.2.2.1, hfl]
  have hval1 : (slot o1 i).u = prop_u.val v := by rw [hc.2.2.2.2, hval]
  have hpx1 : o1.proxy = none := by
    rw [(same_fields_proxy (table_frame_fields tf).2.2).1, hpx]
  have hil : i < o1.props.length := by
    rw [tf.2.1, hwf.1]
    exact Nat.lt_of_lt_of_le hi hwf.2.2.2.1
  have hv1 : val_ok (s.set_obj p o1) v := @val_ok_mono s (s.set_obj p o1) rfl (alive_set_obj ho o1) v hv
  constructor
  · obtain ⟨s2, hcp, hcv, _⟩ := copy_ok _ v hv1
    have hpg := prop_get_value (s.set_obj p o1) p i o1 ho1 hpx1 hil ht1
    rw [hval1] at hpg
    have hu1 : u_val (prop_u.val v) = v := rfl
    rw [hu1, hcp] at hpg
    simp only [Option.some_bind, hcv, Option.map_some'] at hpg
    refine ⟨s2, ?_⟩
    unfold jsdisp_get_own_property
    simp only [ho, hov, hfind, FAILED, Bool.false_eq_true, if_false, ho1, ht1, hpg, hfl1,
      desc_zero, data_desc, not_false_eq_true, if_true]
  · refine ⟨s.set_obj p o1, ?_⟩
    unfold jsdisp_get_own_property
    simp only [ho, hov, hfind, FAILED, Bool.false_eq_true, if_false, ho1, ht1, hfl1,
      desc_zero, data_desc, if_true]
/-- C37, as stated, fails on a builtin and on an element of a typed array.  The
object of `store_am` has no proxy and no slot, so the own slot of the names `m`
and `a` is absent, and the index override claims neither;
`jsdisp_get_own_property` finds the builtin of the class, makes its slot and
returns `S_OK` with a descriptor, not `DISP_E_UNKNOWNNAME`.  The typed array of
`store_typed_array` has no slot either, and for the name `0`, which the index
override claims, the call returns `S_OK` before it reads the table. -/
theorem describe_builtin_counterexample :
    store_am.obj 0 = some (obj_at store_am 0) ∧ (obj_at store_am 0).proxy = none ∧
    (obj_at store_am 0).prop_cnt = 0 ∧
    override_idx (obj_at store_am 0) [109] = none ∧
    override_idx (obj_at store_am 0) [97] = none ∧
    (jsdisp_get_own_property store_am 0 [109] false).map (fun r => r.2) =
      some (HRESULT.S_OK, some (data_desc (PROPF_WRITABLE ||| PROPF_CONFIGURABLE)
        (jsval_t.obj 1))) ∧
    (jsdisp_get_own_property store_am 0 [109] true).map (fun r => r.2) =
      some (HRESULT.S_OK, some (data_desc (PROPF_WRITABLE ||| PROPF_CONFIGURABLE)
        jsval_t.undefined)) ∧
    (jsdisp_get_own_property store_am 0 [97] true).map (fun r => r.2) =
      some (HRESULT.S_OK, some (data_desc 0 jsval_t.undefined)) ∧
    (obj_at store_typed_array 0).proxy = none ∧ (obj_at store_typed_array 0).prop_cnt = 0 ∧
    override_idx (obj_at store_typed_array 0) [48] = some 0 ∧
    (jsdisp_get_own_property store_typed_array 0 [48] true).map (fun r => r.2) =
      some (HRESULT.S_OK, some (data_desc (PROPF_ENUMERABLE ||| PROPF_WRITABLE)
        jsval_t.undefined)) ∧
    ¬ (∀ name fo, (∀ j, j < (obj_at store_am 0).prop_cnt →
          (slot (obj_at store_am 0) j).name = name →
          (slot (obj_at store_am 0) j).type = prop_type_t.PROP_DELETED ∨
            (slot (obj_at store_am 0) j).type = prop_type_t.PROP_PROTREF) →
        ∃ s2, jsdisp_get_own_property store_am 0 name fo =
          some (s2, HRESULT.DISP_E_UNKNOWNNAME, none)) := by
  refine ⟨by decide, by decide, by decide, by decide, by decide, by decide, by decide,
    by decide, by decide, by decide, by decide, by decide, ?_⟩
  intro h
  have hc0 : (obj_at store_am 0).prop_cnt = 0 := by decide
  obtain ⟨s2, h2⟩ := h [109] true
    (fun j hj _ => absurd hj (by rw [hc0]; exact Nat.not_lt_zero j))
  have h3 : (jsdisp_get_own_property store_am 0 [109] true).map (fun r => r.2.1) =
      some HRESULT.S_OK := by decide
  rw [h2] at h3
  cases h3

/-- C37, amended.  For an object `o` at `p` without proxy whose slot table is
well formed and a name:
(1) if `o` is extensible and the name is not the name of a slot of `o`, not a
builtin of its class and not an indexed element of it, then for all flags `f`
and every value `v` (a foreign object only below ES5, where reading it back does
not ask the host to bind it), after `jsdisp_define_data_property` has returned
`S_OK`, `jsdisp_get_own_property` returns `S_OK` with the data descriptor of
`v` and of `f` restricted to enumerable, writable and configurable; with
`flags_only` it returns the same descriptor without the value;
(2) if the index override does not claim the name, every slot of `o` with the
name is a tombstone or a prototype reference, and the name is neither a builtin
nor an indexed element when `o` has no slot of the name, then
`jsdisp_get_own_property` returns `DISP_E_UNKNOWNNAME`. -/
theorem define_describe_round_trip (s : Store) (p : Nat) (o : jsdisp_t) (name : WSTR)
    (ho : s.obj p = some o) (hwf : props_wf o) (hb : o.prop_cnt < 2 ^ 31)
    (hpx : o.proxy = none) :
    (o.extensible = true → (∀ j, j < o.prop_cnt → (slot o j).name ≠ name) →
      find_builtin_prop s.ctx o name false = none → is_element_name o name = false →
      ∀ (f : Nat) (v : jsval_t) (s1 : Store),
        (∀ d, v = jsval_t.disp d → s.ctx.version < SCRIPTLANGUAGEVERSION_ES5) →
        jsdisp_define_data_property s p name f v = some (s1, HRESULT.S_OK) →
        (∃ s2, jsdisp_get_own_property s1 p name false =
          some (s2, HRESULT.S_OK, some (data_desc f v))) ∧
        (∃ s2, jsdisp_get_own_property s1 p name true =
          some (s2, HRESULT.S_OK, some (data_desc f jsval_t.undefined)))) ∧
    (override_idx o name = none →
      (∀ j, j < o.prop_cnt → (slot o j).name = name →
        (slot o j).type = prop_type_t.PROP_DELETED ∨
          (slot o j).type = prop_type_t.PROP_PROTREF) →
      ((∀ j, j < o.prop_cnt → (slot o j).name ≠ name) →
        find_builtin_prop s.ctx o name false = none ∧ is_element_name o name = false) →
      ∀ fo, ∃ s2, jsdisp_get_own_property s p name fo =
        some (s2, HRESULT.DISP_E_UNKNOWNNAME, none)) := by
  refine ⟨?_, fun hov hall habs fo =>
    get_own_property_unknown s p o name ho hwf hpx hov hall habs fo⟩
  intro hext hno hbn hidx f v s1 hver hdef
  have hnm : ∀ j, j < o.prop_cnt → name_match false name (slot o j).name = false :=
    fun j hj => name_match_ne _ _ (hno j hj)
  have hraw := raw_miss o (string_hash name) name false hwf hnm
  have hfind := find_prop_name_miss s p (string_hash name) name false o ho hpx hraw hbn hidx
  unfold jsdisp_define_data_property jsdisp_define_property at hdef
  simp only [ho] at hdef
  cases hov : override_idx o name with
  | some idx =>
    rw [hov] at hdef
    simp only [throw_error, if_true] at hdef
    split at hdef
    · cases hdef
    · cases hdef
  | none =>
    rw [hov] at hdef
    simp only [hfind, FAILED, Bool.false_eq_true, if_false, ho, hext, and_false] at hdef
    cases hal : store_alloc_prop s p name prop_type_t.PROP_DELETED 0 with
    | none => rw [hal] at hdef; cases hdef
    | some sr =>
      obtain ⟨sa, r⟩ := sr
      rw [hal] at hdef
      obtain ⟨hsa, hr⟩ := store_alloc_prop_eq ho hal
      obtain ⟨hwfT, _, _, hcase⟩ :=
        alloc_prop_facts o name prop_type_t.PROP_DELETED 0 s.avail hwf hb
      rcases hcase with ⟨h1, _⟩ | ⟨h1, hcnt, htype, hlen⟩
      · rw [h1] at hr
        subst hr
        simp only at hdef
        cases hdef
      · have hnil : o.prop_cnt < NIL := by
          have h31 : (2 : Nat) ^ 31 = 2147483648 := by norm_num
          unfold NIL
          omega
        have hA : alloc_prop o name prop_type_t.PROP_DELETED 0 s.avail =
            (some o.prop_cnt, (alloc_prop o name prop_type_t.PROP_DELETED 0 s.avail).2.1,
              (alloc_prop o name prop_type_t.PROP_DELETED 0 s.avail).2.2) := by
          rw [← h1]
        obtain ⟨_, _, _, _, _, _, hsf, hold, hname, _, _, _, _⟩ :=
          alloc_prop_some o name prop_type_t.PROP_DELETED 0 s.avail o.prop_cnt _ _ hA hwf.1
            hwf.2.2.2.1 (by have := hwf.2.1; omega) hnil
        generalize (alloc_prop o name prop_type_t.PROP_DELETED 0 s.avail).2.1 = T at *
        generalize (alloc_prop o name prop_type_t.PROP_DELETED 0 s.avail).2.2 = av at *
        rw [h1] at hr
        subst hr
        have hTo : sa.obj p = some T := by
          rw [hsa]
          exact obj_set_obj_self ho T
        have hTpx : T.proxy = none := by rw [(same_fields_proxy hsf).1, hpx]
        simp only [hTo, hTpx, Option.isSome_none, Bool.false_eq_true, false_and, if_false,
          htype, true_or, if_true] at hdef
        obtain ⟨_, hver1, _, hal1, rr, ho1⟩ :=
          define_new_data sa p o.prop_cnt T f v hTo s1 HRESULT.S_OK hdef
        have hwfR : props_wf ({ T with ref := rr } : jsdisp_t) := hwfT
        have hwf1 := props_wf_set_slot ({ T with ref := rr } : jsdisp_t) o.prop_cnt
          (fun q => { q with flags := f, type := prop_type_t.PROP_JSVAL, u := prop_u.val v })
          (fun _ => ⟨rfl, rfl, rfl, rfl⟩) hwfR
        have hilR : o.prop_cnt < ({ T with ref := rr } : jsdisp_t).props.length := hlen
        have hslot := slot_set_slot_self ({ T with ref := rr } : jsdisp_t) o.prop_cnt
          (fun q => { q with flags := f, type := prop_type_t.PROP_JSVAL, u := prop_u.val v })
          hilR
        have hvok : val_ok s1 v := by
          cases v with
          | undefined => trivial
          | number n => trivial
          | obj q => exact hal1 q rfl
          | disp d =>
            show s1.ctx.version < SCRIPTLANGUAGEVERSION_ES5
            rw [hver1, hsa]
            exact hver d rfl
        refine describe_data_slot s1 p o.prop_cnt _ name f v ho1 hwf1 hTpx ?_ ?_ ?_ ?_ ?_ ?_ ?_
          hvok
        · have hbi : T.builtin_info = o.builtin_info := (same_fields_proxy hsf).2.1
          simp only [override_idx, set_slot, hbi] at hov ⊢
          exact hov
        · show o.prop_cnt < T.prop_cnt
          omega
        · rw [hslot]
          exact hname
        · intro j hj hjn
          by_contra hne
          have hj1 : j < o.prop_cnt := by
            have : j < T.prop_cnt := hj
            omega
          rw [slot_set_slot_ne _ _ hne] at hjn
          have hc : same_core (slot T j) (slot o j) := hold j hj1
          exact hno j hj1 (hc.1.symm.trans hjn)
        · rw [hslot]
        · rw [hslot]
        · rw [hslot]
theorem define_describe_round_trip_witness :
    store_shadow.obj 1 = some (obj_at store_shadow 1) ∧ props_wf (obj_at store_shadow 1) ∧
    (obj_at store_shadow 1).prop_cnt < 2 ^ 31 ∧ (obj_at store_shadow 1).proxy = none ∧
    (obj_at store_shadow 1).extensible = true ∧ (obj_at store_shadow 1).prop_cnt = 0 ∧
    find_builtin_prop store_shadow.ctx (obj_at store_shadow 1) name_x false = none ∧
    is_element_name (obj_at store_shadow 1) name_x = false ∧
    override_idx (obj_at store_shadow 1) name_x = none ∧
    (jsdisp_get_own_property store_shadow 1 name_x false).map (fun r => r.2) =
      some (HRESULT.DISP_E_UNKNOWNNAME, none) ∧
    (jsdisp_define_data_property store_shadow 1 name_x (PROPF_ENUMERABLE ||| PROPF_METHOD)
      (jsval_t.number 7)).map (fun r => r.2) = some HRESULT.S_OK ∧
    ((jsdisp_define_data_property store_shadow 1 name_x (PROPF_ENUMERABLE ||| PROPF_METHOD)
      (jsval_t.number 7)).bind fun r =>
        (jsdisp_get_own_property r.1 1 name_x false).map fun r1 => r1.2) =
      some (HRESULT.S_OK, some
        { flags := PROPF_ENUMERABLE,
          mask := PROPF_WRITABLE ||| PROPF_ENUMERABLE ||| PROPF_CONFIGURABLE,
          explicit_value := true, value := jsval_t.number 7, explicit_getter := false,
          getter := none, explicit_setter := false, setter := none }) ∧
    ((obj_at store_shadow 1).extensible = true →
      (∀ j, j < (obj_at store_shadow 1).prop_cnt →
        (slot (obj_at store_shadow 1) j).name ≠ name_x) →
      find_builtin_prop store_shadow.ctx (obj_at store_shadow 1) name_x false = none →
      is_element_name (obj_at store_shadow 1) name_x = false →
      ∀ (f : Nat) (v : jsval_t) (s1 : Store),
        (∀ d, v = jsval_t.disp d → store_shadow.ctx.version < SCRIPTLANGUAGEVERSION_ES5) →
        jsdisp_define_data_property store_shadow 1 name_x f v = some (s1, HRESULT.S_OK) →
        (∃ s2, jsdisp_get_own_property s1 1 name_x false =
          some (s2, HRESULT.S_OK, some (data_desc f v))) ∧
        (∃ s2, jsdisp_get_own_property s1 1 name_x true =
          some (s2, HRESULT.S_OK, some (data_desc f jsval_t.undefined)))) ∧
    (override_idx (obj_at store_shadow 1) name_x = none →
      (∀ j, j < (obj_at store_shadow 1).prop_cnt →
        (slot (obj_at store_shadow 1) j).name = name_x →
        (slot (obj_at store_shadow 1) j).type = prop_type_t.PROP_DELETED ∨
          (slot (obj_at store_shadow 1) j).type = prop_type_t.PROP_PROTREF) →
      ((∀ j, j < (obj_at store_shadow 1).prop_cnt →
          (slot (obj_at store_shadow 1) j).name ≠ name_x) →
        find_builtin_prop store_shadow.ctx (obj_at store_shadow 1) name_x false = none ∧
          is_element_name (obj_at store_shadow 1) name_x = false) →
      ∀ fo, ∃ s2, jsdisp_get_own_property store_shadow 1 name_x fo =
        some (s2, HRESULT.DISP_E_UNKNOWNNAME, none)) :=
  ⟨by decide, by decide, by decide, by decide, by decide, by decide, by decide, by decide,
    by decide, by decide, by decide, by decide,
    define_describe_round_trip store_shadow 1 (obj_at store_shadow 1) name_x (by decide)
      (by decide) (by decide) (by decide)⟩

/-! ### A tombstone over a stale prototype reference -/

/-- C29. On the chain `N` over `O` over `P` over `Q`, made by creating the
objects, putting `Q.x = 1`, `P.x = 2` and `N.x = 3`, and deleting `x` from `P`
and from `N` (both removed): `N` has no proxy and the own tombstone slot 0
named `x`, and its prototype chain provides a live `x`, the value slot
`Q.x = 1` (`O` holds a prototype reference for `x`, `P` a tombstone).  Yet
`find_prop_name_prot(N, x)` returns slot 0 of `N` still a tombstone, not a
prototype reference, and `jsdisp_propget_name(N, x)` yields undefined.  The
call after that returns the same slot as a prototype reference with `ref` 0,
the index of the slot of `O`, with `prop_cnt` unchanged, and the read yields
1. -/
theorem tombstone_reuse_misses :
    (disp_delete_name store_chain4 1 name_x).map (fun r => r.2) = some (HRESULT.S_OK, true) ∧
    ((disp_delete_name store_chain4 1 name_x).bind fun r0 =>
      (disp_delete_name r0.1 3 name_x).map fun r => r.2) = some (HRESULT.S_OK, true) ∧
    (store_chain4_stale.obj 3).map (fun o => o.proxy) = some none ∧
    slot0_view store_chain4_stale 3
      = some (some 2, 1, name_x, prop_type_t.PROP_DELETED, prop_u.val (jsval_t.number 3)) ∧
    slot0_view store_chain4_stale 2
      = some (some 1, 1, name_x, prop_type_t.PROP_PROTREF, prop_u.ref 0) ∧
    slot0_view store_chain4_stale 1
      = some (some 0, 1, name_x, prop_type_t.PROP_DELETED, prop_u.val (jsval_t.number 2)) ∧
    slot0_view store_chain4_stale 0
      = some (none, 1, name_x, prop_type_t.PROP_JSVAL, prop_u.val (jsval_t.number 1)) ∧
    (find_prop_name_prot store_chain4_stale 3 (string_hash name_x) name_x false).map
      (fun r => (r.2.1, r.2.2, slot_type r.1 3 0))
      = some (HRESULT.S_OK, some 0, some prop_type_t.PROP_DELETED) ∧
    (jsdisp_propget_name store_chain4_stale 3 name_x).map (fun r => r.2)
      = some (HRESULT.S_OK, jsval_t.undefined) ∧
    ((find_prop_name_prot store_chain4_stale 3 (string_hash name_x) name_x false).bind fun r0 =>
      (find_prop_name_prot r0.1 3 (string_hash name_x) name_x false).map
        fun r => (r.2.1, r.2.2, slot0_view r.1 3))
      = some (HRESULT.S_OK, some 0,
          some (some 2, 1, name_x, prop_type_t.PROP_PROTREF, prop_u.ref 0)) ∧
    ((jsdisp_propget_name store_chain4_stale 3 name_x).bind fun r =>
      (jsdisp_propget_name r.1 3 name_x).map fun r1 => r1.2)
      = some (HRESULT.S_OK, jsval_t.number 1) := by
  refine ⟨?_, ?_, ?_, ?_, ?_, ?_, ?_, ?_, ?_, ?_, ?_⟩ <;> rfl

/-- C22. On the same chain with `N` bound to a proxy: slot 0 of `N` is a
tombstone named `x`, the proxy reports the name as removed (`PropFixOverride`
answers `S_OK` with the identifier unknown), and the prototype chain of `N`
provides a live `x`, the value slot `Q.x = 1`.  Yet `fix_overridden_prop`
leaves the slot a tombstone, not a prototype reference.  The call after that
makes it a prototype reference with `ref` 0, the index of the slot of `O`. -/
theorem proxy_removal_misses :
    (store_chain4_proxied.obj 3).map (fun o => o.proxy) = some (some 1) ∧
    slot0_view store_chain4_proxied 3
      = some (some 2, 1, name_x, prop_type_t.PROP_DELETED, prop_u.val (jsval_t.number 3)) ∧
    slot0_view store_chain4_proxied 2
      = some (some 1, 1, name_x, prop_type_t.PROP_PROTREF, prop_u.ref 0) ∧
    slot0_view store_chain4_proxied 1
      = some (some 0, 1, name_x, prop_type_t.PROP_DELETED, prop_u.val (jsval_t.number 2)) ∧
    slot0_view store_chain4_proxied 0
      = some (none, 1, name_x, prop_type_t.PROP_JSVAL, prop_u.val (jsval_t.number 1)) ∧
    ((List.range 3).map fun p => (store_chain4_proxied.obj p).map fun o => o.proxy)
      = [some none, some none, some none] ∧
    (px_owns.PropFixOverride name_x DISPID_UNKNOWN).1 = HRESULT.S_OK ∧
    (px_owns.PropFixOverride name_x DISPID_UNKNOWN).2.dispid = DISPID_UNKNOWN ∧
    (fix_overridden_prop_px px_owns store_chain4_proxied 3 0).map
      (fun r => (r.2, slot0_view r.1 3))
      = some (HRESULT.S_OK,
          some (some 2, 1, name_x, prop_type_t.PROP_DELETED, prop_u.val (jsval_t.number 3))) ∧
    ((fix_overridden_prop_px px_owns store_chain4_proxied 3 0).bind fun r0 =>
      (fix_overridden_prop_px px_owns r0.1 3 0).map fun r => (r.2, slot0_view r.1 3))
      = some (HRESULT.S_OK,
          some (some 2, 1, name_x, prop_type_t.PROP_PROTREF, prop_u.ref 0)) := by
  refine ⟨?_, ?_, ?_, ?_, ?_, ?_, ?_, ?_, ?_, ?_⟩ <;> rfl

end Dispex
